import Mathlib

/-! # MathMap: expression compiler and vector stack machine

A shallow embedding of `mathmap.c` (the AST library's MathMap class): the static
symbol table, the symbol walker of `CompileExpression` with `ParseConstant`,
`ParseName`, `ParseVariable` and `ValidateSymbol`, the evaluation-order sort
`EvaluationSort`, `VirtualMachine`, and the functions that prepare the transformation
functions: `CleanFunctions`, `ExtractVariables`, `ExtractExpressions` and
`CompileMapping`.

Modelling conventions.
* A C string is a `List Char`; reading at or past the end gives the terminator
  `NUL`, and a `NUL` inside the list ends the string as it does in C.
* C `int` is `Int` (or `Nat` for indices that only count upwards from zero);
  machine overflow of `int` is not modelled.
* C `double` is `Rat`.  The C library functions, the constants `DBL_MAX` and
  `AST__BAD` and the rounding `fl` of the machine's arithmetic are supplied through
  the record `MathLib`.  The macros `SAFE_ADD`, `SAFE_SUB` and `SAFE_MUL` and the
  opcode `OP_DIM` round each sum, difference, product and quotient they form with
  `fl`, since what they return depends on it: the overflow test of a macro compares a
  rounded value, and a result beyond `DBL_MAX` is an infinity, which `fl` gives as
  `HUGE_VAL` or `-HUGE_VAL`.  The other arithmetic is exact.
* The global error status is the `Except` monad (with `AstError`, `FunError` or
  `MapError` for the report): the first error reported ends the computation, as
  every function of the source returns at once when `astOK` is false.
-/

namespace MathMap

deriving instance DecidableEq for Except

/-! ## Errors -/

/-- Error codes reported by the compiler (`AST__CONIN` ... `AST__NORHS`). -/
inductive ErrCode
  | CONIN | UDVOF | DELIN | MLPAR | WRNFA | MIOPR | MIOPA | MRPAR
  | MISVN | VARIN | DUVAR | NORHS
  deriving DecidableEq, Repr

/-- An error report: its code and the source fragment quoted in the message (the
text substituted for the `%s` or `%.*s` of the format). -/
structure AstError where
  code : ErrCode
  quoted : List Char
  deriving DecidableEq, Repr

/-! ## C strings -/

/-- The string terminator. -/
def NUL : Char := Char.ofNat 0

/-- Character `s[i]` of a C string. -/
def cget (s : List Char) (i : Nat) : Char := s.getD i NUL

/-- The characters of a C string up to its terminator (what `%s` prints). -/
def cstr (s : List Char) : List Char := s.takeWhile (fun c => c != NUL)

/-- What `%.*s` prints: at most `n` characters of the string. -/
def cprefix (n : Nat) (s : List Char) : List Char := (cstr s).take n

/-- Length of a C string (`strlen`). -/
def strlen (s : List Char) : Nat := (cstr s).length

/-- Whether `strncmp( a + ia, b + ib, n )` is zero. -/
def strncmp0 (a : List Char) (ia : Nat) (b : List Char) (ib : Nat) : Nat → Bool
  | 0 => true
  | n + 1 =>
    if cget a ia != cget b ib then false
    else if cget a ia == NUL then true
    else strncmp0 a (ia + 1) b (ib + 1) n

/-! ## Operation codes and the symbol table -/

/-- Operation codes of the virtual machine (the `Oper` enum). -/
inductive Oper
  | OP_NULL | OP_LDCON | OP_LDVAR | OP_LDBAD | OP_NEG | OP_SQRT | OP_LOG | OP_LOG10
  | OP_EXP | OP_SIN | OP_COS | OP_TAN | OP_SIND | OP_COSD | OP_TAND | OP_ASIN
  | OP_ACOS | OP_ATAN | OP_ASIND | OP_ACOSD | OP_ATAND | OP_SINH | OP_COSH | OP_TANH
  | OP_ABS | OP_CEIL | OP_FLOOR | OP_NINT | OP_ADD | OP_SUB | OP_MUL | OP_DIV
  | OP_PWR | OP_MIN | OP_MAX | OP_DIM | OP_MOD | OP_SIGN | OP_ATAN2 | OP_ATAN2D
  deriving DecidableEq, Repr

open Oper

/-- The enumerators in declaration order. -/
def operList : List Oper :=
  [OP_NULL, OP_LDCON, OP_LDVAR, OP_LDBAD, OP_NEG, OP_SQRT, OP_LOG, OP_LOG10,
   OP_EXP, OP_SIN, OP_COS, OP_TAN, OP_SIND, OP_COSD, OP_TAND, OP_ASIN,
   OP_ACOS, OP_ATAN, OP_ASIND, OP_ACOSD, OP_ATAND, OP_SINH, OP_COSH, OP_TANH,
   OP_ABS, OP_CEIL, OP_FLOOR, OP_NINT, OP_ADD, OP_SUB, OP_MUL, OP_DIV,
   OP_PWR, OP_MIN, OP_MAX, OP_DIM, OP_MOD, OP_SIGN, OP_ATAN2, OP_ATAN2D]

/-- The cast `(int) op`. -/
def Oper.toInt (o : Oper) : Int := (operList.indexOf o : Nat)

/-- The cast `(Oper) i`; `none` when `i` is no enumerator (no `case` matches). -/
def Oper.ofInt (i : Int) : Option Oper :=
  if i < 0 then none else operList.get? i.toNat

/-- Description of a symbol which may appear in an expression (the `Symbol` struct). -/
structure Symbol where
  text : String
  size : Nat
  operleft : Bool
  operright : Bool
  unarynext : Bool
  unaryoper : Bool
  leftpriority : Int
  rightpriority : Int
  parincrement : Int
  stackincrement : Int
  nargs : Int
  opcode : Oper
  deriving DecidableEq, Repr

/-- The static `symbol[]` array without its terminating entry (whose `text` is NULL). -/
def symbolTable : List Symbol :=
  [ ⟨"",        0, false, false, false, false, 10, 10,  0,  1,  0, OP_LDVAR⟩,
    ⟨"",        0, false, false, false, false, 10, 10,  0,  1,  0, OP_LDCON⟩,
    ⟨")",       1, true,  false, false, false,  2, 10, -1,  0,  0, OP_NULL⟩,
    ⟨"(",       1, false, true,  true,  false, 10,  1,  1,  0,  0, OP_NULL⟩,
    ⟨"-",       1, true,  true,  false, false,  4,  4,  0, -1,  0, OP_SUB⟩,
    ⟨"+",       1, true,  true,  false, false,  4,  4,  0, -1,  0, OP_ADD⟩,
    ⟨"**",      2, true,  true,  false, false,  9,  6,  0, -1,  0, OP_PWR⟩,
    ⟨"*",       1, true,  true,  false, false,  5,  5,  0, -1,  0, OP_MUL⟩,
    ⟨"/",       1, true,  true,  false, false,  5,  5,  0, -1,  0, OP_DIV⟩,
    ⟨",",       1, true,  true,  true,  false,  2,  2,  0,  0,  0, OP_NULL⟩,
    ⟨"-",       1, false, true,  false, true,   8,  7,  0,  0,  0, OP_NEG⟩,
    ⟨"+",       1, false, true,  false, true,   8,  7,  0,  0,  0, OP_NULL⟩,
    ⟨"sqrt(",   5, false, true,  true,  false, 10,  1,  1,  0,  1, OP_SQRT⟩,
    ⟨"log(",    4, false, true,  true,  false, 10,  1,  1,  0,  1, OP_LOG⟩,
    ⟨"log10(",  6, false, true,  true,  false, 10,  1,  1,  0,  1, OP_LOG10⟩,
    ⟨"exp(",    4, false, true,  true,  false, 10,  1,  1,  0,  1, OP_EXP⟩,
    ⟨"sin(",    4, false, true,  true,  false, 10,  1,  1,  0,  1, OP_SIN⟩,
    ⟨"cos(",    4, false, true,  true,  false, 10,  1,  1,  0,  1, OP_COS⟩,
    ⟨"tan(",    4, false, true,  true,  false, 10,  1,  1,  0,  1, OP_TAN⟩,
    ⟨"sind(",   5, false, true,  true,  false, 10,  1,  1,  0,  1, OP_SIND⟩,
    ⟨"cosd(",   5, false, true,  true,  false, 10,  1,  1,  0,  1, OP_COSD⟩,
    ⟨"tand(",   5, false, true,  true,  false, 10,  1,  1,  0,  1, OP_TAND⟩,
    ⟨"asin(",   5, false, true,  true,  false, 10,  1,  1,  0,  1, OP_ASIN⟩,
    ⟨"acos(",   5, false, true,  true,  false, 10,  1,  1,  0,  1, OP_ACOS⟩,
    ⟨"atan(",   5, false, true,  true,  false, 10,  1,  1,  0,  1, OP_ATAN⟩,
    ⟨"asind(",  6, false, true,  true,  false, 10,  1,  1,  0,  1, OP_ASIND⟩,
    ⟨"acosd(",  6, false, true,  true,  false, 10,  1,  1,  0,  1, OP_ACOSD⟩,
    ⟨"atand(",  6, false, true,  true,  false, 10,  1,  1,  0,  1, OP_ATAND⟩,
    ⟨"sinh(",   5, false, true,  true,  false, 10,  1,  1,  0,  1, OP_SINH⟩,
    ⟨"cosh(",   5, false, true,  true,  false, 10,  1,  1,  0,  1, OP_COSH⟩,
    ⟨"tanh(",   5, false, true,  true,  false, 10,  1,  1,  0,  1, OP_TANH⟩,
    ⟨"abs(",    4, false, true,  true,  false, 10,  1,  1,  0,  1, OP_ABS⟩,
    ⟨"fabs(",   5, false, true,  true,  false, 10,  1,  1,  0,  1, OP_ABS⟩,
    ⟨"ceil(",   5, false, true,  true,  false, 10,  1,  1,  0,  1, OP_CEIL⟩,
    ⟨"floor(",  6, false, true,  true,  false, 10,  1,  1,  0,  1, OP_FLOOR⟩,
    ⟨"nint(",   5, false, true,  true,  false, 10,  1,  1,  0,  1, OP_NINT⟩,
    ⟨"min(",    4, false, true,  true,  false, 10,  1,  1, -1, -2, OP_MIN⟩,
    ⟨"max(",    4, false, true,  true,  false, 10,  1,  1, -1, -2, OP_MAX⟩,
    ⟨"dim(",    4, false, true,  true,  false, 10,  1,  1, -1,  2, OP_DIM⟩,
    ⟨"mod(",    4, false, true,  true,  false, 10,  1,  1, -1,  2, OP_MOD⟩,
    ⟨"sign(",   5, false, true,  true,  false, 10,  1,  1, -1,  2, OP_SIGN⟩,
    ⟨"atan2(",  6, false, true,  true,  false, 10,  1,  1, -1,  2, OP_ATAN2⟩,
    ⟨"atan2d(", 7, false, true,  true,  false, 10,  1,  1, -1,  2, OP_ATAN2D⟩,
    ⟨"<bad>",   5, false, false, false, false, 10, 10,  0,  1,  0, OP_LDBAD⟩ ]

/-- The terminating entry of `symbol[]`. -/
def symbolEnd : Symbol := ⟨"", 0, false, false, false, false, 0, 0, 0, 0, 0, OP_NULL⟩

/-- The entry `symbol[ sym ]`. -/
def symbol (sym : Nat) : Symbol := symbolTable.getD sym symbolEnd

/-- Index of the "load variable" symbol. -/
def symbol_ldvar : Nat := 0

/-- Index of the "load constant" symbol. -/
def symbol_ldcon : Nat := 1

/-! ## Parsing constants and names -/

/-- Leading decimal digits of a text: their value (continuing from `acc`), their
number (continuing from `n`) and the rest of the text. -/
def scanDigits : List Char → Nat → Nat → Nat × Nat × List Char
  | [], acc, n => (acc, n, [])
  | c :: cs, acc, n =>
    if c.isDigit then scanDigits cs (acc * 10 + (c.toNat - 48)) (n + 1) else (acc, n, c :: cs)

/-- Model of the C library call `sscanf( str, "%lf%n", &con, &nc )` on a text without
leading white space or sign: `none` when no value is read (`n != 1`), else the value
read (exact, as a rational) and the number `nc` of characters consumed.  The value
is the longest prefix of the form digits, optional point, digits (at least one digit)
followed by an optional exponent `e`, optional sign, digits. -/
def sscanf_lf (str : List Char) : Option (Rat × Nat) :=
  match scanDigits str 0 0 with
  | (m1, n1, r1) =>
    match (match r1 with
           | '.' :: t => (match scanDigits t m1 0 with | (m, n, r) => (m, n, r, 1))
           | _ => (m1, 0, r1, 0)) with
    | (m2, n2, r2, np) =>
      if n1 + n2 = 0 then none
      else
        let mant : Rat := (m2 : Rat) / (10 : Rat) ^ n2
        let nc := n1 + np + n2
        match r2 with
        | 'e' :: t =>
          (match (match t with
                  | '+' :: u => (false, u, 1)
                  | '-' :: u => (true, u, 1)
                  | _ => (false, t, 0)) with
           | (neg, u, ns) =>
             match scanDigits u 0 0 with
             | (e, ne, _) =>
               if ne = 0 then some (mant, nc)
               else if neg then some (mant / (10 : Rat) ^ e, nc + 1 + ns + ne)
               else some (mant * (10 : Rat) ^ e, nc + 1 + ns + ne))
        | _ => some (mant, nc)

/-- Local variables of the scanning loop of `ParseConstant`. -/
structure PCState where
  iend : Nat
  numer : Bool
  dpoint : Bool
  expon : Bool
  sign : Bool
  valid : Bool
  iscon : Bool
  deriving DecidableEq, Repr

/-- One pass of the body of the `while` loop of `ParseConstant` on the character `c`. -/
def ParseConstant_body (c : Char) (s : PCState) : PCState :=
  let s0 := { s with iscon := false }
  let s1 :=
    if c.isDigit then { s0 with numer := true, iscon := true }
    else if c = '.' then
      (if !(s0.dpoint || s0.expon) then { s0 with dpoint := true, iscon := true }
       else { s0 with valid := false })
    else if c = 'd' ∨ c = 'e' then
      (if !s0.expon && s0.numer then { s0 with expon := true, numer := false, iscon := true }
       else { s0 with valid := false })
    else if c = '+' ∨ c = '-' then
      (if s0.expon && !s0.sign && !s0.numer then { s0 with sign := true, iscon := true }
       else if !s0.numer then { s0 with valid := false }
       else s0)
    else s0
  if s1.iscon || !s1.valid then { s1 with iend := s1.iend + 1 } else s1

/-- The `while ( ( c = exprs[ *iend + 1 ] ) && iscon )` loop of `ParseConstant`. -/
def ParseConstant_loop (exprs : List Char) : Nat → PCState → PCState
  | 0, s => s
  | fuel + 1, s =>
    let c := cget exprs (s.iend + 1)
    if c != NUL && s.iscon then ParseConstant_loop exprs fuel (ParseConstant_body c s) else s

/-- `ParseConstant`: the end index `*iend` (`-1` when there is no constant) and the
value `*con`, or the error `CONIN`. -/
def ParseConstant (exprs : List Char) (istart : Nat) : Except AstError (Int × Rat) :=
  let c := cget exprs istart
  let numer := c.isDigit
  let dpoint := c == '.'
  if numer || dpoint then
    let s := ParseConstant_loop exprs (exprs.length + 1)
      { iend := istart, numer := numer, dpoint := dpoint, expon := false, sign := false,
        valid := true, iscon := true }
    let valid := s.valid && s.numer
    let str := ((exprs.drop istart).take (s.iend - istart + 1)).map
      (fun ch => if ch = 'd' then 'e' else ch)
    if valid then
      match sscanf_lf str with
      | some (v, nc) =>
        if nc = s.iend - istart + 1 then .ok ((s.iend : Int), v)
        else .error ⟨ErrCode.CONIN, cprefix (s.iend + 1) exprs⟩
      | none => .error ⟨ErrCode.CONIN, cprefix (s.iend + 1) exprs⟩
    else .error ⟨ErrCode.CONIN, cprefix (s.iend + 1) exprs⟩
  else .ok (-1, 0)

/-- The `for` loop of `ParseName`, which advances `*iend` over alphanumeric
characters and underscores. -/
def ParseName_loop (exprs : List Char) : Nat → Nat → Nat
  | 0, iend => iend
  | fuel + 1, iend =>
    let c := cget exprs (iend + 1)
    if c != NUL && (c.isAlphanum || c == '_') then ParseName_loop exprs fuel (iend + 1)
    else iend

/-- `ParseName`: index of the last character of the name starting at `istart`, or
`-1` when no name starts there. -/
def ParseName (exprs : List Char) (istart : Nat) : Int :=
  if (cget exprs istart).isAlpha then (ParseName_loop exprs (exprs.length + 1) istart : Nat)
  else -1

/-- The search loop of `ParseVariable` over `ivar, ivar + 1, ..., nvar - 1`: the first
index whose name has length `nc` and equals the text at `istart`. -/
def ParseVariable_find (exprs : List Char) (istart nc nvar : Nat) (var : List (List Char)) :
    Nat → Nat → Option Nat
  | 0, _ => none
  | fuel + 1, ivar =>
    if ivar < nvar then
      if nc = strlen (var.getD ivar []) && strncmp0 exprs istart (var.getD ivar []) 0 nc
      then some ivar
      else ParseVariable_find exprs istart nc nvar var fuel (ivar + 1)
    else none

/-- `ParseVariable`: the pair `(*ivar, *iend)`, both `-1` when no name starts at
`istart`, or the error `UDVOF` when the name there is not a declared variable. -/
def ParseVariable (exprs : List Char) (istart nvar : Nat) (var : List (List Char)) :
    Except AstError (Int × Int) :=
  let iend := ParseName exprs istart
  if iend ≥ (istart : Int) then
    let nc := (iend - istart + 1).toNat
    match ParseVariable_find exprs istart nc nvar var nvar 0 with
    | some ivar => .ok ((ivar : Int), iend)
    | none => .error ⟨ErrCode.UDVOF, cprefix (iend + 1).toNat exprs⟩
  else .ok (-1, -1)

/-! ## Validation of symbols -/

/-- An `int` array grown on demand (`astGrow`): store `v` in element `i`. -/
def arrSet {α : Type} (d : α) (a : List α) (i : Nat) (v : α) : List α :=
  if i < a.length then a.set i v else a ++ List.replicate (i - a.length) d ++ [v]

/-- The state that `ValidateSymbol` maintains between invocations: the parenthesis
level, the per-level argument counts and opening symbols, and the constants
(`*ncon` is the length of `con`). -/
structure VState where
  lpar : Int
  argcount : List Int
  opensym : List Nat
  con : List Rat
  deriving DecidableEq, Repr

/-- `ValidateSymbol` for the symbol `sym` whose last character has index `iend`. -/
def ValidateSymbol (exprs : List Char) (iend : Nat) (sym : Nat) (v : VState) :
    Except AstError VState :=
  if cget (symbol sym).text.toList 0 = ',' ∧ cget (symbol sym).text.toList 1 = NUL then
    if v.lpar ≤ 0 ∨ v.argcount.getD (v.lpar - 1).toNat 0 = 0 then
      .error ⟨ErrCode.DELIN, cprefix (iend + 1) exprs⟩
    else
      .ok { v with argcount := v.argcount.set (v.lpar - 1).toNat
                      (v.argcount.getD (v.lpar - 1).toNat 0 + 1) }
  else if (symbol sym).parincrement > 0 then
    .ok { v with lpar := v.lpar + 1
                 argcount := arrSet 0 v.argcount v.lpar.toNat
                      (if (symbol sym).nargs ≠ 0 then 1 else 0)
                 opensym := arrSet 0 v.opensym v.lpar.toNat sym }
  else if (symbol sym).parincrement < 0 then
    if v.lpar = 0 then
      .error ⟨ErrCode.MLPAR, cprefix (iend + 1) exprs⟩
    else if (symbol (v.opensym.getD (v.lpar - 1).toNat 0)).nargs > 0 then
      if v.argcount.getD (v.lpar - 1).toNat 0 ≠
          (symbol (v.opensym.getD (v.lpar - 1).toNat 0)).nargs then
        .error ⟨ErrCode.WRNFA, cprefix (iend + 1) exprs⟩
      else .ok { v with lpar := v.lpar - 1 }
    else if (symbol (v.opensym.getD (v.lpar - 1).toNat 0)).nargs < 0 then
      if v.argcount.getD (v.lpar - 1).toNat 0 <
          -(symbol (v.opensym.getD (v.lpar - 1).toNat 0)).nargs then
        .error ⟨ErrCode.WRNFA, cprefix (iend + 1) exprs⟩
      else
        .ok { v with lpar := v.lpar - 1
                     con := v.con ++ [((v.argcount.getD (v.lpar - 1).toNat 0 : Int) : Rat)] }
    else .ok { v with lpar := v.lpar - 1 }
  else .ok v

/-! ## The symbol walker of `CompileExpression` -/

/-- The search of the symbol table at position `istart`, over the table indices in
the list given (in order): the first symbol with text, of the expected kind, whose
text matches the expression there. -/
def findSymbol (exprs : List Char) (istart : Nat) (opernext unarynext : Bool) :
    List Nat → Option Nat
  | [] => none
  | sym :: rest =>
    if (symbol sym).size != 0 && ((symbol sym).operleft == opernext) &&
        (!(symbol sym).unaryoper || unarynext) &&
        strncmp0 exprs istart (symbol sym).text.toList 0 (symbol sym).size
    then some sym
    else findSymbol exprs istart opernext unarynext rest

/-- Local variables of the main loop of `CompileExpression` (`nsym` is the length of
`symlist`). -/
structure WState where
  istart : Nat
  opernext : Bool
  unarynext : Bool
  v : VState
  symlist : List Nat
  deriving DecidableEq, Repr

/-- State after a symbol has been identified: the flags follow the symbol, the symbol
is appended to `symlist`, and the scan resumes at `iend + 1`. -/
def WState.accept (w : WState) (sym : Nat) (iend : Nat) (v : VState) : WState :=
  { istart := iend + 1
    opernext := !(symbol sym).operright
    unarynext := (symbol sym).unarynext
    v := v
    symlist := w.symlist ++ [sym] }

/-- One pass of the body of the main `for` loop of `CompileExpression`. -/
def CompileExpression_body (exprs : List Char) (nvar : Nat) (var : List (List Char))
    (w : WState) : Except AstError WState :=
  match findSymbol exprs w.istart w.opernext w.unarynext (List.range symbolTable.length) with
  | some sym =>
    let iend := w.istart + (symbol sym).size - 1
    match ValidateSymbol exprs iend sym w.v with
    | .error e => .error e
    | .ok v => .ok (w.accept sym iend v)
  | none =>
    if w.opernext then .error ⟨ErrCode.MIOPR, cprefix (w.istart + 1) exprs⟩
    else
      match ParseConstant exprs w.istart with
      | .error e => .error e
      | .ok (iend, c) =>
        if iend ≥ (w.istart : Int) then
          .ok (w.accept symbol_ldcon iend.toNat { w.v with con := w.v.con ++ [c] })
        else
          match ParseVariable exprs w.istart nvar var with
          | .error e => .error e
          | .ok (ivar, iend) =>
            if ivar ≠ -1 then
              .ok (w.accept symbol_ldvar iend.toNat
                    { w.v with con := w.v.con ++ [((ivar : Int) : Rat)] })
            else .error ⟨ErrCode.MIOPA, cprefix (w.istart + 1) exprs⟩

/-- The main `for` loop of `CompileExpression`. -/
def CompileExpression_loop (exprs : List Char) (nvar : Nat) (var : List (List Char)) :
    Nat → WState → Except AstError WState
  | 0, w => .ok w
  | fuel + 1, w =>
    if cget exprs w.istart != NUL then
      match CompileExpression_body exprs nvar var w with
      | .error e => .error e
      | .ok w1 => CompileExpression_loop exprs nvar var fuel w1
    else .ok w

/-- Initial values of the local variables of `CompileExpression`. -/
def WState.init : WState :=
  { istart := 0, opernext := false, unarynext := true,
    v := { lpar := 0, argcount := [], opensym := [], con := [] }, symlist := [] }

/-- The first part of `CompileExpression`: the walk over the expression followed by
the check of the final context. -/
def CompileExpression_walk (exprs : List Char) (nvar : Nat) (var : List (List Char)) :
    Except AstError WState :=
  match CompileExpression_loop exprs nvar var (exprs.length + 1) WState.init with
  | .error e => .error e
  | .ok w =>
    if !w.opernext then .error ⟨ErrCode.MIOPA, cstr exprs⟩
    else if w.v.lpar > 0 then .error ⟨ErrCode.MRPAR, cstr exprs⟩
    else .ok w

/-! ## The evaluation-order sort -/

/-- The cast `(int) x` of a `double`: truncation towards zero. -/
def c_int (x : Rat) : Int := if 0 ≤ x then x.floor else x.ceil

/-- Local variables of `EvaluationSort`.  `code` lists the opcodes generated so far
(elements `1 .. ncode` of `*code`, so `ncode` is its length). -/
structure SortState where
  symlist : List Nat
  isym : Nat
  tos : Int
  flush : Bool
  icon : Nat
  nstack : Int
  code : List Int
  stacksize : Int
  deriving DecidableEq, Repr

/-- The decision at the head of the loop body of `EvaluationSort`: whether to push,
and the new value of `flush`. -/
def EvaluationSort_push (nsym : Nat) (s : SortState) : Bool × Bool :=
  if s.tos = -1 then (true, s.flush)
  else if s.isym ≥ nsym then (false, s.flush)
  else if s.flush then (false, false)
  else (decide ((symbol (s.symlist.getD s.isym 0)).leftpriority >
                (symbol (s.symlist.getD s.tos.toNat 0)).rightpriority), s.flush)

/-- The arm of the loop body of `EvaluationSort` that takes the next input symbol: a
closing parenthesis sets `flush`, any other symbol goes on to the sort stack, which
occupies the part of `symlist` already read. -/
def EvaluationSort_doPush (s : SortState) (flush : Bool) : SortState :=
  let sym := s.symlist.getD s.isym 0
  if (symbol sym).parincrement < 0 then
    { s with isym := s.isym + 1, flush := true }
  else
    { s with isym := s.isym + 1, flush := flush, tos := s.tos + 1,
             symlist := s.symlist.set (s.tos + 1).toNat sym }

/-- The arm of the loop body of `EvaluationSort` that pops the top symbol of the sort
stack and sends it to the output.  A read of `con` past its end gives 0. -/
def EvaluationSort_doPop (con : List Rat) (s : SortState) (flush : Bool) : SortState :=
  let sym := s.symlist.getD s.tos.toNat 0
  let icon := s.icon + (if sym = symbol_ldvar ∨ sym = symbol_ldcon then 1 else 0)
  if (symbol sym).opcode ≠ OP_NULL then
    let nstack :=
      if (symbol sym).nargs ≥ 0 then s.nstack + (symbol sym).stackincrement
      else s.nstack - (c_int (con.getD icon 0 + 1 / 2) - 1)
    { s with tos := s.tos - 1, flush := flush,
             icon := if (symbol sym).nargs ≥ 0 then icon else icon + 1,
             nstack := nstack,
             code := s.code ++ [(symbol sym).opcode.toInt],
             stacksize := if nstack > s.stacksize then nstack else s.stacksize }
  else
    { s with tos := s.tos - 1, flush := flush, icon := icon }

/-- One pass of the body of the `while` loop of `EvaluationSort`. -/
def EvaluationSort_body (con : List Rat) (nsym : Nat) (s : SortState) : SortState :=
  match EvaluationSort_push nsym s with
  | (true, flush) => EvaluationSort_doPush s flush
  | (false, flush) => EvaluationSort_doPop con s flush

/-- The `while` loop of `EvaluationSort`. -/
def EvaluationSort_loop (con : List Rat) (nsym : Nat) : Nat → SortState → SortState
  | 0, s => s
  | fuel + 1, s =>
    if s.tos > -1 ∨ s.isym < nsym then
      EvaluationSort_loop con nsym fuel (EvaluationSort_body con nsym s)
    else s

/-- Initial values of the local variables of `EvaluationSort`. -/
def SortState.init (symlist : List Nat) : SortState :=
  { symlist := symlist, isym := 0, tos := -1, flush := false, icon := 0, nstack := 0,
    code := [], stacksize := 0 }

/-- `EvaluationSort`: the array `*code` (the opcode count followed by the opcodes)
and `*stacksize`. -/
def EvaluationSort (con : List Rat) (nsym : Nat) (symlist : List Nat) : List Int × Int :=
  let s := EvaluationSort_loop con nsym (2 * nsym + 1) (SortState.init symlist)
  ((s.code.length : Int) :: s.code, s.stacksize)

/-- The results of `CompileExpression`. -/
structure Compiled where
  code : List Int
  con : List Rat
  stacksize : Int
  deriving DecidableEq, Repr

/-- `CompileExpression`: the opcodes, constants and stack size for an expression,
or the error reported. -/
def CompileExpression (exprs : List Char) (nvar : Nat) (var : List (List Char)) :
    Except AstError Compiled :=
  match CompileExpression_walk exprs nvar var with
  | .error e => .error e
  | .ok w =>
    match EvaluationSort w.v.con w.symlist.length w.symlist with
    | (code, stacksize) => .ok { code := code, con := w.v.con, stacksize := stacksize }

/-! ## The virtual machine -/

/-- Values of `errno` after a call of a library function. -/
inductive Errno
  | none | EDOM | ERANGE
  deriving DecidableEq, Repr

/-- The C library, the constants and the arithmetic that `VirtualMachine` uses.  A
function used under `CATCH_MATHS_OVERFLOW` or `CATCH_MATHS_ERROR` returns its value
together with the `errno` it leaves.  `fl` is the rounding of `double` arithmetic: the
machine's sum of `x1` and `x2` is `fl (x1 + x2)`, and so for a difference, a product
and a quotient; a result that overflows is `HUGE_VAL` or `-HUGE_VAL`, which stand
for the infinities. -/
structure MathLib where
  DBL_MAX : Rat
  BAD : Rat
  HUGE_VAL : Rat
  fl : Rat → Rat
  sqrt : Rat → Rat
  log : Rat → Rat
  log10 : Rat → Rat
  exp : Rat → Rat × Errno
  sin : Rat → Rat
  cos : Rat → Rat
  tan : Rat → Rat × Errno
  asin : Rat → Rat
  acos : Rat → Rat
  atan : Rat → Rat
  sinh : Rat → Rat × Errno
  cosh : Rat → Rat × Errno
  tanh : Rat → Rat
  pow : Rat → Rat → Rat × Errno
  fmod : Rat → Rat → Rat
  atan2 : Rat → Rat → Rat

/-- The macro `ABS`. -/
def ABS (x : Rat) : Rat := if x ≥ 0 then x else -x

/-- The macro `CATCH_MATHS_OVERFLOW`. -/
def CATCH_MATHS_OVERFLOW (L : MathLib) (r : Rat × Errno) : Rat :=
  if r.2 = Errno.ERANGE ∧ r.1 = L.HUGE_VAL then L.BAD else r.1

/-- The macro `CATCH_MATHS_ERROR`. -/
def CATCH_MATHS_ERROR (L : MathLib) (r : Rat × Errno) : Rat :=
  if r.2 = Errno.EDOM ∨ (r.2 = Errno.ERANGE ∧ r.1 = L.HUGE_VAL) then L.BAD else r.1

/-- The macro `SAFE_ADD`.  The test compares the rounded difference `DBL_MAX - x1` (or
sum `DBL_MAX + x1`), and the value returned is the rounded sum. -/
def SAFE_ADD (L : MathLib) (x1 x2 : Rat) : Rat :=
  if x1 ≥ 0 then
    (if x2 ≤ 0 ∨ L.fl (L.DBL_MAX - x1) ≥ x2 then L.fl (x1 + x2) else L.BAD)
  else
    (if x2 ≥ 0 ∨ L.fl (L.DBL_MAX + x1) ≥ -x2 then L.fl (x1 + x2) else L.BAD)

/-- The macro `SAFE_SUB`.  The test compares the rounded difference `DBL_MAX - x1` (or
sum `DBL_MAX + x1`), and the value returned is the rounded difference. -/
def SAFE_SUB (L : MathLib) (x1 x2 : Rat) : Rat :=
  if x1 ≥ 0 then
    (if x2 ≥ 0 ∨ L.fl (L.DBL_MAX - x1) ≥ -x2 then L.fl (x1 - x2) else L.BAD)
  else
    (if x2 ≤ 0 ∨ L.fl (L.DBL_MAX + x1) ≥ x2 then L.fl (x1 - x2) else L.BAD)

/-- The macro `SAFE_MUL`.  The test compares the rounded quotient `DBL_MAX / abs1`, and
the value returned is the rounded product. -/
def SAFE_MUL (L : MathLib) (x1 x2 : Rat) : Rat :=
  if ABS x1 ≤ 1 ∨ ABS x2 ≤ 1 ∨ L.fl (L.DBL_MAX / ABS x1) ≥ ABS x2 then L.fl (x1 * x2)
  else L.BAD

/-- The macro `SAFE_DIV`. -/
def SAFE_DIV (L : MathLib) (x1 x2 : Rat) : Rat :=
  if x2 ≠ 0 ∧ (ABS x2 ≥ 1 ∨ L.DBL_MAX * ABS x2 ≥ ABS x1) then x1 / x2 else L.BAD

/-- The conversion factor `r2d`, from `pi = acos( -1.0 )`. -/
def r2d (L : MathLib) : Rat := 180 / L.acos (-1)

/-- The conversion factor `d2r`. -/
def d2r (L : MathLib) : Rat := L.acos (-1) / 180

/-- The scalar function applied by the `ARG_1` case of a one-argument opcode (`none`
for every other opcode). -/
def fun1 (L : MathLib) : Oper → Option (Rat → Rat)
  | OP_NEG => some fun x => -x
  | OP_SQRT => some fun x => if x ≥ 0 then L.sqrt x else L.BAD
  | OP_LOG => some fun x => if x > 0 then L.log x else L.BAD
  | OP_LOG10 => some fun x => if x > 0 then L.log10 x else L.BAD
  | OP_EXP => some fun x => CATCH_MATHS_OVERFLOW L (L.exp x)
  | OP_SIN => some fun x => L.sin x
  | OP_COS => some fun x => L.cos x
  | OP_TAN => some fun x => CATCH_MATHS_OVERFLOW L (L.tan x)
  | OP_SIND => some fun x => L.sin (x * d2r L)
  | OP_COSD => some fun x => L.cos (x * d2r L)
  | OP_TAND => some fun x => (L.tan (x * d2r L)).1
  | OP_ASIN => some fun x => if ABS x ≤ 1 then L.asin x else L.BAD
  | OP_ACOS => some fun x => if ABS x ≤ 1 then L.acos x else L.BAD
  | OP_ATAN => some fun x => L.atan x
  | OP_ASIND => some fun x => if ABS x ≤ 1 then L.asin x * r2d L else L.BAD
  | OP_ACOSD => some fun x => if ABS x ≤ 1 then L.acos x * r2d L else L.BAD
  | OP_ATAND => some fun x => L.atan x * r2d L
  | OP_SINH => some fun x => CATCH_MATHS_OVERFLOW L (L.sinh x)
  | OP_COSH => some fun x => CATCH_MATHS_OVERFLOW L (L.cosh x)
  | OP_TANH => some fun x => L.tanh x
  | OP_ABS => some fun x => ABS x
  | OP_CEIL => some fun x => (x.ceil : Rat)
  | OP_FLOOR => some fun x => (x.floor : Rat)
  | OP_NINT => some fun x => (c_int (if x ≥ 0 then x + 1 / 2 else x - 1 / 2) : Rat)
  | _ => none

/-- The scalar function applied by the `ARG_2` case of a two-argument opcode, and by
each reduction of `OP_MAX` and `OP_MIN` (`none` for every other opcode). -/
def fun2 (L : MathLib) : Oper → Option (Rat → Rat → Rat)
  | OP_ADD => some fun x1 x2 => SAFE_ADD L x1 x2
  | OP_SUB => some fun x1 x2 => SAFE_SUB L x1 x2
  | OP_MUL => some fun x1 x2 => SAFE_MUL L x1 x2
  | OP_DIV => some fun x1 x2 => SAFE_DIV L x1 x2
  | OP_PWR => some fun x1 x2 => CATCH_MATHS_ERROR L (L.pow x1 x2)
  | OP_SIGN => some fun x1 x2 => if (decide (x1 ≥ 0)) = (decide (x2 ≥ 0)) then x1 else -x1
  | OP_DIM => some fun x1 x2 => if x1 > x2 then L.fl (x1 - x2) else 0
  | OP_MOD => some fun x1 x2 => if x2 ≠ 0 then L.fmod x1 x2 else L.BAD
  | OP_ATAN2 => some fun x1 x2 => L.atan2 x1 x2
  | OP_ATAN2D => some fun x1 x2 => L.atan2 x1 x2 * r2d L
  | OP_MAX => some fun x1 x2 => if x1 ≥ x2 then x1 else x2
  | OP_MIN => some fun x1 x2 => if x1 ≤ x2 then x1 else x2
  | _ => none

/-- The state of `VirtualMachine`: the stack of vectors (a slot is `none` until the
machine has written it; slot 0 is the output array `out`), the top of stack index
and the count of constants used. -/
structure VMState where
  stack : List (Option (List Rat))
  tos : Int
  icon : Nat
  deriving DecidableEq, Repr

/-- The vector in `stack[ i ]`: `none` when `i` is outside the stack or the slot has
never been written. -/
def VMState.slot (st : VMState) (i : Int) : Option (List Rat) :=
  if 0 ≤ i ∧ i < st.stack.length then st.stack.getD i.toNat none else none

/-- The macro `ARG_0`: push the vector `v` (already computed for the `npoint` points)
and set the constant counter to `icon`.  `none` when the new top is outside the stack. -/
def ARG_0 (st : VMState) (icon : Nat) (v : List Rat) : Option VMState :=
  if 0 ≤ st.tos + 1 ∧ st.tos + 1 < st.stack.length then
    some { stack := st.stack.set (st.tos + 1).toNat (some v), tos := st.tos + 1, icon := icon }
  else none

/-- The macro `ARG_1`: replace each element of the top vector that is not bad by the
function of it. -/
def ARG_1 (L : MathLib) (st : VMState) (f : Rat → Rat) : Option VMState :=
  match st.slot st.tos with
  | none => none
  | some xv =>
    some { st with stack := st.stack.set st.tos.toNat
                     (some (xv.map fun x => if x ≠ L.BAD then f x else x)) }

/-- The macro `DO_ARG_2`: combine the top two vectors into the lower one and pop. -/
def DO_ARG_2 (L : MathLib) (st : VMState) (f : Rat → Rat → Rat) : Option VMState :=
  match st.slot st.tos, st.slot (st.tos - 1) with
  | some xv2, some xv1 =>
    some { st with tos := st.tos - 1
                   stack := st.stack.set (st.tos - 1).toNat
                     (some (List.zipWith
                       (fun x1 x2 => if x1 ≠ L.BAD then (if x2 ≠ L.BAD then f x1 x2 else L.BAD)
                                     else x1) xv1 xv2)) }
  | _, _ => none

/-- The loop `for ( iarg = 0; iarg < ( narg - 1 ); iarg++ ) DO_ARG_2(...)`, given the
number of passes. -/
def DO_ARG_2_times (L : MathLib) (f : Rat → Rat → Rat) : Nat → VMState → Option VMState
  | 0, st => some st
  | n + 1, st =>
    match DO_ARG_2 L st f with
    | none => none
    | some st1 => DO_ARG_2_times L f n st1

/-- The `switch` of `VirtualMachine` for one opcode; `none` when the source would
read outside an array or read a stack slot that has not been written. -/
def VirtualMachine_case (L : MathLib) (npoint : Nat) (ptr_in : List (List Rat))
    (con : List Rat) (st : VMState) (op : Int) : Option VMState :=
  match Oper.ofInt op with
  | none => some st
  | some OP_NULL => some st
  | some OP_LDCON =>
    (match con.get? st.icon with
     | none => none
     | some value => ARG_0 st (st.icon + 1) (List.replicate npoint value))
  | some OP_LDVAR =>
    (match con.get? st.icon with
     | none => none
     | some c =>
       let ivar := c_int (c + 1 / 2)
       if 0 ≤ ivar ∧ ivar < ptr_in.length ∧ npoint ≤ (ptr_in.getD ivar.toNat []).length then
         ARG_0 st (st.icon + 1) ((ptr_in.getD ivar.toNat []).take npoint)
       else none)
  | some OP_LDBAD => ARG_0 st st.icon (List.replicate npoint L.BAD)
  | some OP_MAX =>
    (match con.get? st.icon with
     | none => none
     | some c =>
       DO_ARG_2_times L (fun x1 x2 => if x1 ≥ x2 then x1 else x2)
         (c_int (c + 1 / 2) - 1).toNat { st with icon := st.icon + 1 })
  | some OP_MIN =>
    (match con.get? st.icon with
     | none => none
     | some c =>
       DO_ARG_2_times L (fun x1 x2 => if x1 ≤ x2 then x1 else x2)
         (c_int (c + 1 / 2) - 1).toNat { st with icon := st.icon + 1 })
  | some o =>
    match fun1 L o with
    | some f => ARG_1 L st f
    | none =>
      match fun2 L o with
      | some f => DO_ARG_2 L st f
      | none => some st

/-- The state of `VirtualMachine` before any opcode: `stacksize` slots, none of them
written, `tos = -1` and `icon = 0`. -/
def VMState.init (stacksize : Int) : VMState :=
  { stack := List.replicate stacksize.toNat none, tos := -1, icon := 0 }

/-- The state of `VirtualMachine` after the opcodes `code[ 1 ] .. code[ n ]`. -/
def VirtualMachine_exec (L : MathLib) (npoint : Nat) (ptr_in : List (List Rat))
    (code : List Int) (con : List Rat) (stacksize : Int) : Nat → Option VMState
  | 0 => some (VMState.init stacksize)
  | n + 1 =>
    match VirtualMachine_exec L npoint ptr_in code con stacksize n with
    | none => none
    | some st =>
      match code.get? (n + 1) with
      | none => none
      | some op => VirtualMachine_case L npoint ptr_in con st op

/-- `VirtualMachine`: the contents of `out` after all `code[ 0 ]` opcodes; `none` when
the run is undefined or `out` was never written.  (`_ncoord_in` is the parameter `ncoord_in`, not used by the
source either.) -/
def VirtualMachine (L : MathLib) (npoint : Nat) (_ncoord_in : Nat) (ptr_in : List (List Rat))
    (code : List Int) (con : List Rat) (stacksize : Int) : Option (List Rat) :=
  match VirtualMachine_exec L npoint ptr_in code con stacksize (code.getD 0 0).toNat with
  | none => none
  | some st => st.stack.getD 0 none

/-! ## The symbol stream seen as a run of an automaton

The walker of `CompileExpression` accepts a stream of symbols; each symbol is recorded
with the constants stored for it.  The automaton below keeps what the walker and
`ValidateSymbol` keep between symbols: whether an operator is expected next, and the
open parenthesis levels with their opening symbol and argument count. -/

/-- A recognised symbol together with the constants stored for it, each with the
opcode that is to consume it. -/
abbrev Token := Nat × List (Oper × Rat)

/-- The context between two symbols: the flag `opernext` and the open parenthesis
levels, innermost first, each with its opening symbol and its argument count. -/
structure AState where
  opernext : Bool
  levels : List (Nat × Int)
  deriving DecidableEq, Repr

/-- The effect of one recognised symbol on the context. -/
inductive Step (nvar : Nat) : AState → Token → AState → Prop
  | ldcon (q : AState) (c : Rat) : q.opernext = false →
      Step nvar q (symbol_ldcon, [(OP_LDCON, c)]) ⟨true, q.levels⟩
  | ldvar (q : AState) (i : Nat) : q.opernext = false → i < nvar →
      Step nvar q (symbol_ldvar, [(OP_LDVAR, (i : Rat))]) ⟨true, q.levels⟩
  | ldbad (q : AState) : q.opernext = false → Step nvar q (43, []) ⟨true, q.levels⟩
  | unary (q : AState) (sym : Nat) : q.opernext = false → (sym = 10 ∨ sym = 11) →
      Step nvar q (sym, []) ⟨false, q.levels⟩
  | binary (q : AState) (sym : Nat) : q.opernext = true → (4 ≤ sym ∧ sym ≤ 8) →
      Step nvar q (sym, []) ⟨false, q.levels⟩
  | comma (o : Nat) (a : Int) (rest : List (Nat × Int)) : a ≠ 0 →
      Step nvar ⟨true, (o, a) :: rest⟩ (9, []) ⟨false, (o, a + 1) :: rest⟩
  | opener (q : AState) (sym : Nat) : q.opernext = false → (symbol sym).parincrement > 0 →
      Step nvar q (sym, [])
        ⟨false, (sym, if (symbol sym).nargs ≠ 0 then 1 else 0) :: q.levels⟩
  | closer (o : Nat) (a : Int) (rest : List (Nat × Int)) :
      ((symbol o).nargs > 0 → a = (symbol o).nargs) →
      ((symbol o).nargs < 0 → a ≥ -(symbol o).nargs) →
      Step nvar ⟨true, (o, a) :: rest⟩
        (2, if (symbol o).nargs < 0 then [((symbol o).opcode, (a : Rat))] else [])
        ⟨true, rest⟩

/-- A stream of symbols leading from one context to another. -/
inductive Run (nvar : Nat) : AState → List Token → AState → Prop
  | nil (q : AState) : Run nvar q [] q
  | cons {q q1 q2 : AState} {t : Token} {ts : List Token} :
      Step nvar q t q1 → Run nvar q1 ts q2 → Run nvar q (t :: ts) q2

/-- The constants of a stream of symbols, in the order in which they are stored. -/
def Token.consts (toks : List Token) : List (Oper × Rat) := toks.flatMap Prod.snd

/-- The open parenthesis levels recorded in the arrays of `ValidateSymbol`, innermost
first. -/
def VState.levels (v : VState) : List (Nat × Int) :=
  ((List.range v.lpar.toNat).map fun j => (v.opensym.getD j 0, v.argcount.getD j 0)).reverse

/-- The context that the walker's variables describe. -/
def WState.abs (w : WState) : AState := ⟨w.opernext, w.v.levels⟩

/-- The arrays of `ValidateSymbol` cover the current parenthesis level. -/
def VState.ok (v : VState) : Prop :=
  0 ≤ v.lpar ∧ v.lpar.toNat ≤ v.argcount.length ∧ v.lpar.toNat ≤ v.opensym.length

/-! ## The evaluation-order sort on two lists

`EvaluationSort` keeps its sort stack in the part of `symlist` that it has already
read.  The same loop on a separate stack and input list is used to reason about it;
`EvaluationSort_body_toL` shows that the two agree. -/

/-- The variables of `EvaluationSort` with the sort stack (top first) and the unread
symbols as separate lists. -/
structure LState where
  stack : List Nat
  input : List Nat
  flush : Bool
  icon : Nat
  nstack : Int
  code : List Int
  stacksize : Int
  deriving DecidableEq, Repr

/-- The two-list view of the variables of `EvaluationSort`. -/
def SortState.toL (s : SortState) : LState :=
  { stack := (s.symlist.take (s.tos + 1).toNat).reverse
    input := s.symlist.drop s.isym
    flush := s.flush, icon := s.icon, nstack := s.nstack, code := s.code,
    stacksize := s.stacksize }

/-- Popping the symbol `top` off the sort stack, leaving the stack `st`. -/
def LState.pop (con : List Rat) (ls : LState) (top : Nat) (st : List Nat) (flush : Bool) :
    LState :=
  let icon := ls.icon + (if top = symbol_ldvar ∨ top = symbol_ldcon then 1 else 0)
  if (symbol top).opcode ≠ OP_NULL then
    let nstack :=
      if (symbol top).nargs ≥ 0 then ls.nstack + (symbol top).stackincrement
      else ls.nstack - (c_int (con.getD icon 0 + 1 / 2) - 1)
    { stack := st, input := ls.input, flush := flush,
      icon := if (symbol top).nargs ≥ 0 then icon else icon + 1,
      nstack := nstack,
      code := ls.code ++ [(symbol top).opcode.toInt],
      stacksize := if nstack > ls.stacksize then nstack else ls.stacksize }
  else
    { ls with stack := st, flush := flush, icon := icon }

/-- Taking the next input symbol `sym`, leaving the input `rest`. -/
def LState.push (ls : LState) (sym : Nat) (rest : List Nat) (flush : Bool) : LState :=
  if (symbol sym).parincrement < 0 then { ls with input := rest, flush := true }
  else { ls with input := rest, flush := flush, stack := sym :: ls.stack }

/-- One pass of the loop body of `EvaluationSort` on the two-list view. -/
def LState.body (con : List Rat) (ls : LState) : LState :=
  match ls.stack, ls.input with
  | [], [] => ls
  | [], sym :: rest => ls.push sym rest ls.flush
  | top :: st, [] => ls.pop con top st ls.flush
  | top :: st, sym :: rest =>
    if ls.flush then ls.pop con top st false
    else if (symbol sym).leftpriority > (symbol top).rightpriority then
      ls.push sym rest ls.flush
    else ls.pop con top st ls.flush

/-- The loop of `EvaluationSort` on the two-list view. -/
def LState.loop (con : List Rat) : Nat → LState → LState
  | 0, ls => ls
  | fuel + 1, ls =>
    if ls.stack ≠ [] ∨ ls.input ≠ [] then LState.loop con fuel (ls.body con) else ls

/-- The sort stack of `EvaluationSort` lies within the part of `symlist` already read. -/
def SortState.wf (nsym : Nat) (s : SortState) : Prop :=
  -1 ≤ s.tos ∧ s.tos + 1 ≤ s.isym ∧ s.isym ≤ nsym ∧ nsym = s.symlist.length

/-! ## Stack depth of a program

The part of `VirtualMachine` that does not depend on the values: the top of stack
index, the constant counter, and the constants consumed so far with the opcode that
consumed each. -/

/-- Opcodes handled by the macro `ARG_1`. -/
def Oper.isArg1 : Oper → Bool
  | OP_NEG | OP_SQRT | OP_LOG | OP_LOG10 | OP_EXP | OP_SIN | OP_COS | OP_TAN | OP_SIND
  | OP_COSD | OP_TAND | OP_ASIN | OP_ACOS | OP_ATAN | OP_ASIND | OP_ACOSD | OP_ATAND
  | OP_SINH | OP_COSH | OP_TANH | OP_ABS | OP_CEIL | OP_FLOOR | OP_NINT => true
  | _ => false

/-- Opcodes handled by the macro `ARG_2`. -/
def Oper.isArg2 : Oper → Bool
  | OP_ADD | OP_SUB | OP_MUL | OP_DIV | OP_PWR | OP_SIGN | OP_DIM | OP_MOD | OP_ATAN2
  | OP_ATAN2D => true
  | _ => false

/-- Top of stack index, constant counter and constants consumed. -/
structure DState where
  tos : Int
  icon : Nat
  reads : List (Oper × Rat)
  deriving DecidableEq, Repr

/-- The state before any opcode. -/
def DState.init : DState := ⟨-1, 0, []⟩

/-- The effect of one opcode on the stack depth; `none` when the opcode lacks an
operand on the stack, reads past the end of the constants, or loads a variable whose
index is not below `nvar`. -/
def depthStep (con : List Rat) (nvar : Nat) (d : DState) (op : Int) : Option DState :=
  match Oper.ofInt op with
  | none => some d
  | some OP_NULL => some d
  | some OP_LDCON =>
    (match con.get? d.icon with
     | none => none
     | some c => some ⟨d.tos + 1, d.icon + 1, d.reads ++ [(OP_LDCON, c)]⟩)
  | some OP_LDVAR =>
    (match con.get? d.icon with
     | none => none
     | some c =>
       if 0 ≤ c_int (c + 1 / 2) ∧ c_int (c + 1 / 2) < nvar then
         some ⟨d.tos + 1, d.icon + 1, d.reads ++ [(OP_LDVAR, c)]⟩
       else none)
  | some OP_LDBAD => some ⟨d.tos + 1, d.icon, d.reads⟩
  | some OP_MAX =>
    (match con.get? d.icon with
     | none => none
     | some c =>
       if ((c_int (c + 1 / 2) - 1).toNat : Int) ≤ d.tos then
         some ⟨d.tos - (c_int (c + 1 / 2) - 1).toNat, d.icon + 1, d.reads ++ [(OP_MAX, c)]⟩
       else none)
  | some OP_MIN =>
    (match con.get? d.icon with
     | none => none
     | some c =>
       if ((c_int (c + 1 / 2) - 1).toNat : Int) ≤ d.tos then
         some ⟨d.tos - (c_int (c + 1 / 2) - 1).toNat, d.icon + 1, d.reads ++ [(OP_MIN, c)]⟩
       else none)
  | some o =>
    if o.isArg1 then (if 0 ≤ d.tos then some d else none)
    else if o.isArg2 then (if 1 ≤ d.tos then some ⟨d.tos - 1, d.icon, d.reads⟩ else none)
    else some d

/-- The depth states after each opcode of a list of opcodes. -/
def depthTrace (con : List Rat) (nvar : Nat) : List Int → DState → Option (List DState)
  | [], _ => some []
  | op :: rest, d =>
    match depthStep con nvar d op with
    | none => none
    | some d1 =>
      match depthTrace con nvar rest d1 with
      | none => none
      | some tr => some (d1 :: tr)

/-- The last state of a trace that starts in `d`. -/
def lastD (tr : List DState) (d : DState) : DState := tr.getLast?.getD d

/-! ## The invariant of the evaluation-order sort -/

/-- Contribution of a stacked symbol to the stack depth once it is popped (an opening
symbol counts with its parenthesis level instead). -/
def wt (s : Nat) : Int := if (symbol s).parincrement > 0 then 0 else (symbol s).stackincrement

/-- Number of commas seen at an open parenthesis level. -/
def lv (l : Nat × Int) : Int := if (symbol l.1).nargs ≠ 0 then l.2 - 1 else 0

/-- The opening symbols in a sort stack. -/
def openers (st : List Nat) : List Nat :=
  st.filter fun s => decide ((symbol s).parincrement > 0)

/-- The symbol loads a value: "load variable", "load constant" or `<bad>`. -/
abbrev isOperand (s : Nat) : Prop := s = 0 ∨ s = 1 ∨ s = 43

/-- The opcodes generated so far form a program whose depth trace is defined, ends
with `nstack` values on the stack, never empties the stack and reaches `stacksize`. -/
def TraceInv (con : List Rat) (nvar : Nat) (ls : LState) (drd : List (Oper × Rat)) : Prop :=
  ∃ tr, depthTrace con nvar ls.code DState.init = some tr ∧
    lastD tr DState.init = ⟨ls.nstack - 1, ls.icon, drd⟩ ∧
    ls.icon = drd.length ∧
    (∀ d ∈ tr, 0 ≤ d.tos ∧ d.tos + 1 ≤ ls.stacksize) ∧
    ((tr = [] ∧ ls.stacksize = 0) ∨ ∃ d ∈ tr, d.tos + 1 = ls.stacksize)

/-- The constants stored for the symbols read so far but not yet consumed by an opcode:
the constant of an operand on top of the sort stack. -/
def PendingTop (nvar : Nat) (stack : List Nat) (prd : List (Oper × Rat)) : Prop :=
  match stack with
  | [] => prd = []
  | top :: _ =>
    if top = symbol_ldcon then ∃ c, prd = [(OP_LDCON, c)]
    else if top = symbol_ldvar then ∃ i : Nat, i < nvar ∧ prd = [(OP_LDVAR, (i : Rat))]
    else prd = []

/-- Properties of every sort stack: its symbols are table symbols other than the
closing parenthesis, and only the top can be an operand. -/
def StackOK (stack : List Nat) : Prop :=
  (∀ s ∈ stack, s < 44 ∧ s ≠ 2) ∧ (∀ s ∈ stack.tail, ¬ isOperand s)

/-- Properties of the open levels: each was opened by an opening symbol, a function
level has at least one argument and a plain parenthesis has argument count zero. -/
def LevelsOK (levels : List (Nat × Int)) : Prop :=
  ∀ l ∈ levels, (symbol l.1).parincrement > 0 ∧ ((symbol l.1).nargs ≠ 0 → 1 ≤ l.2) ∧
    ((symbol l.1).nargs = 0 → l.2 = 0)

/-- The invariant of the loop of `EvaluationSort` on a stream of symbols accepted by the
walker: `q` is the walker's context after the symbols read so far, `toks` the symbols
still to be read, `rd` the constants stored for the symbols read so far, and `allrd`
the constants stored for all the symbols. -/
inductive SortInv (con : List Rat) (allrd : List (Oper × Rat)) (nvar : Nat) : LState → Prop
  | normal (ls : LState) (q : AState) (toks : List Token) (rd drd prd : List (Oper × Rat)) :
      Run nvar q toks ⟨true, []⟩ →
      ls.input = toks.map Prod.fst →
      con = (rd ++ Token.consts toks).map Prod.snd →
      allrd = rd ++ Token.consts toks →
      rd = drd ++ prd →
      TraceInv con nvar ls drd →
      PendingTop nvar ls.stack prd →
      StackOK ls.stack →
      LevelsOK q.levels →
      openers ls.stack = q.levels.map Prod.fst →
      (ls.flush = true → toks = []) →
      (q.opernext = false → ∀ top ∈ ls.stack.head?, (symbol top).rightpriority ≤ 7) →
      ls.nstack + (ls.stack.map wt).sum = (q.levels.map lv).sum + (if q.opernext then 1 else 0) →
      SortInv con allrd nvar ls
  | flushing (ls : LState) (q : AState) (toks : List Token) (rd drd : List (Oper × Rat))
      (o : Nat) (a : Int) (st : List Nat) :
      Run nvar q toks ⟨true, []⟩ →
      ls.input = toks.map Prod.fst →
      con = (rd ++ Token.consts toks).map Prod.snd →
      allrd = rd ++ Token.consts toks →
      rd = drd ++ (if (symbol o).nargs < 0 then [((symbol o).opcode, (a : Rat))] else []) →
      TraceInv con nvar ls drd →
      ls.stack = o :: st →
      StackOK ls.stack →
      (∀ s ∈ st, ¬ isOperand s) →
      LevelsOK ((o, a) :: q.levels) →
      ((symbol o).nargs > 0 → a = (symbol o).nargs) →
      ((symbol o).nargs < 0 → a ≥ -(symbol o).nargs) →
      openers st = q.levels.map Prod.fst →
      ls.flush = true →
      q.opernext = true →
      ls.nstack + (st.map wt).sum =
        (q.levels.map lv).sum + (if (symbol o).nargs ≠ 0 then a else 1) →
      SortInv con allrd nvar ls

/-! ## Invariants of the virtual machine -/

/-- Every slot up to the top of the stack has been written with a vector of `npoint`
elements, and the top is inside the stack. -/
def VMState.good (npoint : Nat) (st : VMState) : Prop :=
  -1 ≤ st.tos ∧ st.tos < st.stack.length ∧
    ∀ j : Nat, (j : Int) ≤ st.tos → ∃ v, st.stack.getD j none = some v ∧ v.length = npoint

/-- Some vector on the stack is bad at point `p`. -/
def VMState.badAt (L : MathLib) (p : Nat) (st : VMState) : Prop :=
  ∃ j : Nat, (j : Int) ≤ st.tos ∧ ∃ v, st.stack.getD j none = some v ∧ v.get? p = some L.BAD

/-- The input vectors cover `nvar` coordinates of `npoint` points each. -/
def InputsOK (npoint nvar : Nat) (ptr_in : List (List Rat)) : Prop :=
  nvar ≤ ptr_in.length ∧ ∀ i, i < nvar → npoint ≤ (ptr_in.getD i []).length

/-- The machine state agrees with a depth state, and a bad input value of a variable
that has been loaded is still on the stack as a bad value at the same point. -/
def Sim (L : MathLib) (npoint nvar : Nat) (ptr_in : List (List Rat)) (st : VMState)
    (d : DState) : Prop :=
  st.tos = d.tos ∧ st.icon = d.icon ∧ st.good npoint ∧
    ∀ i p, i < nvar → p < npoint → (ptr_in.getD i []).get? p = some L.BAD →
      (OP_LDVAR, (i : Rat)) ∈ d.reads → st.badAt L p

/-! ## Notions used to state the properties -/

/-- The expression references variable number `ivar`: at some pass of its main loop the
walker of `CompileExpression` is at a position where `ParseVariable` recognises that
variable, so that it records the "load variable" symbol and stores `ivar` as a
constant. -/
def ReferencesVar (exprs : List Char) (nvar : Nat) (var : List (List Char)) (ivar : Nat) :
    Prop :=
  ∃ (k : Nat) (w w1 : WState),
    CompileExpression_loop exprs nvar var k WState.init = .ok w ∧
    cget exprs w.istart ≠ NUL ∧
    CompileExpression_body exprs nvar var w = .ok w1 ∧
    w1.symlist = w.symlist ++ [symbol_ldvar] ∧
    w1.v.con = w.v.con ++ [(ivar : Rat)]

/-- The number of binary digits of `n` (`fuel` bounds the count). -/
def bitLength : Nat → Nat → Nat
  | 0, _ => 0
  | fuel + 1, n => if n = 0 then 0 else bitLength fuel (n / 2) + 1

/-- The exponent of the leading binary digit of the positive rational `n / d`: the
integer `e` with `2 ^ e <= n / d < 2 ^ (e + 1)`. -/
def ilogb (n d : Nat) : Int :=
  let e0 : Int := (bitLength n n : Int) - (bitLength d d : Int)
  if n * 2 ^ (-e0).toNat ≥ d * 2 ^ e0.toNat then e0 else e0 - 1

/-- The rounding of IEEE 754 binary64 arithmetic in its default mode: `x` goes to the
nearest number `m * 2 ^ q` with `m < 2 ^ 53` and `q >= -1074` (`q` is 52 below the
exponent of `x` for a normal number, and `-1074` for a subnormal one); of two numbers
equally near the one with even `m` is taken; a result of magnitude beyond the largest
double `2 ^ 1024 - 2 ^ 971` is an infinity, given as `2 ^ 1024` or `-2 ^ 1024`. -/
def roundDouble (x : Rat) : Rat :=
  if x = 0 then 0 else
  let n := x.num.natAbs
  let d := x.den
  let q : Int := max (ilogb n d - 52) (-1074)
  let num := n * 2 ^ (-q).toNat
  let den := d * 2 ^ q.toNat
  let m0 := num / den
  let r := num % den
  let m := if 2 * r > den ∨ (2 * r = den ∧ m0 % 2 = 1) then m0 + 1 else m0
  let y : Rat := ((m * 2 ^ q.toNat : Nat) : Rat) / ((2 ^ (-q).toNat : Nat) : Rat)
  let z : Rat := if y > 2 ^ 1024 - 2 ^ 971 then 2 ^ 1024 else y
  if x < 0 then -z else z

/-- A library for evaluating programs on concrete values: `DBL_MAX` is the largest
IEEE double, `AST__BAD` is `-DBL_MAX` (its value in the AST headers), `HUGE_VAL` stands
for infinity, `fl` is the rounding of IEEE double arithmetic (`roundDouble`), `sqrt` is
exact on squares of rationals (`Rat.sqrt`), and every other library function returns 0
and leaves `errno` clear.  It is used for examples only; the general theorems hold for
every library. -/
def MathLib.sample : MathLib :=
  { DBL_MAX := 2 ^ 1024 - 2 ^ 971
    BAD := -(2 ^ 1024 - 2 ^ 971)
    HUGE_VAL := 2 ^ 1024
    fl := roundDouble
    sqrt := fun x => Rat.sqrt x
    log := fun _ => 0
    log10 := fun _ => 0
    exp := fun _ => (0, Errno.none)
    sin := fun _ => 0
    cos := fun _ => 0
    tan := fun _ => (0, Errno.none)
    asin := fun _ => 0
    acos := fun _ => 0
    atan := fun _ => 0
    sinh := fun _ => (0, Errno.none)
    cosh := fun _ => (0, Errno.none)
    tanh := fun _ => 0
    pow := fun _ _ => (0, Errno.none)
    fmod := fun _ _ => 0
    atan2 := fun _ _ => 0 }

/-- The one-argument opcode `o` yields `y` at a point where its argument is `x`: in every
machine state whose top vector holds `x` at point `p`, `VirtualMachine` executes the
opcode, keeps the top of stack and leaves `y` at point `p` of the top vector. -/
def YieldsUnary (L : MathLib) (o : Oper) (x y : Rat) : Prop :=
  ∀ (npoint : Nat) (ptr_in : List (List Rat)) (con : List Rat) (st : VMState)
    (xv : List Rat) (p : Nat),
    st.slot st.tos = some xv → xv.get? p = some x →
    ∃ st1 r, VirtualMachine_case L npoint ptr_in con st o.toInt = some st1 ∧
      st1.tos = st.tos ∧ st1.icon = st.icon ∧ st1.slot st1.tos = some r ∧ r.get? p = some y

/-- The two-argument opcode `o` yields `y` at a point where its arguments are `x1` and
`x2`: in every machine state whose two top vectors hold `x1` (the lower one) and `x2`
(the top one) at point `p`, `VirtualMachine` executes the opcode, pops one vector and
leaves `y` at point `p` of the new top vector. -/
def YieldsBinary (L : MathLib) (o : Oper) (x1 x2 y : Rat) : Prop :=
  ∀ (npoint : Nat) (ptr_in : List (List Rat)) (con : List Rat) (st : VMState)
    (xv1 xv2 : List Rat) (p : Nat),
    st.slot (st.tos - 1) = some xv1 → st.slot st.tos = some xv2 →
    xv1.get? p = some x1 → xv2.get? p = some x2 →
    ∃ st1 r, VirtualMachine_case L npoint ptr_in con st o.toInt = some st1 ∧
      st1.tos = st.tos - 1 ∧ st1.icon = st.icon ∧ st1.slot st1.tos = some r ∧
      r.get? p = some y

/-- The values of the local variables of `ParseConstant` when its scanning loop starts
at `istart`. -/
def ParseConstant_init (exprs : List Char) (istart : Nat) : PCState :=
  { iend := istart, numer := (cget exprs istart).isDigit, dpoint := cget exprs istart == '.',
    expon := false, sign := false, valid := true, iscon := true }

/-- The scanning loop of `ParseConstant` run over a given list of characters: the state
after the last of them when each one is taken as part of the constant (`iscon` and
`valid` both hold after it), `none` otherwise. -/
def ParseConstant_scan (s : PCState) : List Char → Option PCState
  | [] => some s
  | c :: cs =>
    if (ParseConstant_body c s).iscon && (ParseConstant_body c s).valid then
      ParseConstant_scan (ParseConstant_body c s) cs
    else none

/-- The characters `exprs[ i ] .. exprs[ j ]`. -/
def textAt (exprs : List Char) (i j : Nat) : List Char :=
  (List.range (j + 1 - i)).map fun k => cget exprs (i + k)

/-- The mantissa of a numeric literal in the words of the specification: digits with at
most one `.` and at least one digit. -/
def IsMantissa (m : List Char) : Prop :=
  (∀ c ∈ m, c.isDigit = true ∨ c = '.') ∧ m.count '.' ≤ 1 ∧ ∃ c ∈ m, c.isDigit = true

/-- The exponent of a numeric literal in the words of the specification: `e` or `d`,
then at most one `+` or `-`, then at least one digit. -/
def IsExponent (x : List Char) : Prop :=
  ∃ (mk : Char) (sg ds : List Char), x = mk :: (sg ++ ds) ∧ (mk = 'e' ∨ mk = 'd') ∧
    (sg = [] ∨ sg = ['+'] ∨ sg = ['-']) ∧ ds ≠ [] ∧ ∀ c ∈ ds, c.isDigit = true

/-- The form of a numeric literal in the words of the specification: a mantissa, or a
mantissa followed by an exponent. -/
def IsLiteral (t : List Char) : Prop :=
  IsMantissa t ∨ ∃ m x, t = m ++ x ∧ IsMantissa m ∧ IsExponent x

/-- What the local variables of `ParseConstant` say about the characters `t` that its
scanning loop has taken so far.  Outside the exponent field: `t` consists of digits and
at most one `.`, `dpoint` is set when the `.` has been seen and `numer` when a digit has
been seen.  In the exponent field: `t` is a mantissa, an exponent character, at most one
sign (`sign` is set when it has been seen) and digits (`numer` is set when there is one). -/
def ScanDesc (s : PCState) (t : List Char) : Prop :=
  if s.expon = false then
    (∀ c ∈ t, c.isDigit = true ∨ c = '.') ∧ t.count '.' ≤ 1 ∧ (s.dpoint = false → '.' ∉ t) ∧
      (s.numer = true ↔ ∃ c ∈ t, c.isDigit = true)
  else
    ∃ (m : List Char) (mk : Char) (sg ds : List Char), t = m ++ mk :: (sg ++ ds) ∧
      IsMantissa m ∧ (mk = 'e' ∨ mk = 'd') ∧ (sg = [] ∨ sg = ['+'] ∨ sg = ['-']) ∧
      (∀ c ∈ ds, c.isDigit = true) ∧ (s.sign = false → sg = []) ∧ (s.numer = true ↔ ds ≠ [])

/-- The last field of the text of a constant: the characters after its last exponent
character, or the whole text when it has none. -/
def lastField (t : List Char) : List Char :=
  (t.reverse.takeWhile fun c => !(c == 'd' || c == 'e')).reverse

/-- The input vectors restricted to point `i`: one value per coordinate. -/
def inputsAtPoint (i : Nat) (ptr_in : List (List Rat)) : List (List Rat) :=
  ptr_in.map fun v => [v.getD i 0]

/-- The machine state restricted to point `i`: every written vector is replaced by its
element `i`. -/
def VMState.atPoint (i : Nat) (st : VMState) : VMState :=
  { st with stack := st.stack.map (Option.map fun v => [v.getD i 0]) }

/-- Every vector that has been written on the stack has `npoint` elements. -/
def VMState.allLen (npoint : Nat) (st : VMState) : Prop :=
  ∀ (j : Nat) (v : List Rat), st.stack.getD j none = some v → v.length = npoint

/-! ## Cleaning and splitting the transformation functions

The functions of a MathMap are strings `name = expression`.  `CleanFunctions` copies
them without white space and in lower case, `ExtractVariables` and `ExtractExpressions`
split them at the first `=`, and `CompileMapping` compiles the expressions of one
direction against the variable names of the other.  Memory allocation is taken to
succeed (`astMalloc` of a non-zero size reports no error). -/

/-- The C library function `isspace` in the "C" locale: space, form feed, new line,
carriage return, horizontal and vertical tab. -/
def isspace (c : Char) : Bool := c == ' ' || (9 ≤ c.toNat && c.toNat ≤ 13)

/-- The C library function `tolower` in the "C" locale. -/
def tolower (c : Char) : Char :=
  if 65 ≤ c.toNat ∧ c.toNat ≤ 90 then Char.ofNat (c.toNat + 32) else c

/-- The first character loop of `CleanFunctions`,
`for ( i = 0; ( c = fun[ ifun ][ i ] ); i++ ) nc += !isspace( c )`: the count of
non-blank characters, from which the output string is allocated with `nc + 1`
elements. -/
def CleanFunctions_count (f : List Char) : Nat → Nat → Nat → Nat
  | 0, _, nc => nc
  | fuel + 1, i, nc =>
    if cget f i != NUL then
      CleanFunctions_count f fuel (i + 1) (nc + if isspace (cget f i) then 0 else 1)
    else nc

/-- The second character loop of `CleanFunctions`, which stores `tolower( c )` at
element `nc++` of the output string for each non-blank character; `out` holds the
`nc` characters stored so far. -/
def CleanFunctions_copy (f : List Char) : Nat → Nat → List Char → List Char
  | 0, _, out => out
  | fuel + 1, i, out =>
    if cget f i != NUL then
      CleanFunctions_copy f fuel (i + 1)
        (if isspace (cget f i) then out else out ++ [tolower (cget f i)])
    else out

/-- `CleanFunctions`: the array `*clean` of `nfun` cleaned strings. -/
def CleanFunctions (nfun : Nat) (funs : List (List Char)) : List (List Char) :=
  (List.range nfun).map fun ifun =>
    CleanFunctions_copy (funs.getD ifun []) (funs.getD ifun []).length 0 []

/-- An error report about a transformation function: its code, the function numbers
substituted for the `%d` of the message, and the text substituted for its `%s` (`none`
for the message that has no `%s`). -/
structure FunError where
  code : ErrCode
  numbers : List Nat
  quoted : Option (List Char)
  deriving DecidableEq, Repr

/-- Whether `strcmp( a, b )` is zero. -/
def strcmp0 (a b : List Char) : Bool := cstr a == cstr b

/-- The first character loop of `ExtractVariables`,
`for ( nc = 0; ( c = fun[ ifun ][ nc ] ); nc++ ) if ( c == '=' ) break`: the final
`nc`. -/
def ExtractVariables_count (f : List Char) : Nat → Nat → Nat
  | 0, nc => nc
  | fuel + 1, nc =>
    if cget f nc != NUL then
      if cget f nc == '=' then nc else ExtractVariables_count f fuel (nc + 1)
    else nc

/-- The second character loop of `ExtractVariables`, which copies the characters before
the `=` sign; `out` holds the characters stored so far. -/
def ExtractVariables_copy (f : List Char) : Nat → Nat → List Char → List Char
  | 0, _, out => out
  | fuel + 1, i, out =>
    if cget f i != NUL then
      if cget f i == '=' then out else ExtractVariables_copy f fuel (i + 1) (out ++ [cget f i])
    else out

/-- The body of the function loop of `ExtractVariables` for function `ifun`: the name
extracted, or the error reported. -/
def ExtractVariables_body (ifun : Nat) (f : List Char) : Except FunError (List Char) :=
  let nc := ExtractVariables_count f f.length 0
  if nc = 0 then
    if cget f nc != NUL then .error ⟨ErrCode.MISVN, [ifun + 1], some (cstr f)⟩
    else .error ⟨ErrCode.MISVN, [ifun + 1], none⟩
  else
    let v := ExtractVariables_copy f f.length 0 []
    let iend := ParseName v 0
    if iend < 0 ∨ cget v (iend + 1).toNat ≠ NUL then
      .error ⟨ErrCode.VARIN, [ifun + 1], some (cstr v)⟩
    else .ok v

/-- The function loop of `ExtractVariables` from function `ifun` on; `var` holds the
names extracted so far. -/
def ExtractVariables_loop (nfun : Nat) (funs : List (List Char)) :
    Nat → Nat → List (List Char) → Except FunError (List (List Char))
  | 0, _, var => .ok var
  | fuel + 1, ifun, var =>
    if ifun < nfun then
      match ExtractVariables_body ifun (funs.getD ifun []) with
      | .error e => .error e
      | .ok v => ExtractVariables_loop nfun funs fuel (ifun + 1) (var ++ [v])
    else .ok var

/-- The inner loop of the search for duplicates, `for ( i1 = 0; i1 < i2; i1++ )`: the
first `i1` whose name equals name `i2`. -/
def ExtractVariables_dup1 (var : List (List Char)) (i2 : Nat) : Nat → Nat → Option Nat
  | 0, _ => none
  | fuel + 1, i1 =>
    if i1 < i2 then
      if strcmp0 (var.getD i1 []) (var.getD i2 []) then some i1
      else ExtractVariables_dup1 var i2 fuel (i1 + 1)
    else none

/-- The outer loop of the search for duplicates, `for ( i2 = 1; i2 < nfun; i2++ )`: the
first pair `(i1, i2)` of equal names found. -/
def ExtractVariables_dup (nfun : Nat) (var : List (List Char)) : Nat → Nat → Option (Nat × Nat)
  | 0, _ => none
  | fuel + 1, i2 =>
    if i2 < nfun then
      match ExtractVariables_dup1 var i2 i2 0 with
      | some i1 => some (i1, i2)
      | none => ExtractVariables_dup nfun var fuel (i2 + 1)
    else none

/-- `ExtractVariables`: the array `*var` of the `nfun` variable names, or the error
reported. -/
def ExtractVariables (nfun : Nat) (funs : List (List Char)) :
    Except FunError (List (List Char)) :=
  match ExtractVariables_loop nfun funs nfun 0 [] with
  | .error e => .error e
  | .ok var =>
    match ExtractVariables_dup nfun var nfun 1 with
    | some (i1, i2) => .error ⟨ErrCode.DUVAR, [i1 + 1, i2 + 1], some (cstr (var.getD i1 []))⟩
    | none => .ok var

/-- The C library function `strchr( s, c )` for a character `c` other than the
terminator, searching from index `i`: the index of the first `c` in the string, `none`
for a null pointer. -/
def strchr (s : List Char) (c : Char) : Nat → Nat → Option Nat
  | 0, _ => none
  | fuel + 1, i =>
    if cget s i != NUL then
      if cget s i == c then some i else strchr s c fuel (i + 1)
    else none

/-- The variables of the function loop of `ExtractExpressions`: the expressions stored
so far (an element left `NULL`, for a function without `=`, is recorded as the empty
string; the array is returned only when no element was left `NULL`), the number `nud`
of functions without `=` and the index `iud` of the first of them. -/
structure EEState where
  exprs : List (List Char)
  nud : Nat
  iud : Nat
  deriving DecidableEq, Repr

/-- The body of the function loop of `ExtractExpressions` for function `ifun`. -/
def ExtractExpressions_body (ifun : Nat) (f : List Char) (s : EEState) :
    Except FunError EEState :=
  match strchr f '=' f.length 0 with
  | some p =>
    if cget f (p + 1) != NUL then
      .ok { s with exprs := s.exprs ++ [cstr (f.drop (p + 1))] }
    else .error ⟨ErrCode.NORHS, [ifun + 1], some (cstr f)⟩
  | none =>
    .ok { exprs := s.exprs ++ [[]], nud := s.nud + 1,
          iud := if s.nud + 1 = 1 then ifun else s.iud }

/-- The function loop of `ExtractExpressions` from function `ifun` on. -/
def ExtractExpressions_loop (nfun : Nat) (funs : List (List Char)) :
    Nat → Nat → EEState → Except FunError EEState
  | 0, _, s => .ok s
  | fuel + 1, ifun, s =>
    if ifun < nfun then
      match ExtractExpressions_body ifun (funs.getD ifun []) s with
      | .error e => .error e
      | .ok s1 => ExtractExpressions_loop nfun funs fuel (ifun + 1) s1
    else .ok s

/-- `ExtractExpressions`: the array `*exprs` of the `nfun` expressions, `none` when the
pointer returned is `NULL` without error (the transformation is undefined), or the
error reported.  For `nfun = 0` the array has no element and `astMalloc` returns
`NULL` for it. -/
def ExtractExpressions (nfun : Nat) (funs : List (List Char)) :
    Except FunError (Option (List (List Char))) :=
  match ExtractExpressions_loop nfun funs nfun 0 ⟨[], 0, 0⟩ with
  | .error e => .error e
  | .ok s =>
    if s.nud ≠ 0 ∧ s.nud ≠ nfun then
      .error ⟨ErrCode.NORHS, [s.iud + 1], some (cstr (funs.getD s.iud []))⟩
    else if s.nud ≠ 0 ∨ nfun = 0 then .ok none
    else .ok (some s.exprs)

/-- The results of compiling the expressions of one direction: the opcode arrays,
the constant arrays and the stack size. -/
structure Direction where
  code : List (List Int)
  con : List (List Rat)
  stack : Int
  deriving DecidableEq, Repr

/-- The loop of `CompileMapping` that compiles the expressions of one direction from
function `ifun` on; an error is returned with the number of its function. -/
def CompileMapping_loop (nfun nvar : Nat) (exprs var : List (List Char)) :
    Nat → Nat → Direction → Except (Nat × AstError) Direction
  | 0, _, d => .ok d
  | fuel + 1, ifun, d =>
    if ifun < nfun then
      match CompileExpression (exprs.getD ifun []) nvar var with
      | .error e => .error (ifun + 1, e)
      | .ok c =>
        CompileMapping_loop nfun nvar exprs var fuel (ifun + 1)
          { code := d.code ++ [c.code], con := d.con ++ [c.con],
            stack := if d.stack > c.stacksize then d.stack else c.stacksize }
    else .ok d

/-- The results of `CompileMapping`; `none` is a `NULL` pointer, that is an undefined
transformation. -/
structure Mapping where
  fwdcode : Option (List (List Int))
  invcode : Option (List (List Int))
  fwdcon : Option (List (List Rat))
  invcon : Option (List (List Rat))
  fwdstack : Int
  invstack : Int
  deriving DecidableEq, Repr

/-- An error of `CompileMapping`: the first report, and the contextual report that
follows it ("Error in forward/inverse transformation function", with the function
number when an expression failed to compile). -/
inductive MapError
  | ofVariables (inverse : Bool) (e : FunError)
  | ofExpressions (inverse : Bool) (e : FunError)
  | ofCompile (inverse : Bool) (number : Nat) (e : AstError)
  deriving DecidableEq, Repr

/-- The error status left by an error of `CompileMapping`. -/
def MapError.code : MapError → ErrCode
  | .ofVariables _ e => e.code
  | .ofExpressions _ e => e.code
  | .ofCompile _ _ e => e.code

/-- One half of `CompileMapping`: the transformation whose `nfun` functions are `funs`,
with the `nvar` functions `others` of the other transformation naming its variables.
`inverse` tells which half it is, for the contextual reports. -/
def CompileMapping_half (inverse : Bool) (nvar nfun : Nat) (others funs : List (List Char)) :
    Except MapError (Option Direction) :=
  match ExtractVariables nvar others with
  | .error e => .error (.ofVariables (!inverse) e)
  | .ok var =>
    match ExtractExpressions nfun funs with
    | .error e => .error (.ofExpressions inverse e)
    | .ok none => .ok none
    | .ok (some exprs) =>
      match CompileMapping_loop nfun nvar exprs var nfun 0 ⟨[], [], 0⟩ with
      | .error (n, e) => .error (.ofCompile inverse n e)
      | .ok d => .ok (some d)

/-- `CompileMapping`: the forward transformation is compiled first, then the
inverse. -/
def CompileMapping (nin nout : Nat) (fwdfun invfun : List (List Char)) :
    Except MapError Mapping :=
  match CompileMapping_half false nin nout invfun fwdfun with
  | .error e => .error e
  | .ok fwd =>
    match CompileMapping_half true nout nin fwdfun invfun with
    | .error e => .error e
    | .ok inv =>
      .ok { fwdcode := fwd.map Direction.code, invcode := inv.map Direction.code,
            fwdcon := fwd.map Direction.con, invcon := inv.map Direction.con,
            fwdstack := (fwd.map Direction.stack).getD 0,
            invstack := (inv.map Direction.stack).getD 0 }

/-! ## Notions used to state the properties of the functions -/

/-- The text of a function before its first `=` sign, the whole string when it has
none. -/
def lhsText (f : List Char) : List Char := (cstr f).takeWhile fun c => c != '='

/-- The text of a function after its first `=` sign, empty when it has none. -/
def rhsText (f : List Char) : List Char := ((cstr f).dropWhile fun c => c != '=').drop 1

/-- The function contains an `=` sign. -/
def hasEquals (f : List Char) : Bool := (cstr f).contains '='

/-- The text is not empty, begins with a letter and continues only with letters, digits
or underscores. -/
def isIdentifier : List Char → Bool
  | [] => false
  | c :: cs => c.isAlpha && cs.all fun d => d.isAlphanum || d == '_'

/-- The expression references the name `name`: at some pass of its main loop the walker
of `CompileExpression` is at a position where an operand is expected, no symbol of the
table and no constant matches, and the text starts with a letter; `name` is that letter
with the longest run of letters, digits and underscores that follows it. -/
def ReferencesName (exprs : List Char) (nvar : Nat) (var : List (List Char))
    (name : List Char) : Prop :=
  ∃ (k : Nat) (w : WState) (iend0 : Int) (c0 : Rat),
    CompileExpression_loop exprs nvar var k WState.init = .ok w ∧
    cget exprs w.istart ≠ NUL ∧ w.opernext = false ∧
    findSymbol exprs w.istart w.opernext w.unarynext (List.range symbolTable.length) = none ∧
    ParseConstant exprs w.istart = .ok (iend0, c0) ∧ iend0 < (w.istart : Int) ∧
    (cget exprs w.istart).isAlpha = true ∧
    name = (exprs.drop w.istart).take
      (ParseName_loop exprs (exprs.length + 1) w.istart - w.istart + 1)

/-! ## The output array of the evaluation-order sort -/

/-- The output array `*code` of `EvaluationSort` while it is being filled: the array
(`none` for the null pointer; element 0 is not yet used) and the count `ncode` of
opcodes stored. -/
structure CodeArray where
  code : Option (List Int)
  ncode : Nat
  deriving DecidableEq, Repr

/-- The statements `*code = astGrow( *code, ncode + 2, sizeof( int ) )` and
`( *code )[ ++ncode ] = op`; elements added by `astGrow` read 0 until they are
written. -/
def CodeArray.emit (a : CodeArray) (op : Int) : CodeArray :=
  { code := some (arrSet 0 (a.code.getD []) (a.ncode + 1) op), ncode := a.ncode + 1 }

/-- The end of `EvaluationSort`: an array of one element is allocated when no opcode was
output, the count is stored in element 0 and `astRealloc` cuts the array to
`ncode + 1` elements. -/
def CodeArray.finish (a : CodeArray) : List Int :=
  ((match a.code with
    | none => [0]
    | some c => c).set 0 (a.ncode : Int)).take (a.ncode + 1)

/-- The array `*code` returned by `EvaluationSort`, built element by element from the
opcodes in the order in which the loop outputs them. -/
def EvaluationSort_array (con : List Rat) (nsym : Nat) (symlist : List Nat) : List Int :=
  ((EvaluationSort_loop con nsym (2 * nsym + 1) (SortState.init symlist)).code.foldl
    CodeArray.emit ⟨none, 0⟩).finish

/-! ## The constants read by the virtual machine -/

/-- The opcodes whose `case` of `VirtualMachine` reads `con[ icon++ ]`. -/
def Oper.readsCon : Oper → Bool
  | OP_LDCON | OP_LDVAR | OP_MAX | OP_MIN => true
  | _ => false

/-- The constants read by `VirtualMachine` while it executes `code[ 1 ] .. code[ n ]`,
each with the opcode that reads it: an opcode that reads a constant reads `con[ icon ]`
for the value that `icon` has before the opcode. -/
def VirtualMachine_reads (L : MathLib) (npoint : Nat) (ptr_in : List (List Rat))
    (code : List Int) (con : List Rat) (stacksize : Int) : Nat → List (Oper × Rat)
  | 0 => []
  | n + 1 =>
    VirtualMachine_reads L npoint ptr_in code con stacksize n ++
      (match VirtualMachine_exec L npoint ptr_in code con stacksize n, code.get? (n + 1) with
       | some st, some op =>
         (match Oper.ofInt op with
          | some o =>
            if o.readsCon then
              (match con.get? st.icon with
               | some x => [(o, x)]
               | none => [])
            else []
          | none => [])
       | _, _ => [])

/-- The argument counts of the calls of functions with a variable number of arguments in
a stream of symbols, each with the opcode of the function, in the order in which the
calls are closed: a call has one argument and one more for each comma directly inside
its parentheses.  `lev` lists the openers not yet closed, innermost first, with the count
so far. -/
def callCounts : List Nat → List (Nat × Int) → List (Oper × Rat)
  | [], _ => []
  | s :: rest, lev =>
    if (symbol s).parincrement > 0 then callCounts rest ((s, 1) :: lev)
    else if s = 9 then
      match lev with
      | (o, a) :: l => callCounts rest ((o, a + 1) :: l)
      | [] => callCounts rest []
    else if s = 2 then
      match lev with
      | (o, a) :: l =>
        (if (symbol o).nargs < 0 then [((symbol o).opcode, (a : Rat))] else []) ++
          callCounts rest l
      | [] => callCounts rest []
    else callCounts rest lev

/-! ## An expression in parentheses -/

/-- The text of an expression put in parentheses. -/
def parenthesised (e : List Char) : List Char := '(' :: (e ++ [')'])

/-- The state of `ValidateSymbol` inside one more pair of plain parentheses: the arrays
of the parenthesis levels have the entry of the outer `(` in front. -/
def VState.inParen (v : VState) : VState :=
  { lpar := v.lpar + 1, argcount := 0 :: v.argcount, opensym := 3 :: v.opensym, con := v.con }

/-- The walker's variables at the corresponding position of the text in parentheses. -/
def WState.inParen (w : WState) : WState :=
  { istart := w.istart + 1, opernext := w.opernext, unarynext := w.unarynext,
    v := w.v.inParen, symlist := 3 :: w.symlist }

/-- Whether the top of a sort stack is an opening symbol. -/
def openerTop : List Nat → Bool
  | top :: _ => decide ((symbol top).parincrement > 0)
  | [] => false

/-- The sort's variables on the symbols in parentheses: the `(` lies at the bottom of the
sort stack, the `)` ends the input, and `flush` is set only while the top of the stack
is an opening symbol. -/
def LState.inParen (ls : LState) : LState :=
  { ls with stack := ls.stack ++ [3], input := ls.input ++ [2],
            flush := ls.flush && openerTop ls.stack }

/-- The variables of the scanning loop of `ParseConstant` at the corresponding position
of the text in parentheses. -/
def PCState.inParen (s : PCState) : PCState := { s with iend := s.iend + 1 }

/-! ## A program inside another program -/

/-- The machine state `b` of a program that contains another program as a part,
against the state `s` of that part run alone: `b` has `base` more vectors on the stack
and has used `ioff` more constants, and the slots of `s` up to its top of stack are the
slots of `b` from `base` on. -/
def VMState.framed (base ioff : Nat) (s b : VMState) : Prop :=
  b.tos = s.tos + base ∧ b.icon = s.icon + ioff ∧ -1 ≤ s.tos ∧
    base + s.stack.length ≤ b.stack.length ∧
    ∀ j : Nat, (j : Int) ≤ s.tos → b.stack.getD (base + j) none = s.stack.getD j none

/-- What the program `c` of an argument gives when it is run alone: `c.code` is the count
of the opcodes followed by the opcodes, and the machine executes them all, reads all the
constants of `c` and ends with one vector on the stack, the vector `v` in slot 0. -/
def ArgRun (L : MathLib) (npoint : Nat) (ptr_in : List (List Rat)) (c : Compiled)
    (v : List Rat) : Prop :=
  c.code = (c.code.tail.length : Int) :: c.code.tail ∧
    ∃ st, VirtualMachine_exec L npoint ptr_in c.code c.con c.stacksize c.code.tail.length =
        some st ∧
      st.tos = 0 ∧ st.icon = c.con.length ∧ st.slot 0 = some v

/-- The sort's variables on the symbols of an expression that stands inside a longer
stream of symbols: the sort stack has the stack `cs` of the symbols before it below its
own, the input goes on with the symbols `r`, `ioff` constants have been counted, `base`
values are on the evaluation stack, the opcodes `pre` have been generated and the stack
size reached is `S0`; `flush` is set only while the top of the stack is an opening
symbol. -/
def LState.inCall (cs r : List Nat) (ioff : Nat) (base : Int) (pre : List Int) (S0 : Int)
    (ls : LState) : LState :=
  { stack := ls.stack ++ cs, input := ls.input ++ r,
    flush := ls.flush && openerTop ls.stack,
    icon := ls.icon + ioff, nstack := ls.nstack + base,
    code := pre ++ ls.code,
    stacksize := max S0 (base + ls.stacksize) }

/-- The variables of the sort at the end of the loop over the symbols `syms` of an
expression, with the constants `con`. -/
def sortEnd (con : List Rat) (syms : List Nat) : LState :=
  LState.loop con (2 * syms.length + 1) ⟨[], syms, false, 0, 0, [], 0⟩

/-- The symbols of the arguments of a call: a comma after each argument but the last,
and the closing parenthesis after the last. -/
def callSyms : List (List Nat) → List Nat
  | [] => []
  | [s] => s ++ [2]
  | s :: s2 :: ss => s ++ 9 :: callSyms (s2 :: ss)

/-- The text of the expression `e` inside a longer text: the text `pre` stands before
it, the character `c` and the text `post` after it. -/
def inText (pre e : List Char) (c : Char) (post : List Char) : List Char :=
  pre ++ (e ++ c :: post)

/-- The variables of the scanning loop of `ParseConstant` at the corresponding position
of a longer text, `n` characters further on. -/
def PCState.shift (n : Nat) (s : PCState) : PCState := { s with iend := s.iend + n }

/-- The state `vb` of `ValidateSymbol` inside a call, against the state `v` for the
argument alone: `vb` has one more parenthesis level, the level of the function `o` with
the argument count `a`, below the levels of `v`, and the constants `K` before the
constants of `v`. -/
def VState.inCall (o : Nat) (a : Int) (K : List Rat) (v vb : VState) : Prop :=
  vb.lpar = v.lpar + 1 ∧ vb.con = K ++ v.con ∧ v.ok ∧ vb.ok ∧
    vb.argcount.getD 0 0 = a ∧ vb.opensym.getD 0 0 = o ∧
    ∀ j : Nat, (j : Int) < v.lpar →
      vb.argcount.getD (j + 1) 0 = v.argcount.getD j 0 ∧
        vb.opensym.getD (j + 1) 0 = v.opensym.getD j 0

/-- The walker's variables `wb` inside a call, against the variables `w` for the
argument alone: the position is `n` characters further on, and the symbols `P` have been
recorded before the symbols of the argument. -/
def WState.inCall (n : Nat) (o : Nat) (a : Int) (K : List Rat) (P : List Nat)
    (w wb : WState) : Prop :=
  wb.istart = w.istart + n ∧ wb.opernext = w.opernext ∧ wb.unarynext = w.unarynext ∧
    VState.inCall o a K w.v wb.v ∧ wb.symlist = P ++ w.symlist

/-- The texts of the arguments of a call: a comma after each argument but the last, and
the closing parenthesis after the last. -/
def callArgs : List (List Char) → List Char
  | [] => []
  | [e] => e ++ [')']
  | e :: e2 :: es => e ++ ',' :: callArgs (e2 :: es)

/-- What is known of an argument that `CompileExpression` accepts alone: its text `e` has
no terminator inside, and the walk over it ends in the state `w`, where an operator is
expected and no parenthesis is open. -/
def ArgWalk (nvar : Nat) (var : List (List Char)) (e : List Char) (w : WState) : Prop :=
  (∀ ch ∈ e, ch ≠ NUL) ∧
    CompileExpression_loop e nvar var (e.length + 1) WState.init = .ok w ∧
    w.opernext = true ∧ ¬ w.v.lpar > 0

/-! ## A call of `min` or `max` -/

/-- The text of a call of `max` (for the opcode `OP_MAX`) or of `min` (for any other
opcode) with the argument texts `es`: `max(e1,...,ek)`. -/
def callText (o : Oper) (es : List (List Char)) : List Char :=
  (if o = OP_MAX then "max(" else "min(").toList ++ (List.intercalate [','] es ++ [')'])

/-- An argument of a call with what `CompileExpression` and `VirtualMachine` make of it
alone: its text, the walker's final state, the stream of its symbols with their
constants, its program and its value. -/
structure CallArg where
  text : List Char
  w : WState
  toks : List Token
  c : Compiled
  out : List Rat

/-- The parts of a `CallArg` belong together: the text is accepted alone and `w`, `toks`,
`c` and `out` are what the walk, the sort and the machine give for it. -/
def CallArg.ok (L : MathLib) (nvar : Nat) (var : List (List Char)) (npoint : Nat)
    (ptr_in : List (List Rat)) (d : CallArg) : Prop :=
  ArgWalk nvar var d.text d.w ∧ Run nvar ⟨false, []⟩ d.toks ⟨true, []⟩ ∧
    d.w.symlist = d.toks.map Prod.fst ∧ d.w.v.con = (Token.consts d.toks).map Prod.snd ∧
    d.c.con = (Token.consts d.toks).map Prod.snd ∧
    d.c.code.tail =
      (sortEnd ((Token.consts d.toks).map Prod.snd) (d.toks.map Prod.fst)).code ∧
    d.c.stacksize =
      (sortEnd ((Token.consts d.toks).map Prod.snd) (d.toks.map Prod.fst)).stacksize ∧
    ArgRun L npoint ptr_in d.c d.out ∧ d.out.length = npoint ∧
    VirtualMachine L npoint nvar ptr_in d.c.code d.c.con d.c.stacksize = some d.out ∧
    CompileExpression d.text nvar var = .ok d.c

/-! ## Facts about the walker -/

theorem findSymbol_some {exprs : List Char} {istart : Nat} {o u : Bool} :
    ∀ {l : List Nat} {sym : Nat}, findSymbol exprs istart o u l = some sym →
      sym ∈ l ∧ (symbol sym).size ≠ 0 ∧ (symbol sym).operleft = o ∧
      ((symbol sym).unaryoper = true → u = true) ∧
      strncmp0 exprs istart (symbol sym).text.toList 0 (symbol sym).size = true := by
  intro l
  induction l with
  | nil => intro sym h; simp [findSymbol] at h
  | cons a rest ih =>
    intro sym h
    unfold findSymbol at h
    split at h
    · rename_i hc
      injection h with h
      subst h
      simp only [Bool.and_eq_true, bne_iff_ne, ne_eq, beq_iff_eq, Bool.or_eq_true,
        Bool.not_eq_true'] at hc
      refine ⟨List.mem_cons_self _ _, hc.1.1.1, hc.1.1.2, ?_, hc.2⟩
      intro hu
      rcases hc.1.2 with h1 | h1
      · rw [hu] at h1; cases h1
      · exact h1
    · obtain ⟨h1, h2⟩ := ih h
      exact ⟨List.mem_cons_of_mem _ h1, h2⟩

theorem findSymbol_none {exprs : List Char} {istart : Nat} {o u : Bool} :
    ∀ {l : List Nat}, findSymbol exprs istart o u l = none →
      ∀ sym ∈ l, ¬ ((symbol sym).size ≠ 0 ∧ (symbol sym).operleft = o ∧
        ((symbol sym).unaryoper = true → u = true) ∧
        strncmp0 exprs istart (symbol sym).text.toList 0 (symbol sym).size = true) := by
  intro l
  induction l with
  | nil => intro _ sym hs; cases hs
  | cons a rest ih =>
    intro h sym hs
    unfold findSymbol at h
    split at h
    · cases h
    · rename_i hc
      rcases List.mem_cons.1 hs with rfl | hs
      · intro ⟨h1, h2, h3, h4⟩
        apply hc
        simp only [Bool.and_eq_true, bne_iff_ne, ne_eq, beq_iff_eq, Bool.or_eq_true,
          Bool.not_eq_true']
        refine ⟨⟨⟨h1, h2⟩, ?_⟩, h4⟩
        cases hu : (symbol sym).unaryoper
        · exact Or.inl rfl
        · exact Or.inr (h3 hu)
      · exact ih h sym hs

/-- The three ways in which one pass of the walker's loop body succeeds. -/
theorem CompileExpression_body_ok {exprs : List Char} {nvar : Nat} {var : List (List Char)}
    {w w1 : WState} (h : CompileExpression_body exprs nvar var w = .ok w1) :
    (∃ sym v, findSymbol exprs w.istart w.opernext w.unarynext
          (List.range symbolTable.length) = some sym ∧
        ValidateSymbol exprs (w.istart + (symbol sym).size - 1) sym w.v = .ok v ∧
        w1 = w.accept sym (w.istart + (symbol sym).size - 1) v) ∨
    (findSymbol exprs w.istart w.opernext w.unarynext (List.range symbolTable.length) = none ∧
      w.opernext = false ∧
      ∃ iend c, ParseConstant exprs w.istart = .ok (iend, c) ∧ iend ≥ (w.istart : Int) ∧
        w1 = w.accept symbol_ldcon iend.toNat { w.v with con := w.v.con ++ [c] }) ∨
    (findSymbol exprs w.istart w.opernext w.unarynext (List.range symbolTable.length) = none ∧
      w.opernext = false ∧
      ∃ iend0 c ivar iend, ParseConstant exprs w.istart = .ok (iend0, c) ∧
        ¬ iend0 ≥ (w.istart : Int) ∧
        ParseVariable exprs w.istart nvar var = .ok (ivar, iend) ∧ ivar ≠ -1 ∧
        w1 = w.accept symbol_ldvar iend.toNat
          { w.v with con := w.v.con ++ [((ivar : Int) : Rat)] }) := by
  unfold CompileExpression_body at h
  split at h
  · rename_i sym hf
    dsimp only at h
    split at h
    · cases h
    · rename_i v hv
      injection h with h
      exact Or.inl ⟨sym, v, hf, hv, h.symm⟩
  · rename_i hf
    split at h
    · cases h
    · rename_i hop
      split at h
      · cases h
      · rename_i iend c hc
        split at h
        · rename_i hge
          injection h with h
          exact Or.inr (Or.inl ⟨hf, by simpa using hop, iend, c, hc, hge, h.symm⟩)
        · rename_i hlt
          split at h
          · cases h
          · rename_i ivar iend2 hv
            split at h
            · rename_i hne
              injection h with h
              exact Or.inr (Or.inr ⟨hf, by simpa using hop, iend, c, ivar, iend2, hc, hlt, hv,
                hne, h.symm⟩)
            · cases h

@[simp] theorem WState.accept_istart (w : WState) (sym iend : Nat) (v : VState) :
    (w.accept sym iend v).istart = iend + 1 := rfl

@[simp] theorem WState.accept_opernext (w : WState) (sym iend : Nat) (v : VState) :
    (w.accept sym iend v).opernext = !(symbol sym).operright := rfl

@[simp] theorem WState.accept_unarynext (w : WState) (sym iend : Nat) (v : VState) :
    (w.accept sym iend v).unarynext = (symbol sym).unarynext := rfl

@[simp] theorem WState.accept_v (w : WState) (sym iend : Nat) (v : VState) :
    (w.accept sym iend v).v = v := rfl

@[simp] theorem WState.accept_symlist (w : WState) (sym iend : Nat) (v : VState) :
    (w.accept sym iend v).symlist = w.symlist ++ [sym] := rfl

theorem ParseVariable_ok {exprs : List Char} {istart nvar : Nat} {var : List (List Char)}
    {ivar iend : Int} (h : ParseVariable exprs istart nvar var = .ok (ivar, iend))
    (hne : ivar ≠ -1) :
    iend = ParseName exprs istart ∧ iend ≥ (istart : Int) ∧
    ∃ i : Nat, ivar = (i : Int) ∧
      ParseVariable_find exprs istart (iend - istart + 1).toNat nvar var nvar 0 = some i := by
  unfold ParseVariable at h
  dsimp only at h
  split at h
  · rename_i hge
    split at h
    · rename_i i hi
      injection h with h
      injection h with h1 h2
      subst h2
      exact ⟨rfl, hge, i, h1.symm, hi⟩
    · cases h
  · injection h with h
    injection h with h1 h2
    exact absurd h1.symm hne

/-- Every successful pass of the walker's loop body moves the scan position forward. -/
theorem CompileExpression_body_progress {exprs : List Char} {nvar : Nat}
    {var : List (List Char)} {w w1 : WState}
    (h : CompileExpression_body exprs nvar var w = .ok w1) : w.istart < w1.istart := by
  rcases CompileExpression_body_ok h with ⟨sym, v, hf, _, rfl⟩ | ⟨_, _, iend, c, _, hge, rfl⟩ |
    ⟨_, _, iend0, c, ivar, iend, _, _, hv, hne, rfl⟩
  · have := (findSymbol_some hf).2.1
    simp only [WState.accept_istart]
    omega
  · simp only [WState.accept_istart]
    omega
  · have := (ParseVariable_ok hv hne).2.1
    simp only [WState.accept_istart]
    omega

theorem CompileExpression_loop_succ (exprs : List Char) (nvar : Nat) (var : List (List Char))
    (fuel : Nat) (w : WState) :
    CompileExpression_loop exprs nvar var (fuel + 1) w =
      if cget exprs w.istart != NUL then
        match CompileExpression_body exprs nvar var w with
        | .error e => .error e
        | .ok w1 => CompileExpression_loop exprs nvar var fuel w1
      else .ok w := rfl

/-- Induction over the passes of the walker's loop. -/
theorem CompileExpression_loop_induction {exprs : List Char} {nvar : Nat}
    {var : List (List Char)} (P : WState → Prop)
    (hbody : ∀ w w1, P w → cget exprs w.istart ≠ NUL →
      CompileExpression_body exprs nvar var w = .ok w1 → P w1) :
    ∀ (fuel : Nat) (w w' : WState), P w →
      CompileExpression_loop exprs nvar var fuel w = .ok w' → P w' := by
  intro fuel
  induction fuel with
  | zero =>
    intro w w' hP h
    simp only [CompileExpression_loop] at h
    injection h with h
    exact h ▸ hP
  | succ n ih =>
    intro w w' hP h
    rw [CompileExpression_loop_succ] at h
    split at h
    · rename_i hc
      split at h
      · cases h
      · rename_i w1 hb
        exact ih w1 w' (hbody w w1 hP (by simpa using hc) hb) h
    · injection h with h
      exact h ▸ hP

/-- With the fuel given, the loop stops at the end of the expression or has moved the
scan position at least that far. -/
theorem CompileExpression_loop_end {exprs : List Char} {nvar : Nat} {var : List (List Char)} :
    ∀ (fuel : Nat) (w w' : WState), CompileExpression_loop exprs nvar var fuel w = .ok w' →
      cget exprs w'.istart = NUL ∨ w.istart + fuel ≤ w'.istart := by
  intro fuel
  induction fuel with
  | zero =>
    intro w w' h
    simp only [CompileExpression_loop] at h
    injection h with h
    subst h
    exact Or.inr (Nat.le_refl _)
  | succ n ih =>
    intro w w' h
    rw [CompileExpression_loop_succ] at h
    split at h
    · split at h
      · cases h
      · rename_i w1 hb
        have hp := CompileExpression_body_progress hb
        rcases ih w1 w' h with h1 | h1
        · exact Or.inl h1
        · exact Or.inr (by omega)
    · rename_i hc
      injection h with h
      subst h
      exact Or.inl (by simpa using hc)

theorem cget_of_length_le {s : List Char} {i : Nat} (h : s.length ≤ i) : cget s i = NUL := by
  unfold cget
  rw [List.getD_eq_getElem?_getD, List.getElem?_eq_none h]
  rfl

/-- The walk over an expression ends at the terminator of the expression. -/
theorem CompileExpression_loop_complete {exprs : List Char} {nvar : Nat}
    {var : List (List Char)} {w : WState}
    (h : CompileExpression_loop exprs nvar var (exprs.length + 1) WState.init = .ok w) :
    cget exprs w.istart = NUL := by
  rcases CompileExpression_loop_end _ _ _ h with h1 | h1
  · exact h1
  · exact cget_of_length_le (by omega)

/-- Passes of the loop compose. -/
theorem CompileExpression_loop_add {exprs : List Char} {nvar : Nat} {var : List (List Char)} :
    ∀ (a b : Nat) (w : WState),
      CompileExpression_loop exprs nvar var (a + b) w =
        match CompileExpression_loop exprs nvar var a w with
        | .error e => .error e
        | .ok w1 => CompileExpression_loop exprs nvar var b w1 := by
  intro a
  induction a with
  | zero => intro b w; simp [CompileExpression_loop]
  | succ n ih =>
    intro b w
    rw [Nat.succ_add, CompileExpression_loop_succ, CompileExpression_loop_succ]
    split
    · split
      · rfl
      · rename_i w1 hb
        exact ih b w1
    · rename_i hc
      cases b with
      | zero => rfl
      | succ m =>
        show _ = CompileExpression_loop exprs nvar var (m + 1) w
        rw [CompileExpression_loop_succ, if_neg hc]

/-! ## Facts about the symbol table -/

theorem symbol_of_ge {sym : Nat} (h : 44 ≤ sym) : symbol sym = symbolEnd := by
  unfold symbol
  rw [List.getD_eq_getElem?_getD, List.getElem?_eq_none (by simpa [symbolTable] using h)]
  rfl

/-- A property of all table entries and of the terminating entry holds of every
`symbol[ sym ]`. -/
theorem symbol_forall (P : Nat → Symbol → Prop) (h1 : ∀ sym < 44, P sym (symbol sym))
    (h2 : ∀ sym, 44 ≤ sym → P sym symbolEnd) : ∀ sym, P sym (symbol sym) := by
  intro sym
  by_cases h : sym < 44
  · exact h1 sym h
  · have := h2 sym (by omega)
    rwa [← symbol_of_ge (by omega : 44 ≤ sym)] at this

theorem symbol_comma_iff (sym : Nat) :
    (cget (symbol sym).text.toList 0 = ',' ∧ cget (symbol sym).text.toList 1 = NUL) ↔
      sym = 9 := by
  refine symbol_forall (fun sym s =>
    (cget s.text.toList 0 = ',' ∧ cget s.text.toList 1 = NUL) ↔ sym = 9) ?_ ?_ sym
  · decide
  · intro sym h
    constructor
    · intro h1
      exact absurd h1.1 (by decide)
    · intro h1
      omega

theorem symbol_closer_iff (sym : Nat) : (symbol sym).parincrement < 0 ↔ sym = 2 := by
  refine symbol_forall (fun sym s => s.parincrement < 0 ↔ sym = 2) ?_ ?_ sym
  · decide
  · intro sym h
    constructor
    · intro h1
      exact absurd h1 (by decide)
    · intro h1
      omega

theorem symbol_opener_iff (sym : Nat) :
    (symbol sym).parincrement > 0 ↔ (sym = 3 ∨ (12 ≤ sym ∧ sym ≤ 42)) := by
  refine symbol_forall (fun sym s => s.parincrement > 0 ↔ (sym = 3 ∨ (12 ≤ sym ∧ sym ≤ 42)))
    ?_ ?_ sym
  · decide
  · intro sym h
    constructor
    · intro h1
      exact absurd h1 (by decide)
    · intro h1
      omega

/-! ## `ValidateSymbol` by kind of symbol -/

theorem ValidateSymbol_comma (exprs : List Char) (iend : Nat) (v : VState) :
    ValidateSymbol exprs iend 9 v =
      if v.lpar ≤ 0 ∨ v.argcount.getD (v.lpar - 1).toNat 0 = 0 then
        .error ⟨ErrCode.DELIN, cprefix (iend + 1) exprs⟩
      else
        .ok { v with argcount := v.argcount.set (v.lpar - 1).toNat
                        (v.argcount.getD (v.lpar - 1).toNat 0 + 1) } := by
  unfold ValidateSymbol
  rw [if_pos ((symbol_comma_iff 9).2 rfl)]

theorem ValidateSymbol_opener (exprs : List Char) (iend : Nat) {sym : Nat} (v : VState)
    (h : (symbol sym).parincrement > 0) :
    ValidateSymbol exprs iend sym v =
      .ok { v with lpar := v.lpar + 1
                   argcount := arrSet 0 v.argcount v.lpar.toNat
                        (if (symbol sym).nargs ≠ 0 then 1 else 0)
                   opensym := arrSet 0 v.opensym v.lpar.toNat sym } := by
  have h9 : ¬ sym = 9 := by
    intro h9
    subst h9
    exact absurd h (by decide)
  unfold ValidateSymbol
  rw [if_neg (fun hc => h9 ((symbol_comma_iff sym).1 hc)), if_pos h]

theorem ValidateSymbol_closer (exprs : List Char) (iend : Nat) (v : VState) :
    ValidateSymbol exprs iend 2 v =
      if v.lpar = 0 then
        .error ⟨ErrCode.MLPAR, cprefix (iend + 1) exprs⟩
      else if (symbol (v.opensym.getD (v.lpar - 1).toNat 0)).nargs > 0 then
        if v.argcount.getD (v.lpar - 1).toNat 0 ≠
            (symbol (v.opensym.getD (v.lpar - 1).toNat 0)).nargs then
          .error ⟨ErrCode.WRNFA, cprefix (iend + 1) exprs⟩
        else .ok { v with lpar := v.lpar - 1 }
      else if (symbol (v.opensym.getD (v.lpar - 1).toNat 0)).nargs < 0 then
        if v.argcount.getD (v.lpar - 1).toNat 0 <
            -(symbol (v.opensym.getD (v.lpar - 1).toNat 0)).nargs then
          .error ⟨ErrCode.WRNFA, cprefix (iend + 1) exprs⟩
        else
          .ok { v with lpar := v.lpar - 1
                       con := v.con ++ [((v.argcount.getD (v.lpar - 1).toNat 0 : Int) : Rat)] }
      else .ok { v with lpar := v.lpar - 1 } := by
  unfold ValidateSymbol
  rw [if_neg (fun hc => absurd ((symbol_comma_iff 2).1 hc) (by decide)),
    if_neg (by decide : ¬ (symbol 2).parincrement > 0),
    if_pos (by decide : (symbol 2).parincrement < 0)]

theorem ValidateSymbol_other (exprs : List Char) (iend : Nat) {sym : Nat} (v : VState)
    (h9 : sym ≠ 9) (h : (symbol sym).parincrement = 0) :
    ValidateSymbol exprs iend sym v = .ok v := by
  unfold ValidateSymbol
  rw [if_neg (fun hc => h9 ((symbol_comma_iff sym).1 hc)), if_neg (by omega), if_neg (by omega)]

/-! ## The arrays of `ValidateSymbol` -/

theorem arrSet_length {α : Type} (d : α) (a : List α) (i : Nat) (x : α) :
    i < (arrSet d a i x).length := by
  unfold arrSet
  split
  · simpa using ‹i < a.length›
  · simp
    omega

theorem arrSet_getD_self {α : Type} (d : α) (a : List α) (i : Nat) (x : α) :
    (arrSet d a i x).getD i d = x := by
  unfold arrSet
  split
  · rename_i h
    simp [List.getD_eq_getElem?_getD, List.getElem?_set, h]
  · rename_i h
    have hl : (a ++ List.replicate (i - a.length) d).length = i := by
      simp
      omega
    rw [List.getD_eq_getElem?_getD, List.getElem?_append_right (by omega)]
    simp [hl]

theorem arrSet_getD_of_lt {α : Type} (d : α) (a : List α) {i j : Nat} (x : α) (h : j < i) :
    (arrSet d a i x).getD j d = a.getD j d := by
  unfold arrSet
  split
  · rename_i hi
    simp only [List.getD_eq_getElem?_getD]
    rw [List.getElem?_set_ne (by omega)]
  · rename_i hi
    simp only [List.getD_eq_getElem?_getD]
    rw [List.getElem?_append_left (by simp; omega)]
    by_cases hj : j < a.length
    · rw [List.getElem?_append_left hj]
    · have h1 : a[j]? = none := List.getElem?_eq_none (by omega)
      have h2 : j - a.length < i - a.length := by omega
      rw [List.getElem?_append_right (by omega), h1, List.getElem?_replicate]
      simp [h2]

theorem VState.levels_congr {v v' : VState} (hl : v.lpar = v'.lpar)
    (h : ∀ j, j < v.lpar.toNat →
      v.opensym.getD j 0 = v'.opensym.getD j 0 ∧ v.argcount.getD j 0 = v'.argcount.getD j 0) :
    v.levels = v'.levels := by
  unfold VState.levels
  rw [← hl]
  congr 1
  apply List.map_congr_left
  intro j hj
  rw [(h j (List.mem_range.1 hj)).1, (h j (List.mem_range.1 hj)).2]

theorem VState.levels_succ {v : VState} {n : Nat} (h : v.lpar = n + 1) :
    v.levels = (v.opensym.getD n 0, v.argcount.getD n 0) ::
      ({ v with lpar := (n : Int) } : VState).levels := by
  unfold VState.levels
  have h1 : v.lpar.toNat = n + 1 := by omega
  simp only [h1, List.range_succ, List.map_append, List.map_cons, List.map_nil,
    List.reverse_append, List.reverse_cons, List.reverse_nil, List.nil_append,
    List.singleton_append, Int.toNat_ofNat]

theorem VState.levels_zero {v : VState} (h : v.lpar = 0) : v.levels = [] := by
  unfold VState.levels
  simp [h]

theorem VState.levels_length (v : VState) : v.levels.length = v.lpar.toNat := by
  unfold VState.levels
  simp

/-! ## The walker follows the automaton -/

set_option synthInstance.maxSize 4000 in
/-- The kinds of symbol that have text. -/
theorem symbol_kinds : ∀ sym < 44, (symbol sym).size ≠ 0 →
    sym = 9 ∨ sym = 2 ∨
    ((symbol sym).parincrement > 0 ∧ (symbol sym).operleft = false ∧
      (symbol sym).operright = true) ∨
    ((4 ≤ sym ∧ sym ≤ 8) ∧ (symbol sym).operleft = true ∧ (symbol sym).operright = true ∧
      (symbol sym).parincrement = 0) ∨
    ((sym = 10 ∨ sym = 11) ∧ (symbol sym).operleft = false ∧ (symbol sym).operright = true ∧
      (symbol sym).parincrement = 0) ∨
    (sym = 43 ∧ (symbol sym).operleft = false ∧ (symbol sym).operright = false ∧
      (symbol sym).parincrement = 0) := by
  decide

theorem VState.levels_mk_succ (n : Nat) (ac : List Int) (os : List Nat) (con : List Rat) :
    VState.levels ⟨(n : Int) + 1, ac, os, con⟩ =
      (os.getD n 0, ac.getD n 0) :: VState.levels ⟨(n : Int), ac, os, con⟩ :=
  VState.levels_succ (v := ⟨(n : Int) + 1, ac, os, con⟩) rfl

theorem VState.levels_mk_congr (n : Nat) (ac ac' : List Int) (os os' : List Nat)
    (con con' : List Rat)
    (h : ∀ j, j < n → os.getD j 0 = os'.getD j 0 ∧ ac.getD j 0 = ac'.getD j 0) :
    VState.levels ⟨(n : Int), ac, os, con⟩ = VState.levels ⟨(n : Int), ac', os', con'⟩ :=
  @VState.levels_congr ⟨(n : Int), ac, os, con⟩ ⟨(n : Int), ac', os', con'⟩ rfl
    (fun j hj => h j (by simpa using hj))

theorem ValidateSymbol_step (nvar : Nat) {exprs : List Char} {iend sym : Nat} {v v' : VState}
    {o : Bool} (hs : sym < 44) (hz : (symbol sym).size ≠ 0) (hok : v.ok)
    (hl : (symbol sym).operleft = o) (h : ValidateSymbol exprs iend sym v = .ok v') :
    v'.ok ∧ ∃ rd, Step nvar ⟨o, v.levels⟩ (sym, rd) ⟨!(symbol sym).operright, v'.levels⟩ ∧
      v'.con = v.con ++ rd.map Prod.snd := by
  obtain ⟨lpar, ac, os, con⟩ := v
  obtain ⟨h0, h1, h2⟩ := hok
  simp only at h0 h1 h2
  obtain ⟨n, rfl⟩ := Int.eq_ofNat_of_zero_le h0
  simp only [Int.toNat_ofNat] at h1 h2
  rcases symbol_kinds sym hs hz with rfl | rfl | ⟨hp, hleft, hright⟩ | ⟨hr, hleft, hright, hp⟩ |
    ⟨hr, hleft, hright, hp⟩ | ⟨rfl, hleft, hright, hp⟩
  · -- comma
    rw [ValidateSymbol_comma] at h
    simp only at h
    split at h
    · cases h
    · rename_i hc
      injection h with h
      subst h
      have ho : o = true := by rw [← hl]; decide
      subst ho
      cases n with
      | zero => exact absurd (Or.inl (by simp)) hc
      | succ m =>
        have e1 : ((((m + 1 : Nat) : Int) - 1).toNat) = m := by omega
        rw [e1] at hc ⊢
        have hc2 : ac.getD m 0 ≠ 0 := fun hh => hc (Or.inr hh)
        refine ⟨⟨by simp only; omega, by simpa using h1, by simpa using h2⟩, [], ?_, by simp⟩
        have e3 : (((m + 1 : Nat) : Int)) = (m : Int) + 1 := by omega
        rw [e3, VState.levels_mk_succ, VState.levels_mk_succ]
        have e4 : (ac.set m (ac.getD m 0 + 1)).getD m 0 = ac.getD m 0 + 1 := by
          simp only [List.getD_eq_getElem?_getD]
          rw [List.getElem?_set_self (by omega)]
          rfl
        rw [e4, VState.levels_mk_congr m (ac.set m (ac.getD m 0 + 1)) ac os os con con]
        · exact Step.comma _ _ _ hc2
        · intro j hj
          refine ⟨rfl, ?_⟩
          simp only [List.getD_eq_getElem?_getD]
          rw [List.getElem?_set_ne (by omega)]
  · -- closing parenthesis
    rw [ValidateSymbol_closer] at h
    have ho : o = true := by rw [← hl]; decide
    subst ho
    simp only at h
    split at h
    · cases h
    · rename_i hc
      cases n with
      | zero => exact absurd rfl hc
      | succ m =>
        have e1 : ((((m + 1 : Nat) : Int) - 1).toNat) = m := by omega
        have e2 : (((m + 1 : Nat) : Int) - 1) = (m : Int) := by omega
        have e3 : (((m + 1 : Nat) : Int)) = (m : Int) + 1 := by omega
        rw [e1] at h
        rw [e2] at h
        rw [e3, VState.levels_mk_succ]
        split at h
        · rename_i hpos
          split at h
          · cases h
          · rename_i heq
            injection h with h
            subst h
            refine ⟨⟨by simp only; omega, by simp only [Int.toNat_ofNat]; omega,
              by simp only [Int.toNat_ofNat]; omega⟩, [], ?_, by simp⟩
            have := @Step.closer nvar (os.getD m 0) (ac.getD m 0)
              (VState.levels ⟨(m : Int), ac, os, con⟩)
              (fun _ => by simpa using heq) (fun hneg => by omega)
            rw [if_neg (by omega)] at this
            exact this
        · rename_i hnpos
          split at h
          · rename_i hneg
            split at h
            · cases h
            · rename_i hge
              injection h with h
              subst h
              refine ⟨⟨by simp only; omega, by simp only [Int.toNat_ofNat]; omega,
                by simp only [Int.toNat_ofNat]; omega⟩,
                [((symbol (os.getD m 0)).opcode, ((ac.getD m 0 : Int) : Rat))], ?_, by simp⟩
              have := @Step.closer nvar (os.getD m 0) (ac.getD m 0)
                (VState.levels ⟨(m : Int), ac, os, con⟩)
                (fun hh => absurd hh hnpos) (fun _ => by omega)
              rw [if_pos hneg] at this
              rw [VState.levels_mk_congr m ac ac os os _ con (fun _ _ => ⟨rfl, rfl⟩)]
              exact this
          · rename_i hnneg
            injection h with h
            subst h
            refine ⟨⟨by simp only; omega, by simp only [Int.toNat_ofNat]; omega,
              by simp only [Int.toNat_ofNat]; omega⟩, [], ?_, by simp⟩
            have := @Step.closer nvar (os.getD m 0) (ac.getD m 0)
              (VState.levels ⟨(m : Int), ac, os, con⟩)
              (fun hh => absurd hh hnpos) (fun hh => absurd hh hnneg)
            rw [if_neg hnneg] at this
            exact this
  · -- opening symbol
    rw [ValidateSymbol_opener _ _ _ hp] at h
    injection h with h
    subst h
    simp only [Int.toNat_ofNat]
    refine ⟨⟨by simp only; omega, ?_, ?_⟩, [], ?_, by simp⟩
    · have := arrSet_length 0 ac n (if (symbol sym).nargs ≠ 0 then 1 else 0)
      simp only
      omega
    · have := arrSet_length 0 os n sym
      simp only
      omega
    · rw [VState.levels_mk_succ, hright, ← hl, hleft]
      simp only [arrSet_getD_self]
      rw [VState.levels_mk_congr n _ ac _ os con con
        (fun j hj => ⟨arrSet_getD_of_lt 0 _ _ hj, arrSet_getD_of_lt 0 _ _ hj⟩)]
      exact Step.opener ⟨false, _⟩ sym rfl hp
  · -- binary operator
    rw [ValidateSymbol_other _ _ _ (by omega) hp] at h
    injection h with h
    subst h
    refine ⟨⟨by simp only; omega, by simpa using h1, by simpa using h2⟩, [], ?_, by simp⟩
    rw [hright, ← hl, hleft]
    exact Step.binary ⟨true, _⟩ sym rfl hr
  · -- unary operator
    rw [ValidateSymbol_other _ _ _ (by omega) hp] at h
    injection h with h
    subst h
    refine ⟨⟨by simp only; omega, by simpa using h1, by simpa using h2⟩, [], ?_, by simp⟩
    rw [hright, ← hl, hleft]
    exact Step.unary ⟨false, _⟩ sym rfl hr
  · -- the bad value
    rw [ValidateSymbol_other _ _ _ (by omega) hp] at h
    injection h with h
    subst h
    refine ⟨⟨by simp only; omega, by simpa using h1, by simpa using h2⟩, [], ?_, by simp⟩
    rw [hright, ← hl, hleft]
    exact Step.ldbad ⟨false, _⟩ rfl

theorem ParseVariable_find_lt {exprs : List Char} {istart nc nvar : Nat}
    {var : List (List Char)} :
    ∀ (fuel ivar : Nat) {i : Nat},
      ParseVariable_find exprs istart nc nvar var fuel ivar = some i → ivar ≤ i ∧ i < nvar := by
  intro fuel
  induction fuel with
  | zero => intro ivar i h; simp [ParseVariable_find] at h
  | succ n ih =>
    intro ivar i h
    unfold ParseVariable_find at h
    split at h
    · rename_i hlt
      split at h
      · injection h with h
        subst h
        exact ⟨Nat.le_refl _, hlt⟩
      · have := ih (ivar + 1) h
        omega
    · cases h

theorem VState.levels_con (v : VState) (c : List Rat) :
    VState.levels { v with con := c } = v.levels :=
  VState.levels_congr rfl (fun _ _ => ⟨rfl, rfl⟩)

/-- One successful pass of the walker's loop body is one step of the automaton. -/
theorem CompileExpression_body_step {exprs : List Char} {nvar : Nat} {var : List (List Char)}
    {w w1 : WState} (hok : w.v.ok)
    (h : CompileExpression_body exprs nvar var w = .ok w1) :
    w1.v.ok ∧ ∃ tok : Token, Step nvar w.abs tok w1.abs ∧ w1.symlist = w.symlist ++ [tok.1] ∧
      w1.v.con = w.v.con ++ tok.2.map Prod.snd := by
  rcases CompileExpression_body_ok h with ⟨sym, v, hf, hv, rfl⟩ | ⟨_, hop, iend, c, _, hge, rfl⟩ |
    ⟨_, hop, iend0, c, ivar, iend, _, _, hv, hne, rfl⟩
  · obtain ⟨hmem, hz, hleft, _, _⟩ := findSymbol_some hf
    have hs : sym < 44 := by simpa [symbolTable] using List.mem_range.1 hmem
    obtain ⟨hok1, rd, hstep, hcon⟩ := ValidateSymbol_step nvar hs hz hok hleft hv
    exact ⟨hok1, (sym, rd), hstep, rfl, hcon⟩
  · refine ⟨hok, (symbol_ldcon, [(OP_LDCON, c)]), ?_, rfl, rfl⟩
    have := @Step.ldcon nvar w.abs c hop
    simpa [WState.abs, VState.levels_con] using this
  · obtain ⟨_, _, i, rfl, hfind⟩ := ParseVariable_ok hv hne
    have hi := (ParseVariable_find_lt _ _ hfind).2
    refine ⟨hok, (symbol_ldvar, [(OP_LDVAR, (i : Rat))]), ?_, rfl, ?_⟩
    · have := @Step.ldvar nvar w.abs i hop hi
      simpa [WState.abs, VState.levels_con] using this
    · simp

/-- The walk over an expression is a run of the automaton: the symbols recorded are
those of the run and the constants stored are those of its tokens, in order. -/
theorem CompileExpression_loop_run {exprs : List Char} {nvar : Nat} {var : List (List Char)} :
    ∀ (fuel : Nat) (w w' : WState), w.v.ok →
      CompileExpression_loop exprs nvar var fuel w = .ok w' →
      w'.v.ok ∧ ∃ toks : List Token, Run nvar w.abs toks w'.abs ∧
        w'.symlist = w.symlist ++ toks.map Prod.fst ∧
        w'.v.con = w.v.con ++ (Token.consts toks).map Prod.snd := by
  intro fuel
  induction fuel with
  | zero =>
    intro w w' hok h
    simp only [CompileExpression_loop] at h
    injection h with h
    subst h
    exact ⟨hok, [], Run.nil _, by simp, by simp [Token.consts]⟩
  | succ n ih =>
    intro w w' hok h
    rw [CompileExpression_loop_succ] at h
    split at h
    · split at h
      · cases h
      · rename_i w1 hb
        obtain ⟨hok1, tok, hstep, hsym, hcon⟩ := CompileExpression_body_step hok hb
        obtain ⟨hok', toks, hrun, hsym', hcon'⟩ := ih w1 w' hok1 h
        refine ⟨hok', tok :: toks, Run.cons hstep hrun, ?_, ?_⟩
        · rw [hsym', hsym]
          simp
        · rw [hcon', hcon]
          simp [Token.consts]
    · injection h with h
      subst h
      exact ⟨hok, [], Run.nil _, by simp, by simp [Token.consts]⟩

theorem WState.init_ok : WState.init.v.ok := by
  simp [WState.init, VState.ok]

theorem WState.init_abs : WState.init.abs = ⟨false, []⟩ := by
  simp [WState.init, WState.abs, VState.levels]

/-! ## `EvaluationSort` on the shared array and on two lists -/

theorem List.take_succ_set {α : Type} (x : α) : ∀ (l : List α) (k : Nat), k < l.length →
    (l.set k x).take (k + 1) = l.take k ++ [x] := by
  intro l
  induction l with
  | nil => intro k h; simp at h
  | cons a t ih =>
    intro k h
    cases k with
    | zero => simp
    | succ m =>
      simp only [List.set_cons_succ, List.take_succ_cons, List.cons_append, List.cons.injEq,
        true_and]
      exact ih m (by simpa using h)

theorem List.take_succ_getD {α : Type} (d : α) (l : List α) (k : Nat) (h : k < l.length) :
    l.take (k + 1) = l.take k ++ [l.getD k d] := by
  rw [List.take_succ, List.getD_eq_getElem?_getD, List.getElem?_eq_getElem h]
  rfl

theorem List.drop_getD {α : Type} (d : α) (l : List α) (k : Nat) (h : k < l.length) :
    l.drop k = l.getD k d :: l.drop (k + 1) := by
  rw [List.drop_eq_getElem_cons h, List.getD_eq_getElem?_getD, List.getElem?_eq_getElem h]
  rfl

theorem EvaluationSort_body_of_push {con : List Rat} {nsym : Nat} {s : SortState} {fl : Bool}
    (h : EvaluationSort_push nsym s = (true, fl)) :
    EvaluationSort_body con nsym s = EvaluationSort_doPush s fl := by
  unfold EvaluationSort_body
  rw [h]

theorem EvaluationSort_body_of_pop {con : List Rat} {nsym : Nat} {s : SortState} {fl : Bool}
    (h : EvaluationSort_push nsym s = (false, fl)) :
    EvaluationSort_body con nsym s = EvaluationSort_doPop con s fl := by
  unfold EvaluationSort_body
  rw [h]

theorem LState.body_nil_cons {con : List Rat} {ls : LState} {sym : Nat} {rest : List Nat}
    (h1 : ls.stack = []) (h2 : ls.input = sym :: rest) :
    ls.body con = ls.push sym rest ls.flush := by
  unfold LState.body
  rw [h1, h2]

theorem LState.body_cons_nil {con : List Rat} {ls : LState} {top : Nat} {st : List Nat}
    (h1 : ls.stack = top :: st) (h2 : ls.input = []) :
    ls.body con = ls.pop con top st ls.flush := by
  unfold LState.body
  rw [h1, h2]

theorem LState.body_cons_cons {con : List Rat} {ls : LState} {top sym : Nat}
    {st rest : List Nat} (h1 : ls.stack = top :: st) (h2 : ls.input = sym :: rest) :
    ls.body con =
      if ls.flush then ls.pop con top st false
      else if (symbol sym).leftpriority > (symbol top).rightpriority then
        ls.push sym rest ls.flush
      else ls.pop con top st ls.flush := by
  unfold LState.body
  rw [h1, h2]

theorem EvaluationSort_doPush_toL {nsym : Nat} {s : SortState} (fl : Bool)
    (hwf : s.wf nsym) (hi : s.isym < nsym) :
    (EvaluationSort_doPush s fl).wf nsym ∧
      (EvaluationSort_doPush s fl).toL =
        s.toL.push (s.symlist.getD s.isym 0) (s.symlist.drop (s.isym + 1)) fl := by
  obtain ⟨symlist, isym, tos, flush, icon, nstack, code, stacksize⟩ := s
  obtain ⟨h1, h2, h3, h4⟩ := hwf
  simp only at h1 h2 h3 h4 hi
  obtain ⟨k, hk⟩ : ∃ k : Nat, tos + 1 = (k : Int) := Int.eq_ofNat_of_zero_le (by omega)
  unfold EvaluationSort_doPush LState.push
  simp only [SortState.toL]
  split
  · exact ⟨⟨by simp only; omega, by simp only; omega, by simp only; omega, h4⟩, rfl⟩
  · refine ⟨⟨by simp only; omega, by simp only; omega, by simp only; omega,
      by simpa using h4⟩, ?_⟩
    have e2 : (tos + 1).toNat = k := by omega
    have e3 : (tos + 1 + 1).toNat = k + 1 := by omega
    simp only [e2, e3, LState.mk.injEq, and_true]
    constructor
    · rw [List.take_succ_set _ _ _ (by omega)]
      simp
    · rw [List.drop_set_of_lt _ _ (by omega)]

theorem EvaluationSort_doPop_toL (con : List Rat) {nsym : Nat} {s : SortState} (fl : Bool)
    (hwf : s.wf nsym) (ht : 0 ≤ s.tos) :
    (EvaluationSort_doPop con s fl).wf nsym ∧
      s.toL.stack = s.symlist.getD s.tos.toNat 0 :: (s.symlist.take s.tos.toNat).reverse ∧
      (EvaluationSort_doPop con s fl).toL =
        s.toL.pop con (s.symlist.getD s.tos.toNat 0) (s.symlist.take s.tos.toNat).reverse fl := by
  obtain ⟨symlist, isym, tos, flush, icon, nstack, code, stacksize⟩ := s
  obtain ⟨h1, h2, h3, h4⟩ := hwf
  simp only at h1 h2 h3 h4 ht
  obtain ⟨t, rfl⟩ := Int.eq_ofNat_of_zero_le ht
  have e1 : ((t : Int) + 1).toNat = t + 1 := by omega
  have e2 : ((t : Int) - 1 + 1).toNat = t := by omega
  refine ⟨?_, ?_, ?_⟩
  · unfold EvaluationSort_doPop
    simp only
    split <;> exact ⟨by simp only; omega, by simp only; omega, by simp only; omega, h4⟩
  · simp only [SortState.toL, e1, Int.toNat_ofNat]
    rw [List.take_succ_getD 0 _ _ (by omega)]
    simp
  · unfold EvaluationSort_doPop LState.pop
    simp only [SortState.toL, Int.toNat_ofNat]
    split <;> simp only [e2]

/-- One pass of the loop body of `EvaluationSort` is one pass of the two-list body, and
keeps the sort stack within the part of `symlist` already read. -/
theorem EvaluationSort_body_toL (con : List Rat) {nsym : Nat} {s : SortState}
    (hwf : s.wf nsym) (hc : s.tos > -1 ∨ s.isym < nsym) :
    (EvaluationSort_body con nsym s).wf nsym ∧
      (EvaluationSort_body con nsym s).toL = s.toL.body con := by
  have hwf' := hwf
  obtain ⟨h1, h2, h3, h4⟩ := hwf'
  by_cases ht : s.tos = -1
  · have hi : s.isym < nsym := by omega
    have e1 : EvaluationSort_push nsym s = (true, s.flush) := by
      unfold EvaluationSort_push
      rw [if_pos ht]
    have hst : s.toL.stack = [] := by simp [SortState.toL, ht]
    have hin : s.toL.input = s.symlist.getD s.isym 0 :: s.symlist.drop (s.isym + 1) :=
      List.drop_getD 0 _ _ (by omega)
    rw [EvaluationSort_body_of_push e1, LState.body_nil_cons hst hin]
    exact EvaluationSort_doPush_toL s.flush hwf hi
  · have ht0 : 0 ≤ s.tos := by omega
    by_cases hi : s.isym < nsym
    · have hin : s.toL.input = s.symlist.getD s.isym 0 :: s.symlist.drop (s.isym + 1) :=
        List.drop_getD 0 _ _ (by omega)
      cases hfl : s.flush with
      | true =>
        have e1 : EvaluationSort_push nsym s = (false, false) := by
          unfold EvaluationSort_push
          rw [if_neg ht, if_neg (by omega), if_pos hfl]
        obtain ⟨hw, hst, hpop⟩ := EvaluationSort_doPop_toL con false hwf ht0
        rw [EvaluationSort_body_of_pop e1, LState.body_cons_cons hst hin,
          if_pos (show s.toL.flush = true from hfl)]
        exact ⟨hw, hpop⟩
      | false =>
        have hfl' : s.toL.flush = false := hfl
        by_cases hpr : (symbol (s.symlist.getD s.isym 0)).leftpriority >
            (symbol (s.symlist.getD s.tos.toNat 0)).rightpriority
        · have e1 : EvaluationSort_push nsym s = (true, s.flush) := by
            unfold EvaluationSort_push
            rw [if_neg ht, if_neg (by omega), if_neg (by simp [hfl]), decide_eq_true hpr]
          obtain ⟨_, hst, _⟩ := EvaluationSort_doPop_toL con false hwf ht0
          rw [EvaluationSort_body_of_push e1, LState.body_cons_cons hst hin,
            if_neg (by simp [hfl']), if_pos hpr]
          exact EvaluationSort_doPush_toL s.flush hwf hi
        · have e1 : EvaluationSort_push nsym s = (false, s.flush) := by
            unfold EvaluationSort_push
            rw [if_neg ht, if_neg (by omega), if_neg (by simp [hfl]), decide_eq_false hpr]
          obtain ⟨hw, hst, hpop⟩ := EvaluationSort_doPop_toL con s.flush hwf ht0
          rw [EvaluationSort_body_of_pop e1, LState.body_cons_cons hst hin,
            if_neg (by simp [hfl']), if_neg hpr]
          exact ⟨hw, hpop⟩
    · have hin : s.toL.input = [] := List.drop_eq_nil_of_le (by omega)
      have e1 : EvaluationSort_push nsym s = (false, s.flush) := by
        unfold EvaluationSort_push
        rw [if_neg ht, if_pos (by omega)]
      obtain ⟨hw, hst, hpop⟩ := EvaluationSort_doPop_toL con s.flush hwf ht0
      rw [EvaluationSort_body_of_pop e1, LState.body_cons_nil hst hin]
      exact ⟨hw, hpop⟩

/-! ## Depth traces -/

theorem Oper.ofInt_toInt (o : Oper) : Oper.ofInt o.toInt = some o := by
  cases o <;> decide

theorem depthStep_arg1 (con : List Rat) (nvar : Nat) (d : DState) {o : Oper}
    (h : o.isArg1 = true) :
    depthStep con nvar d o.toInt = if 0 ≤ d.tos then some d else none := by
  unfold depthStep
  rw [Oper.ofInt_toInt]
  cases o <;> simp_all [Oper.isArg1]

theorem depthStep_arg2 (con : List Rat) (nvar : Nat) (d : DState) {o : Oper}
    (h : o.isArg2 = true) :
    depthStep con nvar d o.toInt =
      if 1 ≤ d.tos then some ⟨d.tos - 1, d.icon, d.reads⟩ else none := by
  unfold depthStep
  rw [Oper.ofInt_toInt]
  cases o <;> simp_all [Oper.isArg2, Oper.isArg1]

theorem depthStep_ldbad (con : List Rat) (nvar : Nat) (d : DState) :
    depthStep con nvar d OP_LDBAD.toInt = some ⟨d.tos + 1, d.icon, d.reads⟩ := by
  unfold depthStep
  rw [Oper.ofInt_toInt]

theorem depthStep_ldcon (con : List Rat) (nvar : Nat) (d : DState) {c : Rat}
    (h : con.get? d.icon = some c) :
    depthStep con nvar d OP_LDCON.toInt =
      some ⟨d.tos + 1, d.icon + 1, d.reads ++ [(OP_LDCON, c)]⟩ := by
  unfold depthStep
  rw [Oper.ofInt_toInt]
  simp only [h]

theorem depthStep_ldvar (con : List Rat) (nvar : Nat) (d : DState) {c : Rat}
    (h : con.get? d.icon = some c) (hc : 0 ≤ c_int (c + 1 / 2) ∧ c_int (c + 1 / 2) < nvar) :
    depthStep con nvar d OP_LDVAR.toInt =
      some ⟨d.tos + 1, d.icon + 1, d.reads ++ [(OP_LDVAR, c)]⟩ := by
  unfold depthStep
  rw [Oper.ofInt_toInt]
  simp only [h]
  rw [if_pos hc]

theorem depthStep_minmax (con : List Rat) (nvar : Nat) (d : DState) {o : Oper} {c : Rat}
    (ho : o = OP_MAX ∨ o = OP_MIN) (h : con.get? d.icon = some c)
    (hk : ((c_int (c + 1 / 2) - 1).toNat : Int) ≤ d.tos) :
    depthStep con nvar d o.toInt =
      some ⟨d.tos - (c_int (c + 1 / 2) - 1).toNat, d.icon + 1, d.reads ++ [(o, c)]⟩ := by
  unfold depthStep
  rw [Oper.ofInt_toInt]
  rcases ho with rfl | rfl <;> simp only [h] <;> rw [if_pos hk]

theorem lastD_append (tr : List DState) (d d0 : DState) : lastD (tr ++ [d]) d0 = d := by
  simp [lastD]

theorem lastD_cons (tr : List DState) (d d0 : DState) : lastD (d :: tr) d0 = lastD tr d := by
  unfold lastD
  cases tr with
  | nil => simp
  | cons a t =>
    rw [List.getLast?_cons_cons, List.getLast?_eq_getLast _ (List.cons_ne_nil a t)]
    rfl

theorem depthTrace_snoc (con : List Rat) (nvar : Nat) (op : Int) :
    ∀ (code : List Int) (d0 : DState) (tr : List DState) (d1 : DState),
      depthTrace con nvar code d0 = some tr →
      depthStep con nvar (lastD tr d0) op = some d1 →
      depthTrace con nvar (code ++ [op]) d0 = some (tr ++ [d1]) := by
  intro code
  induction code with
  | nil =>
    intro d0 tr d1 h1 h2
    simp only [depthTrace] at h1
    injection h1 with h1
    subst h1
    simp only [lastD, List.getLast?_nil, Option.getD_none] at h2
    simp [depthTrace, h2]
  | cons a rest ih =>
    intro d0 tr d1 h1 h2
    simp only [depthTrace] at h1
    split at h1
    · cases h1
    · rename_i da hda
      split at h1
      · cases h1
      · rename_i tr' htr'
        injection h1 with h1
        subst h1
        rw [lastD_cons] at h2
        have := ih da tr' d1 htr' h2
        simp [depthTrace, hda, this]

theorem TraceInv_congr {con : List Rat} {nvar : Nat} {ls ls' : LState}
    {drd : List (Oper × Rat)} (h : TraceInv con nvar ls drd) (h1 : ls'.code = ls.code)
    (h2 : ls'.nstack = ls.nstack) (h3 : ls'.icon = ls.icon) (h4 : ls'.stacksize = ls.stacksize) :
    TraceInv con nvar ls' drd := by
  unfold TraceInv at h ⊢
  rw [h1, h2, h3, h4]
  exact h

/-- Appending an opcode whose depth step is defined and leaves the stack non-empty keeps
the trace invariant, with the stack size raised to the new depth when that is larger. -/
theorem TraceInv_emit {con : List Rat} {nvar : Nat} {ls ls' : LState}
    {drd drd' : List (Oper × Rat)} {op : Int} (h : TraceInv con nvar ls drd)
    (hstep : depthStep con nvar ⟨ls.nstack - 1, ls.icon, drd⟩ op =
      some ⟨ls'.nstack - 1, ls'.icon, drd'⟩)
    (hpos : 1 ≤ ls'.nstack) (hic : ls'.icon = drd'.length)
    (hcode : ls'.code = ls.code ++ [op])
    (hss : ls'.stacksize = if ls'.nstack > ls.stacksize then ls'.nstack else ls.stacksize) :
    TraceInv con nvar ls' drd' := by
  obtain ⟨tr, htr, hlast, _, hall, hmax⟩ := h
  rw [← hlast] at hstep
  refine ⟨tr ++ [⟨ls'.nstack - 1, ls'.icon, drd'⟩], ?_, lastD_append _ _ _, hic, ?_, ?_⟩
  · rw [hcode]
    exact depthTrace_snoc con nvar op _ _ _ _ htr hstep
  · intro d hd
    rcases List.mem_append.1 hd with hd | hd
    · have := hall d hd
      rw [hss]
      split <;> omega
    · simp only [List.mem_singleton] at hd
      subst hd
      rw [hss]
      simp only
      split <;> omega
  · right
    by_cases hgt : ls'.nstack > ls.stacksize
    · refine ⟨⟨ls'.nstack - 1, ls'.icon, drd'⟩, by simp, ?_⟩
      rw [hss, if_pos hgt]
      simp
    · rcases hmax with ⟨_, h0⟩ | ⟨d, hd, hd2⟩
      · omega
      · refine ⟨d, List.mem_append_left _ hd, ?_⟩
        rw [hss, if_neg hgt]
        exact hd2

/-- In a valid trace the stack size is at least 0. -/
theorem TraceInv_stacksize_nonneg {con : List Rat} {nvar : Nat} {ls : LState}
    {drd : List (Oper × Rat)} (h : TraceInv con nvar ls drd) : 0 ≤ ls.stacksize := by
  obtain ⟨tr, _, _, _, hall, hmax⟩ := h
  rcases hmax with ⟨_, h0⟩ | ⟨d, hd, hd2⟩
  · omega
  · have := hall d hd
    omega

/-! ## Table facts used by the sort -/

theorem c_int_int_add_half (a : Int) (h : 0 ≤ a) : c_int ((a : Rat) + 1 / 2) = a := by
  unfold c_int
  have h1 : (0 : Rat) ≤ (a : Rat) + 1 / 2 := by
    have : (0 : Rat) ≤ (a : Rat) := by exact_mod_cast h
    linarith
  rw [if_pos h1]
  show ⌊(a : Rat) + 1 / 2⌋ = a
  rw [Int.floor_eq_iff]
  constructor <;> norm_num

theorem c_int_nat_add_half (i : Nat) : c_int ((i : Rat) + 1 / 2) = (i : Int) := by
  have := c_int_int_add_half (i : Int) (by omega)
  simpa using this

set_option synthInstance.maxSize 4000 in
theorem symbol_operand_facts : ∀ s < 44, isOperand s →
    s ≠ 2 ∧ (symbol s).parincrement = 0 ∧ (symbol s).stackincrement = 1 ∧
    (symbol s).nargs = 0 ∧ (symbol s).opcode ≠ OP_NULL ∧ (symbol s).rightpriority = 10 ∧
    (symbol s).leftpriority = 10 ∧ wt s = 1 ∧
    (s = 0 → (symbol s).opcode = OP_LDVAR) ∧ (s = 1 → (symbol s).opcode = OP_LDCON) ∧
    (s = 43 → (symbol s).opcode = OP_LDBAD) := by
  decide

set_option synthInstance.maxSize 4000 in
theorem symbol_binary_facts : ∀ s < 44, 4 ≤ s ∧ s ≤ 8 →
    (symbol s).parincrement = 0 ∧ (symbol s).stackincrement = -1 ∧
    (symbol s).nargs = 0 ∧ (symbol s).opcode.isArg2 = true ∧ (symbol s).opcode ≠ OP_NULL ∧
    4 ≤ (symbol s).leftpriority ∧ (symbol s).leftpriority ≤ 9 ∧
    (symbol s).rightpriority ≤ 6 ∧ ¬ isOperand s ∧ wt s = -1 := by
  decide

set_option synthInstance.maxSize 4000 in
theorem symbol_nonoperand_facts : ∀ s < 44, ¬ isOperand s →
    wt s ≤ 0 ∧ (s ≠ 2 → (symbol s).rightpriority ≤ 7) ∧ s ≠ symbol_ldvar ∧ s ≠ symbol_ldcon := by
  decide

set_option synthInstance.maxSize 4000 in
theorem symbol_opener_facts : ∀ s < 44, (symbol s).parincrement > 0 →
    s ≠ 2 ∧ ¬ isOperand s ∧ (symbol s).leftpriority = 10 ∧ (symbol s).rightpriority = 1 ∧
    ((symbol s).nargs = 0 → (symbol s).opcode = OP_NULL) ∧
    ((symbol s).nargs > 0 → (symbol s).opcode ≠ OP_NULL ∧
      (symbol s).stackincrement = 1 - (symbol s).nargs ∧
      (((symbol s).nargs = 1 ∧ (symbol s).opcode.isArg1 = true) ∨
       ((symbol s).nargs = 2 ∧ (symbol s).opcode.isArg2 = true))) ∧
    ((symbol s).nargs < 0 → (symbol s).nargs = -2 ∧
      ((symbol s).opcode = OP_MAX ∨ (symbol s).opcode = OP_MIN)) := by
  decide

set_option synthInstance.maxSize 4000 in
theorem symbol_other_facts : ∀ s < 44, s ≠ 2 → ¬ isOperand s → ¬ (symbol s).parincrement > 0 →
    ¬ (4 ≤ s ∧ s ≤ 8) →
    (s = 9 ∨ s = 10 ∨ s = 11) ∧ wt s = 0 ∧ (symbol s).nargs = 0 ∧
    (symbol s).stackincrement = 0 ∧
    (s ≠ 10 → (symbol s).opcode = OP_NULL) ∧
    (s = 10 → (symbol s).opcode.isArg1 = true ∧ (symbol s).opcode ≠ OP_NULL) ∧
    2 ≤ (symbol s).rightpriority := by
  decide

set_option synthInstance.maxSize 4000 in
theorem symbol_right_lt_two : ∀ s < 44, (symbol s).rightpriority < 2 →
    (symbol s).parincrement > 0 := by
  decide

theorem sum_wt_nonpos : ∀ (st : List Nat), (∀ s ∈ st, s < 44 ∧ ¬ isOperand s) →
    (st.map wt).sum ≤ 0 := by
  intro st
  induction st with
  | nil => intro _; simp
  | cons a t ih =>
    intro h
    have h1 := h a (List.mem_cons_self _ _)
    have h2 := ih (fun s hs => h s (List.mem_cons_of_mem _ hs))
    have h3 := (symbol_nonoperand_facts a h1.1 h1.2).1
    simp only [List.map_cons, List.sum_cons]
    omega

theorem sum_lv_nonneg : ∀ (L : List (Nat × Int)), LevelsOK L → 0 ≤ (L.map lv).sum := by
  intro L
  induction L with
  | nil => intro _; simp
  | cons a t ih =>
    intro h
    have h1 := h a (List.mem_cons_self _ _)
    have h2 := ih (fun s hs => h s (List.mem_cons_of_mem _ hs))
    simp only [List.map_cons, List.sum_cons]
    have : 0 ≤ lv a := by
      unfold lv
      split
      · rename_i hn
        have := h1.2.1 hn
        omega
      · omega
    omega

theorem con_get_pending {con : List Rat} {drd X : List (Oper × Rat)} {o : Oper} {c : Rat}
    (h : con = ((drd ++ [(o, c)]) ++ X).map Prod.snd) : con.get? drd.length = some c := by
  subst h
  simp only [List.map_append, List.map_cons, List.map_nil, List.get?_eq_getElem?,
    List.append_assoc]
  rw [List.getElem?_append_right (by simp)]
  simp

theorem PendingTop_tail {nvar : Nat} {top : Nat} {st : List Nat}
    (h : StackOK (top :: st)) : PendingTop nvar st [] ∧ StackOK st := by
  obtain ⟨h1, h2⟩ := h
  simp only [List.tail_cons] at h2
  refine ⟨?_, fun s hs => h1 s (List.mem_cons_of_mem _ hs), fun s hs => ?_⟩
  · cases st with
    | nil => simp [PendingTop]
    | cons a t =>
      have ha := h2 a (List.mem_cons_self _ _)
      have hlt := (h1 a (List.mem_cons_of_mem _ (List.mem_cons_self _ _))).1
      have := symbol_nonoperand_facts a hlt ha
      simp only [PendingTop]
      rw [if_neg this.2.2.2, if_neg this.2.2.1]
      trivial
  · cases st with
    | nil => simp at hs
    | cons a t => exact h2 s (List.mem_cons_of_mem _ hs)

theorem openers_cons_of_not {top : Nat} {st : List Nat} (h : ¬ (symbol top).parincrement > 0) :
    openers (top :: st) = openers st := by
  unfold openers
  rw [List.filter_cons_of_neg (by simpa using h)]

theorem openers_cons_of_pos {top : Nat} {st : List Nat} (h : (symbol top).parincrement > 0) :
    openers (top :: st) = top :: openers st := by
  unfold openers
  rw [List.filter_cons_of_pos (by simpa using h)]

/-! ## Popping a symbol keeps the invariant -/

theorem LState.pop_null {con : List Rat} {ls : LState} {top : Nat} {st : List Nat} {fl : Bool}
    (h : (symbol top).opcode = OP_NULL) (h0 : top ≠ symbol_ldvar) (h1 : top ≠ symbol_ldcon) :
    ls.pop con top st fl = { ls with stack := st, flush := fl } := by
  unfold LState.pop
  simp [h, h0, h1]

theorem LState.pop_fixed {con : List Rat} {ls : LState} {top : Nat} {st : List Nat} {fl : Bool}
    (h : (symbol top).opcode ≠ OP_NULL) (hn : (symbol top).nargs ≥ 0) :
    ls.pop con top st fl =
      { stack := st, input := ls.input, flush := fl,
        icon := ls.icon + (if top = symbol_ldvar ∨ top = symbol_ldcon then 1 else 0),
        nstack := ls.nstack + (symbol top).stackincrement,
        code := ls.code ++ [(symbol top).opcode.toInt],
        stacksize := if ls.nstack + (symbol top).stackincrement > ls.stacksize
          then ls.nstack + (symbol top).stackincrement else ls.stacksize } := by
  unfold LState.pop
  simp only [ne_eq, h, not_false_eq_true, if_true, hn]

theorem LState.pop_variadic {con : List Rat} {ls : LState} {top : Nat} {st : List Nat}
    {fl : Bool} (h : (symbol top).opcode ≠ OP_NULL) (hn : (symbol top).nargs < 0)
    (h0 : top ≠ symbol_ldvar) (h1 : top ≠ symbol_ldcon) :
    ls.pop con top st fl =
      { stack := st, input := ls.input, flush := fl,
        icon := ls.icon + 1,
        nstack := ls.nstack - (c_int (con.getD ls.icon 0 + 1 / 2) - 1),
        code := ls.code ++ [(symbol top).opcode.toInt],
        stacksize := if ls.nstack - (c_int (con.getD ls.icon 0 + 1 / 2) - 1) > ls.stacksize
          then ls.nstack - (c_int (con.getD ls.icon 0 + 1 / 2) - 1) else ls.stacksize } := by
  unfold LState.pop
  have hn' : ¬ (symbol top).nargs ≥ 0 := by omega
  simp only [ne_eq, h, not_false_eq_true, if_true, hn', h0, h1, or_self, if_false,
    Nat.add_zero]

/-- Popping a symbol that is not an opening symbol, when an operator is expected. -/
theorem SortInv_pop_normal {con : List Rat} {allrd : List (Oper × Rat)} {nvar : Nat} {ls : LState} {q : AState}
    {toks : List Token} {rd drd prd : List (Oper × Rat)} {top : Nat} {st : List Nat}
    (fl : Bool)
    (hrun : Run nvar q toks ⟨true, []⟩) (hin : ls.input = toks.map Prod.fst)
    (hcon : con = (rd ++ Token.consts toks).map Prod.snd)
    (hall : allrd = rd ++ Token.consts toks) (hrd : rd = drd ++ prd)
    (htr : TraceInv con nvar ls drd) (hpend : PendingTop nvar ls.stack prd)
    (hst : StackOK ls.stack) (hlev : LevelsOK q.levels)
    (hop : openers ls.stack = q.levels.map Prod.fst)
    (hfl : fl = true → toks = []) (hq : q.opernext = true)
    (hcount : ls.nstack + (ls.stack.map wt).sum =
      (q.levels.map lv).sum + (if q.opernext then 1 else 0))
    (hstack : ls.stack = top :: st) (hno : ¬ (symbol top).parincrement > 0) :
    SortInv con allrd nvar (ls.pop con top st fl) := by
  rw [hstack] at hpend hst hop hcount
  obtain ⟨hp', hst'⟩ := @PendingTop_tail nvar _ _ hst
  have htop := hst.1 top (List.mem_cons_self _ _)
  have htail : ∀ s ∈ st, s < 44 ∧ ¬ isOperand s := fun s hs =>
    ⟨(hst.1 s (List.mem_cons_of_mem _ hs)).1, hst.2 s (by simpa using hs)⟩
  have hwst := sum_wt_nonpos st htail
  have hlv := sum_lv_nonneg _ hlev
  rw [openers_cons_of_not hno] at hop
  simp only [List.map_cons, List.sum_cons, hq, if_true] at hcount
  have hicon := htr.choose_spec.2.2.1
  -- the common conclusion, given the trace invariant of the new state
  have fin : ∀ (drd' : List (Oper × Rat)), rd = drd' ++ [] →
      TraceInv con nvar (ls.pop con top st fl) drd' →
      (ls.pop con top st fl).stack = st → (ls.pop con top st fl).input = ls.input →
      (ls.pop con top st fl).flush = fl →
      (ls.pop con top st fl).nstack = ls.nstack + wt top →
      SortInv con allrd nvar (ls.pop con top st fl) := by
    intro drd' h1 h2 h3 h4 h5 h6
    refine SortInv.normal _ q toks rd drd' [] hrun (by rw [h4]; exact hin) hcon hall h1 h2
      (by rw [h3]; exact hp') (by rw [h3]; exact hst') hlev (by rw [h3]; exact hop)
      (by rw [h5]; exact hfl) (by intro hh; rw [hq] at hh; cases hh) ?_
    rw [h3, h6, hq]
    simp only [if_true]
    omega
  by_cases hopd : isOperand top
  · obtain ⟨_, hpar, hsi, hna, hnull, _, _, hw, hv, hc, hb⟩ :=
      symbol_operand_facts top htop.1 hopd
    have hpop := @LState.pop_fixed con ls _ st fl hnull
      (by omega)
    rcases hopd with rfl | rfl | rfl
    · -- load variable
      simp [PendingTop, symbol_ldcon, symbol_ldvar] at hpend
      obtain ⟨i, hi, rfl⟩ := hpend
      have hget : con.get? ls.icon = some (i : Rat) := by
        rw [hicon]
        exact con_get_pending (by rw [hcon, hrd])
      refine fin (drd ++ [(OP_LDVAR, (i : Rat))]) (by simpa using hrd) ?_ (by rw [hpop])
        (by rw [hpop]) (by rw [hpop]) (by rw [hpop, hw, hsi])
      refine TraceInv_emit htr ?_ ?_ ?_ (by rw [hpop]) (by rw [hpop])
      · rw [hpop, hv rfl]
        have := depthStep_ldvar con nvar ⟨ls.nstack - 1, ls.icon, drd⟩ hget
          (by rw [c_int_nat_add_half]; omega)
        simp only at this
        rw [this, hsi]
        simp only [symbol_ldvar, true_or, if_true, Option.some.injEq, DState.mk.injEq, and_true]
        omega
      · rw [hpop, hsi]
        simp only
        omega
      · rw [hpop]
        simp [symbol_ldvar, hicon]
    · -- load constant
      simp [PendingTop, symbol_ldcon, symbol_ldvar] at hpend
      obtain ⟨c, rfl⟩ := hpend
      have hget : con.get? ls.icon = some c := by
        rw [hicon]
        exact con_get_pending (by rw [hcon, hrd])
      refine fin (drd ++ [(OP_LDCON, c)]) (by simpa using hrd) ?_ (by rw [hpop])
        (by rw [hpop]) (by rw [hpop]) (by rw [hpop, hw, hsi])
      refine TraceInv_emit htr ?_ ?_ ?_ (by rw [hpop]) (by rw [hpop])
      · rw [hpop, hc rfl]
        have := depthStep_ldcon con nvar ⟨ls.nstack - 1, ls.icon, drd⟩ hget
        simp only at this
        rw [this, hsi]
        simp only [symbol_ldcon, symbol_ldvar, Nat.succ_ne_zero, or_true, if_true,
          Option.some.injEq, DState.mk.injEq, and_true]
        omega
      · rw [hpop, hsi]
        simp only
        omega
      · rw [hpop]
        simp [symbol_ldcon, hicon]
    · -- load the bad value
      simp [PendingTop, symbol_ldcon, symbol_ldvar] at hpend
      subst hpend
      refine fin drd (by simpa using hrd) ?_ (by rw [hpop])
        (by rw [hpop]) (by rw [hpop]) (by rw [hpop, hw, hsi])
      refine TraceInv_emit htr ?_ ?_ ?_ (by rw [hpop]) (by rw [hpop])
      · rw [hpop, hb rfl, depthStep_ldbad, hsi]
        simp only [symbol_ldcon, symbol_ldvar, Option.some.injEq, DState.mk.injEq, and_true]
        constructor
        · omega
        · simp
      · rw [hpop, hsi]
        simp only
        omega
      · rw [hpop]
        simp [symbol_ldcon, symbol_ldvar, hicon]
  · have hnf := symbol_nonoperand_facts top htop.1 hopd
    have hprd : prd = [] := by
      simp only [PendingTop] at hpend
      rw [if_neg hnf.2.2.2, if_neg hnf.2.2.1] at hpend
      exact hpend
    subst hprd
    have hrd' : rd = drd ++ [] := hrd
    by_cases hbin : 4 ≤ top ∧ top ≤ 8
    · obtain ⟨_, hsi, hna, ha2, hnull, _, _, _, _, hw⟩ := symbol_binary_facts top htop.1 hbin
      have hpop := @LState.pop_fixed con ls _ st fl hnull
        (by omega)
      refine fin drd hrd' ?_ (by rw [hpop]) (by rw [hpop]) (by rw [hpop])
        (by rw [hpop, hw, hsi])
      refine TraceInv_emit htr ?_ ?_ ?_ (by rw [hpop]) (by rw [hpop])
      · rw [hpop, depthStep_arg2 _ _ _ ha2, hsi]
        simp only
        rw [if_pos (by omega), if_neg (by simp [hnf.2.2.1, hnf.2.2.2])]
        simp only [Option.some.injEq, DState.mk.injEq, and_true, Nat.add_zero]
        omega
      · rw [hpop, hsi]
        simp only
        omega
      · rw [hpop]
        simp [hnf.2.2.1, hnf.2.2.2, hicon]
    · obtain ⟨hk, hw, hna, hsi, hnull, hneg, _⟩ :=
        symbol_other_facts top htop.1 htop.2 hopd hno hbin
      by_cases h10 : top = 10
      · obtain ⟨ha1, hnn⟩ := hneg h10
        have hpop := @LState.pop_fixed con ls _ st fl hnn
          (by omega)
        refine fin drd hrd' ?_ (by rw [hpop]) (by rw [hpop]) (by rw [hpop])
          (by rw [hpop, hw, hsi])
        refine TraceInv_emit htr ?_ ?_ ?_ (by rw [hpop]) (by rw [hpop])
        · rw [hpop, depthStep_arg1 _ _ _ ha1, hsi]
          simp only
          rw [if_pos (by omega), if_neg (by simp [hnf.2.2.1, hnf.2.2.2])]
          simp only [Option.some.injEq, DState.mk.injEq, and_true, Nat.add_zero]
          omega
        · rw [hpop, hsi]
          simp only
          omega
        · rw [hpop]
          simp [hnf.2.2.1, hnf.2.2.2, hicon]
      · have hpop := @LState.pop_null con ls _ st fl (hnull h10)
          hnf.2.2.1 hnf.2.2.2
        refine fin drd hrd' ?_ (by rw [hpop]) (by rw [hpop]) (by rw [hpop])
          (by rw [hpop, hw]; simp)
        rw [hpop]
        exact TraceInv_congr htr rfl rfl rfl rfl

theorem PendingTop_of_nonoperand {nvar : Nat} {st : List Nat}
    (h : ∀ s ∈ st, s < 44 ∧ ¬ isOperand s) : PendingTop nvar st [] := by
  cases st with
  | nil => simp [PendingTop]
  | cons a t =>
    have ha := h a (List.mem_cons_self _ _)
    have := symbol_nonoperand_facts a ha.1 ha.2
    simp only [PendingTop]
    rw [if_neg this.2.2.2, if_neg this.2.2.1]
    trivial

theorem StackOK_of_nonoperand {st : List Nat} (h1 : ∀ s ∈ st, s < 44 ∧ s ≠ 2)
    (h2 : ∀ s ∈ st, ¬ isOperand s) : StackOK st :=
  ⟨h1, fun s hs => h2 s (List.mem_of_mem_tail hs)⟩

theorem con_getD_pending {con : List Rat} {drd X : List (Oper × Rat)} {o : Oper} {c : Rat}
    (h : con = ((drd ++ [(o, c)]) ++ X).map Prod.snd) : con.getD drd.length 0 = c := by
  have := con_get_pending h
  rw [List.get?_eq_getElem?] at this
  rw [List.getD_eq_getElem?_getD, this]
  rfl

/-- Popping the opening symbol of the parenthesis level that has just been closed. -/
theorem SortInv_pop_flushing {con : List Rat} {allrd : List (Oper × Rat)} {nvar : Nat} {ls : LState} {q : AState}
    {toks : List Token} {rd drd : List (Oper × Rat)} {o : Nat} {a : Int} {st : List Nat}
    (fl : Bool)
    (hrun : Run nvar q toks ⟨true, []⟩) (hin : ls.input = toks.map Prod.fst)
    (hcon : con = (rd ++ Token.consts toks).map Prod.snd)
    (hall : allrd = rd ++ Token.consts toks)
    (hrd : rd = drd ++ (if (symbol o).nargs < 0 then [((symbol o).opcode, (a : Rat))] else []))
    (htr : TraceInv con nvar ls drd) (hstack : ls.stack = o :: st)
    (hst : StackOK ls.stack) (hnop : ∀ s ∈ st, ¬ isOperand s)
    (hlev : LevelsOK ((o, a) :: q.levels))
    (hfix : (symbol o).nargs > 0 → a = (symbol o).nargs)
    (hvar : (symbol o).nargs < 0 → a ≥ -(symbol o).nargs)
    (hop : openers st = q.levels.map Prod.fst)
    (hfl : fl = true → toks = []) (hq : q.opernext = true)
    (hcount : ls.nstack + (st.map wt).sum =
      (q.levels.map lv).sum + (if (symbol o).nargs ≠ 0 then a else 1)) :
    SortInv con allrd nvar (ls.pop con o st fl) := by
  rw [hstack] at hst
  have ho := hst.1 o (List.mem_cons_self _ _)
  have hst1 : ∀ s ∈ st, s < 44 ∧ s ≠ 2 := fun s hs => hst.1 s (List.mem_cons_of_mem _ hs)
  have htail : ∀ s ∈ st, s < 44 ∧ ¬ isOperand s := fun s hs => ⟨(hst1 s hs).1, hnop s hs⟩
  have hwst := sum_wt_nonpos st htail
  have hlo := hlev (o, a) (List.mem_cons_self _ _)
  have hlev' : LevelsOK q.levels := fun l hl => hlev l (List.mem_cons_of_mem _ hl)
  have hlv := sum_lv_nonneg _ hlev'
  obtain ⟨_, hnopd, _, _, hz, hpos, hneg⟩ := symbol_opener_facts o ho.1 hlo.1
  have hnf := symbol_nonoperand_facts o ho.1 hnopd
  have hicon := htr.choose_spec.2.2.1
  have fin : ∀ (drd' : List (Oper × Rat)), rd = drd' ++ [] →
      TraceInv con nvar (ls.pop con o st fl) drd' →
      (ls.pop con o st fl).stack = st → (ls.pop con o st fl).input = ls.input →
      (ls.pop con o st fl).flush = fl →
      (ls.pop con o st fl).nstack + (st.map wt).sum = (q.levels.map lv).sum + 1 →
      SortInv con allrd nvar (ls.pop con o st fl) := by
    intro drd' h1 h2 h3 h4 h5 h6
    refine SortInv.normal _ q toks rd drd' [] hrun (by rw [h4]; exact hin) hcon hall h1 h2
      (by rw [h3]; exact PendingTop_of_nonoperand htail)
      (by rw [h3]; exact StackOK_of_nonoperand hst1 hnop) hlev' (by rw [h3]; exact hop)
      (by rw [h5]; exact hfl) (by intro hh; rw [hq] at hh; cases hh) ?_
    rw [h3, hq]
    simpa using h6
  by_cases h0 : (symbol o).nargs = 0
  · have hpop := @LState.pop_null con ls _ st fl (hz h0)
      hnf.2.2.1 hnf.2.2.2
    rw [if_neg (by omega)] at hrd
    rw [if_neg (by simpa using h0)] at hcount
    refine fin drd hrd ?_ (by rw [hpop]) (by rw [hpop]) (by rw [hpop]) (by rw [hpop]; exact hcount)
    rw [hpop]
    exact TraceInv_congr htr rfl rfl rfl rfl
  · rw [if_pos h0] at hcount
    have ha1 := hlo.2.1 h0
    simp only at ha1
    by_cases hp : (symbol o).nargs > 0
    · obtain ⟨hnull, hsi, hcls⟩ := hpos hp
      have haeq := hfix hp
      have hpop := @LState.pop_fixed con ls _ st fl hnull
        (by omega)
      rw [if_neg (by omega)] at hrd
      refine fin drd hrd ?_ (by rw [hpop]) (by rw [hpop]) (by rw [hpop])
        (by rw [hpop]; simp only; omega)
      refine TraceInv_emit htr ?_ ?_ ?_ (by rw [hpop]) (by rw [hpop])
      · rw [hpop]
        simp only
        rw [if_neg (by simp [hnf.2.2.1, hnf.2.2.2])]
        rcases hcls with ⟨h1, ha⟩ | ⟨h2, ha⟩
        · rw [depthStep_arg1 _ _ _ ha, if_pos (by simp only; omega)]
          simp only [Option.some.injEq, DState.mk.injEq, and_true, Nat.add_zero]
          omega
        · rw [depthStep_arg2 _ _ _ ha, if_pos (by simp only; omega)]
          simp only [Option.some.injEq, DState.mk.injEq, and_true, Nat.add_zero]
          omega
      · rw [hpop]
        simp only
        omega
      · rw [hpop]
        simp [hnf.2.2.1, hnf.2.2.2, hicon]
    · have hn : (symbol o).nargs < 0 := by omega
      obtain ⟨hm2, hmm⟩ := hneg hn
      have hage := hvar hn
      have hnull : (symbol o).opcode ≠ OP_NULL := by
        rcases hmm with h | h <;> rw [h] <;> decide
      have hpop := @LState.pop_variadic con ls _ st fl hnull hn
        hnf.2.2.1 hnf.2.2.2
      rw [if_pos hn] at hrd
      have hget : con.get? ls.icon = some (a : Rat) := by
        rw [hicon]
        exact con_get_pending (by rw [hcon, hrd])
      have hgetD : con.getD ls.icon 0 = (a : Rat) := by
        rw [hicon]
        exact con_getD_pending (by rw [hcon, hrd])
      have hci : c_int ((a : Rat) + 1 / 2) = a := c_int_int_add_half a (by omega)
      rw [hgetD, hci] at hpop
      refine fin (drd ++ [((symbol o).opcode, (a : Rat))]) (by simpa using hrd) ?_
        (by rw [hpop]) (by rw [hpop]) (by rw [hpop]) (by rw [hpop]; simp only; omega)
      refine TraceInv_emit htr ?_ ?_ ?_ (by rw [hpop]) (by rw [hpop])
      · rw [hpop]
        simp only
        have := depthStep_minmax con nvar ⟨ls.nstack - 1, ls.icon, drd⟩ hmm hget
          (by rw [hci]; simp only; omega)
        rw [this, hci]
        simp only [Option.some.injEq, DState.mk.injEq, and_true]
        omega
      · rw [hpop]
        simp only
        omega
      · rw [hpop]
        simp [hicon]

/-! ## Taking the next symbol keeps the invariant -/

theorem Token.consts_cons (t : Token) (ts : List Token) :
    Token.consts (t :: ts) = t.2 ++ Token.consts ts := by
  simp [Token.consts]

theorem LState.push_other {ls : LState} {sym : Nat} {rest : List Nat} {fl : Bool}
    (h : ¬ (symbol sym).parincrement < 0) :
    ls.push sym rest fl = { ls with input := rest, flush := fl, stack := sym :: ls.stack } := by
  unfold LState.push
  rw [if_neg h]

theorem LState.push_closer {ls : LState} {sym : Nat} {rest : List Nat} {fl : Bool}
    (h : (symbol sym).parincrement < 0) :
    ls.push sym rest fl = { ls with input := rest, flush := true } := by
  unfold LState.push
  rw [if_pos h]

set_option synthInstance.maxSize 4000 in
theorem symbol_left_facts : ∀ s < 44, 2 ≤ (symbol s).leftpriority ∧
    (s = 0 ∨ s = 1 ∨ s = 43 ∨ s = 10 ∨ s = 11 ∨ (symbol s).parincrement > 0 →
      8 ≤ (symbol s).leftpriority ∧ s ≠ 2 ∧ ¬ (symbol s).parincrement < 0) ∧
    (s = 9 → (symbol s).leftpriority = 2 ∧ wt s = 0 ∧ (symbol s).rightpriority = 2 ∧
      ¬ (symbol s).parincrement > 0 ∧ ¬ (symbol s).parincrement < 0) ∧
    (s = 2 → (symbol s).leftpriority = 2 ∧ (symbol s).parincrement < 0) ∧
    (s = 10 ∨ s = 11 → wt s = 0 ∧ (symbol s).rightpriority = 7 ∧
      ¬ (symbol s).parincrement > 0) := by
  decide

theorem Step.sym_lt {nvar : Nat} {q q1 : AState} {sym : Nat} {trd : List (Oper × Rat)}
    (h : Step nvar q (sym, trd) q1) : sym < 44 := by
  cases h with
  | ldcon => decide
  | ldvar => decide
  | ldbad => decide
  | unary _ sym _ hs => rcases hs with rfl | rfl <;> decide
  | binary _ sym _ hs => omega
  | comma => decide
  | opener _ sym _ hp =>
    have := (symbol_opener_iff sym).1 hp
    omega
  | closer => decide

theorem Step.left_facts {nvar : Nat} {q q1 : AState} {sym : Nat} {trd : List (Oper × Rat)}
    (h : Step nvar q (sym, trd) q1) :
    2 ≤ (symbol sym).leftpriority ∧
      (q.opernext = false → 8 ≤ (symbol sym).leftpriority) := by
  have hlt := h.sym_lt
  have hf := symbol_left_facts sym hlt
  refine ⟨hf.1, fun hq => ?_⟩
  cases h with
  | ldcon => exact (hf.2.1 (Or.inr (Or.inl rfl))).1
  | ldvar => exact (hf.2.1 (Or.inl rfl)).1
  | ldbad => exact (hf.2.1 (Or.inr (Or.inr (Or.inl rfl)))).1
  | unary _ sym _ hs =>
    rcases hs with rfl | rfl
    · exact (hf.2.1 (Or.inr (Or.inr (Or.inr (Or.inl rfl))))).1
    · exact (hf.2.1 (Or.inr (Or.inr (Or.inr (Or.inr (Or.inl rfl)))))).1
  | binary _ sym ho hs => rw [ho] at hq; cases hq
  | comma => cases hq
  | opener _ sym _ hp => exact (hf.2.1 (Or.inr (Or.inr (Or.inr (Or.inr (Or.inr hp)))))).1
  | closer => cases hq

/-- The constant pending for the top of the sort stack is absent when the top is no
operand. -/
theorem PendingTop_nil {nvar : Nat} {stack : List Nat} {prd : List (Oper × Rat)}
    (h : PendingTop nvar stack prd) (hok : StackOK stack)
    (hno : ∀ top ∈ stack.head?, ¬ isOperand top) : prd = [] := by
  cases stack with
  | nil => exact h
  | cons a t =>
    have ha := hno a (by simp)
    have := symbol_nonoperand_facts a (hok.1 a (List.mem_cons_self _ _)).1 ha
    simp only [PendingTop] at h
    rw [if_neg this.2.2.2, if_neg this.2.2.1] at h
    exact h

theorem not_isOperand_of_right_le {s : Nat} (hs : s < 44) (h : (symbol s).rightpriority ≤ 9) :
    ¬ isOperand s := by
  intro ho
  have := (symbol_operand_facts s hs ho).2.2.2.2.2.1
  omega

/-- Taking a symbol other than the closing parenthesis from the input. -/
theorem SortInv_push_normal {con : List Rat} {allrd : List (Oper × Rat)} {nvar : Nat} {ls : LState} {q q1 : AState}
    {sym : Nat} {trd : List (Oper × Rat)} {ts : List Token} {rd drd prd : List (Oper × Rat)}
    (hstep : Step nvar q (sym, trd) q1) (hrun : Run nvar q1 ts ⟨true, []⟩)
    (hcon : con = (rd ++ Token.consts ((sym, trd) :: ts)).map Prod.snd)
    (hall : allrd = rd ++ Token.consts ((sym, trd) :: ts))
    (hrd : rd = drd ++ prd)
    (htr : TraceInv con nvar ls drd) (hpend : PendingTop nvar ls.stack prd)
    (hst : StackOK ls.stack) (hlev : LevelsOK q.levels)
    (hop : openers ls.stack = q.levels.map Prod.fst)
    (hfl : ls.flush = false)
    (hfalse : q.opernext = false → ∀ top ∈ ls.stack.head?, (symbol top).rightpriority ≤ 7)
    (hcount : ls.nstack + (ls.stack.map wt).sum =
      (q.levels.map lv).sum + (if q.opernext then 1 else 0))
    (hpri : ∀ top ∈ ls.stack.head?, (symbol sym).leftpriority > (symbol top).rightpriority)
    (hnc : sym ≠ 2) :
    SortInv con allrd nvar (ls.push sym (ts.map Prod.fst) ls.flush) := by
  have hlt := hstep.sym_lt
  have hlf := symbol_left_facts sym hlt
  have hnotc : ¬ (symbol sym).parincrement < 0 := fun h => hnc ((symbol_closer_iff _).1 h)
  rw [LState.push_other hnotc, hfl]
  rw [Token.consts_cons, ← List.append_assoc] at hcon hall
  dsimp only at hcon hall
  -- the old top is no operand
  have htopno : ∀ top ∈ ls.stack.head?, ¬ isOperand top := by
    intro top htop
    have hmem : top ∈ ls.stack := List.mem_of_mem_head? htop
    have hl := hpri top htop
    have : (symbol sym).leftpriority ≤ 10 := by
      have := hlt
      revert this
      generalize sym = s
      intro hs
      revert s
      decide
    exact not_isOperand_of_right_le (hst.1 top hmem).1 (by omega)
  have hprd : prd = [] := PendingTop_nil hpend hst htopno
  subst hprd
  simp only [List.append_nil] at hrd
  subst hrd
  have hallno : ∀ s ∈ ls.stack, ¬ isOperand s := by
    intro s hs
    cases hstk : ls.stack with
    | nil => rw [hstk] at hs; cases hs
    | cons a tl =>
      rw [hstk] at hs
      rcases List.mem_cons.1 hs with rfl | hs
      · exact htopno s (by rw [hstk]; simp)
      · exact hst.2 s (by rw [hstk]; simpa using hs)
  have hstk' : StackOK (sym :: ls.stack) :=
    ⟨fun s hs => by
      rcases List.mem_cons.1 hs with rfl | hs
      · exact ⟨hlt, hnc⟩
      · exact hst.1 s hs, fun s hs => hallno s (by simpa using hs)⟩
  have htr' : TraceInv con nvar
      { ls with input := ts.map Prod.fst, flush := false, stack := sym :: ls.stack } rd :=
    TraceInv_congr htr rfl rfl rfl rfl
  cases hstep with
  | ldcon _ c hq =>
    refine SortInv.normal _ ⟨true, q.levels⟩ ts (rd ++ [(OP_LDCON, c)]) rd [(OP_LDCON, c)]
      hrun rfl hcon hall rfl htr' ?_ hstk' hlev ?_ (by intro h; cases h) (by intro h; cases h) ?_
    · simp [PendingTop, symbol_ldcon]
    · rw [openers_cons_of_not (by decide)]
      exact hop
    · simp only [List.map_cons, List.sum_cons, if_true]
      rw [hq] at hcount
      simp only [Bool.false_eq_true, if_false] at hcount
      have : wt symbol_ldcon = 1 := by decide
      omega
  | ldvar _ i hq hi =>
    refine SortInv.normal _ ⟨true, q.levels⟩ ts (rd ++ [(OP_LDVAR, (i : Rat))]) rd
      [(OP_LDVAR, (i : Rat))]
      hrun rfl hcon hall rfl htr' ?_ hstk' hlev ?_ (by intro h; cases h) (by intro h; cases h) ?_
    · simp only [PendingTop]
      rw [if_neg (by decide), if_pos (by decide)]
      exact ⟨i, hi, rfl⟩
    · rw [openers_cons_of_not (by decide)]
      exact hop
    · simp only [List.map_cons, List.sum_cons, if_true]
      rw [hq] at hcount
      simp only [Bool.false_eq_true, if_false] at hcount
      have : wt symbol_ldvar = 1 := by decide
      omega
  | ldbad _ hq =>
    simp only [List.append_nil] at hcon hall
    refine SortInv.normal _ ⟨true, q.levels⟩ ts rd rd [] hrun rfl hcon hall (by simp) htr' ?_ hstk'
      hlev ?_ (by intro h; cases h) (by intro h; cases h) ?_
    · simp [PendingTop, symbol_ldcon, symbol_ldvar]
    · rw [openers_cons_of_not (by decide)]
      exact hop
    · simp only [List.map_cons, List.sum_cons, if_true]
      rw [hq] at hcount
      simp only [Bool.false_eq_true, if_false] at hcount
      have : wt 43 = 1 := by decide
      omega
  | unary _ sym hq hs =>
    simp only [List.append_nil] at hcon hall
    have hu := hlf.2.2.2.2 hs
    refine SortInv.normal _ ⟨false, q.levels⟩ ts rd rd [] hrun rfl hcon hall (by simp) htr' ?_ hstk'
      hlev ?_ (by intro h; cases h) ?_ ?_
    · simp only [PendingTop]
      rw [if_neg (by rcases hs with rfl | rfl <;> decide),
        if_neg (by rcases hs with rfl | rfl <;> decide)]
      trivial
    · rw [openers_cons_of_not hu.2.2]
      exact hop
    · intro _ top htop
      simp only [List.head?_cons, Option.mem_def, Option.some.injEq] at htop
      subst htop
      omega
    · simp only [List.map_cons, List.sum_cons, Bool.false_eq_true, if_false]
      rw [hq] at hcount
      simp only [Bool.false_eq_true, if_false] at hcount
      omega
  | binary _ sym hq hs =>
    simp only [List.append_nil] at hcon hall
    obtain ⟨hpar, _, _, _, _, _, _, hr, hno, hw⟩ := symbol_binary_facts sym hlt hs
    refine SortInv.normal _ ⟨false, q.levels⟩ ts rd rd [] hrun rfl hcon hall (by simp) htr' ?_ hstk'
      hlev ?_ (by intro h; cases h) ?_ ?_
    · have := symbol_nonoperand_facts sym hlt hno
      simp only [PendingTop]
      rw [if_neg this.2.2.2, if_neg this.2.2.1]
      trivial
    · rw [openers_cons_of_not (by omega)]
      exact hop
    · intro _ top htop
      simp only [List.head?_cons, Option.mem_def, Option.some.injEq] at htop
      subst htop
      omega
    · simp only [List.map_cons, List.sum_cons, Bool.false_eq_true, if_false]
      rw [hq] at hcount
      simp only [if_true] at hcount
      omega
  | comma o a rest ha =>
    simp only [List.append_nil] at hcon hall
    obtain ⟨_, hw, hr, hnp, _⟩ := hlf.2.2.1 rfl
    have hlo := hlev (o, a) (List.mem_cons_self _ _)
    have hn0 : (symbol o).nargs ≠ 0 := fun h => ha (hlo.2.2 h)
    refine SortInv.normal _ ⟨false, (o, a + 1) :: rest⟩ ts rd rd [] hrun rfl hcon hall (by simp) htr'
      ?_ hstk' ?_ ?_ (by intro h; cases h) ?_ ?_
    · simp [PendingTop, symbol_ldcon, symbol_ldvar]
    · intro l hl
      rcases List.mem_cons.1 hl with rfl | hl
      · refine ⟨hlo.1, fun _ => ?_, fun h => absurd h hn0⟩
        have := hlo.2.1 hn0
        simp only at this ⊢
        omega
      · exact hlev l (List.mem_cons_of_mem _ hl)
    · rw [openers_cons_of_not hnp]
      simpa using hop
    · intro _ top htop
      simp only [List.head?_cons, Option.mem_def, Option.some.injEq] at htop
      subst htop
      omega
    · simp only [List.map_cons, List.sum_cons, Bool.false_eq_true, if_false] at hcount ⊢
      simp only [lv, if_pos hn0, if_true] at hcount ⊢
      omega
  | opener _ sym hq hp =>
    simp only [List.append_nil] at hcon hall
    refine SortInv.normal _ ⟨false, (sym, if (symbol sym).nargs ≠ 0 then 1 else 0) :: q.levels⟩
      ts rd rd [] hrun rfl hcon hall (by simp) htr' ?_ hstk' ?_ ?_ (by intro h; cases h) ?_ ?_
    · have := symbol_nonoperand_facts sym hlt (symbol_opener_facts sym hlt hp).2.1
      simp only [PendingTop]
      rw [if_neg this.2.2.2, if_neg this.2.2.1]
      trivial
    · intro l hl
      rcases List.mem_cons.1 hl with rfl | hl
      · refine ⟨hp, fun h => ?_, fun h => ?_⟩
        · simp only [if_pos h]
          omega
        · simp only
          rw [if_neg (by simpa using h)]
      · exact hlev l hl
    · rw [openers_cons_of_pos hp]
      simp only [List.map_cons, List.cons.injEq, true_and]
      exact hop
    · intro _ top htop
      simp only [List.head?_cons, Option.mem_def, Option.some.injEq] at htop
      subst htop
      have := (symbol_opener_facts sym hlt hp).2.2.2.1
      omega
    · simp only [List.map_cons, List.sum_cons, Bool.false_eq_true, if_false]
      rw [hq] at hcount
      simp only [Bool.false_eq_true, if_false] at hcount
      have hw : wt sym = 0 := by
        unfold wt
        rw [if_pos hp]
      have hl0 : lv (sym, if (symbol sym).nargs ≠ 0 then 1 else 0) = 0 := by
        unfold lv
        simp only
        split <;> simp
      omega
  | closer => exact absurd rfl hnc

theorem Step.closer_inv {nvar : Nat} {q q1 : AState} {trd : List (Oper × Rat)}
    (h : Step nvar q (2, trd) q1) :
    ∃ o a rest, q = ⟨true, (o, a) :: rest⟩ ∧ q1 = ⟨true, rest⟩ ∧
      trd = (if (symbol o).nargs < 0 then [((symbol o).opcode, (a : Rat))] else []) ∧
      ((symbol o).nargs > 0 → a = (symbol o).nargs) ∧
      ((symbol o).nargs < 0 → a ≥ -(symbol o).nargs) := by
  generalize ht : ((2 : Nat), trd) = t at h
  cases h with
  | ldcon _ c hq => injection ht with h1 _; exact absurd h1 (by decide)
  | ldvar _ i hq hi => injection ht with h1 _; exact absurd h1 (by decide)
  | ldbad _ hq => injection ht with h1 _; exact absurd h1 (by decide)
  | unary _ sym hq hs => injection ht with h1 _; omega
  | binary _ sym hq hs => injection ht with h1 _; omega
  | comma o a rest ha => injection ht with h1 _; exact absurd h1 (by decide)
  | opener _ sym hq hp =>
    injection ht with h1 _
    subst h1
    exact absurd hp (by decide)
  | closer o a rest h1 h2 =>
    injection ht with _ h3
    exact ⟨o, a, rest, rfl, rfl, h3, h1, h2⟩

/-- Taking the closing parenthesis from the input: the opening symbol of the level is
on top of the sort stack and is to be flushed. -/
theorem SortInv_push_closer {con : List Rat} {allrd : List (Oper × Rat)} {nvar : Nat} {ls : LState} {q q1 : AState}
    {trd : List (Oper × Rat)} {ts : List Token} {rd drd prd : List (Oper × Rat)}
    {top : Nat} {st : List Nat}
    (hstep : Step nvar q (2, trd) q1) (hrun : Run nvar q1 ts ⟨true, []⟩)
    (hcon : con = (rd ++ Token.consts ((2, trd) :: ts)).map Prod.snd)
    (hall : allrd = rd ++ Token.consts ((2, trd) :: ts))
    (hrd : rd = drd ++ prd)
    (htr : TraceInv con nvar ls drd) (hpend : PendingTop nvar ls.stack prd)
    (hst : StackOK ls.stack) (hlev : LevelsOK q.levels)
    (hop : openers ls.stack = q.levels.map Prod.fst)
    (hcount : ls.nstack + (ls.stack.map wt).sum =
      (q.levels.map lv).sum + (if q.opernext then 1 else 0))
    (hstack : ls.stack = top :: st)
    (hpri : (symbol 2).leftpriority > (symbol top).rightpriority) :
    SortInv con allrd nvar (ls.push 2 (ts.map Prod.fst) ls.flush) := by
  obtain ⟨o, a, rest, rfl, rfl, rfl, hfix, hvar⟩ := hstep.closer_inv
  rw [LState.push_closer (by decide)]
  rw [Token.consts_cons, ← List.append_assoc] at hcon hall
  dsimp only at hcon hall
  have htop := hst.1 top (by rw [hstack]; exact List.mem_cons_self _ _)
  have hopen : (symbol top).parincrement > 0 :=
    symbol_right_lt_two top htop.1 (by
      have : (symbol 2).leftpriority = 2 := by decide
      omega)
  have hof := symbol_opener_facts top htop.1 hopen
  have hprd : prd = [] := PendingTop_nil hpend hst (by
    intro t ht
    rw [hstack] at ht
    simp only [List.head?_cons, Option.mem_def, Option.some.injEq] at ht
    subst ht
    exact hof.2.1)
  subst hprd
  simp only [List.append_nil] at hrd
  subst hrd
  rw [hstack, openers_cons_of_pos hopen] at hop
  simp only [List.map_cons, List.cons.injEq] at hop
  obtain ⟨rfl, hop⟩ := hop
  have hwt : wt top = 0 := by
    unfold wt
    rw [if_pos hopen]
  rw [hstack] at hcount hst
  simp only [List.map_cons, List.sum_cons, if_true, hwt] at hcount
  refine SortInv.flushing _ ⟨true, rest⟩ ts _ rd top a st hrun rfl hcon hall rfl
    (TraceInv_congr htr rfl rfl rfl rfl) hstack (by rw [hstack]; exact hst)
    (fun s hs => hst.2 s (by simpa using hs)) hlev hfix hvar hop rfl rfl ?_
  simp only
  have e : lv (top, a) = if (symbol top).nargs ≠ 0 then a - 1 else 0 := rfl
  rw [e] at hcount
  split at hcount <;> rename_i hn
  · rw [if_pos hn]
    omega
  · rw [if_neg hn]
    omega

/-- The invariant is kept by every pass of the loop body of `EvaluationSort`. -/
theorem SortInv_body {con : List Rat} {allrd : List (Oper × Rat)} {nvar : Nat} {ls : LState}
    (h : SortInv con allrd nvar ls) (hc : ls.stack ≠ [] ∨ ls.input ≠ []) :
    SortInv con allrd nvar (ls.body con) := by
  cases h with
  | normal q toks rd drd prd hrun hin hcon hall hrd htr hpend hst hlev hop hflush hfalse hcount =>
    cases hstk : ls.stack with
    | nil =>
      cases toks with
      | nil =>
        rw [hstk] at hc
        simp [hin] at hc
      | cons t ts =>
        obtain ⟨sym, trd⟩ := t
        have hin' : ls.input = sym :: ts.map Prod.fst := by simpa using hin
        rw [LState.body_nil_cons hstk hin']
        have hfl : ls.flush = false := by
          cases hf : ls.flush
          · rfl
          · exact absurd (hflush hf) (by simp)
        cases hrun with
        | cons hstep hrun' =>
          have hnc : sym ≠ 2 := by
            rintro rfl
            obtain ⟨o, a, rest, rfl, _⟩ := hstep.closer_inv
            rw [hstk] at hop
            simp [openers] at hop
          exact SortInv_push_normal hstep hrun' hcon hall hrd htr hpend hst hlev hop hfl hfalse
            hcount (by rw [hstk]; simp) hnc
    | cons top st =>
      have htop := hst.1 top (by rw [hstk]; exact List.mem_cons_self _ _)
      cases toks with
      | nil =>
        have hin' : ls.input = [] := by simpa using hin
        rw [LState.body_cons_nil hstk hin']
        cases hrun
        have hno : ¬ (symbol top).parincrement > 0 := by
          intro hp
          rw [hstk, openers_cons_of_pos hp] at hop
          simp at hop
        exact SortInv_pop_normal ls.flush (Run.nil _) hin hcon hall hrd htr hpend hst hlev hop
          (fun _ => rfl) rfl hcount hstk hno
      | cons t ts =>
        obtain ⟨sym, trd⟩ := t
        have hin' : ls.input = sym :: ts.map Prod.fst := by simpa using hin
        have hfl : ls.flush = false := by
          cases hf : ls.flush
          · rfl
          · exact absurd (hflush hf) (by simp)
        rw [LState.body_cons_cons hstk hin', if_neg (by simp [hfl])]
        cases hrun with
        | cons hstep hrun' =>
          have hlf := hstep.left_facts
          split
          · rename_i hpr
            by_cases hnc : sym = 2
            · subst hnc
              exact SortInv_push_closer hstep hrun' hcon hall hrd htr hpend hst hlev hop hcount
                hstk hpr
            · exact SortInv_push_normal hstep hrun' hcon hall hrd htr hpend hst hlev hop hfl
                hfalse hcount (by
                  intro t ht
                  rw [hstk] at ht
                  simp only [List.head?_cons, Option.mem_def, Option.some.injEq] at ht
                  subst ht
                  exact hpr) hnc
          · rename_i hpr
            have hq : q.opernext = true := by
              cases hqq : q.opernext
              · have h1 := hlf.2 hqq
                have h2 := hfalse hqq top (by rw [hstk]; simp)
                omega
              · rfl
            have hno : ¬ (symbol top).parincrement > 0 := by
              intro hp
              have := (symbol_opener_facts top htop.1 hp).2.2.2.1
              omega
            exact SortInv_pop_normal ls.flush (Run.cons hstep hrun') hin hcon hall hrd htr hpend
              hst hlev hop (by rw [hfl]; intro hh; cases hh) hq hcount hstk hno
  | flushing q toks rd drd o a st hrun hin hcon hall hrd htr hstack hst hnop hlev hfix hvar hop
      hflush hq hcount =>
    cases toks with
    | nil =>
      have hin' : ls.input = [] := by simpa using hin
      rw [LState.body_cons_nil hstack hin']
      exact SortInv_pop_flushing ls.flush hrun hin hcon hall hrd htr hstack hst hnop hlev hfix hvar
        hop (fun _ => rfl) hq hcount
    | cons t ts =>
      obtain ⟨sym, trd⟩ := t
      have hin' : ls.input = sym :: ts.map Prod.fst := by simpa using hin
      rw [LState.body_cons_cons hstack hin', if_pos hflush]
      exact SortInv_pop_flushing false hrun hin hcon hall hrd htr hstack hst hnop hlev hfix hvar
        hop (by intro hh; cases hh) hq hcount

/-! ## The loop of `EvaluationSort` terminates and keeps the invariant -/

theorem LState.pop_stack_input (con : List Rat) (ls : LState) (top : Nat) (st : List Nat)
    (fl : Bool) : (ls.pop con top st fl).stack = st ∧ (ls.pop con top st fl).input = ls.input := by
  unfold LState.pop
  simp only
  split <;> exact ⟨rfl, rfl⟩

theorem LState.push_measure (ls : LState) (sym : Nat) (rest : List Nat) (fl : Bool) :
    2 * (ls.push sym rest fl).input.length + (ls.push sym rest fl).stack.length + 1 ≤
      2 * (sym :: rest).length + ls.stack.length := by
  unfold LState.push
  split <;> simp only [List.length_cons] <;> omega

/-- Each pass of the loop body either takes one input symbol or pops one stacked symbol:
twice the number of unread symbols plus the height of the sort stack decreases. -/
theorem LState.body_measure (con : List Rat) (ls : LState)
    (hc : ls.stack ≠ [] ∨ ls.input ≠ []) :
    2 * (ls.body con).input.length + (ls.body con).stack.length + 1 ≤
      2 * ls.input.length + ls.stack.length := by
  cases hs : ls.stack with
  | nil =>
    cases hi : ls.input with
    | nil => simp [hs, hi] at hc
    | cons sym rest =>
      rw [LState.body_nil_cons hs hi]
      have := LState.push_measure ls sym rest ls.flush
      rw [hs] at this
      exact this
  | cons top st =>
    cases hi : ls.input with
    | nil =>
      rw [LState.body_cons_nil hs hi, (LState.pop_stack_input _ _ _ _ _).1,
        (LState.pop_stack_input _ _ _ _ _).2, hi]
      simp
    | cons sym rest =>
      rw [LState.body_cons_cons hs hi]
      split
      · rw [(LState.pop_stack_input _ _ _ _ _).1, (LState.pop_stack_input _ _ _ _ _).2, hi]
        simp only [List.length_cons]
        omega
      · split
        · have := LState.push_measure ls sym rest ls.flush
          rw [hs] at this
          exact this
        · rw [(LState.pop_stack_input _ _ _ _ _).1, (LState.pop_stack_input _ _ _ _ _).2, hi]
          simp only [List.length_cons]
          omega

theorem LState.loop_succ (con : List Rat) (fuel : Nat) (ls : LState) :
    LState.loop con (fuel + 1) ls =
      if ls.stack ≠ [] ∨ ls.input ≠ [] then LState.loop con fuel (ls.body con) else ls := rfl

/-- With fuel for the measure, the loop ends with the sort stack and the input empty. -/
theorem LState.loop_done (con : List Rat) : ∀ (fuel : Nat) (ls : LState),
    2 * ls.input.length + ls.stack.length ≤ fuel →
    (LState.loop con fuel ls).stack = [] ∧ (LState.loop con fuel ls).input = [] := by
  intro fuel
  induction fuel with
  | zero =>
    intro ls h
    simp only [LState.loop]
    constructor
    · apply List.eq_nil_of_length_eq_zero; omega
    · apply List.eq_nil_of_length_eq_zero; omega
  | succ n ih =>
    intro ls h
    rw [LState.loop_succ]
    split
    · rename_i hc
      have := LState.body_measure con ls hc
      exact ih _ (by omega)
    · rename_i hc
      simp only [not_or, not_not] at hc
      exact hc

theorem SortInv_loop {con : List Rat} {allrd : List (Oper × Rat)} {nvar : Nat} :
    ∀ (fuel : Nat) (ls : LState), SortInv con allrd nvar ls →
      SortInv con allrd nvar (LState.loop con fuel ls) := by
  intro fuel
  induction fuel with
  | zero => intro ls h; exact h
  | succ n ih =>
    intro ls h
    rw [LState.loop_succ]
    split
    · rename_i hc
      exact ih _ (SortInv_body h hc)
    · exact h

theorem EvaluationSort_loop_succ (con : List Rat) (nsym fuel : Nat) (s : SortState) :
    EvaluationSort_loop con nsym (fuel + 1) s =
      if s.tos > -1 ∨ s.isym < nsym then
        EvaluationSort_loop con nsym fuel (EvaluationSort_body con nsym s)
      else s := rfl

theorem SortState.toL_cond {nsym : Nat} {s : SortState} (hwf : s.wf nsym) :
    (s.tos > -1 ∨ s.isym < nsym) ↔ (s.toL.stack ≠ [] ∨ s.toL.input ≠ []) := by
  obtain ⟨h1, h2, h3, h4⟩ := hwf
  have e1 : s.toL.stack ≠ [] ↔ s.tos > -1 := by
    simp only [SortState.toL, ne_eq, List.reverse_eq_nil_iff, List.take_eq_nil_iff, not_or]
    constructor
    · intro ⟨h, _⟩
      omega
    · intro h
      refine ⟨by omega, ?_⟩
      intro hnil
      rw [hnil] at h4
      simp at h4
      omega
  have e2 : s.toL.input ≠ [] ↔ s.isym < nsym := by
    simp only [SortState.toL, ne_eq, List.drop_eq_nil_iff, not_le]
    omega
  rw [e1, e2]

/-- The loop of `EvaluationSort` agrees with the loop on two lists. -/
theorem EvaluationSort_loop_toL (con : List Rat) {nsym : Nat} :
    ∀ (fuel : Nat) (s : SortState), s.wf nsym →
      (EvaluationSort_loop con nsym fuel s).wf nsym ∧
      (EvaluationSort_loop con nsym fuel s).toL = LState.loop con fuel s.toL := by
  intro fuel
  induction fuel with
  | zero => intro s h; exact ⟨h, rfl⟩
  | succ n ih =>
    intro s hwf
    rw [EvaluationSort_loop_succ, LState.loop_succ]
    by_cases hc : s.tos > -1 ∨ s.isym < nsym
    · rw [if_pos hc, if_pos ((SortState.toL_cond hwf).1 hc)]
      obtain ⟨hw1, he1⟩ := EvaluationSort_body_toL con hwf hc
      rw [← he1]
      exact ih _ hw1
    · rw [if_neg hc, if_neg (fun h => hc ((SortState.toL_cond hwf).2 h))]
      exact ⟨hwf, rfl⟩

theorem SortState.init_wf (symlist : List Nat) : (SortState.init symlist).wf symlist.length := by
  simp [SortState.init, SortState.wf]

theorem SortState.init_toL (symlist : List Nat) :
    (SortState.init symlist).toL = ⟨[], symlist, false, 0, 0, [], 0⟩ := by
  simp [SortState.init, SortState.toL]

/-- What the sort of the symbols of an accepted stream produces: opcodes whose depth
trace is defined, never empties the stack once a value is loaded, reaches exactly
`stacksize`, ends with one value, and consumes exactly the constants stored, in order. -/
theorem EvaluationSort_of_run {nvar : Nat} {toks : List Token}
    (hrun : Run nvar ⟨false, []⟩ toks ⟨true, []⟩) :
    ∃ (code : List Int) (tr : List DState),
      EvaluationSort ((Token.consts toks).map Prod.snd) (toks.map Prod.fst).length
          (toks.map Prod.fst) =
        ((code.length : Int) :: code,
          (EvaluationSort ((Token.consts toks).map Prod.snd) (toks.map Prod.fst).length
            (toks.map Prod.fst)).2) ∧
      depthTrace ((Token.consts toks).map Prod.snd) nvar code DState.init = some tr ∧
      lastD tr DState.init = ⟨0, (Token.consts toks).length, Token.consts toks⟩ ∧
      (∀ d ∈ tr, 0 ≤ d.tos ∧
        d.tos + 1 ≤ (EvaluationSort ((Token.consts toks).map Prod.snd)
          (toks.map Prod.fst).length (toks.map Prod.fst)).2) ∧
      (∃ d ∈ tr, d.tos + 1 = (EvaluationSort ((Token.consts toks).map Prod.snd)
          (toks.map Prod.fst).length (toks.map Prod.fst)).2) := by
  set con := (Token.consts toks).map Prod.snd with hcon
  set symlist := toks.map Prod.fst with hsym
  have hwf := SortState.init_wf symlist
  obtain ⟨_, hL⟩ := EvaluationSort_loop_toL con (2 * symlist.length + 1) _ hwf
  have hinv0 : SortInv con (Token.consts toks) nvar (SortState.init symlist).toL := by
    rw [SortState.init_toL]
    refine SortInv.normal _ ⟨false, []⟩ toks [] [] [] hrun rfl (by simp [hcon]) (by simp) rfl
      ?_ (by simp [PendingTop]) (by simp [StackOK]) (by simp [LevelsOK]) (by simp [openers])
      (by intro h; cases h) (by simp) (by simp)
    exact ⟨[], rfl, rfl, rfl, by simp, Or.inl ⟨rfl, rfl⟩⟩
  have hinv := SortInv_loop (2 * symlist.length + 1) _ hinv0
  have hdone := LState.loop_done con (2 * symlist.length + 1) (SortState.init symlist).toL
    (by rw [SortState.init_toL]; simp only [List.length_nil]; omega)
  rw [← hL] at hinv hdone
  generalize hfin : EvaluationSort_loop con symlist.length (2 * symlist.length + 1)
    (SortState.init symlist) = fin at hinv hdone
  have hES : EvaluationSort con symlist.length symlist =
      ((fin.code.length : Int) :: fin.code, fin.stacksize) := by
    unfold EvaluationSort
    simp only [hfin]
  rw [hES]
  cases hinv with
  | normal q toks' rd drd prd hrun' hin' hcon' hall hrd htr hpend hst hlev hop hflush hfalse
      hcount =>
    rw [hdone.2] at hin'
    have ht : toks' = [] := by
      cases toks' with
      | nil => rfl
      | cons a b => simp at hin'
    subst ht
    cases hrun'
    rw [hdone.1] at hpend hcount
    simp only [PendingTop] at hpend
    subst hpend
    have hc0 : Token.consts ([] : List Token) = [] := rfl
    rw [hc0, List.append_nil] at hall
    simp only [List.append_nil] at hrd
    subst hrd
    simp only [List.map_nil, List.sum_nil, if_true] at hcount
    obtain ⟨tr, h1, h2, h3, h4, h5⟩ := htr
    have hn : fin.toL.nstack = 1 := by omega
    have hn' : fin.nstack = 1 := hn
    refine ⟨fin.code, tr, rfl, h1, ?_, h4, ?_⟩
    · rw [h2, hall]
      simp only [DState.mk.injEq, and_true]
      constructor
      · show fin.nstack - 1 = 0
        omega
      · exact h3
    · rcases h5 with ⟨htr0, _⟩ | h5
      · subst htr0
        simp only [lastD, List.getLast?_nil, Option.getD_none, DState.init,
          DState.mk.injEq] at h2
        have : fin.nstack - 1 = -1 := h2.1.symm ▸ rfl
        omega
      · exact h5
  | flushing q toks' rd drd o a st hrun' hin' hcon' hall hrd htr hstack =>
    rw [hdone.1] at hstack
    cases hstack

/-! ## More on depth traces -/

theorem depthTrace_length (con : List Rat) (nvar : Nat) :
    ∀ (code : List Int) (d : DState) (tr : List DState),
      depthTrace con nvar code d = some tr → tr.length = code.length := by
  intro code
  induction code with
  | nil =>
    intro d tr h
    simp only [depthTrace] at h
    injection h with h
    subst h
    rfl
  | cons a rest ih =>
    intro d tr h
    simp only [depthTrace] at h
    split at h
    · cases h
    · rename_i d1 _
      split at h
      · cases h
      · rename_i tr' htr'
        injection h with h
        subst h
        simp [ih d1 tr' htr']

/-- Each state of a depth trace is the depth step of the state before it. -/
theorem depthTrace_get (con : List Rat) (nvar : Nat) :
    ∀ (code : List Int) (d : DState) (tr : List DState),
      depthTrace con nvar code d = some tr →
      ∀ (n : Nat) (op : Int), code.get? n = some op →
        ∃ dn, tr.get? n = some dn ∧
          depthStep con nvar (lastD (tr.take n) d) op = some dn := by
  intro code
  induction code with
  | nil => intro d tr _ n op h; simp at h
  | cons a rest ih =>
    intro d tr h n op hop
    simp only [depthTrace] at h
    split at h
    · cases h
    · rename_i d1 hd1
      split at h
      · cases h
      · rename_i tr' htr'
        injection h with h
        subst h
        cases n with
        | zero =>
          simp only [List.get?_cons_zero, Option.some.injEq] at hop
          subst hop
          exact ⟨d1, rfl, by simpa [lastD] using hd1⟩
        | succ m =>
          simp only [List.get?_cons_succ] at hop
          obtain ⟨dn, h1, h2⟩ := ih d1 tr' htr' m op hop
          refine ⟨dn, by simpa using h1, ?_⟩
          rw [List.take_succ_cons, lastD_cons]
          exact h2

theorem lastD_take_succ {tr : List DState} {n : Nat} {dn : DState} (d : DState)
    (h : tr.get? n = some dn) : lastD (tr.take (n + 1)) d = dn := by
  rw [List.get?_eq_getElem?] at h
  rw [List.take_succ, h]
  simp [lastD]

/-! ## The macros of the virtual machine keep its invariants -/

theorem VMState.slot_of_good {npoint : Nat} {st : VMState} (hg : st.good npoint) {i : Int}
    (h0 : 0 ≤ i) (h1 : i ≤ st.tos) :
    ∃ v, st.slot i = some v ∧ st.stack.getD i.toNat none = some v ∧ v.length = npoint := by
  obtain ⟨_, hlt, hall⟩ := hg
  obtain ⟨v, hv, hl⟩ := hall i.toNat (by omega)
  refine ⟨v, ?_, hv, hl⟩
  unfold VMState.slot
  rw [if_pos ⟨h0, by omega⟩]
  exact hv

theorem getD_set_self {α : Type} (l : List α) (i : Nat) (a d : α) (h : i < l.length) :
    (l.set i a).getD i d = a := by
  rw [List.getD_eq_getElem?_getD, List.getElem?_set_self h]
  rfl

theorem getD_set_ne {α : Type} (l : List α) {i j : Nat} (a d : α) (h : i ≠ j) :
    (l.set i a).getD j d = l.getD j d := by
  rw [List.getD_eq_getElem?_getD, List.getD_eq_getElem?_getD, List.getElem?_set_ne h]

theorem ARG_0_good {npoint : Nat} {st : VMState} (hg : st.good npoint)
    (hlt : st.tos + 1 < st.stack.length) (icon : Nat) {v : List Rat} (hv : v.length = npoint) :
    ∃ st', ARG_0 st icon v = some st' ∧ st'.tos = st.tos + 1 ∧ st'.icon = icon ∧
      st'.stack.length = st.stack.length ∧ st'.good npoint ∧
      st'.stack.getD (st.tos + 1).toNat none = some v ∧
      ∀ j : Nat, (j : Int) ≤ st.tos → st'.stack.getD j none = st.stack.getD j none := by
  obtain ⟨h0, h1, hall⟩ := hg
  unfold ARG_0
  rw [if_pos ⟨by omega, hlt⟩]
  have hin : (st.tos + 1).toNat < st.stack.length := by omega
  refine ⟨_, rfl, rfl, rfl, by simp, ⟨by simp only; omega, by simp only [List.length_set]; omega,
    ?_⟩, getD_set_self _ _ _ _ hin, fun j hj => getD_set_ne _ _ _ (by omega)⟩
  intro j hj
  simp only at hj ⊢
  by_cases hjt : (j : Int) ≤ st.tos
  · rw [getD_set_ne _ _ _ (by omega)]
    exact hall j hjt
  · have : j = (st.tos + 1).toNat := by omega
    subst this
    exact ⟨v, getD_set_self _ _ _ _ hin, hv⟩

theorem ARG_0_badAt {L : MathLib} {st st' : VMState} {p : Nat}
    (htos : st'.tos = st.tos + 1)
    (hsame : ∀ j : Nat, (j : Int) ≤ st.tos → st'.stack.getD j none = st.stack.getD j none)
    (h : st.badAt L p) : st'.badAt L p := by
  obtain ⟨j, hj, v, hv, hp⟩ := h
  exact ⟨j, by omega, v, by rw [hsame j hj]; exact hv, hp⟩

theorem ARG_1_good {L : MathLib} {npoint : Nat} {st : VMState} (hg : st.good npoint)
    (h0 : 0 ≤ st.tos) (f : Rat → Rat) :
    ∃ st', ARG_1 L st f = some st' ∧ st'.tos = st.tos ∧ st'.icon = st.icon ∧
      st'.stack.length = st.stack.length ∧ st'.good npoint ∧
      ∀ p, st.badAt L p → st'.badAt L p := by
  obtain ⟨xv, hslot, hget, hlen⟩ := VMState.slot_of_good hg h0 (le_refl _)
  obtain ⟨hm1, hlt, hall⟩ := hg
  have hin : st.tos.toNat < st.stack.length := by omega
  unfold ARG_1
  rw [hslot]
  refine ⟨_, rfl, rfl, rfl, by simp, ⟨hm1, by simp only [List.length_set]; exact hlt, ?_⟩, ?_⟩
  · intro j hj
    simp only at hj ⊢
    by_cases hjt : j = st.tos.toNat
    · subst hjt
      exact ⟨_, getD_set_self _ _ _ _ hin, by simp [hlen]⟩
    · rw [getD_set_ne _ _ _ (fun h => hjt h.symm)]
      exact hall j hj
  · rintro p ⟨j, hj, v, hv, hp⟩
    by_cases hjt : j = st.tos.toNat
    · subst hjt
      rw [hget] at hv
      injection hv with hv
      subst hv
      refine ⟨st.tos.toNat, hj, _, getD_set_self _ _ _ _ hin, ?_⟩
      rw [List.get?_eq_getElem?] at hp ⊢
      rw [List.getElem?_map, hp]
      simp
    · exact ⟨j, hj, v, by
        show (st.stack.set _ _).getD j none = some v
        rw [getD_set_ne _ _ _ (fun h => hjt h.symm)]
        exact hv, hp⟩

theorem DO_ARG_2_good {L : MathLib} {npoint : Nat} {st : VMState} (hg : st.good npoint)
    (h1 : 1 ≤ st.tos) (f : Rat → Rat → Rat) :
    ∃ st', DO_ARG_2 L st f = some st' ∧ st'.tos = st.tos - 1 ∧ st'.icon = st.icon ∧
      st'.stack.length = st.stack.length ∧ st'.good npoint ∧
      ∀ p, p < npoint → st.badAt L p → st'.badAt L p := by
  obtain ⟨xv2, hslot2, hget2, hlen2⟩ := VMState.slot_of_good hg (by omega) (le_refl _)
  obtain ⟨xv1, hslot1, hget1, hlen1⟩ :=
    VMState.slot_of_good hg (i := st.tos - 1) (by omega) (by omega)
  obtain ⟨hm1, hlt, hall⟩ := hg
  have hin : (st.tos - 1).toNat < st.stack.length := by omega
  unfold DO_ARG_2
  rw [hslot2, hslot1]
  refine ⟨_, rfl, rfl, rfl, by simp, ⟨by simp only; omega,
    by simp only [List.length_set]; omega, ?_⟩, ?_⟩
  · intro j hj
    simp only at hj ⊢
    by_cases hjt : j = (st.tos - 1).toNat
    · subst hjt
      exact ⟨_, getD_set_self _ _ _ _ hin, by simp [hlen1, hlen2]⟩
    · rw [getD_set_ne _ _ _ (fun h => hjt h.symm)]
      exact hall j (by omega)
  · rintro p hp ⟨j, hj, v, hv, hpv⟩
    have hz : ∀ x1 x2 : Rat, xv1.get? p = some x1 → xv2.get? p = some x2 →
        (x1 = L.BAD ∨ x2 = L.BAD) →
        (List.zipWith (fun x1 x2 => if x1 ≠ L.BAD then (if x2 ≠ L.BAD then f x1 x2 else L.BAD)
          else x1) xv1 xv2).get? p = some L.BAD := by
      intro x1 x2 e1 e2 hb
      rw [List.get?_eq_getElem?] at e1 e2 ⊢
      rw [List.getElem?_zipWith, e1, e2]
      simp only [Option.map_some', Option.bind_some, Option.some.injEq]
      rcases hb with rfl | rfl
      · simp
      · by_cases hx : x1 = L.BAD
        · simp [hx]
        · simp [hx]
    have hx1 : ∃ x1, xv1.get? p = some x1 := by
      rw [List.get?_eq_getElem?]
      exact ⟨_, List.getElem?_eq_getElem (by omega)⟩
    have hx2 : ∃ x2, xv2.get? p = some x2 := by
      rw [List.get?_eq_getElem?]
      exact ⟨_, List.getElem?_eq_getElem (by omega)⟩
    obtain ⟨x1, e1⟩ := hx1
    obtain ⟨x2, e2⟩ := hx2
    by_cases hjt : j = st.tos.toNat
    · subst hjt
      rw [hget2] at hv
      injection hv with hv
      subst hv
      rw [e2] at hpv
      injection hpv with hpv
      exact ⟨(st.tos - 1).toNat, by simp only; omega, _, getD_set_self _ _ _ _ hin,
        hz x1 x2 e1 e2 (Or.inr hpv)⟩
    · by_cases hjt1 : j = (st.tos - 1).toNat
      · subst hjt1
        rw [hget1] at hv
        injection hv with hv
        subst hv
        rw [e1] at hpv
        injection hpv with hpv
        exact ⟨(st.tos - 1).toNat, by simp only; omega, _, getD_set_self _ _ _ _ hin,
          hz x1 x2 e1 e2 (Or.inl hpv)⟩
      · exact ⟨j, by simp only; omega, v, by
          show (st.stack.set _ _).getD j none = some v
          rw [getD_set_ne _ _ _ (fun h => hjt1 h.symm)]
          exact hv, hpv⟩

theorem DO_ARG_2_times_good {L : MathLib} {npoint : Nat} (f : Rat → Rat → Rat) :
    ∀ (k : Nat) (st : VMState), st.good npoint → (k : Int) ≤ st.tos →
    ∃ st', DO_ARG_2_times L f k st = some st' ∧ st'.tos = st.tos - k ∧ st'.icon = st.icon ∧
      st'.stack.length = st.stack.length ∧ st'.good npoint ∧
      ∀ p, p < npoint → st.badAt L p → st'.badAt L p := by
  intro k
  induction k with
  | zero =>
    intro st hg _
    exact ⟨st, rfl, by simp, rfl, rfl, hg, fun _ _ h => h⟩
  | succ n ih =>
    intro st hg hk
    obtain ⟨st1, h1, h2, h3, h4, h5, h6⟩ := DO_ARG_2_good (L := L) hg (by omega) f
    obtain ⟨st2, g1, g2, g3, g4, g5, g6⟩ := ih st1 h5 (by omega)
    refine ⟨st2, ?_, by rw [g2, h2]; push_cast; omega, by rw [g3, h3], by rw [g4, h4], g5,
      fun p hp hb => g6 p hp (h6 p hp hb)⟩
    simp only [DO_ARG_2_times, h1]
    exact g1

/-! ## The virtual machine follows the depth trace -/

theorem operList_get_toInt : ∀ n < 40, (operList.get? n).map Oper.toInt = some (n : Int) := by
  decide

theorem Oper.eq_toInt_of_ofInt {i : Int} {o : Oper} (h : Oper.ofInt i = some o) :
    i = o.toInt := by
  unfold Oper.ofInt at h
  split at h
  · cases h
  · rename_i hi
    by_cases hn : i.toNat < 40
    · have := operList_get_toInt i.toNat hn
      rw [h] at this
      simp only [Option.map_some', Option.some.injEq] at this
      omega
    · rw [List.get?_eq_none.2 (by simp [operList]; omega)] at h
      cases h

theorem Oper.classify (o : Oper) :
    o = OP_NULL ∨ o = OP_LDCON ∨ o = OP_LDVAR ∨ o = OP_LDBAD ∨ o = OP_MAX ∨ o = OP_MIN ∨
      o.isArg1 = true ∨ o.isArg2 = true := by
  cases o <;> simp [Oper.isArg1, Oper.isArg2]

theorem VirtualMachine_case_arg1 (L : MathLib) (npoint : Nat) (ptr_in : List (List Rat))
    (con : List Rat) (st : VMState) {o : Oper} (h : o.isArg1 = true) :
    ∃ f, VirtualMachine_case L npoint ptr_in con st o.toInt = ARG_1 L st f := by
  unfold VirtualMachine_case
  rw [Oper.ofInt_toInt]
  cases o <;> first | exact ⟨_, rfl⟩ | exact absurd h (by decide)

theorem VirtualMachine_case_arg2 (L : MathLib) (npoint : Nat) (ptr_in : List (List Rat))
    (con : List Rat) (st : VMState) {o : Oper} (h : o.isArg2 = true) :
    ∃ f, VirtualMachine_case L npoint ptr_in con st o.toInt = DO_ARG_2 L st f := by
  unfold VirtualMachine_case
  rw [Oper.ofInt_toInt]
  cases o <;> first | exact ⟨_, rfl⟩ | exact absurd h (by decide)

theorem Sim_of_arg0 {L : MathLib} {npoint nvar : Nat} {ptr_in : List (List Rat)}
    {st st' : VMState} {d d' : DState} (hs : Sim L npoint nvar ptr_in st d)
    (htos : st'.tos = st.tos + 1) (hd1 : d'.tos = d.tos + 1) (hic : st'.icon = d'.icon)
    (hg : st'.good npoint)
    (hsame : ∀ j : Nat, (j : Int) ≤ st.tos → st'.stack.getD j none = st.stack.getD j none)
    (hnew : ∀ i p, i < nvar → p < npoint → (ptr_in.getD i []).get? p = some L.BAD →
      (OP_LDVAR, (i : Rat)) ∈ d'.reads → (OP_LDVAR, (i : Rat)) ∉ d.reads → st'.badAt L p) :
    Sim L npoint nvar ptr_in st' d' := by
  obtain ⟨h1, h2, h3, h4⟩ := hs
  refine ⟨by omega, hic, hg, ?_⟩
  intro i p hi hp hb hm
  by_cases hold : (OP_LDVAR, (i : Rat)) ∈ d.reads
  · exact ARG_0_badAt htos hsame (h4 i p hi hp hb hold)
  · exact hnew i p hi hp hb hm hold

/-- One opcode: when the depth step is defined and stays inside the stack, the machine
executes the opcode without reading outside an array or an unwritten slot, and agrees
with the depth step. -/
theorem VirtualMachine_case_sim {L : MathLib} {npoint nvar : Nat} {ptr_in : List (List Rat)}
    {con : List Rat} {st : VMState} {d d' : DState} {op : Int}
    (hin : InputsOK npoint nvar ptr_in) (hs : Sim L npoint nvar ptr_in st d)
    (hd : depthStep con nvar d op = some d') (hlt : d'.tos < st.stack.length) :
    ∃ st', VirtualMachine_case L npoint ptr_in con st op = some st' ∧
      Sim L npoint nvar ptr_in st' d' ∧ st'.stack.length = st.stack.length := by
  have hs' := hs
  obtain ⟨h1, h2, h3, h4⟩ := hs'
  cases ho : Oper.ofInt op with
  | none =>
    unfold depthStep at hd
    rw [ho] at hd
    injection hd with hd
    subst hd
    unfold VirtualMachine_case
    rw [ho]
    exact ⟨st, rfl, hs, rfl⟩
  | some o =>
    have hop := Oper.eq_toInt_of_ofInt ho
    subst hop
    rcases Oper.classify o with rfl | rfl | rfl | rfl | rfl | rfl | ha | ha
    · -- OP_NULL
      unfold depthStep at hd
      rw [ho] at hd
      injection hd with hd
      subst hd
      unfold VirtualMachine_case
      rw [ho]
      exact ⟨st, rfl, hs, rfl⟩
    · -- OP_LDCON
      unfold depthStep at hd
      rw [ho] at hd
      unfold VirtualMachine_case
      rw [ho, h2]
      simp only at hd ⊢
      split at hd
      · cases hd
      · rename_i c hc
        injection hd with hd
        subst hd
        simp only at hlt ⊢
        obtain ⟨st', e1, e2, e3, e4, e5, e6, e7⟩ :=
          ARG_0_good h3 (by omega) (d.icon + 1) (v := List.replicate npoint c) (by simp)
        refine ⟨st', e1, Sim_of_arg0 hs e2 rfl e3 e5 e7 ?_, e4⟩
        intro i p _ _ _ hm hnm
        simp only [List.mem_append, List.mem_singleton, Prod.mk.injEq] at hm
        rcases hm with hm | ⟨hm, _⟩
        · exact absurd hm hnm
        · cases hm
    · -- OP_LDVAR
      unfold depthStep at hd
      rw [ho] at hd
      unfold VirtualMachine_case
      rw [ho, h2]
      simp only at hd ⊢
      split at hd
      · cases hd
      · rename_i c hc
        split at hd
        · rename_i hiv
          injection hd with hd
          subst hd
          simp only at hlt ⊢
          obtain ⟨iv, hiveq⟩ := Int.eq_ofNat_of_zero_le hiv.1
          have hivlt : iv < nvar := by omega
          have hlen := hin.2 iv hivlt
          rw [hiveq]
          simp only [Int.toNat_ofNat]
          rw [if_pos ⟨by omega, by have := hin.1; omega, hlen⟩]
          obtain ⟨st', e1, e2, e3, e4, e5, e6, e7⟩ :=
            ARG_0_good h3 (by omega) (d.icon + 1) (v := (ptr_in.getD iv []).take npoint)
              (by rw [List.length_take]; omega)
          refine ⟨st', e1, Sim_of_arg0 hs e2 rfl e3 e5 e7 ?_, e4⟩
          intro i p hi hp hb hm hnm
          simp only [List.mem_append, List.mem_singleton, Prod.mk.injEq, true_and] at hm
          rcases hm with hm | hm
          · exact absurd hm hnm
          · have : (iv : Int) = (i : Int) := by
              rw [← hiveq, ← hm, c_int_nat_add_half]
            have hii : iv = i := by omega
            subst hii
            have hm1 := h3.1
            refine ⟨(st.tos + 1).toNat, by rw [e2]; omega, _, e6, ?_⟩
            rw [List.get?_eq_getElem?] at hb ⊢
            rw [List.getElem?_take_of_lt hp]
            exact hb
        · cases hd
    · -- OP_LDBAD
      unfold depthStep at hd
      rw [ho] at hd
      unfold VirtualMachine_case
      rw [ho]
      simp only at hd ⊢
      injection hd with hd
      subst hd
      simp only at hlt ⊢
      obtain ⟨st', e1, e2, e3, e4, e5, e6, e7⟩ :=
        ARG_0_good h3 (by omega) st.icon (v := List.replicate npoint L.BAD) (by simp)
      refine ⟨st', e1, Sim_of_arg0 hs e2 rfl (by rw [e3, h2]) e5 e7 ?_, e4⟩
      intro i p _ _ _ hm hnm
      exact absurd hm hnm
    · -- OP_MAX
      unfold depthStep at hd
      rw [ho] at hd
      unfold VirtualMachine_case
      rw [ho, h2]
      simp only at hd ⊢
      split at hd
      · cases hd
      · rename_i c hc
        split at hd
        · rename_i hk
          injection hd with hd
          subst hd
          simp only at hlt ⊢
          obtain ⟨st', e1, e2, e3, e4, e5, e6⟩ :=
            @DO_ARG_2_times_good L npoint (fun x1 x2 => if x1 ≥ x2 then x1 else x2)
              (c_int (c + 1 / 2) - 1).toNat { st with icon := d.icon + 1 } h3
              (by simp only; omega)
          refine ⟨st', e1, ⟨by rw [e2]; simp only; omega, by rw [e3], e5, ?_⟩, by rw [e4]⟩
          intro i p hi hp hb hm
          simp only [List.mem_append, List.mem_singleton, Prod.mk.injEq] at hm
          rcases hm with hm | ⟨hm, _⟩
          · exact e6 p hp (h4 i p hi hp hb hm)
          · cases hm
        · cases hd
    · -- OP_MIN
      unfold depthStep at hd
      rw [ho] at hd
      unfold VirtualMachine_case
      rw [ho, h2]
      simp only at hd ⊢
      split at hd
      · cases hd
      · rename_i c hc
        split at hd
        · rename_i hk
          injection hd with hd
          subst hd
          simp only at hlt ⊢
          obtain ⟨st', e1, e2, e3, e4, e5, e6⟩ :=
            @DO_ARG_2_times_good L npoint (fun x1 x2 => if x1 ≤ x2 then x1 else x2)
              (c_int (c + 1 / 2) - 1).toNat { st with icon := d.icon + 1 } h3
              (by simp only; omega)
          refine ⟨st', e1, ⟨by rw [e2]; simp only; omega, by rw [e3], e5, ?_⟩, by rw [e4]⟩
          intro i p hi hp hb hm
          simp only [List.mem_append, List.mem_singleton, Prod.mk.injEq] at hm
          rcases hm with hm | ⟨hm, _⟩
          · exact e6 p hp (h4 i p hi hp hb hm)
          · cases hm
        · cases hd
    · -- one-argument opcodes
      rw [depthStep_arg1 _ _ _ ha] at hd
      split at hd
      · rename_i h0
        injection hd with hd
        subst hd
        obtain ⟨f, hf⟩ := VirtualMachine_case_arg1 L npoint ptr_in con st ha
        obtain ⟨st', e1, e2, e3, e4, e5, e6⟩ := ARG_1_good (L := L) h3 (by omega) f
        rw [hf]
        exact ⟨st', e1, ⟨by omega, by omega, e5, fun i p hi hp hb hm => e6 p (h4 i p hi hp hb hm)⟩,
          e4⟩
      · cases hd
    · -- two-argument opcodes
      rw [depthStep_arg2 _ _ _ ha] at hd
      split at hd
      · rename_i h0
        injection hd with hd
        subst hd
        obtain ⟨f, hf⟩ := VirtualMachine_case_arg2 L npoint ptr_in con st ha
        obtain ⟨st', e1, e2, e3, e4, e5, e6⟩ := DO_ARG_2_good (L := L) h3 (by omega) f
        rw [hf]
        exact ⟨st', e1, ⟨by simp only; omega, by simp only; omega, e5,
          fun i p hi hp hb hm => e6 p hp (h4 i p hi hp hb hm)⟩, e4⟩
      · cases hd

theorem VirtualMachine_exec_succ (L : MathLib) (npoint : Nat) (ptr_in : List (List Rat))
    (code : List Int) (con : List Rat) (stacksize : Int) (n : Nat) :
    VirtualMachine_exec L npoint ptr_in code con stacksize (n + 1) =
      match VirtualMachine_exec L npoint ptr_in code con stacksize n with
      | none => none
      | some st =>
        match code.get? (n + 1) with
        | none => none
        | some op => VirtualMachine_case L npoint ptr_in con st op := rfl

/-- A program whose depth trace is defined and stays within `stacksize` runs on the
virtual machine without fault, and after each opcode the machine agrees with the
trace. -/
theorem VirtualMachine_exec_sim {L : MathLib} {npoint nvar : Nat} {ptr_in : List (List Rat)}
    {con : List Rat} {stacksize : Int} {ops : List Int} {tr : List DState} (c0 : Int)
    (hin : InputsOK npoint nvar ptr_in)
    (htr : depthTrace con nvar ops DState.init = some tr)
    (hb : ∀ d ∈ tr, 0 ≤ d.tos ∧ d.tos + 1 ≤ stacksize) :
    ∀ n, n ≤ ops.length →
      ∃ st, VirtualMachine_exec L npoint ptr_in (c0 :: ops) con stacksize n = some st ∧
        Sim L npoint nvar ptr_in st (lastD (tr.take n) DState.init) ∧
        st.stack.length = stacksize.toNat := by
  intro n
  induction n with
  | zero =>
    intro _
    refine ⟨VMState.init stacksize, rfl, ⟨rfl, rfl, ⟨by simp [VMState.init], ?_, ?_⟩, ?_⟩, ?_⟩
    · simp only [VMState.init]
      omega
    · intro j hj
      simp only [VMState.init] at hj
      omega
    · intro i p _ _ _ hm
      simp [lastD, DState.init] at hm
    · simp [VMState.init]
  | succ m ih =>
    intro hm
    obtain ⟨st, h1, h2, h3⟩ := ih (by omega)
    have hop : ∃ op, ops.get? m = some op := by
      rw [List.get?_eq_getElem?]
      exact ⟨_, List.getElem?_eq_getElem (by omega)⟩
    obtain ⟨op, hop⟩ := hop
    obtain ⟨dn, hdn, hstep⟩ := depthTrace_get con nvar ops _ tr htr m op hop
    have hmem : dn ∈ tr := List.get?_mem hdn
    have hbd := hb dn hmem
    obtain ⟨st', e1, e2, e3⟩ := VirtualMachine_case_sim (L := L) hin h2 hstep (by omega)
    refine ⟨st', ?_, ?_, by rw [e3, h3]⟩
    · rw [VirtualMachine_exec_succ, h1]
      simp only [List.get?_cons_succ, hop]
      exact e1
    · rw [lastD_take_succ _ hdn]
      exact e2

/-- What a successful compilation gives: the walker's symbols form an accepted stream, the
constants are those stored for its tokens, and the opcodes have a defined depth trace
that ends with one value, stays within `stacksize`, reaches it, and consumes exactly
the constants stored. -/
theorem CompileExpression_ok_trace {exprs : List Char} {nvar : Nat} {var : List (List Char)}
    {c : Compiled} (hc : CompileExpression exprs nvar var = .ok c) :
    ∃ (w : WState) (toks : List Token) (ops : List Int) (tr : List DState),
      CompileExpression_loop exprs nvar var (exprs.length + 1) WState.init = .ok w ∧
      Run nvar ⟨false, []⟩ toks ⟨true, []⟩ ∧
      w.symlist = toks.map Prod.fst ∧
      c.con = (Token.consts toks).map Prod.snd ∧
      c.code = (ops.length : Int) :: ops ∧
      depthTrace c.con nvar ops DState.init = some tr ∧
      lastD tr DState.init = ⟨0, (Token.consts toks).length, Token.consts toks⟩ ∧
      (∀ d ∈ tr, 0 ≤ d.tos ∧ d.tos + 1 ≤ c.stacksize) ∧
      (∃ d ∈ tr, d.tos + 1 = c.stacksize) := by
  unfold CompileExpression at hc
  split at hc
  · cases hc
  · rename_i w hw
    unfold CompileExpression_walk at hw
    split at hw
    · cases hw
    · rename_i w' hloop
      split at hw
      · cases hw
      · rename_i hop
        split at hw
        · cases hw
        · rename_i hlp
          injection hw with hw
          subst hw
          obtain ⟨hok, toks, hrun, hsym, hcon⟩ :=
            CompileExpression_loop_run _ _ _ WState.init_ok hloop
          rw [WState.init_abs] at hrun
          have hlev : w'.v.levels = [] :=
            VState.levels_zero (by have := hok.1; omega)
          have habs : w'.abs = ⟨true, []⟩ := by
            unfold WState.abs
            rw [hlev]
            simp only [AState.mk.injEq, and_true]
            simpa using hop
          rw [habs] at hrun
          simp only [WState.init, List.nil_append] at hsym hcon
          obtain ⟨code, tr, h1, h2, h3, h4, h5⟩ := EvaluationSort_of_run hrun
          rw [← hsym] at h1 h4 h5
          rw [← hcon] at h1 h2 h4 h5
          rw [h1] at hc
          simp only at hc
          injection hc with hc
          subst hc
          exact ⟨w', toks, code, tr, hloop, hrun, hsym, hcon, rfl, h2, h3, h4, h5⟩

/-! ## Consequences for compiled expressions -/

theorem Run.append {nvar : Nat} {q q1 q2 : AState} {P T : List Token}
    (h1 : Run nvar q P q1) (h2 : Run nvar q1 T q2) : Run nvar q (P ++ T) q2 := by
  induction h1 with
  | nil => exact h2
  | cons hs _ ih => exact Run.cons hs (ih h2)

theorem Token.consts_append (P T : List Token) :
    Token.consts (P ++ T) = Token.consts P ++ Token.consts T := by
  simp [Token.consts]

theorem CompileExpression_loop_of_end {exprs : List Char} {nvar : Nat}
    {var : List (List Char)} {w : WState} (h : cget exprs w.istart = NUL) (fuel : Nat) :
    CompileExpression_loop exprs nvar var fuel w = .ok w := by
  cases fuel with
  | zero => rfl
  | succ n =>
    rw [CompileExpression_loop_succ, if_neg (by simp [h])]

theorem Step.ldvar_inv {nvar : Nat} {q q1 : AState} {trd : List (Oper × Rat)}
    (h : Step nvar q (0, trd) q1) : ∃ i, i < nvar ∧ trd = [(OP_LDVAR, (i : Rat))] := by
  generalize ht : ((0 : Nat), trd) = t at h
  cases h with
  | ldcon _ c hq => injection ht with h1 _; exact absurd h1 (by decide)
  | ldvar _ i hq hi =>
    injection ht with _ h2
    exact ⟨i, hi, h2⟩
  | ldbad _ hq => injection ht with h1 _; exact absurd h1 (by decide)
  | unary _ sym hq hs => injection ht with h1 _; omega
  | binary _ sym hq hs => injection ht with h1 _; omega
  | comma o a rest ha => injection ht with h1 _; exact absurd h1 (by decide)
  | opener _ sym hq hp =>
    injection ht with h1 _
    subst h1
    exact absurd hp (by decide)
  | closer o a rest h1 h2 => injection ht with h1 _; exact absurd h1 (by decide)

/-- A successful compilation consists of a successful walk that ends with an operator
expected and all parentheses closed, followed by the sort. -/
theorem CompileExpression_ok_inv {exprs : List Char} {nvar : Nat} {var : List (List Char)}
    {c : Compiled} (hc : CompileExpression exprs nvar var = .ok c) :
    ∃ w, CompileExpression_loop exprs nvar var (exprs.length + 1) WState.init = .ok w ∧
      w.opernext = true ∧ ¬ w.v.lpar > 0 ∧
      CompileExpression_walk exprs nvar var = .ok w ∧
      c = ⟨(EvaluationSort w.v.con w.symlist.length w.symlist).1, w.v.con,
        (EvaluationSort w.v.con w.symlist.length w.symlist).2⟩ := by
  unfold CompileExpression at hc
  split at hc
  · cases hc
  · rename_i w hw
    have hw' := hw
    unfold CompileExpression_walk at hw
    split at hw
    · cases hw
    · rename_i w' hloop
      split at hw
      · cases hw
      · rename_i hop
        split at hw
        · cases hw
        · rename_i hlp
          injection hw with hw
          subst hw
          simp only at hc
          injection hc with hc
          exact ⟨w', hloop, by simpa using hop, hlp, hw', hc.symm⟩

/-- The facts of `CompileExpression_ok_trace` for any token stream that describes the
walk. -/
theorem CompileExpression_trace_of_run {exprs : List Char} {nvar : Nat}
    {var : List (List Char)} {c : Compiled} {w : WState} {toks : List Token}
    (hc : CompileExpression exprs nvar var = .ok c)
    (hloop : CompileExpression_loop exprs nvar var (exprs.length + 1) WState.init = .ok w)
    (hrun : Run nvar ⟨false, []⟩ toks ⟨true, []⟩)
    (hsym : w.symlist = toks.map Prod.fst)
    (hcon : w.v.con = (Token.consts toks).map Prod.snd) :
    ∃ (ops : List Int) (tr : List DState),
      c.con = (Token.consts toks).map Prod.snd ∧
      c.code = (ops.length : Int) :: ops ∧
      depthTrace c.con nvar ops DState.init = some tr ∧
      lastD tr DState.init = ⟨0, (Token.consts toks).length, Token.consts toks⟩ ∧
      (∀ d ∈ tr, 0 ≤ d.tos ∧ d.tos + 1 ≤ c.stacksize) ∧
      (∃ d ∈ tr, d.tos + 1 = c.stacksize) := by
  obtain ⟨w', hloop', _, _, _, hceq⟩ := CompileExpression_ok_inv hc
  rw [hloop] at hloop'
  injection hloop' with hww
  subst hww
  obtain ⟨code, tr, h1, h2, h3, h4, h5⟩ := EvaluationSort_of_run hrun
  rw [← hsym] at h1 h4 h5
  rw [← hcon] at h1 h2 h4 h5
  subst hceq
  simp only
  rw [h1]
  exact ⟨code, tr, hcon, rfl, h2, h3, h4, h5⟩

/-- A variable that the expression references has its index among the constants that the
compiled program consumes with `OP_LDVAR`, and the index is below `nvar`. -/
theorem ReferencesVar_token {exprs : List Char} {nvar : Nat} {var : List (List Char)}
    {c : Compiled} {ivar : Nat} (hc : CompileExpression exprs nvar var = .ok c)
    (href : ReferencesVar exprs nvar var ivar) :
    ∃ (w : WState) (toks : List Token),
      CompileExpression_loop exprs nvar var (exprs.length + 1) WState.init = .ok w ∧
      Run nvar ⟨false, []⟩ toks ⟨true, []⟩ ∧
      w.symlist = toks.map Prod.fst ∧
      w.v.con = (Token.consts toks).map Prod.snd ∧
      (OP_LDVAR, (ivar : Rat)) ∈ Token.consts toks ∧ ivar < nvar := by
  obtain ⟨wf, hloop, hop, hlp, _, _⟩ := CompileExpression_ok_inv hc
  obtain ⟨k, w, w1, hk, hnz, hbody, hs1, hc1⟩ := href
  have hend := CompileExpression_loop_complete hloop
  -- the final walk passes through `w`
  have hrest : ∃ m, CompileExpression_loop exprs nvar var m w1 = .ok wf := by
    rcases Nat.lt_or_ge k (exprs.length + 1) with hlt | hge
    · obtain ⟨m, hm⟩ : ∃ m, exprs.length + 1 = k + (m + 1) := ⟨exprs.length - k, by omega⟩
      rw [hm, CompileExpression_loop_add, hk] at hloop
      simp only at hloop
      rw [CompileExpression_loop_succ, if_pos (by simpa using hnz), hbody] at hloop
      exact ⟨m, hloop⟩
    · obtain ⟨m, hm⟩ : ∃ m, k = (exprs.length + 1) + m := ⟨k - (exprs.length + 1), by omega⟩
      rw [hm, CompileExpression_loop_add, hloop] at hk
      simp only at hk
      rw [CompileExpression_loop_of_end hend] at hk
      injection hk with hk
      subst hk
      exact absurd hend hnz
  obtain ⟨m, hm⟩ := hrest
  obtain ⟨hokw, P, hrunP, hsymP, hconP⟩ :=
    @CompileExpression_loop_run exprs nvar var k _ _ WState.init_ok hk
  obtain ⟨hok1, tok, hstep, hsymt, hcont⟩ := CompileExpression_body_step hokw hbody
  obtain ⟨hokf, T, hrunT, hsymT, hconT⟩ := CompileExpression_loop_run m _ _ hok1 hm
  obtain ⟨sym, trd⟩ := tok
  simp only at hsymt hcont
  have hsym0 : sym = 0 := by
    rw [hs1] at hsymt
    have := List.append_cancel_left hsymt
    simpa [symbol_ldvar] using this.symm
  subst hsym0
  obtain ⟨i, hi, rfl⟩ := hstep.ldvar_inv
  have hii : i = ivar := by
    rw [hc1] at hcont
    have := List.append_cancel_left hcont
    simp only [List.map_cons, List.map_nil, List.cons.injEq, and_true] at this
    exact_mod_cast this.symm
  subst hii
  have hlev : wf.v.levels = [] := VState.levels_zero (by have := hokf.1; omega)
  have habs : wf.abs = ⟨true, []⟩ := by
    unfold WState.abs
    rw [hlev, hop]
  rw [WState.init_abs] at hrunP
  rw [habs] at hrunT
  refine ⟨wf, P ++ (0, [(OP_LDVAR, (i : Rat))]) :: T, hloop,
    hrunP.append (Run.cons hstep hrunT), ?_, ?_, ?_, hi⟩
  · rw [hsymT, hsymt, hsymP]
    simp [WState.init]
  · rw [hconT, hcont, hconP]
    simp [WState.init, Token.consts_append, Token.consts_cons]
  · rw [Token.consts_append, Token.consts_cons]
    simp

theorem lastD_take_mem {con : List Rat} {nvar : Nat} {ops : List Int} {tr : List DState}
    (htr : depthTrace con nvar ops DState.init = some tr) {n : Nat} (h1 : 1 ≤ n)
    (h2 : n ≤ ops.length) : lastD (tr.take n) DState.init ∈ tr := by
  obtain ⟨m, rfl⟩ : ∃ m, n = m + 1 := ⟨n - 1, by omega⟩
  have hop : ∃ op, ops.get? m = some op := by
    rw [List.get?_eq_getElem?]
    exact ⟨_, List.getElem?_eq_getElem (by omega)⟩
  obtain ⟨op, hop⟩ := hop
  obtain ⟨dn, hdn, _⟩ := depthTrace_get con nvar ops _ tr htr m op hop
  rw [lastD_take_succ _ hdn]
  exact List.get?_mem hdn

theorem lastD_take_all {tr : List DState} {n : Nat} (h : tr.length ≤ n) (d : DState) :
    lastD (tr.take n) d = lastD tr d := by
  rw [List.take_of_length_le h]

/-- C3: for every accepted expression, while `VirtualMachine` executes the compiled
opcodes (on input vectors that cover the declared variables) no step is undefined, the
top-of-stack index satisfies `0 <= tos < stacksize` after every opcode, every slot up to
the top of the stack has been written, every one-argument opcode runs with `tos >= 0`,
every two-argument opcode with `tos >= 1`, and `MIN`/`MAX` with at least as many vectors
stacked as the count it reads. -/
theorem C3_stack_pointer_within_stack (L : MathLib) {exprs : List Char} {nvar : Nat}
    {var : List (List Char)} {c : Compiled}
    (hc : CompileExpression exprs nvar var = .ok c) (npoint : Nat) (ptr_in : List (List Rat))
    (hin : InputsOK npoint nvar ptr_in) :
    ∃ ops : List Int, c.code = (ops.length : Int) :: ops ∧
      ∀ n, n ≤ ops.length →
        ∃ st, VirtualMachine_exec L npoint ptr_in c.code c.con c.stacksize n = some st ∧
          st.stack.length = c.stacksize.toNat ∧
          (1 ≤ n → 0 ≤ st.tos ∧ st.tos < c.stacksize) ∧
          (∀ j : Nat, (j : Int) ≤ st.tos →
            ∃ v, st.stack.getD j none = some v ∧ v.length = npoint) ∧
          (∀ op o, ops.get? n = some op → Oper.ofInt op = some o →
            (o.isArg1 = true → 0 ≤ st.tos) ∧ (o.isArg2 = true → 1 ≤ st.tos) ∧
            ((o = OP_MAX ∨ o = OP_MIN) →
              ∃ k, c.con.get? st.icon = some k ∧ c_int (k + 1 / 2) ≤ st.tos + 1)) := by
  obtain ⟨w, toks, ops, tr, _, _, _, _, hcode, htr, _, hb, _⟩ := CompileExpression_ok_trace hc
  refine ⟨ops, hcode, ?_⟩
  intro n hn
  rw [hcode]
  obtain ⟨st, h1, ⟨ht, hi, hg, _⟩, h3⟩ :=
    VirtualMachine_exec_sim (L := L) (ops.length : Int) hin htr hb n hn
  refine ⟨st, h1, h3, ?_, hg.2.2, ?_⟩
  · intro h1n
    have := hb _ (lastD_take_mem htr h1n hn)
    omega
  · intro op o hop ho
    obtain ⟨dn, _, hstep⟩ := depthTrace_get c.con nvar ops _ tr htr n op hop
    have hop' := Oper.eq_toInt_of_ofInt ho
    subst hop'
    refine ⟨fun ha => ?_, fun ha => ?_, fun hm => ?_⟩
    · rw [depthStep_arg1 _ _ _ ha] at hstep
      split at hstep
      · omega
      · cases hstep
    · rw [depthStep_arg2 _ _ _ ha] at hstep
      split at hstep
      · omega
      · cases hstep
    · unfold depthStep at hstep
      rw [ho] at hstep
      rcases hm with rfl | rfl
      · simp only at hstep
        split at hstep
        · cases hstep
        · rename_i k hk
          split at hstep
          · rename_i hle
            refine ⟨k, by rw [hi]; exact hk, ?_⟩
            omega
          · cases hstep
      · simp only at hstep
        split at hstep
        · cases hstep
        · rename_i k hk
          split at hstep
          · rename_i hle
            refine ⟨k, by rw [hi]; exact hk, ?_⟩
            omega
          · cases hstep

/-- C2: for every accepted expression the returned `stacksize` is the maximum of `tos + 1`
over the opcodes executed by `VirtualMachine`: after every opcode `tos + 1 <= stacksize`,
after some opcode `tos + 1 = stacksize`, and `stacksize >= 1`. -/
theorem C2_stacksize_is_max_depth (L : MathLib) {exprs : List Char} {nvar : Nat}
    {var : List (List Char)} {c : Compiled}
    (hc : CompileExpression exprs nvar var = .ok c) (npoint : Nat) (ptr_in : List (List Rat))
    (hin : InputsOK npoint nvar ptr_in) :
    ∃ ops : List Int, c.code = (ops.length : Int) :: ops ∧
      (∀ n, 1 ≤ n → n ≤ ops.length →
        ∃ st, VirtualMachine_exec L npoint ptr_in c.code c.con c.stacksize n = some st ∧
          st.tos + 1 ≤ c.stacksize) ∧
      (∃ n st, 1 ≤ n ∧ n ≤ ops.length ∧
        VirtualMachine_exec L npoint ptr_in c.code c.con c.stacksize n = some st ∧
          st.tos + 1 = c.stacksize) ∧
      1 ≤ c.stacksize := by
  obtain ⟨w, toks, ops, tr, _, _, _, _, hcode, htr, _, hb, d, hd, hdmax⟩ :=
    CompileExpression_ok_trace hc
  have hlen := depthTrace_length _ _ _ _ _ htr
  refine ⟨ops, hcode, ?_, ?_, ?_⟩
  · intro n h1n hn
    rw [hcode]
    obtain ⟨st, h1, ⟨ht, _, _, _⟩, _⟩ :=
      VirtualMachine_exec_sim (L := L) (ops.length : Int) hin htr hb n hn
    refine ⟨st, h1, ?_⟩
    have := hb _ (lastD_take_mem htr h1n hn)
    omega
  · obtain ⟨m, hm⟩ := List.get?_of_mem hd
    have hmlt : m < tr.length := by
      rw [List.get?_eq_getElem?] at hm
      exact (List.getElem?_eq_some_iff.1 hm).1
    rw [hcode]
    obtain ⟨st, h1, ⟨ht, _, _, _⟩, _⟩ :=
      VirtualMachine_exec_sim (L := L) (ops.length : Int) hin htr hb (m + 1) (by omega)
    rw [lastD_take_succ _ hm] at ht
    exact ⟨m + 1, st, by omega, by omega, h1, by omega⟩
  · have := hb d hd
    omega

/-- C1: for every accepted expression and every point `p`: if a variable that the
expression references is bad at point `p` of the input vectors, then the value that
`VirtualMachine` writes to the output at point `p` is bad.  Example: the expression `x`
on `[1, 2, BAD, 4]` gives `[1, 2, BAD, 4]`. -/
theorem C1_bad_input_gives_bad_output :
    (∀ (L : MathLib) (exprs : List Char) (nvar : Nat) (var : List (List Char)) (c : Compiled)
      (npoint : Nat) (ptr_in : List (List Rat)) (ivar p : Nat),
      CompileExpression exprs nvar var = .ok c →
      InputsOK npoint nvar ptr_in →
      ReferencesVar exprs nvar var ivar →
      p < npoint →
      (ptr_in.getD ivar []).get? p = some L.BAD →
      ∃ out, VirtualMachine L npoint nvar ptr_in c.code c.con c.stacksize = some out ∧
        out.length = npoint ∧ out.get? p = some L.BAD) ∧
    (CompileExpression "x".toList 1 ["x".toList] = .ok ⟨[1, 2], [0], 1⟩ ∧
      VirtualMachine MathLib.sample 4 1 [[1, 2, MathLib.sample.BAD, 4]] [1, 2] [0] 1 =
        some [1, 2, MathLib.sample.BAD, 4]) := by
  refine ⟨?_, by decide!, by decide!⟩
  intro L exprs nvar var c npoint ptr_in ivar p hc hin href hp hbad
  obtain ⟨w, toks, hloop, hrun, hsym, hcon, hmem, hiv⟩ := ReferencesVar_token hc href
  obtain ⟨ops, tr, _, hcode, htr, hlast, hb, _⟩ :=
    CompileExpression_trace_of_run hc hloop hrun hsym hcon
  have hlen := depthTrace_length _ _ _ _ _ htr
  obtain ⟨st, h1, ⟨ht, _, hg, hbadAt⟩, _⟩ :=
    @VirtualMachine_exec_sim L npoint nvar ptr_in _ _ _ _ (ops.length : Int) hin
      htr hb ops.length (le_refl _)
  rw [lastD_take_all (by omega), hlast] at ht hbadAt
  obtain ⟨j, hj, v, hv, hpv⟩ := hbadAt ivar p hiv hp hbad hmem
  simp only at ht
  have hj0 : j = 0 := by omega
  subst hj0
  obtain ⟨v', hv', hl'⟩ := hg.2.2 0 (by omega)
  rw [hv] at hv'
  injection hv' with hv'
  subst hv'
  refine ⟨v, ?_, hl', hpv⟩
  unfold VirtualMachine
  rw [hcode]
  simp only [List.getD_cons_zero, Int.toNat_ofNat]
  rw [← hcode, hcode, h1]
  exact hv

/-! ## The final context and the validation of symbols -/

/-- After every pass of the walker's loop, `opernext` says whether the last symbol
recorded looks like an operand from the right. -/
theorem CompileExpression_loop_opernext {exprs : List Char} {nvar : Nat}
    {var : List (List Char)} {fuel : Nat} {w : WState}
    (h : CompileExpression_loop exprs nvar var fuel WState.init = .ok w) :
    w.opernext = (match w.symlist.getLast? with
      | none => false
      | some s => !(symbol s).operright) := by
  refine CompileExpression_loop_induction
    (fun w => w.opernext = (match w.symlist.getLast? with
      | none => false
      | some s => !(symbol s).operright)) ?_ fuel WState.init w rfl h
  intro w w1 _ _ hb
  rcases CompileExpression_body_ok hb with ⟨sym, v, _, _, rfl⟩ | ⟨_, _, iend, c, _, _, rfl⟩ |
    ⟨_, _, iend0, c, ivar, iend, _, _, _, _, rfl⟩ <;>
  simp [WState.accept]

theorem CompileExpression_of_loop_error {exprs : List Char} {nvar : Nat}
    {var : List (List Char)} {e : AstError}
    (h : CompileExpression_loop exprs nvar var (exprs.length + 1) WState.init = .error e) :
    CompileExpression exprs nvar var = .error e := by
  unfold CompileExpression CompileExpression_walk
  rw [h]

/-- C4: when the walker has consumed the whole expression without error and an operand
is still expected (the expression is empty or its last symbol looks like an operator
from the right), compilation fails with `MIOPA` and the message quotes the whole
expression, whatever the parenthesis depth; when an operator is expected and the
parenthesis depth is positive it fails with `MRPAR`.  Examples: `1+`, `(a+`, `(a`. -/
theorem C4_final_context :
    (∀ (exprs : List Char) (nvar : Nat) (var : List (List Char)) (w : WState),
      CompileExpression_loop exprs nvar var (exprs.length + 1) WState.init = .ok w →
      cget exprs w.istart = NUL ∧
      (w.opernext = false ↔
        (w.symlist = [] ∨ ∃ s, w.symlist.getLast? = some s ∧ (symbol s).operright = true)) ∧
      (w.opernext = false →
        CompileExpression exprs nvar var = .error ⟨ErrCode.MIOPA, cstr exprs⟩) ∧
      (w.opernext = true → w.v.lpar > 0 →
        CompileExpression exprs nvar var = .error ⟨ErrCode.MRPAR, cstr exprs⟩)) ∧
    CompileExpression "1+".toList 0 [] = .error ⟨ErrCode.MIOPA, "1+".toList⟩ ∧
    CompileExpression "(a+".toList 1 ["a".toList] = .error ⟨ErrCode.MIOPA, "(a+".toList⟩ ∧
    CompileExpression "(a".toList 1 ["a".toList] = .error ⟨ErrCode.MRPAR, "(a".toList⟩ ∧
    CompileExpression "".toList 0 [] = .error ⟨ErrCode.MIOPA, []⟩ := by
  refine ⟨?_, by decide!, by decide!, by decide!, by decide!⟩
  intro exprs nvar var w h
  refine ⟨CompileExpression_loop_complete h, ?_, ?_, ?_⟩
  · rw [CompileExpression_loop_opernext h]
    cases hl : w.symlist.getLast? with
    | none =>
      simp only [true_iff]
      left
      exact List.getLast?_eq_none_iff.1 hl
    | some s =>
      simp only [Bool.not_eq_false', Option.some.injEq, exists_eq_left']
      constructor
      · intro hs
        exact Or.inr hs
      · rintro (hnil | hs)
        · rw [hnil] at hl
          simp at hl
        · exact hs
  · intro hop
    unfold CompileExpression CompileExpression_walk
    rw [h]
    simp [hop]
  · intro hop hlp
    unfold CompileExpression CompileExpression_walk
    rw [h]
    simp [hop, hlp]

/-- C5: when a closing parenthesis closes a level that was opened by a function symbol,
`ValidateSymbol` accepts it (and leaves the level) exactly when the argument count equals
the fixed arity `nargs > 0`, or is at least `-nargs` for a variadic symbol (`nargs < 0`),
in which case the count is appended to the constants; otherwise it fails with `WRNFA`.
Examples: `sqrt(a,b)`, `atan2(a)`, `max(a)` fail; `atan2(a,b)`, `max(a,b,c)` compile. -/
theorem C5_closing_function_level :
    (∀ (exprs : List Char) (iend sym : Nat) (v : VState),
      (symbol sym).parincrement < 0 → v.lpar ≠ 0 →
      (symbol (v.opensym.getD (v.lpar - 1).toNat 0)).nargs ≠ 0 →
      ValidateSymbol exprs iend sym v =
        if ((symbol (v.opensym.getD (v.lpar - 1).toNat 0)).nargs > 0 ∧
              v.argcount.getD (v.lpar - 1).toNat 0 =
                (symbol (v.opensym.getD (v.lpar - 1).toNat 0)).nargs) ∨
            ((symbol (v.opensym.getD (v.lpar - 1).toNat 0)).nargs < 0 ∧
              v.argcount.getD (v.lpar - 1).toNat 0 ≥
                -(symbol (v.opensym.getD (v.lpar - 1).toNat 0)).nargs)
        then
          .ok { v with
            lpar := v.lpar - 1
            con := if (symbol (v.opensym.getD (v.lpar - 1).toNat 0)).nargs < 0
              then v.con ++ [((v.argcount.getD (v.lpar - 1).toNat 0 : Int) : Rat)]
              else v.con }
        else .error ⟨ErrCode.WRNFA, cprefix (iend + 1) exprs⟩) ∧
    CompileExpression "sqrt(a,b)".toList 2 ["a".toList, "b".toList] =
      .error ⟨ErrCode.WRNFA, "sqrt(a,b)".toList⟩ ∧
    CompileExpression "atan2(a)".toList 2 ["a".toList, "b".toList] =
      .error ⟨ErrCode.WRNFA, "atan2(a)".toList⟩ ∧
    CompileExpression "max(a)".toList 2 ["a".toList, "b".toList] =
      .error ⟨ErrCode.WRNFA, "max(a)".toList⟩ ∧
    CompileExpression "atan2(a,b)".toList 2 ["a".toList, "b".toList] =
      .ok ⟨[3, 2, 2, 38], [0, 1], 2⟩ ∧
    CompileExpression "max(a,b,c)".toList 3 ["a".toList, "b".toList, "c".toList] =
      .ok ⟨[4, 2, 2, 2, 34], [0, 1, 2, 3], 3⟩ := by
  refine ⟨?_, by decide!, by decide!, by decide!, by decide!, by decide!⟩
  intro exprs iend sym v hs hl hn
  have h2 := (symbol_closer_iff sym).1 hs
  subst h2
  rw [ValidateSymbol_closer, if_neg hl]
  by_cases hp : (symbol (v.opensym.getD (v.lpar - 1).toNat 0)).nargs > 0
  · rw [if_pos hp]
    by_cases he : v.argcount.getD (v.lpar - 1).toNat 0 =
        (symbol (v.opensym.getD (v.lpar - 1).toNat 0)).nargs
    · rw [if_neg (by simpa using he), if_pos (Or.inl ⟨hp, he⟩), if_neg (by omega)]
    · rw [if_pos he, if_neg (by
        rintro (⟨_, h⟩ | ⟨h, _⟩)
        · exact he h
        · omega)]
  · have hneg : (symbol (v.opensym.getD (v.lpar - 1).toNat 0)).nargs < 0 := by omega
    rw [if_neg hp, if_pos hneg]
    by_cases hlt : v.argcount.getD (v.lpar - 1).toNat 0 <
        -(symbol (v.opensym.getD (v.lpar - 1).toNat 0)).nargs
    · rw [if_pos hlt, if_neg (by
        rintro (⟨h, _⟩ | ⟨_, h⟩)
        · exact hp h
        · omega)]
    · rw [if_neg hlt, if_pos (Or.inr ⟨hneg, by omega⟩), if_pos hneg]

/-! ## Parenthesis levels along the walk -/

theorem Step.keeps_levelsOK {nvar : Nat} {q q1 : AState} {t : Token} (h : Step nvar q t q1)
    (hl : LevelsOK q.levels) : LevelsOK q1.levels := by
  cases h with
  | ldcon _ c _ => exact hl
  | ldvar _ i _ _ => exact hl
  | ldbad _ _ => exact hl
  | unary _ sym _ _ => exact hl
  | binary _ sym _ _ => exact hl
  | comma o a rest ha =>
    intro l hmem
    rcases List.mem_cons.1 hmem with rfl | hmem
    · have h0 := hl (o, a) (List.mem_cons_self _ _)
      refine ⟨h0.1, fun hn => ?_, fun hn => ?_⟩
      · have := h0.2.1 hn
        show 1 ≤ a + 1
        omega
      · exact absurd (h0.2.2 hn) ha
    · exact hl l (List.mem_cons_of_mem _ hmem)
  | opener _ sym _ hp =>
    intro l hmem
    rcases List.mem_cons.1 hmem with rfl | hmem
    · refine ⟨hp, fun hn => ?_, fun hn => ?_⟩
      · show 1 ≤ (if (symbol sym).nargs ≠ 0 then (1 : Int) else 0)
        rw [if_pos hn]
      · show (if (symbol sym).nargs ≠ 0 then (1 : Int) else 0) = 0
        rw [if_neg (by simpa using hn)]
    · exact hl l hmem
  | closer o a rest _ _ =>
    intro l hmem
    exact hl l (List.mem_cons_of_mem _ hmem)

theorem Run.all_levelsOK {nvar : Nat} {q q1 : AState} {ts : List Token} (h : Run nvar q ts q1)
    (hl : LevelsOK q.levels) : LevelsOK q1.levels := by
  induction h with
  | nil _ => exact hl
  | cons hs _ ih => exact ih (hs.keeps_levelsOK hl)

/-- Every state that the walker reaches from its initial state has consistent
parenthesis levels. -/
theorem CompileExpression_loop_levels {exprs : List Char} {nvar : Nat}
    {var : List (List Char)} {fuel : Nat} {w : WState}
    (h : CompileExpression_loop exprs nvar var fuel WState.init = .ok w) :
    w.v.ok ∧ LevelsOK w.v.levels := by
  obtain ⟨hok, toks, hrun, _, _⟩ := CompileExpression_loop_run fuel WState.init w
    WState.init_ok h
  refine ⟨hok, ?_⟩
  have := hrun.all_levelsOK (by
    rw [WState.init_abs]
    intro l hl
    cases hl)
  exact this

/-- The innermost level of a state inside parentheses. -/
theorem VState.levels_top {v : VState} (h : v.lpar > 0) :
    ∃ rest, v.levels =
      (v.opensym.getD (v.lpar - 1).toNat 0, v.argcount.getD (v.lpar - 1).toNat 0) :: rest := by
  obtain ⟨n, hn⟩ := Int.eq_ofNat_of_zero_le (show 0 ≤ v.lpar - 1 by omega)
  have h1 : v.lpar = n + 1 := by omega
  refine ⟨({ v with lpar := (n : Int) } : VState).levels, ?_⟩
  rw [VState.levels_succ h1, hn]
  rfl

/-- C6: in every state that the walker reaches, a comma is accepted exactly when the
parenthesis depth is positive and the current level was opened by a function symbol
(one with `nargs` non-zero); it then adds one to that level's argument count and changes
neither the depth nor the constants; in every other case it fails with `DELIN`.
Examples: `a,b`, `(a,b)` and `max((a,b),c)` fail. -/
theorem C6_comma_rule :
    (∀ (exprs : List Char) (nvar : Nat) (var : List (List Char)) (fuel : Nat) (w : WState)
        (iend sym : Nat),
      CompileExpression_loop exprs nvar var fuel WState.init = .ok w →
      (symbol sym).text = "," →
      (if w.v.lpar > 0 ∧ (symbol (w.v.opensym.getD (w.v.lpar - 1).toNat 0)).nargs ≠ 0 then
        ∃ v1, ValidateSymbol exprs iend sym w.v = .ok v1 ∧
          v1 = { w.v with
            argcount := w.v.argcount.set (w.v.lpar - 1).toNat
              (w.v.argcount.getD (w.v.lpar - 1).toNat 0 + 1) } ∧
          v1.argcount.getD (w.v.lpar - 1).toNat 0 =
            w.v.argcount.getD (w.v.lpar - 1).toNat 0 + 1 ∧
          v1.lpar = w.v.lpar ∧ v1.con = w.v.con
      else
        ValidateSymbol exprs iend sym w.v = .error ⟨ErrCode.DELIN, cprefix (iend + 1) exprs⟩)) ∧
    CompileExpression "a,b".toList 2 ["a".toList, "b".toList] =
      .error ⟨ErrCode.DELIN, "a,".toList⟩ ∧
    CompileExpression "(a,b)".toList 2 ["a".toList, "b".toList] =
      .error ⟨ErrCode.DELIN, "(a,".toList⟩ ∧
    CompileExpression "max((a,b),c)".toList 3 ["a".toList, "b".toList, "c".toList] =
      .error ⟨ErrCode.DELIN, "max((a,".toList⟩ ∧
    CompileExpression "max(a,b)".toList 2 ["a".toList, "b".toList] =
      .ok ⟨[3, 2, 2, 34], [0, 1, 2], 2⟩ := by
  refine ⟨?_, by decide!, by decide!, by decide!, by decide!⟩
  intro exprs nvar var fuel w iend sym h htext
  have h9 : sym = 9 := by
    apply (symbol_comma_iff sym).1
    rw [htext]
    decide
  subst h9
  obtain ⟨hok, hlev⟩ := CompileExpression_loop_levels h
  rw [ValidateSymbol_comma]
  by_cases hl : w.v.lpar > 0
  · obtain ⟨rest, hrest⟩ := VState.levels_top hl
    have h0 := hlev _ (by rw [hrest]; exact List.mem_cons_self _ _)
    simp only at h0
    by_cases hn : (symbol (w.v.opensym.getD (w.v.lpar - 1).toNat 0)).nargs ≠ 0
    · have ha := h0.2.1 hn
      rw [if_pos ⟨hl, hn⟩, if_neg (by
        rintro (h1 | h1)
        · omega
        · omega)]
      refine ⟨_, rfl, rfl, ?_, rfl, rfl⟩
      have hlen : (w.v.lpar - 1).toNat < w.v.argcount.length := by
        have := hok.2.1
        omega
      have hlen1 : w.v.lpar.toNat - 1 < w.v.argcount.length := by omega
      simp [List.getD_eq_getElem?_getD, List.getElem?_set, hlen1]
    · have ha := h0.2.2 (by simpa using hn)
      rw [if_neg (fun h1 => hn h1.2), if_pos (Or.inr ha)]
  · rw [if_neg (fun h1 => hl h1.1), if_pos (Or.inl (by omega))]

/-- One symbol accepted by `ValidateSymbol` leaves the depth non-negative. -/
theorem ValidateSymbol_lpar_nonneg {exprs : List Char} {iend sym : Nat} {v v1 : VState}
    (h0 : 0 ≤ v.lpar) (h : ValidateSymbol exprs iend sym v = .ok v1) : 0 ≤ v1.lpar := by
  unfold ValidateSymbol at h
  split at h
  · split at h
    · cases h
    · cases h
      exact h0
  · split at h
    · cases h
      show 0 ≤ v.lpar + 1
      omega
    · split at h
      · split at h
        · cases h
        · rename_i hne
          split at h
          · split at h
            · cases h
            · cases h
              show 0 ≤ v.lpar - 1
              omega
          · split at h
            · split at h
              · cases h
              · cases h
                show 0 ≤ v.lpar - 1
                omega
            · cases h
              show 0 ≤ v.lpar - 1
              omega
      · cases h
        exact h0

/-- C7: a closing parenthesis met at depth 0 makes `ValidateSymbol`, the walker's loop
body and the whole compilation fail with `MLPAR` (example `a)`); the depth is never
negative, neither after any sequence of symbols accepted by `ValidateSymbol` from a
non-negative depth, nor in any state that the walker reaches. -/
theorem C7_missing_left_parenthesis :
    (∀ (exprs : List Char) (iend sym : Nat) (v : VState),
      (symbol sym).parincrement < 0 → v.lpar = 0 →
      ValidateSymbol exprs iend sym v = .error ⟨ErrCode.MLPAR, cprefix (iend + 1) exprs⟩) ∧
    (∀ (exprs : List Char) (nvar : Nat) (var : List (List Char)) (w : WState) (sym : Nat),
      findSymbol exprs w.istart w.opernext w.unarynext (List.range symbolTable.length) =
        some sym →
      (symbol sym).parincrement < 0 → w.v.lpar = 0 →
      CompileExpression_body exprs nvar var w =
        .error ⟨ErrCode.MLPAR, cprefix (w.istart + 1) exprs⟩) ∧
    (∀ (exprs : List Char) (l : List (Nat × Nat)) (v v1 : VState), 0 ≤ v.lpar →
      l.foldlM (fun v p => ValidateSymbol exprs p.1 p.2 v) v = .ok v1 → 0 ≤ v1.lpar) ∧
    (∀ (exprs : List Char) (nvar : Nat) (var : List (List Char)) (fuel : Nat) (w : WState),
      CompileExpression_loop exprs nvar var fuel WState.init = .ok w → 0 ≤ w.v.lpar) ∧
    CompileExpression "a)".toList 1 ["a".toList] = .error ⟨ErrCode.MLPAR, "a)".toList⟩ := by
  refine ⟨?_, ?_, ?_, ?_, by decide!⟩
  · intro exprs iend sym v hs hl
    have h2 := (symbol_closer_iff sym).1 hs
    subst h2
    rw [ValidateSymbol_closer, if_pos hl]
  · intro exprs nvar var w sym hf hs hl
    have h2 := (symbol_closer_iff sym).1 hs
    subst h2
    unfold CompileExpression_body
    rw [hf]
    simp only
    rw [ValidateSymbol_closer, if_pos hl]
    rfl
  · intro exprs l
    induction l with
    | nil =>
      intro v v1 h0 h
      cases h
      exact h0
    | cons p l ih =>
      intro v v1 h0 h
      rw [List.foldlM_cons] at h
      cases hv : ValidateSymbol exprs p.1 p.2 v with
      | error e =>
        rw [hv] at h
        cases h
      | ok v2 =>
        rw [hv] at h
        exact ih v2 v1 (ValidateSymbol_lpar_nonneg h0 hv) h
  · intro exprs nvar var fuel w h
    exact (CompileExpression_loop_levels h).1.1

/-! ## Balance of parentheses -/

set_option synthInstance.maxSize 4000 in
theorem symbol_binary_parincrement : ∀ sym < 44, (4 ≤ sym ∧ sym ≤ 8) ∨ sym = 10 ∨ sym = 11 →
    (symbol sym).parincrement = 0 := by
  decide

/-- One step of the automaton changes the number of open levels by the parenthesis
increment of its symbol. -/
theorem Step.levels_count {nvar : Nat} {q q1 : AState} {sym : Nat} {trd : List (Oper × Rat)}
    (h : Step nvar q (sym, trd) q1) :
    q1.levels.length + (if (symbol sym).parincrement < 0 then 1 else 0) =
      q.levels.length + (if (symbol sym).parincrement > 0 then 1 else 0) := by
  cases h with
  | ldcon _ c _ => rfl
  | ldvar _ i _ _ => rfl
  | ldbad _ _ => rfl
  | unary _ _ _ hs =>
    have h0 := symbol_binary_parincrement sym (by omega) (Or.inr hs)
    simp [h0]
  | binary _ _ _ hs =>
    have h0 := symbol_binary_parincrement sym (by omega) (Or.inl hs)
    simp [h0]
  | comma o a rest ha => rfl
  | opener _ _ _ hp =>
    have hn : ¬ (symbol sym).parincrement < 0 := by omega
    rw [if_pos hp, if_neg hn]
    rfl
  | closer o a rest _ _ => rfl

theorem Run.levels_balance {nvar : Nat} {q q1 : AState} {ts : List Token}
    (h : Run nvar q ts q1) :
    q1.levels.length +
        (ts.map Prod.fst).countP (fun s => decide ((symbol s).parincrement < 0)) =
      q.levels.length +
        (ts.map Prod.fst).countP (fun s => decide ((symbol s).parincrement > 0)) := by
  induction h with
  | nil _ => rfl
  | @cons q q1 q2 t ts hs _ ih =>
    obtain ⟨sym, trd⟩ := t
    have h1 := hs.levels_count
    rw [List.map_cons, List.countP_cons, List.countP_cons]
    simp only [decide_eq_true_eq]
    split_ifs at h1 ⊢ <;> omega

theorem Run.take {nvar : Nat} {q q1 : AState} {ts : List Token} (h : Run nvar q ts q1) :
    ∀ k, ∃ qk, Run nvar q (ts.take k) qk := by
  induction h with
  | nil q => exact fun k => ⟨q, by simpa using Run.nil q⟩
  | @cons q q1 q2 t ts hs _ ih =>
    intro k
    cases k with
    | zero => exact ⟨q, by simpa using Run.nil q⟩
    | succ k =>
      obtain ⟨qk, hk⟩ := ih k
      exact ⟨qk, by simpa using Run.cons hs hk⟩

/-- C8: if `CompileExpression` succeeds, the stream of symbols that the walker
recognised has as many opening symbols (`parincrement > 0`) as closing parentheses
(`parincrement < 0`), and in every prefix of the stream the openers are at least as
many as the closers. -/
theorem C8_parentheses_balanced {exprs : List Char} {nvar : Nat} {var : List (List Char)}
    {c : Compiled} (hc : CompileExpression exprs nvar var = .ok c) :
    ∃ w, CompileExpression_walk exprs nvar var = .ok w ∧
      w.symlist.countP (fun s => decide ((symbol s).parincrement > 0)) =
        w.symlist.countP (fun s => decide ((symbol s).parincrement < 0)) ∧
      ∀ k, (w.symlist.take k).countP (fun s => decide ((symbol s).parincrement < 0)) ≤
        (w.symlist.take k).countP (fun s => decide ((symbol s).parincrement > 0)) := by
  obtain ⟨w, toks, _, _, hloop, hrun, hsym, _⟩ := CompileExpression_ok_trace hc
  obtain ⟨w1, hloop1, _, _, hwalk, _⟩ := CompileExpression_ok_inv hc
  have hw : w1 = w := by
    rw [hloop] at hloop1
    cases hloop1
    rfl
  subst hw
  refine ⟨w1, hwalk, ?_, ?_⟩
  · have h := hrun.levels_balance
    rw [hsym]
    simpa using h.symm
  · intro k
    obtain ⟨qk, hk⟩ := hrun.take k
    have h := hk.levels_balance
    rw [hsym, ← List.map_take]
    simp only [List.length_nil, Nat.zero_add] at h
    omega

/-- Witness of C8 on the expression `max((a),b)`. -/
theorem C8_parentheses_balanced_witness :
    CompileExpression "max((a),b)".toList 2 ["a".toList, "b".toList] =
        .ok ⟨[3, 2, 2, 34], [0, 1, 2], 2⟩ ∧
    ∃ w, CompileExpression_walk "max((a),b)".toList 2 ["a".toList, "b".toList] = .ok w ∧
      w.symlist.countP (fun s => decide ((symbol s).parincrement > 0)) =
        w.symlist.countP (fun s => decide ((symbol s).parincrement < 0)) ∧
      ∀ k, (w.symlist.take k).countP (fun s => decide ((symbol s).parincrement < 0)) ≤
        (w.symlist.take k).countP (fun s => decide ((symbol s).parincrement > 0)) :=
  ⟨by decide!, C8_parentheses_balanced
    (show CompileExpression "max((a),b)".toList 2 ["a".toList, "b".toList] =
      .ok ⟨[3, 2, 2, 34], [0, 1, 2], 2⟩ by decide!)⟩

/-! ## Matching text in the expression -/

theorem cget_ne_NUL_lt {s : List Char} {i : Nat} (h : cget s i ≠ NUL) : i < s.length := by
  by_contra hlt
  exact h (cget_of_length_le (by omega))

theorem drop_eq_cget_cons {s : List Char} {i : Nat} (h : i < s.length) :
    s.drop i = cget s i :: s.drop (i + 1) := by
  rw [List.drop_eq_getElem_cons h]
  congr 1
  unfold cget
  rw [List.getD_eq_getElem?_getD, List.getElem?_eq_getElem h]
  rfl

theorem cstr_cons_ne {c : Char} {s : List Char} (h : c ≠ NUL) : cstr (c :: s) = c :: cstr s := by
  unfold cstr
  rw [List.takeWhile_cons_of_pos (by simpa using h)]

theorem cget_append_length (pre : List Char) (c : Char) (t : List Char) :
    cget (pre ++ c :: t) pre.length = c := by
  unfold cget
  rw [List.getD_eq_getElem?_getD, List.getElem?_append_right (Nat.le_refl _)]
  simp

/-- When `strncmp` finds the whole of a text at a position of the expression, the text
is a prefix of what remains of the expression there. -/
theorem strncmp0_start (a : List Char) : ∀ (t pre : List Char) (ia : Nat),
    (∀ c ∈ t, c ≠ NUL) → strncmp0 a ia (pre ++ t) pre.length t.length = true →
    t <+: cstr (a.drop ia) := by
  intro t
  induction t with
  | nil =>
    intro pre ia _ _
    exact List.nil_prefix
  | cons c t ih =>
    intro pre ia hne h
    have hc : c ≠ NUL := hne c (List.mem_cons_self _ _)
    rw [List.length_cons] at h
    unfold strncmp0 at h
    rw [cget_append_length] at h
    split at h
    · cases h
    · rename_i heq
      have heq : cget a ia = c := by simpa using heq
      rw [heq] at h
      rw [if_neg (by simpa using hc)] at h
      have hlt : ia < a.length := cget_ne_NUL_lt (by rw [heq]; exact hc)
      rw [drop_eq_cget_cons hlt, heq, cstr_cons_ne hc]
      have h1 : pre ++ c :: t = (pre ++ [c]) ++ t := by simp
      have h2 : pre.length + 1 = (pre ++ [c]).length := by simp
      rw [h1, h2] at h
      have := ih (pre ++ [c]) (ia + 1) (fun x hx => hne x (List.mem_cons_of_mem _ hx)) h
      exact (List.prefix_cons_inj c).2 this

set_option synthInstance.maxSize 4000 in
/-- The symbols of the table that look like an operator from the left. -/
theorem symbol_operleft_texts : ∀ sym < 44, (symbol sym).size ≠ 0 →
    (symbol sym).operleft = true →
    (symbol sym).text ∈ [")", "-", "+", "**", "*", "/", ","] ∧
    (symbol sym).size = (symbol sym).text.toList.length ∧
    ∀ c ∈ (symbol sym).text.toList, c ≠ NUL := by
  decide

/-- C10: when an operator is expected and none of the table symbols that look like an
operator from the left (`)`, `-`, `+`, `**`, `*`, `/`, `,`) is a prefix of the remaining
text, the pass of the walker fails with `MIOPR` and the message quotes the expression up
to and including the offending character, and so does the walker's loop when it reaches
such a state before the end of the expression.  Examples: `2a` and `a(b)`. -/
theorem C10_missing_operator :
    (∀ (exprs : List Char) (nvar : Nat) (var : List (List Char)) (w : WState),
      w.opernext = true →
      (∀ t ∈ [")", "-", "+", "**", "*", "/", ","],
        ¬ (String.toList t <+: cstr (exprs.drop w.istart))) →
      CompileExpression_body exprs nvar var w =
          .error ⟨ErrCode.MIOPR, cprefix (w.istart + 1) exprs⟩ ∧
      (cget exprs w.istart ≠ NUL → ∀ fuel,
        CompileExpression_loop exprs nvar var (fuel + 1) w =
          .error ⟨ErrCode.MIOPR, cprefix (w.istart + 1) exprs⟩)) ∧
    CompileExpression "2a".toList 1 ["a".toList] = .error ⟨ErrCode.MIOPR, "2a".toList⟩ ∧
    CompileExpression "a(b)".toList 2 ["a".toList, "b".toList] =
      .error ⟨ErrCode.MIOPR, "a(".toList⟩ := by
  refine ⟨?_, by decide!, by decide!⟩
  intro exprs nvar var w hop hno
  have hbody : CompileExpression_body exprs nvar var w =
      .error ⟨ErrCode.MIOPR, cprefix (w.istart + 1) exprs⟩ := by
    unfold CompileExpression_body
    cases hf : findSymbol exprs w.istart w.opernext w.unarynext
        (List.range symbolTable.length) with
    | some sym =>
      exfalso
      obtain ⟨hmem, hsize, hleft, _, hcmp⟩ := findSymbol_some hf
      have hlt : sym < 44 := by simpa using hmem
      rw [hop] at hleft
      obtain ⟨htext, hlen, hnul⟩ := symbol_operleft_texts sym hlt hsize hleft
      rw [hlen] at hcmp
      exact hno _ htext (strncmp0_start exprs _ [] w.istart hnul hcmp)
    | none =>
      simp only
      rw [if_pos hop]
  refine ⟨hbody, ?_⟩
  intro hne fuel
  rw [CompileExpression_loop_succ, if_pos (by simpa using hne), hbody]

/-! ## Names in the expression -/

/-- The end of the name found by the loop of `ParseName`: every character passed over is
part of a name, and with enough fuel the character after the end is not. -/
theorem ParseName_loop_spec (exprs : List Char) : ∀ (fuel i : Nat),
    i ≤ ParseName_loop exprs fuel i ∧
    (∀ j, i < j → j ≤ ParseName_loop exprs fuel i →
      cget exprs j ≠ NUL ∧ ((cget exprs j).isAlphanum = true ∨ cget exprs j = '_')) ∧
    (exprs.length ≤ i + fuel →
      ¬ (cget exprs (ParseName_loop exprs fuel i + 1) ≠ NUL ∧
        ((cget exprs (ParseName_loop exprs fuel i + 1)).isAlphanum = true ∨
          cget exprs (ParseName_loop exprs fuel i + 1) = '_'))) := by
  intro fuel
  induction fuel with
  | zero =>
    intro i
    refine ⟨Nat.le_refl _, ?_, ?_⟩
    · intro j h1 h2
      simp only [ParseName_loop] at h2
      omega
    · intro hlen h
      simp only [ParseName_loop] at h
      exact h.1 (cget_of_length_le (by omega))
  | succ n ih =>
    intro i
    unfold ParseName_loop
    simp only
    split
    · rename_i hc
      obtain ⟨h1, h2, h3⟩ := ih (i + 1)
      refine ⟨by omega, ?_, ?_⟩
      · intro j hj1 hj2
        by_cases hj : j = i + 1
        · subst hj
          simpa using hc
        · exact h2 j (by omega) hj2
      · intro hlen
        exact h3 (by omega)
    · rename_i hc
      refine ⟨Nat.le_refl _, ?_, ?_⟩
      · intro j h1 h2
        omega
      · intro _ h
        apply hc
        simpa using h

theorem cget_eq_getElem {s : List Char} {j : Nat} (h : j < s.length) : cget s j = s[j] := by
  unfold cget
  rw [List.getD_eq_getElem?_getD, List.getElem?_eq_getElem h]
  rfl

theorem list_eq_of_cget {x y : List Char} (hlen : x.length = y.length)
    (h : ∀ j, j < x.length → cget x j = cget y j) : x = y := by
  apply List.ext_getElem hlen
  intro j h1 h2
  rw [← cget_eq_getElem h1, ← cget_eq_getElem h2]
  exact h j h1

/-- The characters of a C string before its terminator are those of the array. -/
theorem cstr_cget : ∀ (v : List Char) (j : Nat), j < (cstr v).length →
    cget (cstr v) j = cget v j ∧ cget v j ≠ NUL := by
  intro v
  induction v with
  | nil =>
    intro j h
    simp [cstr] at h
  | cons c v ih =>
    intro j h
    by_cases hc : c = NUL
    · subst hc
      simp [cstr] at h
    · rw [cstr_cons_ne hc] at h ⊢
      cases j with
      | zero => exact ⟨rfl, hc⟩
      | succ j =>
        have := ih j (by simpa using h)
        simpa [cget] using this

/-- After the last character of a C string comes the terminator. -/
theorem cstr_cget_end : ∀ (v : List Char), cget v (cstr v).length = NUL := by
  intro v
  induction v with
  | nil => rfl
  | cons c v ih =>
    by_cases hc : c = NUL
    · subst hc
      simp [cstr, cget]
    · rw [cstr_cons_ne hc]
      simpa [cget] using ih

theorem cget_take_drop (a : List Char) (ia n : Nat) {j : Nat} (hj : j < n) :
    cget ((a.drop ia).take n) j = cget a (ia + j) := by
  unfold cget
  simp [List.getD_eq_getElem?_getD, List.getElem?_take, hj, List.getElem?_drop]

theorem length_take_drop (a : List Char) (ia n : Nat)
    (h : ∀ j, j < n → cget a (ia + j) ≠ NUL) : ((a.drop ia).take n).length = n := by
  rw [List.length_take, List.length_drop]
  cases n with
  | zero => simp
  | succ n =>
    have := cget_ne_NUL_lt (h n (by omega))
    omega

/-- On text without a terminator, `strncmp` compares character by character. -/
theorem strncmp0_iff (a b : List Char) : ∀ (n ia ib : Nat),
    (∀ j, j < n → cget a (ia + j) ≠ NUL) →
    (strncmp0 a ia b ib n = true ↔ ∀ j, j < n → cget b (ib + j) = cget a (ia + j)) := by
  intro n
  induction n with
  | zero =>
    intro ia ib _
    simp [strncmp0]
  | succ n ih =>
    intro ia ib h
    have h0 : cget a ia ≠ NUL := by simpa using h 0 (by omega)
    have ih1 := ih (ia + 1) (ib + 1) (fun j hj => by
      have := h (j + 1) (by omega)
      rwa [show ia + (j + 1) = ia + 1 + j by omega] at this)
    unfold strncmp0
    by_cases he : cget a ia = cget b ib
    · rw [if_neg (by simpa using he), if_neg (by simpa using h0), ih1]
      constructor
      · intro hall j hj
        cases j with
        | zero => simpa using he.symm
        | succ j =>
          have := hall j (by omega)
          rwa [show ib + 1 + j = ib + (j + 1) by omega,
            show ia + 1 + j = ia + (j + 1) by omega] at this
      · intro hall j hj
        have := hall (j + 1) (by omega)
        rwa [show ib + (j + 1) = ib + 1 + j by omega,
          show ia + (j + 1) = ia + 1 + j by omega] at this
    · rw [if_pos (by simpa using he)]
      simp only [Bool.false_eq_true, false_iff]
      intro hall
      exact he (by simpa using (hall 0 (by omega)).symm)

/-- The test of `ParseVariable` on one variable name: it succeeds exactly when the name
is the text of `nc` characters at `istart`. -/
theorem name_match_iff (exprs v : List Char) (istart nc : Nat)
    (h : ∀ j, j < nc → cget exprs (istart + j) ≠ NUL) :
    (decide (nc = strlen v) && strncmp0 exprs istart v 0 nc) = true ↔
      cstr v = (exprs.drop istart).take nc := by
  rw [Bool.and_eq_true, decide_eq_true_eq, strncmp0_iff exprs v nc istart 0 h]
  have hlen := length_take_drop exprs istart nc h
  constructor
  · rintro ⟨h1, h2⟩
    apply list_eq_of_cget
    · rw [hlen]
      exact h1.symm
    · intro j hj
      have hj1 : j < nc := by
        rw [h1]
        exact hj
      rw [(cstr_cget v j hj).1, cget_take_drop _ _ _ hj1]
      simpa using h2 j hj1
  · intro heq
    have h1 : nc = strlen v := by
      unfold strlen
      rw [heq, hlen]
    refine ⟨h1, ?_⟩
    intro j hj
    have hj1 : j < (cstr v).length := by
      rw [heq, hlen]
      exact hj
    rw [Nat.zero_add, ← (cstr_cget v j hj1).1, heq, cget_take_drop _ _ _ hj]

/-! ## Variable references -/

theorem ParseVariable_find_first {exprs : List Char} {istart nc nvar : Nat}
    {var : List (List Char)} : ∀ (fuel ivar i : Nat), ivar ≤ i → i < nvar → i < ivar + fuel →
    (decide (nc = strlen (var.getD i [])) && strncmp0 exprs istart (var.getD i []) 0 nc) = true →
    (∀ j, ivar ≤ j → j < i →
      ¬ (decide (nc = strlen (var.getD j [])) &&
          strncmp0 exprs istart (var.getD j []) 0 nc) = true) →
    ParseVariable_find exprs istart nc nvar var fuel ivar = some i := by
  intro fuel
  induction fuel with
  | zero =>
    intro ivar i h1 _ h3
    omega
  | succ n ih =>
    intro ivar i h1 h2 h3 hm hno
    unfold ParseVariable_find
    rw [if_pos (by omega)]
    by_cases he : ivar = i
    · subst he
      rw [if_pos hm]
    · rw [if_neg (hno ivar (Nat.le_refl _) (by omega))]
      exact ih (ivar + 1) i (by omega) h2 (by omega) hm
        (fun j hj1 hj2 => hno j (by omega) hj2)

theorem ParseVariable_find_none {exprs : List Char} {istart nc nvar : Nat}
    {var : List (List Char)} : ∀ (fuel ivar : Nat),
    (∀ j, ivar ≤ j → j < nvar →
      ¬ (decide (nc = strlen (var.getD j [])) &&
          strncmp0 exprs istart (var.getD j []) 0 nc) = true) →
    ParseVariable_find exprs istart nc nvar var fuel ivar = none := by
  intro fuel
  induction fuel with
  | zero =>
    intro ivar _
    rfl
  | succ n ih =>
    intro ivar hno
    unfold ParseVariable_find
    split
    · rename_i hlt
      rw [if_neg (hno ivar (Nat.le_refl _) hlt)]
      exact ih (ivar + 1) (fun j hj1 hj2 => hno j (by omega) hj2)
    · rfl

/-- `ParseVariable` where a name starts. -/
theorem ParseVariable_of_alpha {exprs : List Char} {istart : Nat} (nvar : Nat)
    (var : List (List Char)) (h : (cget exprs istart).isAlpha = true) :
    ParseVariable exprs istart nvar var =
      match ParseVariable_find exprs istart
          (ParseName_loop exprs (exprs.length + 1) istart - istart + 1) nvar var nvar 0 with
      | some ivar =>
        .ok ((ivar : Int), ((ParseName_loop exprs (exprs.length + 1) istart : Nat) : Int))
      | none =>
        .error ⟨ErrCode.UDVOF,
          cprefix (ParseName_loop exprs (exprs.length + 1) istart + 1) exprs⟩ := by
  have hle := (ParseName_loop_spec exprs (exprs.length + 1) istart).1
  unfold ParseVariable ParseName
  simp only [h, if_true]
  rw [if_pos (by omega)]
  have e1 : (((ParseName_loop exprs (exprs.length + 1) istart : Nat) : Int) - (istart : Int)
      + 1).toNat = ParseName_loop exprs (exprs.length + 1) istart - istart + 1 := by omega
  have e2 : (((ParseName_loop exprs (exprs.length + 1) istart : Nat) : Int) + 1).toNat
      = ParseName_loop exprs (exprs.length + 1) istart + 1 := by omega
  rw [e1, e2]

/-- `ParseVariable` where no name starts. -/
theorem ParseVariable_of_not_alpha {exprs : List Char} {istart : Nat} (nvar : Nat)
    (var : List (List Char)) (h : (cget exprs istart).isAlpha = false) :
    ParseVariable exprs istart nvar var = .ok (-1, -1) := by
  unfold ParseVariable ParseName
  simp only [h]
  rw [if_neg (by simp; omega)]

/-- The pass of the walker at an operand position where neither a symbol of the table nor
a constant is found. -/
theorem CompileExpression_body_variable {exprs : List Char} {nvar : Nat}
    {var : List (List Char)} {w : WState} {iend0 : Int} {c0 : Rat}
    (hop : w.opernext = false)
    (hf : findSymbol exprs w.istart w.opernext w.unarynext
      (List.range symbolTable.length) = none)
    (hpc : ParseConstant exprs w.istart = .ok (iend0, c0)) (hlt : iend0 < (w.istart : Int)) :
    CompileExpression_body exprs nvar var w =
      match ParseVariable exprs w.istart nvar var with
      | .error e => .error e
      | .ok (ivar, iend) =>
        if ivar ≠ -1 then
          .ok (w.accept symbol_ldvar iend.toNat
                { w.v with con := w.v.con ++ [((ivar : Int) : Rat)] })
        else .error ⟨ErrCode.MIOPA, cprefix (w.istart + 1) exprs⟩ := by
  unfold CompileExpression_body
  rw [hf]
  simp only [hop, Bool.false_eq_true, if_false, hpc]
  rw [if_neg (by omega)]

/-- C9: at an operand position where no symbol of the table and no numeric constant
matches.  If the text starts with a name (an alphabetic character followed by the longest
run of alphanumeric characters and underscores) which equals the declared variable number
`i` and no earlier one (as is the case when the declared names are distinct), the walker
records the load-variable symbol and appends `i` to the constants; if the name equals no
declared variable the pass fails with `UDVOF`; if no name starts there it fails with
`MIOPA`. -/
theorem C9_variable_reference :
    (∀ (exprs : List Char) (nvar : Nat) (var : List (List Char)) (w : WState) (iend0 : Int)
        (c0 : Rat) (iend : Nat) (name : List Char),
      w.opernext = false →
      findSymbol exprs w.istart w.opernext w.unarynext
        (List.range symbolTable.length) = none →
      ParseConstant exprs w.istart = .ok (iend0, c0) → iend0 < (w.istart : Int) →
      iend = ParseName_loop exprs (exprs.length + 1) w.istart →
      name = (exprs.drop w.istart).take (iend - w.istart + 1) →
      ((cget exprs w.istart).isAlpha = true →
        (w.istart ≤ iend ∧ name.length = iend - w.istart + 1 ∧
          (∀ j, w.istart < j → j ≤ iend →
            (cget exprs j).isAlphanum = true ∨ cget exprs j = '_') ∧
          ¬ (cget exprs (iend + 1) ≠ NUL ∧
            ((cget exprs (iend + 1)).isAlphanum = true ∨ cget exprs (iend + 1) = '_'))) ∧
        (∀ i, i < nvar → cstr (var.getD i []) = name →
          (∀ j, j < i → cstr (var.getD j []) ≠ name) →
          CompileExpression_body exprs nvar var w =
            .ok (w.accept symbol_ldvar iend
              { w.v with con := w.v.con ++ [(((i : Nat) : Int) : Rat)] })) ∧
        ((∀ i j, i < nvar → j < nvar → cstr (var.getD i []) = cstr (var.getD j []) → i = j) →
          ∀ i, i < nvar → cstr (var.getD i []) = name →
          ∃ w1, CompileExpression_body exprs nvar var w = .ok w1 ∧
            w1.symlist = w.symlist ++ [symbol_ldvar] ∧
            w1.v.con = w.v.con ++ [(((i : Nat) : Int) : Rat)] ∧
            w1.istart = iend + 1 ∧ w1.opernext = true) ∧
        ((∀ i, i < nvar → cstr (var.getD i []) ≠ name) →
          CompileExpression_body exprs nvar var w =
            .error ⟨ErrCode.UDVOF, cprefix (iend + 1) exprs⟩)) ∧
      ((cget exprs w.istart).isAlpha = false →
        CompileExpression_body exprs nvar var w =
          .error ⟨ErrCode.MIOPA, cprefix (w.istart + 1) exprs⟩)) ∧
    CompileExpression "b".toList 2 ["a".toList, "b".toList] = .ok ⟨[1, 2], [1], 1⟩ ∧
    CompileExpression "a+x1".toList 2 ["a".toList, "b".toList] =
      .error ⟨ErrCode.UDVOF, "a+x1".toList⟩ ∧
    CompileExpression "a+$".toList 2 ["a".toList, "b".toList] =
      .error ⟨ErrCode.MIOPA, "a+$".toList⟩ := by
  refine ⟨?_, by decide!, by decide!, by decide!⟩
  intro exprs nvar var w iend0 c0 iend name hop hf hpc hlt hiend hname
  have hbody := @CompileExpression_body_variable exprs nvar var w iend0 c0 hop hf hpc hlt
  constructor
  · intro halpha
    obtain ⟨hle, hin, hmax⟩ := ParseName_loop_spec exprs (exprs.length + 1) w.istart
    rw [← hiend] at hle hin hmax
    have hnul : ∀ j, j < iend - w.istart + 1 → cget exprs (w.istart + j) ≠ NUL := by
      intro j hj
      cases j with
      | zero =>
        intro h0
        rw [Nat.add_zero] at h0
        rw [h0] at halpha
        exact absurd halpha (by decide)
      | succ j => exact (hin (w.istart + (j + 1)) (by omega) (by omega)).1
    have hmatch : ∀ i, (decide (iend - w.istart + 1 = strlen (var.getD i [])) &&
        strncmp0 exprs w.istart (var.getD i []) 0 (iend - w.istart + 1)) = true ↔
        cstr (var.getD i []) = name := by
      intro i
      rw [hname]
      exact name_match_iff exprs (var.getD i []) w.istart (iend - w.istart + 1) hnul
    have hpv := @ParseVariable_of_alpha exprs w.istart nvar var halpha
    rw [← hiend] at hpv
    have hfirst : ∀ i, i < nvar → cstr (var.getD i []) = name →
        (∀ j, j < i → cstr (var.getD j []) ≠ name) →
        CompileExpression_body exprs nvar var w =
          .ok (w.accept symbol_ldvar iend
            { w.v with con := w.v.con ++ [(((i : Nat) : Int) : Rat)] }) := by
      intro i hi heq hno
      have hfind := @ParseVariable_find_first exprs w.istart (iend - w.istart + 1) nvar var
        nvar 0 i (Nat.zero_le _) hi (by omega) ((hmatch i).2 heq)
        (fun j _ hj hm => hno j hj ((hmatch j).1 hm))
      rw [hfind] at hpv
      rw [hbody, hpv]
      simp only
      rw [if_pos (by omega)]
      rfl
    refine ⟨⟨hle, ?_, fun j h1 h2 => (hin j h1 h2).2, hmax (by omega)⟩, hfirst, ?_, ?_⟩
    · rw [hname]
      exact length_take_drop exprs w.istart _ hnul
    · intro hdist i hi heq
      refine ⟨_, hfirst i hi heq ?_, rfl, rfl, rfl, rfl⟩
      intro j hj hj2
      have := hdist i j hi (by omega) (by rw [heq, hj2])
      omega
    · intro hno
      have hfind := @ParseVariable_find_none exprs w.istart (iend - w.istart + 1) nvar var
        nvar 0 (fun j _ hj hm => hno j hj ((hmatch j).1 hm))
      rw [hfind] at hpv
      rw [hbody, hpv]
  · intro halpha
    rw [hbody, ParseVariable_of_not_alpha nvar var halpha]
    simp

/-! ## The general statements on concrete expressions -/

/-- Witness of C1: the expression `x` on the input `[1, 2, BAD, 4]`. -/
theorem C1_bad_input_gives_bad_output_witness :
    CompileExpression "x".toList 1 ["x".toList] = .ok ⟨[1, 2], [0], 1⟩ ∧
    InputsOK 4 1 [[1, 2, MathLib.sample.BAD, 4]] ∧
    ReferencesVar "x".toList 1 ["x".toList] 0 ∧
    ∃ out, VirtualMachine MathLib.sample 4 1 [[1, 2, MathLib.sample.BAD, 4]] [1, 2] [0] 1 =
        some out ∧ out.length = 4 ∧ out.get? 2 = some MathLib.sample.BAD :=
  have hc : CompileExpression "x".toList 1 ["x".toList] = .ok ⟨[1, 2], [0], 1⟩ := by decide!
  have hin : InputsOK 4 1 [[1, 2, MathLib.sample.BAD, 4]] := by
    refine ⟨by decide, ?_⟩
    decide
  have href : ReferencesVar "x".toList 1 ["x".toList] 0 :=
    ⟨0, WState.init, ⟨1, true, false, ⟨0, [], [], [0]⟩, [0]⟩, rfl, by decide, by decide!,
      by decide!, by decide!⟩
  ⟨hc, hin, href,
    C1_bad_input_gives_bad_output.1 MathLib.sample "x".toList 1 ["x".toList] ⟨[1, 2], [0], 1⟩
      4 [[1, 2, MathLib.sample.BAD, 4]] 0 2 hc hin href (by decide) (by decide!)⟩

/-- Witness of C2: the expression `a+b` on two points. -/
theorem C2_stacksize_is_max_depth_witness :
    CompileExpression "a+b".toList 2 ["a".toList, "b".toList] =
      .ok ⟨[3, 2, 2, 28], [0, 1], 2⟩ ∧
    InputsOK 2 2 [[1, 2], [3, 4]] ∧
    ∃ ops : List Int, [3, 2, 2, 28] = (ops.length : Int) :: ops ∧
      (∀ n, 1 ≤ n → n ≤ ops.length →
        ∃ st, VirtualMachine_exec MathLib.sample 2 [[1, 2], [3, 4]] [3, 2, 2, 28] [0, 1] 2 n =
            some st ∧ st.tos + 1 ≤ 2) ∧
      (∃ n st, 1 ≤ n ∧ n ≤ ops.length ∧
        VirtualMachine_exec MathLib.sample 2 [[1, 2], [3, 4]] [3, 2, 2, 28] [0, 1] 2 n =
            some st ∧ st.tos + 1 = 2) ∧
      (1 : Int) ≤ 2 :=
  have hc : CompileExpression "a+b".toList 2 ["a".toList, "b".toList] =
      .ok ⟨[3, 2, 2, 28], [0, 1], 2⟩ := by decide!
  have hin : InputsOK 2 2 [[1, 2], [3, 4]] := by
    refine ⟨by decide, ?_⟩
    decide
  ⟨hc, hin, C2_stacksize_is_max_depth MathLib.sample hc 2 [[1, 2], [3, 4]] hin⟩

/-- Witness of C3: the expression `a+b` on two points. -/
theorem C3_stack_pointer_within_stack_witness :
    CompileExpression "a+b".toList 2 ["a".toList, "b".toList] =
      .ok ⟨[3, 2, 2, 28], [0, 1], 2⟩ ∧
    InputsOK 2 2 [[1, 2], [3, 4]] ∧
    ∃ ops : List Int, [3, 2, 2, 28] = (ops.length : Int) :: ops ∧
      ∀ n, n ≤ ops.length →
        ∃ st, VirtualMachine_exec MathLib.sample 2 [[1, 2], [3, 4]] [3, 2, 2, 28] [0, 1] 2 n =
            some st ∧
          st.stack.length = 2 ∧
          (1 ≤ n → 0 ≤ st.tos ∧ st.tos < 2) ∧
          (∀ j : Nat, (j : Int) ≤ st.tos →
            ∃ v, st.stack.getD j none = some v ∧ v.length = 2) ∧
          (∀ op o, ops.get? n = some op → Oper.ofInt op = some o →
            (o.isArg1 = true → 0 ≤ st.tos) ∧ (o.isArg2 = true → 1 ≤ st.tos) ∧
            ((o = OP_MAX ∨ o = OP_MIN) →
              ∃ k, [(0 : Rat), 1].get? st.icon = some k ∧ c_int (k + 1 / 2) ≤ st.tos + 1)) :=
  have hc : CompileExpression "a+b".toList 2 ["a".toList, "b".toList] =
      .ok ⟨[3, 2, 2, 28], [0, 1], 2⟩ := by decide!
  have hin : InputsOK 2 2 [[1, 2], [3, 4]] := by
    refine ⟨by decide, ?_⟩
    decide
  ⟨hc, hin, C3_stack_pointer_within_stack MathLib.sample hc 2 [[1, 2], [3, 4]] hin⟩

/-- Witness of C4: the expression `(a` leaves a parenthesis open. -/
theorem C4_final_context_witness :
    CompileExpression_loop "(a".toList 1 ["a".toList] ("(a".toList.length + 1) WState.init =
      .ok ⟨2, true, false, ⟨1, [0], [3], [0]⟩, [3, 0]⟩ ∧
    CompileExpression "(a".toList 1 ["a".toList] =
      .error ⟨ErrCode.MRPAR, cstr "(a".toList⟩ :=
  have h : CompileExpression_loop "(a".toList 1 ["a".toList] ("(a".toList.length + 1)
      WState.init = .ok ⟨2, true, false, ⟨1, [0], [3], [0]⟩, [3, 0]⟩ := by decide!
  ⟨h, (C4_final_context.1 "(a".toList 1 ["a".toList] _ h).2.2.2 rfl (by decide)⟩

/-- Witness of C5: closing `max(` after one argument. -/
theorem C5_closing_function_level_witness :
    (symbol 2).parincrement < 0 ∧ (symbol 37).nargs = -2 ∧
    ValidateSymbol "max(a)".toList 5 2 ⟨1, [1], [37], [0]⟩ =
      .error ⟨ErrCode.WRNFA, "max(a)".toList⟩ :=
  ⟨by decide, by decide,
    (C5_closing_function_level.1 "max(a)".toList 5 2 ⟨1, [1], [37], [0]⟩ (by decide)
      (by decide) (by decide)).trans (by decide!)⟩

/-- Witness of C6: the comma after the first argument of `max(a,b)`. -/
theorem C6_comma_rule_witness :
    CompileExpression_loop "max(a,b)".toList 2 ["a".toList, "b".toList] 2 WState.init =
      .ok ⟨5, true, false, ⟨1, [1], [37], [0]⟩, [37, 0]⟩ ∧
    (symbol 9).text = "," ∧
    ValidateSymbol "max(a,b)".toList 5 9 ⟨1, [1], [37], [0]⟩ = .ok ⟨1, [2], [37], [0]⟩ :=
  have h : CompileExpression_loop "max(a,b)".toList 2 ["a".toList, "b".toList] 2
      WState.init = .ok ⟨5, true, false, ⟨1, [1], [37], [0]⟩, [37, 0]⟩ := by decide!
  ⟨h, by decide, by
    have h1 := C6_comma_rule.1 "max(a,b)".toList 2 ["a".toList, "b".toList] 2 _ 5 9 h
      (by decide)
    rw [if_pos (by decide)] at h1
    obtain ⟨v1, hv, he, _⟩ := h1
    rw [hv, he]
    rfl⟩

/-- Witness of C7: `)` at depth 0 in `a)`. -/
theorem C7_missing_left_parenthesis_witness :
    (symbol 2).parincrement < 0 ∧
    ValidateSymbol "a)".toList 1 2 ⟨0, [], [], [0]⟩ =
      .error ⟨ErrCode.MLPAR, cprefix 2 "a)".toList⟩ :=
  ⟨by decide,
    C7_missing_left_parenthesis.1 "a)".toList 1 2 ⟨0, [], [], [0]⟩ (by decide) rfl⟩

/-- Witness of C9: the name `b` is the declared variable number 1. -/
theorem C9_variable_reference_witness :
    findSymbol "b".toList 0 false true (List.range symbolTable.length) = none ∧
    ParseConstant "b".toList 0 = .ok (-1, 0) ∧
    ParseName_loop "b".toList 2 0 = 0 ∧
    cstr "b".toList = ("b".toList.drop 0).take 1 ∧
    CompileExpression_body "b".toList 2 ["a".toList, "b".toList] WState.init =
      .ok ⟨1, true, false, ⟨0, [], [], [1]⟩, [0]⟩ :=
  ⟨by decide, by decide!, by decide, by decide,
    ((C9_variable_reference.1 "b".toList 2 ["a".toList, "b".toList] WState.init (-1) 0 0
      ['b'] rfl (by decide) (by decide!) (by decide) (by decide) (by decide)).1
        (by decide)).2.1 1 (by decide) (by decide) (by decide) |>.trans (by decide!)⟩

/-- Witness of C10: the letter after the constant in `2a`. -/
theorem C10_missing_operator_witness :
    (∀ t ∈ [")", "-", "+", "**", "*", "/", ","],
        ¬ (String.toList t <+: cstr ("2a".toList.drop 1))) ∧
    CompileExpression_body "2a".toList 1 ["a".toList] ⟨1, true, false, ⟨0, [], [], [2]⟩, [1]⟩ =
      .error ⟨ErrCode.MIOPR, "2a".toList⟩ :=
  ⟨by decide,
    (C10_missing_operator.1 "2a".toList 1 ["a".toList] ⟨1, true, false, ⟨0, [], [], [2]⟩, [1]⟩
      rfl (by decide)).1.trans (by decide!)⟩

theorem ABS_eq_abs (x : Rat) : ABS x = |x| := by
  unfold ABS
  split
  · rename_i h
    rw [abs_of_nonneg h]
  · rename_i h
    rw [abs_of_neg (not_le.1 h)]

/-- The value of `SAFE_ADD`: the bad value when the second operand continues the sign of
the first and exceeds the rounded difference `DBL_MAX - |x1|`, and the rounded sum
otherwise. -/
theorem SAFE_ADD_eq (L : MathLib) (x1 x2 : Rat) :
    SAFE_ADD L x1 x2 =
      if ((0 ≤ x1 ∧ 0 < x2) ∨ (x1 < 0 ∧ x2 < 0)) ∧ |x2| > L.fl (L.DBL_MAX - |x1|) then L.BAD
      else L.fl (x1 + x2) := by
  unfold SAFE_ADD
  by_cases p1 : 0 ≤ x1
  · rw [if_pos p1, abs_of_nonneg p1]
    by_cases p2 : x2 ≤ 0
    · rw [if_pos (Or.inl p2), if_neg]
      rintro ⟨⟨_, h⟩ | ⟨h, _⟩, _⟩ <;> linarith
    · have p2 : 0 < x2 := not_le.1 p2
      rw [abs_of_pos p2]
      by_cases p3 : L.fl (L.DBL_MAX - x1) ≥ x2
      · rw [if_pos (Or.inr p3), if_neg]
        rintro ⟨_, h⟩
        linarith
      · have p3 : L.fl (L.DBL_MAX - x1) < x2 := not_le.1 p3
        rw [if_neg, if_pos]
        · exact ⟨Or.inl ⟨p1, p2⟩, p3⟩
        · rintro (h | h) <;> linarith
  · have p1n : x1 < 0 := not_le.1 p1
    rw [if_neg p1, abs_of_neg p1n, sub_neg_eq_add]
    by_cases p2 : x2 ≥ 0
    · rw [if_pos (Or.inl p2), if_neg]
      rintro ⟨⟨h, _⟩ | ⟨_, h⟩, _⟩ <;> linarith
    · have p2 : x2 < 0 := not_le.1 p2
      rw [abs_of_neg p2]
      by_cases p3 : L.fl (L.DBL_MAX + x1) ≥ -x2
      · rw [if_pos (Or.inr p3), if_neg]
        rintro ⟨_, h⟩
        linarith
      · have p3 : L.fl (L.DBL_MAX + x1) < -x2 := not_le.1 p3
        rw [if_neg, if_pos]
        · exact ⟨Or.inr ⟨p1n, p2⟩, p3⟩
        · rintro (h | h) <;> linarith

/-- The value of `SAFE_SUB`: the bad value when the second operand opposes the sign of
the first and exceeds in magnitude the rounded difference `DBL_MAX - |x1|`, and the
rounded difference of the operands otherwise. -/
theorem SAFE_SUB_eq (L : MathLib) (x1 x2 : Rat) :
    SAFE_SUB L x1 x2 =
      if ((0 ≤ x1 ∧ x2 < 0) ∨ (x1 < 0 ∧ 0 < x2)) ∧ |x2| > L.fl (L.DBL_MAX - |x1|) then L.BAD
      else L.fl (x1 - x2) := by
  unfold SAFE_SUB
  by_cases p1 : 0 ≤ x1
  · rw [if_pos p1, abs_of_nonneg p1]
    by_cases p2 : x2 ≥ 0
    · rw [if_pos (Or.inl p2), if_neg]
      rintro ⟨⟨_, h⟩ | ⟨h, _⟩, _⟩ <;> linarith
    · have p2 : x2 < 0 := not_le.1 p2
      rw [abs_of_neg p2]
      by_cases p3 : L.fl (L.DBL_MAX - x1) ≥ -x2
      · rw [if_pos (Or.inr p3), if_neg]
        rintro ⟨_, h⟩
        linarith
      · have p3 : L.fl (L.DBL_MAX - x1) < -x2 := not_le.1 p3
        rw [if_neg, if_pos]
        · exact ⟨Or.inl ⟨p1, p2⟩, p3⟩
        · rintro (h | h) <;> linarith
  · have p1n : x1 < 0 := not_le.1 p1
    rw [if_neg p1, abs_of_neg p1n, sub_neg_eq_add]
    by_cases p2 : x2 ≤ 0
    · rw [if_pos (Or.inl p2), if_neg]
      rintro ⟨⟨h, _⟩ | ⟨_, h⟩, _⟩ <;> linarith
    · have p2 : 0 < x2 := not_le.1 p2
      rw [abs_of_pos p2]
      by_cases p3 : L.fl (L.DBL_MAX + x1) ≥ x2
      · rw [if_pos (Or.inr p3), if_neg]
        rintro ⟨_, h⟩
        linarith
      · have p3 : L.fl (L.DBL_MAX + x1) < x2 := not_le.1 p3
        rw [if_neg, if_pos]
        · exact ⟨Or.inr ⟨p1n, p2⟩, p3⟩
        · rintro (h | h) <;> linarith

/-- In exact arithmetic, for operands within range, the second operand continues the
sign of the first and exceeds `M - |x1|` exactly when the sum is out of range. -/
theorem add_overflow_iff {M x1 x2 : Rat} (h1 : |x1| ≤ M) (h2 : |x2| ≤ M) :
    (((0 ≤ x1 ∧ 0 < x2) ∨ (x1 < 0 ∧ x2 < 0)) ∧ |x2| > M - |x1|) ↔ |x1 + x2| > M := by
  have b1 := abs_le.1 h1
  have b2 := abs_le.1 h2
  constructor
  · rintro ⟨⟨p1, p2⟩ | ⟨p1, p2⟩, h⟩
    · rw [abs_of_nonneg p1, abs_of_pos p2] at h
      rw [abs_of_pos (by linarith)]
      linarith
    · rw [abs_of_neg p1, abs_of_neg p2] at h
      rw [abs_of_neg (by linarith)]
      linarith
  · intro h
    rcases lt_abs.1 h with h | h
    · have p1 : 0 < x1 := by linarith
      have p2 : 0 < x2 := by linarith
      refine ⟨Or.inl ⟨p1.le, p2⟩, ?_⟩
      rw [abs_of_pos p1, abs_of_pos p2]
      linarith
    · have p1 : x1 < 0 := by linarith
      have p2 : x2 < 0 := by linarith
      refine ⟨Or.inr ⟨p1, p2⟩, ?_⟩
      rw [abs_of_neg p1, abs_of_neg p2]
      linarith

theorem sub_overflow_iff {M x1 x2 : Rat} (h1 : |x1| ≤ M) (h2 : |x2| ≤ M) :
    (((0 ≤ x1 ∧ x2 < 0) ∨ (x1 < 0 ∧ 0 < x2)) ∧ |x2| > M - |x1|) ↔ |x1 - x2| > M := by
  have h := @add_overflow_iff M x1 (-x2) h1 (by rwa [abs_neg])
  rw [abs_neg, ← sub_eq_add_neg] at h
  rw [← h]
  simp only [Left.neg_pos_iff, Left.neg_neg_iff]

/-! ## One opcode at one point -/

theorem VMState.slot_some {st : VMState} {i : Int} {v : List Rat} (h : st.slot i = some v) :
    0 ≤ i ∧ i < st.stack.length ∧ st.stack.getD i.toNat none = some v := by
  unfold VMState.slot at h
  split at h
  · rename_i hi
    exact ⟨hi.1, hi.2, h⟩
  · cases h

theorem VirtualMachine_case_fun1 (L : MathLib) (npoint : Nat) (ptr_in : List (List Rat))
    (con : List Rat) (st : VMState) {o : Oper} {f : Rat → Rat} (hf : fun1 L o = some f) :
    VirtualMachine_case L npoint ptr_in con st o.toInt = ARG_1 L st f := by
  unfold VirtualMachine_case
  rw [Oper.ofInt_toInt]
  cases o <;> first | (cases hf; done) | (simp only [hf])

theorem VirtualMachine_case_fun2 (L : MathLib) (npoint : Nat) (ptr_in : List (List Rat))
    (con : List Rat) (st : VMState) {o : Oper} {f : Rat → Rat → Rat} (h2 : o.isArg2 = true)
    (hf : fun2 L o = some f) :
    VirtualMachine_case L npoint ptr_in con st o.toInt = DO_ARG_2 L st f := by
  unfold VirtualMachine_case
  rw [Oper.ofInt_toInt]
  cases o <;> first | exact absurd h2 (by decide) | (simp only [hf, fun1])

/-- A one-argument opcode applies its function to every element that is not bad. -/
theorem YieldsUnary_of_fun1 (L : MathLib) {o : Oper} {f : Rat → Rat}
    (hf : fun1 L o = some f) (x : Rat) :
    YieldsUnary L o x (if x ≠ L.BAD then f x else x) := by
  intro npoint ptr_in con st xv p hslot hx
  obtain ⟨h0, hlt, hget⟩ := VMState.slot_some hslot
  have hin : st.tos.toNat < st.stack.length := by omega
  rw [VirtualMachine_case_fun1 L npoint ptr_in con st hf]
  unfold ARG_1
  rw [hslot]
  refine ⟨_, xv.map (fun x => if x ≠ L.BAD then f x else x), rfl, rfl, rfl, ?_, ?_⟩
  · unfold VMState.slot
    simp only [List.length_set]
    rw [if_pos ⟨h0, hlt⟩]
    exact getD_set_self _ _ _ _ hin
  · rw [List.get?_eq_getElem?] at hx ⊢
    rw [List.getElem?_map, hx]
    rfl

/-- A two-argument opcode applies its function to every pair of elements none of which
is bad, and gives a bad element where one of the two is bad. -/
theorem YieldsBinary_of_fun2 (L : MathLib) {o : Oper} {f : Rat → Rat → Rat}
    (h2 : o.isArg2 = true) (hf : fun2 L o = some f) (x1 x2 : Rat) :
    YieldsBinary L o x1 x2
      (if x1 ≠ L.BAD then (if x2 ≠ L.BAD then f x1 x2 else L.BAD) else x1) := by
  intro npoint ptr_in con st xv1 xv2 p hslot1 hslot2 hx1 hx2
  obtain ⟨h0, hlt, hget⟩ := VMState.slot_some hslot1
  have hin : (st.tos - 1).toNat < st.stack.length := by omega
  rw [VirtualMachine_case_fun2 L npoint ptr_in con st h2 hf]
  unfold DO_ARG_2
  rw [hslot2, hslot1]
  refine ⟨_, List.zipWith
    (fun x1 x2 => if x1 ≠ L.BAD then (if x2 ≠ L.BAD then f x1 x2 else L.BAD) else x1)
    xv1 xv2, rfl, rfl, rfl, ?_, ?_⟩
  · unfold VMState.slot
    simp only [List.length_set]
    rw [if_pos ⟨h0, hlt⟩]
    exact getD_set_self _ _ _ _ hin
  · rw [List.get?_eq_getElem?] at hx1 hx2 ⊢
    rw [List.getElem?_zipWith, hx1, hx2]

/-! ## Arithmetic that avoids overflow -/

/-- In exact arithmetic the test of `SAFE_MUL` fails exactly when the product is out of
range. -/
theorem mul_overflow_iff {M x1 x2 : Rat} (h1 : |x1| ≤ M) (h2 : |x2| ≤ M) :
    ¬ (|x1| ≤ 1 ∨ |x2| ≤ 1 ∨ M / |x1| ≥ |x2|) ↔ |x1 * x2| > M := by
  have n1 := abs_nonneg x1
  have n2 := abs_nonneg x2
  rw [abs_mul]
  constructor
  · intro h
    simp only [not_or, not_le, ge_iff_le] at h
    obtain ⟨a1, a2, a3⟩ := h
    have hpos : 0 < |x1| := by linarith
    rw [div_lt_iff₀ hpos] at a3
    linarith
  · intro h
    rintro (a | a | a)
    · have := mul_le_mul a (le_refl |x2|) n2 (by norm_num)
      linarith
    · have := mul_le_mul (le_refl |x1|) a n2 n1
      linarith
    · by_cases hz : |x1| = 0
      · rw [hz] at h
        linarith
      · have hpos : 0 < |x1| := lt_of_le_of_ne n1 (Ne.symm hz)
        rw [ge_iff_le, le_div_iff₀ hpos] at a
        linarith

/-- In exact arithmetic, when the quotient is out of range the test of `SAFE_DIV`
fails. -/
theorem div_overflow {M x1 x2 : Rat} (h1 : |x1| ≤ M) (h2 : x2 ≠ 0) (h : |x1 / x2| > M) :
    ¬ (|x2| ≥ 1 ∨ M * |x2| ≥ |x1|) := by
  have n1 := abs_nonneg x1
  have hpos : 0 < |x2| := abs_pos.2 h2
  rw [abs_div, gt_iff_lt, lt_div_iff₀ hpos] at h
  rintro (a | a)
  · have := mul_le_mul (le_refl M) a (by norm_num) (by linarith)
    linarith
  · linarith

theorem SAFE_MUL_eq (L : MathLib) (x1 x2 : Rat) :
    SAFE_MUL L x1 x2 =
      if |x1| ≤ 1 ∨ |x2| ≤ 1 ∨ L.fl (L.DBL_MAX / |x1|) ≥ |x2| then L.fl (x1 * x2)
      else L.BAD := by
  unfold SAFE_MUL
  rw [ABS_eq_abs, ABS_eq_abs]

theorem SAFE_DIV_eq (L : MathLib) (x1 x2 : Rat) :
    SAFE_DIV L x1 x2 =
      if x2 ≠ 0 ∧ (|x2| ≥ 1 ∨ L.DBL_MAX * |x2| ≥ |x1|) then x1 / x2 else L.BAD := by
  unfold SAFE_DIV
  rw [ABS_eq_abs, ABS_eq_abs]

/-- C15: the machine does not write the bad value for every result beyond `DBL_MAX`.
`DIV` does: for non-bad operands with `|x1| <= DBL_MAX` and a divisor that is not zero it
yields the bad value whenever `|x1 / x2| > DBL_MAX`.  `ADD`, `SUB` and `MUL` do so for
operands of magnitude at most `DBL_MAX` whenever the value their test compares, the
rounded `DBL_MAX - |x1|` or `DBL_MAX / |x1|`, is not greater than the exact one.  The
opcode `DIM` has no test at all: on `dim(a,b)` with `a = DBL_MAX` and `b = -2^1023` (both
doubles, in range and not bad), where the exact result `max(a - b, 0)` is beyond
`DBL_MAX`, the machine writes infinity (`HUGE_VAL`), not the bad value, while `a-b` on
the same operands gives the bad value. -/
theorem C15_overflow_detected_except_dim :
    (∀ (L : MathLib) (x1 x2 : Rat), x1 ≠ L.BAD → x2 ≠ L.BAD →
      |x1| ≤ L.DBL_MAX → |x2| ≤ L.DBL_MAX →
      (L.fl (L.DBL_MAX - |x1|) ≤ L.DBL_MAX - |x1| → |x1 + x2| > L.DBL_MAX →
        YieldsBinary L OP_ADD x1 x2 L.BAD) ∧
      (L.fl (L.DBL_MAX - |x1|) ≤ L.DBL_MAX - |x1| → |x1 - x2| > L.DBL_MAX →
        YieldsBinary L OP_SUB x1 x2 L.BAD) ∧
      (L.fl (L.DBL_MAX / |x1|) ≤ L.DBL_MAX / |x1| → |x1 * x2| > L.DBL_MAX →
        YieldsBinary L OP_MUL x1 x2 L.BAD) ∧
      (x2 ≠ 0 → |x1 / x2| > L.DBL_MAX → YieldsBinary L OP_DIV x1 x2 L.BAD)) ∧
    (CompileExpression "dim(a,b)".toList 2 ["a".toList, "b".toList] =
        .ok ⟨[3, 2, 2, 35], [0, 1], 2⟩ ∧
      MathLib.sample.fl MathLib.sample.DBL_MAX = MathLib.sample.DBL_MAX ∧
      MathLib.sample.fl (-2 ^ 1023) = -2 ^ 1023 ∧
      MathLib.sample.DBL_MAX ≠ MathLib.sample.BAD ∧
      (-2 ^ 1023 : Rat) ≠ MathLib.sample.BAD ∧
      |MathLib.sample.DBL_MAX| ≤ MathLib.sample.DBL_MAX ∧
      |(-2 ^ 1023 : Rat)| ≤ MathLib.sample.DBL_MAX ∧
      |max (MathLib.sample.DBL_MAX - (-2 ^ 1023 : Rat)) 0| > MathLib.sample.DBL_MAX ∧
      VirtualMachine MathLib.sample 1 2 [[MathLib.sample.DBL_MAX], [-2 ^ 1023]]
        [3, 2, 2, 35] [0, 1] 2 = some [MathLib.sample.HUGE_VAL] ∧
      MathLib.sample.HUGE_VAL ≠ MathLib.sample.BAD ∧
      MathLib.sample.HUGE_VAL > MathLib.sample.DBL_MAX) ∧
    (CompileExpression "a-b".toList 2 ["a".toList, "b".toList] =
        .ok ⟨[3, 2, 2, 29], [0, 1], 2⟩ ∧
      VirtualMachine MathLib.sample 1 2 [[MathLib.sample.DBL_MAX], [-2 ^ 1023]]
        [3, 2, 2, 29] [0, 1] 2 = some [MathLib.sample.BAD]) := by
  refine ⟨?_, ⟨by decide!, by decide!, by decide!, by decide!, by decide!, by decide!,
    by decide!, by decide!, by decide!, by decide!, by decide!⟩, by decide!, by decide!⟩
  intro L x1 x2 hb1 hb2 h1 h2
  refine ⟨fun hr h => ?_, fun hr h => ?_, fun hr h => ?_, fun hz h => ?_⟩
  · have := YieldsBinary_of_fun2 L (o := OP_ADD) rfl rfl x1 x2
    have hc := (add_overflow_iff h1 h2).2 h
    rw [if_pos hb1, if_pos hb2, SAFE_ADD_eq L,
      if_pos ⟨hc.1, lt_of_le_of_lt hr hc.2⟩] at this
    exact this
  · have := YieldsBinary_of_fun2 L (o := OP_SUB) rfl rfl x1 x2
    have hc := (sub_overflow_iff h1 h2).2 h
    rw [if_pos hb1, if_pos hb2, SAFE_SUB_eq L,
      if_pos ⟨hc.1, lt_of_le_of_lt hr hc.2⟩] at this
    exact this
  · have := YieldsBinary_of_fun2 L (o := OP_MUL) rfl rfl x1 x2
    have hc := (mul_overflow_iff h1 h2).2 h
    rw [if_pos hb1, if_pos hb2, SAFE_MUL_eq L, if_neg] at this
    · exact this
    · rintro (a | a | a)
      · exact hc (Or.inl a)
      · exact hc (Or.inr (Or.inl a))
      · exact hc (Or.inr (Or.inr (le_trans a hr)))
  · have := YieldsBinary_of_fun2 L (o := OP_DIV) rfl rfl x1 x2
    rw [if_pos hb1, if_pos hb2, SAFE_DIV_eq L,
      if_neg (fun hc => div_overflow h1 hz h hc.2)] at this
    exact this

/-- C16: for non-bad operands the opcode `ADD` yields the bad value when the operands
have the same sign and `|x2|` exceeds the rounded difference `DBL_MAX - |x1|`, and the
rounded sum otherwise; `SUB` yields the bad value when the signs are opposite and `|x2|`
exceeds the rounded difference `DBL_MAX - |x1|`, and the rounded difference of the
operands otherwise.  For operands of magnitude at most `DBL_MAX` whose difference
`DBL_MAX - |x1|` is not changed by the rounding, the bad value is chosen exactly when
`|x1 + x2| > DBL_MAX` (for `SUB`, `|x1 - x2| > DBL_MAX`).  It is not when the difference is
rounded: on `a+b` at `a = 0x1.0000000000003p+1022` and `b = 0x1.7fffffffffffep+1023`
(doubles of the same sign, not bad, with `|a| > DBL_MAX - |b|` and `|a + b| > DBL_MAX`),
the rounded `DBL_MAX - a` is `b`, the test passes and the machine writes the overflowed
sum, infinity (`HUGE_VAL`), not the bad value; `a-b` does the same at `a` and `-b`; and
`1 + DBL_MAX` gives `DBL_MAX`. -/
theorem C16_add_sub_safe :
    (∀ (L : MathLib) (x1 x2 : Rat), x1 ≠ L.BAD → x2 ≠ L.BAD →
      YieldsBinary L OP_ADD x1 x2
        (if ((0 ≤ x1 ∧ 0 < x2) ∨ (x1 < 0 ∧ x2 < 0)) ∧ |x2| > L.fl (L.DBL_MAX - |x1|)
          then L.BAD else L.fl (x1 + x2)) ∧
      YieldsBinary L OP_SUB x1 x2
        (if ((0 ≤ x1 ∧ x2 < 0) ∨ (x1 < 0 ∧ 0 < x2)) ∧ |x2| > L.fl (L.DBL_MAX - |x1|)
          then L.BAD else L.fl (x1 - x2)) ∧
      (|x1| ≤ L.DBL_MAX → |x2| ≤ L.DBL_MAX →
        L.fl (L.DBL_MAX - |x1|) = L.DBL_MAX - |x1| →
        ((((0 ≤ x1 ∧ 0 < x2) ∨ (x1 < 0 ∧ x2 < 0)) ∧ |x2| > L.fl (L.DBL_MAX - |x1|)) ↔
          |x1 + x2| > L.DBL_MAX) ∧
        ((((0 ≤ x1 ∧ x2 < 0) ∨ (x1 < 0 ∧ 0 < x2)) ∧ |x2| > L.fl (L.DBL_MAX - |x1|)) ↔
          |x1 - x2| > L.DBL_MAX))) ∧
    (CompileExpression "a+b".toList 2 ["a".toList, "b".toList] =
        .ok ⟨[3, 2, 2, 28], [0, 1], 2⟩ ∧
      CompileExpression "a-b".toList 2 ["a".toList, "b".toList] =
        .ok ⟨[3, 2, 2, 29], [0, 1], 2⟩ ∧
      MathLib.sample.fl ((2 ^ 52 + 3) * 2 ^ 970) = (2 ^ 52 + 3) * 2 ^ 970 ∧
      MathLib.sample.fl ((2 ^ 52 + 2 ^ 51 - 2) * 2 ^ 971) = (2 ^ 52 + 2 ^ 51 - 2) * 2 ^ 971 ∧
      ((2 ^ 52 + 3) * 2 ^ 970 : Rat) ≠ MathLib.sample.BAD ∧
      ((2 ^ 52 + 2 ^ 51 - 2) * 2 ^ 971 : Rat) ≠ MathLib.sample.BAD ∧
      (-((2 ^ 52 + 2 ^ 51 - 2) * 2 ^ 971) : Rat) ≠ MathLib.sample.BAD ∧
      (0 : Rat) < (2 ^ 52 + 3) * 2 ^ 970 ∧ (0 : Rat) < (2 ^ 52 + 2 ^ 51 - 2) * 2 ^ 971 ∧
      |((2 ^ 52 + 3) * 2 ^ 970 : Rat)| ≤ MathLib.sample.DBL_MAX ∧
      |((2 ^ 52 + 2 ^ 51 - 2) * 2 ^ 971 : Rat)| ≤ MathLib.sample.DBL_MAX ∧
      |((2 ^ 52 + 3) * 2 ^ 970 : Rat)| >
        MathLib.sample.DBL_MAX - |((2 ^ 52 + 2 ^ 51 - 2) * 2 ^ 971 : Rat)| ∧
      |((2 ^ 52 + 3) * 2 ^ 970 + (2 ^ 52 + 2 ^ 51 - 2) * 2 ^ 971 : Rat)| >
        MathLib.sample.DBL_MAX ∧
      MathLib.sample.fl (MathLib.sample.DBL_MAX - (2 ^ 52 + 3) * 2 ^ 970) =
        (2 ^ 52 + 2 ^ 51 - 2) * 2 ^ 971 ∧
      VirtualMachine MathLib.sample 1 2
        [[(2 ^ 52 + 3) * 2 ^ 970], [(2 ^ 52 + 2 ^ 51 - 2) * 2 ^ 971]]
        [3, 2, 2, 28] [0, 1] 2 = some [MathLib.sample.HUGE_VAL] ∧
      VirtualMachine MathLib.sample 1 2
        [[(2 ^ 52 + 3) * 2 ^ 970], [-((2 ^ 52 + 2 ^ 51 - 2) * 2 ^ 971)]]
        [3, 2, 2, 29] [0, 1] 2 = some [MathLib.sample.HUGE_VAL] ∧
      MathLib.sample.HUGE_VAL ≠ MathLib.sample.BAD ∧
      MathLib.sample.HUGE_VAL > MathLib.sample.DBL_MAX ∧
      VirtualMachine MathLib.sample 1 2 [[1], [MathLib.sample.DBL_MAX]]
        [3, 2, 2, 28] [0, 1] 2 = some [MathLib.sample.DBL_MAX]) := by
  refine ⟨?_, by decide!, by decide!, by decide!, by decide!, by decide!, by decide!,
    by decide!, by decide!, by decide!, by decide!, by decide!, by decide!, by decide!,
    by decide!, by decide!, by decide!, by decide!, by decide!, by decide!⟩
  intro L x1 x2 hb1 hb2
  refine ⟨?_, ?_, fun h1 h2 he => ?_⟩
  · have := YieldsBinary_of_fun2 L (o := OP_ADD) rfl rfl x1 x2
    rw [if_pos hb1, if_pos hb2, SAFE_ADD_eq L] at this
    exact this
  · have := YieldsBinary_of_fun2 L (o := OP_SUB) rfl rfl x1 x2
    rw [if_pos hb1, if_pos hb2, SAFE_SUB_eq L] at this
    exact this
  · rw [he]
    exact ⟨add_overflow_iff h1 h2, sub_overflow_iff h1 h2⟩

/-- C17: for non-bad operands the opcode `MUL` yields the rounded product when
`|x1| <= 1` or `|x2| <= 1` or the rounded quotient `DBL_MAX / |x1|` is at least `|x2|`,
and the bad value otherwise.  For operands of magnitude at most `DBL_MAX` whose quotient
`DBL_MAX / |x1|` is not changed by the rounding, the bad value is chosen exactly when
`|x1 * x2| > DBL_MAX`; `x*x` at `x = 10^200` gives the bad value.  It is not chosen when
the quotient is rounded upwards: on `a*b` at `a = 3` and `b = 0x1.5555555555555p+1022`
(doubles, not bad, with `DBL_MAX / |a| < |b|` and `|a * b| > DBL_MAX`) the rounded
quotient is `b`, the test passes and the machine writes the overflowed product,
infinity (`HUGE_VAL`), not the bad value. -/
theorem C17_mul_safe :
    (∀ (L : MathLib) (x1 x2 : Rat), x1 ≠ L.BAD → x2 ≠ L.BAD →
      YieldsBinary L OP_MUL x1 x2
        (if |x1| ≤ 1 ∨ |x2| ≤ 1 ∨ L.fl (L.DBL_MAX / |x1|) ≥ |x2| then L.fl (x1 * x2)
          else L.BAD) ∧
      (|x1| ≤ L.DBL_MAX → |x2| ≤ L.DBL_MAX →
        L.fl (L.DBL_MAX / |x1|) = L.DBL_MAX / |x1| →
        (¬ (|x1| ≤ 1 ∨ |x2| ≤ 1 ∨ L.fl (L.DBL_MAX / |x1|) ≥ |x2|) ↔
          |x1 * x2| > L.DBL_MAX))) ∧
    (CompileExpression "x*x".toList 1 ["x".toList] = .ok ⟨[3, 2, 2, 30], [0, 0], 2⟩ ∧
      VirtualMachine MathLib.sample 1 1 [[10 ^ 200]] [3, 2, 2, 30] [0, 0] 2 =
        some [MathLib.sample.BAD]) ∧
    (CompileExpression "a*b".toList 2 ["a".toList, "b".toList] =
        .ok ⟨[3, 2, 2, 30], [0, 1], 2⟩ ∧
      MathLib.sample.fl 3 = 3 ∧
      MathLib.sample.fl ((2 ^ 52 + 1501199875790165) * 2 ^ 970) =
        (2 ^ 52 + 1501199875790165) * 2 ^ 970 ∧
      (3 : Rat) ≠ MathLib.sample.BAD ∧
      ((2 ^ 52 + 1501199875790165) * 2 ^ 970 : Rat) ≠ MathLib.sample.BAD ∧
      |(3 : Rat)| ≤ MathLib.sample.DBL_MAX ∧
      |((2 ^ 52 + 1501199875790165) * 2 ^ 970 : Rat)| ≤ MathLib.sample.DBL_MAX ∧
      ¬ (|(3 : Rat)| ≤ 1 ∨ |((2 ^ 52 + 1501199875790165) * 2 ^ 970 : Rat)| ≤ 1 ∨
        MathLib.sample.DBL_MAX / |(3 : Rat)| ≥
          |((2 ^ 52 + 1501199875790165) * 2 ^ 970 : Rat)|) ∧
      |(3 * ((2 ^ 52 + 1501199875790165) * 2 ^ 970) : Rat)| > MathLib.sample.DBL_MAX ∧
      MathLib.sample.fl (MathLib.sample.DBL_MAX / 3) =
        (2 ^ 52 + 1501199875790165) * 2 ^ 970 ∧
      VirtualMachine MathLib.sample 1 2 [[3], [(2 ^ 52 + 1501199875790165) * 2 ^ 970]]
        [3, 2, 2, 30] [0, 1] 2 = some [MathLib.sample.HUGE_VAL] ∧
      MathLib.sample.HUGE_VAL ≠ MathLib.sample.BAD ∧
      MathLib.sample.HUGE_VAL > MathLib.sample.DBL_MAX) := by
  refine ⟨?_, ⟨by decide!, by decide!⟩, by decide!, by decide!, by decide!, by decide!,
    by decide!, by decide!, by decide!, by decide!, by decide!, by decide!, by decide!,
    by decide!, by decide!⟩
  intro L x1 x2 hb1 hb2
  refine ⟨?_, fun h1 h2 he => ?_⟩
  · have := YieldsBinary_of_fun2 L (o := OP_MUL) rfl rfl x1 x2
    rw [if_pos hb1, if_pos hb2, SAFE_MUL_eq L] at this
    exact this
  · rw [he]
    exact mul_overflow_iff h1 h2

/-- C18: for non-bad operands the opcode `DIV` yields the bad value when `x2 = 0`; when
`x2` is not zero it yields `x1 / x2` if `|x2| >= 1` or `DBL_MAX * |x2| >= |x1|`, and the
bad value otherwise. -/
theorem C18_div_safe (L : MathLib) (x1 x2 : Rat) (hb1 : x1 ≠ L.BAD) (hb2 : x2 ≠ L.BAD) :
    (x2 = 0 → YieldsBinary L OP_DIV x1 x2 L.BAD) ∧
    (x2 ≠ 0 → YieldsBinary L OP_DIV x1 x2
      (if |x2| ≥ 1 ∨ L.DBL_MAX * |x2| ≥ |x1| then x1 / x2 else L.BAD)) := by
  have := YieldsBinary_of_fun2 L (o := OP_DIV) rfl rfl x1 x2
  rw [if_pos hb1, if_pos hb2, SAFE_DIV_eq L] at this
  constructor
  · intro hz
    rw [if_neg (fun hc => hc.1 hz)] at this
    exact this
  · intro hz
    by_cases hc : |x2| ≥ 1 ∨ L.DBL_MAX * |x2| ≥ |x1|
    · rw [if_pos ⟨hz, hc⟩] at this
      rw [if_pos hc]
      exact this
    · rw [if_neg (fun h => hc h.2)] at this
      rw [if_neg hc]
      exact this

/-- C19: for an argument that is not bad, the machine writes the bad value for `SQRT`
when `x < 0`, for `LOG` and `LOG10` when `x <= 0`, for `ASIN`, `ACOS`, `ASIND` and
`ACOSD` when `|x| > 1`, and for `MOD` when the divisor is 0; for every other argument
these opcodes return the value of the library function (`sqrt`, `log`, `log10`, `asin`,
`acos`, `fmod`), multiplied by the factor `r2d` for `ASIND` and `ACOSD`.  Example: `sqrt`
over `[4, -1, 0]` gives `[2, BAD, 0]`. -/
theorem C19_domain_errors :
    (∀ (L : MathLib) (x : Rat), x ≠ L.BAD →
      YieldsUnary L OP_SQRT x (if x < 0 then L.BAD else L.sqrt x) ∧
      YieldsUnary L OP_LOG x (if x ≤ 0 then L.BAD else L.log x) ∧
      YieldsUnary L OP_LOG10 x (if x ≤ 0 then L.BAD else L.log10 x) ∧
      YieldsUnary L OP_ASIN x (if |x| > 1 then L.BAD else L.asin x) ∧
      YieldsUnary L OP_ACOS x (if |x| > 1 then L.BAD else L.acos x) ∧
      YieldsUnary L OP_ASIND x (if |x| > 1 then L.BAD else L.asin x * r2d L) ∧
      YieldsUnary L OP_ACOSD x (if |x| > 1 then L.BAD else L.acos x * r2d L) ∧
      (∀ x2 : Rat, x2 ≠ L.BAD →
        YieldsBinary L OP_MOD x x2 (if x2 = 0 then L.BAD else L.fmod x x2))) ∧
    (CompileExpression "sqrt(x)".toList 1 ["x".toList] = .ok ⟨[2, 2, 5], [0], 1⟩ ∧
      VirtualMachine MathLib.sample 3 1 [[4, -1, 0]] [2, 2, 5] [0] 1 =
        some [2, MathLib.sample.BAD, 0]) := by
  refine ⟨?_, by decide!, by decide!⟩
  intro L x hb
  refine ⟨?_, ?_, ?_, ?_, ?_, ?_, ?_, ?_⟩
  · have := YieldsUnary_of_fun1 L (o := OP_SQRT) rfl x
    rw [if_pos hb] at this
    by_cases h : x < 0
    · rw [if_pos h]
      rw [if_neg (not_le.2 h)] at this
      exact this
    · rw [if_neg h]
      rw [if_pos (not_lt.1 h)] at this
      exact this
  · have := YieldsUnary_of_fun1 L (o := OP_LOG) rfl x
    rw [if_pos hb] at this
    by_cases h : x ≤ 0
    · rw [if_pos h]
      rw [if_neg (not_lt.2 h)] at this
      exact this
    · rw [if_neg h]
      rw [if_pos (not_le.1 h)] at this
      exact this
  · have := YieldsUnary_of_fun1 L (o := OP_LOG10) rfl x
    rw [if_pos hb] at this
    by_cases h : x ≤ 0
    · rw [if_pos h]
      rw [if_neg (not_lt.2 h)] at this
      exact this
    · rw [if_neg h]
      rw [if_pos (not_le.1 h)] at this
      exact this
  · have := YieldsUnary_of_fun1 L (o := OP_ASIN) rfl x
    rw [if_pos hb, ABS_eq_abs] at this
    by_cases h : |x| > 1
    · rw [if_pos h]
      rw [if_neg (not_le.2 h)] at this
      exact this
    · rw [if_neg h]
      rw [if_pos (not_lt.1 h)] at this
      exact this
  · have := YieldsUnary_of_fun1 L (o := OP_ACOS) rfl x
    rw [if_pos hb, ABS_eq_abs] at this
    by_cases h : |x| > 1
    · rw [if_pos h]
      rw [if_neg (not_le.2 h)] at this
      exact this
    · rw [if_neg h]
      rw [if_pos (not_lt.1 h)] at this
      exact this
  · have := YieldsUnary_of_fun1 L (o := OP_ASIND) rfl x
    rw [if_pos hb, ABS_eq_abs] at this
    by_cases h : |x| > 1
    · rw [if_pos h]
      rw [if_neg (not_le.2 h)] at this
      exact this
    · rw [if_neg h]
      rw [if_pos (not_lt.1 h)] at this
      exact this
  · have := YieldsUnary_of_fun1 L (o := OP_ACOSD) rfl x
    rw [if_pos hb, ABS_eq_abs] at this
    by_cases h : |x| > 1
    · rw [if_pos h]
      rw [if_neg (not_le.2 h)] at this
      exact this
    · rw [if_neg h]
      rw [if_pos (not_lt.1 h)] at this
      exact this
  · intro x2 hb2
    have := YieldsBinary_of_fun2 L (o := OP_MOD) rfl rfl x x2
    rw [if_pos hb, if_pos hb2] at this
    by_cases h : x2 = 0
    · rw [if_pos h]
      rw [if_neg (not_not.2 h)] at this
      exact this
    · rw [if_neg h]
      rw [if_pos h] at this
      exact this

/-- Witness of C15: `DBL_MAX + DBL_MAX` in a machine state with two vectors of one
point; the difference `DBL_MAX - DBL_MAX` of the test is exact. -/
theorem C15_overflow_detected_except_dim_witness :
    MathLib.sample.DBL_MAX ≠ MathLib.sample.BAD ∧
    |MathLib.sample.DBL_MAX| ≤ MathLib.sample.DBL_MAX ∧
    MathLib.sample.fl (MathLib.sample.DBL_MAX - |MathLib.sample.DBL_MAX|) ≤
      MathLib.sample.DBL_MAX - |MathLib.sample.DBL_MAX| ∧
    |MathLib.sample.DBL_MAX + MathLib.sample.DBL_MAX| > MathLib.sample.DBL_MAX ∧
    ∃ st1 r, VirtualMachine_case MathLib.sample 1 [] []
        ⟨[some [MathLib.sample.DBL_MAX], some [MathLib.sample.DBL_MAX]], 1, 0⟩ OP_ADD.toInt =
          some st1 ∧
      st1.slot st1.tos = some r ∧ r.get? 0 = some MathLib.sample.BAD :=
  have hb : MathLib.sample.DBL_MAX ≠ MathLib.sample.BAD := by decide!
  have h1 : |MathLib.sample.DBL_MAX| ≤ MathLib.sample.DBL_MAX := by decide!
  have hr : MathLib.sample.fl (MathLib.sample.DBL_MAX - |MathLib.sample.DBL_MAX|) ≤
      MathLib.sample.DBL_MAX - |MathLib.sample.DBL_MAX| := by decide!
  have h2 : |MathLib.sample.DBL_MAX + MathLib.sample.DBL_MAX| > MathLib.sample.DBL_MAX := by
    decide!
  ⟨hb, h1, hr, h2, by
    obtain ⟨st1, r, e1, _, _, e4, e5⟩ :=
      (C15_overflow_detected_except_dim.1 MathLib.sample MathLib.sample.DBL_MAX
        MathLib.sample.DBL_MAX hb hb h1 h1).1 hr h2 1 [] []
        ⟨[some [MathLib.sample.DBL_MAX], some [MathLib.sample.DBL_MAX]], 1, 0⟩
        [MathLib.sample.DBL_MAX] [MathLib.sample.DBL_MAX] 0 (by decide!) (by decide!) rfl rfl
    exact ⟨st1, r, e1, e4, e5⟩⟩

/-- Witness of C16: `DBL_MAX + DBL_MAX` in a machine state with two vectors of one point
gives the bad value. -/
theorem C16_add_sub_safe_witness :
    MathLib.sample.DBL_MAX ≠ MathLib.sample.BAD ∧
    ∃ st1 r, VirtualMachine_case MathLib.sample 1 [] []
        ⟨[some [MathLib.sample.DBL_MAX], some [MathLib.sample.DBL_MAX]], 1, 0⟩ OP_ADD.toInt =
          some st1 ∧
      st1.slot st1.tos = some r ∧ r.get? 0 = some MathLib.sample.BAD :=
  have hb1 : MathLib.sample.DBL_MAX ≠ MathLib.sample.BAD := by decide!
  ⟨hb1, by
    obtain ⟨st1, r, e1, _, _, e4, e5⟩ :=
      (C16_add_sub_safe.1 MathLib.sample MathLib.sample.DBL_MAX MathLib.sample.DBL_MAX
        hb1 hb1).1 1 [] []
        ⟨[some [MathLib.sample.DBL_MAX], some [MathLib.sample.DBL_MAX]], 1, 0⟩
        [MathLib.sample.DBL_MAX] [MathLib.sample.DBL_MAX] 0 (by decide!) (by decide!) rfl rfl
    rw [if_pos (by decide!)] at e5
    exact ⟨st1, r, e1, e4, e5⟩⟩

/-- Witness of C17: `3 * 5` in a machine state with two vectors of one point. -/
theorem C17_mul_safe_witness :
    (3 : Rat) ≠ MathLib.sample.BAD ∧ (5 : Rat) ≠ MathLib.sample.BAD ∧
    ∃ st1 r, VirtualMachine_case MathLib.sample 1 [] []
        ⟨[some [3], some [5]], 1, 0⟩ OP_MUL.toInt = some st1 ∧
      st1.slot st1.tos = some r ∧ r.get? 0 = some 15 :=
  have hb1 : (3 : Rat) ≠ MathLib.sample.BAD := by decide!
  have hb2 : (5 : Rat) ≠ MathLib.sample.BAD := by decide!
  ⟨hb1, hb2, by
    obtain ⟨st1, r, e1, _, _, e4, e5⟩ :=
      (C17_mul_safe.1 MathLib.sample 3 5 hb1 hb2).1 1 [] []
        ⟨[some [3], some [5]], 1, 0⟩ [3] [5] 0 (by decide!) (by decide!) rfl rfl
    rw [if_pos (by decide!)] at e5
    exact ⟨st1, r, e1, e4, by rw [e5]; decide!⟩⟩

/-- Witness of C18: `1 / 0` in a machine state with two vectors of one point. -/
theorem C18_div_safe_witness :
    (1 : Rat) ≠ MathLib.sample.BAD ∧ (0 : Rat) ≠ MathLib.sample.BAD ∧
    ∃ st1 r, VirtualMachine_case MathLib.sample 1 [] []
        ⟨[some [1], some [0]], 1, 0⟩ OP_DIV.toInt = some st1 ∧
      st1.slot st1.tos = some r ∧ r.get? 0 = some MathLib.sample.BAD :=
  have hb1 : (1 : Rat) ≠ MathLib.sample.BAD := by decide!
  have hb2 : (0 : Rat) ≠ MathLib.sample.BAD := by decide!
  ⟨hb1, hb2, by
    obtain ⟨st1, r, e1, _, _, e4, e5⟩ :=
      (C18_div_safe MathLib.sample 1 0 hb1 hb2).1 rfl 1 [] []
        ⟨[some [1], some [0]], 1, 0⟩ [1] [0] 0 (by decide!) (by decide!) rfl rfl
    exact ⟨st1, r, e1, e4, e5⟩⟩

/-- Witness of C19: `sqrt` of `-1` in a machine state with one vector of one point. -/
theorem C19_domain_errors_witness :
    (-1 : Rat) ≠ MathLib.sample.BAD ∧
    ∃ st1 r, VirtualMachine_case MathLib.sample 1 [] []
        ⟨[some [-1]], 0, 0⟩ OP_SQRT.toInt = some st1 ∧
      st1.slot st1.tos = some r ∧ r.get? 0 = some MathLib.sample.BAD :=
  have hb : (-1 : Rat) ≠ MathLib.sample.BAD := by decide!
  ⟨hb, by
    obtain ⟨st1, r, e1, _, _, e4, e5⟩ :=
      (C19_domain_errors.1 MathLib.sample (-1) hb).1 1 [] []
        ⟨[some [-1]], 0, 0⟩ [-1] 0 (by decide!) rfl
    rw [if_pos (by decide!)] at e5
    exact ⟨st1, r, e1, e4, e5⟩⟩

/-! ## The exponent characters of a constant -/

theorem ParseConstant_body_d_e (s : PCState) :
    ParseConstant_body 'd' s = ParseConstant_body 'e' s := by
  unfold ParseConstant_body
  simp

/-- Replacing `d` by `e` does not change what the scanning loop of `ParseConstant` does
with a character. -/
theorem ParseConstant_body_replace {c c1 : Char} (h : c1 = c ∨ (c = 'd' ∧ c1 = 'e'))
    (s : PCState) :
    ParseConstant_body c1 s = ParseConstant_body c s ∧ (c1 != NUL) = (c != NUL) ∧
      c1.isDigit = c.isDigit ∧ (c1 == '.') = (c == '.') ∧
      (if c1 = 'd' then 'e' else c1) = (if c = 'd' then 'e' else c) := by
  rcases h with rfl | ⟨rfl, rfl⟩
  · exact ⟨rfl, rfl, rfl, rfl, rfl⟩
  · exact ⟨(ParseConstant_body_d_e s).symm, by decide, by decide, by decide, by decide⟩

theorem ParseConstant_loop_replace {exprs exprs1 : List Char}
    (h : ∀ k, cget exprs1 k = cget exprs k ∨ (cget exprs k = 'd' ∧ cget exprs1 k = 'e')) :
    ∀ (fuel : Nat) (s : PCState),
      ParseConstant_loop exprs1 fuel s = ParseConstant_loop exprs fuel s := by
  intro fuel
  induction fuel with
  | zero => intro s; rfl
  | succ n ih =>
    intro s
    unfold ParseConstant_loop
    obtain ⟨h1, h2, _⟩ := ParseConstant_body_replace (h (s.iend + 1)) s
    simp only [h1, h2, ih]

theorem getElem?_replace {exprs exprs1 : List Char} (hlen : exprs1.length = exprs.length)
    (h : ∀ k, cget exprs1 k = cget exprs k ∨ (cget exprs k = 'd' ∧ cget exprs1 k = 'e'))
    (k : Nat) :
    (exprs1[k]?).map (fun ch => if ch = 'd' then 'e' else ch) =
      (exprs[k]?).map (fun ch => if ch = 'd' then 'e' else ch) := by
  by_cases hk : k < exprs.length
  · have hk1 : k < exprs1.length := by omega
    have e := (ParseConstant_body_replace (h k) ⟨0, false, false, false, false, false, false⟩).2.2.2.2
    rw [cget_eq_getElem hk, cget_eq_getElem hk1] at e
    rw [List.getElem?_eq_getElem hk, List.getElem?_eq_getElem hk1]
    simp only [Option.map_some', e]
  · rw [List.getElem?_eq_none (by omega), List.getElem?_eq_none (by omega)]

theorem take_drop_replace {exprs exprs1 : List Char} (hlen : exprs1.length = exprs.length)
    (h : ∀ k, cget exprs1 k = cget exprs k ∨ (cget exprs k = 'd' ∧ cget exprs1 k = 'e'))
    (i n : Nat) :
    ((exprs1.drop i).take n).map (fun ch => if ch = 'd' then 'e' else ch) =
      ((exprs.drop i).take n).map (fun ch => if ch = 'd' then 'e' else ch) := by
  apply List.ext_getElem?
  intro j
  rw [List.getElem?_map, List.getElem?_map, List.getElem?_take, List.getElem?_take]
  split
  · rw [List.getElem?_drop, List.getElem?_drop]
    exact getElem?_replace hlen h _
  · rfl

/-- C13: in `ParseConstant` the exponent characters `d` and `e` are interchangeable: when
some of the `d` of a text are replaced by `e`, `ParseConstant` returns the same end
index and the same value at every position, and reports an error (`CONIN`) for the one
text exactly when it does for the other.  Example: `2d3` and `2e3` both give 2000. -/
theorem C13_exponent_d_or_e :
    (∀ (exprs exprs1 : List Char) (istart : Nat), exprs1.length = exprs.length →
      (∀ k, cget exprs1 k = cget exprs k ∨ (cget exprs k = 'd' ∧ cget exprs1 k = 'e')) →
      (∀ j v, ParseConstant exprs1 istart = .ok (j, v) ↔
        ParseConstant exprs istart = .ok (j, v)) ∧
      ((∃ q, ParseConstant exprs1 istart = .error ⟨ErrCode.CONIN, q⟩) ↔
        (∃ q, ParseConstant exprs istart = .error ⟨ErrCode.CONIN, q⟩))) ∧
    ParseConstant "2d3".toList 0 = .ok (2, 2000) ∧
    ParseConstant "2e3".toList 0 = .ok (2, 2000) ∧
    ParseConstant "1.5d-2+d".toList 0 = .ok (5, 3 / 200) ∧
    ParseConstant "1.5e-2+d".toList 0 = .ok (5, 3 / 200) := by
  refine ⟨?_, by decide!, by decide!, by decide!, by decide!⟩
  intro exprs exprs1 istart hlen h
  obtain ⟨_, _, h3, h4, _⟩ := ParseConstant_body_replace (h istart) ⟨0, false, false, false, false, false, false⟩
  have hloop := ParseConstant_loop_replace h
  have hstr := take_drop_replace hlen h istart
  unfold ParseConstant
  simp only [h3, h4, hloop, hstr, hlen]
  split
  · split
    · split
      · split
        · exact ⟨fun j v => Iff.rfl, by simp⟩
        · exact ⟨fun j v => by simp, by simp⟩
      · exact ⟨fun j v => by simp, by simp⟩
    · exact ⟨fun j v => by simp, by simp⟩
  · exact ⟨fun j v => Iff.rfl, by simp⟩

/-- Witness of C13 on `7d1x` and `7e1x`. -/
theorem C13_exponent_d_or_e_witness :
    "7e1x".toList.length = "7d1x".toList.length ∧
    (∀ k, cget "7e1x".toList k = cget "7d1x".toList k ∨
      (cget "7d1x".toList k = 'd' ∧ cget "7e1x".toList k = 'e')) ∧
    ParseConstant "7d1x".toList 0 = .ok (2, 70) ∧
    ParseConstant "7e1x".toList 0 = .ok (2, 70) :=
  have hk : ∀ k, cget "7e1x".toList k = cget "7d1x".toList k ∨
      (cget "7d1x".toList k = 'd' ∧ cget "7e1x".toList k = 'e') := by
    intro k
    by_cases h : k < 4
    · interval_cases k <;> decide
    · left
      rw [cget_of_length_le (by simp; omega), cget_of_length_le (by simp; omega)]
  have h0 : ParseConstant "7d1x".toList 0 = .ok (2, 70) := by decide!
  ⟨rfl, hk, h0,
    ((C13_exponent_d_or_e.1 "7d1x".toList "7e1x".toList 0 rfl hk).1 2 70).2 h0⟩

/-! ## The scanning loop of `ParseConstant` -/

theorem ParseConstant_body_digit {c : Char} (h : c.isDigit = true) (s : PCState) :
    ParseConstant_body c s = { s with numer := true, iscon := true, iend := s.iend + 1 } := by
  unfold ParseConstant_body
  simp [h]

theorem Char.not_isDigit_of_eq {c : Char} :
    (c = '.' ∨ c = 'd' ∨ c = 'e' ∨ c = '+' ∨ c = '-' ∨ c = NUL) → c.isDigit = false := by
  rintro (rfl | rfl | rfl | rfl | rfl | rfl) <;> decide

theorem ParseConstant_body_point (s : PCState) :
    ParseConstant_body '.' s =
      if !(s.dpoint || s.expon) then { s with dpoint := true, iscon := true, iend := s.iend + 1 }
      else { s with valid := false, iscon := false, iend := s.iend + 1 } := by
  unfold ParseConstant_body
  cases hd : s.dpoint <;> cases he : s.expon <;> simp [hd, he]

theorem ParseConstant_body_marker {c : Char} (h : c = 'd' ∨ c = 'e') (s : PCState) :
    ParseConstant_body c s =
      if !s.expon && s.numer then
        { s with expon := true, numer := false, iscon := true, iend := s.iend + 1 }
      else { s with valid := false, iscon := false, iend := s.iend + 1 } := by
  rcases h with rfl | rfl <;> unfold ParseConstant_body <;>
    cases hd : s.numer <;> cases he : s.expon <;> simp [hd, he]

theorem ParseConstant_body_sign {c : Char} (h : c = '+' ∨ c = '-') (s : PCState) :
    ParseConstant_body c s =
      if s.expon && !s.sign && !s.numer then
        { s with sign := true, iscon := true, iend := s.iend + 1 }
      else if !s.numer then { s with valid := false, iscon := false, iend := s.iend + 1 }
      else if s.valid then { s with iscon := false }
      else { s with iscon := false, iend := s.iend + 1 } := by
  rcases h with rfl | rfl <;> unfold ParseConstant_body <;>
    cases hd : s.numer <;> cases he : s.expon <;> cases hs : s.sign <;> cases hv : s.valid <;>
    simp [hd, he, hs, hv]

theorem ParseConstant_body_other {c : Char} (h1 : c.isDigit = false) (h2 : c ≠ '.')
    (h3 : c ≠ 'd') (h4 : c ≠ 'e') (h5 : c ≠ '+') (h6 : c ≠ '-') (s : PCState) :
    ParseConstant_body c s =
      if s.valid then { s with iscon := false } else { s with iscon := false, iend := s.iend + 1 } := by
  unfold ParseConstant_body
  cases hv : s.valid <;> simp [h1, h2, h3, h4, h5, h6, hv]

theorem Char.kind_cases (c : Char) :
    c.isDigit = true ∨ c = '.' ∨ (c = 'd' ∨ c = 'e') ∨ (c = '+' ∨ c = '-') ∨
      (c.isDigit = false ∧ c ≠ '.' ∧ c ≠ 'd' ∧ c ≠ 'e' ∧ c ≠ '+' ∧ c ≠ '-') := by
  by_cases h1 : c.isDigit = true
  · exact Or.inl h1
  by_cases h2 : c = '.'
  · exact Or.inr (Or.inl h2)
  by_cases h3 : c = 'd'
  · exact Or.inr (Or.inr (Or.inl (Or.inl h3)))
  by_cases h4 : c = 'e'
  · exact Or.inr (Or.inr (Or.inl (Or.inr h4)))
  by_cases h5 : c = '+'
  · exact Or.inr (Or.inr (Or.inr (Or.inl (Or.inl h5))))
  by_cases h6 : c = '-'
  · exact Or.inr (Or.inr (Or.inr (Or.inl (Or.inr h6))))
  exact Or.inr (Or.inr (Or.inr (Or.inr ⟨by simpa using h1, h2, h3, h4, h5, h6⟩)))

/-- What one pass of the scanning loop does to a valid state, by the kind of outcome:
the character is taken (`iscon`), or it makes the constant invalid, or it ends the
constant and leaves the state as it is. -/
theorem ParseConstant_body_cases (c : Char) (s : PCState) (hv : s.valid = true) :
    ((ParseConstant_body c s).iscon = true ∧ (ParseConstant_body c s).valid = true ∧
      (ParseConstant_body c s).iend = s.iend + 1 ∧ c ≠ NUL) ∨
    ((ParseConstant_body c s).iscon = false ∧ (ParseConstant_body c s).valid = false ∧
      (ParseConstant_body c s).iend = s.iend + 1) ∨
    (ParseConstant_body c s = { s with iscon := false } ∧ c.isDigit = false ∧ c ≠ '.' ∧
      c ≠ 'd' ∧ c ≠ 'e' ∧ ((c = '+' ∨ c = '-') → s.numer = true)) := by
  rcases Char.kind_cases c with h | h | h | h | ⟨h1, h2, h3, h4, h5, h6⟩
  · left
    rw [ParseConstant_body_digit h]
    refine ⟨rfl, hv, rfl, ?_⟩
    rintro rfl
    exact absurd h (by decide)
  · subst h
    rw [ParseConstant_body_point]
    split
    · exact Or.inl ⟨rfl, hv, rfl, by decide⟩
    · exact Or.inr (Or.inl ⟨rfl, rfl, rfl⟩)
  · rw [ParseConstant_body_marker h]
    split
    · refine Or.inl ⟨rfl, hv, rfl, ?_⟩
      rcases h with rfl | rfl <;> decide
    · exact Or.inr (Or.inl ⟨rfl, rfl, rfl⟩)
  · rw [ParseConstant_body_sign h]
    split
    · refine Or.inl ⟨rfl, hv, rfl, ?_⟩
      rcases h with rfl | rfl <;> decide
    · split
      · exact Or.inr (Or.inl ⟨rfl, rfl, rfl⟩)
      · rename_i hn
        try rw [if_pos hv]
        refine Or.inr (Or.inr ⟨rfl, ?_, ?_, ?_, ?_, fun _ => by simpa using hn⟩)
        · rcases h with rfl | rfl <;> decide
        · rcases h with rfl | rfl <;> decide
        · rcases h with rfl | rfl <;> decide
        · rcases h with rfl | rfl <;> decide
  · rw [ParseConstant_body_other h1 h2 h3 h4 h5 h6, if_pos hv]
    exact Or.inr (Or.inr ⟨rfl, h1, h2, h3, h4, fun h => by rcases h with h | h <;> contradiction⟩)

/-- A character that ends a valid constant. -/
theorem ParseConstant_body_stop {c : Char} {s : PCState} (hv : s.valid = true)
    (h1 : c.isDigit = false) (h2 : c ≠ '.') (h3 : c ≠ 'd') (h4 : c ≠ 'e')
    (hn : s.numer = true) : ParseConstant_body c s = { s with iscon := false } := by
  by_cases h5 : c = '+' ∨ c = '-'
  · rw [ParseConstant_body_sign h5, if_neg (by simp [hn]), if_neg (by simp [hn]), if_pos hv]
  · rw [ParseConstant_body_other h1 h2 h3 h4 (fun h => h5 (Or.inl h)) (fun h => h5 (Or.inr h)),
      if_pos hv]

theorem ParseConstant_loop_done (exprs : List Char) (fuel : Nat) {s : PCState}
    (h : s.iscon = false ∨ cget exprs (s.iend + 1) = NUL) :
    ParseConstant_loop exprs fuel s = s := by
  cases fuel with
  | zero => rfl
  | succ n =>
    unfold ParseConstant_loop
    rcases h with h | h
    · simp [h]
    · simp [h]

theorem ParseConstant_loop_step (exprs : List Char) (fuel : Nat) {s : PCState}
    (h1 : s.iscon = true) (h2 : cget exprs (s.iend + 1) ≠ NUL) :
    ParseConstant_loop exprs (fuel + 1) s =
      ParseConstant_loop exprs fuel (ParseConstant_body (cget exprs (s.iend + 1)) s) := by
  rw [ParseConstant_loop]
  simp [h1, h2]

/-- The loop of `ParseConstant` passes over the characters that the scan accepts. -/
theorem ParseConstant_loop_scan (exprs : List Char) :
    ∀ (t : List Char) (s s1 : PCState) (fuel : Nat), s.iscon = true → s.valid = true →
      (∀ k, k < t.length → cget exprs (s.iend + 1 + k) = t.getD k NUL) →
      ParseConstant_scan s t = some s1 →
      ParseConstant_loop exprs (fuel + t.length) s = ParseConstant_loop exprs fuel s1 ∧
        s1.iend = s.iend + t.length ∧ s1.iscon = true ∧ s1.valid = true := by
  intro t
  induction t with
  | nil =>
    intro s s1 fuel hc hv _ h
    cases h
    exact ⟨rfl, rfl, hc, hv⟩
  | cons c cs ih =>
    intro s s1 fuel hc hv ht h
    have h0 : cget exprs (s.iend + 1) = c := by simpa using ht 0 (by simp)
    unfold ParseConstant_scan at h
    split at h
    · rename_i hok
      simp only [Bool.and_eq_true] at hok
      rcases ParseConstant_body_cases c s hv with ⟨_, _, hi, hnul⟩ | ⟨hf, _⟩ | ⟨he, _⟩
      · obtain ⟨e1, e2, e3, e4⟩ := ih (ParseConstant_body c s) s1 fuel hok.1 hok.2 (by
          intro k hk
          rw [hi]
          have := ht (k + 1) (by simp; omega)
          rw [show s.iend + 1 + (k + 1) = s.iend + 1 + 1 + k by omega] at this
          simpa using this) h
        refine ⟨?_, by rw [e2, hi, List.length_cons]; omega, e3, e4⟩
        rw [List.length_cons, ← Nat.add_assoc, ParseConstant_loop_step exprs _ hc (by
          rw [h0]; exact hnul), h0, e1]
      · rw [hf] at hok
        exact absurd hok.1 (by simp)
      · rw [he] at hok
        exact absurd hok.1 (by simp)
    · cases h

theorem ParseConstant_loop_iend (exprs : List Char) : ∀ (fuel : Nat) (s : PCState),
    s.valid = true → s.iend ≤ (ParseConstant_loop exprs fuel s).iend := by
  intro fuel
  induction fuel with
  | zero => intro s _; exact Nat.le_refl _
  | succ n ih =>
    intro s hv
    by_cases h : s.iscon = false ∨ cget exprs (s.iend + 1) = NUL
    · rw [ParseConstant_loop_done exprs _ h]
    · simp only [not_or, Bool.not_eq_false] at h
      rw [ParseConstant_loop_step exprs n h.1 h.2]
      rcases ParseConstant_body_cases (cget exprs (s.iend + 1)) s hv with
        ⟨_, hv1, hi, _⟩ | ⟨hf, _, hi⟩ | ⟨he, _⟩
      · have := ih _ hv1
        omega
      · rw [ParseConstant_loop_done exprs _ (Or.inl hf), hi]
        omega
      · rw [he, ParseConstant_loop_done exprs _ (Or.inl rfl)]

/-- Where the loop of `ParseConstant` ends with a valid state: it has passed over
characters that the scan accepts, and the next character is none of those that continue
a constant. -/
theorem ParseConstant_loop_traj (exprs : List Char) : ∀ (fuel : Nat) (s : PCState),
    s.iscon = true → s.valid = true → exprs.length ≤ s.iend + fuel →
    (ParseConstant_loop exprs fuel s).valid = true →
    ∃ t s1, ParseConstant_scan s t = some s1 ∧
      (∀ k, k < t.length → cget exprs (s.iend + 1 + k) = t.getD k NUL) ∧
      (ParseConstant_loop exprs fuel s).iend = s.iend + t.length ∧
      (ParseConstant_loop exprs fuel s).numer = s1.numer ∧
      (cget exprs ((ParseConstant_loop exprs fuel s).iend + 1)).isDigit = false ∧
      cget exprs ((ParseConstant_loop exprs fuel s).iend + 1) ≠ '.' ∧
      cget exprs ((ParseConstant_loop exprs fuel s).iend + 1) ≠ 'd' ∧
      cget exprs ((ParseConstant_loop exprs fuel s).iend + 1) ≠ 'e' := by
  intro fuel
  induction fuel with
  | zero =>
    intro s _ _ hlen _
    have hnul : cget exprs (s.iend + 1) = NUL := cget_of_length_le (by omega)
    refine ⟨[], s, rfl, fun k hk => absurd hk (by simp), rfl, rfl, ?_⟩
    show (cget exprs (s.iend + 1)).isDigit = false ∧ cget exprs (s.iend + 1) ≠ '.' ∧
      cget exprs (s.iend + 1) ≠ 'd' ∧ cget exprs (s.iend + 1) ≠ 'e'
    rw [hnul]
    decide
  | succ n ih =>
    intro s hc hv hlen hr
    by_cases hnul : cget exprs (s.iend + 1) = NUL
    · rw [ParseConstant_loop_done exprs _ (Or.inr hnul)]
      refine ⟨[], s, rfl, fun k hk => absurd hk (by simp), rfl, rfl, ?_⟩
      rw [hnul]
      decide
    · rw [ParseConstant_loop_step exprs n hc hnul] at hr ⊢
      rcases ParseConstant_body_cases (cget exprs (s.iend + 1)) s hv with
        ⟨hc1, hv1, hi, _⟩ | ⟨hf, hv1, _⟩ | ⟨he, d1, d2, d3, d4, _⟩
      · obtain ⟨t, s1, e1, e2, e3, e4, e5⟩ := ih _ hc1 hv1 (by omega) hr
        refine ⟨cget exprs (s.iend + 1) :: t, s1, ?_, ?_, ?_, e4, e5⟩
        · unfold ParseConstant_scan
          rw [hc1, hv1]
          exact e1
        · intro k hk
          cases k with
          | zero => rfl
          | succ k =>
            have := e2 k (by simpa using hk)
            rw [hi] at this
            rw [show s.iend + 1 + (k + 1) = s.iend + 1 + 1 + k by omega]
            simpa using this
        · rw [e3, hi, List.length_cons]
          omega
      · rw [ParseConstant_loop_done exprs _ (Or.inl hf), hv1] at hr
        cases hr
      · rw [he, ParseConstant_loop_done exprs _ (Or.inl rfl)]
        exact ⟨[], s, rfl, fun k hk => absurd hk (by simp), rfl, rfl, d1, d2, d3, d4⟩

/-- `ParseConstant` where the text starts with a digit or a decimal point. -/
theorem ParseConstant_of_start {exprs : List Char} {istart : Nat}
    (h : (cget exprs istart).isDigit = true ∨ cget exprs istart = '.') :
    ParseConstant exprs istart =
      if (ParseConstant_loop exprs (exprs.length + 1) (ParseConstant_init exprs istart)).valid &&
          (ParseConstant_loop exprs (exprs.length + 1) (ParseConstant_init exprs istart)).numer
      then
        match sscanf_lf (((exprs.drop istart).take
            ((ParseConstant_loop exprs (exprs.length + 1)
              (ParseConstant_init exprs istart)).iend - istart + 1)).map
            (fun ch => if ch = 'd' then 'e' else ch)) with
        | some (v, nc) =>
          if nc = (ParseConstant_loop exprs (exprs.length + 1)
              (ParseConstant_init exprs istart)).iend - istart + 1 then
            .ok (((ParseConstant_loop exprs (exprs.length + 1)
              (ParseConstant_init exprs istart)).iend : Int), v)
          else .error ⟨ErrCode.CONIN, cprefix ((ParseConstant_loop exprs (exprs.length + 1)
              (ParseConstant_init exprs istart)).iend + 1) exprs⟩
        | none => .error ⟨ErrCode.CONIN, cprefix ((ParseConstant_loop exprs (exprs.length + 1)
              (ParseConstant_init exprs istart)).iend + 1) exprs⟩
      else .error ⟨ErrCode.CONIN, cprefix ((ParseConstant_loop exprs (exprs.length + 1)
              (ParseConstant_init exprs istart)).iend + 1) exprs⟩ := by
  unfold ParseConstant
  have h1 : ((cget exprs istart).isDigit || cget exprs istart == '.') = true := by
    rcases h with h | h
    · simp [h]
    · simp [h]
  simp only [h1, if_true]
  rfl

/-- `ParseConstant` where the text starts with any other character. -/
theorem ParseConstant_of_not_start {exprs : List Char} {istart : Nat}
    (h1 : (cget exprs istart).isDigit = false) (h2 : cget exprs istart ≠ '.') :
    ParseConstant exprs istart = .ok (-1, 0) := by
  unfold ParseConstant
  simp [h1, h2]

/-! ## From the scan to the form of the literal -/

theorem ScanDesc_init {exprs : List Char} {istart : Nat}
    (h : (cget exprs istart).isDigit = true ∨ cget exprs istart = '.') :
    ScanDesc (ParseConstant_init exprs istart) [cget exprs istart] := by
  unfold ScanDesc ParseConstant_init
  simp only [if_true]
  rcases h with h | h
  · have hp : cget exprs istart ≠ '.' := by
      intro e
      rw [e] at h
      exact absurd h (by decide)
    refine ⟨?_, ?_, ?_, ?_⟩
    · intro c hc
      rw [List.mem_singleton] at hc
      subst hc
      exact Or.inl h
    · rw [List.count_singleton]
      split <;> omega
    · intro _ hm
      rw [List.mem_singleton] at hm
      exact hp hm.symm
    · simp [h]
  · rw [h]
    refine ⟨?_, by decide, ?_, ?_⟩
    · intro c hc
      rw [List.mem_singleton] at hc
      exact Or.inr hc
    · intro hd
      exact absurd hd (by decide)
    · simp

/-- One character taken by the scanning loop keeps the description. -/
theorem ScanDesc_step {c : Char} {s : PCState} {t : List Char} (hd : ScanDesc s t)
    (hv : s.valid = true) (hc : (ParseConstant_body c s).iscon = true) :
    ScanDesc (ParseConstant_body c s) (t ++ [c]) := by
  rcases Char.kind_cases c with h | h | h | h | ⟨h1, h2, h3, h4, h5, h6⟩
  · rw [ParseConstant_body_digit h]
    have hp : c ≠ '.' := by
      rintro rfl
      exact absurd h (by decide)
    unfold ScanDesc at hd ⊢
    by_cases he : s.expon = false
    · rw [if_pos he] at hd
      rw [if_pos he]
      obtain ⟨a1, a2, a3, a4⟩ := hd
      refine ⟨?_, ?_, ?_, ?_⟩
      · intro x hx
        rcases List.mem_append.1 hx with hx | hx
        · exact a1 x hx
        · rw [List.mem_singleton] at hx
          subst hx
          exact Or.inl h
      · rw [List.count_append, List.count_singleton]
        rw [if_neg (by simpa using hp)]
        omega
      · intro hdp hm
        rcases List.mem_append.1 hm with hm | hm
        · exact a3 hdp hm
        · rw [List.mem_singleton] at hm
          exact hp hm.symm
      · simp only [true_iff]
        exact ⟨c, by simp, h⟩
    · rw [if_neg he] at hd
      rw [if_neg he]
      obtain ⟨m, mk, sg, ds, e, a1, a2, a3, a4, a5, a6⟩ := hd
      refine ⟨m, mk, sg, ds ++ [c], by rw [e]; simp, a1, a2, a3, ?_, a5, by simp⟩
      intro x hx
      rcases List.mem_append.1 hx with hx | hx
      · exact a4 x hx
      · rw [List.mem_singleton] at hx
        subst hx
        exact h
  · subst h
    rw [ParseConstant_body_point] at hc ⊢
    by_cases hok : (!(s.dpoint || s.expon)) = true
    · rw [if_pos hok]
      simp only [Bool.not_eq_true', Bool.or_eq_false_iff] at hok
      unfold ScanDesc at hd ⊢
      rw [if_pos hok.2] at hd
      rw [if_pos hok.2]
      obtain ⟨a1, a2, a3, a4⟩ := hd
      have hnot := a3 hok.1
      refine ⟨?_, ?_, ?_, ?_⟩
      · intro x hx
        rcases List.mem_append.1 hx with hx | hx
        · exact a1 x hx
        · rw [List.mem_singleton] at hx
          exact Or.inr hx
      · rw [List.count_append, List.count_eq_zero.2 hnot]
        decide
      · intro hdp
        cases hdp
      · rw [a4]
        constructor
        · rintro ⟨x, hx, hx2⟩
          exact ⟨x, List.mem_append_left _ hx, hx2⟩
        · rintro ⟨x, hx, hx2⟩
          rcases List.mem_append.1 hx with hx | hx
          · exact ⟨x, hx, hx2⟩
          · rw [List.mem_singleton] at hx
            subst hx
            exact absurd hx2 (by decide)
    · rw [if_neg hok] at hc
      cases hc
  · rw [ParseConstant_body_marker h] at hc ⊢
    by_cases hok : (!s.expon && s.numer) = true
    · rw [if_pos hok]
      simp only [Bool.and_eq_true, Bool.not_eq_true'] at hok
      unfold ScanDesc at hd ⊢
      rw [if_pos hok.1] at hd
      rw [if_neg (by simp)]
      obtain ⟨a1, a2, a3, a4⟩ := hd
      refine ⟨t, c, [], [], by simp, ⟨a1, a2, a4.1 hok.2⟩, ?_, Or.inl rfl, by simp,
        fun _ => rfl, by simp⟩
      rcases h with h | h
      · exact Or.inr h
      · exact Or.inl h
    · rw [if_neg hok] at hc
      cases hc
  · rw [ParseConstant_body_sign h] at hc ⊢
    by_cases hok : (s.expon && !s.sign && !s.numer) = true
    · rw [if_pos hok]
      simp only [Bool.and_eq_true, Bool.not_eq_true'] at hok
      obtain ⟨⟨e1, e2⟩, e3⟩ := hok
      unfold ScanDesc at hd ⊢
      rw [if_neg (by simp [e1])] at hd
      rw [if_neg (by simp [e1])]
      obtain ⟨m, mk, sg, ds, e, a1, a2, a3, a4, a5, a6⟩ := hd
      have hsg := a5 e2
      have hds : ds = [] := by
        by_contra hne
        have := a6.2 hne
        rw [e3] at this
        cases this
      subst hsg
      subst hds
      refine ⟨m, mk, [c], [], by rw [e]; simp, a1, a2, ?_, by simp, by simp, by simp [e3]⟩
      rcases h with h | h
      · exact Or.inr (Or.inl (by rw [h]))
      · exact Or.inr (Or.inr (by rw [h]))
    · rw [if_neg hok] at hc
      split at hc
      · cases hc
      · cases hc
  · rw [ParseConstant_body_other h1 h2 h3 h4 h5 h6, if_pos hv] at hc
    cases hc

theorem ScanDesc_scan : ∀ (t1 : List Char) (s s1 : PCState) (t0 : List Char),
    ScanDesc s t0 → s.valid = true → ParseConstant_scan s t1 = some s1 →
    ScanDesc s1 (t0 ++ t1) := by
  intro t1
  induction t1 with
  | nil =>
    intro s s1 t0 hd _ h
    cases h
    simpa using hd
  | cons c cs ih =>
    intro s s1 t0 hd hv h
    unfold ParseConstant_scan at h
    split at h
    · rename_i hok
      simp only [Bool.and_eq_true] at hok
      have := ih _ s1 (t0 ++ [c]) (ScanDesc_step hd hv hok.1) hok.2 h
      simpa using this
    · cases h

/-- A described text whose last field has a digit is a numeric literal. -/
theorem IsLiteral_of_ScanDesc {s : PCState} {t : List Char} (hd : ScanDesc s t)
    (hn : s.numer = true) : IsLiteral t := by
  unfold ScanDesc at hd
  split at hd
  · obtain ⟨a1, a2, _, a4⟩ := hd
    exact Or.inl ⟨a1, a2, a4.1 hn⟩
  · obtain ⟨m, mk, sg, ds, e, a1, a2, a3, a4, _, a6⟩ := hd
    exact Or.inr ⟨m, mk :: (sg ++ ds), e, a1, mk, sg, ds, rfl, a2, a3, a6.1 hn, a4⟩

/-! ## From the form of the literal to the scan -/

/-- A text of digits with at most one `.` is a run of digits, or two runs of digits
around the `.`. -/
theorem digits_point_split : ∀ (m : List Char), (∀ c ∈ m, c.isDigit = true ∨ c = '.') →
    m.count '.' ≤ 1 →
    ∃ d1 d2 : List Char, (∀ c ∈ d1, c.isDigit = true) ∧ (∀ c ∈ d2, c.isDigit = true) ∧
      (m = d1 ∨ m = d1 ++ '.' :: d2) := by
  intro m
  induction m with
  | nil => intro _ _; exact ⟨[], [], by simp, by simp, Or.inl rfl⟩
  | cons c m ih =>
    intro hall hcount
    by_cases hc : c = '.'
    · subst hc
      rw [List.count_cons_self] at hcount
      have h0 : m.count '.' = 0 := by omega
      have hnot := List.count_eq_zero.1 h0
      refine ⟨[], m, by simp, ?_, Or.inr rfl⟩
      intro x hx
      rcases hall x (List.mem_cons_of_mem _ hx) with h | h
      · exact h
      · subst h
        exact absurd hx hnot
    · have hd : c.isDigit = true := by
        rcases hall c (List.mem_cons_self _ _) with h | h
        · exact h
        · exact absurd h hc
      rw [List.count_cons_of_ne (fun h => hc h.symm)] at hcount
      obtain ⟨d1, d2, a1, a2, a3⟩ := ih (fun x hx => hall x (List.mem_cons_of_mem _ hx)) hcount
      refine ⟨c :: d1, d2, ?_, a2, ?_⟩
      · intro x hx
        rcases List.mem_cons.1 hx with rfl | hx
        · exact hd
        · exact a1 x hx
      · rcases a3 with rfl | rfl
        · exact Or.inl rfl
        · exact Or.inr rfl

theorem ParseConstant_scan_digits : ∀ (ds : List Char) (s : PCState) (r : List Char),
    (∀ c ∈ ds, c.isDigit = true) → s.iscon = true → s.valid = true →
    ParseConstant_scan s (ds ++ r) =
      ParseConstant_scan
        { s with numer := s.numer || !ds.isEmpty, iend := s.iend + ds.length } r := by
  intro ds
  induction ds with
  | nil =>
    intro s r _ _ _
    simp
  | cons c ds ih =>
    intro s r hall hc hv
    have hd := hall c (List.mem_cons_self _ _)
    rw [List.cons_append, ParseConstant_scan, ParseConstant_body_digit hd,
      if_pos (by simp [hv])]
    rw [ih { s with numer := true, iscon := true, iend := s.iend + 1 } r
      (fun x hx => hall x (List.mem_cons_of_mem _ hx)) rfl hv]
    congr 1
    simp only [List.length_cons, List.isEmpty_cons, Bool.not_false, Bool.or_true, Bool.true_or]
    congr 1
    · omega
    · exact hc.symm

theorem ParseConstant_scan_point (s : PCState) (r : List Char) (h1 : s.dpoint = false)
    (h2 : s.expon = false) (hv : s.valid = true) :
    ParseConstant_scan s ('.' :: r) =
      ParseConstant_scan { s with dpoint := true, iscon := true, iend := s.iend + 1 } r := by
  rw [ParseConstant_scan, ParseConstant_body_point]
  simp [h1, h2, hv]

theorem ParseConstant_scan_marker {c : Char} (h : c = 'd' ∨ c = 'e') (s : PCState)
    (r : List Char) (h1 : s.expon = false) (h2 : s.numer = true) (hv : s.valid = true) :
    ParseConstant_scan s (c :: r) =
      ParseConstant_scan
        { s with expon := true, numer := false, iscon := true, iend := s.iend + 1 } r := by
  rw [ParseConstant_scan, ParseConstant_body_marker h]
  simp [h1, h2, hv]

theorem ParseConstant_scan_sign {c : Char} (h : c = '+' ∨ c = '-') (s : PCState)
    (r : List Char) (h1 : s.expon = true) (h2 : s.sign = false) (h3 : s.numer = false)
    (hv : s.valid = true) :
    ParseConstant_scan s (c :: r) =
      ParseConstant_scan { s with sign := true, iscon := true, iend := s.iend + 1 } r := by
  rw [ParseConstant_scan, ParseConstant_body_sign h]
  simp [h1, h2, h3, hv]

/-- The scan accepts an exponent after a mantissa that has a digit. -/
theorem ParseConstant_scan_exponent {x : List Char} (hx : IsExponent x) (s : PCState)
    (h1 : s.expon = false) (h2 : s.numer = true) (h3 : s.sign = false)
    (hv : s.valid = true) :
    ∃ s1, ParseConstant_scan s x = some s1 ∧ s1.numer = true := by
  obtain ⟨mk, sg, ds, rfl, hmk, hsg, hne, hds⟩ := hx
  have hmk1 : mk = 'd' ∨ mk = 'e' := hmk.symm
  rw [ParseConstant_scan_marker hmk1 s _ h1 h2 hv]
  have hfin : ∀ s2 : PCState, s2.iscon = true → s2.valid = true →
      ∃ s1, ParseConstant_scan s2 ds = some s1 ∧ s1.numer = true := by
    intro s2 hc2 hv2
    have := ParseConstant_scan_digits ds s2 [] hds hc2 hv2
    rw [List.append_nil] at this
    rw [this]
    refine ⟨_, rfl, ?_⟩
    cases ds with
    | nil => exact absurd rfl hne
    | cons c ds => simp
  rcases hsg with rfl | rfl | rfl
  · exact hfin _ rfl hv
  · rw [List.singleton_append, ParseConstant_scan_sign (Or.inl rfl)
      { s with expon := true, numer := false, iscon := true, iend := s.iend + 1 } ds
      rfl h3 rfl hv]
    exact hfin _ rfl hv
  · rw [List.singleton_append, ParseConstant_scan_sign (Or.inr rfl)
      { s with expon := true, numer := false, iscon := true, iend := s.iend + 1 } ds
      rfl h3 rfl hv]
    exact hfin _ rfl hv

/-- A numeric literal is a run of digits, optionally a `.` and a second run of digits
(with a digit in one of the runs), and optionally an exponent. -/
theorem IsLiteral_split {t : List Char} (h : IsLiteral t) :
    ∃ d1 d2 x : List Char, (∀ c ∈ d1, c.isDigit = true) ∧ (∀ c ∈ d2, c.isDigit = true) ∧
      (x = [] ∨ IsExponent x) ∧
      ((t = d1 ++ x ∧ d1 ≠ []) ∨ (t = d1 ++ '.' :: (d2 ++ x) ∧ (d1 ≠ [] ∨ d2 ≠ []))) := by
  have key : ∀ m x : List Char, IsMantissa m → (x = [] ∨ IsExponent x) →
      ∃ d1 d2 x1 : List Char, (∀ c ∈ d1, c.isDigit = true) ∧ (∀ c ∈ d2, c.isDigit = true) ∧
        (x1 = [] ∨ IsExponent x1) ∧
        ((m ++ x = d1 ++ x1 ∧ d1 ≠ []) ∨
          (m ++ x = d1 ++ '.' :: (d2 ++ x1) ∧ (d1 ≠ [] ∨ d2 ≠ []))) := by
    intro m x hm hx
    obtain ⟨a1, a2, c, hcm, hcd⟩ := hm
    obtain ⟨d1, d2, b1, b2, b3⟩ := digits_point_split m a1 a2
    refine ⟨d1, d2, x, b1, b2, hx, ?_⟩
    rcases b3 with rfl | rfl
    · exact Or.inl ⟨rfl, List.ne_nil_of_mem hcm⟩
    · refine Or.inr ⟨by simp, ?_⟩
      rcases List.mem_append.1 hcm with h1 | h1
      · exact Or.inl (List.ne_nil_of_mem h1)
      · rcases List.mem_cons.1 h1 with h1 | h1
        · subst h1
          exact absurd hcd (by decide)
        · exact Or.inr (List.ne_nil_of_mem h1)
  rcases h with h | ⟨m, x, rfl, hm, hx⟩
  · have := key t [] h (Or.inl rfl)
    simpa using this
  · exact key m x hm (Or.inr hx)

/-- The scan accepts the characters after the first one of a numeric literal and ends
with a digit in its last field. -/
theorem ParseConstant_scan_literal (i : Nat) {c0 : Char} {t : List Char}
    (h : IsLiteral (c0 :: t)) :
    (c0.isDigit = true ∨ c0 = '.') ∧
    ∃ s1, ParseConstant_scan ⟨i, c0.isDigit, c0 == '.', false, false, true, true⟩ t = some s1 ∧
      s1.numer = true := by
  obtain ⟨d1, d2, x, b1, b2, hx, hsplit⟩ := IsLiteral_split h
  have hexp : ∀ s : PCState, s.expon = false → s.numer = true → s.sign = false →
      s.valid = true → ∃ s1, ParseConstant_scan s x = some s1 ∧ s1.numer = true := by
    intro s e1 e2 e3 e4
    rcases hx with rfl | hx
    · exact ⟨s, rfl, e2⟩
    · exact ParseConstant_scan_exponent hx s e1 e2 e3 e4
  cases d1 with
  | nil =>
    rcases hsplit with ⟨_, hne⟩ | ⟨e, hne⟩
    · exact absurd rfl hne
    · rw [List.nil_append] at e
      injection e with e1 e2
      subst e1 e2
      have hd2 : d2 ≠ [] := by
        rcases hne with h1 | h1
        · exact absurd rfl h1
        · exact h1
      refine ⟨Or.inr rfl, ?_⟩
      rw [ParseConstant_scan_digits d2 _ x b2 rfl rfl]
      apply hexp _ rfl _ rfl rfl
      cases d2 with
      | nil => exact absurd rfl hd2
      | cons c d2 => simp
  | cons c d1 =>
    have hc0 : c0 = c := by
      rcases hsplit with ⟨e, _⟩ | ⟨e, _⟩
      · rw [List.cons_append] at e
        injection e
      · rw [List.cons_append] at e
        injection e
    subst hc0
    have hd := b1 c0 (List.mem_cons_self _ _)
    have hp : (c0 == '.') = false := by
      rw [beq_eq_false_iff_ne]
      rintro rfl
      exact absurd hd (by decide)
    refine ⟨Or.inl hd, ?_⟩
    rw [hd, hp]
    have b1t : ∀ c ∈ d1, c.isDigit = true := fun c hc => b1 c (List.mem_cons_of_mem _ hc)
    rcases hsplit with ⟨e, _⟩ | ⟨e, _⟩
    · rw [List.cons_append] at e
      injection e with _ e
      subst e
      rw [ParseConstant_scan_digits d1 _ x b1t rfl rfl]
      exact hexp _ rfl rfl rfl rfl
    · rw [List.cons_append] at e
      injection e with _ e
      subst e
      rw [ParseConstant_scan_digits d1 _ _ b1t rfl rfl,
        ParseConstant_scan_point _ _ rfl rfl rfl,
        ParseConstant_scan_digits d2 _ x b2 rfl rfl]
      exact hexp _ rfl rfl rfl rfl

/-- `scanDigits` passes over a run of digits that is not followed by a digit. -/
theorem scanDigits_digits : ∀ (ds r : List Char) (acc n : Nat),
    (∀ c ∈ ds, c.isDigit = true) → (∀ c ∈ r.head?, c.isDigit = false) →
    ∃ v, scanDigits (ds ++ r) acc n = (v, n + ds.length, r) := by
  intro ds
  induction ds with
  | nil =>
    intro r acc n _ hr
    cases r with
    | nil => exact ⟨acc, rfl⟩
    | cons c r =>
      refine ⟨acc, ?_⟩
      have := hr c (by simp)
      simp [scanDigits, this]
  | cons c ds ih =>
    intro r acc n hall hr
    have hd := hall c (List.mem_cons_self _ _)
    obtain ⟨v, hv⟩ := ih r (acc * 10 + (c.toNat - 48)) (n + 1)
      (fun x hx => hall x (List.mem_cons_of_mem _ hx)) hr
    refine ⟨v, ?_⟩
    rw [List.cons_append, scanDigits, if_pos hd, hv, List.length_cons]
    congr 2
    omega

theorem map_replace_digits : ∀ (ds : List Char), (∀ c ∈ ds, c.isDigit = true) →
    ds.map (fun ch => if ch = 'd' then 'e' else ch) = ds := by
  intro ds
  induction ds with
  | nil => intro _; rfl
  | cons c ds ih =>
    intro hall
    have hd := hall c (List.mem_cons_self _ _)
    have hc : c ≠ 'd' := by
      rintro rfl
      exact absurd hd (by decide)
    rw [List.map_cons, if_neg hc, ih (fun x hx => hall x (List.mem_cons_of_mem _ hx))]

/-- The exponent part read by `sscanf`. -/
theorem sscanf_lf_exponent (n1 np n2 m2 : Nat) (r2 : List Char)
    (h : r2 = [] ∨ ∃ sg ds, r2 = 'e' :: (sg ++ ds) ∧ (sg = [] ∨ sg = ['+'] ∨ sg = ['-']) ∧
      ds ≠ [] ∧ ∀ c ∈ ds, c.isDigit = true) (hn : n1 + n2 ≠ 0) :
    ∃ v, (if n1 + n2 = 0 then none
      else
        match r2 with
        | 'e' :: t =>
          (match (match t with
                  | '+' :: u => (false, u, 1)
                  | '-' :: u => (true, u, 1)
                  | _ => (false, t, 0)) with
           | (neg, u, ns) =>
             match scanDigits u 0 0 with
             | (e, ne, _) =>
               if ne = 0 then some ((m2 : Rat) / (10 : Rat) ^ n2, n1 + np + n2)
               else if neg then
                 some ((m2 : Rat) / (10 : Rat) ^ n2 / (10 : Rat) ^ e, n1 + np + n2 + 1 + ns + ne)
               else
                 some ((m2 : Rat) / (10 : Rat) ^ n2 * (10 : Rat) ^ e, n1 + np + n2 + 1 + ns + ne))
        | _ => some ((m2 : Rat) / (10 : Rat) ^ n2, n1 + np + n2)) =
      some (v, n1 + np + n2 + r2.length) := by
  rw [if_neg hn]
  rcases h with rfl | ⟨sg, ds, rfl, hsg, hne, hds⟩
  · exact ⟨_, rfl⟩
  · obtain ⟨e, he⟩ := scanDigits_digits ds [] 0 0 hds (by simp)
    rw [List.append_nil, Nat.zero_add] at he
    have hlen : ds.length ≠ 0 := by
      intro h0
      exact hne (List.length_eq_zero.1 h0)
    rcases hsg with rfl | rfl | rfl
    · cases ds with
      | nil => exact absurd rfl hne
      | cons c ds =>
        have hd := hds c (List.mem_cons_self _ _)
        have hp : c ≠ '+' := by
          rintro rfl
          exact absurd hd (by decide)
        have hm : c ≠ '-' := by
          rintro rfl
          exact absurd hd (by decide)
        have hmatch : (match c :: ds with
            | '+' :: u => (false, u, 1)
            | '-' :: u => (true, u, 1)
            | _ => (false, c :: ds, 0)) = (false, c :: ds, 0) := by
          split
          · rename_i u hu
            injection hu with hu _
            exact absurd hu hp
          · rename_i u hu
            injection hu with hu _
            exact absurd hu hm
          · rfl
        simp only [List.nil_append, hmatch, he, if_neg hlen]
        refine ⟨(m2 : Rat) / (10 : Rat) ^ n2 * (10 : Rat) ^ e, ?_⟩
        simp only [Bool.false_eq_true, if_false, List.length_cons]
        congr 2
        omega
    · simp only [List.singleton_append, he, if_neg hlen]
      refine ⟨(m2 : Rat) / (10 : Rat) ^ n2 * (10 : Rat) ^ e, ?_⟩
      simp only [Bool.false_eq_true, if_false, List.length_cons]
      congr 2
      omega
    · simp only [List.singleton_append, he, if_neg hlen]
      refine ⟨(m2 : Rat) / (10 : Rat) ^ n2 / (10 : Rat) ^ e, ?_⟩
      simp only [if_true, List.length_cons]
      congr 2
      omega

theorem map_replace_exponent {x : List Char} (h : x = [] ∨ IsExponent x) :
    (x.map (fun ch => if ch = 'd' then 'e' else ch) = [] ∨
      ∃ sg ds, x.map (fun ch => if ch = 'd' then 'e' else ch) = 'e' :: (sg ++ ds) ∧
        (sg = [] ∨ sg = ['+'] ∨ sg = ['-']) ∧ ds ≠ [] ∧ ∀ c ∈ ds, c.isDigit = true) ∧
    (∀ c ∈ (x.map (fun ch => if ch = 'd' then 'e' else ch)).head?, c.isDigit = false ∧ c ≠ '.') := by
  rcases h with rfl | ⟨mk, sg, ds, rfl, hmk, hsg, hne, hds⟩
  · exact ⟨Or.inl rfl, by simp⟩
  · have hmk1 : (if mk = 'd' then 'e' else mk) = 'e' := by
      rcases hmk with rfl | rfl <;> decide
    have hsg1 : sg.map (fun ch => if ch = 'd' then 'e' else ch) = sg := by
      rcases hsg with rfl | rfl | rfl <;> decide
    rw [List.map_cons, List.map_append, hmk1, hsg1, map_replace_digits ds hds]
    refine ⟨Or.inr ⟨sg, ds, rfl, hsg, hne, hds⟩, ?_⟩
    intro c hc
    simp only [List.head?_cons, Option.mem_def, Option.some.injEq] at hc
    subst hc
    decide

/-- The model of `sscanf` reads a numeric literal to its end. -/
theorem sscanf_lf_literal {t : List Char} (h : IsLiteral t) :
    ∃ v, sscanf_lf (t.map (fun ch => if ch = 'd' then 'e' else ch)) = some (v, t.length) := by
  obtain ⟨d1, d2, x, b1, b2, hx, hsplit⟩ := IsLiteral_split h
  obtain ⟨hx1, hx2⟩ := map_replace_exponent hx
  have hxlen : (x.map (fun ch => if ch = 'd' then 'e' else ch)).length = x.length :=
    List.length_map _ _
  generalize hx1eq : x.map (fun ch => if ch = 'd' then 'e' else ch) = x1 at hx1 hx2 hxlen
  rcases hsplit with ⟨rfl, hne⟩ | ⟨rfl, hne⟩
  · rw [List.map_append, map_replace_digits d1 b1, hx1eq]
    obtain ⟨v1, hv1⟩ := scanDigits_digits d1 x1 0 0 b1 (fun c hc => (hx2 c hc).1)
    have hm : (match x1 with
        | '.' :: t => (match scanDigits t v1 0 with | (m, n, r) => (m, n, r, 1))
        | _ => (v1, 0, x1, 0)) = (v1, 0, x1, 0) := by
      split
      · rename_i t
        exact absurd rfl (hx2 '.' (by simp)).2
      · rfl
    have hn : 0 + d1.length + 0 ≠ 0 := by
      intro h0
      exact hne (List.length_eq_zero.1 (by omega))
    obtain ⟨v, hv⟩ := sscanf_lf_exponent (0 + d1.length) 0 0 v1 x1 hx1 hn
    refine ⟨v, ?_⟩
    unfold sscanf_lf
    rw [hv1]
    simp only [hm]
    rw [List.length_append, ← hxlen]
    simpa using hv
  · rw [List.map_append, map_replace_digits d1 b1, List.map_cons, List.map_append,
      map_replace_digits d2 b2, hx1eq, if_neg (by decide)]
    obtain ⟨v1, hv1⟩ := scanDigits_digits d1 ('.' :: (d2 ++ x1)) 0 0 b1 (by simp)
    obtain ⟨v2, hv2⟩ := scanDigits_digits d2 x1 v1 0 b2 (fun c hc => (hx2 c hc).1)
    have hn : 0 + d1.length + (0 + d2.length) ≠ 0 := by
      intro h0
      rcases hne with h1 | h1
      · exact h1 (List.length_eq_zero.1 (by omega))
      · exact h1 (List.length_eq_zero.1 (by omega))
    obtain ⟨v, hv⟩ := sscanf_lf_exponent (0 + d1.length) 1 (0 + d2.length) v2 x1 hx1 hn
    refine ⟨v, ?_⟩
    unfold sscanf_lf
    rw [hv1]
    simp only [hv2]
    simp only [List.length_append, List.length_cons, ← hxlen]
    rw [show d1.length + (d2.length + x1.length + 1) =
      0 + d1.length + 1 + (0 + d2.length) + x1.length by omega]
    simpa using hv


/-! ## The text of a constant -/

theorem textAt_length (exprs : List Char) (i j : Nat) : (textAt exprs i j).length = j + 1 - i := by
  simp [textAt]

theorem cget_textAt (exprs : List Char) (i j : Nat) {k : Nat} (h : k < j + 1 - i) :
    cget (textAt exprs i j) k = cget exprs (i + k) := by
  unfold textAt
  rw [cget_eq_getElem (by simpa using h)]
  simp

/-- The text from `i` to `i + t.length` when `t` lists the characters after `i`. -/
theorem textAt_eq_cons (exprs : List Char) (i : Nat) (t : List Char)
    (h : ∀ k, k < t.length → cget exprs (i + 1 + k) = t.getD k NUL) :
    textAt exprs i (i + t.length) = cget exprs i :: t := by
  apply list_eq_of_cget
  · rw [textAt_length, List.length_cons]
    omega
  · intro k hk
    rw [textAt_length] at hk
    rw [cget_textAt exprs i _ hk]
    cases k with
    | zero => rfl
    | succ k =>
      have := h k (by omega)
      rw [show i + (k + 1) = i + 1 + k by omega, this]
      rfl

theorem textAt_take_drop (exprs : List Char) (i j : Nat)
    (h : ∀ k, k < j + 1 - i → cget exprs (i + k) ≠ NUL) :
    (exprs.drop i).take (j + 1 - i) = textAt exprs i j := by
  apply list_eq_of_cget
  · rw [textAt_length, length_take_drop exprs i _ h]
  · intro k hk
    rw [length_take_drop exprs i _ h] at hk
    rw [cget_take_drop _ _ _ hk, cget_textAt exprs i j hk]

theorem ParseConstant_scan_ne_NUL : ∀ (t : List Char) (s s1 : PCState), s.valid = true →
    ParseConstant_scan s t = some s1 → ∀ c ∈ t, c ≠ NUL := by
  intro t
  induction t with
  | nil => intro s s1 _ _ c hc; cases hc
  | cons c0 t ih =>
    intro s s1 hv h c hc
    unfold ParseConstant_scan at h
    split at h
    · rename_i hok
      simp only [Bool.and_eq_true] at hok
      rcases List.mem_cons.1 hc with rfl | hc
      · rcases ParseConstant_body_cases c s hv with ⟨_, _, _, hn⟩ | ⟨hf, _⟩ | ⟨he, _⟩
        · exact hn
        · rw [hf] at hok
          exact absurd hok.1 (by simp)
        · rw [he] at hok
          exact absurd hok.1 (by simp)
      · exact ih _ s1 hok.2 h c hc
    · cases h

/-- C11: `ParseConstant` succeeds at position `istart` with end index `j` exactly when the
text from `istart` to `j` is a mantissa (digits with at most one `.` and at least one
digit), or a mantissa followed by an exponent (`e` or `d`, at most one sign, at least one
digit), and the character after `j` is the end of the text or is not a digit, `.`, `d`
or `e`.  A sign that follows a digit is not part of the literal: `1e5+3` yields the
literal `1e5` and `1+2` yields `1`. -/
theorem C11_literal_form :
    (∀ (exprs : List Char) (istart j : Nat),
      (∃ v, ParseConstant exprs istart = .ok ((j : Int), v)) ↔
        (istart ≤ j ∧ IsLiteral (textAt exprs istart j) ∧
          (cget exprs (j + 1) = NUL ∨
            ((cget exprs (j + 1)).isDigit = false ∧ cget exprs (j + 1) ≠ '.' ∧
              cget exprs (j + 1) ≠ 'd' ∧ cget exprs (j + 1) ≠ 'e')))) ∧
    ParseConstant "1e5+3".toList 0 = .ok (2, 100000) ∧
    ParseConstant "1+2".toList 0 = .ok (0, 1) ∧
    ParseConstant "x+.5d-1)".toList 2 = .ok (6, 1 / 20) := by
  refine ⟨?_, by decide!, by decide!, by decide!⟩
  intro exprs istart j
  constructor
  · rintro ⟨v, hpc⟩
    by_cases hstart : (cget exprs istart).isDigit = true ∨ cget exprs istart = '.'
    · rw [ParseConstant_of_start hstart] at hpc
      split at hpc
      · rename_i hvn
        simp only [Bool.and_eq_true] at hvn
        split at hpc
        · split at hpc
          · injection hpc with hpc
            injection hpc with hj _
            have hj : (ParseConstant_loop exprs (exprs.length + 1)
                (ParseConstant_init exprs istart)).iend = j := by omega
            obtain ⟨t, s1, e1, e2, e3, e4, e5⟩ :=
              ParseConstant_loop_traj exprs (exprs.length + 1) (ParseConstant_init exprs istart)
                rfl rfl (by show exprs.length ≤ istart + (exprs.length + 1); omega) hvn.1
            rw [hj] at e3 e5
            have e3 : j = istart + t.length := e3
            have hdesc := ScanDesc_scan t _ s1 [cget exprs istart] (ScanDesc_init hstart) rfl e1
            have hlit := IsLiteral_of_ScanDesc hdesc (by rw [← e4]; exact hvn.2)
            refine ⟨by omega, ?_, Or.inr e5⟩
            rw [e3, textAt_eq_cons exprs istart t e2]
            exact hlit
          · cases hpc
        · cases hpc
      · cases hpc
    · simp only [not_or, Bool.not_eq_true] at hstart
      rw [ParseConstant_of_not_start hstart.1 hstart.2] at hpc
      injection hpc with hpc
      injection hpc with hj _
      omega
  · rintro ⟨hle, hlit, hnext⟩
    obtain ⟨n, rfl⟩ : ∃ n, j = istart + n := ⟨j - istart, by omega⟩
    have htext : textAt exprs istart (istart + n) =
        cget exprs istart :: textAt exprs (istart + 1) (istart + n) := by
      apply list_eq_of_cget
      · simp only [textAt_length, List.length_cons]
        omega
      · intro k hk
        rw [textAt_length] at hk
        rw [cget_textAt exprs istart _ hk]
        cases k with
        | zero => rfl
        | succ k =>
          show _ = cget (textAt exprs (istart + 1) (istart + n)) k
          rw [cget_textAt exprs (istart + 1) _ (by omega)]
          congr 1
          omega
    rw [htext] at hlit
    obtain ⟨hstart, s1, hscan, hnum⟩ := ParseConstant_scan_literal istart hlit
    have hscan : ParseConstant_scan (ParseConstant_init exprs istart)
        (textAt exprs (istart + 1) (istart + n)) = some s1 := hscan
    have htl : (textAt exprs (istart + 1) (istart + n)).length = n := by
      rw [textAt_length]
      omega
    have hget : ∀ k, k < (textAt exprs (istart + 1) (istart + n)).length →
        cget exprs ((ParseConstant_init exprs istart).iend + 1 + k) =
          (textAt exprs (istart + 1) (istart + n)).getD k NUL := by
      intro k hk
      rw [textAt_length] at hk
      exact (cget_textAt exprs (istart + 1) _ hk).symm
    have hnn := ParseConstant_scan_ne_NUL _ _ s1 rfl hscan
    have hc0 : cget exprs istart ≠ NUL := by
      rcases hstart with h | h
      · intro e
        rw [e] at h
        exact absurd h (by decide)
      · rw [h]
        decide
    have hallnn : ∀ k, k < istart + n + 1 - istart → cget exprs (istart + k) ≠ NUL := by
      intro k hk
      cases k with
      | zero => exact hc0
      | succ k =>
        have hk1 : k < n := by omega
        have := hget k (by rw [htl]; exact hk1)
        rw [show istart + (k + 1) = (ParseConstant_init exprs istart).iend + 1 + k by
          show _ = istart + 1 + k
          omega, this]
        apply hnn
        rw [List.getD_eq_getElem?_getD, List.getElem?_eq_getElem (by rw [htl]; exact hk1)]
        exact List.getElem_mem _
    have hlast : istart + n < exprs.length := by
      have := cget_ne_NUL_lt (hallnn n (by omega))
      exact this
    obtain ⟨f, hf⟩ : ∃ f, exprs.length + 1 = f + 1 + n := ⟨exprs.length - n, by omega⟩
    obtain ⟨l1, l2, l3, l4⟩ := ParseConstant_loop_scan exprs _ _ s1 (f + 1) rfl rfl hget hscan
    rw [htl] at l1 l2
    have l2 : s1.iend = istart + n := l2
    have hfinal : ∃ r, ParseConstant_loop exprs (exprs.length + 1)
        (ParseConstant_init exprs istart) = r ∧ r.valid = true ∧ r.numer = true ∧
        r.iend = istart + n := by
      rw [hf, l1]
      by_cases hnul : cget exprs (s1.iend + 1) = NUL
      · rw [ParseConstant_loop_done exprs _ (Or.inr hnul)]
        exact ⟨s1, rfl, l4, hnum, l2⟩
      · rw [ParseConstant_loop_step exprs f l3 hnul]
        rw [l2] at hnul ⊢
        rcases hnext with h | ⟨h1, h2, h3, h4⟩
        · exact absurd h hnul
        · rw [ParseConstant_body_stop l4 h1 h2 h3 h4 hnum,
            ParseConstant_loop_done exprs _ (Or.inl rfl)]
          exact ⟨_, rfl, l4, hnum, l2⟩
    obtain ⟨r, hr, r1, r2, r3⟩ := hfinal
    rw [ParseConstant_of_start hstart, hr, r1, r2, r3]
    simp only [Bool.and_self, if_true]
    rw [show istart + n - istart + 1 = istart + n + 1 - istart by omega,
      textAt_take_drop exprs istart (istart + n) hallnn]
    rw [← htext] at hlit
    obtain ⟨v, hv⟩ := sscanf_lf_literal hlit
    rw [hv, textAt_length]
    exact ⟨v, by simp⟩

/-! ## Invalid constants -/

theorem takeWhile_append_stop {α : Type} (p : α → Bool) : ∀ (l1 : List α) (a : α) (l2 : List α),
    (∀ x ∈ l1, p x = true) → p a = false → (l1 ++ a :: l2).takeWhile p = l1 := by
  intro l1
  induction l1 with
  | nil =>
    intro a l2 _ ha
    simp [List.takeWhile, ha]
  | cons x l1 ih =>
    intro a l2 hall ha
    rw [List.cons_append, List.takeWhile_cons_of_pos (hall x (List.mem_cons_self _ _)),
      ih a l2 (fun y hy => hall y (List.mem_cons_of_mem _ hy)) ha]

theorem takeWhile_all {α : Type} (p : α → Bool) : ∀ (l : List α),
    (∀ x ∈ l, p x = true) → l.takeWhile p = l := by
  intro l
  induction l with
  | nil => intro _; rfl
  | cons x l ih =>
    intro hall
    rw [List.takeWhile_cons_of_pos (hall x (List.mem_cons_self _ _)),
      ih (fun y hy => hall y (List.mem_cons_of_mem _ hy))]

theorem not_marker_of_digit_or_point {c : Char} (h : c.isDigit = true ∨ c = '.') :
    (!(c == 'd' || c == 'e')) = true := by
  rcases h with h | rfl
  · have h1 : c ≠ 'd' := by
      rintro rfl
      exact absurd h (by decide)
    have h2 : c ≠ 'e' := by
      rintro rfl
      exact absurd h (by decide)
    simp [h1, h2]
  · decide

/-- What the description of the scanned text says about the flags of `ParseConstant`:
`dpoint` or `expon` is set when the text has a `.`, `expon` is set when it has an
exponent character, `numer` is clear when the last field has no digit, and the state
"exponent field, no sign, no digit" is that of a text ending in the exponent character. -/
theorem ScanDesc_flags {s : PCState} {t : List Char} (hd : ScanDesc s t) :
    ('.' ∈ t → s.dpoint = true ∨ s.expon = true) ∧
    (('d' ∈ t ∨ 'e' ∈ t) → s.expon = true) ∧
    ((∀ x ∈ lastField t, x.isDigit = false) → s.numer = false) ∧
    (s.expon = true → s.sign = false → s.numer = false →
      t.getLast? = some 'd' ∨ t.getLast? = some 'e') := by
  unfold ScanDesc at hd
  by_cases he : s.expon = false
  · rw [if_pos he] at hd
    obtain ⟨a1, a2, a3, a4⟩ := hd
    refine ⟨?_, ?_, ?_, ?_⟩
    · intro hp
      left
      by_contra hdp
      exact a3 (by simpa using hdp) hp
    · rintro (h | h)
      · exact absurd (a1 _ h) (by decide)
      · exact absurd (a1 _ h) (by decide)
    · intro hno
      have hlf : lastField t = t := by
        unfold lastField
        rw [takeWhile_all _ _ (fun x hx => not_marker_of_digit_or_point
          (a1 x (List.mem_reverse.1 hx))), List.reverse_reverse]
      rw [hlf] at hno
      by_contra hn
      obtain ⟨c, hc, hcd⟩ := a4.1 (by simpa using hn)
      rw [hno c hc] at hcd
      cases hcd
    · intro h
      rw [he] at h
      cases h
  · rw [if_neg he] at hd
    obtain ⟨m, mk, sg, ds, e, a1, a2, a3, a4, a5, a6⟩ := hd
    have he1 : s.expon = true := by simpa using he
    refine ⟨fun _ => Or.inr he1, fun _ => he1, ?_, ?_⟩
    · intro hno
      have hlf : lastField t = sg ++ ds := by
        unfold lastField
        rw [e, List.reverse_append, List.reverse_cons, List.append_assoc, List.singleton_append,
          takeWhile_append_stop _ _ _ _ ?_ ?_, List.reverse_reverse]
        · intro x hx
          rcases List.mem_append.1 (List.mem_reverse.1 hx) with h | h
          · rcases a3 with rfl | rfl | rfl
            · cases h
            · rw [List.mem_singleton] at h
              subst h
              decide
            · rw [List.mem_singleton] at h
              subst h
              decide
          · exact not_marker_of_digit_or_point (Or.inl (a4 x h))
        · rcases a2 with rfl | rfl <;> decide
      rw [hlf] at hno
      by_contra hn
      have hds := a6.1 (by simpa using hn)
      cases ds with
      | nil => exact hds rfl
      | cons c ds =>
        have h1 := hno c (List.mem_append_right _ (List.mem_cons_self _ _))
        rw [a4 c (List.mem_cons_self _ _)] at h1
        cases h1
    · intro _ hs hn
      have hsg := a5 hs
      have hds : ds = [] := by
        by_contra hne
        have := a6.2 hne
        rw [hn] at this
        cases this
      subst hsg hds
      rw [e]
      have hl : (m ++ [mk]).getLast? = some mk := by simp
      rw [List.append_nil, hl]
      rcases a2 with rfl | rfl
      · exact Or.inr rfl
      · exact Or.inl rfl

/-- When the loop of `ParseConstant` ends with an invalid state or without a digit in
the last field, `ParseConstant` reports `CONIN`. -/
theorem ParseConstant_invalid {exprs : List Char} {istart : Nat} {r : PCState}
    (hstart : (cget exprs istart).isDigit = true ∨ cget exprs istart = '.')
    (hr : ParseConstant_loop exprs (exprs.length + 1) (ParseConstant_init exprs istart) = r)
    (hbad : r.valid = false ∨ r.numer = false) :
    ParseConstant exprs istart = .error ⟨ErrCode.CONIN, cprefix (r.iend + 1) exprs⟩ := by
  rw [ParseConstant_of_start hstart, hr, if_neg]
  rcases hbad with h | h
  · simp [h]
  · simp [h]

/-- After the scan has taken the characters `t`, the loop of `ParseConstant` goes on from
the state that the scan has reached, with fuel left. -/
theorem ParseConstant_loop_after_scan {exprs : List Char} {istart : Nat} {t : List Char}
    {s : PCState} (hstart : (cget exprs istart).isDigit = true ∨ cget exprs istart = '.')
    (hscan : ParseConstant_scan (ParseConstant_init exprs istart) t = some s)
    (htext : ∀ k, k < t.length → cget exprs (istart + 1 + k) = t.getD k NUL) :
    ∃ f, ParseConstant_loop exprs (exprs.length + 1) (ParseConstant_init exprs istart) =
        ParseConstant_loop exprs (f + 1) s ∧
      s.iend = istart + t.length ∧ s.iscon = true ∧ s.valid = true := by
  have hnn := ParseConstant_scan_ne_NUL _ _ s rfl hscan
  have hc0 : cget exprs istart ≠ NUL := by
    rcases hstart with h | h
    · intro e
      rw [e] at h
      exact absurd h (by decide)
    · rw [h]
      decide
  have hlast : istart + t.length < exprs.length := by
    cases hn : t.length with
    | zero => exact cget_ne_NUL_lt hc0
    | succ n =>
      have h1 := htext n (by omega)
      have h2 : t.getD n NUL ≠ NUL := by
        apply hnn
        rw [List.getD_eq_getElem?_getD, List.getElem?_eq_getElem (by omega)]
        exact List.getElem_mem _
      rw [← h1] at h2
      have := cget_ne_NUL_lt h2
      omega
  obtain ⟨f, hf⟩ : ∃ f, exprs.length + 1 = f + 1 + t.length :=
    ⟨exprs.length - t.length, by omega⟩
  obtain ⟨l1, l2, l3, l4⟩ := ParseConstant_loop_scan exprs t _ s (f + 1) rfl rfl htext hscan
  exact ⟨f, by rw [hf, l1], l2, l3, l4⟩

/-- C12: if the text at the position starts with a digit or `.`, `ParseConstant` either
succeeds with an end index at or after the position or fails with `CONIN`.  After the
loop has taken the characters `t` (the text so far is `c0 :: t`), it fails with `CONIN`
when the next character is a `.` and the text has a `.` or an exponent character, when it
is an exponent character and the text has an exponent character or no digit, when it is
a sign, the last field has no digit and the text does not end with the exponent
character, and when the constant ends there and the last field has no digit.  If the
text starts with any other character, `ParseConstant` returns end index -1 and value 0
without error. -/
theorem C12_invalid_constant :
    (∀ (exprs : List Char) (istart : Nat),
      ((cget exprs istart).isDigit = true ∨ cget exprs istart = '.') →
      (∃ (j : Nat) (v : Rat), istart ≤ j ∧ ParseConstant exprs istart = .ok ((j : Int), v)) ∨
      (∃ q, ParseConstant exprs istart = .error ⟨ErrCode.CONIN, q⟩)) ∧
    (∀ (exprs : List Char) (istart : Nat),
      (cget exprs istart).isDigit = false → cget exprs istart ≠ '.' →
      ParseConstant exprs istart = .ok (-1, 0)) ∧
    (∀ (exprs : List Char) (istart : Nat) (t : List Char) (s : PCState) (c : Char),
      ((cget exprs istart).isDigit = true ∨ cget exprs istart = '.') →
      ParseConstant_scan (ParseConstant_init exprs istart) t = some s →
      (∀ k, k < t.length → cget exprs (istart + 1 + k) = t.getD k NUL) →
      c = cget exprs (istart + t.length + 1) →
      (((c = '.' ∧ ('.' ∈ cget exprs istart :: t ∨ 'd' ∈ cget exprs istart :: t ∨
            'e' ∈ cget exprs istart :: t)) ∨
          ((c = 'd' ∨ c = 'e') ∧ ('d' ∈ cget exprs istart :: t ∨ 'e' ∈ cget exprs istart :: t ∨
            ∀ x ∈ cget exprs istart :: t, x.isDigit = false)) ∨
          ((c = '+' ∨ c = '-') ∧ (∀ x ∈ lastField (cget exprs istart :: t), x.isDigit = false) ∧
            (cget exprs istart :: t).getLast? ≠ some 'd' ∧
            (cget exprs istart :: t).getLast? ≠ some 'e')) →
        ParseConstant exprs istart =
          .error ⟨ErrCode.CONIN, cprefix (istart + t.length + 2) exprs⟩) ∧
      ((∀ x ∈ lastField (cget exprs istart :: t), x.isDigit = false) →
        (c = NUL ∨ (c.isDigit = false ∧ c ≠ '.' ∧ c ≠ 'd' ∧ c ≠ 'e' ∧ c ≠ '+' ∧ c ≠ '-')) →
        ParseConstant exprs istart =
          .error ⟨ErrCode.CONIN, cprefix (istart + t.length + 1) exprs⟩)) ∧
    ParseConstant "1.2.3".toList 0 = .error ⟨ErrCode.CONIN, "1.2.".toList⟩ ∧
    ParseConstant "1e2.5".toList 0 = .error ⟨ErrCode.CONIN, "1e2.".toList⟩ ∧
    ParseConstant "1e5e3".toList 0 = .error ⟨ErrCode.CONIN, "1e5e".toList⟩ ∧
    ParseConstant ".e5".toList 0 = .error ⟨ErrCode.CONIN, ".e".toList⟩ ∧
    ParseConstant ".".toList 0 = .error ⟨ErrCode.CONIN, ".".toList⟩ ∧
    ParseConstant "2e".toList 0 = .error ⟨ErrCode.CONIN, "2e".toList⟩ ∧
    ParseConstant "2e+".toList 0 = .error ⟨ErrCode.CONIN, "2e+".toList⟩ ∧
    ParseConstant ".+2".toList 0 = .error ⟨ErrCode.CONIN, ".+".toList⟩ ∧
    ParseConstant "1e+-5".toList 0 = .error ⟨ErrCode.CONIN, "1e+-".toList⟩ ∧
    ParseConstant "a1".toList 0 = .ok (-1, 0) := by
  refine ⟨?_, ?_, ?_, by decide!, by decide!, by decide!, by decide!, by decide!, by decide!,
    by decide!, by decide!, by decide!, by decide!⟩
  · intro exprs istart hstart
    have hge := ParseConstant_loop_iend exprs (exprs.length + 1)
      (ParseConstant_init exprs istart) rfl
    rw [ParseConstant_of_start hstart]
    split
    · split
      · split
        · exact Or.inl ⟨_, _, hge, rfl⟩
        · exact Or.inr ⟨_, rfl⟩
      · exact Or.inr ⟨_, rfl⟩
    · exact Or.inr ⟨_, rfl⟩
  · intro exprs istart h1 h2
    exact ParseConstant_of_not_start h1 h2
  · intro exprs istart t s c hstart hscan htext hc
    have hdesc := ScanDesc_scan t _ s [cget exprs istart] (ScanDesc_init hstart) rfl hscan
    rw [List.singleton_append] at hdesc
    obtain ⟨f1, f2, f3, f4⟩ := ScanDesc_flags hdesc
    obtain ⟨f, hloop, hiend, hcon, hval⟩ := ParseConstant_loop_after_scan hstart hscan htext
    have hc1 : cget exprs (s.iend + 1) = c := by rw [hc, hiend]
    constructor
    · intro hbad
      have key : (ParseConstant_body c s).valid = false ∧ (ParseConstant_body c s).iscon = false ∧
          (ParseConstant_body c s).iend = s.iend + 1 ∧ c ≠ NUL := by
        rcases hbad with ⟨rfl, h⟩ | ⟨hm, h⟩ | ⟨hs, h1, h2, h3⟩
        · have hde : (s.dpoint || s.expon) = true := by
            rcases h with h | h | h
            · rcases f1 h with h | h <;> simp [h]
            · simp [f2 (Or.inl h)]
            · simp [f2 (Or.inr h)]
          rw [ParseConstant_body_point, if_neg (by simp [hde])]
          exact ⟨rfl, rfl, rfl, by decide⟩
        · have hde : (!s.expon && s.numer) = false := by
            rcases h with h | h | h
            · simp [f2 (Or.inl h)]
            · simp [f2 (Or.inr h)]
            · have := f3 (fun x hx => h x (by
                unfold lastField at hx
                exact List.mem_reverse.1 ((List.takeWhile_sublist _).subset
                  (List.mem_reverse.1 hx))))
              simp [this]
          rw [ParseConstant_body_marker (by tauto), if_neg (by simp [hde])]
          refine ⟨rfl, rfl, rfl, ?_⟩
          rcases hm with rfl | rfl <;> decide
        · have hn := f3 h1
          have hde : (s.expon && !s.sign && !s.numer) = false := by
            by_contra hx
            simp only [Bool.not_eq_false, Bool.and_eq_true, Bool.not_eq_true'] at hx
            rcases f4 hx.1.1 hx.1.2 hx.2 with h | h
            · exact h2 h
            · exact h3 h
          rw [ParseConstant_body_sign hs, if_neg (by simp [hde]), if_pos (by simp [hn])]
          refine ⟨rfl, rfl, rfl, ?_⟩
          rcases hs with rfl | rfl <;> decide
      obtain ⟨k1, k2, k3, k4⟩ := key
      have hr : ParseConstant_loop exprs (exprs.length + 1) (ParseConstant_init exprs istart) =
          ParseConstant_body c s := by
        rw [hloop, ParseConstant_loop_step exprs f hcon (by rw [hc1]; exact k4), hc1,
          ParseConstant_loop_done exprs _ (Or.inl k2)]
      rw [ParseConstant_invalid hstart hr (Or.inl k1), k3, hiend]
    · intro hno hend
      have hn := f3 hno
      have hr : ∃ r, ParseConstant_loop exprs (exprs.length + 1)
          (ParseConstant_init exprs istart) = r ∧ r.numer = false ∧ r.iend = s.iend := by
        rw [hloop]
        rcases hend with h | ⟨h1, h2, h3, h4, h5, h6⟩
        · rw [ParseConstant_loop_done exprs _ (Or.inr (by rw [hc1]; exact h))]
          exact ⟨s, rfl, hn, rfl⟩
        · by_cases hnul : c = NUL
          · rw [ParseConstant_loop_done exprs _ (Or.inr (by rw [hc1]; exact hnul))]
            exact ⟨s, rfl, hn, rfl⟩
          · rw [ParseConstant_loop_step exprs f hcon (by rw [hc1]; exact hnul), hc1,
              ParseConstant_body_other h1 h2 h3 h4 h5 h6, if_pos hval,
              ParseConstant_loop_done exprs _ (Or.inl rfl)]
            exact ⟨_, rfl, hn, rfl⟩
      obtain ⟨r, hr, r1, r2⟩ := hr
      rw [ParseConstant_invalid hstart hr (Or.inr r1), r2, hiend]

/-- Witness of C12: the second decimal point of `1.2.3`. -/
theorem C12_invalid_constant_witness :
    ((cget "1.2.3".toList 0).isDigit = true ∨ cget "1.2.3".toList 0 = '.') ∧
    ParseConstant_scan (ParseConstant_init "1.2.3".toList 0) ['.', '2'] =
      some ⟨2, true, true, false, false, true, true⟩ ∧
    ParseConstant "1.2.3".toList 0 = .error ⟨ErrCode.CONIN, cprefix 4 "1.2.3".toList⟩ :=
  have h1 : (cget "1.2.3".toList 0).isDigit = true ∨ cget "1.2.3".toList 0 = '.' :=
    Or.inl (by decide)
  have h2 : ParseConstant_scan (ParseConstant_init "1.2.3".toList 0) ['.', '2'] =
      some ⟨2, true, true, false, false, true, true⟩ := by decide
  ⟨h1, h2,
    ((C12_invalid_constant.2.2.1 "1.2.3".toList 0 ['.', '2'] _ '.' h1 h2
      (by
        intro k hk
        have hk2 : k < 2 := hk
        interval_cases k <;> decide)
      (by decide)).1 (Or.inl ⟨rfl, Or.inl (by decide)⟩))⟩

/-! ## The virtual machine works point by point -/

theorem VMState.atPoint_slot (i : Nat) (st : VMState) (k : Int) :
    (st.atPoint i).slot k = (st.slot k).map (fun v => [v.getD i 0]) := by
  unfold VMState.slot VMState.atPoint
  simp only [List.length_map]
  split
  · rw [List.getD_eq_getElem?_getD, List.getD_eq_getElem?_getD, List.getElem?_map]
    cases st.stack[k.toNat]? <;> rfl
  · rfl

theorem VMState.slot_allLen {npoint : Nat} {st : VMState} (h : st.allLen npoint) {k : Int}
    {v : List Rat} (hs : st.slot k = some v) : v.length = npoint := by
  unfold VMState.slot at hs
  split at hs
  · exact h _ _ hs
  · cases hs

theorem allLen_set {npoint : Nat} {st : VMState} (h : st.allLen npoint) (k : Nat)
    {v : List Rat} (hv : v.length = npoint) (tos : Int) (icon : Nat) :
    VMState.allLen npoint ⟨st.stack.set k (some v), tos, icon⟩ := by
  intro j w hw
  simp only [List.getD_eq_getElem?_getD] at hw
  by_cases hjk : k = j
  · subst hjk
    by_cases hlt : k < st.stack.length
    · rw [List.getElem?_set_self hlt] at hw
      injection hw with hw
      rw [← hw]
      exact hv
    · rw [List.getElem?_eq_none (by simp; omega)] at hw
      cases hw
  · rw [List.getElem?_set_ne hjk] at hw
    exact h j w (by simpa [List.getD_eq_getElem?_getD] using hw)

theorem ARG_0_atPoint (i : Nat) {st st1 : VMState} {icon : Nat} {v : List Rat}
    (h : ARG_0 st icon v = some st1) :
    ARG_0 (st.atPoint i) icon [v.getD i 0] = some (st1.atPoint i) := by
  unfold ARG_0 at h ⊢
  split at h
  · rename_i hc
    injection h with h
    subst h
    have hc1 : 0 ≤ (st.atPoint i).tos + 1 ∧
        (st.atPoint i).tos + 1 < ((st.atPoint i).stack.length : Int) := by
      simpa [VMState.atPoint] using hc
    rw [if_pos hc1]
    simp [VMState.atPoint]
  · cases h

theorem ARG_0_allLen {npoint : Nat} {st st1 : VMState} {icon : Nat} {v : List Rat}
    (ha : st.allLen npoint) (hv : v.length = npoint) (h : ARG_0 st icon v = some st1) :
    st1.allLen npoint := by
  unfold ARG_0 at h
  split at h
  · injection h with h
    subst h
    exact allLen_set ha _ hv _ _
  · cases h

theorem ARG_1_atPoint (L : MathLib) {npoint : Nat} (i : Nat) (hi : i < npoint)
    {st st1 : VMState} (ha : st.allLen npoint) (f : Rat → Rat)
    (h : ARG_1 L st f = some st1) :
    ARG_1 L (st.atPoint i) f = some (st1.atPoint i) ∧ st1.allLen npoint := by
  unfold ARG_1 at h ⊢
  rw [VMState.atPoint_slot]
  have htos : (st.atPoint i).tos = st.tos := rfl
  rw [htos]
  cases hs : st.slot st.tos with
  | none =>
    rw [hs] at h
    cases h
  | some xv =>
    rw [hs] at h
    injection h with h
    subst h
    have hlen := VMState.slot_allLen ha hs
    have hlt : i < xv.length := by omega
    constructor
    · simp [VMState.atPoint, List.map_set, List.getElem?_eq_getElem hlt]
    · exact allLen_set ha _ (by simp [hlen]) _ _

theorem DO_ARG_2_atPoint (L : MathLib) {npoint : Nat} (i : Nat) (hi : i < npoint)
    {st st1 : VMState} (ha : st.allLen npoint) (f : Rat → Rat → Rat)
    (h : DO_ARG_2 L st f = some st1) :
    DO_ARG_2 L (st.atPoint i) f = some (st1.atPoint i) ∧ st1.allLen npoint := by
  unfold DO_ARG_2 at h ⊢
  rw [VMState.atPoint_slot, VMState.atPoint_slot]
  have htos : (st.atPoint i).tos = st.tos := rfl
  rw [htos]
  cases hs2 : st.slot st.tos with
  | none =>
    rw [hs2] at h
    cases h
  | some xv2 =>
    cases hs1 : st.slot (st.tos - 1) with
    | none =>
      rw [hs2, hs1] at h
      cases h
    | some xv1 =>
      rw [hs2, hs1] at h
      injection h with h
      subst h
      have hl1 := VMState.slot_allLen ha hs1
      have hl2 := VMState.slot_allLen ha hs2
      have hlt1 : i < xv1.length := by omega
      have hlt2 : i < xv2.length := by omega
      constructor
      · simp [VMState.atPoint, List.map_set, List.getElem?_zipWith,
          List.getElem?_eq_getElem hlt1, List.getElem?_eq_getElem hlt2]
      · exact allLen_set ha _ (by simp [hl1, hl2]) _ _

theorem DO_ARG_2_times_atPoint (L : MathLib) {npoint : Nat} (i : Nat) (hi : i < npoint)
    (f : Rat → Rat → Rat) : ∀ (n : Nat) (st st1 : VMState), st.allLen npoint →
    DO_ARG_2_times L f n st = some st1 →
    DO_ARG_2_times L f n (st.atPoint i) = some (st1.atPoint i) ∧ st1.allLen npoint := by
  intro n
  induction n with
  | zero =>
    intro st st1 ha h
    cases h
    exact ⟨rfl, ha⟩
  | succ n ih =>
    intro st st1 ha h
    unfold DO_ARG_2_times at h ⊢
    cases hd : DO_ARG_2 L st f with
    | none =>
      rw [hd] at h
      cases h
    | some st2 =>
      rw [hd] at h
      obtain ⟨e1, e2⟩ := DO_ARG_2_atPoint L i hi ha f hd
      rw [e1]
      exact ih st2 st1 e2 h

theorem fun1_of_isArg1 (L : MathLib) {o : Oper} (h : o.isArg1 = true) :
    ∃ f, fun1 L o = some f := by
  cases o <;> first | exact ⟨_, rfl⟩ | exact absurd h (by decide)

theorem fun2_of_isArg2 (L : MathLib) {o : Oper} (h : o.isArg2 = true) :
    ∃ f, fun2 L o = some f := by
  cases o <;> first | exact ⟨_, rfl⟩ | exact absurd h (by decide)

theorem allLen_icon {npoint : Nat} {st : VMState} (h : st.allLen npoint) (icon : Nat) :
    VMState.allLen npoint { st with icon := icon } := h

theorem inputsAtPoint_getD (i : Nat) (ptr_in : List (List Rat)) {k : Nat}
    (hk : k < ptr_in.length) :
    (inputsAtPoint i ptr_in).getD k [] = [(ptr_in.getD k []).getD i 0] := by
  unfold inputsAtPoint
  simp [List.getD_eq_getElem?_getD, List.getElem?_eq_getElem hk]

/-- One opcode on the vectors of all the points and on the values of one point. -/
theorem VirtualMachine_case_atPoint (L : MathLib) {npoint : Nat} (i : Nat) (hi : i < npoint)
    (ptr_in : List (List Rat)) (con : List Rat) {st st1 : VMState} {op : Int}
    (ha : st.allLen npoint)
    (h : VirtualMachine_case L npoint ptr_in con st op = some st1) :
    VirtualMachine_case L 1 (inputsAtPoint i ptr_in) con (st.atPoint i) op =
        some (st1.atPoint i) ∧ st1.allLen npoint := by
  cases hop : Oper.ofInt op with
  | none =>
    unfold VirtualMachine_case at h ⊢
    rw [hop] at h ⊢
    injection h with h
    subst h
    exact ⟨rfl, ha⟩
  | some o =>
    have hop1 := Oper.eq_toInt_of_ofInt hop
    subst hop1
    have hicon : (st.atPoint i).icon = st.icon := rfl
    rcases Oper.classify o with rfl | rfl | rfl | rfl | rfl | rfl | h1 | h2
    · unfold VirtualMachine_case at h ⊢
      rw [hop] at h ⊢
      injection h with h
      subst h
      exact ⟨rfl, ha⟩
    · unfold VirtualMachine_case at h ⊢
      rw [hop] at h ⊢
      simp only [hicon] at h ⊢
      cases hc : con.get? st.icon with
      | none =>
        rw [hc] at h
        cases h
      | some value =>
        rw [hc] at h
        simp only at h ⊢
        have := ARG_0_atPoint i h
        rw [show (List.replicate npoint value).getD i 0 = value by
          simp [List.getD_eq_getElem?_getD, List.getElem?_replicate, hi]] at this
        exact ⟨this, ARG_0_allLen ha (by simp) h⟩
    · unfold VirtualMachine_case at h ⊢
      rw [hop] at h ⊢
      simp only [hicon] at h ⊢
      cases hc : con.get? st.icon with
      | none =>
        rw [hc] at h
        cases h
      | some c =>
        rw [hc] at h
        simp only at h ⊢
        split at h
        · rename_i hchk
          have hk : (c_int (c + 1 / 2)).toNat < ptr_in.length := by omega
          have hchk1 : 0 ≤ c_int (c + 1 / 2) ∧
              c_int (c + 1 / 2) < ((inputsAtPoint i ptr_in).length : Int) ∧
              1 ≤ ((inputsAtPoint i ptr_in).getD (c_int (c + 1 / 2)).toNat []).length := by
            rw [inputsAtPoint_getD i ptr_in hk]
            refine ⟨hchk.1, ?_, by simp⟩
            simpa [inputsAtPoint] using hchk.2.1
          rw [if_pos hchk1, inputsAtPoint_getD i ptr_in hk]
          have := ARG_0_atPoint i h
          rw [show ((ptr_in.getD (c_int (c + 1 / 2)).toNat []).take npoint).getD i 0 =
              (ptr_in.getD (c_int (c + 1 / 2)).toNat []).getD i 0 by
            simp [List.getD_eq_getElem?_getD, List.getElem?_take, hi]] at this
          exact ⟨this, ARG_0_allLen ha (by
            rw [List.length_take]
            omega) h⟩
        · cases h
    · unfold VirtualMachine_case at h ⊢
      rw [hop] at h ⊢
      simp only [hicon] at h ⊢
      have := ARG_0_atPoint i h
      rw [show (List.replicate npoint L.BAD).getD i 0 = L.BAD by
        simp [List.getD_eq_getElem?_getD, List.getElem?_replicate, hi]] at this
      exact ⟨this, ARG_0_allLen ha (by simp) h⟩
    · unfold VirtualMachine_case at h ⊢
      rw [hop] at h ⊢
      simp only [hicon] at h ⊢
      cases hc : con.get? st.icon with
      | none =>
        rw [hc] at h
        cases h
      | some c =>
        rw [hc] at h
        simp only at h ⊢
        exact DO_ARG_2_times_atPoint L i hi _ _ _ _ (allLen_icon ha _) h
    · unfold VirtualMachine_case at h ⊢
      rw [hop] at h ⊢
      simp only [hicon] at h ⊢
      cases hc : con.get? st.icon with
      | none =>
        rw [hc] at h
        cases h
      | some c =>
        rw [hc] at h
        simp only at h ⊢
        exact DO_ARG_2_times_atPoint L i hi _ _ _ _ (allLen_icon ha _) h
    · obtain ⟨f, hf⟩ := fun1_of_isArg1 L h1
      rw [VirtualMachine_case_fun1 L _ _ _ _ hf] at h ⊢
      exact ARG_1_atPoint L i hi ha f h
    · obtain ⟨f, hf⟩ := fun2_of_isArg2 L h2
      rw [VirtualMachine_case_fun2 L _ _ _ _ h2 hf] at h ⊢
      exact DO_ARG_2_atPoint L i hi ha f h

theorem VMState.init_atPoint (i : Nat) (stacksize : Int) :
    (VMState.init stacksize).atPoint i = VMState.init stacksize := by
  simp [VMState.init, VMState.atPoint]

theorem VMState.init_allLen (npoint : Nat) (stacksize : Int) :
    (VMState.init stacksize).allLen npoint := by
  intro j v h
  simp only [VMState.init, List.getD_eq_getElem?_getD, List.getElem?_replicate] at h
  split at h <;> cases h

/-- The run of the machine on the vectors of all the points, restricted to point `i`, is
its run on the values of point `i` alone. -/
theorem VirtualMachine_exec_atPoint (L : MathLib) {npoint : Nat} (i : Nat) (hi : i < npoint)
    (ptr_in : List (List Rat)) (code : List Int) (con : List Rat) (stacksize : Int) :
    ∀ (n : Nat) (st : VMState),
      VirtualMachine_exec L npoint ptr_in code con stacksize n = some st →
      VirtualMachine_exec L 1 (inputsAtPoint i ptr_in) code con stacksize n =
        some (st.atPoint i) ∧ st.allLen npoint := by
  intro n
  induction n with
  | zero =>
    intro st h
    injection h with h
    subst h
    exact ⟨by rw [VMState.init_atPoint]; rfl, VMState.init_allLen _ _⟩
  | succ n ih =>
    intro st h
    unfold VirtualMachine_exec at h ⊢
    cases he : VirtualMachine_exec L npoint ptr_in code con stacksize n with
    | none =>
      rw [he] at h
      cases h
    | some st0 =>
      rw [he] at h
      obtain ⟨e1, e2⟩ := ih st0 he
      rw [e1]
      cases hg : code.get? (n + 1) with
      | none =>
        rw [hg] at h
        cases h
      | some op =>
        rw [hg] at h
        exact VirtualMachine_case_atPoint L i hi ptr_in con e2 h

theorem VirtualMachine_atPoint (L : MathLib) {npoint : Nat} (i : Nat) (hi : i < npoint)
    (nvar : Nat) (ptr_in : List (List Rat)) (code : List Int) (con : List Rat)
    (stacksize : Int) {out : List Rat}
    (h : VirtualMachine L npoint nvar ptr_in code con stacksize = some out) :
    VirtualMachine L 1 nvar (inputsAtPoint i ptr_in) code con stacksize =
      some [out.getD i 0] := by
  unfold VirtualMachine at h ⊢
  cases he : VirtualMachine_exec L npoint ptr_in code con stacksize (code.getD 0 0).toNat with
  | none =>
    rw [he] at h
    cases h
  | some st =>
    rw [he] at h
    obtain ⟨e1, _⟩ := VirtualMachine_exec_atPoint L i hi ptr_in code con stacksize _ st he
    rw [e1]
    simp only at h ⊢
    simp only [VMState.atPoint, List.getD_eq_getElem?_getD, List.getElem?_map] at h ⊢
    cases hs : st.stack[0]? with
    | none =>
      rw [hs] at h
      cases h
    | some v =>
      rw [hs] at h
      simp only [Option.getD_some] at h
      subst h
      rfl

/-- An accepted expression runs to the end on inputs that cover its variables, and the
output has one value per point. -/
theorem VirtualMachine_defined (L : MathLib) {exprs : List Char} {nvar : Nat}
    {var : List (List Char)} {c : Compiled}
    (hc : CompileExpression exprs nvar var = .ok c) (npoint : Nat) (ptr_in : List (List Rat))
    (hin : InputsOK npoint nvar ptr_in) :
    ∃ out, VirtualMachine L npoint nvar ptr_in c.code c.con c.stacksize = some out ∧
      out.length = npoint := by
  obtain ⟨w, toks, ops, tr, _, _, _, _, hcode, htr, hlast, hb, _⟩ :=
    CompileExpression_ok_trace hc
  have hlen := depthTrace_length _ _ _ _ _ htr
  obtain ⟨st, h1, ⟨ht, _, hg, _⟩, _⟩ :=
    @VirtualMachine_exec_sim L npoint nvar ptr_in _ _ _ _ (ops.length : Int) hin
      htr hb ops.length (le_refl _)
  rw [lastD_take_all (by omega), hlast] at ht
  simp only at ht
  obtain ⟨v, hv, hl⟩ := hg.2.2 0 (by omega)
  refine ⟨v, ?_, hl⟩
  unfold VirtualMachine
  rw [hcode]
  simp only [List.getD_cons_zero, Int.toNat_ofNat]
  rw [← hcode, hcode, h1]
  exact hv

/-- C20: for every compiled program and every number of points `N`, `VirtualMachine`
writes exactly `N` output values, the value at point `i` is the result of running the
same program on the input values of point `i` alone, and it does not change when the
input values of other points are changed. -/
theorem C20_point_by_point (L : MathLib) {exprs : List Char} {nvar : Nat}
    {var : List (List Char)} {c : Compiled}
    (hc : CompileExpression exprs nvar var = .ok c) (npoint : Nat) (ptr_in : List (List Rat))
    (hin : InputsOK npoint nvar ptr_in) :
    ∃ out, VirtualMachine L npoint nvar ptr_in c.code c.con c.stacksize = some out ∧
      out.length = npoint ∧
      (∀ i, i < npoint →
        VirtualMachine L 1 nvar (inputsAtPoint i ptr_in) c.code c.con c.stacksize =
          some [out.getD i 0]) ∧
      (∀ (ptr_in1 : List (List Rat)) (i : Nat), i < npoint →
        ptr_in1.length = ptr_in.length →
        (∀ k, (ptr_in1.getD k []).length = (ptr_in.getD k []).length) →
        (∀ k, (ptr_in1.getD k []).getD i 0 = (ptr_in.getD k []).getD i 0) →
        ∃ out1, VirtualMachine L npoint nvar ptr_in1 c.code c.con c.stacksize = some out1 ∧
          out1.length = npoint ∧ out1.getD i 0 = out.getD i 0) := by
  obtain ⟨out, hout, hlen⟩ := VirtualMachine_defined L hc npoint ptr_in hin
  refine ⟨out, hout, hlen, ?_, ?_⟩
  · intro i hi
    exact VirtualMachine_atPoint L i hi nvar ptr_in _ _ _ hout
  · intro ptr_in1 i hi hl1 hl2 hv
    have hin1 : InputsOK npoint nvar ptr_in1 := by
      refine ⟨by rw [hl1]; exact hin.1, ?_⟩
      intro k hk
      rw [hl2 k]
      exact hin.2 k hk
    obtain ⟨out1, hout1, hlen1⟩ := VirtualMachine_defined L hc npoint ptr_in1 hin1
    refine ⟨out1, hout1, hlen1, ?_⟩
    have e1 := VirtualMachine_atPoint L i hi nvar ptr_in _ _ _ hout
    have e2 := VirtualMachine_atPoint L i hi nvar ptr_in1 _ _ _ hout1
    have hsame : inputsAtPoint i ptr_in1 = inputsAtPoint i ptr_in := by
      unfold inputsAtPoint
      apply List.ext_getElem?
      intro k
      rw [List.getElem?_map, List.getElem?_map]
      by_cases hk : k < ptr_in.length
      · have hk1 : k < ptr_in1.length := by omega
        have g : ptr_in.getD k [] = ptr_in[k] := by
          simp [List.getD_eq_getElem?_getD, List.getElem?_eq_getElem hk]
        have g1 : ptr_in1.getD k [] = ptr_in1[k] := by
          simp [List.getD_eq_getElem?_getD, List.getElem?_eq_getElem hk1]
        have := hv k
        rw [g, g1] at this
        rw [List.getElem?_eq_getElem hk, List.getElem?_eq_getElem hk1]
        simp only [Option.map_some', this]
      · rw [List.getElem?_eq_none (by omega), List.getElem?_eq_none (by omega)]
    rw [hsame, e1] at e2
    injection e2 with e2
    injection e2 with e2
    exact e2.symm

/-- Witness of C20: `a+b` on two points. -/
theorem C20_point_by_point_witness :
    CompileExpression "a+b".toList 2 ["a".toList, "b".toList] =
      .ok ⟨[3, 2, 2, 28], [0, 1], 2⟩ ∧
    InputsOK 2 2 [[1, 2], [3, 4]] ∧
    VirtualMachine MathLib.sample 2 2 [[1, 2], [3, 4]] [3, 2, 2, 28] [0, 1] 2 = some [4, 6] ∧
    VirtualMachine MathLib.sample 1 2 (inputsAtPoint 1 [[1, 2], [3, 4]]) [3, 2, 2, 28] [0, 1] 2 =
      some [6] :=
  have hc : CompileExpression "a+b".toList 2 ["a".toList, "b".toList] =
      .ok ⟨[3, 2, 2, 28], [0, 1], 2⟩ := by decide!
  have hin : InputsOK 2 2 [[1, 2], [3, 4]] := by
    refine ⟨by decide, ?_⟩
    decide
  have hv : VirtualMachine MathLib.sample 2 2 [[1, 2], [3, 4]] [3, 2, 2, 28] [0, 1] 2 =
      some [4, 6] := by decide!
  ⟨hc, hin, hv, by
    obtain ⟨out, h1, _, h3, _⟩ :=
      C20_point_by_point MathLib.sample hc 2 [[1, 2], [3, 4]] hin
    have h3 := h3 1 (by decide)
    have ho : out = [4, 6] := by
      have := h1.symm.trans hv
      injection this
    rw [ho] at h3
    exact h3⟩

/-! ## Functions of a variable number of arguments -/

/-- The value left by the reductions of `OP_MAX` and `OP_MIN`: it is bad when one of the
values is bad, and otherwise it is one of the values and bounds them all. -/
theorem fold_reduce_spec (B : Rat) (f : Rat → Rat → Rat) (R : Rat → Rat → Prop)
    (hsel : ∀ a b, f a b = a ∨ f a b = b) (hb : ∀ a b, R a (f a b) ∧ R b (f a b))
    (hrefl : ∀ a, R a a) (htrans : ∀ a b c, R a b → R b c → R a c) :
    ∀ (ysr : List Rat) (y0 : Rat),
      ((∀ y ∈ y0 :: ysr, y ≠ B) →
        ysr.foldl (fun acc y => if y ≠ B then (if acc ≠ B then f y acc else B) else y) y0 ∈
            y0 :: ysr ∧
          ∀ y ∈ y0 :: ysr,
            R y (ysr.foldl
              (fun acc y => if y ≠ B then (if acc ≠ B then f y acc else B) else y) y0)) ∧
      ((∃ y ∈ y0 :: ysr, y = B) →
        ysr.foldl (fun acc y => if y ≠ B then (if acc ≠ B then f y acc else B) else y) y0 =
          B) := by
  intro ysr
  induction ysr with
  | nil =>
    intro y0
    refine ⟨fun _ => ⟨by simp, ?_⟩, ?_⟩
    · intro y hy
      rw [List.mem_singleton] at hy
      subst hy
      exact hrefl _
    · rintro ⟨y, hy, rfl⟩
      rw [List.mem_singleton] at hy
      exact hy.symm
  | cons y1 ysr ih =>
    intro y0
    rw [List.foldl_cons]
    constructor
    · intro hall
      have h0 := hall y0 (by simp)
      have h1 := hall y1 (by simp)
      rw [if_pos h1, if_pos h0]
      have hne : f y1 y0 ≠ B := by
        rcases hsel y1 y0 with h | h <;> rw [h] <;> assumption
      obtain ⟨m1, m2⟩ := (ih (f y1 y0)).1 (by
        intro y hy
        rcases List.mem_cons.1 hy with rfl | hy
        · exact hne
        · exact hall y (by simp [hy]))
      constructor
      · rcases List.mem_cons.1 m1 with h | h
        · rw [h]
          rcases hsel y1 y0 with h2 | h2
          · rw [h2]
            exact List.mem_cons_of_mem _ (List.mem_cons_self _ _)
          · rw [h2]
            exact List.mem_cons_self _ _
        · exact List.mem_cons_of_mem _ (List.mem_cons_of_mem _ h)
      · intro y hy
        have hf := m2 (f y1 y0) (by simp)
        rcases List.mem_cons.1 hy with rfl | hy
        · exact htrans _ _ _ (hb y1 y).2 hf
        · rcases List.mem_cons.1 hy with rfl | hy
          · exact htrans _ _ _ (hb y y0).1 hf
          · exact m2 y (by simp [hy])
    · rintro ⟨y, hy, rfl⟩
      apply (ih _).2
      rcases List.mem_cons.1 hy with h | hy
      · subst h
        refine ⟨_, List.mem_cons_self _ _, ?_⟩
        by_cases h1 : y1 = y
        · rw [if_neg (by simpa using h1)]
          exact h1
        · rw [if_pos h1, if_neg (by simp)]
      · rcases List.mem_cons.1 hy with h | hy
        · subst h
          refine ⟨_, List.mem_cons_self _ _, ?_⟩
          rw [if_neg (by simp)]
        · exact ⟨y, List.mem_cons_of_mem _ hy, rfl⟩

theorem VMState.slot_set_ne (st : VMState) {i k : Int} (v : Option (List Rat)) (tos : Int)
    (icon : Nat) (hi : 0 ≤ i) (hk : 0 ≤ k) (hne : i ≠ k) :
    VMState.slot ⟨st.stack.set i.toNat v, tos, icon⟩ k = st.slot k := by
  unfold VMState.slot
  simp only [List.length_set]
  split
  · exact getD_set_ne _ _ _ (by omega)
  · rfl

/-- The loop of `DO_ARG_2` over the top vectors of the stack: at each point it leaves the
value obtained by combining the values of the vectors from the top downwards. -/
theorem DO_ARG_2_times_top (L : MathLib) (f : Rat → Rat → Rat) :
    ∀ (rest : List (List Rat)) (ysr : List Rat) (st : VMState) (w0 : List Rat) (y0 : Rat)
      (p : Nat),
      st.slot st.tos = some w0 → w0.get? p = some y0 → rest.length = ysr.length →
      (∀ j, j < rest.length → st.slot (st.tos - 1 - j) = some (rest.getD j []) ∧
        (rest.getD j []).get? p = some (ysr.getD j 0)) →
      ∃ st1 r, DO_ARG_2_times L f rest.length st = some st1 ∧
        st1.tos = st.tos - rest.length ∧ st1.icon = st.icon ∧ st1.slot st1.tos = some r ∧
        r.get? p = some (ysr.foldl
          (fun acc y => if y ≠ L.BAD then (if acc ≠ L.BAD then f y acc else L.BAD) else y) y0) := by
  intro rest
  induction rest with
  | nil =>
    intro ysr st w0 y0 p h0 hy0 hlen _
    have : ysr = [] := List.length_eq_zero.1 hlen.symm
    subst this
    exact ⟨st, w0, rfl, by simp, rfl, h0, hy0⟩
  | cons w1 rest ih =>
    intro ysr st w0 y0 p h0 hy0 hlen hall
    cases ysr with
    | nil => simp at hlen
    | cons y1 ysr =>
      obtain ⟨hs1, hy1⟩ := hall 0 (by simp)
      simp only [List.getD_cons_zero, Int.Nat.cast_ofNat_Int, sub_zero] at hs1 hy1
      obtain ⟨hge, hlt, _⟩ := VMState.slot_some hs1
      have hin : (st.tos - 1).toNat < st.stack.length := by omega
      have hd : DO_ARG_2 L st f = some
          ⟨st.stack.set (st.tos - 1).toNat (some (List.zipWith
            (fun x1 x2 => if x1 ≠ L.BAD then (if x2 ≠ L.BAD then f x1 x2 else L.BAD) else x1)
            w1 w0)), st.tos - 1, st.icon⟩ := by
        unfold DO_ARG_2
        rw [h0, hs1]
      obtain ⟨st1, r, e1, e2, e3, e4, e5⟩ := ih ysr
        ⟨st.stack.set (st.tos - 1).toNat (some (List.zipWith
            (fun x1 x2 => if x1 ≠ L.BAD then (if x2 ≠ L.BAD then f x1 x2 else L.BAD) else x1)
            w1 w0)), st.tos - 1, st.icon⟩
        (List.zipWith
            (fun x1 x2 => if x1 ≠ L.BAD then (if x2 ≠ L.BAD then f x1 x2 else L.BAD) else x1)
            w1 w0)
        (if y1 ≠ L.BAD then (if y0 ≠ L.BAD then f y1 y0 else L.BAD) else y1) p
        (by
          unfold VMState.slot
          simp only [List.length_set]
          rw [if_pos ⟨hge, hlt⟩]
          exact getD_set_self _ _ _ _ hin)
        (by
          rw [List.get?_eq_getElem?] at hy0 hy1 ⊢
          rw [List.getElem?_zipWith, hy1, hy0])
        (by simpa using hlen)
        (by
          intro j hj
          obtain ⟨a1, a2⟩ := hall (j + 1) (by simp; omega)
          simp only [List.getD_cons_succ] at a1 a2
          have hk := (VMState.slot_some a1).1
          have hidx : st.tos - 1 - 1 - (j : Int) = st.tos - 1 - ((j + 1 : Nat) : Int) := by
            push_cast
            omega
          refine ⟨?_, a2⟩
          show VMState.slot ⟨_, st.tos - 1, st.icon⟩ (st.tos - 1 - 1 - (j : Int)) = _
          rw [hidx, VMState.slot_set_ne st _ _ _ hge hk (by omega), a1])
      refine ⟨st1, r, ?_, ?_, e3, e4, ?_⟩
      · rw [List.length_cons, DO_ARG_2_times, hd]
        exact e1
      · rw [e2, List.length_cons]
        show st.tos - 1 - (rest.length : Int) = st.tos - ((rest.length + 1 : Nat) : Int)
        push_cast
        omega
      · rw [List.foldl_cons]
        exact e5

theorem depthStep_reads {con : List Rat} {nvar : Nat} {d d1 : DState} {op : Int}
    (h : depthStep con nvar d op = some d1) : ∃ l, d1.reads = d.reads ++ l := by
  unfold depthStep at h
  repeat' split at h
  all_goals first
    | (cases h; done)
    | (cases h; exact ⟨[], (List.append_nil _).symm⟩)
    | (cases h; exact ⟨_, rfl⟩)

theorem depthTrace_reads_last {con : List Rat} {nvar : Nat} :
    ∀ (code : List Int) (d : DState) (tr : List DState),
      depthTrace con nvar code d = some tr → ∃ l, (lastD tr d).reads = d.reads ++ l := by
  intro code
  induction code with
  | nil =>
    intro d tr h
    simp only [depthTrace] at h
    injection h with h
    subst h
    exact ⟨[], by simp [lastD]⟩
  | cons op rest ih =>
    intro d tr h
    simp only [depthTrace] at h
    split at h
    · cases h
    · rename_i d1 hd1
      split at h
      · cases h
      · rename_i tr1 htr1
        injection h with h
        subst h
        obtain ⟨l1, hl1⟩ := depthStep_reads hd1
        obtain ⟨l2, hl2⟩ := ih d1 tr1 htr1
        refine ⟨l1 ++ l2, ?_⟩
        rw [lastD_cons, hl2, hl1, List.append_assoc]

/-- The constants read up to any state of a depth trace are among those read up to its
last state. -/
theorem depthTrace_reads_mem {con : List Rat} {nvar : Nat} :
    ∀ (code : List Int) (d : DState) (tr : List DState),
      depthTrace con nvar code d = some tr →
      ∀ dn ∈ tr, ∀ x ∈ dn.reads, x ∈ (lastD tr d).reads := by
  intro code
  induction code with
  | nil =>
    intro d tr h dn hdn
    simp only [depthTrace] at h
    injection h with h
    subst h
    cases hdn
  | cons op rest ih =>
    intro d tr h dn hdn x hx
    simp only [depthTrace] at h
    split at h
    · cases h
    · rename_i d1 hd1
      split at h
      · cases h
      · rename_i tr1 htr1
        injection h with h
        subst h
        rw [lastD_cons]
        rcases List.mem_cons.1 hdn with rfl | hdn
        · obtain ⟨l2, hl2⟩ := depthTrace_reads_last rest dn tr1 htr1
          rw [hl2]
          exact List.mem_append_left _ hx
        · exact ih d1 tr1 htr1 dn hdn x hx

theorem symbol_nargs_neg (sym : Nat) : (symbol sym).nargs < 0 → (symbol sym).nargs = -2 := by
  refine symbol_forall (fun _ s => s.nargs < 0 → s.nargs = -2) ?_ ?_ sym
  · decide
  · intro _ _ h
    exact absurd h (by decide)

/-- The count stored for a function of a variable number of arguments is an integer, at
least 2. -/
theorem Run.consts_minmax {nvar : Nat} {q q1 : AState} {toks : List Token}
    (h : Run nvar q toks q1) :
    ∀ (o : Oper) (x : Rat), (o, x) ∈ Token.consts toks → (o = OP_MAX ∨ o = OP_MIN) →
      ∃ a : Int, 2 ≤ a ∧ x = (a : Rat) := by
  induction h with
  | nil _ =>
    intro o x hm _
    simp [Token.consts] at hm
  | @cons q q1 q2 t ts hs _ ih =>
    intro o x hm ho
    rw [Token.consts_cons] at hm
    rcases List.mem_append.1 hm with hm | hm
    · cases hs with
      | ldcon _ c _ =>
        simp only [List.mem_singleton, Prod.mk.injEq] at hm
        rcases ho with rfl | rfl <;> exact absurd hm.1 (by decide)
      | ldvar _ i _ _ =>
        simp only [List.mem_singleton, Prod.mk.injEq] at hm
        rcases ho with rfl | rfl <;> exact absurd hm.1 (by decide)
      | ldbad _ _ => cases hm
      | unary _ sym _ _ => cases hm
      | binary _ sym _ _ => cases hm
      | comma o1 a rest ha => cases hm
      | opener _ sym _ hp => cases hm
      | closer o1 a rest h1 h2 =>
        simp only at hm
        split at hm
        · rename_i hneg
          simp only [List.mem_singleton, Prod.mk.injEq] at hm
          have := h2 hneg
          rw [symbol_nargs_neg o1 hneg] at this
          exact ⟨a, by omega, hm.2⟩
        · cases hm
    · exact ih o x hm ho

/-- The opcodes `OP_MAX` and `OP_MIN` read the count of arguments from the constants and
run the reduction loop one time less than the count. -/
theorem VirtualMachine_case_reduce (L : MathLib) (npoint : Nat) (ptr_in : List (List Rat))
    (con : List Rat) (st : VMState) {o : Oper} (ho : o = OP_MAX ∨ o = OP_MIN) (k : Nat)
    (hcon : con.get? st.icon = some (k : Rat)) :
    ∃ f, fun2 L o = some f ∧
      VirtualMachine_case L npoint ptr_in con st o.toInt =
        DO_ARG_2_times L f (k - 1) { st with icon := st.icon + 1 } := by
  have hk : (c_int ((k : Rat) + 1 / 2) - 1).toNat = k - 1 := by
    rw [c_int_nat_add_half]
    omega
  rcases ho with rfl | rfl
  · refine ⟨_, rfl, ?_⟩
    unfold VirtualMachine_case
    rw [Oper.ofInt_toInt]
    simp only [hcon, hk]
  · refine ⟨_, rfl, ?_⟩
    unfold VirtualMachine_case
    rw [Oper.ofInt_toInt]
    simp only [hcon, hk]

/-- The opcodes `OP_MAX` and `OP_MIN` on the `k` vectors on top of the stack (listed from
the top down): one constant is read, the top of stack goes down by `k - 1`, and at each
point the new top holds the largest (smallest) value when none is bad, and the bad value
when one is. -/
theorem VirtualMachine_case_minmax (L : MathLib) (npoint : Nat) (ptr_in : List (List Rat))
    (con : List Rat) (st : VMState) {o : Oper} (ho : o = OP_MAX ∨ o = OP_MIN)
    (vs : List (List Rat)) (ys : List Rat) (p : Nat) (hk : 1 ≤ vs.length)
    (hlen : ys.length = vs.length) (hcon : con.get? st.icon = some (vs.length : Rat))
    (hall : ∀ j : Nat, j < vs.length → st.slot (st.tos - j) = some (vs.getD j []) ∧
      (vs.getD j []).get? p = some (ys.getD j 0)) :
    ∃ st1 r res, VirtualMachine_case L npoint ptr_in con st o.toInt = some st1 ∧
      st1.tos = st.tos - ((vs.length - 1 : Nat) : Int) ∧ st1.icon = st.icon + 1 ∧
      st1.slot st1.tos = some r ∧ r.get? p = some res ∧
      ((∀ y ∈ ys, y ≠ L.BAD) → res ∈ ys ∧ (o = OP_MAX → ∀ y ∈ ys, y ≤ res) ∧
        (o = OP_MIN → ∀ y ∈ ys, res ≤ y)) ∧
      ((∃ y ∈ ys, y = L.BAD) → res = L.BAD) := by
  obtain ⟨f, hf, hcase⟩ := VirtualMachine_case_reduce L npoint ptr_in con st ho vs.length hcon
  cases vs with
  | nil => simp at hk
  | cons w0 rest =>
    cases ys with
    | nil => simp at hlen
    | cons y0 ysr =>
      have h0 := hall 0 (by simp)
      simp only [List.getD_cons_zero, Int.Nat.cast_ofNat_Int, sub_zero] at h0
      have hrest : ∀ j : Nat, j < rest.length →
          VMState.slot { st with icon := st.icon + 1 } (st.tos - 1 - (j : Int)) =
              some (rest.getD j []) ∧
            (rest.getD j []).get? p = some (ysr.getD j 0) := by
        intro j hj
        have := hall (j + 1) (by simp; omega)
        simp only [List.getD_cons_succ] at this
        refine ⟨?_, this.2⟩
        have e : st.tos - 1 - (j : Int) = st.tos - ((j + 1 : Nat) : Int) := by
          push_cast
          omega
        rw [e]
        exact this.1
      obtain ⟨st1, r, e1, e2, e3, e4, e5⟩ :=
        DO_ARG_2_times_top L f rest ysr { st with icon := st.icon + 1 } w0 y0 p h0.1 h0.2
          (by simpa using hlen.symm) hrest
      rw [hcase]
      simp only [List.length_cons, Nat.add_sub_cancel]
      refine ⟨st1, r, _, e1, e2, e3, e4, e5, ?_, ?_⟩
      · intro hnb
        rcases ho with rfl | rfl
        · injection hf with hf
          subst hf
          have := (fold_reduce_spec L.BAD (fun x1 x2 => if x1 ≥ x2 then x1 else x2)
            (fun a b => a ≤ b)
            (fun a b => by by_cases h : a ≥ b <;> simp [h])
            (fun a b => by
              by_cases h : a ≥ b
              · simp only [if_pos h]
                exact ⟨le_refl _, h⟩
              · simp only [if_neg h]
                exact ⟨le_of_lt (not_le.1 h), le_refl _⟩)
            (fun a => le_refl a) (fun a b c => le_trans) ysr y0).1 hnb
          exact ⟨this.1, fun _ => this.2, fun h => absurd h (by decide)⟩
        · injection hf with hf
          subst hf
          have := (fold_reduce_spec L.BAD (fun x1 x2 => if x1 ≤ x2 then x1 else x2)
            (fun a b => b ≤ a)
            (fun a b => by by_cases h : a ≤ b <;> simp [h])
            (fun a b => by
              by_cases h : a ≤ b
              · simp only [if_pos h]
                exact ⟨le_refl _, h⟩
              · simp only [if_neg h]
                exact ⟨le_of_lt (not_le.1 h), le_refl _⟩)
            (fun a => le_refl a) (fun a b c h1 h2 => le_trans h2 h1) ysr y0).1 hnb
          exact ⟨this.1, fun h => absurd h (by decide), fun _ => this.2⟩
      · intro hbad
        exact (fold_reduce_spec L.BAD f (fun _ _ => True) (fun a b => by
            rcases ho with rfl | rfl <;> injection hf with hf <;> subst hf
            · by_cases h : a ≥ b <;> simp [h]
            · by_cases h : a ≤ b <;> simp [h])
          (fun _ _ => ⟨trivial, trivial⟩) (fun _ => trivial) (fun _ _ _ _ _ => trivial)
          ysr y0).2 hbad

/-- In the program of an accepted expression, when the machine reaches `OP_MAX` or
`OP_MIN` the next constant is a whole number `k` of at least 2 and the `k` slots on top
of the stack hold vectors of `npoint` values. -/
theorem CompileExpression_minmax_ready (L : MathLib) {exprs : List Char} {nvar : Nat}
    {var : List (List Char)} {c : Compiled} (hc : CompileExpression exprs nvar var = .ok c)
    {npoint : Nat} {ptr_in : List (List Rat)} (hin : InputsOK npoint nvar ptr_in)
    (n : Nat) (o : Oper) (ho : o = OP_MAX ∨ o = OP_MIN)
    (hop : c.code.get? (n + 1) = some o.toInt) :
    ∃ (st : VMState) (k : Nat),
      VirtualMachine_exec L npoint ptr_in c.code c.con c.stacksize n = some st ∧
      2 ≤ k ∧ c.con.get? st.icon = some (k : Rat) ∧
      ∀ j : Nat, j < k → ∃ v, st.slot (st.tos - j) = some v ∧ v.length = npoint := by
  obtain ⟨w, toks, ops, tr, _, hrun, _, hcon, hcode, htr, hlast, hb, _⟩ :=
    CompileExpression_ok_trace hc
  rw [hcode] at hop ⊢
  rw [List.get?_cons_succ] at hop
  have hn : n < ops.length := by
    rw [List.get?_eq_getElem?] at hop
    exact (List.getElem?_eq_some_iff.1 hop).1
  obtain ⟨st, hst, ⟨ht, hi, hgood, _⟩, _⟩ :=
    VirtualMachine_exec_sim (L := L) (ops.length : Int) hin htr hb n (le_of_lt hn)
  obtain ⟨dn, hdn, hstep⟩ := depthTrace_get c.con nvar ops _ tr htr n _ hop
  have hmem : dn ∈ tr := List.get?_mem hdn
  have key : ∃ cst, c.con.get? st.icon = some cst ∧
      ((c_int (cst + 1 / 2) - 1).toNat : Int) ≤ st.tos ∧ (o, cst) ∈ dn.reads := by
    unfold depthStep at hstep
    rw [Oper.ofInt_toInt] at hstep
    rw [ht, hi]
    rcases ho with rfl | rfl
    · simp only at hstep
      split at hstep
      · cases hstep
      · rename_i cst hcst
        split at hstep
        · rename_i hle
          injection hstep with hstep
          subst hstep
          exact ⟨cst, hcst, hle, by simp⟩
        · cases hstep
    · simp only at hstep
      split at hstep
      · cases hstep
      · rename_i cst hcst
        split at hstep
        · rename_i hle
          injection hstep with hstep
          subst hstep
          exact ⟨cst, hcst, hle, by simp⟩
        · cases hstep
  obtain ⟨cst, hcst, hle, hrd⟩ := key
  have hrd1 := depthTrace_reads_mem ops _ tr htr dn hmem _ hrd
  rw [hlast] at hrd1
  obtain ⟨a, ha, hax⟩ := Run.consts_minmax hrun o cst hrd1 ho
  have hcast : cst = ((a.toNat : Nat) : Rat) := by
    rw [hax]
    have : ((a.toNat : Nat) : Int) = a := Int.toNat_of_nonneg (by omega)
    exact_mod_cast this.symm
  rw [hcast, c_int_nat_add_half] at hle
  refine ⟨st, a.toNat, hst, by omega, by rw [hcst, hcast], ?_⟩
  intro j hj
  obtain ⟨_, hlt, hall⟩ := hgood
  have hj0 : 0 ≤ st.tos - (j : Int) := by omega
  obtain ⟨v, hv, hvl⟩ := hall (st.tos - (j : Int)).toNat (by omega)
  refine ⟨v, ?_, hvl⟩
  unfold VMState.slot
  rw [if_pos ⟨hj0, by omega⟩]
  exact hv

theorem cstr_drop_of_NUL {f : List Char} {i : Nat} (h : cget f i = NUL) :
    cstr (f.drop i) = [] := by
  by_cases hi : i < f.length
  · rw [drop_eq_cget_cons hi, h]
    simp [cstr]
  · rw [List.drop_eq_nil_of_le (by omega)]
    rfl

theorem cstr_drop_of_ne {f : List Char} {i : Nat} (h : cget f i ≠ NUL) :
    cstr (f.drop i) = cget f i :: cstr (f.drop (i + 1)) := by
  rw [drop_eq_cget_cons (cget_ne_NUL_lt h), cstr_cons_ne h]

/-- The copying loop of `CleanFunctions` appends the non-blank characters of the rest of
the string, in lower case. -/
theorem CleanFunctions_copy_spec (f : List Char) : ∀ (fuel i : Nat) (out : List Char),
    f.length ≤ i + fuel →
    CleanFunctions_copy f fuel i out =
      out ++ ((cstr (f.drop i)).filter fun c => !isspace c).map tolower := by
  intro fuel
  induction fuel with
  | zero =>
    intro i out h
    rw [List.drop_eq_nil_of_le (by omega)]
    simp [CleanFunctions_copy, cstr]
  | succ n ih =>
    intro i out h
    unfold CleanFunctions_copy
    by_cases hc : cget f i = NUL
    · rw [if_neg (by simp [hc]), cstr_drop_of_NUL hc]
      simp
    · rw [if_pos (by simpa using hc), ih (i + 1) _ (by omega), cstr_drop_of_ne hc]
      by_cases hs : isspace (cget f i) = true
      · rw [if_pos hs, List.filter_cons_of_neg (by simp [hs])]
      · rw [if_neg hs, List.filter_cons_of_pos (by simpa using hs)]
        simp

/-- The counting loop of `CleanFunctions` counts the non-blank characters of the rest of
the string. -/
theorem CleanFunctions_count_spec (f : List Char) : ∀ (fuel i nc : Nat),
    f.length ≤ i + fuel →
    CleanFunctions_count f fuel i nc =
      nc + ((cstr (f.drop i)).filter fun c => !isspace c).length := by
  intro fuel
  induction fuel with
  | zero =>
    intro i nc h
    rw [List.drop_eq_nil_of_le (by omega)]
    simp [CleanFunctions_count, cstr]
  | succ n ih =>
    intro i nc h
    unfold CleanFunctions_count
    by_cases hc : cget f i = NUL
    · rw [if_neg (by simp [hc]), cstr_drop_of_NUL hc]
      simp
    · rw [if_pos (by simpa using hc), ih (i + 1) _ (by omega), cstr_drop_of_ne hc]
      by_cases hs : isspace (cget f i) = true
      · rw [if_pos hs, List.filter_cons_of_neg (by simp [hs])]
        simp
      · rw [if_neg hs, List.filter_cons_of_pos (by simpa using hs)]
        simp only [List.length_cons]
        omega

theorem CleanFunctions_length (nfun : Nat) (funs : List (List Char)) :
    (CleanFunctions nfun funs).length = nfun := by
  simp [CleanFunctions]

theorem CleanFunctions_getD (nfun : Nat) (funs : List (List Char)) (i : Nat) (h : i < nfun) :
    (CleanFunctions nfun funs).getD i [] =
      ((cstr (funs.getD i [])).filter fun c => !isspace c).map tolower := by
  unfold CleanFunctions
  rw [List.getD_eq_getElem?_getD, List.getElem?_map, List.getElem?_range h]
  simp only [Option.map_some', Option.getD_some]
  rw [CleanFunctions_copy_spec _ _ _ _ (by omega)]
  simp

theorem Char.eq_ofNat_toNat (c : Char) : c = Char.ofNat c.toNat := (Char.ofNat_toNat c).symm

theorem isspace_iff (c : Char) :
    isspace c = true ↔ c ∈ [' ', '\t', '\n', Char.ofNat 11, Char.ofNat 12, '\r'] := by
  constructor
  · intro h
    unfold isspace at h
    simp only [Bool.or_eq_true, beq_iff_eq, Bool.and_eq_true, decide_eq_true_eq] at h
    rcases h with h | ⟨h1, h2⟩
    · subst h
      decide
    · rw [Char.eq_ofNat_toNat c]
      generalize c.toNat = n at h1 h2
      interval_cases n <;> decide
  · intro h
    simp only [List.mem_cons, List.mem_singleton, List.not_mem_nil, or_false] at h
    rcases h with h | h | h | h | h | h <;> subst h <;> decide

theorem Char.isUpper_iff (c : Char) : c.isUpper = true ↔ 65 ≤ c.toNat ∧ c.toNat ≤ 90 := by
  unfold Char.isUpper
  simp only [Bool.and_eq_true, decide_eq_true_eq, ge_iff_le]
  have e : c.toNat = c.val.toNat := rfl
  rw [e, UInt32.le_def, UInt32.le_def, BitVec.le_def, BitVec.le_def]
  exact Iff.rfl

theorem tolower_isUpper (c : Char) :
    tolower c = if c.isUpper then Char.ofNat (c.toNat + 32) else c := by
  unfold tolower
  by_cases h : 65 ≤ c.toNat ∧ c.toNat ≤ 90
  · rw [if_pos h, if_pos ((Char.isUpper_iff c).2 h)]
  · rw [if_neg h, if_neg (fun hu => h ((Char.isUpper_iff c).1 hu))]

/-- The lower-case form of a character is its own lower-case form, is blank only for a
blank, and is the terminator only for the terminator. -/
theorem tolower_facts (c : Char) :
    tolower (tolower c) = tolower c ∧ isspace (tolower c) = isspace c ∧
      (c ≠ NUL → tolower c ≠ NUL) := by
  by_cases h : 65 ≤ c.toNat ∧ c.toNat ≤ 90
  · rw [Char.eq_ofNat_toNat c]
    obtain ⟨h1, h2⟩ := h
    generalize c.toNat = n at h1 h2
    interval_cases n <;> decide
  · unfold tolower
    rw [if_neg h, if_neg h]
    exact ⟨rfl, rfl, id⟩

theorem cstr_ne_NUL {s : List Char} {c : Char} (h : c ∈ cstr s) : c ≠ NUL := by
  have := List.mem_takeWhile_imp h
  simpa using this

theorem cstr_eq_self {s : List Char} (h : ∀ c ∈ s, c ≠ NUL) : cstr s = s := by
  unfold cstr
  rw [List.takeWhile_eq_self_iff]
  intro c hc
  simpa using h c hc

/-- Cleaning a cleaned string changes nothing. -/
theorem clean_clean (f : List Char) :
    ((cstr (((cstr f).filter fun c => !isspace c).map tolower)).filter
        fun c => !isspace c).map tolower =
      ((cstr f).filter fun c => !isspace c).map tolower := by
  have hmem : ∀ d ∈ ((cstr f).filter fun c => !isspace c).map tolower,
      d ≠ NUL ∧ isspace d = false ∧ tolower d = d := by
    intro d hd
    obtain ⟨c, hc, rfl⟩ := List.mem_map.1 hd
    obtain ⟨hc1, hc2⟩ := List.mem_filter.1 hc
    obtain ⟨t1, t2, t3⟩ := tolower_facts c
    refine ⟨t3 (cstr_ne_NUL hc1), ?_, t1⟩
    rw [t2]
    simpa using hc2
  rw [cstr_eq_self fun d hd => (hmem d hd).1]
  rw [List.filter_eq_self.2 fun d hd => by simp [(hmem d hd).2.1]]
  conv_rhs => rw [← List.map_id (((cstr f).filter fun c => !isspace c).map tolower)]
  apply List.map_congr_left
  intro d hd
  exact (hmem d hd).2.2

theorem list_eq_of_getD {α : Type} (d : α) {x y : List α} (hlen : x.length = y.length)
    (h : ∀ i, i < x.length → x.getD i d = y.getD i d) : x = y := by
  apply List.ext_getElem hlen
  intro i h1 h2
  have := h i h1
  rw [List.getD_eq_getElem?_getD, List.getD_eq_getElem?_getD, List.getElem?_eq_getElem h1,
    List.getElem?_eq_getElem h2] at this
  exact this

/-- C29: `CleanFunctions` returns `nfun` strings; string `i` is input string `i` without
the characters for which `isspace` holds and with `tolower` applied to the others, in
their order, and it fills exactly the `nc + 1` elements allocated for it.  `isspace`
holds for space and the characters 9 to 13, `tolower` changes the letters `A` to `Z`
only. -/
theorem C29_clean_functions :
    (∀ (nfun : Nat) (funs : List (List Char)),
      (CleanFunctions nfun funs).length = nfun ∧
      ∀ i, i < nfun →
        (CleanFunctions nfun funs).getD i [] =
            ((cstr (funs.getD i [])).filter fun c => !isspace c).map tolower ∧
          CleanFunctions_count (funs.getD i []) (funs.getD i []).length 0 0 =
            ((CleanFunctions nfun funs).getD i []).length) ∧
    (∀ c : Char, isspace c = true ↔ c ∈ [' ', '\t', '\n', Char.ofNat 11, Char.ofNat 12, '\r']) ∧
    (∀ c : Char, tolower c = if c.isUpper then Char.ofNat (c.toNat + 32) else c) ∧
    CleanFunctions 2 [" Y = A +\tb ".toList, "x\n=Sin( Y )".toList] =
      ["y=a+b".toList, "x=sin(y)".toList] := by
  refine ⟨?_, ?_, ?_, by decide⟩
  · intro nfun funs
    refine ⟨CleanFunctions_length nfun funs, ?_⟩
    intro i hi
    refine ⟨CleanFunctions_getD nfun funs i hi, ?_⟩
    rw [CleanFunctions_getD nfun funs i hi, CleanFunctions_count_spec _ _ _ _ (by omega)]
    simp
  · exact isspace_iff
  · exact tolower_isUpper

/-- C30: cleaning the cleaned strings again gives exactly the same strings. -/
theorem C30_clean_idempotent :
    (∀ (nfun : Nat) (funs : List (List Char)),
      CleanFunctions nfun (CleanFunctions nfun funs) = CleanFunctions nfun funs) ∧
    CleanFunctions 2 (CleanFunctions 2 [" Y = A +\tb ".toList, "x\n=Sin( Y )".toList]) =
      ["y=a+b".toList, "x=sin(y)".toList] := by
  refine ⟨?_, by decide⟩
  intro nfun funs
  apply list_eq_of_getD []
  · rw [CleanFunctions_length, CleanFunctions_length]
  · intro i hi
    rw [CleanFunctions_length] at hi
    rw [CleanFunctions_getD _ _ i hi, CleanFunctions_getD _ _ i hi]
    exact clean_clean _

/-- The counting loop of `ExtractVariables` stops after the characters before the first
`=` sign. -/
theorem ExtractVariables_count_spec (f : List Char) : ∀ (fuel nc : Nat),
    f.length ≤ nc + fuel →
    ExtractVariables_count f fuel nc = nc + (lhsText (f.drop nc)).length := by
  intro fuel
  induction fuel with
  | zero =>
    intro nc h
    rw [List.drop_eq_nil_of_le (by omega)]
    simp [ExtractVariables_count, lhsText, cstr]
  | succ n ih =>
    intro nc h
    unfold ExtractVariables_count lhsText
    by_cases hc : cget f nc = NUL
    · rw [if_neg (by simp [hc]), cstr_drop_of_NUL hc]
      simp
    · rw [if_pos (by simpa using hc), cstr_drop_of_ne hc]
      by_cases he : cget f nc = '='
      · rw [if_pos (by simp [he]), List.takeWhile_cons_of_neg (by simp [he])]
        simp
      · rw [if_neg (by simpa using he), List.takeWhile_cons_of_pos (by simpa using he),
          ih (nc + 1) (by omega)]
        simp only [lhsText, List.length_cons]
        omega

/-- The copying loop of `ExtractVariables` appends the characters before the first `=`
sign. -/
theorem ExtractVariables_copy_spec (f : List Char) : ∀ (fuel i : Nat) (out : List Char),
    f.length ≤ i + fuel →
    ExtractVariables_copy f fuel i out = out ++ lhsText (f.drop i) := by
  intro fuel
  induction fuel with
  | zero =>
    intro i out h
    rw [List.drop_eq_nil_of_le (by omega)]
    simp [ExtractVariables_copy, lhsText, cstr]
  | succ n ih =>
    intro i out h
    unfold ExtractVariables_copy lhsText
    by_cases hc : cget f i = NUL
    · rw [if_neg (by simp [hc]), cstr_drop_of_NUL hc]
      simp
    · rw [if_pos (by simpa using hc), cstr_drop_of_ne hc]
      by_cases he : cget f i = '='
      · rw [if_pos (by simp [he]), List.takeWhile_cons_of_neg (by simp [he])]
        simp
      · rw [if_neg (by simpa using he), List.takeWhile_cons_of_pos (by simpa using he),
          ih (i + 1) _ (by omega)]
        simp [lhsText]

theorem lhsText_ne_NUL {f : List Char} {c : Char} (h : c ∈ lhsText f) : c ≠ NUL :=
  cstr_ne_NUL ((List.takeWhile_sublist _).subset h)

theorem cget_mem {v : List Char} {j : Nat} (h : j < v.length) : cget v j ∈ v := by
  rw [cget_eq_getElem h]
  exact List.getElem_mem h

/-- `ParseName` reads the whole of a string without terminator inside exactly when the
string is an identifier. -/
theorem ParseName_whole (v : List Char) (hv : ∀ c ∈ v, c ≠ NUL) :
    ¬ (ParseName v 0 < 0 ∨ cget v (ParseName v 0 + 1).toNat ≠ NUL) ↔ isIdentifier v = true := by
  cases v with
  | nil =>
    have : ParseName [] 0 = -1 := by decide
    rw [this]
    simp [isIdentifier]
  | cons c cs =>
    unfold ParseName
    have h0 : cget (c :: cs) 0 = c := rfl
    rw [h0]
    by_cases ha : c.isAlpha = true
    · rw [if_pos ha]
      obtain ⟨_, s2, s3⟩ := ParseName_loop_spec (c :: cs) ((c :: cs).length + 1) 0
      generalize ParseName_loop (c :: cs) ((c :: cs).length + 1) 0 = e at s2 s3
      have s3 := s3 (by omega)
      have hidx : ((e : Int) + 1).toNat = e + 1 := by omega
      rw [hidx]
      simp only [isIdentifier, ha, Bool.true_and, List.all_eq_true, Bool.or_eq_true, beq_iff_eq]
      constructor
      · intro h d hd
        have hnul : cget (c :: cs) (e + 1) = NUL := by
          by_contra hne
          exact h (Or.inr hne)
        have hlen : (c :: cs).length ≤ e + 1 := by
          by_contra hlt
          exact hv _ (cget_mem (by omega)) hnul
        obtain ⟨k, hk, rfl⟩ := List.getElem_of_mem hd
        have := (s2 (k + 1) (by omega) (by simp at hlen; omega)).2
        have hk1 : cget (c :: cs) (k + 1) = cs[k] := by
          rw [cget_eq_getElem (by simp; omega)]
          rfl
        rw [hk1] at this
        exact this
      · intro hall h
        rcases h with h | h
        · omega
        · have hlt : e + 1 < (c :: cs).length := cget_ne_NUL_lt h
          apply s3
          refine ⟨h, ?_⟩
          have he : e < cs.length := by
            simp only [List.length_cons] at hlt
            omega
          have hk1 : cget (c :: cs) (e + 1) = cs[e] := by
            rw [cget_eq_getElem hlt]
            rfl
          rw [hk1]
          exact hall _ (List.getElem_mem _)
    · rw [if_neg ha]
      simp [isIdentifier, ha]

/-- The body of the function loop of `ExtractVariables` in terms of the text before the
first `=` sign. -/
theorem ExtractVariables_body_spec (ifun : Nat) (f : List Char) :
    ExtractVariables_body ifun f =
      if lhsText f = [] then
        .error ⟨ErrCode.MISVN, [ifun + 1], if cget f 0 ≠ NUL then some (cstr f) else none⟩
      else if isIdentifier (lhsText f) = true then .ok (lhsText f)
      else .error ⟨ErrCode.VARIN, [ifun + 1], some (lhsText f)⟩ := by
  unfold ExtractVariables_body
  have e1 := ExtractVariables_count_spec f f.length 0 (by omega)
  have e2 := ExtractVariables_copy_spec f f.length 0 [] (by omega)
  simp only [List.drop_zero, Nat.zero_add, List.nil_append] at e1 e2
  simp only [e1, e2]
  by_cases hl : lhsText f = []
  · rw [if_pos (by simp [hl]), if_pos hl]
    simp only [hl, List.length_nil]
    by_cases hc : cget f 0 = NUL
    · rw [if_neg (by simp [hc]), if_neg (by simp [hc])]
    · rw [if_pos (by simpa using hc), if_pos hc]
  · rw [if_neg (by simpa using hl), if_neg hl]
    have hw := ParseName_whole (lhsText f) fun c hc => lhsText_ne_NUL hc
    by_cases hid : isIdentifier (lhsText f) = true
    · rw [if_pos hid, if_neg (hw.2 hid)]
    · rw [if_neg hid, if_pos (by
        by_contra hn
        exact hid (hw.1 hn))]
      rw [cstr_eq_self fun c hc => lhsText_ne_NUL hc]

/-- The names of functions `ifun, ifun + 1, ..., nfun - 1`. -/
theorem ExtractVariables_loop_ok (nfun : Nat) (funs : List (List Char)) :
    ∀ (fuel ifun : Nat) (var : List (List Char)), nfun ≤ ifun + fuel →
    (∀ i, ifun ≤ i → i < nfun → isIdentifier (lhsText (funs.getD i [])) = true) →
    ExtractVariables_loop nfun funs fuel ifun var =
      .ok (var ++ (List.range' ifun (nfun - ifun)).map fun i => lhsText (funs.getD i [])) := by
  intro fuel
  induction fuel with
  | zero =>
    intro ifun var h _
    have : nfun - ifun = 0 := by omega
    simp [ExtractVariables_loop, this]
  | succ n ih =>
    intro ifun var h hall
    unfold ExtractVariables_loop
    by_cases hlt : ifun < nfun
    · rw [if_pos hlt, ExtractVariables_body_spec]
      have hid := hall ifun (Nat.le_refl _) hlt
      have hne : lhsText (funs.getD ifun []) ≠ [] := by
        intro h0
        rw [h0] at hid
        cases hid
      rw [if_neg hne, if_pos hid]
      simp only
      rw [ih (ifun + 1) _ (by omega) fun i h1 h2 => hall i (by omega) h2]
      have : nfun - ifun = (nfun - (ifun + 1)) + 1 := by omega
      rw [this, List.range'_succ]
      simp
    · rw [if_neg hlt]
      have : nfun - ifun = 0 := by omega
      simp [this]

/-- The function loop of `ExtractVariables` stops at the first function whose left hand
side is not an identifier, with the error of that function. -/
theorem ExtractVariables_loop_error (nfun : Nat) (funs : List (List Char)) (i0 : Nat)
    (hi0 : i0 < nfun) (hbad : isIdentifier (lhsText (funs.getD i0 [])) ≠ true) :
    ∀ (fuel ifun : Nat) (var : List (List Char)), nfun ≤ ifun + fuel → ifun ≤ i0 →
    (∀ i, ifun ≤ i → i < i0 → isIdentifier (lhsText (funs.getD i [])) = true) →
    ExtractVariables_loop nfun funs fuel ifun var =
      .error (if lhsText (funs.getD i0 []) = [] then
          ⟨ErrCode.MISVN, [i0 + 1],
            if cget (funs.getD i0 []) 0 ≠ NUL then some (cstr (funs.getD i0 [])) else none⟩
        else ⟨ErrCode.VARIN, [i0 + 1], some (lhsText (funs.getD i0 []))⟩) := by
  intro fuel
  induction fuel with
  | zero =>
    intro ifun var h h1 _
    omega
  | succ n ih =>
    intro ifun var h h1 hall
    unfold ExtractVariables_loop
    rw [if_pos (by omega)]
    by_cases he : ifun = i0
    · subst he
      rw [ExtractVariables_body_spec]
      by_cases hl : lhsText (funs.getD ifun []) = []
      · rw [if_pos hl, if_pos hl]
      · rw [if_neg hl, if_neg hbad, if_neg hl]
    · rw [ExtractVariables_body_spec]
      have hid := hall ifun (Nat.le_refl _) (by omega)
      have hne : lhsText (funs.getD ifun []) ≠ [] := by
        intro h0
        rw [h0] at hid
        cases hid
      rw [if_neg hne, if_pos hid]
      simp only
      exact ih (ifun + 1) _ (by omega) (by omega) fun i h2 h3 => hall i (by omega) h3

theorem exists_least (P : Nat → Prop) (n : Nat) (h : ∃ i, i < n ∧ P i) :
    ∃ i0, i0 < n ∧ P i0 ∧ ∀ i, i < i0 → ¬ P i := by
  classical
  have h1 : ∃ i, i < n ∧ P i := h
  refine ⟨Nat.find h1, (Nat.find_spec h1).1, (Nat.find_spec h1).2, ?_⟩
  intro i hi hp
  have hn := Nat.find_min h1 hi
  exact hn ⟨by have := (Nat.find_spec h1).1; omega, hp⟩

theorem ExtractVariables_dup1_none (var : List (List Char)) (i2 : Nat) :
    ∀ (fuel i1 : Nat),
    (∀ k, i1 ≤ k → k < i2 → strcmp0 (var.getD k []) (var.getD i2 []) = false) →
    ExtractVariables_dup1 var i2 fuel i1 = none := by
  intro fuel
  induction fuel with
  | zero => intro i1 _; rfl
  | succ n ih =>
    intro i1 h
    unfold ExtractVariables_dup1
    by_cases hlt : i1 < i2
    · rw [if_pos hlt, h i1 (Nat.le_refl _) hlt]
      simp only [Bool.false_eq_true, if_false]
      exact ih (i1 + 1) fun k h1 h2 => h k (by omega) h2
    · rw [if_neg hlt]

theorem ExtractVariables_dup1_some (var : List (List Char)) (i2 j : Nat) (hj : j < i2)
    (heq : strcmp0 (var.getD j []) (var.getD i2 []) = true) :
    ∀ (fuel i1 : Nat), i2 ≤ i1 + fuel → i1 ≤ j →
    (∀ k, i1 ≤ k → k < j → strcmp0 (var.getD k []) (var.getD i2 []) = false) →
    ExtractVariables_dup1 var i2 fuel i1 = some j := by
  intro fuel
  induction fuel with
  | zero => intro i1 h h1 _; omega
  | succ n ih =>
    intro i1 h h1 hall
    unfold ExtractVariables_dup1
    rw [if_pos (by omega)]
    by_cases he : i1 = j
    · subst he
      rw [if_pos heq]
    · rw [hall i1 (Nat.le_refl _) (by omega)]
      simp only [Bool.false_eq_true, if_false]
      exact ih (i1 + 1) (by omega) (by omega) fun k h2 h3 => hall k (by omega) h3

theorem ExtractVariables_dup_none (nfun : Nat) (var : List (List Char)) :
    ∀ (fuel i2 : Nat),
    (∀ a b, a < b → i2 ≤ b → b < nfun → strcmp0 (var.getD a []) (var.getD b []) = false) →
    ExtractVariables_dup nfun var fuel i2 = none := by
  intro fuel
  induction fuel with
  | zero => intro i2 _; rfl
  | succ n ih =>
    intro i2 h
    unfold ExtractVariables_dup
    by_cases hlt : i2 < nfun
    · rw [if_pos hlt, ExtractVariables_dup1_none var i2 i2 0
        fun k _ h2 => h k i2 h2 (Nat.le_refl _) hlt]
      exact ih (i2 + 1) fun a b h1 h2 h3 => h a b h1 (by omega) h3
    · rw [if_neg hlt]

theorem ExtractVariables_dup_some (nfun : Nat) (var : List (List Char)) (j1 j2 : Nat)
    (hj : j1 < j2) (hj2 : j2 < nfun)
    (heq : strcmp0 (var.getD j1 []) (var.getD j2 []) = true)
    (hmin1 : ∀ k, k < j1 → strcmp0 (var.getD k []) (var.getD j2 []) = false) :
    ∀ (fuel i2 : Nat), nfun ≤ i2 + fuel → i2 ≤ j2 →
    (∀ a b, a < b → i2 ≤ b → b < j2 → strcmp0 (var.getD a []) (var.getD b []) = false) →
    ExtractVariables_dup nfun var fuel i2 = some (j1, j2) := by
  intro fuel
  induction fuel with
  | zero => intro i2 h h1 _; omega
  | succ n ih =>
    intro i2 h h1 hall
    unfold ExtractVariables_dup
    rw [if_pos (by omega)]
    by_cases he : i2 = j2
    · subst he
      rw [ExtractVariables_dup1_some var i2 j1 hj heq i2 0 (by omega) (by omega)
        fun k _ h3 => hmin1 k h3]
    · rw [ExtractVariables_dup1_none var i2 i2 0
        fun k _ h2 => hall k i2 h2 (Nat.le_refl _) (by omega)]
      exact ih (i2 + 1) (by omega) (by omega) fun a b h2 h3 h4 => hall a b h2 (by omega) h4

theorem getD_map_range' {α : Type} (g : Nat → α) (d : α) (n i : Nat) (h : i < n) :
    ((List.range' 0 n).map g).getD i d = g i := by
  rw [List.getD_eq_getElem?_getD, List.getElem?_map, List.getElem?_range' _ _ h]
  simp

theorem strcmp0_lhsText (f g : List Char) :
    strcmp0 (lhsText f) (lhsText g) = decide (lhsText f = lhsText g) := by
  unfold strcmp0
  rw [cstr_eq_self fun c hc => lhsText_ne_NUL hc, cstr_eq_self fun c hc => lhsText_ne_NUL hc]
  by_cases h : lhsText f = lhsText g <;> simp [h]

/-- `ExtractVariables` on functions whose left hand sides are identifiers, no two of
them equal. -/
theorem ExtractVariables_ok (nfun : Nat) (funs : List (List Char))
    (hid : ∀ i, i < nfun → isIdentifier (lhsText (funs.getD i [])) = true)
    (hne : ∀ i j, i < j → j < nfun → lhsText (funs.getD i []) ≠ lhsText (funs.getD j [])) :
    ExtractVariables nfun funs =
      .ok ((List.range' 0 nfun).map fun i => lhsText (funs.getD i [])) := by
  unfold ExtractVariables
  rw [ExtractVariables_loop_ok nfun funs nfun 0 [] (by omega) fun i _ h => hid i h]
  simp only [List.nil_append, Nat.sub_zero]
  rw [ExtractVariables_dup_none]
  intro a b hab _ hb
  rw [getD_map_range' _ _ _ _ (by omega), getD_map_range' _ _ _ _ hb, strcmp0_lhsText]
  simpa using hne a b hab hb

/-- `ExtractVariables` with a first function whose left hand side is not an
identifier. -/
theorem ExtractVariables_bad (nfun : Nat) (funs : List (List Char)) (i0 : Nat)
    (hi0 : i0 < nfun) (hbad : isIdentifier (lhsText (funs.getD i0 [])) ≠ true)
    (hid : ∀ i, i < i0 → isIdentifier (lhsText (funs.getD i [])) = true) :
    ExtractVariables nfun funs =
      .error (if lhsText (funs.getD i0 []) = [] then
          ⟨ErrCode.MISVN, [i0 + 1],
            if cget (funs.getD i0 []) 0 ≠ NUL then some (cstr (funs.getD i0 [])) else none⟩
        else ⟨ErrCode.VARIN, [i0 + 1], some (lhsText (funs.getD i0 []))⟩) := by
  unfold ExtractVariables
  rw [ExtractVariables_loop_error nfun funs i0 hi0 hbad nfun 0 [] (by omega) (by omega)
    fun i _ h => hid i h]

/-- `ExtractVariables` on functions whose left hand sides are identifiers, with the
first pair of equal ones in the order of the search. -/
theorem ExtractVariables_duplicate (nfun : Nat) (funs : List (List Char)) (j1 j2 : Nat)
    (hid : ∀ i, i < nfun → isIdentifier (lhsText (funs.getD i [])) = true)
    (hj : j1 < j2) (hj2 : j2 < nfun)
    (heq : lhsText (funs.getD j1 []) = lhsText (funs.getD j2 []))
    (hmin1 : ∀ k, k < j1 → lhsText (funs.getD k []) ≠ lhsText (funs.getD j2 []))
    (hmin2 : ∀ a b, a < b → b < j2 → lhsText (funs.getD a []) ≠ lhsText (funs.getD b [])) :
    ExtractVariables nfun funs =
      .error ⟨ErrCode.DUVAR, [j1 + 1, j2 + 1], some (lhsText (funs.getD j1 []))⟩ := by
  unfold ExtractVariables
  rw [ExtractVariables_loop_ok nfun funs nfun 0 [] (by omega) fun i _ h => hid i h]
  simp only [List.nil_append, Nat.sub_zero]
  rw [ExtractVariables_dup_some nfun _ j1 j2 hj hj2 ?_ ?_ nfun 1 (by omega) (by omega) ?_]
  · simp only
    rw [getD_map_range' _ _ _ _ (by omega),
      cstr_eq_self fun c hc => lhsText_ne_NUL hc]
  · rw [getD_map_range' _ _ _ _ (by omega), getD_map_range' _ _ _ _ hj2, strcmp0_lhsText]
    simpa using heq
  · intro k hk
    rw [getD_map_range' _ _ _ _ (by omega), getD_map_range' _ _ _ _ hj2, strcmp0_lhsText]
    simpa using hmin1 k hk
  · intro a b hab _ hb
    rw [getD_map_range' _ _ _ _ (by omega), getD_map_range' _ _ _ _ (by omega),
      strcmp0_lhsText]
    simpa using hmin2 a b hab hb

/-- Among functions with two equal left hand sides there is a first such pair in the
order of the search for duplicates. -/
theorem exists_first_duplicate (g : Nat → List Char) (nfun : Nat)
    (h : ∃ i j, i < j ∧ j < nfun ∧ g i = g j) :
    ∃ j1 j2, j1 < j2 ∧ j2 < nfun ∧ g j1 = g j2 ∧ (∀ k, k < j1 → g k ≠ g j2) ∧
      ∀ a b, a < b → b < j2 → g a ≠ g b := by
  obtain ⟨i, j, hij, hj, he⟩ := h
  obtain ⟨j2, hj2, ⟨a, ha, hae⟩, hmin2⟩ :=
    exists_least (fun b => ∃ a, a < b ∧ g a = g b) nfun ⟨j, hj, i, hij, he⟩
  obtain ⟨j1, hj1, hje, hmin1⟩ := exists_least (fun a => g a = g j2) j2 ⟨a, ha, hae⟩
  refine ⟨j1, j2, hj1, hj2, hje, fun k hk => hmin1 k hk, ?_⟩
  intro a b hab hb heq
  exact hmin2 b hb ⟨a, hab, heq⟩

/-- The text before the first `=` sign is empty when the string is empty or starts with
the `=` sign. -/
theorem lhsText_eq_nil (f : List Char) :
    lhsText f = [] ↔ (cstr f = [] ∨ cget f 0 = '=') := by
  unfold lhsText
  cases hf : cstr f with
  | nil => simp
  | cons c t =>
    have hc : cget f 0 = c := by
      have := (cstr_cget f 0 (by rw [hf]; simp)).1
      rw [← this, hf]
      rfl
    rw [hc]
    by_cases he : c = '='
    · subst he
      simp
    · rw [List.takeWhile_cons_of_pos (by simpa using he)]
      simp [he]

/-- C21: `ExtractVariables` succeeds exactly when the text before the first `=` sign of
every function (the whole string when it has none) is an identifier (not empty, a
letter first, then only letters, digits or underscores) and no two functions have the
same such text; on success the result has `nfun` entries and entry `i` is that text of
function `i`. -/
theorem C21_variables_extracted :
    (∀ (nfun : Nat) (funs : List (List Char)),
      ((∃ var, ExtractVariables nfun funs = .ok var) ↔
        ((∀ i, i < nfun → isIdentifier (lhsText (funs.getD i [])) = true) ∧
          ∀ i j, i < j → j < nfun →
            lhsText (funs.getD i []) ≠ lhsText (funs.getD j []))) ∧
      ∀ var, ExtractVariables nfun funs = .ok var →
        var.length = nfun ∧ ∀ i, i < nfun → var.getD i [] = lhsText (funs.getD i [])) ∧
    ExtractVariables 3 ["x1=a+b".toList, "y_2".toList, "z=x=1".toList] =
      .ok ["x1".toList, "y_2".toList, "z".toList] ∧
    lhsText "z=x=1".toList = "z".toList ∧ lhsText "y_2".toList = "y_2".toList := by
  refine ⟨?_, by decide, by decide, by decide⟩
  intro nfun funs
  have key : ∀ var, ExtractVariables nfun funs = .ok var →
      (∀ i, i < nfun → isIdentifier (lhsText (funs.getD i [])) = true) ∧
        ∀ i j, i < j → j < nfun → lhsText (funs.getD i []) ≠ lhsText (funs.getD j []) := by
    intro var hok
    have hid : ∀ i, i < nfun → isIdentifier (lhsText (funs.getD i [])) = true := by
      by_contra hnot
      push_neg at hnot
      obtain ⟨i0, hi0, hbad, hmin⟩ :=
        exists_least (fun i => isIdentifier (lhsText (funs.getD i [])) ≠ true) nfun hnot
      rw [ExtractVariables_bad nfun funs i0 hi0 hbad fun i hi => not_not.1 (hmin i hi)] at hok
      cases hok
    refine ⟨hid, ?_⟩
    by_contra hnot
    push_neg at hnot
    obtain ⟨j1, j2, h1, h2, h3, h4, h5⟩ :=
      exists_first_duplicate (fun i => lhsText (funs.getD i [])) nfun hnot
    rw [ExtractVariables_duplicate nfun funs j1 j2 hid h1 h2 h3 h4 h5] at hok
    cases hok
  refine ⟨⟨fun ⟨var, hok⟩ => key var hok, fun ⟨h1, h2⟩ => ⟨_, ExtractVariables_ok nfun funs h1 h2⟩⟩,
    ?_⟩
  intro var hok
  obtain ⟨h1, h2⟩ := key var hok
  rw [ExtractVariables_ok nfun funs h1 h2] at hok
  injection hok with hok
  subst hok
  refine ⟨by simp, fun i hi => getD_map_range' _ _ _ _ hi⟩

/-- C22: when the text before the first `=` sign of every function is an identifier and
two functions have the same one, `ExtractVariables` fails with `DUVAR`; the report
names the first such pair in the order of the search (the first function that repeats
an earlier name, and the first function with that name).  So `CompileMapping` on
`y=a`, `y=b` with inverse functions `a=y`, `b=y` fails with `DUVAR`. -/
theorem C22_duplicate_names :
    (∀ (nfun : Nat) (funs : List (List Char)),
      (∀ i, i < nfun → isIdentifier (lhsText (funs.getD i [])) = true) →
      (∃ i j, i < j ∧ j < nfun ∧ lhsText (funs.getD i []) = lhsText (funs.getD j [])) →
      ∃ e, ExtractVariables nfun funs = .error e ∧ e.code = ErrCode.DUVAR ∧
        ∃ j1 j2, j1 < j2 ∧ j2 < nfun ∧
          lhsText (funs.getD j1 []) = lhsText (funs.getD j2 []) ∧
          e.numbers = [j1 + 1, j2 + 1] ∧ e.quoted = some (lhsText (funs.getD j1 []))) ∧
    ExtractVariables 2 ["y=a".toList, "y=b".toList] =
      .error ⟨ErrCode.DUVAR, [1, 2], some "y".toList⟩ ∧
    CompileMapping 2 2 ["y=a".toList, "y=b".toList] ["a=y".toList, "b=y".toList] =
      .error (.ofVariables false ⟨ErrCode.DUVAR, [1, 2], some "y".toList⟩) ∧
    (MapError.ofVariables false ⟨ErrCode.DUVAR, [1, 2], some "y".toList⟩).code =
      ErrCode.DUVAR ∧
    CompileMapping 2 2 (CleanFunctions 2 ["y = a".toList, "y = b".toList])
        (CleanFunctions 2 ["a=y".toList, "b=y".toList]) =
      .error (.ofVariables false ⟨ErrCode.DUVAR, [1, 2], some "y".toList⟩) := by
  refine ⟨?_, by decide, by decide!, rfl, by decide!⟩
  intro nfun funs hid hdup
  obtain ⟨j1, j2, h1, h2, h3, h4, h5⟩ :=
    exists_first_duplicate (fun i => lhsText (funs.getD i [])) nfun hdup
  exact ⟨_, ExtractVariables_duplicate nfun funs j1 j2 hid h1 h2 h3 h4 h5, rfl, j1, j2, h1, h2,
    h3, rfl, rfl⟩

/-- Witness of C22: three functions, the third repeating the name of the first. -/
theorem C22_duplicate_names_witness :
    ∃ e, ExtractVariables 3 ["u=1".toList, "v=2".toList, "u=3".toList] = .error e ∧
      e.code = ErrCode.DUVAR := by
  obtain ⟨e, h1, h2, _⟩ := C22_duplicate_names.1 3 ["u=1".toList, "v=2".toList, "u=3".toList]
    (by
      intro i hi
      interval_cases i <;> decide)
    ⟨0, 2, by decide, by decide, by decide⟩
  exact ⟨e, h1, h2⟩

/-- C23: `ExtractVariables` reports the first function whose text before the first `=`
sign is not an identifier: with `MISVN` when that text is empty (the string is empty or
starts with the `=` sign), with `VARIN` and that text otherwise; this holds whatever
the names of the functions before it, also when two of them are equal. -/
theorem C23_first_bad_name :
    (∀ (nfun : Nat) (funs : List (List Char)) (i0 : Nat), i0 < nfun →
      isIdentifier (lhsText (funs.getD i0 [])) ≠ true →
      (∀ i, i < i0 → isIdentifier (lhsText (funs.getD i [])) = true) →
      ∃ e, ExtractVariables nfun funs = .error e ∧ e.numbers = [i0 + 1] ∧
        (lhsText (funs.getD i0 []) = [] → e.code = ErrCode.MISVN) ∧
        (lhsText (funs.getD i0 []) ≠ [] →
          e.code = ErrCode.VARIN ∧ e.quoted = some (lhsText (funs.getD i0 [])))) ∧
    (∀ f : List Char, lhsText f = [] ↔ (cstr f = [] ∨ cget f 0 = '=')) ∧
    ExtractVariables 1 ["2x=1".toList] = .error ⟨ErrCode.VARIN, [1], some "2x".toList⟩ ∧
    ExtractVariables 1 ["a+b=1".toList] = .error ⟨ErrCode.VARIN, [1], some "a+b".toList⟩ ∧
    ExtractVariables 1 ["".toList] = .error ⟨ErrCode.MISVN, [1], none⟩ ∧
    ExtractVariables 1 ["=1".toList] = .error ⟨ErrCode.MISVN, [1], some "=1".toList⟩ ∧
    ExtractVariables 3 ["a=1".toList, "a=2".toList, "=3".toList] =
      .error ⟨ErrCode.MISVN, [3], some "=3".toList⟩ ∧
    ExtractVariables 4 ["a=1".toList, "a=2".toList, "b c=3".toList, "".toList] =
      .error ⟨ErrCode.VARIN, [3], some "b c".toList⟩ ∧
    ExtractVariables 2 ["a=1".toList, "a=2".toList] =
      .error ⟨ErrCode.DUVAR, [1, 2], some "a".toList⟩ := by
  refine ⟨?_, lhsText_eq_nil, by decide, by decide, by decide, by decide, by decide, by decide,
    by decide⟩
  intro nfun funs i0 hi0 hbad hid
  refine ⟨_, ExtractVariables_bad nfun funs i0 hi0 hbad hid, ?_, ?_, ?_⟩
  · split <;> rfl
  · intro h
    rw [if_pos h]
  · intro h
    rw [if_neg h]
    exact ⟨rfl, rfl⟩

/-- Witness of C23: the third function has no left hand side and the first two have the
same name. -/
theorem C23_first_bad_name_witness :
    ∃ e, ExtractVariables 3 ["a=1".toList, "a=2".toList, "=3".toList] = .error e ∧
      e.numbers = [3] ∧ e.code = ErrCode.MISVN := by
  obtain ⟨e, h1, h2, h3, _⟩ :=
    C23_first_bad_name.1 3 ["a=1".toList, "a=2".toList, "=3".toList] 2 (by decide) (by decide)
      (by
        intro i hi
        interval_cases i <;> decide)
  exact ⟨e, h1, h2, h3 (by decide)⟩

/-- `strchr` finds the first `=` sign of the rest of the string, if there is one; what
follows it is the text after the first `=` sign. -/
theorem strchr_spec (f : List Char) : ∀ (fuel i : Nat), f.length ≤ i + fuel →
    (hasEquals (f.drop i) = true →
      ∃ p, strchr f '=' fuel i = some p ∧ cstr (f.drop (p + 1)) = rhsText (f.drop i)) ∧
    (hasEquals (f.drop i) = false → strchr f '=' fuel i = none) := by
  intro fuel
  induction fuel with
  | zero =>
    intro i h
    rw [List.drop_eq_nil_of_le (by omega)]
    refine ⟨fun h => ?_, fun _ => rfl⟩
    simp [hasEquals, cstr] at h
  | succ n ih =>
    intro i h
    unfold strchr hasEquals rhsText
    by_cases hc : cget f i = NUL
    · rw [if_neg (by simp [hc]), cstr_drop_of_NUL hc]
      simp
    · rw [if_pos (by simpa using hc), cstr_drop_of_ne hc]
      by_cases he : cget f i = '='
      · rw [if_pos (by simp [he])]
        refine ⟨fun _ => ⟨i, rfl, ?_⟩, fun h => ?_⟩
        · rw [List.dropWhile_cons_of_neg (by simp [he])]
          rfl
        · simp [he] at h
      · rw [if_neg (by simpa using he), List.dropWhile_cons_of_pos (by simpa using he)]
        obtain ⟨ih1, ih2⟩ := ih (i + 1) (by omega)
        unfold hasEquals at ih1 ih2
        unfold rhsText at ih1
        have hcont : (cget f i :: cstr (f.drop (i + 1))).contains '=' =
            (cstr (f.drop (i + 1))).contains '=' := by
          rw [List.contains_cons]
          have : ('=' == cget f i) = false := by
            simp only [beq_eq_false_iff_ne, ne_eq]
            exact fun h => he h.symm
          rw [this, Bool.false_or]
        rw [hcont]
        exact ⟨ih1, ih2⟩

theorem rhsText_of_not_hasEquals {f : List Char} (h : hasEquals f = false) : rhsText f = [] := by
  unfold rhsText
  unfold hasEquals at h
  have : (cstr f).dropWhile (fun c => c != '=') = [] := by
    rw [List.dropWhile_eq_nil_iff]
    intro c hc
    simp only [bne_iff_ne, ne_eq]
    rintro rfl
    have hm : ('=' : Char) ∉ cstr f := by simpa using h
    exact hm hc
  rw [this]
  rfl

/-- The body of the function loop of `ExtractExpressions` in terms of the text after the
first `=` sign. -/
theorem ExtractExpressions_body_spec (ifun : Nat) (f : List Char) (s : EEState) :
    ExtractExpressions_body ifun f s =
      if hasEquals f = true then
        if rhsText f ≠ [] then .ok { s with exprs := s.exprs ++ [rhsText f] }
        else .error ⟨ErrCode.NORHS, [ifun + 1], some (cstr f)⟩
      else
        .ok { exprs := s.exprs ++ [rhsText f], nud := s.nud + 1,
              iud := if s.nud = 0 then ifun else s.iud } := by
  unfold ExtractExpressions_body
  obtain ⟨h1, h2⟩ := strchr_spec f f.length 0 (by omega)
  rw [List.drop_zero] at h1 h2
  by_cases he : hasEquals f = true
  · obtain ⟨p, hp, hr⟩ := h1 he
    rw [hp, if_pos he]
    simp only
    by_cases hc : cget f (p + 1) = NUL
    · rw [if_neg (by simp [hc]), if_neg]
      rw [← hr, cstr_drop_of_NUL hc]
      simp
    · rw [if_pos (by simpa using hc), if_pos, hr]
      rw [← hr, cstr_drop_of_ne hc]
      simp
  · have he : hasEquals f = false := by simpa using he
    rw [h2 he]
    simp only [he, Bool.false_eq_true, if_false, rhsText_of_not_hasEquals he]
    by_cases hn : s.nud = 0 <;> simp [hn]

/-- The function loop of `ExtractExpressions` when no function has an `=` sign with
nothing after it: the expressions stored, the count of functions without `=` sign and
the index of the first of them. -/
theorem ExtractExpressions_loop_ok (nfun : Nat) (funs : List (List Char)) :
    ∀ (fuel ifun : Nat) (s : EEState), nfun ≤ ifun + fuel →
    (∀ i, ifun ≤ i → i < nfun → hasEquals (funs.getD i []) = true →
      rhsText (funs.getD i []) ≠ []) →
    ∃ s1, ExtractExpressions_loop nfun funs fuel ifun s = .ok s1 ∧
      s1.exprs =
        s.exprs ++ (List.range' ifun (nfun - ifun)).map (fun i => rhsText (funs.getD i [])) ∧
      s1.nud = s.nud +
        (List.range' ifun (nfun - ifun)).countP (fun i => !hasEquals (funs.getD i [])) ∧
      (s.nud ≠ 0 → s1.iud = s.iud) ∧
      (s.nud = 0 → ∀ i0, ifun ≤ i0 → i0 < nfun → hasEquals (funs.getD i0 []) = false →
        (∀ j, ifun ≤ j → j < i0 → hasEquals (funs.getD j []) = true) → s1.iud = i0) := by
  intro fuel
  induction fuel with
  | zero =>
    intro ifun s h _
    have : nfun - ifun = 0 := by omega
    refine ⟨s, rfl, by simp [this], by simp [this], fun _ => rfl, ?_⟩
    intro _ i0 h1 h2
    omega
  | succ n ih =>
    intro ifun s h hall
    unfold ExtractExpressions_loop
    by_cases hlt : ifun < nfun
    · rw [if_pos hlt, ExtractExpressions_body_spec]
      have hk : nfun - ifun = (nfun - (ifun + 1)) + 1 := by omega
      by_cases he : hasEquals (funs.getD ifun []) = true
      · rw [if_pos he, if_pos (hall ifun (Nat.le_refl _) hlt he)]
        simp only
        obtain ⟨s1, e1, e2, e3, e4, e5⟩ :=
          ih (ifun + 1) { s with exprs := s.exprs ++ [rhsText (funs.getD ifun [])] } (by omega)
            fun i h1 h2 => hall i (by omega) h2
        refine ⟨s1, e1, ?_, ?_, e4, ?_⟩
        · rw [e2, hk, List.range'_succ]
          simp
        · rw [e3, hk, List.range'_succ, List.countP_cons_of_neg _ _ (by
            show ¬ ((!hasEquals (funs.getD ifun [])) = true)
            rw [he]
            decide)]
        · intro h0 i0 h1 h2 h3 h4
          have hne : i0 ≠ ifun := by
            rintro rfl
            rw [he] at h3
            cases h3
          exact e5 h0 i0 (by omega) h2 h3 fun j hj1 hj2 => h4 j (by omega) hj2
      · rw [if_neg he]
        have he : hasEquals (funs.getD ifun []) = false := by simpa using he
        obtain ⟨s1, e1, e2, e3, e4, _⟩ :=
          ih (ifun + 1)
            { exprs := s.exprs ++ [rhsText (funs.getD ifun [])], nud := s.nud + 1,
              iud := if s.nud = 0 then ifun else s.iud } (by omega)
            fun i h1 h2 => hall i (by omega) h2
        refine ⟨s1, e1, ?_, ?_, ?_, ?_⟩
        · rw [e2, hk, List.range'_succ]
          simp
        · rw [e3, hk, List.range'_succ, List.countP_cons_of_pos _ _ (by
            show (!hasEquals (funs.getD ifun [])) = true
            rw [he]
            rfl)]
          simp only
          omega
        · intro h0
          rw [e4 (by simp)]
          simp only
          rw [if_neg h0]
        · intro h0 i0 h1 h2 h3 h4
          rw [e4 (by simp)]
          simp only
          rw [if_pos h0]
          by_contra hne
          have := h4 ifun (Nat.le_refl _) (by omega)
          rw [he] at this
          cases this
    · rw [if_neg hlt]
      have : nfun - ifun = 0 := by omega
      refine ⟨s, rfl, by simp [this], by simp [this], fun _ => rfl, ?_⟩
      intro _ i0 h1 h2
      omega

/-- The function loop of `ExtractExpressions` stops at the first function that has an `=`
sign with nothing after it. -/
theorem ExtractExpressions_loop_error (nfun : Nat) (funs : List (List Char)) (i0 : Nat)
    (hi0 : i0 < nfun) (he0 : hasEquals (funs.getD i0 []) = true)
    (hr0 : rhsText (funs.getD i0 []) = []) :
    ∀ (fuel ifun : Nat) (s : EEState), nfun ≤ ifun + fuel → ifun ≤ i0 →
    (∀ i, ifun ≤ i → i < i0 → hasEquals (funs.getD i []) = true →
      rhsText (funs.getD i []) ≠ []) →
    ExtractExpressions_loop nfun funs fuel ifun s =
      .error ⟨ErrCode.NORHS, [i0 + 1], some (cstr (funs.getD i0 []))⟩ := by
  intro fuel
  induction fuel with
  | zero => intro ifun s h h1 _; omega
  | succ n ih =>
    intro ifun s h h1 hall
    unfold ExtractExpressions_loop
    rw [if_pos (by omega), ExtractExpressions_body_spec]
    by_cases hi : ifun = i0
    · subst hi
      rw [if_pos he0, if_neg (not_not.2 hr0)]
    · by_cases he : hasEquals (funs.getD ifun []) = true
      · rw [if_pos he, if_pos (hall ifun (Nat.le_refl _) (by omega) he)]
        exact ih (ifun + 1) _ (by omega) (by omega) fun i h2 h3 => hall i (by omega) h3
      · rw [if_neg he]
        exact ih (ifun + 1) _ (by omega) (by omega) fun i h2 h3 => hall i (by omega) h3

/-- `ExtractExpressions` with a first function that has an `=` sign with nothing after
it. -/
theorem ExtractExpressions_empty (nfun : Nat) (funs : List (List Char)) (i0 : Nat)
    (hi0 : i0 < nfun) (he0 : hasEquals (funs.getD i0 []) = true)
    (hr0 : rhsText (funs.getD i0 []) = [])
    (hmin : ∀ i, i < i0 → hasEquals (funs.getD i []) = true → rhsText (funs.getD i []) ≠ []) :
    ExtractExpressions nfun funs =
      .error ⟨ErrCode.NORHS, [i0 + 1], some (cstr (funs.getD i0 []))⟩ := by
  unfold ExtractExpressions
  rw [ExtractExpressions_loop_error nfun funs i0 hi0 he0 hr0 nfun 0 _ (by omega) (by omega)
    fun i _ h => hmin i h]

/-- `ExtractExpressions` when every function has an `=` sign with something after it. -/
theorem ExtractExpressions_all (nfun : Nat) (funs : List (List Char)) (hn : 1 ≤ nfun)
    (hall : ∀ i, i < nfun →
      hasEquals (funs.getD i []) = true ∧ rhsText (funs.getD i []) ≠ []) :
    ExtractExpressions nfun funs =
      .ok (some ((List.range' 0 nfun).map fun i => rhsText (funs.getD i []))) := by
  unfold ExtractExpressions
  obtain ⟨s1, e1, e2, e3, _, _⟩ :=
    ExtractExpressions_loop_ok nfun funs nfun 0 ⟨[], 0, 0⟩ (by omega)
      fun i _ h _ => (hall i h).2
  rw [e1]
  simp only
  have hz : s1.nud = 0 := by
    rw [e3]
    simp only [Nat.zero_add, Nat.sub_zero]
    rw [List.countP_eq_zero]
    intro i hi
    rw [List.mem_range'_1] at hi
    show ¬ ((!hasEquals (funs.getD i [])) = true)
    rw [(hall i (by omega)).1]
    decide
  rw [if_neg (by simp [hz]), if_neg (by rw [hz]; omega), e2]
  simp

/-- `ExtractExpressions` when no function has an `=` sign. -/
theorem ExtractExpressions_none (nfun : Nat) (funs : List (List Char))
    (hall : ∀ i, i < nfun → hasEquals (funs.getD i []) = false) :
    ExtractExpressions nfun funs = .ok none := by
  unfold ExtractExpressions
  obtain ⟨s1, e1, _, e3, _, _⟩ :=
    ExtractExpressions_loop_ok nfun funs nfun 0 ⟨[], 0, 0⟩ (by omega) (by
      intro i _ h he
      rw [hall i h] at he
      cases he)
  rw [e1]
  simp only
  have hz : s1.nud = nfun := by
    rw [e3]
    simp only [Nat.zero_add, Nat.sub_zero]
    have hl : (List.range' 0 nfun).length = nfun := by simp
    conv_rhs => rw [← hl]
    rw [List.countP_eq_length]
    intro i hi
    rw [List.mem_range'_1] at hi
    show (!hasEquals (funs.getD i [])) = true
    rw [hall i (by omega)]
    rfl
  rw [if_neg (by simp [hz]), if_pos (by omega)]

/-- `ExtractExpressions` when some functions have an `=` sign, each with something after
it, and some have none: the report names the first function without `=` sign. -/
theorem ExtractExpressions_mixed (nfun : Nat) (funs : List (List Char)) (i0 i1 : Nat)
    (hi0 : i0 < nfun) (he0 : hasEquals (funs.getD i0 []) = false)
    (hmin : ∀ j, j < i0 → hasEquals (funs.getD j []) = true)
    (hi1 : i1 < nfun) (he1 : hasEquals (funs.getD i1 []) = true)
    (hall : ∀ i, i < nfun → hasEquals (funs.getD i []) = true →
      rhsText (funs.getD i []) ≠ []) :
    ExtractExpressions nfun funs =
      .error ⟨ErrCode.NORHS, [i0 + 1], some (cstr (funs.getD i0 []))⟩ := by
  unfold ExtractExpressions
  obtain ⟨s1, e1, _, e3, _, e5⟩ :=
    ExtractExpressions_loop_ok nfun funs nfun 0 ⟨[], 0, 0⟩ (by omega)
      fun i _ h he => hall i h he
  rw [e1]
  simp only
  have hud := e5 rfl i0 (by omega) hi0 he0 fun j _ hj => hmin j hj
  simp only [Nat.zero_add, Nat.sub_zero] at e3
  have h1 : s1.nud ≠ 0 := by
    rw [e3]
    intro hz
    rw [List.countP_eq_zero] at hz
    have := hz i0 (List.mem_range'_1.2 ⟨by omega, by omega⟩)
    apply this
    show (!hasEquals (funs.getD i0 [])) = true
    rw [he0]
    rfl
  have h2 : s1.nud ≠ nfun := by
    rw [e3]
    intro hz
    have hl : (List.range' 0 nfun).length = nfun := by simp
    have hz2 : List.countP (fun i => !hasEquals (funs.getD i [])) (List.range' 0 nfun) =
        (List.range' 0 nfun).length := by rw [hl]; exact hz
    rw [List.countP_eq_length] at hz2
    have := hz2 i1 (List.mem_range'_1.2 ⟨by omega, by omega⟩)
    have h3 : (!hasEquals (funs.getD i1 [])) = true := this
    rw [he1] at h3
    cases h3
  rw [if_pos ⟨h1, h2⟩, hud]

/-- C24: for at least one function, `ExtractExpressions` returns the null array without
error when no function contains an `=` sign, and when every function contains an `=`
sign followed by at least one character it returns `nfun` expressions, expression `i`
being the whole text after the first `=` sign of function `i`. -/
theorem C24_expressions_extracted :
    (∀ (nfun : Nat) (funs : List (List Char)), 1 ≤ nfun →
      ((∀ i, i < nfun → hasEquals (funs.getD i []) = false) →
        ExtractExpressions nfun funs = .ok none) ∧
      ((∀ i, i < nfun →
          hasEquals (funs.getD i []) = true ∧ rhsText (funs.getD i []) ≠ []) →
        ∃ exprs, ExtractExpressions nfun funs = .ok (some exprs) ∧ exprs.length = nfun ∧
          ∀ i, i < nfun → exprs.getD i [] = rhsText (funs.getD i []))) ∧
    ExtractExpressions 2 ["y".toList, "z".toList] = .ok none ∧
    ExtractExpressions 2 ["y=a+b".toList, "z=a=b".toList] =
      .ok (some ["a+b".toList, "a=b".toList]) ∧
    rhsText "z=a=b".toList = "a=b".toList := by
  refine ⟨?_, by decide, by decide, by decide⟩
  intro nfun funs hn
  refine ⟨ExtractExpressions_none nfun funs, ?_⟩
  intro hall
  refine ⟨_, ExtractExpressions_all nfun funs hn hall, by simp, ?_⟩
  intro i hi
  exact getD_map_range' _ _ _ _ hi

/-- Witness of C24: two functions with right hand sides. -/
theorem C24_expressions_extracted_witness :
    ∃ exprs, ExtractExpressions 2 ["y=a+b".toList, "z=2".toList] = .ok (some exprs) ∧
      exprs.length = 2 := by
  obtain ⟨exprs, h1, h2, _⟩ :=
    (C24_expressions_extracted.1 2 ["y=a+b".toList, "z=2".toList] (by decide)).2 (by
      intro i hi
      interval_cases i <;> decide)
  exact ⟨exprs, h1, h2⟩

/-- C25: `ExtractExpressions` fails exactly when some function has an `=` sign with
nothing after it (after its first `=` sign) or when some but not all functions contain
an `=` sign, and then with `NORHS`.  The report names the first function that has an
`=` sign with nothing after it; when there is none, it names the first function
without `=` sign. -/
theorem C25_missing_right_hand_side :
    (∀ (nfun : Nat) (funs : List (List Char)),
      ((∃ e, ExtractExpressions nfun funs = .error e) ↔
        ((∃ i, i < nfun ∧ hasEquals (funs.getD i []) = true ∧ rhsText (funs.getD i []) = []) ∨
          ((∃ i, i < nfun ∧ hasEquals (funs.getD i []) = true) ∧
            ∃ i, i < nfun ∧ hasEquals (funs.getD i []) = false))) ∧
      (∀ e, ExtractExpressions nfun funs = .error e → e.code = ErrCode.NORHS) ∧
      (∀ i0, i0 < nfun → hasEquals (funs.getD i0 []) = false →
        (∀ j, j < i0 → hasEquals (funs.getD j []) = true) →
        (∃ i, i < nfun ∧ hasEquals (funs.getD i []) = true) →
        (∀ i, i < nfun → hasEquals (funs.getD i []) = true → rhsText (funs.getD i []) ≠ []) →
        ExtractExpressions nfun funs =
          .error ⟨ErrCode.NORHS, [i0 + 1], some (cstr (funs.getD i0 []))⟩) ∧
      (∀ i0, i0 < nfun → hasEquals (funs.getD i0 []) = true →
        rhsText (funs.getD i0 []) = [] →
        (∀ i, i < i0 → hasEquals (funs.getD i []) = true → rhsText (funs.getD i []) ≠ []) →
        ExtractExpressions nfun funs =
          .error ⟨ErrCode.NORHS, [i0 + 1], some (cstr (funs.getD i0 []))⟩)) ∧
    ExtractExpressions 3 ["y=1".toList, "z".toList, "w".toList] =
      .error ⟨ErrCode.NORHS, [2], some "z".toList⟩ ∧
    ExtractExpressions 3 ["y".toList, "z=1".toList, "w".toList] =
      .error ⟨ErrCode.NORHS, [1], some "y".toList⟩ ∧
    ExtractExpressions 2 ["y".toList, "z=".toList] =
      .error ⟨ErrCode.NORHS, [2], some "z=".toList⟩ ∧
    ExtractExpressions 1 ["y=".toList] = .error ⟨ErrCode.NORHS, [1], some "y=".toList⟩ ∧
    ExtractExpressions 1 ["y=a=".toList] = .ok (some ["a=".toList]) := by
  refine ⟨?_, by decide, by decide, by decide, by decide, by decide⟩
  intro nfun funs
  have hA : (∃ i, i < nfun ∧ hasEquals (funs.getD i []) = true ∧
      rhsText (funs.getD i []) = []) →
      ∃ i0, ExtractExpressions nfun funs =
        .error ⟨ErrCode.NORHS, [i0 + 1], some (cstr (funs.getD i0 []))⟩ := by
    intro h
    obtain ⟨i0, hi0, ⟨h1, h2⟩, hmin⟩ :=
      exists_least (fun i => hasEquals (funs.getD i []) = true ∧ rhsText (funs.getD i []) = [])
        nfun h
    exact ⟨i0, ExtractExpressions_empty nfun funs i0 hi0 h1 h2 fun i hi he hr =>
      hmin i hi ⟨he, hr⟩⟩
  have hB : (¬ ∃ i, i < nfun ∧ hasEquals (funs.getD i []) = true ∧
      rhsText (funs.getD i []) = []) →
      (∃ i, i < nfun ∧ hasEquals (funs.getD i []) = true) →
      (∃ i, i < nfun ∧ hasEquals (funs.getD i []) = false) →
      ∃ i0, ExtractExpressions nfun funs =
        .error ⟨ErrCode.NORHS, [i0 + 1], some (cstr (funs.getD i0 []))⟩ := by
    intro hnA ⟨i1, hi1, he1⟩ h
    obtain ⟨i0, hi0, he0, hmin⟩ :=
      exists_least (fun i => hasEquals (funs.getD i []) = false) nfun h
    refine ⟨i0, ExtractExpressions_mixed nfun funs i0 i1 hi0 he0 ?_ hi1 he1 ?_⟩
    · intro j hj
      simpa using hmin j hj
    · intro i hi he hr
      exact hnA ⟨i, hi, he, hr⟩
  have hC : (¬ ∃ i, i < nfun ∧ hasEquals (funs.getD i []) = true ∧
      rhsText (funs.getD i []) = []) →
      ¬ ((∃ i, i < nfun ∧ hasEquals (funs.getD i []) = true) ∧
        ∃ i, i < nfun ∧ hasEquals (funs.getD i []) = false) →
      ∃ r, ExtractExpressions nfun funs = .ok r := by
    intro hnA hnB
    by_cases hnone : ∀ i, i < nfun → hasEquals (funs.getD i []) = false
    · exact ⟨_, ExtractExpressions_none nfun funs hnone⟩
    · push_neg at hnone
      obtain ⟨i1, hi1, he1⟩ := hnone
      have he1 : hasEquals (funs.getD i1 []) = true := by simpa using he1
      refine ⟨_, ExtractExpressions_all nfun funs (by omega) ?_⟩
      intro i hi
      have hei : hasEquals (funs.getD i []) = true := by
        by_contra hne
        exact hnB ⟨⟨i1, hi1, he1⟩, i, hi, by simpa using hne⟩
      exact ⟨hei, fun hr => hnA ⟨i, hi, hei, hr⟩⟩
  refine ⟨⟨?_, ?_⟩, ?_, ?_, ?_⟩
  · rintro ⟨e, he⟩
    by_contra hnot
    push_neg at hnot
    obtain ⟨r, hr⟩ := hC (by push_neg; exact hnot.1) (by
      rintro ⟨⟨i, hi, h1⟩, j, hj, h2⟩
      have := hnot.2 ⟨i, hi, h1⟩ j hj
      exact this h2)
    rw [hr] at he
    cases he
  · rintro (h | ⟨h1, h2⟩)
    · obtain ⟨i0, h0⟩ := hA h
      exact ⟨_, h0⟩
    · by_cases hA1 : ∃ i, i < nfun ∧ hasEquals (funs.getD i []) = true ∧
          rhsText (funs.getD i []) = []
      · obtain ⟨i0, h0⟩ := hA hA1
        exact ⟨_, h0⟩
      · obtain ⟨i0, h0⟩ := hB hA1 h1 h2
        exact ⟨_, h0⟩
  · intro e he
    by_cases hA1 : ∃ i, i < nfun ∧ hasEquals (funs.getD i []) = true ∧
        rhsText (funs.getD i []) = []
    · obtain ⟨i0, h0⟩ := hA hA1
      rw [h0] at he
      injection he with he
      rw [← he]
    · by_cases hB1 : (∃ i, i < nfun ∧ hasEquals (funs.getD i []) = true) ∧
          ∃ i, i < nfun ∧ hasEquals (funs.getD i []) = false
      · obtain ⟨i0, h0⟩ := hB hA1 hB1.1 hB1.2
        rw [h0] at he
        injection he with he
        rw [← he]
      · obtain ⟨r, hr⟩ := hC hA1 hB1
        rw [hr] at he
        cases he
  · intro i0 hi0 he0 hmin ⟨i1, hi1, he1⟩ hall
    exact ExtractExpressions_mixed nfun funs i0 i1 hi0 he0 hmin hi1 he1 hall
  · intro i0 hi0 he0 hr0 hmin
    exact ExtractExpressions_empty nfun funs i0 hi0 he0 hr0 hmin

/-- Witness of C25: the second of three functions is the first without `=` sign. -/
theorem C25_missing_right_hand_side_witness :
    ExtractExpressions 3 ["y=1".toList, "z".toList, "w".toList] =
      .error ⟨ErrCode.NORHS, [2], some (cstr "z".toList)⟩ :=
  (C25_missing_right_hand_side.1 3 ["y=1".toList, "z".toList, "w".toList]).2.2.1 1 (by decide)
    (by decide) (by
      intro j hj
      interval_cases j
      decide) ⟨0, by decide, by decide⟩ (by
      intro i hi
      interval_cases i <;> decide)

/-- Witness of C21: three functions with distinct names. -/
theorem C21_variables_extracted_witness :
    ExtractVariables 3 ["x1=a+b".toList, "y_2".toList, "z=x=1".toList] =
        .ok ["x1".toList, "y_2".toList, "z".toList] ∧
      ["x1".toList, "y_2".toList, "z".toList].length = 3 :=
  have h : ExtractVariables 3 ["x1=a+b".toList, "y_2".toList, "z=x=1".toList] =
      .ok ["x1".toList, "y_2".toList, "z".toList] := by decide
  ⟨h, ((C21_variables_extracted.1 3 ["x1=a+b".toList, "y_2".toList, "z=x=1".toList]).2
    _ h).1⟩

/-- Witness of C29: the second of two strings. -/
theorem C29_clean_functions_witness :
    (CleanFunctions 2 [" Y = A +\tb ".toList, "x\n=Sin( Y )".toList]).getD 1 [] =
      ((cstr ([" Y = A +\tb ".toList, "x\n=Sin( Y )".toList].getD 1 [])).filter
        fun c => !isspace c).map tolower :=
  ((C29_clean_functions.1 2 [" Y = A +\tb ".toList, "x\n=Sin( Y )".toList]).2 1
    (by decide)).1

/-- What a successful `ExtractVariables` returns. -/
theorem ExtractVariables_ok_inv {nfun : Nat} {funs : List (List Char)} {var : List (List Char)}
    (hok : ExtractVariables nfun funs = .ok var) :
    (∀ i, i < nfun → isIdentifier (lhsText (funs.getD i [])) = true) ∧
    (∀ i j, i < j → j < nfun → lhsText (funs.getD i []) ≠ lhsText (funs.getD j [])) ∧
    var = (List.range' 0 nfun).map fun i => lhsText (funs.getD i []) := by
  have hid : ∀ i, i < nfun → isIdentifier (lhsText (funs.getD i [])) = true := by
    by_contra hnot
    push_neg at hnot
    obtain ⟨i0, hi0, hbad, hmin⟩ :=
      exists_least (fun i => isIdentifier (lhsText (funs.getD i [])) ≠ true) nfun hnot
    rw [ExtractVariables_bad nfun funs i0 hi0 hbad fun i hi => not_not.1 (hmin i hi)] at hok
    cases hok
  have hne : ∀ i j, i < j → j < nfun →
      lhsText (funs.getD i []) ≠ lhsText (funs.getD j []) := by
    by_contra hnot
    push_neg at hnot
    obtain ⟨j1, j2, h1, h2, h3, h4, h5⟩ :=
      exists_first_duplicate (fun i => lhsText (funs.getD i [])) nfun hnot
    rw [ExtractVariables_duplicate nfun funs j1 j2 hid h1 h2 h3 h4 h5] at hok
    cases hok
  refine ⟨hid, hne, ?_⟩
  rw [ExtractVariables_ok nfun funs hid hne] at hok
  injection hok with hok
  exact hok.symm

/-- What a successful `ExtractExpressions` returns: the null array when no function has
an `=` sign, the texts after the first `=` signs when all have one. -/
theorem ExtractExpressions_ok_inv {nfun : Nat} {funs : List (List Char)}
    {r : Option (List (List Char))} (hok : ExtractExpressions nfun funs = .ok r) :
    (r = none ∧ ∀ i, i < nfun → hasEquals (funs.getD i []) = false) ∨
    (1 ≤ nfun ∧ r = some ((List.range' 0 nfun).map fun i => rhsText (funs.getD i [])) ∧
      ∀ i, i < nfun → hasEquals (funs.getD i []) = true ∧ rhsText (funs.getD i []) ≠ []) := by
  have hnA : ∀ i, i < nfun → hasEquals (funs.getD i []) = true →
      rhsText (funs.getD i []) ≠ [] := by
    by_contra hnot
    push_neg at hnot
    obtain ⟨i0, hi0, ⟨h1, h2⟩, hmin⟩ :=
      exists_least (fun i => hasEquals (funs.getD i []) = true ∧ rhsText (funs.getD i []) = [])
        nfun (by
          obtain ⟨i, hi, h1, h2⟩ := hnot
          exact ⟨i, hi, h1, h2⟩)
    rw [ExtractExpressions_empty nfun funs i0 hi0 h1 h2 fun i hi he hr => hmin i hi ⟨he, hr⟩]
      at hok
    cases hok
  by_cases hnone : ∀ i, i < nfun → hasEquals (funs.getD i []) = false
  · rw [ExtractExpressions_none nfun funs hnone] at hok
    injection hok with hok
    exact Or.inl ⟨hok.symm, hnone⟩
  · push_neg at hnone
    obtain ⟨i1, hi1, he1⟩ := hnone
    have he1 : hasEquals (funs.getD i1 []) = true := by simpa using he1
    have hall : ∀ i, i < nfun → hasEquals (funs.getD i []) = true := by
      by_contra hnot
      push_neg at hnot
      obtain ⟨i0, hi0, he0, hmin⟩ :=
        exists_least (fun i => hasEquals (funs.getD i []) = false) nfun (by
          obtain ⟨i, hi, h⟩ := hnot
          exact ⟨i, hi, by simpa using h⟩)
      rw [ExtractExpressions_mixed nfun funs i0 i1 hi0 he0 (fun j hj => by
        simpa using hmin j hj) hi1 he1 hnA] at hok
      cases hok
    have hall2 : ∀ i, i < nfun →
        hasEquals (funs.getD i []) = true ∧ rhsText (funs.getD i []) ≠ [] :=
      fun i hi => ⟨hall i hi, hnA i hi (hall i hi)⟩
    rw [ExtractExpressions_all nfun funs (by omega) hall2] at hok
    injection hok with hok
    exact Or.inr ⟨by omega, hok.symm, hall2⟩

theorem getD_append_length {α : Type} (l : List α) (a d : α) : (l ++ [a]).getD l.length d = a := by
  rw [List.getD_eq_getElem?_getD, List.getElem?_append_right (Nat.le_refl _)]
  simp

theorem getD_append_lt {α : Type} (l : List α) (a d : α) {i : Nat} (h : i < l.length) :
    (l ++ [a]).getD i d = l.getD i d := by
  rw [List.getD_eq_getElem?_getD, List.getD_eq_getElem?_getD, List.getElem?_append_left h]

/-- The stack size of an accepted expression is at least 1. -/
theorem CompileExpression_stacksize_pos {exprs : List Char} {nvar : Nat}
    {var : List (List Char)} {c : Compiled} (hc : CompileExpression exprs nvar var = .ok c) :
    1 ≤ c.stacksize := by
  obtain ⟨_, _, _, tr, _, _, _, _, _, _, _, hb, d, hd, hmax⟩ := CompileExpression_ok_trace hc
  have := (hb d hd).1
  omega

/-- What a successful compile loop of `CompileMapping` leaves: element `i` of the code
and constant arrays is what `CompileExpression` returns for expression `i`, and the
stack size bounds the stack size of every expression and is that of one of them or the
initial one. -/
theorem CompileMapping_loop_ok (nfun nvar : Nat) (exprs var : List (List Char)) :
    ∀ (fuel ifun : Nat) (d d1 : Direction), nfun ≤ ifun + fuel → ifun ≤ nfun →
    d.code.length = ifun → d.con.length = ifun →
    CompileMapping_loop nfun nvar exprs var fuel ifun d = .ok d1 →
    d1.code.length = nfun ∧ d1.con.length = nfun ∧
    (∀ i, ifun ≤ i → i < nfun → ∃ c, CompileExpression (exprs.getD i []) nvar var = .ok c ∧
      d1.code.getD i [] = c.code ∧ d1.con.getD i [] = c.con ∧ c.stacksize ≤ d1.stack) ∧
    (∀ i, i < ifun → d1.code.getD i [] = d.code.getD i [] ∧
      d1.con.getD i [] = d.con.getD i []) ∧
    d.stack ≤ d1.stack ∧
    (d1.stack = d.stack ∨ ∃ i, ifun ≤ i ∧ i < nfun ∧
      ∃ c, CompileExpression (exprs.getD i []) nvar var = .ok c ∧ d1.stack = c.stacksize) := by
  intro fuel
  induction fuel with
  | zero =>
    intro ifun d d1 h1 h2 hl1 hl2 hok
    simp only [CompileMapping_loop] at hok
    injection hok with hok
    subst hok
    have : ifun = nfun := by omega
    subst this
    exact ⟨hl1, hl2, fun i h3 h4 => by omega, fun i _ => ⟨rfl, rfl⟩, le_refl _, Or.inl rfl⟩
  | succ n ih =>
    intro ifun d d1 h1 h2 hl1 hl2 hok
    unfold CompileMapping_loop at hok
    by_cases hlt : ifun < nfun
    · rw [if_pos hlt] at hok
      split at hok
      · cases hok
      · rename_i c hc
        obtain ⟨e1, e2, e3, e4, e5, e6⟩ := ih (ifun + 1) _ d1 (by omega) (by omega)
          (by simp [hl1]) (by simp [hl2]) hok
        simp only at e4 e5 e6
        have hmax1 : d.stack ≤ (if d.stack > c.stacksize then d.stack else c.stacksize) := by
          split <;> omega
        have hmax2 : c.stacksize ≤ (if d.stack > c.stacksize then d.stack else c.stacksize) := by
          split <;> omega
        refine ⟨e1, e2, ?_, ?_, by omega, ?_⟩
        · intro i hi1 hi2
          by_cases hi : i = ifun
          · subst hi
            obtain ⟨g1, g2⟩ := e4 i (by omega)
            refine ⟨c, hc, ?_, ?_, by omega⟩
            · rw [g1, ← hl1, getD_append_length]
            · rw [g2, ← hl2, getD_append_length]
          · exact e3 i (by omega) hi2
        · intro i hi
          obtain ⟨g1, g2⟩ := e4 i (by omega)
          rw [g1, g2, getD_append_lt _ _ _ (by omega), getD_append_lt _ _ _ (by omega)]
          exact ⟨rfl, rfl⟩
        · rcases e6 with h | ⟨i, hi1, hi2, c1, hc1, hs⟩
          · rw [h]
            by_cases hgt : d.stack > c.stacksize
            · rw [if_pos hgt]
              exact Or.inl rfl
            · rw [if_neg hgt]
              exact Or.inr ⟨ifun, Nat.le_refl _, hlt, c, hc, rfl⟩
          · exact Or.inr ⟨i, by omega, hi2, c1, hc1, hs⟩
    · rw [if_neg hlt] at hok
      injection hok with hok
      subst hok
      have : ifun = nfun := by omega
      subst this
      exact ⟨hl1, hl2, fun i h3 h4 => by omega, fun i _ => ⟨rfl, rfl⟩, le_refl _, Or.inl rfl⟩

/-- The compile loop of `CompileMapping` stops at the first expression that fails to
compile, with its error and its function number. -/
theorem CompileMapping_loop_error (nfun nvar : Nat) (exprs var : List (List Char)) (i0 : Nat)
    (e : AstError) (hi0 : i0 < nfun)
    (he : CompileExpression (exprs.getD i0 []) nvar var = .error e) :
    ∀ (fuel ifun : Nat) (d : Direction), nfun ≤ ifun + fuel → ifun ≤ i0 →
    (∀ i, ifun ≤ i → i < i0 → ∃ c, CompileExpression (exprs.getD i []) nvar var = .ok c) →
    CompileMapping_loop nfun nvar exprs var fuel ifun d = .error (i0 + 1, e) := by
  intro fuel
  induction fuel with
  | zero => intro ifun d h h1 _; omega
  | succ n ih =>
    intro ifun d h h1 hall
    unfold CompileMapping_loop
    rw [if_pos (by omega)]
    by_cases hi : ifun = i0
    · subst hi
      rw [he]
    · obtain ⟨c, hc⟩ := hall ifun (Nat.le_refl _) (by omega)
      rw [hc]
      exact ih (ifun + 1) _ (by omega) (by omega) fun i h2 h3 => hall i (by omega) h3

/-- What a successful half of `CompileMapping` returns. -/
theorem CompileMapping_half_ok {inverse : Bool} {nvar nfun : Nat}
    {others funs : List (List Char)} {r : Option Direction}
    (hok : CompileMapping_half inverse nvar nfun others funs = .ok r) :
    ∃ var, ExtractVariables nvar others = .ok var ∧
      ((r = none ∧ ExtractExpressions nfun funs = .ok none) ∨
        ∃ exprs d, r = some d ∧ ExtractExpressions nfun funs = .ok (some exprs) ∧
          CompileMapping_loop nfun nvar exprs var nfun 0 ⟨[], [], 0⟩ = .ok d) := by
  unfold CompileMapping_half at hok
  split at hok
  · cases hok
  · rename_i var hv
    refine ⟨var, hv, ?_⟩
    split at hok
    · cases hok
    · injection hok with hok
      exact Or.inl ⟨hok.symm, by assumption⟩
    · rename_i exprs hx
      split at hok
      · cases hok
      · rename_i d hd
        injection hok with hok
        exact Or.inr ⟨exprs, d, hok.symm, hx, hd⟩

/-- What a successful `CompileMapping` is made of. -/
theorem CompileMapping_ok {nin nout : Nat} {fwdfun invfun : List (List Char)} {m : Mapping}
    (hok : CompileMapping nin nout fwdfun invfun = .ok m) :
    ∃ fwd inv, CompileMapping_half false nin nout invfun fwdfun = .ok fwd ∧
      CompileMapping_half true nout nin fwdfun invfun = .ok inv ∧
      m = { fwdcode := fwd.map Direction.code, invcode := inv.map Direction.code,
            fwdcon := fwd.map Direction.con, invcon := inv.map Direction.con,
            fwdstack := (fwd.map Direction.stack).getD 0,
            invstack := (inv.map Direction.stack).getD 0 } := by
  unfold CompileMapping at hok
  split at hok
  · cases hok
  · rename_i fwd hf
    split at hok
    · cases hok
    · rename_i inv hi
      injection hok with hok
      exact ⟨fwd, inv, hf, hi, hok.symm⟩

/-- An error of the walker's loop body in a state that the walker reaches before the end
of the expression is the error of the compilation. -/
theorem CompileExpression_of_body_error {exprs : List Char} {nvar : Nat}
    {var : List (List Char)} {k : Nat} {w : WState} {e : AstError}
    (hk : CompileExpression_loop exprs nvar var k WState.init = .ok w)
    (hnz : cget exprs w.istart ≠ NUL)
    (hbody : CompileExpression_body exprs nvar var w = .error e) :
    CompileExpression exprs nvar var = .error e := by
  apply CompileExpression_of_loop_error
  rcases Nat.lt_or_ge k (exprs.length + 1) with hlt | hge
  · obtain ⟨m, hm⟩ : ∃ m, exprs.length + 1 = k + (m + 1) := ⟨exprs.length - k, by omega⟩
    rw [hm, CompileExpression_loop_add, hk]
    simp only
    rw [CompileExpression_loop_succ, if_pos (by simpa using hnz), hbody]
  · exfalso
    obtain ⟨m, hm⟩ : ∃ m, k = (exprs.length + 1) + m := ⟨k - (exprs.length + 1), by omega⟩
    rw [hm, CompileExpression_loop_add] at hk
    split at hk
    · cases hk
    · rename_i w1 hw1
      have hend := CompileExpression_loop_complete hw1
      rw [CompileExpression_loop_of_end hend] at hk
      injection hk with hk
      subst hk
      exact hnz hend

/-- A reference to a name that is not declared makes the compilation fail with
`UDVOF`. -/
theorem CompileExpression_undeclared {exprs : List Char} {nvar : Nat} {var : List (List Char)}
    {name : List Char} (href : ReferencesName exprs nvar var name)
    (hno : ∀ i, i < nvar → cstr (var.getD i []) ≠ name) :
    ∃ q, CompileExpression exprs nvar var = .error ⟨ErrCode.UDVOF, q⟩ := by
  obtain ⟨k, w, iend0, c0, hk, hnz, hop, hf, hpc, hlt, halpha, hname⟩ := href
  have hbody := @CompileExpression_body_variable exprs nvar var w iend0 c0 hop hf hpc hlt
  obtain ⟨hle, hin, _⟩ := ParseName_loop_spec exprs (exprs.length + 1) w.istart
  generalize hiend : ParseName_loop exprs (exprs.length + 1) w.istart = iend at hle hin hname
  have hnul : ∀ j, j < iend - w.istart + 1 → cget exprs (w.istart + j) ≠ NUL := by
    intro j hj
    cases j with
    | zero => exact hnz
    | succ j => exact (hin (w.istart + (j + 1)) (by omega) (by omega)).1
  have hmatch : ∀ i, (decide (iend - w.istart + 1 = strlen (var.getD i [])) &&
      strncmp0 exprs w.istart (var.getD i []) 0 (iend - w.istart + 1)) = true ↔
      cstr (var.getD i []) = name := by
    intro i
    rw [hname]
    exact name_match_iff exprs (var.getD i []) w.istart (iend - w.istart + 1) hnul
  have hpv := @ParseVariable_of_alpha exprs w.istart nvar var halpha
  rw [hiend] at hpv
  have hfind := @ParseVariable_find_none exprs w.istart (iend - w.istart + 1) nvar var
    nvar 0 (fun j _ hj hm => hno j hj ((hmatch j).1 hm))
  rw [hfind] at hpv
  rw [hpv] at hbody
  exact ⟨_, CompileExpression_of_body_error hk hnz hbody⟩

/-- What a successful half of `CompileMapping` returns, in terms of the texts before and
after the first `=` signs: the variable names are those of the other transformation, in
the order of its functions, and each expression is compiled against them. -/
theorem CompileMapping_half_spec {inverse : Bool} {nvar nfun : Nat}
    {others funs : List (List Char)} {r : Option Direction}
    (hok : CompileMapping_half inverse nvar nfun others funs = .ok r) :
    ExtractVariables nvar others =
        .ok ((List.range' 0 nvar).map fun i => lhsText (others.getD i [])) ∧
    ((r = none ∧ ∀ i, i < nfun → hasEquals (funs.getD i []) = false) ∨
      ∃ d, r = some d ∧ 1 ≤ nfun ∧
        (∀ i, i < nfun → hasEquals (funs.getD i []) = true ∧ rhsText (funs.getD i []) ≠ []) ∧
        d.code.length = nfun ∧ d.con.length = nfun ∧
        (∀ i, i < nfun → ∃ c,
          CompileExpression (rhsText (funs.getD i [])) nvar
              ((List.range' 0 nvar).map fun i => lhsText (others.getD i [])) = .ok c ∧
            d.code.getD i [] = c.code ∧ d.con.getD i [] = c.con ∧ c.stacksize ≤ d.stack) ∧
        ∃ i, i < nfun ∧ ∃ c,
          CompileExpression (rhsText (funs.getD i [])) nvar
              ((List.range' 0 nvar).map fun i => lhsText (others.getD i [])) = .ok c ∧
            d.stack = c.stacksize) := by
  obtain ⟨var, hv, hr⟩ := CompileMapping_half_ok hok
  obtain ⟨_, _, hvar⟩ := ExtractVariables_ok_inv hv
  subst hvar
  refine ⟨hv, ?_⟩
  rcases hr with ⟨hr, hx⟩ | ⟨exprs, d, hr, hx, hd⟩
  · rcases ExtractExpressions_ok_inv hx with ⟨_, h2⟩ | ⟨_, h2, _⟩
    · exact Or.inl ⟨hr, h2⟩
    · cases h2
  · rcases ExtractExpressions_ok_inv hx with ⟨h1, _⟩ | ⟨hn, h2, h3⟩
    · cases h1
    · injection h2 with h2
      subst h2
      obtain ⟨e1, e2, e3, _, _, e6⟩ :=
        CompileMapping_loop_ok nfun nvar _ _ nfun 0 ⟨[], [], 0⟩ d (by omega) (by omega) rfl rfl hd
      have hget : ∀ i, i < nfun →
          ((List.range' 0 nfun).map fun i => rhsText (funs.getD i [])).getD i [] =
            rhsText (funs.getD i []) := fun i hi => getD_map_range' _ _ _ _ hi
      refine Or.inr ⟨d, hr, hn, h3, e1, e2, ?_, ?_⟩
      · intro i hi
        obtain ⟨c, hc, g⟩ := e3 i (by omega) hi
        rw [hget i hi] at hc
        exact ⟨c, hc, g⟩
      · rcases e6 with h | ⟨i, _, hi, c, hc, hs⟩
        · exfalso
          obtain ⟨c, hc, _, _, hle⟩ := e3 0 (by omega) (by omega)
          have := CompileExpression_stacksize_pos hc
          rw [h] at hle
          simp only at hle
          omega
        · rw [hget i hi] at hc
          exact ⟨i, hi, c, hc, hs⟩

/-- `CompileMapping` fails at the first forward expression that fails to compile, with
the error of that expression. -/
theorem CompileMapping_forward_error {nin nout : Nat} {fwdfun invfun : List (List Char)}
    {var exprs : List (List Char)} {i0 : Nat} {e : AstError}
    (hv : ExtractVariables nin invfun = .ok var)
    (hx : ExtractExpressions nout fwdfun = .ok (some exprs)) (hi0 : i0 < nout)
    (hall : ∀ i, i < i0 → ∃ c, CompileExpression (exprs.getD i []) nin var = .ok c)
    (he : CompileExpression (exprs.getD i0 []) nin var = .error e) :
    CompileMapping nin nout fwdfun invfun = .error (.ofCompile false (i0 + 1) e) := by
  unfold CompileMapping CompileMapping_half
  rw [hv, hx]
  simp only
  rw [CompileMapping_loop_error nout nin exprs var i0 e hi0 he nout 0 _ (by omega) (by omega)
    fun i _ h => hall i h]

/-- A reference to a declared name loads the first variable of that name. -/
theorem ReferencesVar_of_name {exprs : List Char} {nvar : Nat} {var : List (List Char)}
    {name : List Char} (href : ReferencesName exprs nvar var name) (j : Nat) (hj : j < nvar)
    (heq : cstr (var.getD j []) = name) (hno : ∀ i, i < j → cstr (var.getD i []) ≠ name) :
    ReferencesVar exprs nvar var j := by
  obtain ⟨k, w, iend0, c0, hk, hnz, hop, hf, hpc, hlt, halpha, hname⟩ := href
  have hbody := @CompileExpression_body_variable exprs nvar var w iend0 c0 hop hf hpc hlt
  obtain ⟨hle, hin, _⟩ := ParseName_loop_spec exprs (exprs.length + 1) w.istart
  generalize hiend : ParseName_loop exprs (exprs.length + 1) w.istart = iend at hle hin hname
  have hnul : ∀ j, j < iend - w.istart + 1 → cget exprs (w.istart + j) ≠ NUL := by
    intro j hj
    cases j with
    | zero => exact hnz
    | succ j => exact (hin (w.istart + (j + 1)) (by omega) (by omega)).1
  have hmatch : ∀ i, (decide (iend - w.istart + 1 = strlen (var.getD i [])) &&
      strncmp0 exprs w.istart (var.getD i []) 0 (iend - w.istart + 1)) = true ↔
      cstr (var.getD i []) = name := by
    intro i
    rw [hname]
    exact name_match_iff exprs (var.getD i []) w.istart (iend - w.istart + 1) hnul
  have hpv := @ParseVariable_of_alpha exprs w.istart nvar var halpha
  rw [hiend] at hpv
  have hfind := @ParseVariable_find_first exprs w.istart (iend - w.istart + 1) nvar var
    nvar 0 j (Nat.zero_le _) hj (by omega) ((hmatch j).2 heq)
    (fun i _ hi hm => hno i hi ((hmatch i).1 hm))
  rw [hfind] at hpv
  rw [hpv] at hbody
  simp only at hbody
  rw [if_pos (by omega)] at hbody
  refine ⟨k, w, _, hk, hnz, hbody, rfl, ?_⟩
  simp [WState.accept]

/-- C26: when `CompileMapping` succeeds for at least one input and one output variable,
the forward code array is present exactly when every forward function contains an `=`
sign, and the inverse code array exactly when every inverse function does; the constant
arrays are present with the code arrays, and the stack size of an absent direction is
0.  With `y` and `x` it succeeds with both directions absent; each direction can be
present without the other. -/
theorem C26_directions_defined :
    (∀ (nin nout : Nat) (fwdfun invfun : List (List Char)) (m : Mapping),
      1 ≤ nin → 1 ≤ nout → CompileMapping nin nout fwdfun invfun = .ok m →
      (m.fwdcode.isSome = true ↔ ∀ i, i < nout → hasEquals (fwdfun.getD i []) = true) ∧
      (m.invcode.isSome = true ↔ ∀ i, i < nin → hasEquals (invfun.getD i []) = true) ∧
      m.fwdcon.isSome = m.fwdcode.isSome ∧ m.invcon.isSome = m.invcode.isSome ∧
      (m.fwdcode = none → m.fwdstack = 0) ∧ (m.invcode = none → m.invstack = 0)) ∧
    CompileMapping 1 1 ["y".toList] ["x".toList] = .ok ⟨none, none, none, none, 0, 0⟩ ∧
    CompileMapping 1 1 ["y=x+1".toList] ["x".toList] =
      .ok ⟨some [[3, 2, 1, 28]], none, some [[0, 1]], none, 2, 0⟩ ∧
    CompileMapping 1 1 ["y".toList] ["x=y-1".toList] =
      .ok ⟨none, some [[3, 2, 1, 29]], none, some [[0, 1]], 0, 2⟩ ∧
    CompileMapping 1 1 ["y=x+1".toList] ["x=y-1".toList] =
      .ok ⟨some [[3, 2, 1, 28]], some [[3, 2, 1, 29]], some [[0, 1]], some [[0, 1]], 2, 2⟩ := by
  refine ⟨?_, by decide, by decide!, by decide!, by decide!⟩
  intro nin nout fwdfun invfun m hnin hnout hok
  obtain ⟨fwd, inv, hf, hi, rfl⟩ := CompileMapping_ok hok
  have hdir : ∀ {inverse : Bool} {nvar nfun : Nat} {others funs : List (List Char)}
      {r : Option Direction}, 1 ≤ nfun →
      CompileMapping_half inverse nvar nfun others funs = .ok r →
      (r.isSome = true ↔ ∀ i, i < nfun → hasEquals (funs.getD i []) = true) := by
    intro inverse nvar nfun others funs r hn hr
    rcases (CompileMapping_half_spec hr).2 with ⟨rfl, h⟩ | ⟨d, rfl, _, h, _⟩
    · refine ⟨fun h0 => (by cases h0), fun h1 => ?_⟩
      have := h1 0 (by omega)
      rw [h 0 (by omega)] at this
      cases this
    · exact ⟨fun _ i hi => (h i hi).1, fun _ => rfl⟩
  refine ⟨?_, ?_, ?_, ?_, ?_, ?_⟩
  · simpa using hdir hnout hf
  · simpa using hdir hnin hi
  · cases fwd <;> rfl
  · cases inv <;> rfl
  · intro h
    cases fwd with
    | none => rfl
    | some d => cases h
  · intro h
    cases inv with
    | none => rfl
    | some d => cases h

/-- Witness of C26: a forward function with `=` sign and an inverse function without. -/
theorem C26_directions_defined_witness :
    CompileMapping 1 1 ["y=x+1".toList] ["x".toList] =
        .ok ⟨some [[3, 2, 1, 28]], none, some [[0, 1]], none, 2, 0⟩ ∧
      ((some [[(3 : Int), 2, 1, 28]]).isSome = true ↔
        ∀ i, i < 1 → hasEquals (["y=x+1".toList].getD i []) = true) :=
  have h : CompileMapping 1 1 ["y=x+1".toList] ["x".toList] =
      .ok ⟨some [[3, 2, 1, 28]], none, some [[0, 1]], none, 2, 0⟩ := by decide!
  ⟨h, (C26_directions_defined.1 1 1 ["y=x+1".toList] ["x".toList] _ (by decide) (by decide)
    h).1⟩

/-- C27: in a successful `CompileMapping` the variable names of the forward expressions
are the texts before the first `=` sign of the inverse functions, in the order of these
functions, and entry `i` of the forward code and constant arrays is what
`CompileExpression` returns for the text after the first `=` sign of forward function
`i` with these names; likewise for the inverse expressions with the names of the
forward functions.  A reference to the name of inverse function `j` loads variable `j`.
A forward expression that references a name which is not the name of an inverse
function makes `CompileMapping` fail with `UDVOF` (when nothing fails before it),
whatever the names of the forward functions: so for `y=y` with inverse `x=y`. -/
theorem C27_names_of_other_direction :
    (∀ (nin nout : Nat) (fwdfun invfun : List (List Char)) (m : Mapping),
      CompileMapping nin nout fwdfun invfun = .ok m →
      ExtractVariables nin invfun =
        .ok ((List.range' 0 nin).map fun j => lhsText (invfun.getD j [])) ∧
      ExtractVariables nout fwdfun =
        .ok ((List.range' 0 nout).map fun j => lhsText (fwdfun.getD j [])) ∧
      (∀ code con, m.fwdcode = some code → m.fwdcon = some con → ∀ i, i < nout →
        ∃ c, CompileExpression (rhsText (fwdfun.getD i [])) nin
            ((List.range' 0 nin).map fun j => lhsText (invfun.getD j [])) = .ok c ∧
          code.getD i [] = c.code ∧ con.getD i [] = c.con) ∧
      (∀ code con, m.invcode = some code → m.invcon = some con → ∀ i, i < nin →
        ∃ c, CompileExpression (rhsText (invfun.getD i [])) nout
            ((List.range' 0 nout).map fun j => lhsText (fwdfun.getD j [])) = .ok c ∧
          code.getD i [] = c.code ∧ con.getD i [] = c.con)) ∧
    (∀ (nin : Nat) (invfun var : List (List Char)) (exprs : List Char) (j : Nat),
      ExtractVariables nin invfun = .ok var → j < nin →
      ReferencesName exprs nin var (lhsText (invfun.getD j [])) →
      ReferencesVar exprs nin var j) ∧
    (∀ (nin nout : Nat) (fwdfun invfun var exprs : List (List Char)) (i0 : Nat)
        (name : List Char),
      ExtractVariables nin invfun = .ok var →
      ExtractExpressions nout fwdfun = .ok (some exprs) → i0 < nout →
      (∀ i, i < i0 → ∃ c, CompileExpression (exprs.getD i []) nin var = .ok c) →
      ReferencesName (exprs.getD i0 []) nin var name →
      (∀ j, j < nin → lhsText (invfun.getD j []) ≠ name) →
      ∃ q, CompileMapping nin nout fwdfun invfun =
        .error (.ofCompile false (i0 + 1) ⟨ErrCode.UDVOF, q⟩)) ∧
    CompileMapping 1 1 ["y=y".toList] ["x=y".toList] =
      .error (.ofCompile false 1 ⟨ErrCode.UDVOF, "y".toList⟩) ∧
    CompileMapping 2 1 ["y=b".toList] ["a=y".toList, "b=y".toList] =
      .ok ⟨some [[1, 2]], some [[1, 2], [1, 2]], some [[1]], some [[0], [0]], 1, 1⟩ := by
  refine ⟨?_, ?_, ?_, by decide!, by decide!⟩
  · intro nin nout fwdfun invfun m hok
    obtain ⟨fwd, inv, hf, hi, rfl⟩ := CompileMapping_ok hok
    obtain ⟨hv1, hr1⟩ := CompileMapping_half_spec hf
    obtain ⟨hv2, hr2⟩ := CompileMapping_half_spec hi
    refine ⟨hv1, hv2, ?_, ?_⟩
    · intro code con hcode hcon i hlt
      rcases hr1 with ⟨rfl, _⟩ | ⟨d, rfl, _, _, _, _, h, _⟩
      · cases hcode
      · obtain ⟨c, hc, g1, g2, _⟩ := h i hlt
        simp only [Option.map_some', Option.some.injEq] at hcode hcon
        subst hcode hcon
        exact ⟨c, hc, g1, g2⟩
    · intro code con hcode hcon i hlt
      rcases hr2 with ⟨rfl, _⟩ | ⟨d, rfl, _, _, _, _, h, _⟩
      · cases hcode
      · obtain ⟨c, hc, g1, g2, _⟩ := h i hlt
        simp only [Option.map_some', Option.some.injEq] at hcode hcon
        subst hcode hcon
        exact ⟨c, hc, g1, g2⟩
  · intro nin invfun var exprs j hv hj href
    obtain ⟨_, hne, hvar⟩ := ExtractVariables_ok_inv hv
    subst hvar
    have hget : ∀ i, i < nin →
        cstr (((List.range' 0 nin).map fun i => lhsText (invfun.getD i [])).getD i []) =
          lhsText (invfun.getD i []) := by
      intro i hi
      rw [getD_map_range' _ _ _ _ hi, cstr_eq_self fun c hc => lhsText_ne_NUL hc]
    refine ReferencesVar_of_name href j hj (hget j hj) ?_
    intro i hi
    rw [hget i (by omega)]
    exact hne i j hi hj
  · intro nin nout fwdfun invfun var exprs i0 name hv hx hi0 hall href hno
    obtain ⟨_, _, hvar⟩ := ExtractVariables_ok_inv hv
    obtain ⟨q, hq⟩ := CompileExpression_undeclared href (by
      intro j hj
      rw [hvar, getD_map_range' _ _ _ _ hj, cstr_eq_self fun c hc => lhsText_ne_NUL hc]
      exact hno j hj)
    exact ⟨q, CompileMapping_forward_error hv hx hi0 hall hq⟩

/-- Witness of C27: the forward expression `y` with the inverse function `x=y`. -/
theorem C27_names_of_other_direction_witness :
    ExtractVariables 1 ["x=y".toList] = .ok ["x".toList] ∧
    ExtractExpressions 1 ["y=y".toList] = .ok (some ["y".toList]) ∧
    ReferencesName "y".toList 1 ["x".toList] "y".toList ∧
    ∃ q, CompileMapping 1 1 ["y=y".toList] ["x=y".toList] =
      .error (.ofCompile false 1 ⟨ErrCode.UDVOF, q⟩) :=
  have hv : ExtractVariables 1 ["x=y".toList] = .ok ["x".toList] := by decide
  have hx : ExtractExpressions 1 ["y=y".toList] = .ok (some ["y".toList]) := by decide
  have href : ReferencesName "y".toList 1 ["x".toList] "y".toList :=
    ⟨0, WState.init, -1, 0, rfl, by decide, rfl, by decide, by decide!, by decide, by decide,
      by decide⟩
  ⟨hv, hx, href,
    C27_names_of_other_direction.2.2.1 1 1 ["y=y".toList] ["x=y".toList] ["x".toList]
      ["y".toList] 0 "y".toList hv hx (by decide) (fun i hi => absurd hi (by omega)) href (by
        intro j hj
        interval_cases j
        decide)⟩

/-- C28: when `CompileMapping` succeeds and a direction is defined, its stack size is the
largest of the stack sizes that `CompileExpression` returns for the expressions of that
direction: it is at least the stack size of each of them and equal to that of one of
them. -/
theorem C28_stack_size_is_maximum :
    (∀ (nin nout : Nat) (fwdfun invfun : List (List Char)) (m : Mapping),
      CompileMapping nin nout fwdfun invfun = .ok m →
      (m.fwdcode ≠ none →
        (∀ i, i < nout → ∃ c, CompileExpression (rhsText (fwdfun.getD i [])) nin
            ((List.range' 0 nin).map fun j => lhsText (invfun.getD j [])) = .ok c ∧
          c.stacksize ≤ m.fwdstack) ∧
        ∃ i, i < nout ∧ ∃ c, CompileExpression (rhsText (fwdfun.getD i [])) nin
            ((List.range' 0 nin).map fun j => lhsText (invfun.getD j [])) = .ok c ∧
          m.fwdstack = c.stacksize) ∧
      (m.invcode ≠ none →
        (∀ i, i < nin → ∃ c, CompileExpression (rhsText (invfun.getD i [])) nout
            ((List.range' 0 nout).map fun j => lhsText (fwdfun.getD j [])) = .ok c ∧
          c.stacksize ≤ m.invstack) ∧
        ∃ i, i < nin ∧ ∃ c, CompileExpression (rhsText (invfun.getD i [])) nout
            ((List.range' 0 nout).map fun j => lhsText (fwdfun.getD j [])) = .ok c ∧
          m.invstack = c.stacksize)) ∧
    CompileMapping 1 2 ["y=x+1".toList, "z=x*(x+2*x)".toList] ["x=y-1".toList] =
      .ok ⟨some [[3, 2, 1, 28], [7, 2, 2, 1, 2, 30, 28, 30]], some [[3, 2, 1, 29]],
        some [[0, 1], [0, 0, 2, 0]], some [[0, 1]], 4, 2⟩ ∧
    CompileExpression "x+1".toList 1 ["x".toList] = .ok ⟨[3, 2, 1, 28], [0, 1], 2⟩ ∧
    CompileExpression "x*(x+2*x)".toList 1 ["x".toList] =
      .ok ⟨[7, 2, 2, 1, 2, 30, 28, 30], [0, 0, 2, 0], 4⟩ := by
  refine ⟨?_, by decide!, by decide!, by decide!⟩
  intro nin nout fwdfun invfun m hok
  obtain ⟨fwd, inv, hf, hi, rfl⟩ := CompileMapping_ok hok
  obtain ⟨_, hr1⟩ := CompileMapping_half_spec hf
  obtain ⟨_, hr2⟩ := CompileMapping_half_spec hi
  constructor
  · intro hne
    rcases hr1 with ⟨rfl, _⟩ | ⟨d, rfl, _, _, _, _, h, i, hi, c, hc, hs⟩
    · exact absurd rfl hne
    · refine ⟨fun i hi => ?_, i, hi, c, hc, hs⟩
      obtain ⟨c, hc, _, _, hle⟩ := h i hi
      exact ⟨c, hc, hle⟩
  · intro hne
    rcases hr2 with ⟨rfl, _⟩ | ⟨d, rfl, _, _, _, _, h, i, hi, c, hc, hs⟩
    · exact absurd rfl hne
    · refine ⟨fun i hi => ?_, i, hi, c, hc, hs⟩
      obtain ⟨c, hc, _, _, hle⟩ := h i hi
      exact ⟨c, hc, hle⟩

/-- Witness of C28: two forward expressions of stack sizes 2 and 4. -/
theorem C28_stack_size_is_maximum_witness :
    CompileMapping 1 2 ["y=x+1".toList, "z=x*(x+2*x)".toList] ["x=y-1".toList] =
        .ok ⟨some [[3, 2, 1, 28], [7, 2, 2, 1, 2, 30, 28, 30]], some [[3, 2, 1, 29]],
          some [[0, 1], [0, 0, 2, 0]], some [[0, 1]], 4, 2⟩ ∧
    ∃ i, i < 2 ∧ ∃ c, CompileExpression
        (rhsText (["y=x+1".toList, "z=x*(x+2*x)".toList].getD i [])) 1
        ((List.range' 0 1).map fun j => lhsText (["x=y-1".toList].getD j [])) = .ok c ∧
      (4 : Int) = c.stacksize :=
  have h : CompileMapping 1 2 ["y=x+1".toList, "z=x*(x+2*x)".toList] ["x=y-1".toList] =
      .ok ⟨some [[3, 2, 1, 28], [7, 2, 2, 1, 2, 30, 28, 30]], some [[3, 2, 1, 29]],
        some [[0, 1], [0, 0, 2, 0]], some [[0, 1]], 4, 2⟩ := by decide!
  ⟨h, ((C28_stack_size_is_maximum.1 1 2 ["y=x+1".toList, "z=x*(x+2*x)".toList]
    ["x=y-1".toList] _ h).1 (by simp)).2⟩

/-- One pass of the loop body of `EvaluationSort` either takes one input symbol (and
stacks it unless it is a closing parenthesis) or pops one stacked symbol; it leaves the
symbols not yet read where they are. -/
theorem EvaluationSort_body_kind (con : List Rat) {nsym : Nat} {s : SortState}
    (hwf : s.wf nsym) :
    ((EvaluationSort_body con nsym s).isym = s.isym + 1 ∧
        ((EvaluationSort_body con nsym s).tos = s.tos ∨
          (EvaluationSort_body con nsym s).tos = s.tos + 1) ∨
      (EvaluationSort_body con nsym s).isym = s.isym ∧
        (EvaluationSort_body con nsym s).tos = s.tos - 1) ∧
    ∀ j, (EvaluationSort_body con nsym s).isym ≤ j →
      (EvaluationSort_body con nsym s).symlist.getD j 0 = s.symlist.getD j 0 := by
  obtain ⟨h1, h2, _, _⟩ := hwf
  rcases h : EvaluationSort_push nsym s with ⟨b, fl⟩
  cases b
  · rw [EvaluationSort_body_of_pop h]
    unfold EvaluationSort_doPop
    simp only
    split <;> exact ⟨Or.inr ⟨rfl, rfl⟩, fun j _ => rfl⟩
  · rw [EvaluationSort_body_of_push h]
    unfold EvaluationSort_doPush
    simp only
    split
    · exact ⟨Or.inl ⟨rfl, Or.inl rfl⟩, fun j _ => rfl⟩
    · refine ⟨Or.inl ⟨rfl, Or.inr rfl⟩, ?_⟩
      intro j hj
      simp only at hj
      exact getD_set_ne _ _ _ (by omega)

theorem EvaluationSort_loop_stop (con : List Rat) (nsym : Nat) {s : SortState}
    (h : ¬ (s.tos > -1 ∨ s.isym < nsym)) (fuel : Nat) :
    EvaluationSort_loop con nsym fuel s = s := by
  cases fuel with
  | zero => rfl
  | succ n => rw [EvaluationSort_loop_succ, if_neg h]

/-- Passes of the loop of `EvaluationSort` compose. -/
theorem EvaluationSort_loop_add (con : List Rat) (nsym : Nat) : ∀ (a b : Nat) (s : SortState),
    EvaluationSort_loop con nsym (a + b) s =
      EvaluationSort_loop con nsym b (EvaluationSort_loop con nsym a s) := by
  intro a
  induction a with
  | zero =>
    intro b s
    rw [Nat.zero_add]
    rfl
  | succ n ih =>
    intro b s
    rw [Nat.succ_add, EvaluationSort_loop_succ, EvaluationSort_loop_succ]
    split
    · exact ih b _
    · rename_i hc
      exact (EvaluationSort_loop_stop con nsym hc b).symm

/-- With fuel for twice the number of symbols, the loop of `EvaluationSort` has left its
`while` condition false: the sort stack is empty and every symbol is read. -/
theorem EvaluationSort_loop_exit (con : List Rat) (symlist : List Nat) (fuel : Nat)
    (hf : 2 * symlist.length ≤ fuel) :
    (EvaluationSort_loop con symlist.length fuel (SortState.init symlist)).tos = -1 ∧
    (EvaluationSort_loop con symlist.length fuel (SortState.init symlist)).isym =
      symlist.length := by
  obtain ⟨hw, hl⟩ := EvaluationSort_loop_toL con fuel _ (SortState.init_wf symlist)
  have hd := LState.loop_done con fuel (SortState.init symlist).toL (by
    rw [SortState.init_toL]
    simp only [List.length_nil, Nat.add_zero]
    exact hf)
  rw [← hl] at hd
  obtain ⟨w1, w2, w3, w4⟩ := hw
  generalize EvaluationSort_loop con symlist.length fuel (SortState.init symlist) = sf at *
  obtain ⟨hs, hi⟩ := hd
  simp only [SortState.toL] at hs hi
  constructor
  · have hlen := congrArg List.length hs
    simp only [List.length_reverse, List.length_take, List.length_nil] at hlen
    omega
  · have hlen := congrArg List.length hi
    simp only [List.length_drop, List.length_nil] at hlen
    omega

/-- The fuel `2 * nsym + 1` given to the loop of `EvaluationSort` is enough: more fuel
gives the same final state. -/
theorem EvaluationSort_loop_fuel (con : List Rat) (symlist : List Nat) (fuel : Nat)
    (hf : 2 * symlist.length ≤ fuel) :
    EvaluationSort_loop con symlist.length fuel (SortState.init symlist) =
      EvaluationSort_loop con symlist.length (2 * symlist.length + 1)
        (SortState.init symlist) := by
  have key : ∀ f, 2 * symlist.length ≤ f →
      EvaluationSort_loop con symlist.length f (SortState.init symlist) =
        EvaluationSort_loop con symlist.length (2 * symlist.length)
          (SortState.init symlist) := by
    intro f hf1
    obtain ⟨m, rfl⟩ : ∃ m, f = 2 * symlist.length + m := ⟨f - 2 * symlist.length, by omega⟩
    rw [EvaluationSort_loop_add]
    obtain ⟨e1, e2⟩ := EvaluationSort_loop_exit con symlist (2 * symlist.length) (Nat.le_refl _)
    exact EvaluationSort_loop_stop con _ (by rw [e1, e2]; simp) m
  rw [key fuel hf, key (2 * symlist.length + 1) (by omega)]

/-- Storing opcodes one by one leaves them after element 0 of the array. -/
theorem CodeArray.foldl_emit (l : List Int) :
    l.foldl CodeArray.emit ⟨none, 0⟩ =
      if l = [] then ⟨none, 0⟩ else ⟨some (0 :: l), l.length⟩ := by
  induction l using List.reverseRecOn with
  | nil => rfl
  | append_singleton pre x ih =>
    rw [List.foldl_append, ih]
    have hne : pre ++ [x] ≠ [] := by simp
    rw [if_neg hne]
    by_cases hp : pre = []
    · subst hp
      rfl
    · rw [if_neg hp]
      show CodeArray.emit _ x = _
      unfold CodeArray.emit arrSet
      simp

theorem CodeArray.finish_foldl (l : List Int) :
    (l.foldl CodeArray.emit ⟨none, 0⟩).finish = (l.length : Int) :: l := by
  rw [CodeArray.foldl_emit]
  by_cases hp : l = []
  · subst hp
    rfl
  · rw [if_neg hp]
    simp [CodeArray.finish]

theorem Oper.toInt_ne {o : Oper} (h : o ≠ OP_NULL) : o.toInt ≠ OP_NULL.toInt := by
  intro he
  have h1 := Oper.ofInt_toInt o
  rw [he, Oper.ofInt_toInt] at h1
  injection h1 with h1
  exact h h1.symm

/-- No pass of the loop body of `EvaluationSort` outputs the null opcode. -/
theorem EvaluationSort_body_code (con : List Rat) (nsym : Nat) (s : SortState)
    (h : ∀ x ∈ s.code, x ≠ OP_NULL.toInt) :
    ∀ x ∈ (EvaluationSort_body con nsym s).code, x ≠ OP_NULL.toInt := by
  rcases hp : EvaluationSort_push nsym s with ⟨b, fl⟩
  cases b
  · rw [EvaluationSort_body_of_pop hp]
    unfold EvaluationSort_doPop
    simp only
    split
    · rename_i hne
      intro x hx
      simp only [List.mem_append, List.mem_singleton] at hx
      rcases hx with hx | hx
      · exact h x hx
      · rw [hx]
        exact Oper.toInt_ne hne
    · exact h
  · rw [EvaluationSort_body_of_push hp]
    unfold EvaluationSort_doPush
    simp only
    split <;> exact h

theorem EvaluationSort_loop_code (con : List Rat) (nsym : Nat) : ∀ (fuel : Nat) (s : SortState),
    (∀ x ∈ s.code, x ≠ OP_NULL.toInt) →
    ∀ x ∈ (EvaluationSort_loop con nsym fuel s).code, x ≠ OP_NULL.toInt := by
  intro fuel
  induction fuel with
  | zero => intro s h; exact h
  | succ n ih =>
    intro s h
    rw [EvaluationSort_loop_succ]
    split
    · exact ih _ (EvaluationSort_body_code con nsym s h)
    · exact h

/-- C31: the array returned by `EvaluationSort`, for every list of symbols, has
`code[ 0 ] + 1` elements, where `code[ 0 ]` is the number of opcodes output; no element
after the first is the null opcode; when no opcode is output the array is the single
element 0.  The array built element by element as in the source (growing the array,
storing at `++ncode`, writing the count and cutting to size) is the count followed by
the opcodes output. -/
theorem C31_code_array :
    (∀ (con : List Rat) (nsym : Nat) (symlist : List Nat),
      EvaluationSort_array con nsym symlist = (EvaluationSort con nsym symlist).1 ∧
      ((EvaluationSort_array con nsym symlist).length : Int) =
        (EvaluationSort_array con nsym symlist).getD 0 0 + 1 ∧
      (EvaluationSort_array con nsym symlist).getD 0 0 =
        (((EvaluationSort_loop con nsym (2 * nsym + 1) (SortState.init symlist)).code.length :
          Nat) : Int) ∧
      (∀ j, 1 ≤ j → j < (EvaluationSort_array con nsym symlist).length →
        (EvaluationSort_array con nsym symlist).getD j 0 ≠ OP_NULL.toInt) ∧
      ((EvaluationSort_loop con nsym (2 * nsym + 1) (SortState.init symlist)).code = [] →
        EvaluationSort_array con nsym symlist = [0])) ∧
    EvaluationSort_array [] 0 [] = [0] ∧
    EvaluationSort_array [] 2 [3, 2] = [0] ∧
    EvaluationSort_array [0, 1] 3 [0, 5, 0] = [3, 2, 2, 28] ∧
    OP_NULL.toInt = 0 := by
  refine ⟨?_, by decide, by decide, by decide, by decide⟩
  intro con nsym symlist
  have harr : EvaluationSort_array con nsym symlist =
      ((EvaluationSort_loop con nsym (2 * nsym + 1) (SortState.init symlist)).code.length : Int) ::
        (EvaluationSort_loop con nsym (2 * nsym + 1) (SortState.init symlist)).code := by
    unfold EvaluationSort_array
    exact CodeArray.finish_foldl _
  have hne := EvaluationSort_loop_code con nsym (2 * nsym + 1) (SortState.init symlist)
    (by intro x hx; cases hx)
  have hes : (EvaluationSort con nsym symlist).1 =
      ((EvaluationSort_loop con nsym (2 * nsym + 1) (SortState.init symlist)).code.length : Int) ::
        (EvaluationSort_loop con nsym (2 * nsym + 1) (SortState.init symlist)).code := rfl
  rw [harr, hes]
  generalize (EvaluationSort_loop con nsym (2 * nsym + 1) (SortState.init symlist)).code = l
    at hne
  refine ⟨rfl, ?_, rfl, ?_, ?_⟩
  · simp
  · intro j h1 h2
    obtain ⟨k, rfl⟩ : ∃ k, j = k + 1 := ⟨j - 1, by omega⟩
    simp only [List.length_cons] at h2
    rw [List.getD_cons_succ, List.getD_eq_getElem?_getD, List.getElem?_eq_getElem (by omega)]
    exact hne _ (List.getElem_mem _)
  · intro h
    rw [h]
    rfl

/-- Witness of C31: the first opcode of the program for `a+b`. -/
theorem C31_code_array_witness :
    (EvaluationSort_array [0, 1] 3 [0, 5, 0]).getD 1 0 ≠ OP_NULL.toInt :=
  (C31_code_array.1 [0, 1] 3 [0, 5, 0]).2.2.2.1 1 (by decide) (by decide)

/-- C40: `EvaluationSort` terminates on every list of symbols.  In every state that the
loop reaches the sort stack index is below the input index (`tos + 1 ≤ isym ≤ nsym`);
each pass of the loop body in such a state either takes one input symbol or pops one
stacked symbol, lowers `2 * (nsym - isym) + (tos + 1)`, and leaves every symbol not yet
read unchanged in `symlist`; with fuel for twice the number of symbols the loop has
left its condition false (`tos = -1` and `isym = nsym`), and the fuel used by
`EvaluationSort` gives that final state. -/
theorem C40_sort_terminates (con : List Rat) (symlist : List Nat) :
    (∀ fuel,
      (EvaluationSort_loop con symlist.length fuel (SortState.init symlist)).wf
          symlist.length ∧
        (EvaluationSort_loop con symlist.length fuel (SortState.init symlist)).tos <
          (EvaluationSort_loop con symlist.length fuel (SortState.init symlist)).isym) ∧
    (∀ s : SortState, s.wf symlist.length → (s.tos > -1 ∨ s.isym < symlist.length) →
      (EvaluationSort_body con symlist.length s).wf symlist.length ∧
      ((EvaluationSort_body con symlist.length s).isym = s.isym + 1 ∧
          ((EvaluationSort_body con symlist.length s).tos = s.tos ∨
            (EvaluationSort_body con symlist.length s).tos = s.tos + 1) ∨
        (EvaluationSort_body con symlist.length s).isym = s.isym ∧
          (EvaluationSort_body con symlist.length s).tos = s.tos - 1) ∧
      2 * ((symlist.length : Int) - (EvaluationSort_body con symlist.length s).isym) +
          ((EvaluationSort_body con symlist.length s).tos + 1) <
        2 * ((symlist.length : Int) - s.isym) + (s.tos + 1) ∧
      ∀ j, (EvaluationSort_body con symlist.length s).isym ≤ j →
        (EvaluationSort_body con symlist.length s).symlist.getD j 0 = s.symlist.getD j 0) ∧
    (∀ fuel, 2 * symlist.length ≤ fuel →
      (EvaluationSort_loop con symlist.length fuel (SortState.init symlist)).tos = -1 ∧
      (EvaluationSort_loop con symlist.length fuel (SortState.init symlist)).isym =
        symlist.length ∧
      EvaluationSort_loop con symlist.length fuel (SortState.init symlist) =
        EvaluationSort_loop con symlist.length (2 * symlist.length + 1)
          (SortState.init symlist)) := by
  refine ⟨?_, ?_, ?_⟩
  · intro fuel
    have hw := (EvaluationSort_loop_toL con fuel _ (SortState.init_wf symlist)).1
    refine ⟨hw, ?_⟩
    obtain ⟨_, h2, _, _⟩ := hw
    omega
  · intro s hwf hc
    obtain ⟨hk, hu⟩ := EvaluationSort_body_kind con hwf
    refine ⟨(EvaluationSort_body_toL con hwf hc).1, hk, ?_, hu⟩
    rcases hk with ⟨h1, h2 | h2⟩ | ⟨h1, h2⟩ <;> rw [h1, h2] <;> push_cast <;> omega
  · intro fuel hf
    obtain ⟨e1, e2⟩ := EvaluationSort_loop_exit con symlist fuel hf
    exact ⟨e1, e2, EvaluationSort_loop_fuel con symlist fuel hf⟩

/-- Witness of C40: the first pass of the loop on the symbols of `a+b`. -/
theorem C40_sort_terminates_witness :
    (EvaluationSort_body [0, 1] 3 (SortState.init [0, 5, 0])).isym = 1 ∧
    (EvaluationSort_body [0, 1] 3 (SortState.init [0, 5, 0])).tos = 0 ∧
    (EvaluationSort_loop [0, 1] 3 6 (SortState.init [0, 5, 0])).tos = -1 :=
  ⟨by decide, by decide,
    ((C40_sort_terminates [0, 1] [0, 5, 0]).2.2 6 (by decide)).1⟩

theorem getD_mem_or_default {α : Type} (l : List α) (i : Nat) (d : α) :
    l.getD i d ∈ l ∨ l.getD i d = d := by
  by_cases h : i < l.length
  · left
    rw [List.getD_eq_getElem?_getD, List.getElem?_eq_getElem h]
    exact List.getElem_mem h
  · right
    rw [List.getD_eq_getElem?_getD, List.getElem?_eq_none (by omega)]
    rfl

/-- A symbol of a list without functions of a variable number of arguments, or the
symbol 0 read outside the list. -/
theorem nargs_getD {l : List Nat} (h : ∀ x ∈ l, (symbol x).nargs ≥ 0) (i : Nat) :
    (symbol (l.getD i 0)).nargs ≥ 0 := by
  rcases getD_mem_or_default l i 0 with h1 | h1
  · exact h _ h1
  · rw [h1]
    decide

/-- Without functions of a variable number of arguments among the symbols, a pass of the
loop body of `EvaluationSort` does not look at the constants. -/
theorem EvaluationSort_body_con (con con1 : List Rat) (nsym : Nat) (s : SortState)
    (h : ∀ x ∈ s.symlist, (symbol x).nargs ≥ 0) :
    EvaluationSort_body con nsym s = EvaluationSort_body con1 nsym s ∧
      ∀ x ∈ (EvaluationSort_body con nsym s).symlist, (symbol x).nargs ≥ 0 := by
  rcases hp : EvaluationSort_push nsym s with ⟨b, fl⟩
  cases b
  · rw [EvaluationSort_body_of_pop hp, EvaluationSort_body_of_pop hp]
    have hn := nargs_getD h s.tos.toNat
    unfold EvaluationSort_doPop
    simp only [hn, if_true]
    refine ⟨trivial, ?_⟩
    split <;> exact h
  · rw [EvaluationSort_body_of_push hp, EvaluationSort_body_of_push hp]
    refine ⟨rfl, ?_⟩
    unfold EvaluationSort_doPush
    simp only
    split
    · exact h
    · intro x hx
      simp only at hx
      rcases List.mem_or_eq_of_mem_set hx with h1 | h1
      · exact h x h1
      · rw [h1]
        exact nargs_getD h s.isym

theorem EvaluationSort_loop_con (con con1 : List Rat) (nsym : Nat) :
    ∀ (fuel : Nat) (s : SortState), (∀ x ∈ s.symlist, (symbol x).nargs ≥ 0) →
    EvaluationSort_loop con nsym fuel s = EvaluationSort_loop con1 nsym fuel s := by
  intro fuel
  induction fuel with
  | zero => intro s _; rfl
  | succ n ih =>
    intro s h
    rw [EvaluationSort_loop_succ, EvaluationSort_loop_succ]
    obtain ⟨e1, e2⟩ := EvaluationSort_body_con con con1 nsym s h
    split
    · rw [← e1]
      exact ih _ e2
    · rfl

/-- The constants matter to `EvaluationSort` only for functions of a variable number of
arguments. -/
theorem EvaluationSort_con (con con1 : List Rat) (nsym : Nat) (symlist : List Nat)
    (h : ∀ x ∈ symlist, (symbol x).nargs ≥ 0) :
    EvaluationSort con nsym symlist = EvaluationSort con1 nsym symlist := by
  unfold EvaluationSort
  rw [EvaluationSort_loop_con con con1 nsym _ (SortState.init symlist) h]

set_option maxRecDepth 100000 in
/-- The sort of operand, operator, operand, operator, operand for the four binary
operators `-`, `+`, `*`, `/`: the second operator is output first exactly when it is `*`
or `/` and the first is `-` or `+`. -/
theorem EvaluationSort_binary_table :
    ∀ x ∈ [0, 1, 43], ∀ y ∈ [0, 1, 43], ∀ z ∈ [0, 1, 43], ∀ o1 ∈ [4, 5, 7, 8],
      ∀ o2 ∈ [4, 5, 7, 8],
      EvaluationSort [] 5 [x, o1, y, o2, z] =
        if (o1 = 4 ∨ o1 = 5) ∧ (o2 = 7 ∨ o2 = 8) then
          ([5, (symbol x).opcode.toInt, (symbol y).opcode.toInt, (symbol z).opcode.toInt,
            (symbol o2).opcode.toInt, (symbol o1).opcode.toInt], 3)
        else
          ([5, (symbol x).opcode.toInt, (symbol y).opcode.toInt, (symbol o1).opcode.toInt,
            (symbol z).opcode.toInt, (symbol o2).opcode.toInt], 2) := by
  decide

theorem nargs_of_mem_plain {x : Nat} (h : x ∈ [0, 1, 43, 4, 5, 6, 7, 8, 10, 11]) :
    (symbol x).nargs ≥ 0 := by
  simp only [List.mem_cons, List.mem_singleton, List.not_mem_nil, or_false] at h
  rcases h with h | h | h | h | h | h | h | h | h | h <;> subst h <;> decide

/-- What `CompileExpression` returns once the walk has succeeded. -/
theorem CompileExpression_of_walk {exprs : List Char} {nvar : Nat} {var : List (List Char)}
    {w : WState} (h : CompileExpression_walk exprs nvar var = .ok w) :
    CompileExpression exprs nvar var =
      .ok ⟨(EvaluationSort w.v.con w.symlist.length w.symlist).1, w.v.con,
        (EvaluationSort w.v.con w.symlist.length w.symlist).2⟩ := by
  unfold CompileExpression
  rw [h]

/-- C32: for operands `x`, `y`, `z` (variables, constants or `<bad>`) and binary
operators `o1`, `o2` among `-`, `+`, `*`, `/`, the symbols `x o1 y o2 z` are sorted into
`x y z o2 o1` (stack size 3) when `o1` is `-` or `+` and `o2` is `*` or `/`, and into
`x y o1 z o2` (stack size 2) otherwise: `*` and `/` bind tighter than `+` and `-`, and
operators of equal priority associate to the left.  This is the program of every
expression whose walk gives these five symbols; `a+b*c`, `a*b+c`, `a-b-c`, `a/b/c`
compile to `a b c MUL ADD`, `a b MUL c ADD`, `a b SUB c SUB`, `a b DIV c DIV`. -/
theorem C32_binary_priorities :
    (∀ (con : List Rat) (x y z o1 o2 : Nat), x ∈ [0, 1, 43] → y ∈ [0, 1, 43] →
      z ∈ [0, 1, 43] → o1 ∈ [4, 5, 7, 8] → o2 ∈ [4, 5, 7, 8] →
      (((o1 = 4 ∨ o1 = 5) ∧ (o2 = 7 ∨ o2 = 8)) →
        EvaluationSort con 5 [x, o1, y, o2, z] =
          ([5, (symbol x).opcode.toInt, (symbol y).opcode.toInt, (symbol z).opcode.toInt,
            (symbol o2).opcode.toInt, (symbol o1).opcode.toInt], 3)) ∧
      (¬ ((o1 = 4 ∨ o1 = 5) ∧ (o2 = 7 ∨ o2 = 8)) →
        EvaluationSort con 5 [x, o1, y, o2, z] =
          ([5, (symbol x).opcode.toInt, (symbol y).opcode.toInt, (symbol o1).opcode.toInt,
            (symbol z).opcode.toInt, (symbol o2).opcode.toInt], 2))) ∧
    (∀ (exprs : List Char) (nvar : Nat) (var : List (List Char)) (w : WState),
      CompileExpression_walk exprs nvar var = .ok w →
      CompileExpression exprs nvar var =
        .ok ⟨(EvaluationSort w.v.con w.symlist.length w.symlist).1, w.v.con,
          (EvaluationSort w.v.con w.symlist.length w.symlist).2⟩) ∧
    ((symbol 4).text = "-" ∧ (symbol 5).text = "+" ∧ (symbol 7).text = "*" ∧
      (symbol 8).text = "/" ∧ (symbol 4).opcode = OP_SUB ∧ (symbol 5).opcode = OP_ADD ∧
      (symbol 7).opcode = OP_MUL ∧ (symbol 8).opcode = OP_DIV ∧
      (symbol 0).opcode = OP_LDVAR ∧ (symbol 1).opcode = OP_LDCON ∧
      (symbol 43).opcode = OP_LDBAD ∧
      [OP_LDCON.toInt, OP_LDVAR.toInt, OP_ADD.toInt, OP_SUB.toInt, OP_MUL.toInt,
        OP_DIV.toInt] = [1, 2, 28, 29, 30, 31]) ∧
    CompileExpression "a+b*c".toList 3 ["a".toList, "b".toList, "c".toList] =
      .ok ⟨[5, 2, 2, 2, 30, 28], [0, 1, 2], 3⟩ ∧
    CompileExpression "a*b+c".toList 3 ["a".toList, "b".toList, "c".toList] =
      .ok ⟨[5, 2, 2, 30, 2, 28], [0, 1, 2], 2⟩ ∧
    CompileExpression "a-b-c".toList 3 ["a".toList, "b".toList, "c".toList] =
      .ok ⟨[5, 2, 2, 29, 2, 29], [0, 1, 2], 2⟩ ∧
    CompileExpression "a/b/c".toList 3 ["a".toList, "b".toList, "c".toList] =
      .ok ⟨[5, 2, 2, 31, 2, 31], [0, 1, 2], 2⟩ ∧
    CompileExpression "1+2*3".toList 0 [] = .ok ⟨[5, 1, 1, 1, 30, 28], [1, 2, 3], 3⟩ ∧
    CompileExpression "8/a/2.5".toList 1 ["a".toList] =
      .ok ⟨[5, 1, 2, 31, 1, 31], [8, 0, 5 / 2], 2⟩ := by
  refine ⟨?_, fun _ _ _ _ h => CompileExpression_of_walk h, by decide, by decide!, by decide!,
    by decide!, by decide!, by decide!, by decide!⟩
  intro con x y z o1 o2 hx hy hz h1 h2
  have hn : ∀ s ∈ [x, o1, y, o2, z], (symbol s).nargs ≥ 0 := by
    intro s hs
    apply nargs_of_mem_plain
    simp only [List.mem_cons, List.mem_singleton, List.not_mem_nil, or_false] at *
    rcases hs with rfl | rfl | rfl | rfl | rfl <;> omega
  have ht := EvaluationSort_binary_table x hx y hy z hz o1 h1 o2 h2
  rw [EvaluationSort_con con [] 5 _ hn, ht]
  constructor
  · intro h
    rw [if_pos h]
  · intro h
    rw [if_neg h]

/-- Witness of C32: the symbols of `a+b*c`. -/
theorem C32_binary_priorities_witness :
    EvaluationSort [0, 1, 2] 5 [0, 5, 0, 7, 0] = ([5, 2, 2, 2, 30, 28], 3) :=
  ((C32_binary_priorities.1 [0, 1, 2] 0 0 0 5 7 (by decide) (by decide) (by decide)
    (by decide) (by decide)).1 (by decide)).trans (by decide)

theorem strncmp0_first_ne {a b : List Char} {ia ib n : Nat} (h : cget a ia ≠ cget b ib) :
    strncmp0 a ia b ib (n + 1) = false := by
  unfold strncmp0
  rw [if_pos (by simpa using h)]

/-- The search of the symbol table returns the first symbol that passes the test. -/
theorem findSymbol_first (exprs : List Char) (istart : Nat) (o u : Bool) :
    ∀ (pre : List Nat) (sym : Nat) (post : List Nat),
    (∀ s ∈ pre, ((symbol s).size != 0 && ((symbol s).operleft == o) &&
      (!(symbol s).unaryoper || u) &&
      strncmp0 exprs istart (symbol s).text.toList 0 (symbol s).size) = false) →
    ((symbol sym).size != 0 && ((symbol sym).operleft == o) &&
      (!(symbol sym).unaryoper || u) &&
      strncmp0 exprs istart (symbol sym).text.toList 0 (symbol sym).size) = true →
    findSymbol exprs istart o u (pre ++ sym :: post) = some sym := by
  intro pre
  induction pre with
  | nil =>
    intro sym post _ h
    simp only [List.nil_append, findSymbol]
    rw [if_pos h]
  | cons a pre ih =>
    intro sym post hp h
    simp only [List.cons_append, findSymbol]
    rw [if_neg (by rw [hp a (List.mem_cons_self _ _)]; decide)]
    exact ih sym post (fun s hs => hp s (List.mem_cons_of_mem _ hs)) h

theorem findSymbol_eq_none (exprs : List Char) (istart : Nat) (o u : Bool) :
    ∀ (l : List Nat),
    (∀ s ∈ l, ((symbol s).size != 0 && ((symbol s).operleft == o) &&
      (!(symbol s).unaryoper || u) &&
      strncmp0 exprs istart (symbol s).text.toList 0 (symbol s).size) = false) →
    findSymbol exprs istart o u l = none := by
  intro l
  induction l with
  | nil => intro _; rfl
  | cons a l ih =>
    intro hp
    simp only [findSymbol]
    rw [if_neg (by rw [hp a (List.mem_cons_self _ _)]; decide)]
    exact ih fun s hs => hp s (List.mem_cons_of_mem _ hs)

/-- Where an operator is expected and the text is `**`, the symbol found is the power
operator, not the multiplication. -/
theorem findSymbol_power (exprs : List Char) (istart : Nat) (u : Bool)
    (h0 : cget exprs istart = '*') (h1 : cget exprs (istart + 1) = '*') :
    findSymbol exprs istart true u (List.range symbolTable.length) = some 6 := by
  have hr : List.range symbolTable.length = [0, 1, 2, 3, 4, 5] ++ 6 :: List.range' 7 37 := by
    decide
  rw [hr]
  apply findSymbol_first
  · intro s hs
    simp only [List.mem_cons, List.mem_singleton, List.not_mem_nil, or_false] at hs
    rcases hs with rfl | rfl | rfl | rfl | rfl | rfl
    · rfl
    · rfl
    · have : strncmp0 exprs istart (symbol 2).text.toList 0 (symbol 2).size = false :=
        strncmp0_first_ne (by rw [h0]; decide)
      rw [this]
      rfl
    · rfl
    · have : strncmp0 exprs istart (symbol 4).text.toList 0 (symbol 4).size = false :=
        strncmp0_first_ne (by rw [h0]; decide)
      rw [this]
      rfl
    · have : strncmp0 exprs istart (symbol 5).text.toList 0 (symbol 5).size = false :=
        strncmp0_first_ne (by rw [h0]; decide)
      rw [this]
      rfl
  · have : strncmp0 exprs istart (symbol 6).text.toList 0 (symbol 6).size = true := by
      show strncmp0 exprs istart ['*', '*'] 0 2 = true
      unfold strncmp0
      rw [if_neg (by rw [h0]; decide), if_neg (by rw [h0]; decide)]
      unfold strncmp0
      rw [if_neg (by rw [h1]; decide), if_neg (by rw [h1]; decide)]
      rfl
    rw [this]
    rfl

/-- Where an operator is expected and the text is `*` not followed by another `*`, the
symbol found is the multiplication. -/
theorem findSymbol_times (exprs : List Char) (istart : Nat) (u : Bool)
    (h0 : cget exprs istart = '*') (h1 : cget exprs (istart + 1) ≠ '*') :
    findSymbol exprs istart true u (List.range symbolTable.length) = some 7 := by
  have hr : List.range symbolTable.length =
      [0, 1, 2, 3, 4, 5, 6] ++ 7 :: List.range' 8 36 := by
    decide
  rw [hr]
  apply findSymbol_first
  · intro s hs
    simp only [List.mem_cons, List.mem_singleton, List.not_mem_nil, or_false] at hs
    rcases hs with rfl | rfl | rfl | rfl | rfl | rfl | rfl
    · rfl
    · rfl
    · have : strncmp0 exprs istart (symbol 2).text.toList 0 (symbol 2).size = false :=
        strncmp0_first_ne (by rw [h0]; decide)
      rw [this]
      rfl
    · rfl
    · have : strncmp0 exprs istart (symbol 4).text.toList 0 (symbol 4).size = false :=
        strncmp0_first_ne (by rw [h0]; decide)
      rw [this]
      rfl
    · have : strncmp0 exprs istart (symbol 5).text.toList 0 (symbol 5).size = false :=
        strncmp0_first_ne (by rw [h0]; decide)
      rw [this]
      rfl
    · have : strncmp0 exprs istart (symbol 6).text.toList 0 (symbol 6).size = false := by
        show strncmp0 exprs istart ['*', '*'] 0 2 = false
        unfold strncmp0
        rw [if_neg (by rw [h0]; decide), if_neg (by rw [h0]; decide)]
        exact strncmp0_first_ne (by
          intro h
          apply h1
          rw [h]
          rfl)
      rw [this]
      simp
  · have : strncmp0 exprs istart (symbol 7).text.toList 0 (symbol 7).size = true := by
      show strncmp0 exprs istart ['*'] 0 1 = true
      unfold strncmp0
      rw [if_neg (by rw [h0]; decide), if_neg (by rw [h0]; decide)]
      rfl
    rw [this]
    rfl

/-- Where an operand is expected, a unary sign is allowed and the text starts with `-`,
the symbol found is the unary minus. -/
theorem findSymbol_unary_minus (exprs : List Char) (istart : Nat)
    (h0 : cget exprs istart = '-') :
    findSymbol exprs istart false true (List.range symbolTable.length) = some 10 := by
  have hr : List.range symbolTable.length =
      [0, 1, 2, 3, 4, 5, 6, 7, 8, 9] ++ 10 :: List.range' 11 33 := by
    decide
  rw [hr]
  apply findSymbol_first
  · intro s hs
    simp only [List.mem_cons, List.mem_singleton, List.not_mem_nil, or_false] at hs
    rcases hs with rfl | rfl | rfl | rfl | rfl | rfl | rfl | rfl | rfl | rfl
    · rfl
    · rfl
    · rfl
    · have : strncmp0 exprs istart (symbol 3).text.toList 0 (symbol 3).size = false :=
        strncmp0_first_ne (by rw [h0]; decide)
      rw [this]
      rfl
    all_goals rfl
  · have : strncmp0 exprs istart (symbol 10).text.toList 0 (symbol 10).size = true := by
      show strncmp0 exprs istart ['-'] 0 1 = true
      unfold strncmp0
      rw [if_neg (by rw [h0]; decide), if_neg (by rw [h0]; decide)]
      rfl
    rw [this]
    rfl

/-- Where an operand is expected, a unary sign is allowed and the text starts with `+`,
the symbol found is the unary plus. -/
theorem findSymbol_unary_plus (exprs : List Char) (istart : Nat)
    (h0 : cget exprs istart = '+') :
    findSymbol exprs istart false true (List.range symbolTable.length) = some 11 := by
  have hr : List.range symbolTable.length =
      [0, 1, 2, 3, 4, 5, 6, 7, 8, 9, 10] ++ 11 :: List.range' 12 32 := by
    decide
  rw [hr]
  apply findSymbol_first
  · intro s hs
    simp only [List.mem_cons, List.mem_singleton, List.not_mem_nil, or_false] at hs
    rcases hs with rfl | rfl | rfl | rfl | rfl | rfl | rfl | rfl | rfl | rfl | rfl
    · rfl
    · rfl
    · rfl
    · have : strncmp0 exprs istart (symbol 3).text.toList 0 (symbol 3).size = false :=
        strncmp0_first_ne (by rw [h0]; decide)
      rw [this]
      rfl
    · rfl
    · rfl
    · rfl
    · rfl
    · rfl
    · rfl
    · have : strncmp0 exprs istart (symbol 10).text.toList 0 (symbol 10).size = false :=
        strncmp0_first_ne (by rw [h0]; decide)
      rw [this]
      rfl
  · have : strncmp0 exprs istart (symbol 11).text.toList 0 (symbol 11).size = true := by
      show strncmp0 exprs istart ['+'] 0 1 = true
      unfold strncmp0
      rw [if_neg (by rw [h0]; decide), if_neg (by rw [h0]; decide)]
      rfl
    rw [this]
    rfl

set_option synthInstance.maxSize 4000 in
/-- The symbols that can stand where an operand is expected and are not unary signs do
not start with a sign. -/
theorem symbol_operand_start : ∀ sym < 44, (symbol sym).size ≠ 0 →
    (symbol sym).operleft = false → (symbol sym).unaryoper = false →
    cget (symbol sym).text.toList 0 ≠ '-' ∧ cget (symbol sym).text.toList 0 ≠ '+' := by
  decide

/-- Where an operand is expected and no unary sign is allowed, no symbol is found at a
sign. -/
theorem findSymbol_sign_none (exprs : List Char) (istart : Nat)
    (h0 : cget exprs istart = '-' ∨ cget exprs istart = '+') :
    findSymbol exprs istart false false (List.range symbolTable.length) = none := by
  apply findSymbol_eq_none
  intro s hs
  have hs44 : s < 44 := by simpa [symbolTable] using List.mem_range.1 hs
  by_cases hz : (symbol s).size = 0
  · simp [hz]
  by_cases hl : (symbol s).operleft = true
  · simp [hl]
  by_cases hu : (symbol s).unaryoper = true
  · simp [hu]
  obtain ⟨t1, t2⟩ := symbol_operand_start s hs44 hz (by simpa using hl) (by simpa using hu)
  obtain ⟨n, hn⟩ : ∃ n, (symbol s).size = n + 1 := ⟨(symbol s).size - 1, by omega⟩
  have : strncmp0 exprs istart (symbol s).text.toList 0 (symbol s).size = false := by
    rw [hn]
    apply strncmp0_first_ne
    rcases h0 with h0 | h0 <;> rw [h0]
    · exact fun h => t1 h.symm
    · exact fun h => t2 h.symm
  rw [this]
  simp

set_option maxRecDepth 100000 in
/-- The sort of symbols with the power operator and the unary minus: the power operator
associates to the right, and a leading unary minus is output before `-`, `+`, `*`, `/`
but after the power operator. -/
theorem EvaluationSort_power_table :
    (∀ x ∈ [0, 1, 43], ∀ y ∈ [0, 1, 43], ∀ z ∈ [0, 1, 43],
      EvaluationSort [] 5 [x, 6, y, 6, z] =
        ([5, (symbol x).opcode.toInt, (symbol y).opcode.toInt, (symbol z).opcode.toInt,
          OP_PWR.toInt, OP_PWR.toInt], 3)) ∧
    (∀ x ∈ [0, 1, 43], ∀ y ∈ [0, 1, 43],
      EvaluationSort [] 4 [10, x, 6, y] =
        ([4, (symbol x).opcode.toInt, (symbol y).opcode.toInt, OP_PWR.toInt,
          OP_NEG.toInt], 2)) ∧
    (∀ x ∈ [0, 1, 43], ∀ y ∈ [0, 1, 43], ∀ o ∈ [4, 5, 7, 8],
      EvaluationSort [] 4 [10, x, o, y] =
        ([4, (symbol x).opcode.toInt, OP_NEG.toInt, (symbol y).opcode.toInt,
          (symbol o).opcode.toInt], 2)) := by
  decide

/-- The pass of the walker at the text `**` where an operator is expected: the power
operator is recorded and the scan resumes after both characters. -/
theorem CompileExpression_body_power (exprs : List Char) (nvar : Nat) (var : List (List Char))
    (w : WState) (hop : w.opernext = true) (h0 : cget exprs w.istart = '*')
    (h1 : cget exprs (w.istart + 1) = '*') :
    CompileExpression_body exprs nvar var w = .ok (w.accept 6 (w.istart + 1) w.v) := by
  unfold CompileExpression_body
  rw [hop, findSymbol_power exprs w.istart w.unarynext h0 h1]
  simp only
  rw [ValidateSymbol_other exprs _ w.v (by decide) (by decide)]
  rfl

/-- C33: where an operator is expected, the text `**` is found as the one power
operator (symbol 6) and `*` not followed by `*` as the multiplication; the walker
records the power operator and resumes after both characters.  The power operator
associates to the right (`x ** y ** z` is sorted into `x y z PWR PWR`), and a leading
unary minus is output after a power but before `-`, `+`, `*`, `/` (`- x ** y` into
`x y PWR NEG`, `- x o y` into `x NEG y o`).  So `a**b**c`, `-a**b`, `-a*b` compile to
`a b c PWR PWR`, `a b PWR NEG`, `a NEG b MUL`. -/
theorem C33_power_and_unary_minus :
    (∀ (exprs : List Char) (istart : Nat) (u : Bool), cget exprs istart = '*' →
      (cget exprs (istart + 1) = '*' →
        findSymbol exprs istart true u (List.range symbolTable.length) = some 6) ∧
      (cget exprs (istart + 1) ≠ '*' →
        findSymbol exprs istart true u (List.range symbolTable.length) = some 7)) ∧
    (∀ (exprs : List Char) (nvar : Nat) (var : List (List Char)) (w : WState),
      w.opernext = true → cget exprs w.istart = '*' → cget exprs (w.istart + 1) = '*' →
      CompileExpression_body exprs nvar var w = .ok (w.accept 6 (w.istart + 1) w.v)) ∧
    (∀ (con : List Rat) (x y z : Nat), x ∈ [0, 1, 43] → y ∈ [0, 1, 43] → z ∈ [0, 1, 43] →
      EvaluationSort con 5 [x, 6, y, 6, z] =
        ([5, (symbol x).opcode.toInt, (symbol y).opcode.toInt, (symbol z).opcode.toInt,
          OP_PWR.toInt, OP_PWR.toInt], 3)) ∧
    (∀ (con : List Rat) (x y : Nat), x ∈ [0, 1, 43] → y ∈ [0, 1, 43] →
      EvaluationSort con 4 [10, x, 6, y] =
        ([4, (symbol x).opcode.toInt, (symbol y).opcode.toInt, OP_PWR.toInt,
          OP_NEG.toInt], 2)) ∧
    (∀ (con : List Rat) (x y o : Nat), x ∈ [0, 1, 43] → y ∈ [0, 1, 43] → o ∈ [4, 5, 7, 8] →
      EvaluationSort con 4 [10, x, o, y] =
        ([4, (symbol x).opcode.toInt, OP_NEG.toInt, (symbol y).opcode.toInt,
          (symbol o).opcode.toInt], 2)) ∧
    ((symbol 6).text = "**" ∧ (symbol 6).opcode = OP_PWR ∧ (symbol 7).text = "*" ∧
      (symbol 10).text = "-" ∧ (symbol 10).opcode = OP_NEG ∧
      (symbol 10).unaryoper = true ∧ OP_PWR.toInt = 32 ∧ OP_NEG.toInt = 4) ∧
    CompileExpression "a**b**c".toList 3 ["a".toList, "b".toList, "c".toList] =
      .ok ⟨[5, 2, 2, 2, 32, 32], [0, 1, 2], 3⟩ ∧
    CompileExpression "-a**b".toList 2 ["a".toList, "b".toList] =
      .ok ⟨[4, 2, 2, 32, 4], [0, 1], 2⟩ ∧
    CompileExpression "-a*b".toList 2 ["a".toList, "b".toList] =
      .ok ⟨[4, 2, 4, 2, 30], [0, 1], 2⟩ ∧
    CompileExpression "-a+b".toList 2 ["a".toList, "b".toList] =
      .ok ⟨[4, 2, 4, 2, 28], [0, 1], 2⟩ := by
  refine ⟨?_, ?_, ?_, ?_, ?_, by decide, by decide!, by decide!, by decide!, by decide!⟩
  · intro exprs istart u h0
    exact ⟨findSymbol_power exprs istart u h0, findSymbol_times exprs istart u h0⟩
  · intro exprs nvar var w hop h0 h1
    exact CompileExpression_body_power exprs nvar var w hop h0 h1
  · intro con x y z hx hy hz
    have hn : ∀ s ∈ [x, 6, y, 6, z], (symbol s).nargs ≥ 0 := by
      intro s hs
      apply nargs_of_mem_plain
      simp only [List.mem_cons, List.mem_singleton, List.not_mem_nil, or_false] at *
      rcases hs with rfl | rfl | rfl | rfl | rfl <;> omega
    rw [EvaluationSort_con con [] 5 _ hn]
    exact EvaluationSort_power_table.1 x hx y hy z hz
  · intro con x y hx hy
    have hn : ∀ s ∈ [10, x, 6, y], (symbol s).nargs ≥ 0 := by
      intro s hs
      apply nargs_of_mem_plain
      simp only [List.mem_cons, List.mem_singleton, List.not_mem_nil, or_false] at *
      rcases hs with rfl | rfl | rfl | rfl <;> omega
    rw [EvaluationSort_con con [] 4 _ hn]
    exact EvaluationSort_power_table.2.1 x hx y hy
  · intro con x y o hx hy ho
    have hn : ∀ s ∈ [10, x, o, y], (symbol s).nargs ≥ 0 := by
      intro s hs
      apply nargs_of_mem_plain
      simp only [List.mem_cons, List.mem_singleton, List.not_mem_nil, or_false] at *
      rcases hs with rfl | rfl | rfl | rfl <;> omega
    rw [EvaluationSort_con con [] 4 _ hn]
    exact EvaluationSort_power_table.2.2 x hx y hy o ho

/-- Witness of C33: the operator of `a**b`. -/
theorem C33_power_and_unary_minus_witness :
    findSymbol "a**b".toList 1 true false (List.range symbolTable.length) = some 6 :=
  (C33_power_and_unary_minus.1 "a**b".toList 1 false (by decide)).1 (by decide)

/-- The pass of the walker at a sign where an operand is expected and a unary sign is
allowed: the unary operator is recorded. -/
theorem CompileExpression_body_unary (exprs : List Char) (nvar : Nat) (var : List (List Char))
    (w : WState) (hop : w.opernext = false) (hu : w.unarynext = true) :
    (cget exprs w.istart = '-' →
      CompileExpression_body exprs nvar var w = .ok (w.accept 10 w.istart w.v)) ∧
    (cget exprs w.istart = '+' →
      CompileExpression_body exprs nvar var w = .ok (w.accept 11 w.istart w.v)) := by
  constructor
  · intro h0
    unfold CompileExpression_body
    rw [hop, hu, findSymbol_unary_minus exprs w.istart h0]
    simp only
    rw [ValidateSymbol_other exprs _ w.v (by decide) (by decide)]
    rfl
  · intro h0
    unfold CompileExpression_body
    rw [hop, hu, findSymbol_unary_plus exprs w.istart h0]
    simp only
    rw [ValidateSymbol_other exprs _ w.v (by decide) (by decide)]
    rfl

/-- The pass of the walker at a sign where an operand is expected and no unary sign is
allowed fails with `MIOPA`. -/
theorem CompileExpression_body_sign (exprs : List Char) (nvar : Nat) (var : List (List Char))
    (w : WState) (hop : w.opernext = false) (hu : w.unarynext = false)
    (h0 : cget exprs w.istart = '-' ∨ cget exprs w.istart = '+') :
    CompileExpression_body exprs nvar var w =
      .error ⟨ErrCode.MIOPA, cprefix (w.istart + 1) exprs⟩ := by
  have hf : findSymbol exprs w.istart w.opernext w.unarynext
      (List.range symbolTable.length) = none := by
    rw [hop, hu]
    exact findSymbol_sign_none exprs w.istart h0
  have hd : (cget exprs w.istart).isDigit = false ∧ cget exprs w.istart ≠ '.' ∧
      (cget exprs w.istart).isAlpha = false := by
    rcases h0 with h0 | h0 <;> rw [h0] <;> decide
  have hpc := @ParseConstant_of_not_start exprs w.istart hd.1 hd.2.1
  rw [CompileExpression_body_variable hop hf hpc (by omega),
    ParseVariable_of_not_alpha nvar var hd.2.2]
  simp

/-- After every pass of the walker's loop, `unarynext` is the `unarynext` entry of the
last symbol recorded; it is true before the first symbol. -/
theorem CompileExpression_loop_unarynext {exprs : List Char} {nvar : Nat}
    {var : List (List Char)} {fuel : Nat} {w : WState}
    (h : CompileExpression_loop exprs nvar var fuel WState.init = .ok w) :
    w.unarynext = (match w.symlist.getLast? with
      | none => true
      | some s => (symbol s).unarynext) := by
  refine CompileExpression_loop_induction
    (fun w => w.unarynext = (match w.symlist.getLast? with
      | none => true
      | some s => (symbol s).unarynext)) ?_ fuel WState.init w rfl h
  intro w w1 _ _ hb
  rcases CompileExpression_body_ok hb with ⟨sym, v, _, _, rfl⟩ | ⟨_, _, iend, c, _, _, rfl⟩ |
    ⟨_, _, iend0, c, ivar, iend, _, _, _, _, rfl⟩ <;>
  simp [WState.accept]

set_option synthInstance.maxSize 4000 in
/-- The symbols after which a unary sign is allowed: the opening parenthesis, the comma
and the function openers. -/
theorem symbol_unarynext : ∀ sym < 44,
    ((symbol sym).unarynext = true ↔ (sym = 3 ∨ sym = 9 ∨ (12 ≤ sym ∧ sym ≤ 42))) := by
  decide


/-- The entries of the symbol table that matter for a sign: which symbols are unary
signs, after which symbols a unary sign is allowed, and that an operand is expected after
every operator, opener and comma. -/
theorem symbol_sign_context (sym : Nat) :
    ((symbol sym).unaryoper = true ↔ (sym = 10 ∨ sym = 11)) ∧
    ((symbol sym).unarynext = true ↔ (sym = 3 ∨ sym = 9 ∨ (12 ≤ sym ∧ sym ≤ 42))) ∧
    ((sym = 3 ∨ sym = 9 ∨ (12 ≤ sym ∧ sym ≤ 42) ∨ (4 ≤ sym ∧ sym ≤ 8) ∨ sym = 10 ∨ sym = 11) →
      (symbol sym).operright = true) := by
  refine symbol_forall (fun sym s =>
    (s.unaryoper = true ↔ (sym = 10 ∨ sym = 11)) ∧
    (s.unarynext = true ↔ (sym = 3 ∨ sym = 9 ∨ (12 ≤ sym ∧ sym ≤ 42))) ∧
    ((sym = 3 ∨ sym = 9 ∨ (12 ≤ sym ∧ sym ≤ 42) ∨ (4 ≤ sym ∧ sym ≤ 8) ∨ sym = 10 ∨ sym = 11) →
      s.operright = true)) ?_ ?_ sym
  · set_option synthInstance.maxSize 4000 in decide
  · intro sym h
    refine ⟨?_, ?_, ?_⟩
    · constructor
      · intro h1; exact absurd h1 (by decide)
      · intro h1; omega
    · constructor
      · intro h1; exact absurd h1 (by decide)
      · intro h1; omega
    · intro h1; omega

/-- In every state that the walker reaches, each unary sign recorded in `symlist` is the
first symbol or directly follows a symbol after which a unary sign is allowed. -/
theorem CompileExpression_loop_unary_context {exprs : List Char} {nvar : Nat}
    {var : List (List Char)} {fuel : Nat} {w : WState}
    (h : CompileExpression_loop exprs nvar var fuel WState.init = .ok w) :
    ∀ pre s post, w.symlist = pre ++ s :: post → (s = 10 ∨ s = 11) →
      (pre = [] ∨ ∃ p, pre.getLast? = some p ∧ (symbol p).unarynext = true) := by
  have key : (w.unarynext = (match w.symlist.getLast? with
      | none => true
      | some s => (symbol s).unarynext)) ∧
      ∀ pre s post, w.symlist = pre ++ s :: post → (s = 10 ∨ s = 11) →
        (pre = [] ∨ ∃ p, pre.getLast? = some p ∧ (symbol p).unarynext = true) := by
    refine CompileExpression_loop_induction
      (fun w => (w.unarynext = (match w.symlist.getLast? with
        | none => true
        | some s => (symbol s).unarynext)) ∧
        ∀ pre s post, w.symlist = pre ++ s :: post → (s = 10 ∨ s = 11) →
          (pre = [] ∨ ∃ p, pre.getLast? = some p ∧ (symbol p).unarynext = true))
      ?_ fuel WState.init w ⟨rfl, ?_⟩ h
    · intro w w1 hP _ hb
      obtain ⟨hu, hctx⟩ := hP
      have hstep : ∀ (sym iend : Nat) (v : VState),
          ((sym = 10 ∨ sym = 11) → w.unarynext = true) →
          ∀ pre s post, (w.accept sym iend v).symlist = pre ++ s :: post → (s = 10 ∨ s = 11) →
            (pre = [] ∨ ∃ p, pre.getLast? = some p ∧ (symbol p).unarynext = true) := by
        intro sym iend v hsym pre s post hsplit hs
        have hsplit1 : w.symlist ++ [sym] = pre ++ s :: post := hsplit
        rcases List.eq_nil_or_concat post with hpost | ⟨post1, x, hpost⟩
        · subst hpost
          have h2 : w.symlist ++ [sym] = pre ++ [s] := hsplit1
          have h3 := List.append_inj' h2 rfl
          obtain ⟨h4, h5⟩ := h3
          have h6 : sym = s := by simpa using h5
          subst h6
          subst h4
          have hun := hsym hs
          rw [hu] at hun
          cases hl : w.symlist.getLast? with
          | none => left; simpa using hl
          | some p =>
            rw [hl] at hun
            exact Or.inr ⟨p, rfl, hun⟩
        · subst hpost
          have h2 : w.symlist ++ [sym] = (pre ++ s :: post1) ++ [x] := by
            rw [hsplit1]; simp
          have h3 := List.append_inj' h2 rfl
          exact hctx pre s post1 h3.1 hs
      rcases CompileExpression_body_ok hb with ⟨sym, v, hf, _, rfl⟩ | ⟨_, _, iend, c, _, _, rfl⟩ |
        ⟨_, _, iend0, c, ivar, iend, _, _, _, _, rfl⟩
      · refine ⟨by simp [WState.accept], hstep sym _ v ?_⟩
        intro hs
        exact (findSymbol_some hf).2.2.2.1 ((symbol_sign_context sym).1.2 hs)
      · refine ⟨by simp [WState.accept], hstep symbol_ldcon _ _ ?_⟩
        intro hs
        exact absurd hs (by decide)
      · refine ⟨by simp [WState.accept], hstep symbol_ldvar _ _ ?_⟩
        intro hs
        exact absurd hs (by decide)
    · intro pre s post hsplit _
      have : ([] : List Nat) = pre ++ s :: post := hsplit
      simp at this
  exact key.2


/-- C34: in every state that the walker reaches, a unary sign (symbol 10 is the unary
`-`, symbol 11 the unary `+`) recorded in `symlist` is the first symbol or directly
follows `(` (symbol 3), a comma (symbol 9) or a function opener (symbols 12 to 42).  At
a sign in such a position the walker records the unary operator.  At a sign directly
after a binary operator (symbols 4 to 8) or after a unary sign the compilation fails
with `MIOPA`, the message quoting the expression up to and including the sign.
Examples: `a*-b`, `a--b`, `--a` fail with `MIOPA`; `-a`, `a*(-b)`, `max(a,-b)`
compile. -/
theorem C34_unary_sign_positions :
    (∀ (exprs : List Char) (nvar : Nat) (var : List (List Char)) (k : Nat) (w : WState),
      CompileExpression_loop exprs nvar var k WState.init = .ok w →
      (∀ pre s post, w.symlist = pre ++ s :: post → (s = 10 ∨ s = 11) →
        (pre = [] ∨ ∃ p, pre.getLast? = some p ∧ (p = 3 ∨ p = 9 ∨ (12 ≤ p ∧ p ≤ 42)))) ∧
      ((w.symlist = [] ∨
          ∃ p, w.symlist.getLast? = some p ∧ (p = 3 ∨ p = 9 ∨ (12 ≤ p ∧ p ≤ 42))) →
        (cget exprs w.istart = '-' →
          CompileExpression_body exprs nvar var w = .ok (w.accept 10 w.istart w.v)) ∧
        (cget exprs w.istart = '+' →
          CompileExpression_body exprs nvar var w = .ok (w.accept 11 w.istart w.v))) ∧
      ((∃ p, w.symlist.getLast? = some p ∧ ((4 ≤ p ∧ p ≤ 8) ∨ p = 10 ∨ p = 11)) →
        (cget exprs w.istart = '-' ∨ cget exprs w.istart = '+') →
        CompileExpression exprs nvar var =
          .error ⟨ErrCode.MIOPA, cprefix (w.istart + 1) exprs⟩)) ∧
    ((symbol 10).text = "-" ∧ (symbol 10).unaryoper = true ∧
      (symbol 11).text = "+" ∧ (symbol 11).unaryoper = true ∧
      (symbol 3).text = "(" ∧ (symbol 9).text = "," ∧
      (symbol 4).text = "-" ∧ (symbol 5).text = "+" ∧ (symbol 6).text = "**" ∧
      (symbol 7).text = "*" ∧ (symbol 8).text = "/" ∧
      (∀ p, 12 ≤ p → p ≤ 42 → (symbol p).parincrement = 1 ∧
        (symbol p).text.toList.getLast? = some '(') ∧
      (∀ p, p ≤ 11 → (symbol p).unaryoper = true → (p = 10 ∨ p = 11))) ∧
    CompileExpression "a*-b".toList 2 ["a".toList, "b".toList] =
      .error ⟨ErrCode.MIOPA, "a*-".toList⟩ ∧
    CompileExpression "a--b".toList 2 ["a".toList, "b".toList] =
      .error ⟨ErrCode.MIOPA, "a--".toList⟩ ∧
    CompileExpression "--a".toList 1 ["a".toList] =
      .error ⟨ErrCode.MIOPA, "--".toList⟩ ∧
    CompileExpression "-a".toList 1 ["a".toList] = .ok ⟨[2, 2, 4], [0], 1⟩ ∧
    CompileExpression "a*(-b)".toList 2 ["a".toList, "b".toList] =
      .ok ⟨[4, 2, 2, 4, 30], [0, 1], 2⟩ ∧
    CompileExpression "max(a,-b)".toList 2 ["a".toList, "b".toList] =
      .ok ⟨[4, 2, 2, 4, 34], [0, 1, 2], 2⟩ := by
  refine ⟨?_, by decide, by decide!, by decide!, by decide!, by decide!, by decide!,
    by decide!⟩
  intro exprs nvar var k w hk
  have hop := CompileExpression_loop_opernext hk
  have hun := CompileExpression_loop_unarynext hk
  refine ⟨?_, ?_, ?_⟩
  · intro pre s post hsplit hs
    rcases CompileExpression_loop_unary_context hk pre s post hsplit hs with h | ⟨p, hp, hpu⟩
    · exact Or.inl h
    · exact Or.inr ⟨p, hp, (symbol_sign_context p).2.1.1 hpu⟩
  · intro hpos
    have hflags : w.opernext = false ∧ w.unarynext = true := by
      rcases hpos with h | ⟨p, hp, hpp⟩
      · rw [h] at hop hun
        exact ⟨hop, hun⟩
      · rw [hp] at hop hun
        have h1 := (symbol_sign_context p).2.2 (by omega)
        have h2 := (symbol_sign_context p).2.1.2 hpp
        simp only at hop hun
        rw [h1] at hop
        rw [h2] at hun
        exact ⟨hop, hun⟩
    exact CompileExpression_body_unary exprs nvar var w hflags.1 hflags.2
  · intro hpos h0
    obtain ⟨p, hp, hpp⟩ := hpos
    rw [hp] at hop hun
    simp only at hop hun
    have h1 := (symbol_sign_context p).2.2 (by omega)
    have h2 : (symbol p).unarynext = false := by
      cases hu : (symbol p).unarynext
      · rfl
      · have := (symbol_sign_context p).2.1.1 hu
        omega
    rw [h1] at hop
    rw [h2] at hun
    have hnz : cget exprs w.istart ≠ NUL := by
      rcases h0 with h0 | h0 <;> rw [h0] <;> decide
    exact CompileExpression_of_body_error hk hnz
      (CompileExpression_body_sign exprs nvar var w hop hun h0)

/-- Witness of C34: the second sign of `--a` is refused. -/
theorem C34_unary_sign_positions_witness :
    CompileExpression "--a".toList 1 ["a".toList] =
      .error ⟨ErrCode.MIOPA, cprefix (1 + 1) "--a".toList⟩ :=
  (C34_unary_sign_positions.1 "--a".toList 1 ["a".toList] 1
    (WState.init.accept 10 0 WState.init.v) (by decide!)).2.2
    ⟨10, by decide, by decide⟩ (by decide)

/-- An index found by the search loop of `ParseVariable` is a declared index whose name
has the length of the text and compares equal to it. -/
theorem ParseVariable_find_some {exprs : List Char} {istart nc nvar : Nat}
    {var : List (List Char)} : ∀ (fuel ivar i : Nat),
    ParseVariable_find exprs istart nc nvar var fuel ivar = some i →
    ivar ≤ i ∧ i < nvar ∧
    (decide (nc = strlen (var.getD i [])) && strncmp0 exprs istart (var.getD i []) 0 nc) = true ∧
    (∀ j, ivar ≤ j → j < i →
      ¬ (decide (nc = strlen (var.getD j [])) &&
          strncmp0 exprs istart (var.getD j []) 0 nc) = true) := by
  intro fuel
  induction fuel with
  | zero =>
    intro ivar i h
    simp [ParseVariable_find] at h
  | succ n ih =>
    intro ivar i h
    unfold ParseVariable_find at h
    split at h
    · rename_i hlt
      split at h
      · rename_i hm
        injection h with h
        subst h
        exact ⟨Nat.le_refl _, hlt, hm, fun j h1 h2 => by omega⟩
      · rename_i hm
        obtain ⟨h1, h2, h3, h4⟩ := ih (ivar + 1) i h
        refine ⟨by omega, h2, h3, ?_⟩
        intro j hj1 hj2
        rcases Nat.eq_or_lt_of_le hj1 with he | hl
        · subst he
          exact hm
        · exact h4 j (by omega) hj2
    · cases h

/-- C38: where a letter starts at `istart`, `ParseVariable` takes the identifier that
ends at the last character of the longest run of letters, digits and underscores after
the letter.  It returns the index `i` and that end exactly when the declared name `i`
equals the whole identifier and no earlier declared name does, and it fails with `UDVOF`
when no declared name equals the identifier; whatever it returns, the declared name
equals the whole identifier, so a declared name that is only a beginning of the
identifier, or of which the identifier is only a beginning, is no match.  With the
declared names `x`, `xy` the text `xy` gives index 1 and the text `xz` fails with
`UDVOF`. -/
theorem C38_longest_name_exact_match :
    (∀ (exprs : List Char) (istart nvar : Nat) (var : List (List Char)) (iend : Nat)
        (name : List Char),
      (cget exprs istart).isAlpha = true →
      iend = ParseName_loop exprs (exprs.length + 1) istart →
      name = (exprs.drop istart).take (iend - istart + 1) →
      (istart ≤ iend ∧ name.length = iend - istart + 1 ∧
        (∀ j, istart < j → j ≤ iend →
          (cget exprs j).isAlphanum = true ∨ cget exprs j = '_') ∧
        ¬ (cget exprs (iend + 1) ≠ NUL ∧
          ((cget exprs (iend + 1)).isAlphanum = true ∨ cget exprs (iend + 1) = '_'))) ∧
      (∀ i, i < nvar → cstr (var.getD i []) = name →
        (∀ j, j < i → cstr (var.getD j []) ≠ name) →
        ParseVariable exprs istart nvar var = .ok ((i : Int), (iend : Int))) ∧
      ((∀ i, i < nvar → cstr (var.getD i []) ≠ name) →
        ParseVariable exprs istart nvar var =
          .error ⟨ErrCode.UDVOF, cprefix (iend + 1) exprs⟩) ∧
      (∀ (ivar e : Int), ParseVariable exprs istart nvar var = .ok (ivar, e) →
        e = (iend : Int) ∧ ∃ i : Nat, ivar = (i : Int) ∧ i < nvar ∧
          cstr (var.getD i []) = name ∧ ∀ j, j < i → cstr (var.getD j []) ≠ name)) ∧
    ParseVariable "xy".toList 0 2 ["x".toList, "xy".toList] = .ok (1, 1) ∧
    ParseVariable "xz".toList 0 2 ["x".toList, "xy".toList] =
      .error ⟨ErrCode.UDVOF, "xz".toList⟩ ∧
    ParseVariable "x+y".toList 0 2 ["xy".toList, "x".toList] = .ok (1, 0) ∧
    CompileExpression "xy".toList 2 ["x".toList, "xy".toList] = .ok ⟨[1, 2], [1], 1⟩ ∧
    CompileExpression "xz".toList 2 ["x".toList, "xy".toList] =
      .error ⟨ErrCode.UDVOF, "xz".toList⟩ := by
  refine ⟨?_, by decide, by decide, by decide, by decide!, by decide!⟩
  intro exprs istart nvar var iend name halpha hiend hname
  obtain ⟨hle, hin, hmax⟩ := ParseName_loop_spec exprs (exprs.length + 1) istart
  rw [← hiend] at hle hin hmax
  have hnul : ∀ j, j < iend - istart + 1 → cget exprs (istart + j) ≠ NUL := by
    intro j hj
    cases j with
    | zero =>
      intro h0
      rw [Nat.add_zero] at h0
      rw [h0] at halpha
      exact absurd halpha (by decide)
    | succ j => exact (hin (istart + (j + 1)) (by omega) (by omega)).1
  have hmatch : ∀ i, (decide (iend - istart + 1 = strlen (var.getD i [])) &&
      strncmp0 exprs istart (var.getD i []) 0 (iend - istart + 1)) = true ↔
      cstr (var.getD i []) = name := by
    intro i
    rw [hname]
    exact name_match_iff exprs (var.getD i []) istart (iend - istart + 1) hnul
  have hpv := @ParseVariable_of_alpha exprs istart nvar var halpha
  rw [← hiend] at hpv
  refine ⟨⟨hle, ?_, fun j h1 h2 => (hin j h1 h2).2, hmax (by omega)⟩, ?_, ?_, ?_⟩
  · rw [hname]
    exact length_take_drop exprs istart _ hnul
  · intro i hi heq hno
    have hfind := @ParseVariable_find_first exprs istart (iend - istart + 1) nvar var
      nvar 0 i (Nat.zero_le _) hi (by omega) ((hmatch i).2 heq)
      (fun j _ hj hm => hno j hj ((hmatch j).1 hm))
    rw [hfind] at hpv
    exact hpv
  · intro hno
    have hfind := @ParseVariable_find_none exprs istart (iend - istart + 1) nvar var
      nvar 0 (fun j _ hj hm => hno j hj ((hmatch j).1 hm))
    rw [hfind] at hpv
    exact hpv
  · intro ivar e hok
    rw [hpv] at hok
    split at hok
    · rename_i i hf
      injection hok with hok
      injection hok with h1 h2
      obtain ⟨_, h3, h4, h5⟩ := ParseVariable_find_some nvar 0 i hf
      exact ⟨h2.symm, i, h1.symm, h3, (hmatch i).1 h4,
        fun j hj hm => h5 j (Nat.zero_le _) hj ((hmatch j).2 hm)⟩
    · cases hok

/-- Witness of C38: the identifier of `xy+1` against the declared names `x`, `xy`. -/
theorem C38_longest_name_exact_match_witness :
    ParseVariable "xy+1".toList 0 2 ["x".toList, "xy".toList] =
      .ok (((1 : Nat) : Int), ((1 : Nat) : Int)) :=
  (C38_longest_name_exact_match.1 "xy+1".toList 0 2 ["x".toList, "xy".toList] 1 "xy".toList
    (by decide) (by decide) (by decide)).2.1 1 (by decide) (by decide)
    (by intro j hj; interval_cases j; decide)

/-- C36: for every accepted expression, on input vectors that cover the declared
variables, the run of `VirtualMachine` over all `code[ 0 ]` opcodes is defined and ends
with `tos = 0`: one vector is on the stack, it is in slot 0, it has `npoint` elements,
and it is what `VirtualMachine` leaves in the output array. -/
theorem C36_result_in_slot_zero (L : MathLib) {exprs : List Char} {nvar : Nat}
    {var : List (List Char)} {c : Compiled}
    (hc : CompileExpression exprs nvar var = .ok c) (npoint : Nat) (ptr_in : List (List Rat))
    (hin : InputsOK npoint nvar ptr_in) :
    ∃ (st : VMState) (out : List Rat),
      (c.code.getD 0 0).toNat + 1 = c.code.length ∧
      VirtualMachine_exec L npoint ptr_in c.code c.con c.stacksize (c.code.getD 0 0).toNat =
        some st ∧
      st.tos = 0 ∧ st.slot 0 = some out ∧ out.length = npoint ∧
      VirtualMachine L npoint nvar ptr_in c.code c.con c.stacksize = some out := by
  obtain ⟨w, toks, ops, tr, _, _, _, _, hcode, htr, hlast, hb, _⟩ :=
    CompileExpression_ok_trace hc
  have hlen := depthTrace_length _ _ _ _ _ htr
  obtain ⟨st, h1, ⟨ht, _, hg, _⟩, h3⟩ :=
    VirtualMachine_exec_sim (L := L) (ops.length : Int) hin htr hb ops.length (Nat.le_refl _)
  rw [lastD_take_all (by omega), hlast] at ht
  have ht0 : st.tos = 0 := ht
  obtain ⟨out, hout, holen⟩ := hg.2.2 0 (by rw [ht0]; exact Int.le_refl _)
  have hn : (c.code.getD 0 0).toNat = ops.length := by
    rw [hcode]
    simp
  have hpos : 0 < st.stack.length := by
    have := hg.2.1
    omega
  refine ⟨st, out, ?_, ?_, ht0, ?_, holen, ?_⟩
  · rw [hn, hcode]
    simp
  · rw [hn]
    rw [hcode]
    exact h1
  · unfold VMState.slot
    rw [if_pos ⟨Int.le_refl _, by omega⟩]
    exact hout
  · unfold VirtualMachine
    rw [hn]
    rw [hcode, h1]
    exact hout

/-- Witness of C36: the expression `a+b` on two points. -/
theorem C36_result_in_slot_zero_witness :
    CompileExpression "a+b".toList 2 ["a".toList, "b".toList] =
      .ok ⟨[3, 2, 2, 28], [0, 1], 2⟩ ∧
    InputsOK 2 2 [[1, 2], [3, 4]] ∧
    ∃ (st : VMState) (out : List Rat),
      (([3, 2, 2, 28] : List Int).getD 0 0).toNat + 1 = ([3, 2, 2, 28] : List Int).length ∧
      VirtualMachine_exec MathLib.sample 2 [[1, 2], [3, 4]] [3, 2, 2, 28] [0, 1] 2
        (([3, 2, 2, 28] : List Int).getD 0 0).toNat = some st ∧
      st.tos = 0 ∧ st.slot 0 = some out ∧ out.length = 2 ∧
      VirtualMachine MathLib.sample 2 2 [[1, 2], [3, 4]] [3, 2, 2, 28] [0, 1] 2 = some out :=
  have hc : CompileExpression "a+b".toList 2 ["a".toList, "b".toList] =
      .ok ⟨[3, 2, 2, 28], [0, 1], 2⟩ := by decide!
  have hin : InputsOK 2 2 [[1, 2], [3, 4]] := by
    refine ⟨by decide, ?_⟩
    decide
  ⟨hc, hin, C36_result_in_slot_zero MathLib.sample hc 2 [[1, 2], [3, 4]] hin⟩

/-- What one opcode does to the constant counter and to the constants read. -/
theorem depthStep_read {con : List Rat} {nvar : Nat} {d d1 : DState} {op : Int}
    (h : depthStep con nvar d op = some d1) :
    (∀ o, Oper.ofInt op = some o → o.readsCon = true →
      ∃ x, con.get? d.icon = some x ∧ d1.reads = d.reads ++ [(o, x)] ∧
        d1.icon = d.icon + 1) ∧
    ((∀ o, Oper.ofInt op = some o → o.readsCon = false) →
      d1.reads = d.reads ∧ d1.icon = d.icon) := by
  unfold depthStep at h
  cases ho : Oper.ofInt op with
  | none =>
    rw [ho] at h
    injection h with h
    subst h
    exact ⟨fun o h1 => (by cases h1), fun _ => ⟨rfl, rfl⟩⟩
  | some o =>
    rw [ho] at h
    constructor
    · intro o1 h1 hr
      injection h1 with h1
      subst h1
      cases o <;> first
        | (exact absurd hr (by decide))
        | (simp only at h
           split at h
           · cases h
           · rename_i x hx
             first
               | (injection h with h
                  subst h
                  exact ⟨x, hx, rfl, rfl⟩)
               | (split at h
                  · injection h with h
                    subst h
                    exact ⟨x, hx, rfl, rfl⟩
                  · cases h))
    · intro hall
      have hr := hall o rfl
      cases o <;> first
        | (exact absurd hr (by decide))
        | (simp only [Oper.isArg1, Oper.isArg2] at h
           repeat' split at h
           all_goals first
             | (cases h; done)
             | (cases h; exact ⟨rfl, rfl⟩))


theorem depthStep_icon {con : List Rat} {nvar : Nat} {d d1 : DState} {op : Int}
    (h : depthStep con nvar d op = some d1) (hd : d.icon = d.reads.length) :
    d1.icon = d1.reads.length := by
  obtain ⟨h1, h2⟩ := depthStep_read h
  cases ho : Oper.ofInt op with
  | none =>
    obtain ⟨h3, h4⟩ := h2 (fun o h0 => by rw [ho] at h0; cases h0)
    rw [h3, h4, hd]
  | some o =>
    cases hr : o.readsCon with
    | true =>
      obtain ⟨x, _, h3, h4⟩ := h1 o ho hr
      rw [h3, h4, hd]
      simp
    | false =>
      obtain ⟨h3, h4⟩ := h2 (fun o1 h0 => by
        rw [ho] at h0
        injection h0 with h0
        subst h0
        exact hr)
      rw [h3, h4, hd]

/-- In a depth trace that starts with as many constants read as counted, every state
counts the constants it has read, and what it has read begins what the last state has
read. -/
theorem depthTrace_reads_take {con : List Rat} {nvar : Nat} :
    ∀ (code : List Int) (d : DState) (tr : List DState),
      depthTrace con nvar code d = some tr → d.icon = d.reads.length →
      ∀ n, (lastD (tr.take n) d).icon = (lastD (tr.take n) d).reads.length ∧
        ∃ l, (lastD tr d).reads = (lastD (tr.take n) d).reads ++ l := by
  intro code
  induction code with
  | nil =>
    intro d tr h hd n
    simp only [depthTrace] at h
    injection h with h
    subst h
    exact ⟨by simpa [lastD] using hd, [], by simp [lastD]⟩
  | cons op rest ih =>
    intro d tr h hd n
    have hall := depthTrace_reads_last (op :: rest) d tr h
    simp only [depthTrace] at h
    split at h
    · cases h
    · rename_i d1 hd1
      split at h
      · cases h
      · rename_i tr1 htr1
        injection h with h
        subst h
        cases n with
        | zero =>
          have h0 : lastD (List.take 0 (d1 :: tr1)) d = d := by simp [lastD]
          rw [h0]
          exact ⟨hd, hall⟩
        | succ m =>
          rw [List.take_succ_cons, lastD_cons, lastD_cons]
          exact ih d1 tr1 htr1 (depthStep_icon hd1 hd) m

/-- The constants read by the machine while it executes the first `n` opcodes are those
read by the first `n` steps of the depth trace. -/
theorem VirtualMachine_reads_trace {L : MathLib} {npoint nvar : Nat}
    {ptr_in : List (List Rat)} {con : List Rat} {stacksize : Int} {ops : List Int}
    {tr : List DState} (c0 : Int) (hin : InputsOK npoint nvar ptr_in)
    (htr : depthTrace con nvar ops DState.init = some tr)
    (hb : ∀ d ∈ tr, 0 ≤ d.tos ∧ d.tos + 1 ≤ stacksize) :
    ∀ n, n ≤ ops.length →
      VirtualMachine_reads L npoint ptr_in (c0 :: ops) con stacksize n =
        (lastD (tr.take n) DState.init).reads := by
  intro n
  induction n with
  | zero =>
    intro _
    simp [VirtualMachine_reads, lastD, DState.init]
  | succ n ih =>
    intro hn
    have hlt : n < ops.length := by omega
    obtain ⟨st, hst, ⟨_, hi, _, _⟩, _⟩ :=
      VirtualMachine_exec_sim (L := L) c0 hin htr hb n (by omega)
    have hop : ops.get? n = some (ops.get ⟨n, hlt⟩) := by
      rw [List.get?_eq_getElem?]
      exact List.getElem?_eq_getElem hlt
    obtain ⟨dn, hdn, hstep⟩ := depthTrace_get con nvar ops _ tr htr n _ hop
    obtain ⟨h1, h2⟩ := depthStep_read hstep
    rw [lastD_take_succ _ hdn]
    unfold VirtualMachine_reads
    rw [ih (by omega), hst, List.get?_cons_succ, hop]
    simp only
    cases ho : Oper.ofInt (ops.get ⟨n, hlt⟩) with
    | none =>
      obtain ⟨h3, _⟩ := h2 (fun o h0 => by rw [ho] at h0; cases h0)
      rw [h3]
      simp
    | some o =>
      simp only
      cases hr : o.readsCon with
      | true =>
        obtain ⟨x, hx, h3, _⟩ := h1 o ho hr
        rw [hi, hx, h3]
        simp
      | false =>
        obtain ⟨h3, _⟩ := h2 (fun o1 h0 => by
          rw [ho] at h0
          injection h0 with h0
          subst h0
          exact hr)
        rw [h3]
        simp

theorem take_of_append_length {α : Type} (a l b : List α) (n : Nat) (h : b = a ++ l)
    (hn : n = a.length) : a = b.take n := by
  subst h
  subst hn
  simp

/-- How the machine reads the constants of an accepted expression: before each opcode the
constants read so far are the first `icon` constants stored by the walker, each read by
the opcode for which it was stored; an opcode that reads finds its constant inside the
pool, and after the last opcode all constants have been read. -/
theorem CompileExpression_reads (L : MathLib) {exprs : List Char} {nvar : Nat}
    {var : List (List Char)} {c : Compiled} (hc : CompileExpression exprs nvar var = .ok c)
    {npoint : Nat} {ptr_in : List (List Rat)} (hin : InputsOK npoint nvar ptr_in) :
    ∃ (w : WState) (toks : List Token) (ops : List Int),
      CompileExpression_loop exprs nvar var (exprs.length + 1) WState.init = .ok w ∧
      Run nvar ⟨false, []⟩ toks ⟨true, []⟩ ∧
      w.symlist = toks.map Prod.fst ∧
      c.con = (Token.consts toks).map Prod.snd ∧
      c.code = (ops.length : Int) :: ops ∧
      (∀ n, n ≤ ops.length →
        ∃ st, VirtualMachine_exec L npoint ptr_in c.code c.con c.stacksize n = some st ∧
          st.icon ≤ c.con.length ∧
          VirtualMachine_reads L npoint ptr_in c.code c.con c.stacksize n =
            (Token.consts toks).take st.icon) ∧
      (∃ st, VirtualMachine_exec L npoint ptr_in c.code c.con c.stacksize ops.length =
          some st ∧ st.icon = c.con.length) ∧
      (∀ n op, ops.get? n = some op →
        ∃ st st1, VirtualMachine_exec L npoint ptr_in c.code c.con c.stacksize n = some st ∧
          VirtualMachine_exec L npoint ptr_in c.code c.con c.stacksize (n + 1) = some st1 ∧
          (∀ o, Oper.ofInt op = some o → o.readsCon = true →
            st1.icon = st.icon + 1 ∧
            ∃ x, c.con.get? st.icon = some x ∧
              (Token.consts toks).get? st.icon = some (o, x)) ∧
          ((∀ o, Oper.ofInt op = some o → o.readsCon = false) → st1.icon = st.icon)) := by
  obtain ⟨w, toks, ops, tr, hloop, hrun, hsym, hcon, hcode, htr, hlast, hb, _⟩ :=
    CompileExpression_ok_trace hc
  have hlen := depthTrace_length _ _ _ _ _ htr
  have hclen : c.con.length = (Token.consts toks).length := by
    rw [hcon, List.length_map]
  have hpre : ∀ n, (lastD (tr.take n) DState.init).reads =
      (Token.consts toks).take (lastD (tr.take n) DState.init).icon ∧
      (lastD (tr.take n) DState.init).icon ≤ (Token.consts toks).length := by
    intro n
    obtain ⟨h1, l, h2⟩ := depthTrace_reads_take ops _ tr htr rfl n
    rw [hlast] at h2
    have h3 : Token.consts toks = (lastD (tr.take n) DState.init).reads ++ l := h2
    refine ⟨take_of_append_length _ l _ _ h3 h1, ?_⟩
    rw [h1]
    have := congrArg List.length h3
    rw [List.length_append] at this
    omega
  refine ⟨w, toks, ops, hloop, hrun, hsym, hcon, hcode, ?_, ?_, ?_⟩
  · intro n hn
    obtain ⟨st, hst, ⟨_, hi, _, _⟩, _⟩ :=
      VirtualMachine_exec_sim (L := L) (ops.length : Int) hin htr hb n hn
    rw [hcode]
    refine ⟨st, hst, ?_, ?_⟩
    · rw [hi, hclen]
      exact (hpre n).2
    · rw [VirtualMachine_reads_trace (L := L) (ops.length : Int) hin htr hb n hn, hi]
      exact (hpre n).1
  · obtain ⟨st, hst, ⟨_, hi, _, _⟩, _⟩ :=
      VirtualMachine_exec_sim (L := L) (ops.length : Int) hin htr hb ops.length
        (Nat.le_refl _)
    rw [hcode]
    refine ⟨st, hst, ?_⟩
    rw [hi, lastD_take_all (by omega), hlast, hclen]
  · intro n op hop
    have hn : n < ops.length := by
      rw [List.get?_eq_getElem?] at hop
      exact (List.getElem?_eq_some_iff.1 hop).1
    obtain ⟨st, hst, ⟨_, hi, _, _⟩, _⟩ :=
      VirtualMachine_exec_sim (L := L) (ops.length : Int) hin htr hb n (by omega)
    obtain ⟨st1, hst1, ⟨_, hi1, _, _⟩, _⟩ :=
      VirtualMachine_exec_sim (L := L) (ops.length : Int) hin htr hb (n + 1) (by omega)
    obtain ⟨dn, hdn, hstep⟩ := depthTrace_get c.con nvar ops _ tr htr n _ hop
    rw [lastD_take_succ _ hdn] at hi1
    obtain ⟨h1, h2⟩ := depthStep_read hstep
    rw [hcode]
    refine ⟨st, st1, hst, hst1, ?_, ?_⟩
    · intro o ho hr
      obtain ⟨x, hx, h3, h4⟩ := h1 o ho hr
      refine ⟨by rw [hi1, h4, hi], x, by rw [hi]; exact hx, ?_⟩
      have h5 := (hpre (n + 1)).1
      rw [lastD_take_succ _ hdn, h3, h4] at h5
      have h6 := (depthTrace_reads_take ops _ tr htr rfl n).1
      rw [hi]
      have h7 : ((lastD (tr.take n) DState.init).reads ++ [(o, x)]).get?
          (lastD (tr.take n) DState.init).icon = some (o, x) := by
        rw [h6]
        simp
      rw [h5] at h7
      rw [List.get?_eq_getElem?] at h7 ⊢
      rw [List.getElem?_take] at h7
      split at h7
      · exact h7
      · cases h7
    · intro hall
      rw [hi1, (h2 hall).2, hi]

/-- The functions with a variable number of arguments are `min` and `max`. -/
theorem symbol_variadic_opcode (sym : Nat) : (symbol sym).nargs < 0 →
    ((symbol sym).opcode = OP_MAX ∨ (symbol sym).opcode = OP_MIN) := by
  refine symbol_forall (fun _ s => s.nargs < 0 → (s.opcode = OP_MAX ∨ s.opcode = OP_MIN))
    ?_ ?_ sym
  · decide
  · intro _ _ h
    exact absurd h (by decide)

/-- The variable indices stored for a stream of symbols are whole numbers below
`nvar`. -/
theorem Run.consts_ldvar {nvar : Nat} {q q1 : AState} {toks : List Token}
    (h : Run nvar q toks q1) :
    ∀ (x : Rat), (OP_LDVAR, x) ∈ Token.consts toks → ∃ i : Nat, i < nvar ∧ x = (i : Rat) := by
  induction h with
  | nil _ =>
    intro x hm
    simp [Token.consts] at hm
  | @cons q q1 q2 t ts hs _ ih =>
    intro x hm
    rw [Token.consts_cons] at hm
    rcases List.mem_append.1 hm with hm | hm
    · cases hs with
      | ldcon _ c _ =>
        simp only [List.mem_singleton, Prod.mk.injEq] at hm
        exact absurd hm.1 (by decide)
      | ldvar _ i _ hi =>
        simp only [List.mem_singleton, Prod.mk.injEq] at hm
        exact ⟨i, hi, hm.2⟩
      | ldbad _ _ => cases hm
      | unary _ sym _ _ => cases hm
      | binary _ sym _ _ => cases hm
      | comma o1 a rest ha => cases hm
      | opener _ sym _ hp => cases hm
      | closer o1 a rest h1 h2 =>
        simp only at hm
        split at hm
        · rename_i hneg
          simp only [List.mem_singleton, Prod.mk.injEq] at hm
          rcases symbol_variadic_opcode o1 hneg with h3 | h3 <;>
          · rw [h3] at hm
            exact absurd hm.1 (by decide)
        · cases hm
    · exact ih x hm

theorem callCounts_plain (s : Nat) (rest : List Nat) (lev : List (Nat × Int))
    (hp : ¬ (symbol s).parincrement > 0) (h9 : s ≠ 9) (h2 : s ≠ 2) :
    callCounts (s :: rest) lev = callCounts rest lev := by
  simp [callCounts, hp, h9, h2]

theorem callCounts_opener (s : Nat) (rest : List Nat) (lev : List (Nat × Int))
    (hp : (symbol s).parincrement > 0) :
    callCounts (s :: rest) lev = callCounts rest ((s, 1) :: lev) := by
  simp [callCounts, hp]

theorem callCounts_comma (rest : List Nat) (o : Nat) (a : Int) (lev : List (Nat × Int)) :
    callCounts (9 :: rest) ((o, a) :: lev) = callCounts rest ((o, a + 1) :: lev) := by
  have hp : ¬ (symbol 9).parincrement > 0 := by decide
  simp [callCounts, hp]

theorem callCounts_closer (rest : List Nat) (o : Nat) (a : Int) (lev : List (Nat × Int)) :
    callCounts (2 :: rest) ((o, a) :: lev) =
      (if (symbol o).nargs < 0 then [((symbol o).opcode, (a : Rat))] else []) ++
        callCounts rest lev := by
  have hp : ¬ (symbol 2).parincrement > 0 := by decide
  simp [callCounts, hp]

/-- The counts stored for the calls of `min` and `max` in a stream of symbols accepted by
the walker are, call by call in the order of their closing parentheses, one more than
the number of commas directly inside the call. -/
theorem Run.consts_callCounts {nvar : Nat} {q q1 : AState} {toks : List Token}
    (h : Run nvar q toks q1) :
    ∀ lev : List (Nat × Int),
      List.Forall₂ (fun l l1 : Nat × Int => l.1 = l1.1 ∧ ((symbol l.1).nargs ≠ 0 → l.2 = l1.2))
        q.levels lev →
      (Token.consts toks).filter (fun x => x.1 == OP_MAX || x.1 == OP_MIN) =
        callCounts (toks.map Prod.fst) lev := by
  induction h with
  | nil _ =>
    intro lev _
    simp [Token.consts, callCounts]
  | @cons q q1 q2 t ts hs _ ih =>
    intro lev hrel
    rw [Token.consts_cons, List.filter_append, List.map_cons]
    cases hs with
    | ldcon _ c _ =>
      rw [ih lev hrel]
      show _ = callCounts (symbol_ldcon :: _) _
      rw [callCounts_plain symbol_ldcon _ _ (by decide) (by decide) (by decide)]
      rfl
    | ldvar _ i _ hi =>
      rw [ih lev hrel]
      show _ = callCounts (symbol_ldvar :: _) _
      rw [callCounts_plain symbol_ldvar _ _ (by decide) (by decide) (by decide)]
      rfl
    | ldbad _ _ =>
      rw [ih lev hrel, callCounts_plain _ _ _ (by decide) (by decide) (by decide)]
      rfl
    | unary _ sym _ hsym =>
      rw [ih lev hrel]
      rcases hsym with rfl | rfl <;>
      · rw [callCounts_plain _ _ _ (by decide) (by decide) (by decide)]
        rfl
    | binary _ sym _ hsym =>
      rw [ih lev hrel]
      obtain ⟨h4, h8⟩ := hsym
      interval_cases sym <;>
      · rw [callCounts_plain _ _ _ (by decide) (by decide) (by decide)]
        rfl
    | comma o1 a rest ha =>
      cases hrel with
      | cons hhead htail =>
        rename_i l1 lev1
        obtain ⟨o2, a2⟩ := l1
        obtain ⟨ho, hcount⟩ := hhead
        simp only at ho hcount
        subst ho
        rw [ih ((o1, a2 + 1) :: lev1)
          (List.Forall₂.cons ⟨rfl, fun hn => by simp only; rw [hcount hn]⟩ htail)]
        show [] ++ _ = callCounts (9 :: _) _
        rw [callCounts_comma]
        rfl
    | opener _ sym _ hp =>
      rw [ih ((sym, 1) :: lev)
        (List.Forall₂.cons ⟨rfl, fun hn => by simp only; rw [if_pos hn]⟩ hrel)]
      show [] ++ _ = callCounts (sym :: _) _
      rw [callCounts_opener _ _ _ hp]
      rfl
    | closer o1 a rest h1 h2 =>
      cases hrel with
      | cons hhead htail =>
        rename_i l1 lev1
        obtain ⟨o2, a2⟩ := l1
        obtain ⟨ho, hcount⟩ := hhead
        simp only at ho hcount
        subst ho
        rw [ih lev1 htail]
        show _ = callCounts (2 :: _) _
        rw [callCounts_closer]
        by_cases hneg : (symbol o1).nargs < 0
        · rw [if_pos hneg, if_pos hneg, ← hcount (by omega)]
          rcases symbol_variadic_opcode o1 hneg with h3 | h3 <;>
          · rw [h3]
            rfl
        · rw [if_neg hneg, if_neg hneg]
          rfl

/-- C35: for every accepted expression, on input vectors that cover the declared
variables, the constants read by `VirtualMachine` over the whole program, each with the
opcode that reads it, are exactly the constants that the walker stored, in the order
stored, each with the opcode it was stored for (a literal for `LDCON`, a variable index
for `LDVAR`, the argument count of a call of `min` or `max` for that function's opcode at
the closing parenthesis of the call).  Before every opcode the constants read are the
first `icon` constants of the pool and `icon` is not beyond its end; an opcode that reads
a constant reads one that is inside the pool and advances `icon` by one, any other
opcode leaves `icon`; after the last opcode `icon` is the size of the pool.  The counts
read by `MIN` and `MAX`, in the order executed, are those of the calls in the order in
which they are closed, each one more than the number of commas directly inside the
call.  What the walker stores for a literal is the value returned by `ParseConstant`,
for a variable the index returned by `ParseVariable`.  Examples: `max(a,min(b,c),d)`,
`max(a,max(b,c,d))`, `2*a+3`. -/
theorem C35_constants_read_in_order :
    (∀ (L : MathLib) (exprs : List Char) (nvar : Nat) (var : List (List Char)) (c : Compiled)
        (npoint : Nat) (ptr_in : List (List Rat)),
      CompileExpression exprs nvar var = .ok c → InputsOK npoint nvar ptr_in →
      ∃ (w : WState) (toks : List Token) (ops : List Int),
        CompileExpression_loop exprs nvar var (exprs.length + 1) WState.init = .ok w ∧
        Run nvar ⟨false, []⟩ toks ⟨true, []⟩ ∧
        w.symlist = toks.map Prod.fst ∧
        c.con = (Token.consts toks).map Prod.snd ∧
        c.code = (ops.length : Int) :: ops ∧
        VirtualMachine_reads L npoint ptr_in c.code c.con c.stacksize ops.length =
          Token.consts toks ∧
        (VirtualMachine_reads L npoint ptr_in c.code c.con c.stacksize ops.length).map
          Prod.snd = c.con ∧
        (∀ n, n ≤ ops.length →
          ∃ st, VirtualMachine_exec L npoint ptr_in c.code c.con c.stacksize n = some st ∧
            st.icon ≤ c.con.length ∧
            VirtualMachine_reads L npoint ptr_in c.code c.con c.stacksize n =
              (Token.consts toks).take st.icon) ∧
        (∃ st, VirtualMachine_exec L npoint ptr_in c.code c.con c.stacksize ops.length =
            some st ∧ st.icon = c.con.length) ∧
        (∀ n op, ops.get? n = some op →
          ∃ st st1, VirtualMachine_exec L npoint ptr_in c.code c.con c.stacksize n = some st ∧
            VirtualMachine_exec L npoint ptr_in c.code c.con c.stacksize (n + 1) = some st1 ∧
            (∀ o, Oper.ofInt op = some o → o.readsCon = true →
              st1.icon = st.icon + 1 ∧
              ∃ x, c.con.get? st.icon = some x ∧
                (Token.consts toks).get? st.icon = some (o, x)) ∧
            ((∀ o, Oper.ofInt op = some o → o.readsCon = false) → st1.icon = st.icon)) ∧
        (VirtualMachine_reads L npoint ptr_in c.code c.con c.stacksize ops.length).filter
          (fun x => x.1 == OP_MAX || x.1 == OP_MIN) = callCounts w.symlist []) ∧
    (∀ (exprs : List Char) (nvar : Nat) (var : List (List Char)) (w w1 : WState),
      CompileExpression_body exprs nvar var w = .ok w1 →
      (∃ sym v, findSymbol exprs w.istart w.opernext w.unarynext
            (List.range symbolTable.length) = some sym ∧
          ValidateSymbol exprs (w.istart + (symbol sym).size - 1) sym w.v = .ok v ∧
          w1.symlist = w.symlist ++ [sym] ∧ w1.v = v) ∨
      (∃ iend c, ParseConstant exprs w.istart = .ok (iend, c) ∧
          w1.symlist = w.symlist ++ [symbol_ldcon] ∧ w1.v.con = w.v.con ++ [c]) ∨
      (∃ ivar iend, ParseVariable exprs w.istart nvar var = .ok (ivar, iend) ∧
          w1.symlist = w.symlist ++ [symbol_ldvar] ∧
          w1.v.con = w.v.con ++ [((ivar : Int) : Rat)])) ∧
    ((symbol symbol_ldcon).opcode = OP_LDCON ∧ (symbol symbol_ldvar).opcode = OP_LDVAR ∧
      (symbol 36).text = "min(" ∧ (symbol 36).opcode = OP_MIN ∧
      (symbol 37).text = "max(" ∧ (symbol 37).opcode = OP_MAX) ∧
    (CompileExpression "max(a,min(b,c),d)".toList 4
        ["a".toList, "b".toList, "c".toList, "d".toList] =
        .ok ⟨[6, 2, 2, 2, 33, 2, 34], [0, 1, 2, 2, 3, 3], 3⟩ ∧
      VirtualMachine_reads MathLib.sample 1 [[1], [5], [7], [3]] [6, 2, 2, 2, 33, 2, 34]
        [0, 1, 2, 2, 3, 3] 3 6 =
        [(OP_LDVAR, 0), (OP_LDVAR, 1), (OP_LDVAR, 2), (OP_MIN, 2), (OP_LDVAR, 3),
          (OP_MAX, 3)] ∧
      callCounts [37, 0, 9, 36, 0, 9, 0, 2, 9, 0, 2] [] = [(OP_MIN, 2), (OP_MAX, 3)] ∧
      VirtualMachine MathLib.sample 1 4 [[1], [5], [7], [3]] [6, 2, 2, 2, 33, 2, 34]
        [0, 1, 2, 2, 3, 3] 3 = some [5]) ∧
    (CompileExpression "max(a,max(b,c,d))".toList 4
        ["a".toList, "b".toList, "c".toList, "d".toList] =
        .ok ⟨[6, 2, 2, 2, 2, 34, 34], [0, 1, 2, 3, 3, 2], 4⟩ ∧
      VirtualMachine_reads MathLib.sample 1 [[1], [5], [7], [3]] [6, 2, 2, 2, 2, 34, 34]
        [0, 1, 2, 3, 3, 2] 4 6 =
        [(OP_LDVAR, 0), (OP_LDVAR, 1), (OP_LDVAR, 2), (OP_LDVAR, 3), (OP_MAX, 3),
          (OP_MAX, 2)] ∧
      VirtualMachine MathLib.sample 1 4 [[1], [5], [7], [3]] [6, 2, 2, 2, 2, 34, 34]
        [0, 1, 2, 3, 3, 2] 4 = some [7]) ∧
    (CompileExpression "2*a+3".toList 1 ["a".toList] =
        .ok ⟨[5, 1, 2, 30, 1, 28], [2, 0, 3], 2⟩ ∧
      VirtualMachine_reads MathLib.sample 1 [[10]] [5, 1, 2, 30, 1, 28] [2, 0, 3] 2 5 =
        [(OP_LDCON, 2), (OP_LDVAR, 0), (OP_LDCON, 3)] ∧
      VirtualMachine MathLib.sample 1 1 [[10]] [5, 1, 2, 30, 1, 28] [2, 0, 3] 2 =
        some [23]) := by
  refine ⟨?_, ?_, by decide, ⟨by decide!, by decide!, by decide!, by decide!⟩,
    ⟨by decide!, by decide!, by decide!⟩, ⟨by decide!, by decide!, by decide!⟩⟩
  · intro L exprs nvar var c npoint ptr_in hc hin
    obtain ⟨w, toks, ops, hloop, hrun, hsym, hcon, hcode, hpre, hfin, hstep⟩ :=
      CompileExpression_reads L hc hin
    have hall : VirtualMachine_reads L npoint ptr_in c.code c.con c.stacksize ops.length =
        Token.consts toks := by
      obtain ⟨st, hst, hi⟩ := hfin
      obtain ⟨st1, hst1, _, hr⟩ := hpre ops.length (Nat.le_refl _)
      rw [hst] at hst1
      injection hst1 with hst1
      subst hst1
      rw [hr, hi, hcon, List.length_map]
      exact List.take_length _
    refine ⟨w, toks, ops, hloop, hrun, hsym, hcon, hcode, hall, ?_, hpre, hfin, hstep, ?_⟩
    · rw [hall, hcon]
    · rw [hall, hsym]
      exact Run.consts_callCounts hrun [] List.Forall₂.nil
  · intro exprs nvar var w w1 hb
    rcases CompileExpression_body_ok hb with ⟨sym, v, hf, hv, rfl⟩ |
      ⟨_, _, iend, c, hpc, _, rfl⟩ | ⟨_, _, iend0, c, ivar, iend, _, _, hpv, _, rfl⟩
    · exact Or.inl ⟨sym, v, hf, hv, rfl, rfl⟩
    · exact Or.inr (Or.inl ⟨iend, c, hpc, rfl, rfl⟩)
    · exact Or.inr (Or.inr ⟨ivar, iend, hpv, rfl, rfl⟩)

/-- Witness of C35: the constants of `max(a,min(b,c),d)` on one point. -/
theorem C35_constants_read_in_order_witness :
    ∃ (w : WState) (toks : List Token) (ops : List Int),
      CompileExpression_loop "max(a,min(b,c),d)".toList 4
        ["a".toList, "b".toList, "c".toList, "d".toList]
        ("max(a,min(b,c),d)".toList.length + 1) WState.init = .ok w ∧
      Run 4 ⟨false, []⟩ toks ⟨true, []⟩ ∧
      w.symlist = toks.map Prod.fst ∧
      ([0, 1, 2, 2, 3, 3] : List Rat) = (Token.consts toks).map Prod.snd ∧
      ([6, 2, 2, 2, 33, 2, 34] : List Int) = (ops.length : Int) :: ops ∧
      VirtualMachine_reads MathLib.sample 1 [[1], [5], [7], [3]] [6, 2, 2, 2, 33, 2, 34]
        [0, 1, 2, 2, 3, 3] 3 ops.length = Token.consts toks :=
  have hc : CompileExpression "max(a,min(b,c),d)".toList 4
      ["a".toList, "b".toList, "c".toList, "d".toList] =
      .ok ⟨[6, 2, 2, 2, 33, 2, 34], [0, 1, 2, 2, 3, 3], 3⟩ := by decide!
  have hin : InputsOK 1 4 [[1], [5], [7], [3]] := by
    refine ⟨by decide, ?_⟩
    decide
  match C35_constants_read_in_order.1 MathLib.sample _ 4 _ _ 1 [[1], [5], [7], [3]] hc hin with
  | ⟨w, toks, ops, h1, h2, h3, h4, h5, h6, _⟩ => ⟨w, toks, ops, h1, h2, h3, h4, h5, h6⟩

/-- C39: for every accepted expression, every constant stored for a `LDVAR` is a whole
number `i` with `i < nvar` and `(int) ( i + 0.5 )` is `i`; when `VirtualMachine` reaches
a `LDVAR` on input vectors that cover the declared variables, the constant it reads is
such an `i`, and `ptr_in[ i ]` is one of the `nvar` input vectors and holds `npoint`
values.  An index returned by `ParseVariable` is `-1` or lies in `0 .. nvar - 1`. -/
theorem C39_variable_index_in_range :
    (∀ (L : MathLib) (exprs : List Char) (nvar : Nat) (var : List (List Char)) (c : Compiled)
        (npoint : Nat) (ptr_in : List (List Rat)),
      CompileExpression exprs nvar var = .ok c → InputsOK npoint nvar ptr_in →
      ∃ (toks : List Token) (ops : List Int),
        Run nvar ⟨false, []⟩ toks ⟨true, []⟩ ∧
        c.con = (Token.consts toks).map Prod.snd ∧
        c.code = (ops.length : Int) :: ops ∧
        (∀ (j : Nat) (x : Rat), (Token.consts toks).get? j = some (OP_LDVAR, x) →
          c.con.get? j = some x ∧
          ∃ i : Nat, i < nvar ∧ x = (i : Rat) ∧ c_int (x + 1 / 2) = (i : Int)) ∧
        (∀ n, ops.get? n = some OP_LDVAR.toInt →
          ∃ (st : VMState) (i : Nat),
            VirtualMachine_exec L npoint ptr_in c.code c.con c.stacksize n = some st ∧
            (Token.consts toks).get? st.icon = some (OP_LDVAR, (i : Rat)) ∧
            c.con.get? st.icon = some (i : Rat) ∧
            c_int ((i : Rat) + 1 / 2) = (i : Int) ∧
            i < nvar ∧ i < ptr_in.length ∧ npoint ≤ (ptr_in.getD i []).length)) ∧
    (∀ (exprs : List Char) (istart nvar : Nat) (var : List (List Char)) (ivar iend : Int),
      ParseVariable exprs istart nvar var = .ok (ivar, iend) →
      ivar = -1 ∨ (0 ≤ ivar ∧ ivar < (nvar : Int))) ∧
    CompileExpression "b*a+b".toList 2 ["a".toList, "b".toList] =
      .ok ⟨[5, 2, 2, 30, 2, 28], [1, 0, 1], 2⟩ := by
  refine ⟨?_, ?_, by decide!⟩
  · intro L exprs nvar var c npoint ptr_in hc hin
    obtain ⟨w, toks, ops, hloop, hrun, hsym, hcon, hcode, hpre, hfin, hstep⟩ :=
      CompileExpression_reads L hc hin
    have hmem : ∀ (j : Nat) (x : Rat), (Token.consts toks).get? j = some (OP_LDVAR, x) →
        c.con.get? j = some x ∧
        ∃ i : Nat, i < nvar ∧ x = (i : Rat) ∧ c_int (x + 1 / 2) = (i : Int) := by
      intro j x hj
      constructor
      · rw [hcon, List.get?_eq_getElem?, List.getElem?_map, ← List.get?_eq_getElem?, hj]
        rfl
      · obtain ⟨i, hi, hx⟩ := Run.consts_ldvar hrun x (List.get?_mem hj)
        exact ⟨i, hi, hx, by rw [hx]; exact c_int_nat_add_half i⟩
    refine ⟨toks, ops, hrun, hcon, hcode, hmem, ?_⟩
    intro n hop
    obtain ⟨st, st1, hst, _, hread, _⟩ := hstep n _ hop
    obtain ⟨_, x, hx, htok⟩ := hread OP_LDVAR (Oper.ofInt_toInt _) rfl
    obtain ⟨_, i, hi, hxi, hint⟩ := hmem _ _ htok
    subst hxi
    exact ⟨st, i, hst, htok, hx, hint, hi, lt_of_lt_of_le hi hin.1, hin.2 i hi⟩
  · intro exprs istart nvar var ivar iend h
    by_cases hne : ivar = -1
    · exact Or.inl hne
    · obtain ⟨_, _, i, hi, hfind⟩ := ParseVariable_ok h hne
      have := (ParseVariable_find_lt _ _ hfind).2
      right
      rw [hi]
      omega

/-- Witness of C39: the variables of `b*a+b` on two points. -/
theorem C39_variable_index_in_range_witness :
    ∃ (toks : List Token) (ops : List Int),
      Run 2 ⟨false, []⟩ toks ⟨true, []⟩ ∧
      ([1, 0, 1] : List Rat) = (Token.consts toks).map Prod.snd ∧
      ([5, 2, 2, 30, 2, 28] : List Int) = (ops.length : Int) :: ops ∧
      (∀ (j : Nat) (x : Rat), (Token.consts toks).get? j = some (OP_LDVAR, x) →
        ([1, 0, 1] : List Rat).get? j = some x ∧
        ∃ i : Nat, i < 2 ∧ x = (i : Rat) ∧ c_int (x + 1 / 2) = (i : Int)) :=
  have hc : CompileExpression "b*a+b".toList 2 ["a".toList, "b".toList] =
      .ok ⟨[5, 2, 2, 30, 2, 28], [1, 0, 1], 2⟩ := by decide!
  have hin : InputsOK 2 2 [[1, 2], [3, 4]] := by
    refine ⟨by decide, ?_⟩
    decide
  match C39_variable_index_in_range.1 MathLib.sample _ 2 _ _ 2 [[1, 2], [3, 4]] hc hin with
  | ⟨toks, ops, h1, h2, h3, h4, _⟩ => ⟨toks, ops, h1, h2, h3, h4⟩

/-! ## An expression in parentheses compiles like the expression -/

theorem cget_paren_zero (e : List Char) : cget (parenthesised e) 0 = '(' := rfl

theorem cget_paren_succ (e : List Char) (i : Nat) :
    cget (parenthesised e) (i + 1) = cget (e ++ [')']) i := by
  unfold parenthesised cget
  simp

theorem cget_paren_lt (e : List Char) {i : Nat} (h : i < e.length) :
    cget (parenthesised e) (i + 1) = cget e i := by
  rw [cget_paren_succ]
  unfold cget
  rw [List.getD_eq_getElem?_getD, List.getD_eq_getElem?_getD, List.getElem?_append_left h]

theorem cget_paren_end (e : List Char) : cget (parenthesised e) (e.length + 1) = ')' := by
  rw [cget_paren_succ]
  have := cget_append_length e ')' []
  exact this

theorem cget_paren_after (e : List Char) : cget (parenthesised e) (e.length + 2) = NUL := by
  apply cget_of_length_le
  simp [parenthesised]

theorem parenthesised_length (e : List Char) : (parenthesised e).length = e.length + 2 := by
  simp [parenthesised]

theorem cget_ne_NUL_of_lt {e : List Char} (hN : ∀ c ∈ e, c ≠ NUL) {i : Nat}
    (h : i < e.length) : cget e i ≠ NUL :=
  hN _ (cget_mem h)

set_option maxRecDepth 100000 in
set_option synthInstance.maxSize 4000 in
/-- The texts of the symbols: no terminator among the `size` characters, and a closing
parenthesis only as the one character of the symbol `)`. -/
theorem symbol_text_chars : ∀ sym < 44, ∀ j < 7, j < (symbol sym).size →
    cget (symbol sym).text.toList j ≠ NUL ∧
    (1 ≤ j → cget (symbol sym).text.toList j ≠ ')') ∧ (symbol sym).size ≤ 7 := by
  decide

/-- Comparison of a symbol's text with the expression gives the same result at the
corresponding position of the text in parentheses. -/
theorem strncmp0_paren (e : List Char) (t : List Char) :
    ∀ (n ia ib : Nat), ia ≤ e.length → (1 ≤ ib ∨ ia < e.length) →
      (∀ j, ib ≤ j → j < ib + n → cget t j ≠ NUL ∧ (1 ≤ j → cget t j ≠ ')')) →
      strncmp0 (parenthesised e) (ia + 1) t ib n = strncmp0 e ia t ib n := by
  intro n
  induction n with
  | zero => intro _ _ _ _ _; rfl
  | succ n ih =>
    intro ia ib hia hor ht
    obtain ⟨ht1, ht2⟩ := ht ib (Nat.le_refl _) (by omega)
    rcases Nat.lt_or_ge ia e.length with hlt | hge
    · unfold strncmp0
      rw [cget_paren_lt e hlt]
      rw [ih (ia + 1) (ib + 1) (by omega) (Or.inl (by omega))
        (fun j h1 h2 => ht j (by omega) (by omega))]
    · have hia2 : ia = e.length := by omega
      subst hia2
      have hib : 1 ≤ ib := by
        rcases hor with h | h
        · exact h
        · omega
      have h1 : cget e e.length ≠ cget t ib := by
        rw [cget_of_length_le (Nat.le_refl _)]
        exact fun h => ht1 h.symm
      have h2 : cget (parenthesised e) (e.length + 1) ≠ cget t ib := by
        rw [cget_paren_end]
        exact fun h => ht2 hib h.symm
      rw [strncmp0_first_ne h1, strncmp0_first_ne h2]

/-- The search of the symbol table finds the same symbol at the corresponding position of
the text in parentheses. -/
theorem findSymbol_paren {e : List Char} {i : Nat} (hi : i < e.length) (o u : Bool) :
    ∀ l : List Nat, (∀ s ∈ l, s < 44) →
      findSymbol (parenthesised e) (i + 1) o u l = findSymbol e i o u l := by
  intro l
  induction l with
  | nil => intro _; rfl
  | cons s l ih =>
    intro hl
    have hs := hl s (List.mem_cons_self _ _)
    have hcmp : strncmp0 (parenthesised e) (i + 1) (symbol s).text.toList 0 (symbol s).size =
        strncmp0 e i (symbol s).text.toList 0 (symbol s).size := by
      apply strncmp0_paren e _ _ _ _ (by omega) (Or.inr hi)
      intro j _ hj
      have h7 : (symbol s).size ≤ 7 := by
        by_cases h0 : 0 < (symbol s).size
        · exact (symbol_text_chars s hs 0 (by omega) h0).2.2
        · omega
      obtain ⟨h1, h2, _⟩ := symbol_text_chars s hs j (by omega) (by omega)
      exact ⟨h1, h2⟩
    unfold findSymbol
    rw [hcmp, ih (fun x hx => hl x (List.mem_cons_of_mem _ hx))]

theorem findSymbol_paren_table {e : List Char} {i : Nat} (hi : i < e.length) (o u : Bool) :
    findSymbol (parenthesised e) (i + 1) o u (List.range symbolTable.length) =
      findSymbol e i o u (List.range symbolTable.length) := by
  apply findSymbol_paren hi
  intro s hs
  simpa [symbolTable] using List.mem_range.1 hs

theorem ParseConstant_body_inParen (c : Char) (s : PCState) :
    ParseConstant_body c s.inParen = (ParseConstant_body c s).inParen := by
  unfold ParseConstant_body PCState.inParen
  simp only
  split_ifs <;> simp only [PCState.mk.injEq, and_true, true_and]

theorem ParseConstant_loop_stop {exprs : List Char} {s : PCState} (h : s.iscon = false)
    (fuel : Nat) : ParseConstant_loop exprs fuel s = s := by
  cases fuel with
  | zero => rfl
  | succ n =>
    unfold ParseConstant_loop
    simp [h]

/-- The scanning loop of `ParseConstant` ends in the text in parentheses one position
further than in the expression, with the same flags. -/
theorem ParseConstant_loop_paren {e : List Char} (hN : ∀ c ∈ e, c ≠ NUL) :
    ∀ (fa fb : Nat) (s : PCState), fa ≤ fb → s.iend + 1 ≤ e.length →
      (s.iscon = true → s.valid = true ∧ e.length ≤ s.iend + fa) →
      (ParseConstant_loop (parenthesised e) fb s.inParen).iend =
        (ParseConstant_loop e fa s).iend + 1 ∧
      (ParseConstant_loop (parenthesised e) fb s.inParen).numer =
        (ParseConstant_loop e fa s).numer ∧
      (ParseConstant_loop (parenthesised e) fb s.inParen).valid =
        (ParseConstant_loop e fa s).valid ∧
      (ParseConstant_loop e fa s).iend + 1 ≤ e.length := by
  intro fa
  induction fa with
  | zero =>
    intro fb s _ hle hcon
    have hic : s.iscon = false := by
      rcases Bool.eq_false_or_eq_true s.iscon with h | h
      · have := (hcon h).2
        omega
      · exact h
    have hic2 : s.inParen.iscon = false := hic
    rw [ParseConstant_loop_stop hic, ParseConstant_loop_stop hic2]
    exact ⟨rfl, rfl, rfl, hle⟩
  | succ fa ih =>
    intro fb s hfb hle hcon
    rcases Bool.eq_false_or_eq_true s.iscon with hic | hic
    · obtain ⟨hv, hfuel⟩ := hcon hic
      have hic2 : s.inParen.iscon = true := hic
      have hiend : s.inParen.iend = s.iend + 1 := rfl
      obtain ⟨fb1, rfl⟩ : ∃ fb1, fb = fb1 + 1 := ⟨fb - 1, by omega⟩
      rcases Nat.lt_or_ge (s.iend + 1) e.length with hlt | hge
      · have hc : cget e (s.iend + 1) ≠ NUL := cget_ne_NUL_of_lt hN hlt
        have hcb : cget (parenthesised e) (s.iend + 1 + 1) = cget e (s.iend + 1) :=
          cget_paren_lt e hlt
        have e1 : ParseConstant_loop e (fa + 1) s =
            ParseConstant_loop e fa (ParseConstant_body (cget e (s.iend + 1)) s) := by
          rw [ParseConstant_loop]
          simp [hc, hic]
        have e2 : ParseConstant_loop (parenthesised e) (fb1 + 1) s.inParen =
            ParseConstant_loop (parenthesised e) fb1
              (ParseConstant_body (cget e (s.iend + 1)) s).inParen := by
          rw [ParseConstant_loop, hiend, hcb, ← ParseConstant_body_inParen]
          simp [hc, hic2]
        rw [e1, e2]
        rcases ParseConstant_body_cases (cget e (s.iend + 1)) s hv with
          ⟨h1, h2, h3, _⟩ | ⟨h1, _, h3⟩ | ⟨h1, _⟩
        · exact ih fb1 _ (by omega) (by omega) (fun _ => ⟨h2, by omega⟩)
        · exact ih fb1 _ (by omega) (by omega) (fun h => by rw [h1] at h; cases h)
        · refine ih fb1 _ (by omega) (by rw [h1]; exact le_of_lt hlt)
            (fun h => by rw [h1] at h; cases h)
      · have hend : s.iend + 1 = e.length := by omega
        have hc : cget e (s.iend + 1) = NUL := cget_of_length_le (by omega)
        have hcb : cget (parenthesised e) (s.iend + 1 + 1) = ')' := by
          rw [hend]
          exact cget_paren_end e
        have e1 : ParseConstant_loop e (fa + 1) s = s := by
          rw [ParseConstant_loop]
          simp [hc]
        have hv2 : s.inParen.valid = true := hv
        have hbody : ParseConstant_body ')' s.inParen = { s.inParen with iscon := false } := by
          rw [ParseConstant_body_other (by decide) (by decide) (by decide) (by decide)
            (by decide) (by decide), if_pos hv2]
        have e2 : ParseConstant_loop (parenthesised e) (fb1 + 1) s.inParen =
            { s.inParen with iscon := false } := by
          rw [ParseConstant_loop, hiend, hcb, hbody]
          have hne : (')' != NUL) = true := by decide
          simp only [hne, hic2, Bool.and_self, if_true]
          exact ParseConstant_loop_stop rfl fb1
        rw [e1, e2]
        exact ⟨rfl, rfl, rfl, hle⟩
    · have hic2 : s.inParen.iscon = false := hic
      rw [ParseConstant_loop_stop hic, ParseConstant_loop_stop hic2]
      exact ⟨rfl, rfl, rfl, hle⟩

theorem ParseConstant_init_paren (e : List Char) {i : Nat} (hi : i < e.length) :
    ParseConstant_init (parenthesised e) (i + 1) = (ParseConstant_init e i).inParen := by
  unfold ParseConstant_init PCState.inParen
  rw [cget_paren_lt e hi]

theorem take_drop_paren (e : List Char) {i n : Nat} (h : i + n ≤ e.length) :
    ((parenthesised e).drop (i + 1)).take n = (e.drop i).take n := by
  unfold parenthesised
  rw [List.drop_succ_cons, List.drop_append_of_le_length (by omega),
    List.take_append_of_le_length (by rw [List.length_drop]; omega)]

/-- A constant of the expression is the constant found at the corresponding position of
the text in parentheses. -/
theorem ParseConstant_paren {e : List Char} (hN : ∀ c ∈ e, c ≠ NUL) {i : Nat}
    (hi : i < e.length) {iend : Int} {c : Rat} (h : ParseConstant e i = .ok (iend, c)) :
    ∃ iend1 : Int, ParseConstant (parenthesised e) (i + 1) = .ok (iend1, c) ∧
      (iend ≥ (i : Int) → iend1 = iend + 1 ∧ iend < (e.length : Int)) ∧
      (¬ iend ≥ (i : Int) → ¬ iend1 ≥ ((i + 1 : Nat) : Int)) := by
  by_cases hstart : (cget e i).isDigit = true ∨ cget e i = '.'
  · have hstart1 : (cget (parenthesised e) (i + 1)).isDigit = true ∨
        cget (parenthesised e) (i + 1) = '.' := by
      rw [cget_paren_lt e hi]
      exact hstart
    rw [ParseConstant_of_start hstart] at h
    rw [ParseConstant_of_start hstart1, ParseConstant_init_paren e hi, parenthesised_length]
    obtain ⟨h1, h2, h3, h4⟩ := ParseConstant_loop_paren hN (e.length + 1) (e.length + 2 + 1)
      (ParseConstant_init e i) (by omega) (by show i + 1 ≤ e.length; omega)
      (fun _ => ⟨rfl, by show e.length ≤ i + (e.length + 1); omega⟩)
    generalize ParseConstant_loop (parenthesised e) (e.length + 2 + 1)
      (ParseConstant_init e i).inParen = rb at h1 h2 h3 ⊢
    generalize ParseConstant_loop e (e.length + 1) (ParseConstant_init e i) = ra at h h1 h2 h3 h4
    rw [h1, h2, h3]
    have hn : ra.iend + 1 - (i + 1) + 1 = ra.iend - i + 1 := by omega
    rw [hn, take_drop_paren e (by omega)]
    split at h
    · rename_i hcond
      rw [if_pos hcond]
      split at h
      · rename_i v nc hs
        split at h
        · rename_i hnc
          rw [if_pos hnc]
          injection h with h
          injection h with h5 h6
          subst h5
          subst h6
          refine ⟨_, rfl, ?_, ?_⟩
          · intro _
            constructor
            · push_cast
              rfl
            · omega
          · intro hlt
            push_cast
            omega
        · cases h
      · cases h
    · cases h
  · have h1 : (cget e i).isDigit = false := by
      cases hd : (cget e i).isDigit
      · rfl
      · exact absurd (Or.inl hd) hstart
    have h2 : cget e i ≠ '.' := fun hp => hstart (Or.inr hp)
    rw [ParseConstant_of_not_start h1 h2] at h
    injection h with h
    injection h with h5 h6
    subst h5
    subst h6
    refine ⟨-1, ?_, ?_, ?_⟩
    · apply ParseConstant_of_not_start
      · rw [cget_paren_lt e hi]
        exact h1
      · rw [cget_paren_lt e hi]
        exact h2
    · intro hge
      omega
    · intro _
      omega

theorem ParseName_loop_paren (e : List Char) :
    ∀ (fa fb i : Nat), fa ≤ fb → i < e.length → e.length ≤ i + fa →
      ParseName_loop (parenthesised e) fb (i + 1) = ParseName_loop e fa i + 1 ∧
      ParseName_loop e fa i < e.length := by
  intro fa
  induction fa with
  | zero =>
    intro fb i _ h1 h2
    omega
  | succ fa ih =>
    intro fb i hfb hi hfuel
    obtain ⟨fb1, rfl⟩ : ∃ fb1, fb = fb1 + 1 := ⟨fb - 1, by omega⟩
    rcases Nat.lt_or_ge (i + 1) e.length with hlt | hge
    · have hcb : cget (parenthesised e) (i + 1 + 1) = cget e (i + 1) := cget_paren_lt e hlt
      unfold ParseName_loop
      simp only
      rw [hcb]
      split
      · exact ih fb1 (i + 1) (by omega) hlt (by omega)
      · exact ⟨rfl, hi⟩
    · have hend : i + 1 = e.length := by omega
      have hc : cget e (i + 1) = NUL := cget_of_length_le (by omega)
      have hcb : cget (parenthesised e) (i + 1 + 1) = ')' := by
        rw [hend]
        exact cget_paren_end e
      unfold ParseName_loop
      simp only
      rw [hcb, hc]
      rw [if_neg (by decide), if_neg (by decide)]
      exact ⟨rfl, hi⟩

theorem strncmp0_paren_within (e t : List Char) :
    ∀ (n ia ib : Nat), ia + n ≤ e.length →
      strncmp0 (parenthesised e) (ia + 1) t ib n = strncmp0 e ia t ib n := by
  intro n
  induction n with
  | zero => intro _ _ _; rfl
  | succ n ih =>
    intro ia ib h
    unfold strncmp0
    rw [cget_paren_lt e (by omega : ia < e.length), ih (ia + 1) (ib + 1) (by omega)]

theorem ParseVariable_find_paren (e : List Char) {istart nc : Nat} (nvar : Nat)
    (var : List (List Char)) (h : istart + nc ≤ e.length) :
    ∀ (fuel ivar : Nat),
      ParseVariable_find (parenthesised e) (istart + 1) nc nvar var fuel ivar =
        ParseVariable_find e istart nc nvar var fuel ivar := by
  intro fuel
  induction fuel with
  | zero => intro _; rfl
  | succ n ih =>
    intro ivar
    unfold ParseVariable_find
    rw [strncmp0_paren_within e _ nc istart 0 h, ih (ivar + 1)]

/-- A variable of the expression is the variable found at the corresponding position of
the text in parentheses. -/
theorem ParseVariable_paren {e : List Char} {i : Nat} (hi : i < e.length) (nvar : Nat) (var : List (List Char)) {ivar iend : Int}
    (h : ParseVariable e i nvar var = .ok (ivar, iend)) (hne : ivar ≠ -1) :
    ParseVariable (parenthesised e) (i + 1) nvar var = .ok (ivar, iend + 1) ∧
      0 ≤ iend ∧ iend < (e.length : Int) := by
  cases halpha : (cget e i).isAlpha with
  | false =>
    rw [ParseVariable_of_not_alpha nvar var halpha] at h
    injection h with h
    injection h with h1 _
    exact absurd h1.symm hne
  | true =>
    have halpha1 : (cget (parenthesised e) (i + 1)).isAlpha = true := by
      rw [cget_paren_lt e hi]
      exact halpha
    rw [ParseVariable_of_alpha nvar var halpha] at h
    rw [ParseVariable_of_alpha nvar var halpha1, parenthesised_length]
    obtain ⟨h1, h2⟩ := ParseName_loop_paren e (e.length + 1) (e.length + 2 + 1) i (by omega) hi
      (by omega)
    have hle := (ParseName_loop_spec e (e.length + 1) i).1
    rw [h1]
    generalize ParseName_loop e (e.length + 1) i = r at h h1 h2 hle
    have hn : r + 1 - (i + 1) + 1 = r - i + 1 := by omega
    rw [hn, ParseVariable_find_paren e nvar var (by omega)]
    split at h
    · rename_i iv hf
      injection h with h
      injection h with h3 h4
      subst h3
      subst h4
      refine ⟨?_, by omega, by omega⟩
      push_cast
      rfl
    · cases h

theorem arrSet_cons {α : Type} (d x : α) (a : List α) (i : Nat) (v : α) :
    arrSet d (x :: a) (i + 1) v = x :: arrSet d a i v := by
  unfold arrSet
  simp only [List.length_cons, Nat.add_lt_add_iff_right]
  split
  · rfl
  · simp

/-- A symbol that `ValidateSymbol` accepts is accepted inside one more pair of
parentheses, with the same effect on the levels above the outer one. -/
theorem ValidateSymbol_paren (exprs exprs1 : List Char) (iend iend1 sym : Nat)
    {v v1 : VState} (hok : v.ok) (h : ValidateSymbol exprs iend sym v = .ok v1) :
    ValidateSymbol exprs1 iend1 sym v.inParen = .ok v1.inParen := by
  obtain ⟨lpar, ac, os, con⟩ := v
  obtain ⟨h0, _, _⟩ := hok
  simp only at h0
  obtain ⟨n, rfl⟩ := Int.eq_ofNat_of_zero_le h0
  unfold ValidateSymbol at h ⊢
  simp only [VState.inParen] at h ⊢
  have e0 : (((n : Nat) : Int) + 1).toNat = n + 1 := by omega
  have e00 : ((n : Nat) : Int).toNat = n := by omega
  by_cases hcomma : cget (symbol sym).text.toList 0 = ',' ∧ cget (symbol sym).text.toList 1 = NUL
  · rw [if_pos hcomma] at h ⊢
    split at h
    · cases h
    · rename_i hc2
      have hn : 1 ≤ n := by
        by_contra hlt
        exact hc2 (Or.inl (by omega))
      obtain ⟨m, rfl⟩ : ∃ m, n = m + 1 := ⟨n - 1, by omega⟩
      have e1 : (((m + 1 : Nat) : Int) - 1).toNat = m := by omega
      have e2 : (((m + 1 : Nat) : Int) + 1 - 1).toNat = m + 1 := by omega
      rw [e1] at h hc2
      rw [e2, List.getD_cons_succ, if_neg (by
        intro hx
        rcases hx with hx | hx
        · omega
        · exact hc2 (Or.inr hx))]
      injection h with h
      subst h
      simp [VState.inParen]
  · rw [if_neg hcomma] at h ⊢
    by_cases hopen : (symbol sym).parincrement > 0
    · rw [if_pos hopen] at h ⊢
      injection h with h
      subst h
      rw [e0]
      rw [e00]
      simp only [VState.inParen, arrSet_cons]
    · rw [if_neg hopen] at h ⊢
      by_cases hclose : (symbol sym).parincrement < 0
      · rw [if_pos hclose] at h ⊢
        split at h
        · cases h
        · rename_i hn0
          have hn : 1 ≤ n := by
            by_contra hlt
            exact hn0 (by omega)
          obtain ⟨m, rfl⟩ : ∃ m, n = m + 1 := ⟨n - 1, by omega⟩
          have e1 : (((m + 1 : Nat) : Int) - 1).toNat = m := by omega
          have e2 : (((m + 1 : Nat) : Int) + 1 - 1).toNat = m + 1 := by omega
          have e3 : ((m + 1 : Nat) : Int) + 1 - 1 = ((m + 1 : Nat) : Int) - 1 + 1 := by omega
          rw [e1] at h
          rw [if_neg (by omega), e2, List.getD_cons_succ, List.getD_cons_succ]
          split at h
          · rename_i hpos
            rw [if_pos hpos]
            split at h
            · cases h
            · rename_i hcnt
              rw [if_neg hcnt]
              injection h with h
              subst h
              simp only [VState.inParen, e3]
          · rename_i hpos
            rw [if_neg hpos]
            split at h
            · rename_i hneg
              rw [if_pos hneg]
              split at h
              · cases h
              · rename_i hcnt
                rw [if_neg hcnt]
                injection h with h
                subst h
                simp only [VState.inParen, e3]
            · rename_i hneg
              rw [if_neg hneg]
              injection h with h
              subst h
              simp only [VState.inParen, e3]
      · rw [if_neg hclose] at h ⊢
        injection h with h
        subst h
        rfl

theorem WState.inParen_accept (w : WState) (sym iend : Nat) (v : VState) :
    (w.accept sym iend v).inParen = w.inParen.accept sym (iend + 1) v.inParen := by
  simp [WState.accept, WState.inParen]

theorem strncmp0_true_length (e t : List Char) :
    ∀ (n ia ib : Nat), (∀ j, ib ≤ j → j < ib + n → cget t j ≠ NUL) →
      strncmp0 e ia t ib n = true → 0 < n → ia + n ≤ e.length := by
  intro n
  induction n with
  | zero => intro ia ib _ _ h0; omega
  | succ n ih =>
    intro ia ib ht h _
    unfold strncmp0 at h
    split at h
    · cases h
    · rename_i hne
      have heq : cget e ia = cget t ib := by simpa using hne
      have hnz : cget e ia ≠ NUL := by
        rw [heq]
        exact ht ib (Nat.le_refl _) (by omega)
      rw [if_neg (by simpa using hnz)] at h
      have hlt := cget_ne_NUL_lt hnz
      rcases Nat.eq_zero_or_pos n with h0 | h0
      · omega
      · have := ih (ia + 1) (ib + 1) (fun j h1 h2 => ht j (by omega) (by omega)) h h0
        omega

/-- One pass of the walker over the expression is one pass over the text in
parentheses, and it stays within the expression. -/
theorem CompileExpression_body_paren {e : List Char} (hN : ∀ c ∈ e, c ≠ NUL) (nvar : Nat)
    (var : List (List Char)) {w w1 : WState} (hi : w.istart < e.length) (hok : w.v.ok)
    (h : CompileExpression_body e nvar var w = .ok w1) :
    CompileExpression_body (parenthesised e) nvar var w.inParen = .ok w1.inParen ∧
      w1.istart ≤ e.length := by
  have hi1 : w.inParen.istart = w.istart + 1 := rfl
  have ho1 : w.inParen.opernext = w.opernext := rfl
  have hu1 : w.inParen.unarynext = w.unarynext := rfl
  have hv1 : w.inParen.v = w.v.inParen := rfl
  rcases CompileExpression_body_ok h with ⟨sym, v, hf, hv, rfl⟩ | ⟨hf, hop, iend, c, hpc, hge, rfl⟩ |
    ⟨hf, hop, iend0, c, ivar, iend, hpc, hlt, hpv, hne, rfl⟩
  · obtain ⟨hmem, hz, _, _, hcmp⟩ := findSymbol_some hf
    have hs : sym < 44 := by simpa [symbolTable] using List.mem_range.1 hmem
    have h7 : (symbol sym).size ≤ 7 :=
      (symbol_text_chars sym hs 0 (by omega) (by omega)).2.2
    have hlen := strncmp0_true_length e _ _ w.istart 0
      (fun j _ hj => (symbol_text_chars sym hs j (by omega) (by omega)).1) hcmp (by omega)
    constructor
    · unfold CompileExpression_body
      rw [hi1, ho1, hu1, hv1, findSymbol_paren_table hi, hf]
      simp only
      rw [ValidateSymbol_paren e (parenthesised e) (w.istart + (symbol sym).size - 1)
        (w.istart + 1 + (symbol sym).size - 1) sym hok hv]
      simp only
      rw [WState.inParen_accept]
      congr 2
      omega
    · simp only [WState.accept_istart]
      omega
  · obtain ⟨iend1, hpc1, h1, _⟩ := ParseConstant_paren hN hi hpc
    obtain ⟨h2, h3⟩ := h1 hge
    subst h2
    constructor
    · unfold CompileExpression_body
      rw [hi1, ho1, hu1, hv1, findSymbol_paren_table hi, hf]
      simp only [hop, Bool.false_eq_true, if_false, hpc1]
      rw [if_pos (by push_cast; omega), WState.inParen_accept]
      congr 2
      omega
    · simp only [WState.accept_istart]
      omega
  · obtain ⟨iend1, hpc1, _, h1⟩ := ParseConstant_paren hN hi hpc
    have h2 := h1 hlt
    obtain ⟨hpv1, h3, h4⟩ := ParseVariable_paren hi nvar var hpv hne
    constructor
    · unfold CompileExpression_body
      rw [hi1, ho1, hu1, hv1, findSymbol_paren_table hi, hf]
      simp only [hop, Bool.false_eq_true, if_false, hpc1]
      rw [if_neg h2]
      simp only [hpv1]
      rw [if_pos hne, WState.inParen_accept]
      congr 2
      omega
    · simp only [WState.accept_istart]
      omega

/-- The walk over the expression, pass by pass, is a walk over the inside of the text in
parentheses. -/
theorem CompileExpression_loop_paren {e : List Char} (hN : ∀ c ∈ e, c ≠ NUL) (nvar : Nat)
    (var : List (List Char)) :
    ∀ (fuel : Nat) (w w1 : WState), w.istart ≤ e.length → w.v.ok →
      CompileExpression_loop e nvar var fuel w = .ok w1 →
      w1.istart ≤ e.length ∧ w1.v.ok ∧
      ∃ k, k ≤ fuel ∧
        CompileExpression_loop (parenthesised e) nvar var k w.inParen = .ok w1.inParen := by
  intro fuel
  induction fuel with
  | zero =>
    intro w w1 hi hok h
    simp only [CompileExpression_loop] at h
    injection h with h
    subst h
    exact ⟨hi, hok, 0, Nat.le_refl _, rfl⟩
  | succ n ih =>
    intro w w1 hi hok h
    rw [CompileExpression_loop_succ] at h
    split at h
    · rename_i hnz
      have hnz1 : cget e w.istart ≠ NUL := by simpa using hnz
      have hlt : w.istart < e.length := cget_ne_NUL_lt hnz1
      split at h
      · cases h
      · rename_i w2 hb
        obtain ⟨hb1, hi2⟩ := CompileExpression_body_paren hN nvar var hlt hok hb
        obtain ⟨hok2, _⟩ := @CompileExpression_body_step e nvar var w w2 hok hb
        obtain ⟨h1, h2, k, hk, hloop⟩ := ih w2 w1 hi2 hok2 h
        refine ⟨h1, h2, k + 1, by omega, ?_⟩
        rw [CompileExpression_loop_succ]
        have hc : cget (parenthesised e) w.inParen.istart = cget e w.istart :=
          cget_paren_lt e hlt
        rw [hc, if_pos hnz, hb1]
        exact hloop
    · injection h with h
      subst h
      exact ⟨hi, hok, 0, Nat.zero_le _, rfl⟩

/-- Where an operand is expected and the text starts with `(`, the symbol found is the
opening parenthesis. -/
theorem findSymbol_open (exprs : List Char) (istart : Nat) (u : Bool)
    (h0 : cget exprs istart = '(') :
    findSymbol exprs istart false u (List.range symbolTable.length) = some 3 := by
  have hr : List.range symbolTable.length = [0, 1, 2] ++ 3 :: List.range' 4 40 := by
    decide
  rw [hr]
  apply findSymbol_first
  · intro s hs
    simp only [List.mem_cons, List.mem_singleton, List.not_mem_nil, or_false] at hs
    rcases hs with rfl | rfl | rfl <;> rfl
  · have : strncmp0 exprs istart (symbol 3).text.toList 0 (symbol 3).size = true := by
      show strncmp0 exprs istart ['('] 0 1 = true
      unfold strncmp0
      rw [if_neg (by rw [h0]; decide), if_neg (by rw [h0]; decide)]
      rfl
    rw [this]
    cases u <;> rfl

/-- Where an operator is expected and the text starts with `)`, the symbol found is the
closing parenthesis. -/
theorem findSymbol_close (exprs : List Char) (istart : Nat) (u : Bool)
    (h0 : cget exprs istart = ')') :
    findSymbol exprs istart true u (List.range symbolTable.length) = some 2 := by
  have hr : List.range symbolTable.length = [0, 1] ++ 2 :: List.range' 3 41 := by
    decide
  rw [hr]
  apply findSymbol_first
  · intro s hs
    simp only [List.mem_cons, List.mem_singleton, List.not_mem_nil, or_false] at hs
    rcases hs with rfl | rfl <;> rfl
  · have : strncmp0 exprs istart (symbol 2).text.toList 0 (symbol 2).size = true := by
      show strncmp0 exprs istart [')'] 0 1 = true
      unfold strncmp0
      rw [if_neg (by rw [h0]; decide), if_neg (by rw [h0]; decide)]
      rfl
    rw [this]
    cases u <;> rfl

/-- The first pass over the text in parentheses takes the `(`. -/
theorem CompileExpression_body_open (e : List Char) (nvar : Nat) (var : List (List Char)) :
    CompileExpression_body (parenthesised e) nvar var WState.init = .ok WState.init.inParen := by
  unfold CompileExpression_body
  have h0 : cget (parenthesised e) WState.init.istart = '(' := cget_paren_zero e
  have ho : WState.init.opernext = false := rfl
  rw [ho, findSymbol_open _ _ _ h0]
  simp only
  rw [ValidateSymbol_opener _ _ _ (by decide)]
  rfl

/-- The pass of the walker at the `)` that closes the outer parentheses. -/
theorem CompileExpression_body_close (e : List Char) (nvar : Nat) (var : List (List Char))
    (w : WState) (hi : w.istart = e.length) (hop : w.opernext = true) (hl : w.v.lpar = 0) :
    CompileExpression_body (parenthesised e) nvar var w.inParen =
      .ok (w.inParen.accept 2 (e.length + 1) { w.v.inParen with lpar := 0 }) := by
  have hi1 : w.inParen.istart = e.length + 1 := by
    show w.istart + 1 = e.length + 1
    rw [hi]
  have ho1 : w.inParen.opernext = true := hop
  have h0 : cget (parenthesised e) (e.length + 1) = ')' := cget_paren_end e
  unfold CompileExpression_body
  rw [hi1, ho1, findSymbol_close _ _ _ h0]
  simp only
  rw [ValidateSymbol_closer]
  have hl1 : w.inParen.v.lpar = 1 := by
    show w.v.lpar + 1 = 1
    rw [hl]
    rfl
  have hos : w.inParen.v.opensym.getD (w.inParen.v.lpar - 1).toNat 0 = 3 := by
    rw [hl1]
    rfl
  rw [hos, if_neg (by rw [hl1]; decide), if_neg (by decide), if_neg (by decide)]
  simp only [hl1]
  rfl

/-- The walk over an accepted expression in parentheses records `(`, the symbols of the
expression and `)`, and stores the constants of the expression. -/
theorem CompileExpression_walk_paren {e : List Char} (hN : ∀ c ∈ e, c ≠ NUL) {nvar : Nat}
    {var : List (List Char)} {w : WState} (h : CompileExpression_walk e nvar var = .ok w) :
    ∃ w2, CompileExpression_walk (parenthesised e) nvar var = .ok w2 ∧
      w2.symlist = 3 :: (w.symlist ++ [2]) ∧ w2.v.con = w.v.con := by
  unfold CompileExpression_walk at h
  split at h
  · cases h
  · rename_i w0 hloop
    split at h
    · cases h
    · rename_i hop
      split at h
      · cases h
      · rename_i hlp
        injection h with h
        subst h
        have hop1 : w0.opernext = true := by simpa using hop
        have hend := CompileExpression_loop_complete hloop
        obtain ⟨hle, hok, k, hk, hk2⟩ := CompileExpression_loop_paren hN nvar var _ _ _
          (Nat.zero_le _) WState.init_ok hloop
        have hi : w0.istart = e.length := by
          rcases Nat.lt_or_ge w0.istart e.length with hlt | hge
          · exact absurd hend (cget_ne_NUL_of_lt hN hlt)
          · omega
        have hl : w0.v.lpar = 0 := by
          have := hok.1
          omega
        have hfuel : (parenthesised e).length + 1 = (k + ((e.length + 1 - k) + 1)) + 1 := by
          rw [parenthesised_length]
          omega
        have hwalk : CompileExpression_loop (parenthesised e) nvar var
            ((parenthesised e).length + 1) WState.init =
            .ok (w0.inParen.accept 2 (e.length + 1) { w0.v.inParen with lpar := 0 }) := by
          rw [hfuel, CompileExpression_loop_succ, if_pos (by
            show (cget (parenthesised e) 0 != NUL) = true
            rw [cget_paren_zero]
            decide), CompileExpression_body_open]
          simp only
          rw [CompileExpression_loop_add, hk2]
          simp only
          rw [CompileExpression_loop_succ, if_pos (by
            show (cget (parenthesised e) (w0.istart + 1) != NUL) = true
            rw [hi, cget_paren_end]
            decide), CompileExpression_body_close e nvar var w0 hi hop1 hl]
          simp only
          apply CompileExpression_loop_of_end
          show cget (parenthesised e) (e.length + 1 + 1) = NUL
          exact cget_paren_after e
        refine ⟨w0.inParen.accept 2 (e.length + 1) { w0.v.inParen with lpar := 0 }, ?_, rfl,
          rfl⟩
        unfold CompileExpression_walk
        rw [hwalk]
        simp only
        rw [if_neg (by
          show ¬ (!(!(symbol 2).operright)) = true
          decide), if_neg (by
          show ¬ (0 : Int) > 0
          decide)]

theorem openers_eq_nil {st : List Nat} (h : openers st = []) :
    ∀ s ∈ st, ¬ (symbol s).parincrement > 0 := by
  intro s hs hp
  have hm : s ∈ openers st := by
    unfold openers
    exact List.mem_filter.2 ⟨hs, by simpa using hp⟩
  rw [h] at hm
  cases hm

theorem Run.nil_inv {nvar : Nat} {q q1 : AState} (h : Run nvar q [] q1) : q = q1 := by
  cases h
  rfl

theorem Step.closer_levels {nvar : Nat} {q q1 : AState} {trd : List (Oper × Rat)}
    (h : Step nvar q (2, trd) q1) : q.levels ≠ [] := by
  generalize ht : ((2 : Nat), trd) = t at h
  cases h with
  | ldcon _ c hq => injection ht with h1 _; exact absurd h1 (by decide)
  | ldvar _ i hq hi => injection ht with h1 _; exact absurd h1 (by decide)
  | ldbad _ hq => injection ht with h1 _; exact absurd h1 (by decide)
  | unary _ sym hq hs => injection ht with h1 _; omega
  | binary _ sym hq hs => injection ht with h1 _; omega
  | comma o a rest ha => injection ht with h1 _; exact absurd h1 (by decide)
  | opener _ sym hq hp =>
    injection ht with h1 _
    subst h1
    exact absurd hp (by decide)
  | closer o a rest h1 h2 => simp

/-- What the invariant of the sort says about the sort stack and the flag `flush`: the
stack holds table symbols other than `)`; once the input is read, no opening symbol is
below the top of the stack and one on top is being flushed; `flush` with input left
means that an opening symbol is on top; and on an empty stack the next symbol is not a
closing parenthesis. -/
theorem SortInv.paren_facts {con : List Rat} {allrd : List (Oper × Rat)} {nvar : Nat}
    {ls : LState} (h : SortInv con allrd nvar ls) :
    (∀ s ∈ ls.stack, s < 44 ∧ s ≠ 2) ∧
    (ls.input = [] → ∀ top st, ls.stack = top :: st →
      (∀ s ∈ st, ¬ (symbol s).parincrement > 0) ∧
      ((symbol top).parincrement > 0 → ls.flush = true)) ∧
    (ls.input ≠ [] → ls.flush = true →
      ∃ top st, ls.stack = top :: st ∧ (symbol top).parincrement > 0) ∧
    (ls.stack = [] → ∀ x rest, ls.input = x :: rest →
      x < 44 ∧ ¬ (symbol x).parincrement < 0) := by
  cases h with
  | normal q toks rd drd prd hrun hin hcon hall hrd htr hpend hst hlev hop hflush hfalse hcount =>
    refine ⟨hst.1, ?_, ?_, ?_⟩
    · intro hi top st hs
      have ht : toks = [] := by
        rw [hi] at hin
        exact List.map_eq_nil_iff.1 hin.symm
      subst ht
      have hq := Run.nil_inv hrun
      subst hq
      rw [hs] at hop
      have hno := openers_eq_nil (by simpa using hop)
      exact ⟨fun s hm => hno s (List.mem_cons_of_mem _ hm),
        fun hp => absurd hp (hno top (List.mem_cons_self _ _))⟩
    · intro hi hf
      have ht := hflush hf
      subst ht
      exact absurd hin hi
    · intro hs x rest hi
      rw [hs] at hop
      have hl : q.levels = [] := by
        have : q.levels.map Prod.fst = [] := by simpa [openers] using hop.symm
        exact List.map_eq_nil_iff.1 this
      cases toks with
      | nil =>
        rw [hi] at hin
        cases hin
      | cons t ts =>
        rw [hi] at hin
        simp only [List.map_cons, List.cons.injEq] at hin
        obtain ⟨hx, _⟩ := hin
        cases hrun with
        | cons hstep _ =>
          obtain ⟨sym, trd⟩ := t
          simp only at hx
          subst hx
          refine ⟨Step.sym_lt hstep, ?_⟩
          intro hneg
          have h2 := (symbol_closer_iff x).1 hneg
          subst h2
          exact Step.closer_levels hstep hl
  | flushing q toks rd drd o a st hrun hin hcon hall hrd htr hstk hst hnop hlev h1 h2 hop hflush
      hq hcount =>
    refine ⟨hst.1, ?_, ?_, ?_⟩
    · intro hi top st1 hs
      have ht : toks = [] := by
        rw [hi] at hin
        exact List.map_eq_nil_iff.1 hin.symm
      subst ht
      have hq1 := Run.nil_inv hrun
      subst hq1
      rw [hstk] at hs
      injection hs with hs1 hs2
      subst hs1
      subst hs2
      have hno := openers_eq_nil (by simpa using hop)
      exact ⟨hno, fun _ => hflush⟩
    · intro _ _
      exact ⟨o, st, hstk, (hlev (o, a) (List.mem_cons_self _ _)).1⟩
    · intro hs
      rw [hstk] at hs
      cases hs

set_option synthInstance.maxSize 4000 in
/-- Seen from the right, the opening symbols are the symbols of priority below 2. -/
theorem symbol_right_facts : ∀ s < 44,
    ((symbol s).parincrement > 0 → (symbol s).rightpriority = 1) ∧
    (¬ (symbol s).parincrement > 0 → 2 ≤ (symbol s).rightpriority) := by
  decide

theorem LState.inParen_stack (ls : LState) : ls.inParen.stack = ls.stack ++ [3] := rfl

theorem LState.inParen_input (ls : LState) : ls.inParen.input = ls.input ++ [2] := rfl

theorem LState.inParen_flush_nil {ls : LState} (h : ls.stack = []) :
    ls.inParen.flush = false := by
  unfold LState.inParen
  simp [h, openerTop]

theorem LState.inParen_flush_cons {ls : LState} {top : Nat} {st : List Nat}
    (h : ls.stack = top :: st) :
    ls.inParen.flush = (ls.flush && decide ((symbol top).parincrement > 0)) := by
  unfold LState.inParen
  simp [h, openerTop]

theorem openerTop_false {st : List Nat} (hno : ∀ s ∈ st, ¬ (symbol s).parincrement > 0) :
    openerTop st = false := by
  cases st with
  | nil => rfl
  | cons t st1 =>
    simp only [openerTop, decide_eq_false_iff_not]
    exact hno t (List.mem_cons_self _ _)

theorem LState.pop_inParen (con : List Rat) (ls : LState) (top : Nat) (st : List Nat)
    (fl fl1 : Bool)
    (hfl : fl1 = (fl && openerTop st)) :
    ls.inParen.pop con top (st ++ [3]) fl1 = (ls.pop con top st fl).inParen := by
  unfold LState.pop LState.inParen
  simp only
  split <;> simp [hfl]

theorem LState.push_inParen (ls : LState) (x : Nat) (rest : List Nat)
    (hx : ¬ (symbol x).parincrement < 0) :
    ls.inParen.push x (rest ++ [2]) false = (ls.push x rest false).inParen := by
  rw [LState.push_other hx, LState.push_other hx]
  unfold LState.inParen
  simp [openerTop]

theorem LState.push_closer_inParen (ls : LState) (x : Nat) (rest : List Nat) (top : Nat)
    (st : List Nat) (fl fl1 : Bool) (hx : (symbol x).parincrement < 0)
    (hs : ls.stack = top :: st) (ht : (symbol top).parincrement > 0) :
    ls.inParen.push x (rest ++ [2]) fl1 = (ls.push x rest fl).inParen := by
  rw [LState.push_closer hx, LState.push_closer hx]
  unfold LState.inParen
  simp [hs, ht, openerTop]

/-- One pass of the sort over the symbols of an accepted expression is one pass of the
sort over the symbols in parentheses. -/
theorem LState.body_inParen {con : List Rat} {allrd : List (Oper × Rat)} {nvar : Nat}
    {ls : LState} (h : SortInv con allrd nvar ls) (hc : ls.stack ≠ [] ∨ ls.input ≠ []) :
    ls.inParen.body con = (ls.body con).inParen := by
  obtain ⟨hstk, hdone, hfl, hempty⟩ := h.paren_facts
  cases hs : ls.stack with
  | nil =>
    cases hi : ls.input with
    | nil => simp [hs, hi] at hc
    | cons x rest =>
      obtain ⟨hx44, hxc⟩ := hempty hs x rest hi
      have hflush : ls.flush = false := by
        cases hf : ls.flush
        · rfl
        · obtain ⟨top, st, h1, _⟩ := hfl (by rw [hi]; simp) hf
          rw [hs] at h1
          cases h1
      have h1 : ls.inParen.stack = 3 :: [] := by rw [LState.inParen_stack, hs]; rfl
      have h2 : ls.inParen.input = x :: (rest ++ [2]) := by rw [LState.inParen_input, hi]; rfl
      rw [LState.body_cons_cons h1 h2, LState.inParen_flush_nil hs, LState.body_nil_cons hs hi,
        hflush]
      simp only [Bool.false_eq_true, if_false]
      have hl := (symbol_left_facts x hx44).1
      rw [if_pos (by
        show (symbol x).leftpriority > (symbol 3).rightpriority
        have : (symbol 3).rightpriority = 1 := by decide
        omega)]
      exact LState.push_inParen ls x rest hxc
  | cons top st =>
    have h1 : ls.inParen.stack = top :: (st ++ [3]) := by rw [LState.inParen_stack, hs]; rfl
    obtain ⟨ht44, ht2⟩ := hstk top (by rw [hs]; exact List.mem_cons_self _ _)
    cases hi : ls.input with
    | nil =>
      have h2 : ls.inParen.input = 2 :: [] := by rw [LState.inParen_input, hi]; rfl
      obtain ⟨hno, htop⟩ := hdone hi top st hs
      have hst := openerTop_false hno
      rw [LState.body_cons_cons h1 h2, LState.body_cons_nil hs hi, LState.inParen_flush_cons hs]
      by_cases hop : (symbol top).parincrement > 0
      · have hf := htop hop
        rw [hf]
        simp only [hop, decide_True, Bool.and_self, if_true]
        exact LState.pop_inParen con ls top st true false (by rw [hst]; rfl)
      · have hr := (symbol_right_facts top ht44).2 hop
        simp only [hop, decide_False, Bool.and_false, Bool.false_eq_true, if_false]
        rw [if_neg (by
          show ¬ (symbol 2).leftpriority > (symbol top).rightpriority
          have : (symbol 2).leftpriority = 2 := by decide
          omega)]
        exact LState.pop_inParen con ls top st ls.flush false (by rw [hst]; simp)
    | cons x rest =>
      have h2 : ls.inParen.input = x :: (rest ++ [2]) := by rw [LState.inParen_input, hi]; rfl
      rw [LState.body_cons_cons h1 h2, LState.body_cons_cons hs hi, LState.inParen_flush_cons hs]
      cases hf : ls.flush with
      | true =>
        obtain ⟨top1, st1, h3, hop⟩ := hfl (by rw [hi]; simp) hf
        rw [hs] at h3
        injection h3 with h4 h5
        subst h4
        simp only [hop, decide_True, Bool.and_self, if_true]
        exact LState.pop_inParen con ls top st false false (by simp)
      | false =>
        simp only [Bool.false_and, Bool.false_eq_true, if_false]
        by_cases hcmp : (symbol x).leftpriority > (symbol top).rightpriority
        · rw [if_pos hcmp, if_pos hcmp]
          by_cases hxc : (symbol x).parincrement < 0
          · have hx2 := (symbol_closer_iff x).1 hxc
            subst hx2
            have hop : (symbol top).parincrement > 0 := by
              by_contra hno
              have hr := (symbol_right_facts top ht44).2 hno
              have : (symbol 2).leftpriority = 2 := by decide
              omega
            exact LState.push_closer_inParen ls 2 rest top st false false hxc hs hop
          · exact LState.push_inParen ls x rest hxc
        · rw [if_neg hcmp, if_neg hcmp]
          exact LState.pop_inParen con ls top st false false (by simp)

theorem LState.loop_stop (con : List Rat) {ls : LState} (h1 : ls.stack = []) (h2 : ls.input = [])
    (fuel : Nat) : LState.loop con fuel ls = ls := by
  cases fuel with
  | zero => rfl
  | succ n =>
    rw [LState.loop_succ, if_neg (by simp [h1, h2])]

/-- The last two passes of the sort over the symbols in parentheses: the `)` is read and
the `(` is popped, which generates no opcode. -/
theorem LState.loop_inParen_done (con : List Rat) {ls : LState} (h1 : ls.stack = [])
    (h2 : ls.input = []) (fuel : Nat) :
    LState.loop con (fuel + 2) ls.inParen =
      { ls with stack := [], input := [], flush := true } := by
  have e1 : ls.inParen.stack = 3 :: [] := by rw [LState.inParen_stack, h1]; rfl
  have e2 : ls.inParen.input = 2 :: [] := by rw [LState.inParen_input, h2]; rfl
  rw [LState.loop_succ, if_pos (by rw [e1]; simp), LState.body_cons_cons e1 e2,
    LState.inParen_flush_nil h1]
  simp only [Bool.false_eq_true, if_false]
  rw [if_pos (by decide), LState.push_closer (by decide)]
  rw [LState.loop_succ, if_pos (by simp [e1]),
    @LState.body_cons_nil con { ls.inParen with input := [], flush := true } 3 [] e1 rfl,
    LState.pop_null (by decide) (by decide) (by decide)]
  rw [LState.loop_stop con rfl rfl]
  rfl

/-- The sort over the symbols in parentheses generates the opcodes, the constant count
and the stack size of the sort over the symbols of the expression. -/
theorem LState.loop_inParen {con : List Rat} {allrd : List (Oper × Rat)} {nvar : Nat} :
    ∀ (fuel : Nat) (ls : LState), SortInv con allrd nvar ls →
      2 * ls.input.length + ls.stack.length + 2 ≤ fuel →
      (LState.loop con fuel ls.inParen).code = (LState.loop con fuel ls).code ∧
      (LState.loop con fuel ls.inParen).stacksize = (LState.loop con fuel ls).stacksize := by
  intro fuel
  induction fuel with
  | zero =>
    intro ls _ h
    omega
  | succ n ih =>
    intro ls hinv hfuel
    by_cases hc : ls.stack ≠ [] ∨ ls.input ≠ []
    · have hm := LState.body_measure con ls hc
      rw [LState.loop_succ, LState.loop_succ, if_pos hc, if_pos (by
        left
        rw [LState.inParen_stack]
        simp), LState.body_inParen hinv hc]
      exact ih (ls.body con) (SortInv_body hinv hc) (by omega)
    · have h1 : ls.stack = [] := by
        by_contra hne
        exact hc (Or.inl hne)
      have h2 : ls.input = [] := by
        by_contra hne
        exact hc (Or.inr hne)
      obtain ⟨m, rfl⟩ : ∃ m, n = m + 1 := ⟨n - 1, by omega⟩
      rw [LState.loop_inParen_done con h1 h2 m, LState.loop_stop con h1 h2]
      exact ⟨rfl, rfl⟩

/-- The sort of the symbols of an accepted expression in parentheses gives the opcode
array and the stack size of the sort of the symbols of the expression. -/
theorem EvaluationSort_paren {nvar : Nat} {toks : List Token}
    (hrun : Run nvar ⟨false, []⟩ toks ⟨true, []⟩) :
    EvaluationSort ((Token.consts toks).map Prod.snd)
        (3 :: (toks.map Prod.fst ++ [2])).length (3 :: (toks.map Prod.fst ++ [2])) =
      EvaluationSort ((Token.consts toks).map Prod.snd) (toks.map Prod.fst).length
        (toks.map Prod.fst) := by
  generalize hcon : (Token.consts toks).map Prod.snd = con
  generalize hsym : toks.map Prod.fst = syms
  have hinv0 : SortInv con (Token.consts toks) nvar ⟨[], syms, false, 0, 0, [], 0⟩ := by
    refine SortInv.normal _ ⟨false, []⟩ toks [] [] [] hrun hsym.symm (by simp [hcon]) (by simp)
      rfl ?_ (by simp [PendingTop]) (by simp [StackOK]) (by simp [LevelsOK]) (by simp [openers])
      (by intro h; cases h) (by simp) (by simp)
    exact ⟨[], rfl, rfl, rfl, by simp, Or.inl ⟨rfl, rfl⟩⟩
  have hsim := LState.loop_inParen (2 * syms.length + 4) _ hinv0 (by
    simp only [List.length_nil]
    omega)
  obtain ⟨_, hLO⟩ := EvaluationSort_loop_toL con (2 * syms.length + 4) _ (SortState.init_wf syms)
  rw [EvaluationSort_loop_fuel con syms (2 * syms.length + 4) (by omega),
    SortState.init_toL] at hLO
  obtain ⟨_, hLW⟩ := EvaluationSort_loop_toL con (2 * (3 :: (syms ++ [2])).length + 1) _
    (SortState.init_wf (3 :: (syms ++ [2])))
  have hlen : 2 * (3 :: (syms ++ [2])).length + 1 = (2 * syms.length + 4) + 1 := by
    simp only [List.length_cons, List.length_append, List.length_singleton, List.length_nil]
    omega
  have hfirst : LState.loop con ((2 * syms.length + 4) + 1)
      ⟨[], 3 :: (syms ++ [2]), false, 0, 0, [], 0⟩ =
      LState.loop con (2 * syms.length + 4)
        (LState.inParen ⟨[], syms, false, 0, 0, [], 0⟩) := by
    rw [LState.loop_succ, if_pos (by simp), LState.body_nil_cons rfl rfl,
      LState.push_other (by decide)]
    rfl
  rw [SortState.init_toL, hlen, hfirst] at hLW
  have hcode : (EvaluationSort_loop con (3 :: (syms ++ [2])).length
      (2 * (3 :: (syms ++ [2])).length + 1) (SortState.init (3 :: (syms ++ [2])))).code =
      (EvaluationSort_loop con syms.length (2 * syms.length + 1) (SortState.init syms)).code := by
    have h1 := congrArg LState.code hLW
    have h2 := congrArg LState.code hLO
    simp only [SortState.toL] at h1 h2
    rw [hlen, h1, h2]
    exact hsim.1
  have hsize : (EvaluationSort_loop con (3 :: (syms ++ [2])).length
      (2 * (3 :: (syms ++ [2])).length + 1) (SortState.init (3 :: (syms ++ [2])))).stacksize =
      (EvaluationSort_loop con syms.length (2 * syms.length + 1)
        (SortState.init syms)).stacksize := by
    have h1 := congrArg LState.stacksize hLW
    have h2 := congrArg LState.stacksize hLO
    simp only [SortState.toL] at h1 h2
    rw [hlen, h1, h2]
    exact hsim.2
  unfold EvaluationSort
  simp only
  rw [hcode, hsize]

/-- C37: an expression without a terminator inside that `CompileExpression` accepts is
also accepted in parentheses, and the text `(` expression `)` compiles to the same
opcode array, the same constants and the same stack size. -/
theorem C37_parentheses_transparent {e : List Char} {nvar : Nat} {var : List (List Char)}
    {c : Compiled} (hN : ∀ ch ∈ e, ch ≠ NUL) (hc : CompileExpression e nvar var = .ok c) :
    CompileExpression ('(' :: (e ++ [')'])) nvar var = .ok c := by
  obtain ⟨w, hloop, _, _, hwalk, hceq⟩ := CompileExpression_ok_inv hc
  obtain ⟨w1, toks, _, _, hloop1, hrun, hsym, hcon, _⟩ := CompileExpression_ok_trace hc
  rw [hloop] at hloop1
  injection hloop1 with hw
  subst hw
  obtain ⟨w2, hwalk2, hsym2, hcon2⟩ := CompileExpression_walk_paren hN hwalk
  have hcw : w.v.con = (Token.consts toks).map Prod.snd := by
    rw [← hcon, hceq]
  show CompileExpression (parenthesised e) nvar var = .ok c
  unfold CompileExpression
  rw [hwalk2]
  simp only
  rw [hsym2, hcon2, hcw, hsym, EvaluationSort_paren hrun, hceq, hcw, hsym]

/-- Witness of C37: the expression `a+b` in parentheses. -/
theorem C37_parentheses_transparent_witness :
    CompileExpression ('(' :: ("a+b".toList ++ [')'])) 2 ["a".toList, "b".toList] =
      .ok ⟨[3, 2, 2, 28], [0, 1], 2⟩ :=
  C37_parentheses_transparent (by decide) (by decide!)

/-! ## A program run inside another program -/

/-- Writing the same vector in corresponding slots keeps two machine states in
correspondence, and leaves the lower slots of the larger stack as they are. -/
theorem VMState.framed_set {base ioff : Nat} {s b : VMState} (h : VMState.framed base ioff s b)
    (t : Int) (ic : Nat) (v : List Rat) (h0 : 0 ≤ t) (h1 : t ≤ s.tos + 1)
    (h2 : t < s.stack.length) :
    VMState.framed base ioff ⟨s.stack.set t.toNat (some v), t, ic⟩
        ⟨b.stack.set (t + base).toNat (some v), t + base, ic + ioff⟩ ∧
      (b.stack.set (t + base).toNat (some v)).length = b.stack.length ∧
      ∀ j, j < base → (b.stack.set (t + base).toNat (some v)).getD j none =
        b.stack.getD j none := by
  obtain ⟨e1, e2, e3, e4, e5⟩ := h
  have ht : (t + base).toNat = base + t.toNat := by omega
  refine ⟨⟨rfl, rfl, by show -1 ≤ t; omega, by simpa using e4, ?_⟩, by simp, ?_⟩
  · intro j hj
    simp only at hj
    rw [ht]
    by_cases hjt : j = t.toNat
    · subst hjt
      rw [getD_set_self _ _ _ _ (by omega), getD_set_self _ _ _ _ (by omega)]
    · rw [getD_set_ne _ _ _ (by omega), getD_set_ne _ _ _ (by omega)]
      exact e5 j (by omega)
  · intro j hj
    rw [ht]
    exact getD_set_ne _ _ _ (by omega)

theorem VMState.framed_slot {base ioff : Nat} {s b : VMState}
    (h : VMState.framed base ioff s b) {i : Int} {v : List Rat} (hs : s.slot i = some v)
    (hi : i ≤ s.tos) : b.slot (i + base) = some v := by
  obtain ⟨e1, e2, e3, e4, e5⟩ := h
  obtain ⟨h0, hlt, hget⟩ := VMState.slot_some hs
  unfold VMState.slot
  rw [if_pos ⟨by omega, by omega⟩]
  have : (i + base).toNat = base + i.toNat := by omega
  rw [this, e5 i.toNat (by omega)]
  exact hget

theorem ARG_0_framed {base ioff : Nat} {s b s1 : VMState} (h : VMState.framed base ioff s b)
    (ic : Nat) (v : List Rat) (hs : ARG_0 s ic v = some s1) :
    ∃ b1, ARG_0 b (ic + ioff) v = some b1 ∧ VMState.framed base ioff s1 b1 ∧
      b1.stack.length = b.stack.length ∧
      ∀ j, j < base → b1.stack.getD j none = b.stack.getD j none := by
  unfold ARG_0 at hs ⊢
  split at hs
  · rename_i hc
    injection hs with hs
    subst hs
    have hb := h
    obtain ⟨e1, e2, e3, e4, e5⟩ := h
    rw [if_pos ⟨by omega, by omega⟩]
    obtain ⟨f1, f2, f3⟩ := VMState.framed_set hb (s.tos + 1) ic v hc.1 (le_refl _) hc.2
    have ht : b.tos + 1 = s.tos + 1 + base := by omega
    rw [ht]
    exact ⟨_, rfl, f1, f2, f3⟩
  · cases hs

theorem ARG_1_framed (L : MathLib) {base ioff : Nat} {s b s1 : VMState}
    (h : VMState.framed base ioff s b) (f : Rat → Rat) (hs : ARG_1 L s f = some s1) :
    ∃ b1, ARG_1 L b f = some b1 ∧ VMState.framed base ioff s1 b1 ∧
      b1.stack.length = b.stack.length ∧
      ∀ j, j < base → b1.stack.getD j none = b.stack.getD j none := by
  unfold ARG_1 at hs ⊢
  split at hs
  · cases hs
  · rename_i xv hxv
    injection hs with hs
    subst hs
    have hb := h
    obtain ⟨e1, e2, e3, e4, e5⟩ := h
    obtain ⟨h0, hlt, _⟩ := VMState.slot_some hxv
    have hbs := VMState.framed_slot hb hxv (le_refl _)
    rw [← e1] at hbs
    rw [hbs]
    obtain ⟨f1, f2, f3⟩ := VMState.framed_set hb s.tos s.icon
      (xv.map fun x => if x ≠ L.BAD then f x else x) h0 (by omega) hlt
    simp only
    rw [e1, e2]
    exact ⟨_, rfl, f1, f2, f3⟩

theorem DO_ARG_2_framed (L : MathLib) {base ioff : Nat} {s b s1 : VMState}
    (h : VMState.framed base ioff s b) (f : Rat → Rat → Rat) (hs : DO_ARG_2 L s f = some s1) :
    ∃ b1, DO_ARG_2 L b f = some b1 ∧ VMState.framed base ioff s1 b1 ∧
      b1.stack.length = b.stack.length ∧
      ∀ j, j < base → b1.stack.getD j none = b.stack.getD j none := by
  unfold DO_ARG_2 at hs ⊢
  split at hs
  · rename_i xv2 xv1 hx2 hx1
    injection hs with hs
    subst hs
    have hb := h
    obtain ⟨e1, e2, e3, e4, e5⟩ := h
    obtain ⟨h0, hlt, _⟩ := VMState.slot_some hx1
    have hb2 := VMState.framed_slot hb hx2 (le_refl _)
    have hb1 := VMState.framed_slot hb hx1 (by omega)
    rw [← e1] at hb2
    have ht : s.tos - 1 + base = b.tos - 1 := by omega
    rw [ht] at hb1
    rw [hb2, hb1]
    obtain ⟨f1, f2, f3⟩ := VMState.framed_set hb (s.tos - 1) s.icon
      (List.zipWith (fun x1 x2 =>
        if x1 ≠ L.BAD then (if x2 ≠ L.BAD then f x1 x2 else L.BAD) else x1) xv1 xv2)
      h0 (by omega) hlt
    simp only
    rw [ht] at f1 f2 f3
    rw [← e2] at f1
    exact ⟨_, rfl, f1, f2, f3⟩
  · cases hs

theorem DO_ARG_2_times_framed (L : MathLib) {base ioff : Nat} (f : Rat → Rat → Rat) :
    ∀ (n : Nat) (s b s1 : VMState), VMState.framed base ioff s b →
      DO_ARG_2_times L f n s = some s1 →
      ∃ b1, DO_ARG_2_times L f n b = some b1 ∧ VMState.framed base ioff s1 b1 ∧
        b1.stack.length = b.stack.length ∧
        ∀ j, j < base → b1.stack.getD j none = b.stack.getD j none := by
  intro n
  induction n with
  | zero =>
    intro s b s1 h hs
    simp only [DO_ARG_2_times] at hs ⊢
    injection hs with hs
    subst hs
    exact ⟨b, rfl, h, rfl, fun _ _ => rfl⟩
  | succ n ih =>
    intro s b s1 h hs
    simp only [DO_ARG_2_times] at hs ⊢
    split at hs
    · cases hs
    · rename_i s2 hs2
      obtain ⟨b2, g1, g2, g3, g4⟩ := DO_ARG_2_framed L h f hs2
      obtain ⟨b1, k1, k2, k3, k4⟩ := ih s2 b2 s1 g2 hs
      rw [g1]
      refine ⟨b1, k1, k2, by rw [k3, g3], ?_⟩
      intro j hj
      rw [k4 j hj, g4 j hj]

theorem VMState.framed_icon {base ioff : Nat} {s b : VMState}
    (h : VMState.framed base ioff s b) :
    VMState.framed base ioff { s with icon := s.icon + 1 } { b with icon := b.icon + 1 } := by
  obtain ⟨e1, e2, e3, e4, e5⟩ := h
  exact ⟨e1, by simp only; omega, e3, e4, e5⟩

/-- One opcode that the part run alone executes is executed in the same way inside the
larger program. -/
theorem VirtualMachine_case_framed (L : MathLib) (npoint : Nat) (ptr_in : List (List Rat))
    {cons conb : List Rat} {base ioff : Nat}
    (hcon : ∀ i x, cons.get? i = some x → conb.get? (i + ioff) = some x)
    {s b s1 : VMState} (h : VMState.framed base ioff s b) (op : Int)
    (hs : VirtualMachine_case L npoint ptr_in cons s op = some s1) :
    ∃ b1, VirtualMachine_case L npoint ptr_in conb b op = some b1 ∧
      VMState.framed base ioff s1 b1 ∧ b1.stack.length = b.stack.length ∧
      ∀ j, j < base → b1.stack.getD j none = b.stack.getD j none := by
  have hic : b.icon = s.icon + ioff := h.2.1
  have hsame : ∀ s2, some s = some s2 → ∃ b1, some b = some b1 ∧
      VMState.framed base ioff s2 b1 ∧ b1.stack.length = b.stack.length ∧
      ∀ j, j < base → b1.stack.getD j none = b.stack.getD j none := by
    intro s2 e
    injection e with e
    subst e
    exact ⟨b, rfl, h, rfl, fun _ _ => rfl⟩
  unfold VirtualMachine_case at hs ⊢
  cases hop : Oper.ofInt op with
  | none =>
    rw [hop] at hs
    exact hsame _ hs
  | some o =>
    rw [hop] at hs
    cases o <;> simp only [fun1, fun2] at hs ⊢ <;>
      first
      | exact hsame _ hs
      | exact ARG_1_framed L h _ hs
      | exact DO_ARG_2_framed L h _ hs
      | (have e : b.icon = s.icon + ioff := hic
         rw [e]
         exact ARG_0_framed h _ _ hs)
      | (split at hs
         · cases hs
         · rename_i c hc
           rw [hic, hcon _ _ hc]
           simp only
           first
           | (have e : s.icon + ioff + 1 = s.icon + 1 + ioff := by omega
              rw [e]
              exact ARG_0_framed h _ _ hs)
           | (split at hs
              · rename_i hv
                rw [if_pos hv]
                have e : s.icon + ioff + 1 = s.icon + 1 + ioff := by omega
                rw [e]
                exact ARG_0_framed h _ _ hs
              · cases hs)
           | (rw [← hic]
              exact DO_ARG_2_times_framed L _ _ _ _ _ (VMState.framed_icon h) hs))

theorem get?_code_part (c1 : Int) (A ops B : List Int) {n : Nat} (h : n < ops.length) :
    (c1 :: (A ++ (ops ++ B))).get? (A.length + n + 1) = ops.get? n := by
  rw [List.get?_cons_succ, List.get?_eq_getElem?, List.get?_eq_getElem?,
    List.getElem?_append_right (by omega)]
  have : A.length + n - A.length = n := by omega
  rw [this, List.getElem?_append_left h]

theorem get?_con_part (KA ks KB : List Rat) (i : Nat) (x : Rat) (h : ks.get? i = some x) :
    (KA ++ (ks ++ KB)).get? (i + KA.length) = some x := by
  rw [List.get?_eq_getElem?] at h ⊢
  have hi : i < ks.length := (List.getElem?_eq_some_iff.1 h).1
  rw [List.getElem?_append_right (by omega)]
  have : i + KA.length - KA.length = i := by omega
  rw [this, List.getElem?_append_left hi]
  exact h

/-- The opcodes of a program that form a part of a larger program are executed inside
the larger program as they are executed alone: on top of the vectors that the larger
program has on the stack when it reaches them, and with the constants that follow the
ones it has used. -/
theorem VirtualMachine_exec_framed (L : MathLib) (npoint : Nat) (ptr_in : List (List Rat))
    {cons conb : List Rat} {base ioff : Nat}
    (hcon : ∀ i x, cons.get? i = some x → conb.get? (i + ioff) = some x)
    (c0 c1 : Int) (A ops B : List Int) (ss sb : Int) (b0 : VMState)
    (hb0 : VirtualMachine_exec L npoint ptr_in (c1 :: (A ++ (ops ++ B))) conb sb A.length =
      some b0)
    (hfr : VMState.framed base ioff (VMState.init ss) b0) :
    ∀ (n : Nat) (s : VMState), n ≤ ops.length →
      VirtualMachine_exec L npoint ptr_in (c0 :: ops) cons ss n = some s →
      ∃ b, VirtualMachine_exec L npoint ptr_in (c1 :: (A ++ (ops ++ B))) conb sb
          (A.length + n) = some b ∧
        VMState.framed base ioff s b ∧ b.stack.length = b0.stack.length ∧
        ∀ j, j < base → b.stack.getD j none = b0.stack.getD j none := by
  intro n
  induction n with
  | zero =>
    intro s _ hs
    simp only [VirtualMachine_exec] at hs
    injection hs with hs
    subst hs
    exact ⟨b0, hb0, hfr, rfl, fun _ _ => rfl⟩
  | succ n ih =>
    intro s hn hs
    rw [VirtualMachine_exec_succ] at hs
    split at hs
    · cases hs
    · rename_i st hst
      obtain ⟨b, g1, g2, g3, g4⟩ := ih st (by omega) hst
      split at hs
      · cases hs
      · rename_i op hop
        rw [List.get?_cons_succ] at hop
        obtain ⟨b1, k1, k2, k3, k4⟩ :=
          VirtualMachine_case_framed L npoint ptr_in hcon g2 op hs
        refine ⟨b1, ?_, k2, by rw [k3, g3], fun j hj => by rw [k4 j hj, g4 j hj]⟩
        have e : A.length + (n + 1) = (A.length + n) + 1 := by omega
        rw [e, VirtualMachine_exec_succ, g1]
        simp only
        rw [get?_code_part c1 A ops B (by omega), hop]
        exact k1

/-- The programs of a list of arguments, one after the other inside a larger program,
leave the values of the arguments on the stack, one above the other, above the vectors
that were there. -/
theorem VirtualMachine_exec_args (L : MathLib) (npoint : Nat) (ptr_in : List (List Rat))
    (c1 : Int) (sb : Int) :
    ∀ (args : List (Compiled × List Rat)) (A B : List Int) (KA KB : List Rat) (base : Nat)
      (b0 : VMState),
      (∀ a ∈ args, ArgRun L npoint ptr_in a.1 a.2) →
      VirtualMachine_exec L npoint ptr_in
        (c1 :: (A ++ ((args.flatMap fun a => a.1.code.tail) ++ B)))
        (KA ++ ((args.flatMap fun a => a.1.con) ++ KB)) sb A.length = some b0 →
      b0.tos = (base : Int) - 1 → b0.icon = KA.length →
      (∀ i a, args.get? i = some a → base + i + a.1.stacksize.toNat ≤ b0.stack.length) →
      ∃ b, VirtualMachine_exec L npoint ptr_in
          (c1 :: (A ++ ((args.flatMap fun a => a.1.code.tail) ++ B)))
          (KA ++ ((args.flatMap fun a => a.1.con) ++ KB)) sb
          (A.length + (args.flatMap fun a => a.1.code.tail).length) = some b ∧
        b.tos = (base : Int) + args.length - 1 ∧
        b.icon = KA.length + (args.flatMap fun a => a.1.con).length ∧
        b.stack.length = b0.stack.length ∧
        (∀ j, j < base → b.stack.getD j none = b0.stack.getD j none) ∧
        ∀ i a, args.get? i = some a → b.stack.getD (base + i) none = some a.2 := by
  intro args
  induction args with
  | nil =>
    intro A B KA KB base b0 _ hb0 ht hi _
    refine ⟨b0, by simpa using hb0, by simpa using ht, by simpa using hi, rfl,
      fun _ _ => rfl, ?_⟩
    intro i a h
    cases h
  | cons a rest ih =>
    intro A B KA KB base b0 hall hb0 ht hi hcap
    obtain ⟨hcode, st, hst, hst1, hst2, hst3⟩ := hall a (List.mem_cons_self _ _)
    rw [List.flatMap_cons, List.flatMap_cons, List.append_assoc, List.append_assoc] at hb0 ⊢
    have hcap0 := hcap 0 a rfl
    have hfr : VMState.framed base KA.length (VMState.init a.1.stacksize) b0 := by
      refine ⟨?_, ?_, le_refl _, ?_, ?_⟩
      · rw [ht]
        show (base : Int) - 1 = -1 + base
        omega
      · rw [hi]
        show KA.length = 0 + KA.length
        omega
      · show base + (List.replicate a.1.stacksize.toNat none).length ≤ b0.stack.length
        rw [List.length_replicate]
        omega
      · intro j hj
        have : (VMState.init a.1.stacksize).tos = -1 := rfl
        omega
    rw [hcode] at hst
    obtain ⟨b1, g1, g2, g3, g4⟩ := VirtualMachine_exec_framed L npoint ptr_in
      (get?_con_part KA a.1.con ((rest.flatMap fun a => a.1.con) ++ KB))
      (a.1.code.tail.length : Int) c1 A a.1.code.tail
      ((rest.flatMap fun a => a.1.code.tail) ++ B) a.1.stacksize sb b0 hb0 hfr
      a.1.code.tail.length st (le_refl _) hst
    obtain ⟨e1, e2, e3, e4, e5⟩ := g2
    have hslot : b1.stack.getD base none = some a.2 := by
      have := e5 0 (by rw [hst1]; rfl)
      rw [Nat.add_zero] at this
      rw [this]
      obtain ⟨_, _, hget⟩ := VMState.slot_some hst3
      exact hget
    have hcode2 : c1 :: (A ++ (a.1.code.tail ++ ((rest.flatMap fun a => a.1.code.tail) ++ B))) =
        c1 :: ((A ++ a.1.code.tail) ++ ((rest.flatMap fun a => a.1.code.tail) ++ B)) := by
      rw [List.append_assoc]
    have hcon2 : KA ++ (a.1.con ++ ((rest.flatMap fun a => a.1.con) ++ KB)) =
        (KA ++ a.1.con) ++ ((rest.flatMap fun a => a.1.con) ++ KB) := by
      rw [List.append_assoc]
    rw [hcode2, hcon2] at g1 ⊢
    have hlen : (A ++ a.1.code.tail).length = A.length + a.1.code.tail.length := by simp
    obtain ⟨b, k1, k2, k3, k4, k5, k6⟩ := ih (A ++ a.1.code.tail) B (KA ++ a.1.con) KB (base + 1)
      b1 (fun x hx => hall x (List.mem_cons_of_mem _ hx)) (by rw [hlen]; exact g1)
      (by rw [e1, hst1]; push_cast; omega) (by rw [e2, hst2]; simp; omega)
      (by
        intro i x hx
        have := hcap (i + 1) x (by simpa using hx)
        omega)
    refine ⟨b, ?_, ?_, ?_, by rw [k4, g3], ?_, ?_⟩
    · rw [hlen] at k1
      rw [List.length_append, ← Nat.add_assoc]
      exact k1
    · rw [k2]
      simp only [List.length_cons]
      push_cast
      omega
    · rw [k3]
      simp only [List.length_append]
      omega
    · intro j hj
      rw [k5 j (by omega), g4 j hj]
    · intro i x hx
      cases i with
      | zero =>
        simp only [List.get?_cons_zero, Option.some.injEq] at hx
        subst hx
        rw [Nat.add_zero, k5 base (by omega)]
        exact hslot
      | succ i =>
        have := k6 i x (by simpa using hx)
        have e : base + (i + 1) = base + 1 + i := by omega
        rw [e]
        exact this

set_option synthInstance.maxSize 4000 in
/-- Seen from the left, every symbol other than the comma and the closing parenthesis has
priority 4 or more. -/
theorem symbol_left4 : ∀ s < 44, s ≠ 2 → s ≠ 9 → 4 ≤ (symbol s).leftpriority := by
  decide

/-! ## The sort of an expression inside a call -/

theorem Step.comma_levels {nvar : Nat} {q q1 : AState} {trd : List (Oper × Rat)}
    (h : Step nvar q (9, trd) q1) : q.levels ≠ [] := by
  generalize ht : ((9 : Nat), trd) = t at h
  cases h with
  | ldcon _ c hq => injection ht with h1 _; exact absurd h1 (by decide)
  | ldvar _ i hq hi => injection ht with h1 _; exact absurd h1 (by decide)
  | ldbad _ hq => injection ht with h1 _; exact absurd h1 (by decide)
  | unary _ sym hq hs => injection ht with h1 _; omega
  | binary _ sym hq hs => injection ht with h1 _; omega
  | comma o a rest ha => simp
  | opener _ sym hq hp =>
    injection ht with h1 _
    subst h1
    exact absurd hp (by decide)
  | closer o a rest h1 h2 => injection ht with h1 _; exact absurd h1 (by decide)

theorem symbol_variadic_opener (sym : Nat) :
    (symbol sym).nargs < 0 → (symbol sym).parincrement > 0 ∧ (symbol sym).opcode ≠ OP_NULL ∧
      sym ≠ symbol_ldvar ∧ sym ≠ symbol_ldcon := by
  refine symbol_forall (fun sym s => s.nargs < 0 → s.parincrement > 0 ∧ s.opcode ≠ OP_NULL ∧
      sym ≠ symbol_ldvar ∧ sym ≠ symbol_ldcon) ?_ ?_ sym
  · decide
  · intro _ _ h
    exact absurd h (by decide)

/-- More of what the invariant of the sort says: on an empty stack the next symbol is not
a comma, and when a function of a variable number of arguments is flushed the count of
its arguments is the next constant. -/
theorem SortInv.call_facts {con : List Rat} {allrd : List (Oper × Rat)} {nvar : Nat}
    {ls : LState} (h : SortInv con allrd nvar ls) :
    (ls.stack = [] → ∀ x rest, ls.input = x :: rest → x ≠ 9) ∧
    (∀ top st, ls.stack = top :: st → ls.flush = true → (symbol top).nargs < 0 →
      ∃ x, con.get? ls.icon = some x) ∧
    (∀ x rest, ls.input = x :: rest → x < 44) := by
  have hlt : ∀ (q : AState) (toks : List Token), Run nvar q toks ⟨true, []⟩ →
      ls.input = toks.map Prod.fst → ∀ x rest, ls.input = x :: rest → x < 44 := by
    intro q toks hrun hin x rest hi
    cases toks with
    | nil =>
      rw [hi] at hin
      cases hin
    | cons t ts =>
      rw [hi] at hin
      simp only [List.map_cons, List.cons.injEq] at hin
      obtain ⟨hx, _⟩ := hin
      cases hrun with
      | cons hstep _ =>
        obtain ⟨sym, trd⟩ := t
        simp only at hx
        subst hx
        exact Step.sym_lt hstep
  cases h with
  | normal q toks rd drd prd hrun hin hcon hall hrd htr hpend hst hlev hop hflush hfalse hcount =>
    refine ⟨?_, ?_, hlt q toks hrun hin⟩
    · intro hs x rest hi
      rw [hs] at hop
      have hl : q.levels = [] := by
        have : q.levels.map Prod.fst = [] := by simpa [openers] using hop.symm
        exact List.map_eq_nil_iff.1 this
      cases toks with
      | nil =>
        rw [hi] at hin
        cases hin
      | cons t ts =>
        rw [hi] at hin
        simp only [List.map_cons, List.cons.injEq] at hin
        obtain ⟨hx, _⟩ := hin
        cases hrun with
        | cons hstep _ =>
          obtain ⟨sym, trd⟩ := t
          simp only at hx
          subst hx
          intro h9
          subst h9
          exact Step.comma_levels hstep hl
    · intro top st hs hf hneg
      have ht := hflush hf
      subst ht
      have hq := Run.nil_inv hrun
      subst hq
      rw [hs] at hop
      have hno := openers_eq_nil (by simpa using hop)
      exact absurd (symbol_variadic_opener top hneg).1 (hno top (List.mem_cons_self _ _))
  | flushing q toks rd drd o a st hrun hin hcon hall hrd htr hstk hst hnop hlev h1 h2 hop hflush
      hq hcount =>
    refine ⟨?_, ?_, hlt q toks hrun hin⟩
    · intro hs
      rw [hstk] at hs
      cases hs
    · intro top st1 hs _ hneg
      rw [hstk] at hs
      injection hs with hs1 hs2
      subst hs1
      rw [if_pos hneg] at hrd
      obtain ⟨tr, _, _, hic, _⟩ := htr
      refine ⟨(a : Rat), ?_⟩
      rw [hcon, hrd, hic, List.get?_eq_getElem?, List.map_append, List.map_append,
        List.append_assoc, List.getElem?_append_right (by simp)]
      simp

theorem LState.inCall_stack (cs r : List Nat) (ioff : Nat) (base : Int) (pre : List Int)
    (S0 : Int) (ls : LState) : (ls.inCall cs r ioff base pre S0).stack = ls.stack ++ cs := rfl

theorem LState.inCall_input (cs r : List Nat) (ioff : Nat) (base : Int) (pre : List Int)
    (S0 : Int) (ls : LState) : (ls.inCall cs r ioff base pre S0).input = ls.input ++ r := rfl

theorem LState.inCall_flush_nil (cs r : List Nat) (ioff : Nat) (base : Int) (pre : List Int)
    (S0 : Int) {ls : LState} (h : ls.stack = []) :
    (ls.inCall cs r ioff base pre S0).flush = false := by
  unfold LState.inCall
  simp [h, openerTop]

theorem LState.inCall_flush_cons (cs r : List Nat) (ioff : Nat) (base : Int) (pre : List Int)
    (S0 : Int) {ls : LState} {top : Nat} {st : List Nat} (h : ls.stack = top :: st) :
    (ls.inCall cs r ioff base pre S0).flush =
      (ls.flush && decide ((symbol top).parincrement > 0)) := by
  unfold LState.inCall
  simp [h, openerTop]

theorem getD_of_get? {α : Type} {l : List α} {i : Nat} {x : α} (d : α)
    (h : l.get? i = some x) : l.getD i d = x := by
  rw [List.getD_eq_getElem?_getD, ← List.get?_eq_getElem?, h]
  rfl

/-- Popping a symbol of the expression off the sort stack inside the longer stream. -/
theorem LState.pop_inCall {con conb : List Rat} (cs r : List Nat) (ioff : Nat) (base : Int)
    (pre : List Int) (S0 : Int)
    (hcon : ∀ i x, con.get? i = some x → conb.get? (i + ioff) = some x)
    (ls : LState) (top : Nat) (st : List Nat) (fl fl1 : Bool)
    (hfl : fl1 = (fl && openerTop st))
    (hrd : (symbol top).nargs < 0 → ∃ x, con.get? ls.icon = some x) :
    (ls.inCall cs r ioff base pre S0).pop conb top (st ++ cs) fl1 =
      (ls.pop con top st fl).inCall cs r ioff base pre S0 := by
  by_cases hnull : (symbol top).opcode = OP_NULL
  · have h0 : top ≠ symbol_ldvar := by
      rintro rfl
      exact absurd hnull (by decide)
    have h1 : top ≠ symbol_ldcon := by
      rintro rfl
      exact absurd hnull (by decide)
    rw [LState.pop_null hnull h0 h1, LState.pop_null hnull h0 h1]
    unfold LState.inCall
    simp [hfl]
  · by_cases hn : (symbol top).nargs ≥ 0
    · rw [LState.pop_fixed hnull hn, LState.pop_fixed hnull hn]
      unfold LState.inCall
      simp only [LState.mk.injEq, List.append_assoc, true_and]
      refine ⟨hfl, by omega, by omega, ?_⟩
      split_ifs <;> omega
    · have hneg : (symbol top).nargs < 0 := by omega
      obtain ⟨_, _, h0, h1⟩ := symbol_variadic_opener top hneg
      obtain ⟨x, hx⟩ := hrd hneg
      have e1 : con.getD ls.icon 0 = x := getD_of_get? 0 hx
      have e2 : conb.getD (ls.icon + ioff) 0 = x := getD_of_get? 0 (hcon _ _ hx)
      rw [LState.pop_variadic hnull hneg h0 h1, LState.pop_variadic hnull hneg h0 h1]
      unfold LState.inCall
      simp only [LState.mk.injEq, List.append_assoc, true_and, e1, e2]
      refine ⟨hfl, by omega, by omega, ?_⟩
      split_ifs <;> omega

theorem LState.push_inCall (cs r : List Nat) (ioff : Nat) (base : Int) (pre : List Int)
    (S0 : Int) (ls : LState) (x : Nat) (rest : List Nat)
    (hx : ¬ (symbol x).parincrement < 0) :
    (ls.inCall cs r ioff base pre S0).push x (rest ++ r) false =
      (ls.push x rest false).inCall cs r ioff base pre S0 := by
  rw [LState.push_other hx, LState.push_other hx]
  unfold LState.inCall
  simp [openerTop]

theorem LState.push_closer_inCall (cs r : List Nat) (ioff : Nat) (base : Int)
    (pre : List Int) (S0 : Int) (ls : LState) (x : Nat) (rest : List Nat) (top : Nat)
    (st : List Nat) (fl fl1 : Bool) (hx : (symbol x).parincrement < 0)
    (hs : ls.stack = top :: st) (ht : (symbol top).parincrement > 0) :
    (ls.inCall cs r ioff base pre S0).push x (rest ++ r) fl1 =
      (ls.push x rest fl).inCall cs r ioff base pre S0 := by
  rw [LState.push_closer hx, LState.push_closer hx]
  unfold LState.inCall
  simp [hs, ht, openerTop]

/-- One pass of the sort over the symbols of an accepted expression is one pass of the
sort over the longer stream, when the symbol below the expression on the sort stack has
right priority at most 2 (an opening symbol or a comma) and the symbol that follows the
expression has left priority 2 (a comma or a closing parenthesis). -/
theorem LState.body_inCall {con conb : List Rat} {allrd : List (Oper × Rat)} {nvar : Nat}
    (t : Nat) (cs : List Nat) (x0 : Nat) (r : List Nat) (ioff : Nat) (base : Int)
    (pre : List Int) (S0 : Int)
    (hcon : ∀ i x, con.get? i = some x → conb.get? (i + ioff) = some x)
    (ht : (symbol t).rightpriority ≤ 2) (hx0 : (symbol x0).leftpriority = 2)
    {ls : LState} (h : SortInv con allrd nvar ls) (hc : ls.stack ≠ [] ∨ ls.input ≠ []) :
    (ls.inCall (t :: cs) (x0 :: r) ioff base pre S0).body conb =
      (ls.body con).inCall (t :: cs) (x0 :: r) ioff base pre S0 := by
  obtain ⟨hstk, hdone, hfl, hempty⟩ := h.paren_facts
  obtain ⟨hcomma, hread, hin44⟩ := h.call_facts
  cases hs : ls.stack with
  | nil =>
    cases hi : ls.input with
    | nil => simp [hs, hi] at hc
    | cons x rest =>
      obtain ⟨hx44, hxc⟩ := hempty hs x rest hi
      have hx9 := hcomma hs x rest hi
      have hflush : ls.flush = false := by
        cases hf : ls.flush
        · rfl
        · obtain ⟨top, st, h1, _⟩ := hfl (by rw [hi]; simp) hf
          rw [hs] at h1
          cases h1
      have h1 : (ls.inCall (t :: cs) (x0 :: r) ioff base pre S0).stack = t :: cs := by
        rw [LState.inCall_stack, hs]
        rfl
      have h2 : (ls.inCall (t :: cs) (x0 :: r) ioff base pre S0).input =
          x :: (rest ++ x0 :: r) := by
        rw [LState.inCall_input, hi]
        rfl
      rw [LState.body_cons_cons h1 h2, LState.inCall_flush_nil _ _ _ _ _ _ hs,
        LState.body_nil_cons hs hi, hflush]
      simp only [Bool.false_eq_true, if_false]
      have hl := symbol_left4 x hx44 (fun h2 => hxc ((symbol_closer_iff x).2 h2)) hx9
      rw [if_pos (by omega)]
      exact LState.push_inCall _ _ _ _ _ _ ls x rest hxc
  | cons top st =>
    have h1 : (ls.inCall (t :: cs) (x0 :: r) ioff base pre S0).stack =
        top :: (st ++ t :: cs) := by
      rw [LState.inCall_stack, hs]
      rfl
    obtain ⟨ht44, ht2⟩ := hstk top (by rw [hs]; exact List.mem_cons_self _ _)
    cases hi : ls.input with
    | nil =>
      have h2 : (ls.inCall (t :: cs) (x0 :: r) ioff base pre S0).input = x0 :: r := by
        rw [LState.inCall_input, hi]
        rfl
      obtain ⟨hno, htop⟩ := hdone hi top st hs
      have hst := openerTop_false hno
      rw [LState.body_cons_cons h1 h2, LState.body_cons_nil hs hi,
        LState.inCall_flush_cons _ _ _ _ _ _ hs]
      by_cases hop : (symbol top).parincrement > 0
      · have hf := htop hop
        rw [hf]
        simp only [hop, decide_True, Bool.and_self, if_true]
        exact LState.pop_inCall _ _ _ _ _ _ hcon ls top st true false (by rw [hst]; rfl)
          (hread top st hs hf)
      · have hr := (symbol_right_facts top ht44).2 hop
        simp only [hop, decide_False, Bool.and_false, Bool.false_eq_true, if_false]
        rw [if_neg (by omega)]
        exact LState.pop_inCall _ _ _ _ _ _ hcon ls top st ls.flush false
          (by rw [hst]; simp)
          (fun hneg => absurd (symbol_variadic_opener top hneg).1 hop)
    | cons x rest =>
      have h2 : (ls.inCall (t :: cs) (x0 :: r) ioff base pre S0).input =
          x :: (rest ++ x0 :: r) := by
        rw [LState.inCall_input, hi]
        rfl
      rw [LState.body_cons_cons h1 h2, LState.body_cons_cons hs hi,
        LState.inCall_flush_cons _ _ _ _ _ _ hs]
      cases hf : ls.flush with
      | true =>
        obtain ⟨top1, st1, h3, hop⟩ := hfl (by rw [hi]; simp) hf
        rw [hs] at h3
        injection h3 with h4 h5
        subst h4
        simp only [hop, decide_True, Bool.and_self, if_true]
        exact LState.pop_inCall _ _ _ _ _ _ hcon ls top st false false (by simp)
          (hread top st hs hf)
      | false =>
        simp only [Bool.false_and, Bool.false_eq_true, if_false]
        by_cases hcmp : (symbol x).leftpriority > (symbol top).rightpriority
        · rw [if_pos hcmp, if_pos hcmp]
          by_cases hxc : (symbol x).parincrement < 0
          · have hx2 := (symbol_closer_iff x).1 hxc
            subst hx2
            have hop : (symbol top).parincrement > 0 := by
              by_contra hno
              have hr := (symbol_right_facts top ht44).2 hno
              have : (symbol 2).leftpriority = 2 := by decide
              omega
            exact LState.push_closer_inCall _ _ _ _ _ _ ls 2 rest top st false false hxc hs hop
          · exact LState.push_inCall _ _ _ _ _ _ ls x rest hxc
        · rw [if_neg hcmp, if_neg hcmp]
          have hnop : ¬ (symbol top).parincrement > 0 := by
            intro hop
            have hr := (symbol_right_facts top ht44).1 hop
            have hx44 := (symbol_left_facts x (hin44 x rest hi)).1
            omega
          exact LState.pop_inCall _ _ _ _ _ _ hcon ls top st false false (by simp)
            (fun hneg => absurd (symbol_variadic_opener top hneg).1 hnop)

theorem LState.loop_add (con : List Rat) : ∀ (a b : Nat) (ls : LState),
    LState.loop con (a + b) ls = LState.loop con b (LState.loop con a ls) := by
  intro a
  induction a with
  | zero =>
    intro b ls
    rw [Nat.zero_add]
    rfl
  | succ a ih =>
    intro b ls
    have e : a + 1 + b = (a + b) + 1 := by omega
    rw [e, LState.loop_succ, LState.loop_succ]
    split
    · exact ih b _
    · rename_i hc
      have h1 : ls.stack = [] := by
        by_contra hne
        exact hc (Or.inl hne)
      have h2 : ls.input = [] := by
        by_contra hne
        exact hc (Or.inr hne)
      exact (LState.loop_stop con h1 h2 b).symm

/-- The sort of the longer stream of symbols passes over the symbols of the expression
as the sort of the expression alone does. -/
theorem LState.loop_inCall {con conb : List Rat} {allrd : List (Oper × Rat)} {nvar : Nat}
    (t : Nat) (cs : List Nat) (x0 : Nat) (r : List Nat) (ioff : Nat) (base : Int)
    (pre : List Int) (S0 : Int)
    (hcon : ∀ i x, con.get? i = some x → conb.get? (i + ioff) = some x)
    (ht : (symbol t).rightpriority ≤ 2) (hx0 : (symbol x0).leftpriority = 2) :
    ∀ (fuel : Nat) (ls : LState), SortInv con allrd nvar ls →
      ∃ n, LState.loop conb n (ls.inCall (t :: cs) (x0 :: r) ioff base pre S0) =
        (LState.loop con fuel ls).inCall (t :: cs) (x0 :: r) ioff base pre S0 := by
  intro fuel
  induction fuel with
  | zero =>
    intro ls _
    exact ⟨0, rfl⟩
  | succ n ih =>
    intro ls hinv
    by_cases hc : ls.stack ≠ [] ∨ ls.input ≠ []
    · obtain ⟨m, hm⟩ := ih (ls.body con) (SortInv_body hinv hc)
      refine ⟨m + 1, ?_⟩
      rw [LState.loop_succ, LState.loop_succ, if_pos hc, if_pos (by
        left
        rw [LState.inCall_stack]
        simp), LState.body_inCall t cs x0 r ioff base pre S0 hcon ht hx0 hinv hc]
      exact hm
    · refine ⟨0, ?_⟩
      rw [LState.loop_succ, if_neg hc]
      rfl

/-- The end of the sort of the symbols of an accepted expression: the sort stack and the
input are empty, one value is on the evaluation stack, all the constants have been
counted, and the opcodes and the stack size are the results of `EvaluationSort`. -/
theorem sortEnd_facts {nvar : Nat} {toks : List Token}
    (hrun : Run nvar ⟨false, []⟩ toks ⟨true, []⟩) :
    SortInv ((Token.consts toks).map Prod.snd) (Token.consts toks) nvar
        ⟨[], toks.map Prod.fst, false, 0, 0, [], 0⟩ ∧
      (sortEnd ((Token.consts toks).map Prod.snd) (toks.map Prod.fst)).stack = [] ∧
      (sortEnd ((Token.consts toks).map Prod.snd) (toks.map Prod.fst)).input = [] ∧
      (sortEnd ((Token.consts toks).map Prod.snd) (toks.map Prod.fst)).nstack = 1 ∧
      (sortEnd ((Token.consts toks).map Prod.snd) (toks.map Prod.fst)).icon =
        ((Token.consts toks).map Prod.snd).length ∧
      1 ≤ (sortEnd ((Token.consts toks).map Prod.snd) (toks.map Prod.fst)).stacksize ∧
      EvaluationSort ((Token.consts toks).map Prod.snd) (toks.map Prod.fst).length
          (toks.map Prod.fst) =
        (((sortEnd ((Token.consts toks).map Prod.snd) (toks.map Prod.fst)).code.length : Int) ::
            (sortEnd ((Token.consts toks).map Prod.snd) (toks.map Prod.fst)).code,
          (sortEnd ((Token.consts toks).map Prod.snd) (toks.map Prod.fst)).stacksize) := by
  generalize hcon : (Token.consts toks).map Prod.snd = con
  generalize hsym : toks.map Prod.fst = syms
  have hinv0 : SortInv con (Token.consts toks) nvar ⟨[], syms, false, 0, 0, [], 0⟩ := by
    refine SortInv.normal _ ⟨false, []⟩ toks [] [] [] hrun hsym.symm (by simp [hcon]) (by simp)
      rfl ?_ (by simp [PendingTop]) (by simp [StackOK]) (by simp [LevelsOK]) (by simp [openers])
      (by intro h; cases h) (by simp) (by simp)
    exact ⟨[], rfl, rfl, rfl, by simp, Or.inl ⟨rfl, rfl⟩⟩
  unfold sortEnd
  have hinv := SortInv_loop (2 * syms.length + 1) _ hinv0
  obtain ⟨hs, hi⟩ := LState.loop_done con (2 * syms.length + 1) ⟨[], syms, false, 0, 0, [], 0⟩
    (by simp only [List.length_nil]; omega)
  obtain ⟨_, hLO⟩ := EvaluationSort_loop_toL con (2 * syms.length + 1) _ (SortState.init_wf syms)
  rw [SortState.init_toL] at hLO
  have h1 := congrArg LState.code hLO
  have h2 := congrArg LState.stacksize hLO
  simp only [SortState.toL] at h1 h2
  have hE : EvaluationSort con syms.length syms =
      (((EvaluationSort_loop con syms.length (2 * syms.length + 1)
          (SortState.init syms)).code.length : Int) ::
        (EvaluationSort_loop con syms.length (2 * syms.length + 1) (SortState.init syms)).code,
        (EvaluationSort_loop con syms.length (2 * syms.length + 1)
          (SortState.init syms)).stacksize) := rfl
  rw [h1, h2] at hE
  generalize LState.loop con (2 * syms.length + 1) ⟨[], syms, false, 0, 0, [], 0⟩ = lsF at *
  refine ⟨hinv0, hs, hi, ?_, ?_, ?_, hE⟩
  all_goals
    cases hinv with
    | normal q toks1 rd drd prd hrun1 hin hcon1 hall hrd htr hpend hst hlev hop hflush hfalse
        hcount =>
      have ht : toks1 = [] := by
        rw [hi] at hin
        exact List.map_eq_nil_iff.1 hin.symm
      subst ht
      have hq := Run.nil_inv hrun1
      subst hq
      rw [hs] at hpend hcount
      simp only [PendingTop] at hpend
      subst hpend
      obtain ⟨tr, htr1, htr2, htr3, htr4, htr5⟩ := htr
      simp at hcount
      first
      | exact hcount
      | (rw [htr3, hcon1, hrd]
         simp [Token.consts])
      | (rcases htr5 with ⟨h1, _⟩ | ⟨d, hd, hd2⟩
         · subst h1
           simp only [lastD] at htr2
           injection htr2 with e1 _
           change (-1 : Int) = lsF.nstack - 1 at e1
           omega
         · have := (htr4 d hd).1
           omega)
    | flushing q toks1 rd drd o a st hrun1 hin hcon1 hall hrd htr hstk hst hnop hlev h1 h2 hop hflush
        hq hcount =>
      rw [hs] at hstk
      cases hstk

/-- The sort of a longer stream of symbols passes over the symbols of an argument: it
generates the opcodes of the argument, counts its constants and leaves one more value on
the evaluation stack. -/
theorem LState.loop_arg {nvar : Nat} {toks : List Token}
    (hrun : Run nvar ⟨false, []⟩ toks ⟨true, []⟩) {conb : List Rat}
    (t : Nat) (cs : List Nat) (x0 : Nat) (r : List Nat) (ioff : Nat) (base : Int)
    (pre : List Int) (S0 : Int)
    (hcon : ∀ i x, ((Token.consts toks).map Prod.snd).get? i = some x →
      conb.get? (i + ioff) = some x)
    (ht : (symbol t).rightpriority ≤ 2) (hx0 : (symbol x0).leftpriority = 2)
    (hb : base ≤ S0) :
    ∃ n, LState.loop conb n
        ⟨t :: cs, toks.map Prod.fst ++ x0 :: r, false, ioff, base, pre, S0⟩ =
      ⟨t :: cs, x0 :: r, false, ioff + ((Token.consts toks).map Prod.snd).length, base + 1,
        pre ++ (sortEnd ((Token.consts toks).map Prod.snd) (toks.map Prod.fst)).code,
        max S0 (base + (sortEnd ((Token.consts toks).map Prod.snd)
          (toks.map Prod.fst)).stacksize)⟩ := by
  obtain ⟨hinv0, hs, hi, hn, hic, _, _⟩ := sortEnd_facts hrun
  obtain ⟨n, hloop⟩ := LState.loop_inCall t cs x0 r ioff base pre S0 hcon ht hx0
    (2 * (toks.map Prod.fst).length + 1) _ hinv0
  refine ⟨n, ?_⟩
  have e0 : LState.inCall (t :: cs) (x0 :: r) ioff base pre S0
      ⟨[], toks.map Prod.fst, false, 0, 0, [], 0⟩ =
      ⟨t :: cs, toks.map Prod.fst ++ x0 :: r, false, ioff, base, pre, S0⟩ := by
    unfold LState.inCall
    simp only [LState.mk.injEq, List.nil_append, Bool.false_and, Nat.zero_add, zero_add,
      List.append_nil, add_zero, true_and]
    omega
  have e1 : LState.inCall (t :: cs) (x0 :: r) ioff base pre S0
      (sortEnd ((Token.consts toks).map Prod.snd) (toks.map Prod.fst)) =
      ⟨t :: cs, x0 :: r, false, ioff + ((Token.consts toks).map Prod.snd).length, base + 1,
        pre ++ (sortEnd ((Token.consts toks).map Prod.snd) (toks.map Prod.fst)).code,
        max S0 (base + (sortEnd ((Token.consts toks).map Prod.snd)
          (toks.map Prod.fst)).stacksize)⟩ := by
    unfold LState.inCall
    rw [hs, hi, hn, hic]
    simp only [LState.mk.injEq, List.nil_append, openerTop, Bool.and_false, true_and,
      and_true]
    constructor <;> omega
  rw [← e0, hloop]
  exact e1

set_option maxRecDepth 100000 in
/-- The symbols `min(` and `max(`. -/
theorem symbol_minmax {o : Nat} (ho : o = 36 ∨ o = 37) :
    (symbol o).rightpriority = 1 ∧ (symbol o).parincrement > 0 ∧ (symbol o).nargs = -2 ∧
      (symbol o).opcode ≠ OP_NULL ∧ o ≠ symbol_ldvar ∧ o ≠ symbol_ldcon ∧
      ((symbol o).opcode = OP_MIN ∨ (symbol o).opcode = OP_MAX) ∧
      (symbol o).size = 4 ∧ (symbol o).operleft = false ∧ (symbol o).operright = true ∧
      (symbol o).unarynext = true := by
  rcases ho with rfl | rfl <;> decide

/-- After an argument, a comma on top of the sort stack is popped before the comma or
the closing parenthesis that follows is read. -/
theorem LState.loop_drop_comma (conb : List Rat) (o : Nat) {cpre : List Nat}
    (hc : cpre = [] ∨ cpre = [9]) (x0 : Nat) (r : List Nat) (hx0 : (symbol x0).leftpriority = 2)
    (ic : Nat) (ns : Int) (code : List Int) (S : Int) :
    ∃ n, LState.loop conb n ⟨cpre ++ [o], x0 :: r, false, ic, ns, code, S⟩ =
      ⟨[o], x0 :: r, false, ic, ns, code, S⟩ := by
  rcases hc with rfl | rfl
  · exact ⟨0, rfl⟩
  · refine ⟨1, ?_⟩
    rw [LState.loop_succ, if_pos (by simp),
      @LState.body_cons_cons conb ⟨[9] ++ [o], x0 :: r, false, ic, ns, code, S⟩ 9 x0 [o] r
        rfl rfl]
    simp only [Bool.false_eq_true, if_false]
    rw [if_neg (by
      have : (symbol 9).rightpriority = 2 := by decide
      omega), LState.pop_null (by decide) (by decide) (by decide)]
    rfl

/-- The comma after an argument goes on to the sort stack. -/
theorem LState.loop_push_comma (conb : List Rat) {o : Nat} (ho : o = 36 ∨ o = 37)
    (r : List Nat) (ic : Nat) (ns : Int) (code : List Int) (S : Int) :
    LState.loop conb 1 ⟨[o], 9 :: r, false, ic, ns, code, S⟩ =
      ⟨[9] ++ [o], r, false, ic, ns, code, S⟩ := by
  obtain ⟨hr, _⟩ := symbol_minmax ho
  rw [LState.loop_succ, if_pos (by simp),
    @LState.body_cons_cons conb ⟨[o], 9 :: r, false, ic, ns, code, S⟩ o 9 [] r rfl rfl]
  simp only [Bool.false_eq_true, if_false]
  rw [if_pos (by
    have : (symbol 9).leftpriority = 2 := by decide
    omega), LState.push_other (by decide)]
  rfl

/-- The closing parenthesis of the call: it is read, and the function is popped, which
generates its opcode and counts the constant that holds the number of arguments. -/
theorem LState.loop_close_call (conb : List Rat) {o : Nat} (ho : o = 36 ∨ o = 37)
    (ic : Nat) (ns : Int) (code : List Int) (S : Int) :
    LState.loop conb 2 ⟨[o], [2], false, ic, ns, code, S⟩ =
      ⟨[], [], true, ic + 1, ns - (c_int (conb.getD ic 0 + 1 / 2) - 1),
        code ++ [(symbol o).opcode.toInt],
        if ns - (c_int (conb.getD ic 0 + 1 / 2) - 1) > S
          then ns - (c_int (conb.getD ic 0 + 1 / 2) - 1) else S⟩ := by
  obtain ⟨hr, _, hn, hop, h0, h1, _⟩ := symbol_minmax ho
  rw [LState.loop_succ, if_pos (by simp),
    @LState.body_cons_cons conb ⟨[o], [2], false, ic, ns, code, S⟩ o 2 [] [] rfl rfl]
  simp only [Bool.false_eq_true, if_false]
  rw [if_pos (by
    have : (symbol 2).leftpriority = 2 := by decide
    omega), LState.push_closer (by decide)]
  rw [LState.loop_succ, if_pos (by simp),
    @LState.body_cons_nil conb _ o [] rfl rfl,
    LState.pop_variadic hop (by omega) h0 h1]
  rfl

theorem getD_con_after (KA ks KB : List Rat) :
    (KA ++ (ks ++ KB)).getD (KA.length + ks.length) 0 = KB.getD 0 0 := by
  rw [← List.append_assoc, List.getD_eq_getElem?_getD, List.getD_eq_getElem?_getD,
    List.getElem?_append_right (by simp)]
  simp

theorem callSyms_cons_cons (s s2 : List Nat) (ss : List (List Nat)) :
    callSyms (s :: s2 :: ss) = s ++ 9 :: callSyms (s2 :: ss) := rfl

/-- The sort of the symbols of a call of `min(` or `max(`, from the first argument on:
the opcodes of the arguments are generated in turn and then the opcode of the function,
which takes the constant after the constants of the arguments. -/
theorem LState.loop_call {nvar : Nat} {o : Nat} (ho : o = 36 ∨ o = 37) (conb KB : List Rat) :
    ∀ (rest : List (List Token)) (t1 : List Token) (cpre : List Nat) (KA : List Rat)
      (base : Int) (pre : List Int) (S0 : Int),
      (cpre = [] ∨ cpre = [9]) → base ≤ S0 →
      (∀ t ∈ t1 :: rest, Run nvar ⟨false, []⟩ t ⟨true, []⟩) →
      conb = KA ++ (((t1 :: rest).flatMap fun t => (Token.consts t).map Prod.snd) ++ KB) →
      ∃ n S1,
        LState.loop conb n
            ⟨cpre ++ [o], callSyms ((t1 :: rest).map fun t => t.map Prod.fst), false,
              KA.length, base, pre, S0⟩ =
          ⟨[], [], true,
            KA.length + ((t1 :: rest).flatMap fun t => (Token.consts t).map Prod.snd).length + 1,
            base + ((rest.length : Int) + 1) - (c_int (KB.getD 0 0 + 1 / 2) - 1),
            pre ++ (((t1 :: rest).flatMap fun t =>
              (sortEnd ((Token.consts t).map Prod.snd) (t.map Prod.fst)).code) ++
                [(symbol o).opcode.toInt]),
            S1⟩ ∧
        S0 ≤ S1 ∧
        ∀ i t, (t1 :: rest).get? i = some t →
          base + i + (sortEnd ((Token.consts t).map Prod.snd) (t.map Prod.fst)).stacksize ≤ S1 := by
  intro rest
  induction rest with
  | nil =>
    intro t1 cpre KA base pre S0 hc hb hall hconb
    have hrun := hall t1 (List.mem_cons_self _ _)
    obtain ⟨_, _, _, _, _, hs1, _⟩ := sortEnd_facts hrun
    have htop : ∃ t cs, cpre ++ [o] = t :: cs ∧ (symbol t).rightpriority ≤ 2 := by
      obtain ⟨hr, _⟩ := symbol_minmax ho
      rcases hc with rfl | rfl
      · exact ⟨o, [], rfl, by omega⟩
      · exact ⟨9, [o], rfl, by decide⟩
    obtain ⟨t, cs, hcs, ht⟩ := htop
    simp only [List.flatMap_cons, List.flatMap_nil, List.append_nil, List.map_cons,
      List.map_nil] at hconb ⊢
    obtain ⟨n1, h1⟩ := @LState.loop_arg _ _ hrun conb t cs 2 [] KA.length base pre S0
      (by
        intro i x hx
        rw [hconb]
        exact get?_con_part KA _ KB i x hx)
      ht (by decide) hb
    obtain ⟨n2, h2⟩ := LState.loop_drop_comma conb o hc 2 [] (by decide)
      (KA.length + ((Token.consts t1).map Prod.snd).length) (base + 1)
      (pre ++ (sortEnd ((Token.consts t1).map Prod.snd) (t1.map Prod.fst)).code)
      (max S0 (base + (sortEnd ((Token.consts t1).map Prod.snd) (t1.map Prod.fst)).stacksize))
    have h3 := LState.loop_close_call conb ho
      (KA.length + ((Token.consts t1).map Prod.snd).length) (base + 1)
      (pre ++ (sortEnd ((Token.consts t1).map Prod.snd) (t1.map Prod.fst)).code)
      (max S0 (base + (sortEnd ((Token.consts t1).map Prod.snd) (t1.map Prod.fst)).stacksize))
    have e : conb.getD (KA.length + ((Token.consts t1).map Prod.snd).length) 0 =
        KB.getD 0 0 := by
      rw [hconb]
      exact getD_con_after KA _ KB
    rw [e] at h3
    refine ⟨n1 + (n2 + 2),
      (if base + 1 - (c_int (KB.getD 0 0 + 1 / 2) - 1) >
          max S0 (base + (sortEnd ((Token.consts t1).map Prod.snd) (t1.map Prod.fst)).stacksize)
        then base + 1 - (c_int (KB.getD 0 0 + 1 / 2) - 1)
        else max S0 (base + (sortEnd ((Token.consts t1).map Prod.snd)
          (t1.map Prod.fst)).stacksize)), ?_, ?_, ?_⟩
    · show LState.loop conb (n1 + (n2 + 2))
        ⟨cpre ++ [o], t1.map Prod.fst ++ [2], false, KA.length, base, pre, S0⟩ = _
      rw [LState.loop_add, hcs, h1, ← hcs, LState.loop_add, h2, h3]
      simp only [LState.mk.injEq, List.append_assoc, List.length_nil, true_and, and_true]
      push_cast
      omega
    · split <;> omega
    · intro i t2 hi
      cases i with
      | zero =>
        simp only [List.get?_cons_zero, Option.some.injEq] at hi
        subst hi
        split <;> (push_cast; omega)
      | succ i => cases hi
  | cons t2 rest ih =>
    intro t1 cpre KA base pre S0 hc hb hall hconb
    have hrun := hall t1 (List.mem_cons_self _ _)
    obtain ⟨_, _, _, _, _, hs1, _⟩ := sortEnd_facts hrun
    have htop : ∃ t cs, cpre ++ [o] = t :: cs ∧ (symbol t).rightpriority ≤ 2 := by
      obtain ⟨hr, _⟩ := symbol_minmax ho
      rcases hc with rfl | rfl
      · exact ⟨o, [], rfl, by omega⟩
      · exact ⟨9, [o], rfl, by decide⟩
    obtain ⟨t, cs, hcs, ht⟩ := htop
    rw [List.flatMap_cons, List.append_assoc] at hconb
    have hsyms : callSyms ((t1 :: t2 :: rest).map fun t => t.map Prod.fst) =
        t1.map Prod.fst ++ 9 :: callSyms ((t2 :: rest).map fun t => t.map Prod.fst) := rfl
    rw [hsyms]
    obtain ⟨n1, h1⟩ := @LState.loop_arg _ _ hrun conb t cs 9
      (callSyms ((t2 :: rest).map fun t => t.map Prod.fst)) KA.length base pre S0
      (by
        intro i x hx
        rw [hconb]
        exact get?_con_part KA _ _ i x hx)
      ht (by decide) hb
    obtain ⟨n2, h2⟩ := LState.loop_drop_comma conb o hc 9
      (callSyms ((t2 :: rest).map fun t => t.map Prod.fst)) (by decide)
      (KA.length + ((Token.consts t1).map Prod.snd).length) (base + 1)
      (pre ++ (sortEnd ((Token.consts t1).map Prod.snd) (t1.map Prod.fst)).code)
      (max S0 (base + (sortEnd ((Token.consts t1).map Prod.snd) (t1.map Prod.fst)).stacksize))
    have h3 := LState.loop_push_comma conb ho
      (callSyms ((t2 :: rest).map fun t => t.map Prod.fst))
      (KA.length + ((Token.consts t1).map Prod.snd).length) (base + 1)
      (pre ++ (sortEnd ((Token.consts t1).map Prod.snd) (t1.map Prod.fst)).code)
      (max S0 (base + (sortEnd ((Token.consts t1).map Prod.snd) (t1.map Prod.fst)).stacksize))
    obtain ⟨n4, S1, h4, h5, h6⟩ := ih t2 [9] (KA ++ (Token.consts t1).map Prod.snd) (base + 1)
      (pre ++ (sortEnd ((Token.consts t1).map Prod.snd) (t1.map Prod.fst)).code)
      (max S0 (base + (sortEnd ((Token.consts t1).map Prod.snd) (t1.map Prod.fst)).stacksize))
      (Or.inr rfl) (by omega) (fun x hx => hall x (List.mem_cons_of_mem _ hx))
      (by rw [hconb, List.append_assoc])
    refine ⟨n1 + (n2 + (1 + n4)), S1, ?_, by omega, ?_⟩
    · rw [LState.loop_add, hcs, h1, ← hcs, LState.loop_add, h2, LState.loop_add, h3]
      rw [List.length_append] at h4
      rw [h4]
      simp only [LState.mk.injEq, List.append_assoc, List.flatMap_cons, List.length_append,
        List.length_cons, true_and, and_true]
      refine ⟨by omega, ?_⟩
      push_cast
      omega
    · intro i x hi
      cases i with
      | zero =>
        simp only [List.get?_cons_zero, Option.some.injEq] at hi
        subst hi
        simp
        omega
      | succ i =>
        have := h6 i x (by simpa using hi)
        push_cast
        omega

/-! ## The walk over an expression inside a longer text -/

theorem cget_inText_lt (pre e : List Char) (c : Char) (post : List Char) {i : Nat}
    (h : i < e.length) : cget (inText pre e c post) (i + pre.length) = cget e i := by
  unfold inText cget
  rw [List.getD_eq_getElem?_getD, List.getD_eq_getElem?_getD,
    List.getElem?_append_right (by omega)]
  have : i + pre.length - pre.length = i := by omega
  rw [this, List.getElem?_append_left h]

theorem cget_inText_end (pre e : List Char) (c : Char) (post : List Char) :
    cget (inText pre e c post) (e.length + pre.length) = c := by
  unfold inText cget
  rw [List.getD_eq_getElem?_getD, List.getElem?_append_right (by omega)]
  have : e.length + pre.length - pre.length = e.length := by omega
  rw [this, List.getElem?_append_right (Nat.le_refl _)]
  simp

theorem inText_length (pre e : List Char) (c : Char) (post : List Char) :
    (inText pre e c post).length = pre.length + (e.length + (post.length + 1)) := by
  simp [inText]

set_option maxRecDepth 100000 in
set_option synthInstance.maxSize 4000 in
/-- The texts of the symbols have a comma only as the one character of the symbol `,`. -/
theorem symbol_text_comma : ∀ sym < 44, ∀ j < 7, j < (symbol sym).size → 1 ≤ j →
    cget (symbol sym).text.toList j ≠ ',' := by
  decide

/-- Comparison of a symbol's text with the expression gives the same result at the
corresponding position of the longer text, when the character after the expression is a
comma or a closing parenthesis. -/
theorem strncmp0_inText (pre e : List Char) {c : Char} (hc : c = ',' ∨ c = ')')
    (post : List Char) (t : List Char) :
    ∀ (n ia ib : Nat), ia ≤ e.length → (1 ≤ ib ∨ ia < e.length) →
      (∀ j, ib ≤ j → j < ib + n → cget t j ≠ NUL ∧ (1 ≤ j → cget t j ≠ ')' ∧ cget t j ≠ ',')) →
      strncmp0 (inText pre e c post) (ia + pre.length) t ib n = strncmp0 e ia t ib n := by
  intro n
  induction n with
  | zero => intro _ _ _ _ _; rfl
  | succ n ih =>
    intro ia ib hia hor ht
    obtain ⟨ht1, ht2⟩ := ht ib (Nat.le_refl _) (by omega)
    rcases Nat.lt_or_ge ia e.length with hlt | hge
    · unfold strncmp0
      rw [cget_inText_lt pre e c post hlt]
      have e1 : ia + pre.length + 1 = ia + 1 + pre.length := by omega
      rw [e1, ih (ia + 1) (ib + 1) (by omega) (Or.inl (by omega))
        (fun j h1 h2 => ht j (by omega) (by omega))]
    · have hia2 : ia = e.length := by omega
      subst hia2
      have hib : 1 ≤ ib := by
        rcases hor with h | h
        · exact h
        · omega
      have h1 : cget e e.length ≠ cget t ib := by
        rw [cget_of_length_le (Nat.le_refl _)]
        exact fun h => ht1 h.symm
      have h2 : cget (inText pre e c post) (e.length + pre.length) ≠ cget t ib := by
        rw [cget_inText_end]
        rcases hc with rfl | rfl
        · exact fun h => (ht2 hib).2 h.symm
        · exact fun h => (ht2 hib).1 h.symm
      rw [strncmp0_first_ne h1, strncmp0_first_ne h2]

/-- The search of the symbol table finds the same symbol at the corresponding position of
the longer text. -/
theorem findSymbol_inText (pre e : List Char) {c : Char} (hc : c = ',' ∨ c = ')')
    (post : List Char) {i : Nat} (hi : i < e.length) (o u : Bool) :
    ∀ l : List Nat, (∀ s ∈ l, s < 44) →
      findSymbol (inText pre e c post) (i + pre.length) o u l = findSymbol e i o u l := by
  intro l
  induction l with
  | nil => intro _; rfl
  | cons s l ih =>
    intro hl
    have hs := hl s (List.mem_cons_self _ _)
    have hcmp : strncmp0 (inText pre e c post) (i + pre.length) (symbol s).text.toList 0
        (symbol s).size = strncmp0 e i (symbol s).text.toList 0 (symbol s).size := by
      apply strncmp0_inText pre e hc post _ _ _ _ (by omega) (Or.inr hi)
      intro j _ hj
      have h7 : (symbol s).size ≤ 7 := by
        by_cases h0 : 0 < (symbol s).size
        · exact (symbol_text_chars s hs 0 (by omega) h0).2.2
        · omega
      obtain ⟨h1, h2, _⟩ := symbol_text_chars s hs j (by omega) (by omega)
      exact ⟨h1, fun hj1 => ⟨h2 hj1, symbol_text_comma s hs j (by omega) (by omega) hj1⟩⟩
    unfold findSymbol
    rw [hcmp, ih (fun x hx => hl x (List.mem_cons_of_mem _ hx))]

theorem findSymbol_inText_table (pre e : List Char) {c : Char} (hc : c = ',' ∨ c = ')')
    (post : List Char) {i : Nat} (hi : i < e.length) (o u : Bool) :
    findSymbol (inText pre e c post) (i + pre.length) o u (List.range symbolTable.length) =
      findSymbol e i o u (List.range symbolTable.length) := by
  apply findSymbol_inText pre e hc post hi
  intro s hs
  simpa [symbolTable] using List.mem_range.1 hs

theorem ParseConstant_body_shift (n : Nat) (c : Char) (s : PCState) :
    ParseConstant_body c (s.shift n) = (ParseConstant_body c s).shift n := by
  unfold ParseConstant_body PCState.shift
  simp only
  split_ifs <;> simp only [PCState.mk.injEq, and_true, true_and] <;> omega

/-- The scanning loop of `ParseConstant` ends in the longer text at the corresponding
position, with the same flags. -/
theorem ParseConstant_loop_inText (pre : List Char) {e : List Char}
    (hN : ∀ c ∈ e, c ≠ NUL) {c : Char} (hc : c = ',' ∨ c = ')') (post : List Char) :
    ∀ (fa fb : Nat) (s : PCState), fa ≤ fb → s.iend + 1 ≤ e.length →
      (s.iscon = true → s.valid = true ∧ e.length ≤ s.iend + fa) →
      (ParseConstant_loop (inText pre e c post) fb (s.shift pre.length)).iend =
        (ParseConstant_loop e fa s).iend + pre.length ∧
      (ParseConstant_loop (inText pre e c post) fb (s.shift pre.length)).numer =
        (ParseConstant_loop e fa s).numer ∧
      (ParseConstant_loop (inText pre e c post) fb (s.shift pre.length)).valid =
        (ParseConstant_loop e fa s).valid ∧
      (ParseConstant_loop e fa s).iend + 1 ≤ e.length := by
  intro fa
  induction fa with
  | zero =>
    intro fb s _ hle hcon
    have hic : s.iscon = false := by
      rcases Bool.eq_false_or_eq_true s.iscon with h | h
      · have := (hcon h).2
        omega
      · exact h
    have hic2 : (s.shift pre.length).iscon = false := hic
    rw [ParseConstant_loop_stop hic, ParseConstant_loop_stop hic2]
    exact ⟨rfl, rfl, rfl, hle⟩
  | succ fa ih =>
    intro fb s hfb hle hcon
    rcases Bool.eq_false_or_eq_true s.iscon with hic | hic
    · obtain ⟨hv, hfuel⟩ := hcon hic
      have hic2 : (s.shift pre.length).iscon = true := hic
      have hiend : (s.shift pre.length).iend + 1 = s.iend + 1 + pre.length := by
        show s.iend + pre.length + 1 = s.iend + 1 + pre.length
        omega
      obtain ⟨fb1, rfl⟩ : ∃ fb1, fb = fb1 + 1 := ⟨fb - 1, by omega⟩
      rcases Nat.lt_or_ge (s.iend + 1) e.length with hlt | hge
      · have hcn : cget e (s.iend + 1) ≠ NUL := cget_ne_NUL_of_lt hN hlt
        have hcb : cget (inText pre e c post) (s.iend + 1 + pre.length) = cget e (s.iend + 1) :=
          cget_inText_lt pre e c post hlt
        have e1 : ParseConstant_loop e (fa + 1) s =
            ParseConstant_loop e fa (ParseConstant_body (cget e (s.iend + 1)) s) := by
          rw [ParseConstant_loop]
          simp [hcn, hic]
        have e2 : ParseConstant_loop (inText pre e c post) (fb1 + 1) (s.shift pre.length) =
            ParseConstant_loop (inText pre e c post) fb1
              ((ParseConstant_body (cget e (s.iend + 1)) s).shift pre.length) := by
          rw [ParseConstant_loop, hiend, hcb, ← ParseConstant_body_shift]
          simp [hcn, hic2]
        rw [e1, e2]
        rcases ParseConstant_body_cases (cget e (s.iend + 1)) s hv with
          ⟨h1, h2, h3, _⟩ | ⟨h1, _, h3⟩ | ⟨h1, _⟩
        · exact ih fb1 _ (by omega) (by omega) (fun _ => ⟨h2, by omega⟩)
        · exact ih fb1 _ (by omega) (by omega) (fun h => by rw [h1] at h; cases h)
        · refine ih fb1 _ (by omega) (by rw [h1]; exact le_of_lt hlt)
            (fun h => by rw [h1] at h; cases h)
      · have hend : s.iend + 1 = e.length := by omega
        have hcn : cget e (s.iend + 1) = NUL := cget_of_length_le (by omega)
        have hcb : cget (inText pre e c post) (s.iend + 1 + pre.length) = c := by
          rw [hend]
          exact cget_inText_end pre e c post
        have e1 : ParseConstant_loop e (fa + 1) s = s := by
          rw [ParseConstant_loop]
          simp [hcn]
        have hv2 : (s.shift pre.length).valid = true := hv
        have hbody : ParseConstant_body c (s.shift pre.length) =
            { s.shift pre.length with iscon := false } := by
          rcases hc with rfl | rfl
          · rw [ParseConstant_body_other (by decide) (by decide) (by decide) (by decide)
              (by decide) (by decide), if_pos hv2]
          · rw [ParseConstant_body_other (by decide) (by decide) (by decide) (by decide)
              (by decide) (by decide), if_pos hv2]
        have hne : (c != NUL) = true := by
          rcases hc with rfl | rfl <;> decide
        have e2 : ParseConstant_loop (inText pre e c post) (fb1 + 1) (s.shift pre.length) =
            { s.shift pre.length with iscon := false } := by
          rw [ParseConstant_loop, hiend, hcb, hbody]
          simp only [hne, hic2, Bool.and_self, if_true]
          exact ParseConstant_loop_stop rfl fb1
        rw [e1, e2]
        exact ⟨rfl, rfl, rfl, hle⟩
    · have hic2 : (s.shift pre.length).iscon = false := hic
      rw [ParseConstant_loop_stop hic, ParseConstant_loop_stop hic2]
      exact ⟨rfl, rfl, rfl, hle⟩

theorem ParseConstant_init_inText (pre e : List Char) (c : Char) (post : List Char) {i : Nat}
    (hi : i < e.length) :
    ParseConstant_init (inText pre e c post) (i + pre.length) =
      (ParseConstant_init e i).shift pre.length := by
  unfold ParseConstant_init PCState.shift
  rw [cget_inText_lt pre e c post hi]

theorem take_drop_inText (pre e : List Char) (c : Char) (post : List Char) {i n : Nat}
    (h : i + n ≤ e.length) :
    ((inText pre e c post).drop (i + pre.length)).take n = (e.drop i).take n := by
  unfold inText
  rw [List.drop_append_eq_append_drop]
  have h1 : List.drop (i + pre.length) pre = [] := List.drop_eq_nil_of_le (by omega)
  have h2 : i + pre.length - pre.length = i := by omega
  rw [h1, h2, List.nil_append, List.drop_append_of_le_length (by omega),
    List.take_append_of_le_length (by rw [List.length_drop]; omega)]

/-- A constant of the expression is the constant found at the corresponding position of
the longer text. -/
theorem ParseConstant_inText (pre : List Char) {e : List Char} (hN : ∀ c ∈ e, c ≠ NUL)
    {c : Char} (hc : c = ',' ∨ c = ')') (post : List Char) {i : Nat}
    (hi : i < e.length) {iend : Int} {x : Rat} (h : ParseConstant e i = .ok (iend, x)) :
    ∃ iend1 : Int, ParseConstant (inText pre e c post) (i + pre.length) = .ok (iend1, x) ∧
      (iend ≥ (i : Int) → iend1 = iend + pre.length ∧ iend < (e.length : Int)) ∧
      (¬ iend ≥ (i : Int) → ¬ iend1 ≥ ((i + pre.length : Nat) : Int)) := by
  by_cases hstart : (cget e i).isDigit = true ∨ cget e i = '.'
  · have hstart1 : (cget (inText pre e c post) (i + pre.length)).isDigit = true ∨
        cget (inText pre e c post) (i + pre.length) = '.' := by
      rw [cget_inText_lt pre e c post hi]
      exact hstart
    rw [ParseConstant_of_start hstart] at h
    rw [ParseConstant_of_start hstart1, ParseConstant_init_inText pre e c post hi]
    obtain ⟨h1, h2, h3, h4⟩ := ParseConstant_loop_inText pre hN hc post (e.length + 1)
      ((inText pre e c post).length + 1)
      (ParseConstant_init e i) (by rw [inText_length]; omega) (by show i + 1 ≤ e.length; omega)
      (fun _ => ⟨rfl, by show e.length ≤ i + (e.length + 1); omega⟩)
    generalize ParseConstant_loop (inText pre e c post) ((inText pre e c post).length + 1)
      ((ParseConstant_init e i).shift pre.length) = rb at h1 h2 h3 ⊢
    generalize ParseConstant_loop e (e.length + 1) (ParseConstant_init e i) = ra at h h1 h2 h3 h4
    rw [h1, h2, h3]
    have hn : ra.iend + pre.length - (i + pre.length) + 1 = ra.iend - i + 1 := by omega
    rw [hn, take_drop_inText pre e c post (by omega)]
    split at h
    · rename_i hcond
      rw [if_pos hcond]
      split at h
      · rename_i v nc hs
        split at h
        · rename_i hnc
          rw [if_pos hnc]
          injection h with h
          injection h with h5 h6
          subst h5
          subst h6
          refine ⟨_, rfl, ?_, ?_⟩
          · intro _
            constructor
            · push_cast
              rfl
            · omega
          · intro hlt
            push_cast
            omega
        · cases h
      · cases h
    · cases h
  · have h1 : (cget e i).isDigit = false := by
      cases hd : (cget e i).isDigit
      · rfl
      · exact absurd (Or.inl hd) hstart
    have h2 : cget e i ≠ '.' := fun hp => hstart (Or.inr hp)
    rw [ParseConstant_of_not_start h1 h2] at h
    injection h with h
    injection h with h5 h6
    subst h5
    subst h6
    refine ⟨-1, ?_, ?_, ?_⟩
    · apply ParseConstant_of_not_start
      · rw [cget_inText_lt pre e c post hi]
        exact h1
      · rw [cget_inText_lt pre e c post hi]
        exact h2
    · intro hge
      omega
    · intro _
      omega

theorem ParseName_loop_inText (pre e : List Char) {c : Char} (hc : c = ',' ∨ c = ')')
    (post : List Char) :
    ∀ (fa fb i : Nat), fa ≤ fb → i < e.length → e.length ≤ i + fa →
      ParseName_loop (inText pre e c post) fb (i + pre.length) =
        ParseName_loop e fa i + pre.length ∧
      ParseName_loop e fa i < e.length := by
  intro fa
  induction fa with
  | zero =>
    intro fb i _ h1 h2
    omega
  | succ fa ih =>
    intro fb i hfb hi hfuel
    obtain ⟨fb1, rfl⟩ : ∃ fb1, fb = fb1 + 1 := ⟨fb - 1, by omega⟩
    have e0 : i + pre.length + 1 = i + 1 + pre.length := by omega
    rcases Nat.lt_or_ge (i + 1) e.length with hlt | hge
    · have hcb : cget (inText pre e c post) (i + 1 + pre.length) = cget e (i + 1) :=
        cget_inText_lt pre e c post hlt
      unfold ParseName_loop
      simp only
      rw [e0, hcb]
      split
      · exact ih fb1 (i + 1) (by omega) hlt (by omega)
      · exact ⟨rfl, hi⟩
    · have hend : i + 1 = e.length := by omega
      have hcn : cget e (i + 1) = NUL := cget_of_length_le (by omega)
      have hcb : cget (inText pre e c post) (i + 1 + pre.length) = c := by
        rw [hend]
        exact cget_inText_end pre e c post
      unfold ParseName_loop
      simp only
      rw [e0, hcb, hcn]
      rcases hc with rfl | rfl
      · rw [if_neg (by decide), if_neg (by decide)]
        exact ⟨rfl, hi⟩
      · rw [if_neg (by decide), if_neg (by decide)]
        exact ⟨rfl, hi⟩

theorem strncmp0_inText_within (pre e : List Char) (c : Char) (post t : List Char) :
    ∀ (n ia ib : Nat), ia + n ≤ e.length →
      strncmp0 (inText pre e c post) (ia + pre.length) t ib n = strncmp0 e ia t ib n := by
  intro n
  induction n with
  | zero => intro _ _ _; rfl
  | succ n ih =>
    intro ia ib h
    unfold strncmp0
    have e0 : ia + pre.length + 1 = ia + 1 + pre.length := by omega
    rw [cget_inText_lt pre e c post (by omega : ia < e.length), e0,
      ih (ia + 1) (ib + 1) (by omega)]

theorem ParseVariable_find_inText (pre e : List Char) (c : Char) (post : List Char)
    {istart nc : Nat} (nvar : Nat) (var : List (List Char)) (h : istart + nc ≤ e.length) :
    ∀ (fuel ivar : Nat),
      ParseVariable_find (inText pre e c post) (istart + pre.length) nc nvar var fuel ivar =
        ParseVariable_find e istart nc nvar var fuel ivar := by
  intro fuel
  induction fuel with
  | zero => intro _; rfl
  | succ n ih =>
    intro ivar
    unfold ParseVariable_find
    rw [strncmp0_inText_within pre e c post _ nc istart 0 h, ih (ivar + 1)]

/-- A variable of the expression is the variable found at the corresponding position of
the longer text. -/
theorem ParseVariable_inText (pre e : List Char) {c : Char} (hc : c = ',' ∨ c = ')')
    (post : List Char) {i : Nat} (hi : i < e.length) (nvar : Nat) (var : List (List Char))
    {ivar iend : Int} (h : ParseVariable e i nvar var = .ok (ivar, iend)) (hne : ivar ≠ -1) :
    ParseVariable (inText pre e c post) (i + pre.length) nvar var =
        .ok (ivar, iend + pre.length) ∧
      0 ≤ iend ∧ iend < (e.length : Int) := by
  cases halpha : (cget e i).isAlpha with
  | false =>
    rw [ParseVariable_of_not_alpha nvar var halpha] at h
    injection h with h
    injection h with h1 _
    exact absurd h1.symm hne
  | true =>
    have halpha1 : (cget (inText pre e c post) (i + pre.length)).isAlpha = true := by
      rw [cget_inText_lt pre e c post hi]
      exact halpha
    rw [ParseVariable_of_alpha nvar var halpha] at h
    rw [ParseVariable_of_alpha nvar var halpha1]
    obtain ⟨h1, h2⟩ := ParseName_loop_inText pre e hc post (e.length + 1)
      ((inText pre e c post).length + 1) i (by rw [inText_length]; omega) hi (by omega)
    have hle := (ParseName_loop_spec e (e.length + 1) i).1
    rw [h1]
    generalize ParseName_loop e (e.length + 1) i = r at h h1 h2 hle
    have hn : r + pre.length - (i + pre.length) + 1 = r - i + 1 := by omega
    rw [hn, ParseVariable_find_inText pre e c post nvar var (by omega)]
    split at h
    · rename_i iv hf
      injection h with h
      injection h with h3 h4
      subst h3
      subst h4
      refine ⟨?_, by omega, by omega⟩
      push_cast
      rfl
    · cases h

/-- A symbol that `ValidateSymbol` accepts for the argument alone is accepted inside the
call, with the same effect on the levels above the level of the call. -/
theorem ValidateSymbol_inCall (exprs exprsb : List Char) (iend iendb sym : Nat)
    {o : Nat} {a : Int} {K : List Rat} {v vb v1 : VState}
    (hr : VState.inCall o a K v vb) (h : ValidateSymbol exprs iend sym v = .ok v1)
    (hok1 : v1.ok) :
    ∃ vb1, ValidateSymbol exprsb iendb sym vb = .ok vb1 ∧ VState.inCall o a K v1 vb1 := by
  obtain ⟨lpar, ac, os, con⟩ := v
  obtain ⟨lparb, acb, osb, conb⟩ := vb
  obtain ⟨r1, r2, ⟨h0, hl1, hl2⟩, ⟨_, hb1, hb2⟩, r5, r6, r7⟩ := hr
  simp only at r1 r2 h0 hl1 hl2 hb1 hb2 r5 r6 r7
  subst r1
  subst r2
  obtain ⟨n, rfl⟩ := Int.eq_ofNat_of_zero_le h0
  have e0 : (((n : Nat) : Int) + 1).toNat = n + 1 := by omega
  have e00 : ((n : Nat) : Int).toNat = n := by omega
  rw [e0] at hb1 hb2
  rw [e00] at hl1 hl2
  unfold ValidateSymbol at h ⊢
  simp only at h ⊢
  by_cases hcomma : cget (symbol sym).text.toList 0 = ',' ∧ cget (symbol sym).text.toList 1 = NUL
  · rw [if_pos hcomma] at h ⊢
    split at h
    · cases h
    · rename_i hc2
      have hn : 1 ≤ n := by
        by_contra hlt
        exact hc2 (Or.inl (by omega))
      obtain ⟨m, rfl⟩ : ∃ m, n = m + 1 := ⟨n - 1, by omega⟩
      have e1 : (((m + 1 : Nat) : Int) - 1).toNat = m := by omega
      have e2 : (((m + 1 : Nat) : Int) + 1 - 1).toNat = m + 1 := by omega
      rw [e1] at h hc2
      have hm := (r7 m (by omega)).1
      rw [e2, hm, if_neg (by
        intro hx
        rcases hx with hx | hx
        · omega
        · exact hc2 (Or.inr hx))]
      injection h with h
      subst h
      refine ⟨_, rfl, rfl, rfl, hok1, ⟨by simp only; omega, by simp only [List.length_set]; omega,
        by simp only; omega⟩, ?_, r6, ?_⟩
      · show (acb.set (m + 1) _).getD 0 0 = a
        rw [getD_set_ne _ _ _ (by omega)]
        exact r5
      · intro j hj
        simp only at hj ⊢
        refine ⟨?_, (r7 j hj).2⟩
        by_cases hjm : j = m
        · subst hjm
          rw [getD_set_self _ _ _ _ (by omega), getD_set_self _ _ _ _ (by omega)]
        · rw [getD_set_ne _ _ _ (by omega), getD_set_ne _ _ _ (by omega)]
          exact (r7 j hj).1
  · rw [if_neg hcomma] at h ⊢
    by_cases hopen : (symbol sym).parincrement > 0
    · rw [if_pos hopen] at h ⊢
      injection h with h
      subst h
      rw [e0, e00]
      refine ⟨_, rfl, rfl, rfl, hok1, ⟨by simp only; omega, ?_, ?_⟩, ?_, ?_, ?_⟩
      · have := arrSet_length (0 : Int) acb (n + 1) (if (symbol sym).nargs ≠ 0 then 1 else 0)
        simp only
        omega
      · have := arrSet_length (0 : Nat) osb (n + 1) sym
        simp only
        omega
      · show (arrSet 0 acb (n + 1) _).getD 0 0 = a
        rw [arrSet_getD_of_lt _ _ _ (by omega)]
        exact r5
      · show (arrSet 0 osb (n + 1) _).getD 0 0 = o
        rw [arrSet_getD_of_lt _ _ _ (by omega)]
        exact r6
      · intro j hj
        simp only at hj ⊢
        by_cases hjn : j = n
        · subst hjn
          rw [arrSet_getD_self, arrSet_getD_self, arrSet_getD_self, arrSet_getD_self]
          exact ⟨rfl, rfl⟩
        · rw [arrSet_getD_of_lt _ _ _ (by omega), arrSet_getD_of_lt _ _ _ (by omega),
            arrSet_getD_of_lt _ _ _ (by omega), arrSet_getD_of_lt _ _ _ (by omega)]
          exact r7 j (by omega)
    · rw [if_neg hopen] at h ⊢
      by_cases hclose : (symbol sym).parincrement < 0
      · rw [if_pos hclose] at h ⊢
        split at h
        · cases h
        · rename_i hn0
          have hn : 1 ≤ n := by
            by_contra hlt
            exact hn0 (by omega)
          obtain ⟨m, rfl⟩ : ∃ m, n = m + 1 := ⟨n - 1, by omega⟩
          have e1 : (((m + 1 : Nat) : Int) - 1).toNat = m := by omega
          have e2 : (((m + 1 : Nat) : Int) + 1 - 1).toNat = m + 1 := by omega
          have e3 : ((m + 1 : Nat) : Int) + 1 - 1 = ((m + 1 : Nat) : Int) - 1 + 1 := by omega
          obtain ⟨hm1, hm2⟩ := r7 m (by omega)
          rw [e1] at h
          rw [if_neg (by omega), e2, hm1, hm2]
          have hrel : ∀ (c1 : List Rat), VState.inCall o a K
              ⟨((m + 1 : Nat) : Int) - 1, ac, os, c1⟩
              ⟨((m + 1 : Nat) : Int) + 1 - 1, acb, osb, K ++ c1⟩ := by
            intro c1
            refine ⟨e3, rfl, ⟨by simp only; omega, by simp only; omega, by simp only; omega⟩,
              ⟨by simp only; omega, by simp only; omega, by simp only; omega⟩, r5, r6, ?_⟩
            intro j hj
            simp only at hj
            exact r7 j (by omega)
          split at h
          · rename_i hpos
            rw [if_pos hpos]
            split at h
            · cases h
            · rename_i hcnt
              rw [if_neg hcnt]
              injection h with h
              subst h
              exact ⟨_, rfl, hrel con⟩
          · rename_i hpos
            rw [if_neg hpos]
            split at h
            · rename_i hneg
              rw [if_pos hneg]
              split at h
              · cases h
              · rename_i hcnt
                rw [if_neg hcnt]
                injection h with h
                subst h
                refine ⟨_, rfl, ?_⟩
                have := hrel (con ++ [((ac.getD m 0 : Int) : Rat)])
                rw [← List.append_assoc] at this
                exact this
            · rename_i hneg
              rw [if_neg hneg]
              injection h with h
              subst h
              exact ⟨_, rfl, hrel con⟩
      · rw [if_neg hclose] at h ⊢
        injection h with h
        subst h
        exact ⟨_, rfl, rfl, rfl, ⟨h0, by simp only; omega, by simp only; omega⟩,
          ⟨by simp only; omega, by simp only; omega, by simp only; omega⟩, r5, r6, r7⟩

theorem VState.inCall_con {o : Nat} {a : Int} {K : List Rat} {v vb : VState}
    (hr : VState.inCall o a K v vb) (x : Rat) :
    VState.inCall o a K { v with con := v.con ++ [x] } { vb with con := vb.con ++ [x] } := by
  obtain ⟨r1, r2, r3, r4, r5, r6, r7⟩ := hr
  refine ⟨r1, ?_, r3, r4, r5, r6, r7⟩
  show vb.con ++ [x] = K ++ (v.con ++ [x])
  rw [r2, List.append_assoc]

theorem WState.inCall_accept {n o : Nat} {a : Int} {K : List Rat} {P : List Nat}
    {w wb : WState} (hr : WState.inCall n o a K P w wb) (sym iend : Nat) {v vb : VState}
    (hv : VState.inCall o a K v vb) :
    WState.inCall n o a K P (w.accept sym iend v) (wb.accept sym (iend + n) vb) := by
  obtain ⟨r1, r2, r3, r4, r5⟩ := hr
  refine ⟨?_, rfl, rfl, hv, ?_⟩
  · show iend + n + 1 = iend + 1 + n
    omega
  · show wb.symlist ++ [sym] = P ++ (w.symlist ++ [sym])
    rw [r5, List.append_assoc]

/-- One pass of the walker over the argument alone is one pass over the longer text, and
it stays within the argument. -/
theorem CompileExpression_body_inCall (pre : List Char) {e : List Char}
    (hN : ∀ c ∈ e, c ≠ NUL) {c : Char} (hc : c = ',' ∨ c = ')') (post : List Char)
    (nvar : Nat) (var : List (List Char)) {o : Nat} {a : Int} {K : List Rat} {P : List Nat}
    {w w1 wb : WState} (hi : w.istart < e.length)
    (hr : WState.inCall pre.length o a K P w wb)
    (h : CompileExpression_body e nvar var w = .ok w1) :
    ∃ wb1, CompileExpression_body (inText pre e c post) nvar var wb = .ok wb1 ∧
      WState.inCall pre.length o a K P w1 wb1 ∧ w1.istart ≤ e.length := by
  have hr0 := hr
  obtain ⟨hi1, ho1, hu1, hv1, hs1⟩ := hr
  have hok : w.v.ok := hv1.2.2.1
  obtain ⟨hok1, _⟩ := CompileExpression_body_step hok h
  rcases CompileExpression_body_ok h with ⟨sym, v, hf, hv, rfl⟩ | ⟨hf, hop, iend, x, hpc, hge, rfl⟩ |
    ⟨hf, hop, iend0, x, ivar, iend, hpc, hlt, hpv, hne, rfl⟩
  · obtain ⟨hmem, hz, _, _, hcmp⟩ := findSymbol_some hf
    have hs : sym < 44 := by simpa [symbolTable] using List.mem_range.1 hmem
    have h7 : (symbol sym).size ≤ 7 :=
      (symbol_text_chars sym hs 0 (by omega) (by omega)).2.2
    have hlen := strncmp0_true_length e _ _ w.istart 0
      (fun j _ hj => (symbol_text_chars sym hs j (by omega) (by omega)).1) hcmp (by omega)
    obtain ⟨vb1, hvb, hrel⟩ := ValidateSymbol_inCall e (inText pre e c post)
      (w.istart + (symbol sym).size - 1) (w.istart + pre.length + (symbol sym).size - 1) sym
      hv1 hv hok1
    refine ⟨wb.accept sym (w.istart + (symbol sym).size - 1 + pre.length) vb1, ?_,
      WState.inCall_accept hr0 sym _ hrel, ?_⟩
    · unfold CompileExpression_body
      rw [hi1, ho1, hu1, findSymbol_inText_table pre e hc post hi, hf]
      simp only
      rw [hvb]
      simp only
      congr 2
      omega
    · simp only [WState.accept_istart]
      omega
  · obtain ⟨iend1, hpc1, h1, _⟩ := ParseConstant_inText pre hN hc post hi hpc
    obtain ⟨h2, h3⟩ := h1 hge
    subst h2
    refine ⟨wb.accept symbol_ldcon (iend.toNat + pre.length) { wb.v with con := wb.v.con ++ [x] },
      ?_, WState.inCall_accept hr0 _ _ (VState.inCall_con hv1 x), ?_⟩
    · unfold CompileExpression_body
      rw [hi1, ho1, hu1, findSymbol_inText_table pre e hc post hi, hf]
      simp only [hop, Bool.false_eq_true, if_false, hpc1]
      rw [if_pos (by push_cast; omega)]
      congr 2
      omega
    · simp only [WState.accept_istart]
      omega
  · obtain ⟨iend1, hpc1, _, h1⟩ := ParseConstant_inText pre hN hc post hi hpc
    have h2 := h1 hlt
    obtain ⟨hpv1, h3, h4⟩ := ParseVariable_inText pre e hc post hi nvar var hpv hne
    refine ⟨wb.accept symbol_ldvar (iend.toNat + pre.length)
      { wb.v with con := wb.v.con ++ [((ivar : Int) : Rat)] },
      ?_, WState.inCall_accept hr0 _ _ (VState.inCall_con hv1 _), ?_⟩
    · unfold CompileExpression_body
      rw [hi1, ho1, hu1, findSymbol_inText_table pre e hc post hi, hf]
      simp only [hop, Bool.false_eq_true, if_false, hpc1]
      rw [if_neg h2]
      simp only [hpv1]
      rw [if_pos hne]
      congr 2
      omega
    · simp only [WState.accept_istart]
      omega

/-- The walk over the argument alone, pass by pass, is a walk over the part of the longer
text that holds the argument. -/
theorem CompileExpression_loop_inCall (pre : List Char) {e : List Char}
    (hN : ∀ c ∈ e, c ≠ NUL) {c : Char} (hc : c = ',' ∨ c = ')') (post : List Char)
    (nvar : Nat) (var : List (List Char)) {o : Nat} {a : Int} {K : List Rat} {P : List Nat} :
    ∀ (fuel : Nat) (w w1 wb : WState), w.istart ≤ e.length →
      WState.inCall pre.length o a K P w wb →
      CompileExpression_loop e nvar var fuel w = .ok w1 →
      w1.istart ≤ e.length ∧
      ∃ k wb1, CompileExpression_loop (inText pre e c post) nvar var k wb = .ok wb1 ∧
        WState.inCall pre.length o a K P w1 wb1 := by
  intro fuel
  induction fuel with
  | zero =>
    intro w w1 wb hi hr h
    simp only [CompileExpression_loop] at h
    injection h with h
    subst h
    exact ⟨hi, 0, wb, rfl, hr⟩
  | succ n ih =>
    intro w w1 wb hi hr h
    rw [CompileExpression_loop_succ] at h
    split at h
    · rename_i hnz
      have hnz1 : cget e w.istart ≠ NUL := by simpa using hnz
      have hlt : w.istart < e.length := cget_ne_NUL_lt hnz1
      split at h
      · cases h
      · rename_i w2 hb
        obtain ⟨wb2, hb1, hr2, hi2⟩ :=
          CompileExpression_body_inCall pre hN hc post nvar var hlt hr hb
        obtain ⟨h1, k, wb1, hloop, hr1⟩ := ih w2 w1 wb2 hi2 hr2 h
        refine ⟨h1, k + 1, wb1, ?_, hr1⟩
        rw [CompileExpression_loop_succ]
        have hcg : cget (inText pre e c post) wb.istart = cget e w.istart := by
          rw [hr.1]
          exact cget_inText_lt pre e c post hlt
        rw [hcg, if_pos hnz, hb1]
        exact hloop
    · injection h with h
      subst h
      exact ⟨hi, 0, wb, rfl, hr⟩

/-- A walk that has reached the end of the text is the walk with any amount of fuel that
covers the text. -/
theorem CompileExpression_loop_enough {exprs : List Char} {nvar : Nat}
    {var : List (List Char)} :
    ∀ (k : Nat) (w wF : WState) (fuel : Nat),
      CompileExpression_loop exprs nvar var k w = .ok wF → cget exprs wF.istart = NUL →
      exprs.length ≤ w.istart + fuel →
      CompileExpression_loop exprs nvar var fuel w = .ok wF := by
  intro k
  induction k with
  | zero =>
    intro w wF fuel h hend _
    simp only [CompileExpression_loop] at h
    injection h with h
    subst h
    exact CompileExpression_loop_of_end hend fuel
  | succ k ih =>
    intro w wF fuel h hend hfuel
    rw [CompileExpression_loop_succ] at h
    split at h
    · rename_i hnz
      have hnz1 : cget exprs w.istart ≠ NUL := by simpa using hnz
      have hlt : w.istart < exprs.length := cget_ne_NUL_lt hnz1
      split at h
      · cases h
      · rename_i w2 hb
        obtain ⟨f, rfl⟩ : ∃ f, fuel = f + 1 := ⟨fuel - 1, by omega⟩
        have hp := CompileExpression_body_progress hb
        rw [CompileExpression_loop_succ, if_pos hnz, hb]
        exact ih w2 wF f h hend (by omega)
    · injection h with h
      subst h
      exact CompileExpression_loop_of_end hend fuel

/-- Where an operator is expected and the text goes on with a comma, the symbol found is
the comma. -/
theorem findSymbol_comma (exprs : List Char) (istart : Nat) (u : Bool)
    (h0 : cget exprs istart = ',') :
    findSymbol exprs istart true u (List.range symbolTable.length) = some 9 := by
  have hr : List.range symbolTable.length = [0, 1, 2, 3, 4, 5, 6, 7, 8] ++ 9 :: List.range' 10 34 := by
    decide
  rw [hr]
  apply findSymbol_first
  · intro s hs
    simp only [List.mem_cons, List.mem_singleton, List.not_mem_nil, or_false] at hs
    have hne : ∀ (t : List Char) (n : Nat), cget t 0 ≠ ',' →
        strncmp0 exprs istart t 0 (n + 1) = false := by
      intro t n ht
      exact strncmp0_first_ne (by rw [h0]; exact fun h => ht h.symm)
    rcases hs with rfl | rfl | rfl | rfl | rfl | rfl | rfl | rfl | rfl
    · rfl
    · rfl
    · show (_ && strncmp0 exprs istart (symbol 2).text.toList 0 (0 + 1)) = false
      rw [hne _ _ (by decide)]
      simp
    · rfl
    · show (_ && strncmp0 exprs istart (symbol 4).text.toList 0 (0 + 1)) = false
      rw [hne _ _ (by decide)]
      simp
    · show (_ && strncmp0 exprs istart (symbol 5).text.toList 0 (0 + 1)) = false
      rw [hne _ _ (by decide)]
      simp
    · show (_ && strncmp0 exprs istart (symbol 6).text.toList 0 (1 + 1)) = false
      rw [hne _ _ (by decide)]
      simp
    · show (_ && strncmp0 exprs istart (symbol 7).text.toList 0 (0 + 1)) = false
      rw [hne _ _ (by decide)]
      simp
    · show (_ && strncmp0 exprs istart (symbol 8).text.toList 0 (0 + 1)) = false
      rw [hne _ _ (by decide)]
      simp
  · have : strncmp0 exprs istart (symbol 9).text.toList 0 (symbol 9).size = true := by
      show strncmp0 exprs istart [','] 0 1 = true
      unfold strncmp0
      rw [if_neg (by rw [h0]; decide), if_neg (by rw [h0]; decide)]
      rfl
    rw [this]
    cases u <;> rfl

/-- The pass of the walker at a comma that follows an argument of the call. -/
theorem CompileExpression_body_comma (exprs : List Char) (nvar : Nat) (var : List (List Char))
    (wb : WState) (h0 : cget exprs wb.istart = ',') (hop : wb.opernext = true)
    (hl : wb.v.lpar = 1) (ha : wb.v.argcount.getD 0 0 ≠ 0) :
    CompileExpression_body exprs nvar var wb =
      .ok (wb.accept 9 wb.istart
        { wb.v with argcount := wb.v.argcount.set 0 (wb.v.argcount.getD 0 0 + 1) }) := by
  unfold CompileExpression_body
  rw [hop, findSymbol_comma _ _ _ h0]
  simp only
  rw [ValidateSymbol_comma, hl]
  have e1 : ((1 : Int) - 1).toNat = 0 := by decide
  rw [e1, if_neg (by
    rintro (h | h)
    · exact absurd h (by decide)
    · exact ha h)]
  rfl

/-- The pass of the walker at the `)` that closes the call of `min(` or `max(`: the count
of the arguments is stored as a constant. -/
theorem CompileExpression_body_closecall (exprs : List Char) (nvar : Nat)
    (var : List (List Char)) {o : Nat} (ho : o = 36 ∨ o = 37) (wb : WState)
    (h0 : cget exprs wb.istart = ')') (hop : wb.opernext = true) (hl : wb.v.lpar = 1)
    (hos : wb.v.opensym.getD 0 0 = o) (ha : 2 ≤ wb.v.argcount.getD 0 0) :
    CompileExpression_body exprs nvar var wb =
      .ok (wb.accept 2 wb.istart
        { wb.v with lpar := 0, con := wb.v.con ++ [((wb.v.argcount.getD 0 0 : Int) : Rat)] }) := by
  obtain ⟨_, _, hn, _⟩ := symbol_minmax ho
  unfold CompileExpression_body
  rw [hop, findSymbol_close _ _ _ h0]
  simp only
  rw [ValidateSymbol_closer, hl]
  have e1 : ((1 : Int) - 1).toNat = 0 := by decide
  rw [e1, hos, hn, if_neg (by decide), if_neg (by decide), if_pos (by decide), if_neg (by omega)]
  rfl

/-- The first pass over the text of a call of `min(` or `max(` takes the name with its
parenthesis and opens the level of the call, with one argument counted. -/
theorem CompileExpression_body_opencall (nvar : Nat) (var : List (List Char)) {o : Nat}
    (ho : o = 36 ∨ o = 37) (rest : List Char) :
    CompileExpression_body ((symbol o).text.toList ++ rest) nvar var WState.init =
      .ok (WState.init.accept o 3 ⟨1, [1], [o], []⟩) := by
  have hf : findSymbol ((symbol o).text.toList ++ rest) 0 false true
      (List.range symbolTable.length) = some o := by
    rcases ho with rfl | rfl <;> rfl
  unfold CompileExpression_body
  have h1 : WState.init.istart = 0 := rfl
  have h2 : WState.init.opernext = false := rfl
  have h3 : WState.init.unarynext = true := rfl
  rw [h1, h2, h3, hf]
  simp only
  rw [ValidateSymbol_opener _ _ _ (symbol_minmax ho).2.1]
  rcases ho with rfl | rfl <;> rfl

theorem ArgWalk.facts {nvar : Nat} {var : List (List Char)} {e : List Char} {w : WState}
    (h : ArgWalk nvar var e w) : w.istart = e.length ∧ w.v.lpar = 0 ∧ w.v.ok := by
  obtain ⟨hN, hloop, _, hl⟩ := h
  have hend := CompileExpression_loop_complete hloop
  obtain ⟨hle, hok, _⟩ := CompileExpression_loop_paren hN nvar var _ _ _
    (Nat.zero_le _) WState.init_ok hloop
  refine ⟨?_, ?_, hok⟩
  · rcases Nat.lt_or_ge w.istart e.length with hlt | hge
    · exact absurd hend (cget_ne_NUL_of_lt hN hlt)
    · omega
  · have := hok.1
    omega

theorem callArgs_cons_cons (e e2 : List Char) (es : List (List Char)) :
    callArgs (e :: e2 :: es) = e ++ ',' :: callArgs (e2 :: es) := rfl

theorem CompileExpression_loop_one {exprs : List Char} {nvar : Nat} {var : List (List Char)}
    {w w1 : WState} (hc : cget exprs w.istart ≠ NUL)
    (hb : CompileExpression_body exprs nvar var w = .ok w1) :
    CompileExpression_loop exprs nvar var 1 w = .ok w1 := by
  rw [CompileExpression_loop_succ, if_pos (by simpa using hc), hb]
  rfl

/-- The walk over the text of a call of `min(` or `max(`, from the first argument on:
the symbols of the arguments are recorded in turn, with a comma between them and the
closing parenthesis at the end, the constants of the arguments are stored in turn, and
after them the count of the arguments. -/
theorem CompileExpression_loop_call (nvar : Nat) (var : List (List Char)) {o : Nat}
    (ho : o = 36 ∨ o = 37) :
    ∀ (rest : List (List Char × WState)) (a1 : List Char × WState) (pre : List Char) (a : Int)
      (K : List Rat) (P : List Nat) (wb : WState),
      (∀ x ∈ a1 :: rest, ArgWalk nvar var x.1 x.2) →
      WState.inCall pre.length o a K P WState.init wb →
      1 ≤ a → 2 ≤ a + rest.length →
      ∃ k wbF,
        CompileExpression_loop (pre ++ callArgs ((a1 :: rest).map Prod.fst)) nvar var k wb =
          .ok wbF ∧
        wbF.istart = (pre ++ callArgs ((a1 :: rest).map Prod.fst)).length ∧
        wbF.opernext = true ∧ wbF.v.lpar = 0 ∧
        wbF.symlist = P ++ callSyms ((a1 :: rest).map fun x => x.2.symlist) ∧
        wbF.v.con = K ++ (((a1 :: rest).flatMap fun x => x.2.v.con) ++
          [((a + rest.length : Int) : Rat)]) := by
  intro rest
  induction rest with
  | nil =>
    intro a1 pre a K P wb hall hr ha1 ha2
    have harg := hall a1 (List.mem_cons_self _ _)
    obtain ⟨hi, hl, hok⟩ := harg.facts
    obtain ⟨hN, hloop, hop, _⟩ := harg
    have hT : pre ++ callArgs ([a1].map Prod.fst) = inText pre a1.1 ')' [] := rfl
    rw [hT]
    obtain ⟨_, k, wb1, hk, hr1⟩ := CompileExpression_loop_inCall pre hN (Or.inr rfl) []
      nvar var _ _ _ _ (Nat.zero_le _) hr hloop
    obtain ⟨r1, r2, r3, ⟨v1, v2, v3, v4, v5, v6, v7⟩, r5⟩ := hr1
    have hc0 : cget (inText pre a1.1 ')' []) wb1.istart = ')' := by
      rw [r1, hi]
      exact cget_inText_end pre a1.1 ')' []
    have hb := CompileExpression_body_closecall (inText pre a1.1 ')' []) nvar var ho wb1 hc0
      (by rw [r2, hop]) (by rw [v1, hl]; rfl) v6 (by rw [v5]; simpa using ha2)
    refine ⟨k + 1, wb1.accept 2 wb1.istart
      { wb1.v with lpar := 0, con := wb1.v.con ++ [((wb1.v.argcount.getD 0 0 : Int) : Rat)] },
      ?_, ?_, rfl, rfl, ?_, ?_⟩
    · rw [CompileExpression_loop_add, hk]
      simp only
      exact CompileExpression_loop_one (by rw [hc0]; decide) hb
    · rw [WState.accept_istart, r1, hi, inText_length]
      simp
      omega
    · show wb1.symlist ++ [2] = P ++ callSyms [a1.2.symlist]
      rw [r5, List.append_assoc]
      rfl
    · show wb1.v.con ++ [((wb1.v.argcount.getD 0 0 : Int) : Rat)] = _
      rw [v2, v5]
      simp
  | cons a2 rest ih =>
    intro a1 pre a K P wb hall hr ha1 ha2
    have harg := hall a1 (List.mem_cons_self _ _)
    obtain ⟨hi, hl, hok⟩ := harg.facts
    obtain ⟨hN, hloop, hop, _⟩ := harg
    have hT : pre ++ callArgs ((a1 :: a2 :: rest).map Prod.fst) =
        inText pre a1.1 ',' (callArgs ((a2 :: rest).map Prod.fst)) := rfl
    have hT2 : inText pre a1.1 ',' (callArgs ((a2 :: rest).map Prod.fst)) =
        (pre ++ (a1.1 ++ [','])) ++ callArgs ((a2 :: rest).map Prod.fst) := by
      simp [inText]
    rw [hT]
    obtain ⟨_, k, wb1, hk, hr1⟩ := CompileExpression_loop_inCall pre hN (Or.inl rfl)
      (callArgs ((a2 :: rest).map Prod.fst)) nvar var _ _ _ _ (Nat.zero_le _) hr hloop
    obtain ⟨r1, r2, r3, ⟨v1, v2, v3, v4, v5, v6, v7⟩, r5⟩ := hr1
    have hc0 : cget (inText pre a1.1 ',' (callArgs ((a2 :: rest).map Prod.fst))) wb1.istart =
        ',' := by
      rw [r1, hi]
      exact cget_inText_end pre a1.1 ',' _
    have hb := CompileExpression_body_comma
      (inText pre a1.1 ',' (callArgs ((a2 :: rest).map Prod.fst))) nvar var wb1 hc0
      (by rw [r2, hop]) (by rw [v1, hl]; rfl) (by rw [v5]; omega)
    have hlen1 : 1 ≤ wb1.v.argcount.length := by
      have := v4.2.1
      rw [v1, hl] at this
      exact this
    have hr2 : WState.inCall (pre ++ (a1.1 ++ [','])).length o (a + 1) (K ++ a1.2.v.con)
        (P ++ (a1.2.symlist ++ [9])) WState.init
        (wb1.accept 9 wb1.istart
          { wb1.v with argcount := wb1.v.argcount.set 0 (wb1.v.argcount.getD 0 0 + 1) }) := by
      refine ⟨?_, rfl, rfl, ⟨?_, ?_, WState.init_ok, ?_, ?_, v6, ?_⟩, ?_⟩
      · rw [WState.accept_istart, r1, hi]
        show a1.1.length + pre.length + 1 = 0 + (pre ++ (a1.1 ++ [','])).length
        simp
        omega
      · show wb1.v.lpar = 0 + 1
        rw [v1, hl]
      · show wb1.v.con = K ++ a1.2.v.con ++ []
        rw [v2, List.append_nil]
      · refine ⟨?_, ?_, ?_⟩
        · show 0 ≤ wb1.v.lpar
          rw [v1, hl]
          decide
        · show wb1.v.lpar.toNat ≤ (wb1.v.argcount.set 0 _).length
          rw [List.length_set]
          exact v4.2.1
        · exact v4.2.2
      · show (wb1.v.argcount.set 0 (wb1.v.argcount.getD 0 0 + 1)).getD 0 0 = a + 1
        rw [getD_set_self _ _ _ _ (by omega), v5]
      · intro j hj
        have : WState.init.v.lpar = 0 := rfl
        omega
      · show wb1.symlist ++ [9] = P ++ (a1.2.symlist ++ [9]) ++ []
        rw [r5, List.append_nil, List.append_assoc]
    obtain ⟨k2, wbF, g1, g2, g3, g4, g5, g6⟩ := ih a2 (pre ++ (a1.1 ++ [','])) (a + 1)
      (K ++ a1.2.v.con) (P ++ (a1.2.symlist ++ [9])) _
      (fun x hx => hall x (List.mem_cons_of_mem _ hx)) hr2 (by omega)
      (by simp only [List.length_cons] at ha2; push_cast at ha2; omega)
    rw [← hT2] at g1 g2
    refine ⟨k + (1 + k2), wbF, ?_, g2, g3, g4, ?_, ?_⟩
    · rw [CompileExpression_loop_add, hk]
      simp only
      rw [CompileExpression_loop_add, CompileExpression_loop_one (by rw [hc0]; decide) hb]
      exact g1
    · rw [g5]
      simp only [List.map_cons, callSyms_cons_cons, List.append_assoc, List.singleton_append]
    · have e : ((a + 1 + (rest.length : Int) : Int) : Rat) =
          ((a + ((a2 :: rest).length : Nat) : Int) : Rat) := by
        push_cast [List.length_cons]
        ring
      rw [g6, e]
      simp only [List.flatMap_cons, List.append_assoc]

/-! ## The program of a call of `min` or `max` -/

/-- An expression that `CompileExpression` accepts gives a `CallArg`. -/
theorem CallArg.exists_ok (L : MathLib) {e : List Char} {nvar : Nat} {var : List (List Char)}
    {c : Compiled} (hN : ∀ ch ∈ e, ch ≠ NUL) (hc : CompileExpression e nvar var = .ok c)
    {npoint : Nat} {ptr_in : List (List Rat)} (hin : InputsOK npoint nvar ptr_in) :
    ∃ d : CallArg, d.text = e ∧ d.c = c ∧ d.ok L nvar var npoint ptr_in := by
  obtain ⟨w, hloop, hop, hlp, hwalk, hceq⟩ := CompileExpression_ok_inv hc
  obtain ⟨w1, toks, ops, tr, hloop1, hrun, hsym, hcon, hcode, htr, hlast, hb, _⟩ :=
    CompileExpression_ok_trace hc
  rw [hloop] at hloop1
  injection hloop1 with hw
  subst hw
  obtain ⟨_, _, _, _, _, _, hE⟩ := sortEnd_facts hrun
  have hwcon : w.v.con = (Token.consts toks).map Prod.snd := by
    rw [← hcon, hceq]
  have hcode2 : c.code = ((sortEnd ((Token.consts toks).map Prod.snd)
      (toks.map Prod.fst)).code.length : Int) ::
      (sortEnd ((Token.consts toks).map Prod.snd) (toks.map Prod.fst)).code := by
    rw [hceq]
    simp only
    rw [hwcon, hsym, hE]
  have hsize : c.stacksize =
      (sortEnd ((Token.consts toks).map Prod.snd) (toks.map Prod.fst)).stacksize := by
    rw [hceq]
    simp only
    rw [hwcon, hsym, hE]
  have hlen := depthTrace_length _ _ _ _ _ htr
  obtain ⟨st, h1, ⟨ht, hic, hg, _⟩, h3⟩ :=
    VirtualMachine_exec_sim (L := L) (ops.length : Int) hin htr hb ops.length (Nat.le_refl _)
  rw [lastD_take_all (by omega), hlast] at ht hic
  have ht0 : st.tos = 0 := ht
  have hic0 : st.icon = c.con.length := by
    rw [hic, hcon]
    simp
  obtain ⟨out, hout, holen⟩ := hg.2.2 0 (by rw [ht0]; exact Int.le_refl _)
  have hpos : 0 < st.stack.length := by
    have := hg.2.1
    omega
  have htail : c.code.tail = ops := by rw [hcode]; rfl
  have hslot : st.slot 0 = some out := by
    unfold VMState.slot
    rw [if_pos ⟨Int.le_refl _, by omega⟩]
    exact hout
  refine ⟨⟨e, w, toks, c, out⟩, rfl, rfl, ⟨hN, hloop, hop, hlp⟩, hrun, hsym, hwcon, hcon, ?_,
    hsize, ⟨?_, st, ?_, ht0, hic0, hslot⟩, holen, ?_, hc⟩
  · show c.code.tail = _
    rw [hcode2]
    rfl
  · show c.code = (c.code.tail.length : Int) :: c.code.tail
    rw [htail]
    exact hcode
  · show VirtualMachine_exec L npoint ptr_in c.code c.con c.stacksize c.code.tail.length = _
    rw [htail, hcode]
    exact h1
  · show VirtualMachine L npoint nvar ptr_in c.code c.con c.stacksize = some out
    unfold VirtualMachine
    have hn : (c.code.getD 0 0).toNat = ops.length := by
      rw [hcode]
      simp
    rw [hn, hcode, h1]
    exact hout

/-- Accepted expressions, one for each program of a list, give a list of `CallArg`. -/
theorem CallArg.exists_list (L : MathLib) {nvar : Nat} {var : List (List Char)}
    {npoint : Nat} {ptr_in : List (List Rat)} (hin : InputsOK npoint nvar ptr_in) :
    ∀ (es : List (List Char)) (cs : List Compiled),
      (∀ e ∈ es, ∀ ch ∈ e, ch ≠ NUL) →
      List.Forall₂ (fun e c => CompileExpression e nvar var = .ok c) es cs →
      ∃ D : List CallArg, D.map CallArg.text = es ∧ D.map CallArg.c = cs ∧
        ∀ d ∈ D, d.ok L nvar var npoint ptr_in := by
  intro es cs hN h
  induction h with
  | nil => exact ⟨[], rfl, rfl, fun _ hd => by cases hd⟩
  | @cons e c es cs hc _ ih =>
    obtain ⟨D, h1, h2, h3⟩ := ih (fun x hx => hN x (List.mem_cons_of_mem _ hx))
    obtain ⟨d, g1, g2, g3⟩ := CallArg.exists_ok L (hN e (List.mem_cons_self _ _)) hc hin
    refine ⟨d :: D, by simp [g1, h1], by simp [g2, h2], ?_⟩
    intro x hx
    rcases List.mem_cons.1 hx with rfl | hx
    · exact g3
    · exact h3 x hx

theorem callArgs_intercalate : ∀ (e : List Char) (es : List (List Char)),
    callArgs (e :: es) = List.intercalate [','] (e :: es) ++ [')'] := by
  intro e es
  induction es generalizing e with
  | nil => simp [callArgs, List.intercalate, List.intersperse]
  | cons e2 es ih =>
    rw [callArgs_cons_cons, ih e2]
    simp [List.intercalate, List.intersperse]

/-- The symbol of the table for the opcode `OP_MAX` or `OP_MIN`. -/
theorem callText_symbol {o : Oper} (ho : o = OP_MAX ∨ o = OP_MIN) (e : List Char)
    (es : List (List Char)) :
    ∃ sym, (sym = 36 ∨ sym = 37) ∧ (symbol sym).opcode = o ∧
      callText o (e :: es) = (symbol sym).text.toList ++ callArgs (e :: es) := by
  rcases ho with rfl | rfl
  · exact ⟨37, Or.inr rfl, rfl, by rw [callArgs_intercalate]; rfl⟩
  · exact ⟨36, Or.inl rfl, rfl, by rw [callArgs_intercalate]; rfl⟩

theorem flatMap_congr_mem {α β : Type} (l : List α) (f g : α → List β)
    (h : ∀ x ∈ l, f x = g x) : l.flatMap f = l.flatMap g := by
  induction l with
  | nil => rfl
  | cons a l ih =>
    rw [List.flatMap_cons, List.flatMap_cons, h a (List.mem_cons_self _ _),
      ih (fun x hx => h x (List.mem_cons_of_mem _ hx))]

/-- The results of `EvaluationSort` are the opcodes and the stack size that the loop on
the two-list view has when it has emptied its stack and its input. -/
theorem EvaluationSort_of_loop (con : List Rat) (syms : List Nat) (n : Nat) (lsF : LState)
    (h : LState.loop con n ⟨[], syms, false, 0, 0, [], 0⟩ = lsF) (h1 : lsF.stack = [])
    (h2 : lsF.input = []) :
    EvaluationSort con syms.length syms = ((lsF.code.length : Int) :: lsF.code, lsF.stacksize) := by
  have hF : LState.loop con (2 * syms.length + 1) ⟨[], syms, false, 0, 0, [], 0⟩ = lsF := by
    obtain ⟨hs, hi⟩ := LState.loop_done con (2 * syms.length + 1)
      ⟨[], syms, false, 0, 0, [], 0⟩ (by simp only [List.length_nil]; omega)
    have e1 := LState.loop_add con (2 * syms.length + 1) n ⟨[], syms, false, 0, 0, [], 0⟩
    have e2 := LState.loop_add con n (2 * syms.length + 1) ⟨[], syms, false, 0, 0, [], 0⟩
    rw [LState.loop_stop con hs hi] at e1
    rw [h, LState.loop_stop con h1 h2, Nat.add_comm, e1] at e2
    exact e2
  obtain ⟨_, hLO⟩ := EvaluationSort_loop_toL con (2 * syms.length + 1) _ (SortState.init_wf syms)
  rw [SortState.init_toL, hF] at hLO
  have g1 := congrArg LState.code hLO
  have g2 := congrArg LState.stacksize hLO
  simp only [SortState.toL] at g1 g2
  have hE : EvaluationSort con syms.length syms =
      (((EvaluationSort_loop con syms.length (2 * syms.length + 1)
          (SortState.init syms)).code.length : Int) ::
        (EvaluationSort_loop con syms.length (2 * syms.length + 1) (SortState.init syms)).code,
        (EvaluationSort_loop con syms.length (2 * syms.length + 1)
          (SortState.init syms)).stacksize) := rfl
  rw [g1, g2] at hE
  exact hE

/-- `CompileExpression` accepts the call of `min(` or `max(` on arguments that it accepts
alone: the program is made of the programs of the arguments in turn followed by the
opcode of the function, and the constants are the constants of the arguments in turn
followed by the count of the arguments. -/
theorem CompileExpression_call (L : MathLib) {nvar : Nat} {var : List (List Char)}
    {npoint : Nat} {ptr_in : List (List Rat)} {sym : Nat} (ho : sym = 36 ∨ sym = 37)
    (d1 : CallArg) (rest : List CallArg)
    (hD : ∀ d ∈ d1 :: rest, d.ok L nvar var npoint ptr_in) (h2 : 1 ≤ rest.length) :
    ∃ S1 : Int,
      CompileExpression
          ((symbol sym).text.toList ++ callArgs ((d1 :: rest).map CallArg.text)) nvar var =
        .ok ⟨((((d1 :: rest).flatMap fun d => d.c.code.tail) ++
              [(symbol sym).opcode.toInt]).length : Int) ::
            (((d1 :: rest).flatMap fun d => d.c.code.tail) ++ [(symbol sym).opcode.toInt]),
          ((d1 :: rest).flatMap fun d => d.c.con) ++ [((rest.length + 1 : Nat) : Rat)], S1⟩ ∧
      ∀ i d, (d1 :: rest).get? i = some d → (i : Int) + d.c.stacksize ≤ S1 := by
  obtain ⟨hr1, hpar, hn2, hopc, hs0, hs1, _, hsize, hol, hor, hun⟩ := symbol_minmax ho
  have hname : (symbol sym).text.toList.length = 4 := by
    rcases ho with rfl | rfl <;> rfl
  have hname0 : ∀ t : List Char, cget ((symbol sym).text.toList ++ t) 0 ≠ NUL := by
    intro t
    rcases ho with rfl | rfl <;> exact (by decide : ('m' : Char) ≠ NUL)
  generalize hT : (symbol sym).text.toList ++ callArgs ((d1 :: rest).map CallArg.text) = T
  -- the walk
  have hb0 : CompileExpression_body T nvar var WState.init =
      .ok (WState.init.accept sym 3 ⟨1, [1], [sym], []⟩) := by
    rw [← hT]
    exact CompileExpression_body_opencall nvar var ho _
  have hr0 : WState.inCall (symbol sym).text.toList.length sym 1 [] [sym] WState.init
      (WState.init.accept sym 3 ⟨1, [1], [sym], []⟩) := by
    have hokb : VState.ok ⟨1, [1], [sym], []⟩ := by
      refine ⟨?_, ?_, ?_⟩
      · show (0 : Int) ≤ 1
        decide
      · show (1 : Int).toNat ≤ [(1 : Int)].length
        decide
      · show (1 : Int).toNat ≤ [sym].length
        simp
    refine ⟨?_, ?_, ?_, ⟨rfl, rfl, WState.init_ok, hokb, rfl, rfl, ?_⟩, rfl⟩
    · rw [hname]
      rfl
    · show (!(symbol sym).operright) = false
      rw [hor]
      rfl
    · show (symbol sym).unarynext = true
      exact hun
    · intro j hj
      have : WState.init.v.lpar = 0 := rfl
      omega
  have hmapT : ((d1.text, d1.w) :: rest.map fun d => (d.text, d.w)).map Prod.fst =
      (d1 :: rest).map CallArg.text := by
    simp [List.map_map, Function.comp_def]
  obtain ⟨k, wbF, hk, hi, hop, hl, hsym, hcon⟩ := CompileExpression_loop_call nvar var ho
    (rest.map fun d => (d.text, d.w)) (d1.text, d1.w) (symbol sym).text.toList 1 [] [sym] _
    (by
      intro x hx
      rcases List.mem_cons.1 hx with rfl | hx
      · exact (hD d1 (List.mem_cons_self _ _)).1
      · obtain ⟨d, hd, rfl⟩ := List.mem_map.1 hx
        exact (hD d (List.mem_cons_of_mem _ hd)).1)
    hr0 (by decide) (by simp only [List.length_map]; omega)
  rw [hmapT, hT] at hk hi
  have hloop : CompileExpression_loop T nvar var (T.length + 1) WState.init = .ok wbF := by
    apply CompileExpression_loop_enough (1 + k) _ _ _ _ (by
      rw [hi]
      exact cget_of_length_le (Nat.le_refl _)) (by
      show T.length ≤ 0 + (T.length + 1)
      omega)
    rw [CompileExpression_loop_add, CompileExpression_loop_one (by
      rw [← hT]
      exact hname0 _) hb0]
    exact hk
  have hwalk : CompileExpression_walk T nvar var = .ok wbF := by
    unfold CompileExpression_walk
    rw [hloop]
    simp only
    rw [hop, hl]
    rfl
  -- the symbols and the constants
  have hsyms : wbF.symlist =
      sym :: callSyms ((d1 :: rest).map fun d => d.toks.map Prod.fst) := by
    rw [hsym]
    have : ((d1.text, d1.w) :: rest.map fun d => (d.text, d.w)).map (fun x => x.2.symlist) =
        (d1 :: rest).map fun d => d.toks.map Prod.fst := by
      simp only [List.map_cons, List.map_map, Function.comp_def]
      rw [(hD d1 (List.mem_cons_self _ _)).2.2.1]
      congr 1
      exact List.map_congr_left (fun d hd => (hD d (List.mem_cons_of_mem _ hd)).2.2.1)
    rw [this]
    rfl
  have hcons : wbF.v.con =
      ((d1 :: rest).flatMap fun d => (Token.consts d.toks).map Prod.snd) ++
        [((rest.length + 1 : Nat) : Rat)] := by
    rw [hcon]
    have e1 : (((d1.text, d1.w) :: rest.map fun d => (d.text, d.w)).flatMap
        fun x => x.2.v.con) = (d1 :: rest).flatMap fun d => d.w.v.con := by
      simp [List.flatMap_def, List.map_map, Function.comp_def]
    have e2 : ((d1 :: rest).flatMap fun d => d.w.v.con) =
        (d1 :: rest).flatMap fun d => (Token.consts d.toks).map Prod.snd :=
      flatMap_congr_mem _ _ _ (fun d hd => (hD d hd).2.2.2.1)
    have e3 : (((1 : Int) + ((rest.map fun d => (d.text, d.w)).length : Int) : Int) : Rat) =
        ((rest.length + 1 : Nat) : Rat) := by
      rw [List.length_map]
      push_cast
      ring
    rw [e1, e2, e3, List.nil_append]
  -- the sort
  obtain ⟨n, S1, hn, hS0, hbound⟩ := @LState.loop_call nvar _ ho
    (((d1 :: rest).flatMap fun d => (Token.consts d.toks).map Prod.snd) ++
      [((rest.length + 1 : Nat) : Rat)]) [((rest.length + 1 : Nat) : Rat)]
    (rest.map CallArg.toks) d1.toks [] [] 0 [] 0 (Or.inl rfl) (le_refl _)
    (by
      intro t ht
      rcases List.mem_cons.1 ht with rfl | ht
      · exact (hD d1 (List.mem_cons_self _ _)).2.1
      · obtain ⟨d, hd, rfl⟩ := List.mem_map.1 ht
        exact (hD d (List.mem_cons_of_mem _ hd)).2.1)
    (by simp [List.flatMap_def, List.map_map, Function.comp_def])
  have hmaps : ((d1.toks :: rest.map CallArg.toks).map fun t => t.map Prod.fst) =
      (d1 :: rest).map fun d => d.toks.map Prod.fst := by
    simp [List.map_map, Function.comp_def]
  have hflatK : ((d1.toks :: rest.map CallArg.toks).flatMap
      fun t => (Token.consts t).map Prod.snd) =
      (d1 :: rest).flatMap fun d => (Token.consts d.toks).map Prod.snd := by
    simp [List.flatMap_def, List.map_map, Function.comp_def]
  have hflatC : ((d1.toks :: rest.map CallArg.toks).flatMap fun t =>
      (sortEnd ((Token.consts t).map Prod.snd) (t.map Prod.fst)).code) =
      (d1 :: rest).flatMap fun d => d.c.code.tail := by
    have e1 : ((d1.toks :: rest.map CallArg.toks).flatMap fun t =>
        (sortEnd ((Token.consts t).map Prod.snd) (t.map Prod.fst)).code) =
        (d1 :: rest).flatMap fun d =>
          (sortEnd ((Token.consts d.toks).map Prod.snd) (d.toks.map Prod.fst)).code := by
      simp [List.flatMap_def, List.map_map, Function.comp_def]
    rw [e1]
    exact flatMap_congr_mem _ _ _ (fun d hd => ((hD d hd).2.2.2.2.2.1).symm)
  rw [hmaps, hflatK, hflatC] at hn
  have hfirst : LState.loop
      (((d1 :: rest).flatMap fun d => (Token.consts d.toks).map Prod.snd) ++
        [((rest.length + 1 : Nat) : Rat)]) 1
      ⟨[], sym :: callSyms ((d1 :: rest).map fun d => d.toks.map Prod.fst), false, 0, 0, [],
        0⟩ =
      ⟨[] ++ [sym], callSyms ((d1 :: rest).map fun d => d.toks.map Prod.fst), false,
        ([] : List Rat).length, 0, [], 0⟩ := by
    rw [LState.loop_succ, if_pos (by simp), LState.body_nil_cons rfl rfl,
      LState.push_other (by omega)]
    rfl
  have hE := EvaluationSort_of_loop
    (((d1 :: rest).flatMap fun d => (Token.consts d.toks).map Prod.snd) ++
      [((rest.length + 1 : Nat) : Rat)])
    (sym :: callSyms ((d1 :: rest).map fun d => d.toks.map Prod.fst)) (1 + n) _
    (by rw [LState.loop_add, hfirst, hn]) rfl rfl
  simp only [List.nil_append] at hE
  have hflatcon : ((d1 :: rest).flatMap fun d => (Token.consts d.toks).map Prod.snd) =
      (d1 :: rest).flatMap fun d => d.c.con :=
    flatMap_congr_mem _ _ _ (fun d hd => ((hD d hd).2.2.2.2.1).symm)
  refine ⟨S1, ?_, ?_⟩
  · unfold CompileExpression
    rw [hwalk]
    simp only
    rw [hsyms, hcons, hE, hflatcon]
  · intro i d hi
    have hi2 : (d1.toks :: rest.map CallArg.toks).get? i = some d.toks := by
      have : (d1.toks :: rest.map CallArg.toks) = (d1 :: rest).map CallArg.toks := rfl
      rw [this, List.get?_eq_getElem?, List.getElem?_map, ← List.get?_eq_getElem?, hi]
      rfl
    have := hbound i d.toks hi2
    rw [(hD d (List.get?_mem hi)).2.2.2.2.2.2.1]
    omega

theorem getD_reverse_map_out (D : List CallArg) {j : Nat} (hj : j < D.length) :
    ∃ d, D.get? (D.length - 1 - j) = some d ∧
      ((D.map CallArg.out).reverse).getD j [] = d.out := by
  have h1 : D.length - 1 - j < D.length := by omega
  refine ⟨D.get ⟨D.length - 1 - j, h1⟩, by rw [List.get?_eq_get], ?_⟩
  rw [List.getD_eq_getElem?_getD, List.getElem?_reverse (by simpa using hj), List.length_map,
    List.getElem?_map]
  simp [List.getElem?_eq_getElem h1]

/-- The machine on the program of a call of `min` or `max`: it leaves the values of the
arguments on the stack, one above the other, reads the count of the arguments as the
constant that follows the constants of the arguments, and reduces the values pair by
pair to the largest (smallest) at each point where none is bad, and to the bad value
where one is. -/
theorem VirtualMachine_call (L : MathLib) {nvar : Nat} {var : List (List Char)}
    {npoint : Nat} {ptr_in : List (List Rat)} {o : Oper} (ho : o = OP_MAX ∨ o = OP_MIN)
    (D : List CallArg) (hD : ∀ d ∈ D, d.ok L nvar var npoint ptr_in) (h2 : 2 ≤ D.length)
    (S1 : Int) (hS : ∀ i d, D.get? i = some d → (i : Int) + d.c.stacksize ≤ S1) :
    ∃ (st : VMState) (f : Rat → Rat → Rat) (out : List Rat),
      VirtualMachine_exec L npoint ptr_in
          ((((D.flatMap fun d => d.c.code.tail) ++ [o.toInt]).length : Int) ::
            ((D.flatMap fun d => d.c.code.tail) ++ [o.toInt]))
          ((D.flatMap fun d => d.c.con) ++ [(D.length : Rat)]) S1
          (D.flatMap fun d => d.c.code.tail).length = some st ∧
      st.tos = (D.length : Int) - 1 ∧
      (∀ i d, D.get? i = some d → st.slot i = some d.out) ∧
      st.icon = (D.flatMap fun d => d.c.con).length ∧
      ((D.flatMap fun d => d.c.con) ++ [(D.length : Rat)]).get? st.icon =
        some (D.length : Rat) ∧
      fun2 L o = some f ∧
      VirtualMachine_case L npoint ptr_in ((D.flatMap fun d => d.c.con) ++ [(D.length : Rat)])
          st o.toInt =
        DO_ARG_2_times L f (D.length - 1) { st with icon := st.icon + 1 } ∧
      VirtualMachine L npoint nvar ptr_in
          ((((D.flatMap fun d => d.c.code.tail) ++ [o.toInt]).length : Int) ::
            ((D.flatMap fun d => d.c.code.tail) ++ [o.toInt]))
          ((D.flatMap fun d => d.c.con) ++ [(D.length : Rat)]) S1 = some out ∧
      out.length = npoint ∧
      ∀ p, p < npoint → ∃ res, out.get? p = some res ∧
        ((∀ d ∈ D, d.out.getD p 0 ≠ L.BAD) →
          (∃ d ∈ D, res = d.out.getD p 0) ∧ (o = OP_MAX → ∀ d ∈ D, d.out.getD p 0 ≤ res) ∧
            (o = OP_MIN → ∀ d ∈ D, res ≤ d.out.getD p 0)) ∧
        ((∃ d ∈ D, d.out.getD p 0 = L.BAD) → res = L.BAD) := by
  have hsz : ∀ d ∈ D, 1 ≤ d.c.stacksize := by
    intro d hd
    obtain ⟨_, hrun, _, _, _, _, hs, _⟩ := hD d hd
    obtain ⟨_, _, _, _, _, h1, _⟩ := sortEnd_facts hrun
    rw [hs]
    exact h1
  have e1 : ((D.map fun d => (d.c, d.out)).flatMap fun a => a.1.code.tail) =
      D.flatMap fun d => d.c.code.tail := by
    simp [List.flatMap_def, List.map_map, Function.comp_def]
  have e2 : ((D.map fun d => (d.c, d.out)).flatMap fun a => a.1.con) =
      D.flatMap fun d => d.c.con := by
    simp [List.flatMap_def, List.map_map, Function.comp_def]
  obtain ⟨b, g1, g2, g3, g4, _, g6⟩ := VirtualMachine_exec_args L npoint ptr_in
    ((((D.flatMap fun d => d.c.code.tail) ++ [o.toInt]).length : Int)) S1
    (D.map fun d => (d.c, d.out)) [] [o.toInt] [] [(D.length : Rat)] 0 (VMState.init S1)
    (by
      intro a ha
      obtain ⟨d, hd, rfl⟩ := List.mem_map.1 ha
      exact (hD d hd).2.2.2.2.2.2.2.1)
    rfl rfl rfl
    (by
      intro i a hi
      rw [List.get?_eq_getElem?, List.getElem?_map] at hi
      cases hdi : D[i]? with
      | none => rw [hdi] at hi; cases hi
      | some d =>
        rw [hdi] at hi
        simp only [Option.map_some', Option.some.injEq] at hi
        subst hi
        have hget : D.get? i = some d := by rw [List.get?_eq_getElem?]; exact hdi
        have h1 := hS i d hget
        have h3 := hsz d (List.get?_mem hget)
        show 0 + i + d.c.stacksize.toNat ≤ (List.replicate S1.toNat none).length
        rw [List.length_replicate]
        omega)
  rw [e1, e2] at g1
  simp only [List.nil_append, List.length_nil, Nat.zero_add, List.length_map, e2,
    CharP.cast_eq_zero, zero_add] at g1 g2 g3 g4 g6
  have hslots : ∀ i d, D.get? i = some d → b.stack.getD i none = some d.out := by
    intro i d hi
    have := g6 i (d.c, d.out) (by
      rw [List.get?_eq_getElem?, List.getElem?_map, ← List.get?_eq_getElem?, hi]
      rfl)
    exact this
  have hlenb : D.length ≤ b.stack.length := by
    obtain ⟨d, hd, _⟩ := getD_reverse_map_out D (by omega : 0 < D.length)
    have h1 := hS _ d hd
    have h3 := hsz d (List.get?_mem hd)
    rw [g4]
    show D.length ≤ (List.replicate S1.toNat none).length
    rw [List.length_replicate]
    omega
  have hslot : ∀ i d, D.get? i = some d → b.slot i = some d.out := by
    intro i d hi
    have hlt : i < D.length := by
      rw [List.get?_eq_getElem?] at hi
      exact (List.getElem?_eq_some_iff.1 hi).1
    unfold VMState.slot
    rw [if_pos ⟨by omega, by omega⟩]
    exact hslots i d hi
  have hgood : b.good npoint := by
    refine ⟨by omega, by omega, ?_⟩
    intro j hj
    have hlt : j < D.length := by omega
    refine ⟨(D.get ⟨j, hlt⟩).out, hslots j _ (by rw [List.get?_eq_get]), ?_⟩
    exact (hD _ (List.get_mem D j hlt)).2.2.2.2.2.2.2.2.1
  have hconk : ((D.flatMap fun d => d.c.con) ++ [(D.length : Rat)]).get? b.icon =
      some (D.length : Rat) := by
    rw [g3, List.get?_eq_getElem?, List.getElem?_append_right (Nat.le_refl _)]
    simp
  obtain ⟨f, hf, hcase⟩ := VirtualMachine_case_reduce L npoint ptr_in
    ((D.flatMap fun d => d.c.con) ++ [(D.length : Rat)]) b ho D.length hconk
  have hgood1 : VMState.good npoint { b with icon := b.icon + 1 } := hgood
  obtain ⟨st1, k1, k2, _, _, k5, _⟩ := DO_ARG_2_times_good (L := L) f (D.length - 1)
    { b with icon := b.icon + 1 } hgood1 (by
      show ((D.length - 1 : Nat) : Int) ≤ b.tos
      omega)
  have k2' : st1.tos = 0 := by
    rw [k2]
    show b.tos - ((D.length - 1 : Nat) : Int) = 0
    omega
  obtain ⟨out, hout, holen⟩ := k5.2.2 0 (by rw [k2']; simp)
  have hcase1 : VirtualMachine_case L npoint ptr_in
      ((D.flatMap fun d => d.c.con) ++ [(D.length : Rat)]) b o.toInt = some st1 := by
    rw [hcase]
    exact k1
  refine ⟨b, f, out, g1, by omega, hslot, g3, hconk, hf, hcase, ?_, holen, ?_⟩
  · unfold VirtualMachine
    have hn : ((((((D.flatMap fun d => d.c.code.tail) ++ [o.toInt]).length : Int)) ::
        ((D.flatMap fun d => d.c.code.tail) ++ [o.toInt])).getD 0 0).toNat =
        (D.flatMap fun d => d.c.code.tail).length + 1 := by
      rw [List.getD_cons_zero, List.length_append, List.length_singleton]
      omega
    rw [hn, VirtualMachine_exec_succ, g1]
    simp only
    have hop : ((((((D.flatMap fun d => d.c.code.tail) ++ [o.toInt]).length : Int)) ::
        ((D.flatMap fun d => d.c.code.tail) ++ [o.toInt])).get?
          ((D.flatMap fun d => d.c.code.tail).length + 1)) = some o.toInt := by
      rw [List.get?_cons_succ, List.get?_eq_getElem?,
        List.getElem?_append_right (Nat.le_refl _)]
      simp
    rw [hop]
    simp only
    rw [hcase1]
    exact hout
  · intro p hp
    have hall : ∀ j : Nat, j < ((D.map CallArg.out).reverse).length →
        b.slot (b.tos - j) = some (((D.map CallArg.out).reverse).getD j []) ∧
          (((D.map CallArg.out).reverse).getD j []).get? p =
            some ((((D.map CallArg.out).reverse).map fun v => v.getD p 0).getD j 0) := by
      intro j hj
      have hj2 : j < D.length := by simpa using hj
      obtain ⟨d, hd, hv⟩ := getD_reverse_map_out D hj2
      have hdl : d.out.length = npoint := (hD d (List.get?_mem hd)).2.2.2.2.2.2.2.2.1
      have hv2 : ((D.map CallArg.out).reverse)[j]? = some d.out := by
        rw [List.getD_eq_getElem?_getD, List.getElem?_eq_getElem hj] at hv
        rw [List.getElem?_eq_getElem hj]
        simp only [Option.getD_some] at hv
        rw [hv]
      have hys : (((D.map CallArg.out).reverse).map fun v => v.getD p 0).getD j 0 =
          d.out.getD p 0 := by
        rw [List.getD_eq_getElem?_getD, List.getElem?_map, hv2]
        rfl
      rw [hv, hys]
      constructor
      · have : b.tos - (j : Int) = ((D.length - 1 - j : Nat) : Int) := by omega
        rw [this]
        exact hslot _ d hd
      · rw [List.get?_eq_getElem?, List.getD_eq_getElem?_getD,
          List.getElem?_eq_getElem (by omega)]
        rfl
    obtain ⟨st2, r, res, m1, m2, _, m4, m5, m6, m7⟩ := VirtualMachine_case_minmax L npoint ptr_in
      ((D.flatMap fun d => d.c.con) ++ [(D.length : Rat)]) b ho
      ((D.map CallArg.out).reverse) (((D.map CallArg.out).reverse).map fun v => v.getD p 0) p
      (by simp; omega) (by simp) (by simpa using hconk) hall
    rw [hcase1] at m1
    injection m1 with m1
    subst m1
    rw [k2'] at m4
    have hro : r = out := by
      obtain ⟨_, _, hget⟩ := VMState.slot_some m4
      have : some r = some out := by
        rw [← hget]
        exact hout
      injection this
    subst hro
    have hmem : ∀ y, y ∈ (((D.map CallArg.out).reverse).map fun v => v.getD p 0) ↔
        ∃ d ∈ D, y = d.out.getD p 0 := by
      intro y
      simp only [List.mem_map, List.mem_reverse]
      constructor
      · rintro ⟨v, ⟨d, hd, rfl⟩, rfl⟩
        exact ⟨d, hd, rfl⟩
      · rintro ⟨d, hd, rfl⟩
        exact ⟨d.out, ⟨d, hd, rfl⟩, rfl⟩
    refine ⟨res, m5, ?_, ?_⟩
    · intro hnb
      obtain ⟨n1, n2, n3⟩ := m6 (by
        intro y hy
        obtain ⟨d, hd, rfl⟩ := (hmem y).1 hy
        exact hnb d hd)
      refine ⟨(hmem res).1 n1, ?_, ?_⟩
      · intro hmax d hd
        exact n2 hmax _ ((hmem _).2 ⟨d, hd, rfl⟩)
      · intro hmin d hd
        exact n3 hmin _ ((hmem _).2 ⟨d, hd, rfl⟩)
    · rintro ⟨d, hd, hbad⟩
      exact m7 ⟨d.out.getD p 0, (hmem _).2 ⟨d, hd, rfl⟩, hbad⟩

/-- C14: for every `k >= 2` and all argument texts `e1, ..., ek` (without a terminator
inside) that `CompileExpression` accepts, with the programs `c1, ..., ck`, the text
`max(e1,...,ek)` (for `OP_MIN`, `min(e1,...,ek)`) is accepted: its opcodes are the opcodes
of `c1, ..., ck` in turn followed by `OP_MAX`, and its constants are the constants of
`c1, ..., ck` in turn followed by the count `k`.  On inputs that cover the variables the
machine reaches the last opcode with the values of `e1, ..., ek` (what `VirtualMachine`
gives for `c1, ..., ck` alone) in the slots `0, ..., k - 1` of the stack, the constant
counter at the last constant, which is the count `k` that the opcode reads; the opcode
runs the pairwise reduction `k - 1` times; and `VirtualMachine` returns a vector that at
each point holds the largest (for `OP_MIN` the smallest) of the `k` values when none of
them is bad, and the bad value when one of them is.  `max(a,b,c)` stores the count 3 and
on `a = [1,9,3]`, `b = [2,2,2]`, `c = [3,5,7]` gives `[3,9,7]`; `min(a,b,c)` gives
`[1,2,2]`; with two and four arguments the counts stored are 2 and 4. -/
theorem C14_max_min_reduce :
    (∀ (L : MathLib) (o : Oper) (nvar : Nat) (var : List (List Char)) (npoint : Nat)
        (ptr_in : List (List Rat)) (es : List (List Char)) (cs : List Compiled),
      (o = OP_MAX ∨ o = OP_MIN) → InputsOK npoint nvar ptr_in → 2 ≤ es.length →
      (∀ e ∈ es, ∀ ch ∈ e, ch ≠ NUL) →
      List.Forall₂ (fun e c => CompileExpression e nvar var = .ok c) es cs →
      ∃ (c : Compiled) (outs : List (List Rat)) (st : VMState) (f : Rat → Rat → Rat)
          (out : List Rat),
        CompileExpression (callText o es) nvar var = .ok c ∧
        c.code = ((((cs.flatMap fun ci => ci.code.tail) ++ [o.toInt]).length : Int) ::
          ((cs.flatMap fun ci => ci.code.tail) ++ [o.toInt])) ∧
        c.con = (cs.flatMap fun ci => ci.con) ++ [(es.length : Rat)] ∧
        List.Forall₂ (fun ci v =>
          VirtualMachine L npoint nvar ptr_in ci.code ci.con ci.stacksize = some v) cs outs ∧
        VirtualMachine_exec L npoint ptr_in c.code c.con c.stacksize
          (cs.flatMap fun ci => ci.code.tail).length = some st ∧
        st.tos = (es.length : Int) - 1 ∧
        (∀ i v, outs.get? i = some v → st.slot i = some v) ∧
        st.icon + 1 = c.con.length ∧ c.con.get? st.icon = some (es.length : Rat) ∧
        fun2 L o = some f ∧
        VirtualMachine_case L npoint ptr_in c.con st o.toInt =
          DO_ARG_2_times L f (es.length - 1) { st with icon := st.icon + 1 } ∧
        VirtualMachine L npoint nvar ptr_in c.code c.con c.stacksize = some out ∧
        out.length = npoint ∧
        ∀ p, p < npoint → ∃ res, out.get? p = some res ∧
          ((∀ v ∈ outs, v.getD p 0 ≠ L.BAD) →
            (∃ v ∈ outs, res = v.getD p 0) ∧ (o = OP_MAX → ∀ v ∈ outs, v.getD p 0 ≤ res) ∧
              (o = OP_MIN → ∀ v ∈ outs, res ≤ v.getD p 0)) ∧
          ((∃ v ∈ outs, v.getD p 0 = L.BAD) → res = L.BAD)) ∧
    (callText OP_MAX ["a".toList, "b".toList, "c".toList] = "max(a,b,c)".toList ∧
      callText OP_MIN ["a".toList, "b".toList, "c".toList] = "min(a,b,c)".toList ∧
      CompileExpression "max(a,b,c)".toList 3 ["a".toList, "b".toList, "c".toList] =
        .ok ⟨[4, 2, 2, 2, 34], [0, 1, 2, 3], 3⟩ ∧
      VirtualMachine MathLib.sample 3 3 [[1, 9, 3], [2, 2, 2], [3, 5, 7]]
        [4, 2, 2, 2, 34] [0, 1, 2, 3] 3 = some [3, 9, 7] ∧
      CompileExpression "min(a,b,c)".toList 3 ["a".toList, "b".toList, "c".toList] =
        .ok ⟨[4, 2, 2, 2, 33], [0, 1, 2, 3], 3⟩ ∧
      VirtualMachine MathLib.sample 3 3 [[1, 9, 3], [2, 2, 2], [3, 5, 7]]
        [4, 2, 2, 2, 33] [0, 1, 2, 3] 3 = some [1, 2, 2] ∧
      VirtualMachine MathLib.sample 3 3
        [[1, MathLib.sample.BAD, 3], [2, 2, 2], [3, 5, MathLib.sample.BAD]]
        [4, 2, 2, 2, 34] [0, 1, 2, 3] 3 =
          some [3, MathLib.sample.BAD, MathLib.sample.BAD] ∧
      CompileExpression "max(a,b)".toList 3 ["a".toList, "b".toList, "c".toList] =
        .ok ⟨[3, 2, 2, 34], [0, 1, 2], 2⟩ ∧
      CompileExpression "max(a,b,c,a+b)".toList 3 ["a".toList, "b".toList, "c".toList] =
        .ok ⟨[7, 2, 2, 2, 2, 2, 28, 34], [0, 1, 2, 0, 1, 4], 5⟩ ∧
      OP_MAX.toInt = 34 ∧ OP_MIN.toInt = 33) := by
  refine ⟨?_, by decide, by decide, by decide!, by decide!, by decide!, by decide!, by decide!,
    by decide!, by decide!, by decide, by decide⟩
  intro L o nvar var npoint ptr_in es cs ho hin hk hN hcs
  obtain ⟨D, hDt, hDc, hD⟩ := CallArg.exists_list L hin es cs hN hcs
  have hlen : D.length = es.length := by
    rw [← hDt, List.length_map]
  cases D with
  | nil =>
    simp only [List.length_nil] at hlen
    omega
  | cons d1 rest =>
    obtain ⟨sym, hsym, hopc, htext⟩ := callText_symbol ho d1.text (rest.map CallArg.text)
    obtain ⟨S1, hcomp, hS⟩ := CompileExpression_call L hsym d1 rest hD (by
      simp only [List.length_cons] at hlen
      omega)
    obtain ⟨st, f, out, v1, v2, v3, v4, v5, v6, v7, v8, v9, v10⟩ :=
      VirtualMachine_call L ho (d1 :: rest) hD (by omega) S1 hS
    have hflat1 : (cs.flatMap fun ci => ci.code.tail) =
        (d1 :: rest).flatMap fun d => d.c.code.tail := by
      rw [← hDc]
      simp [List.flatMap_def, List.map_map, Function.comp_def]
    have hflat2 : (cs.flatMap fun ci => ci.con) = (d1 :: rest).flatMap fun d => d.c.con := by
      rw [← hDc]
      simp [List.flatMap_def, List.map_map, Function.comp_def]
    have hk1 : ((rest.length + 1 : Nat) : Rat) = (es.length : Rat) := by
      rw [← hlen]
      rfl
    have hk2 : (((d1 :: rest).length : Nat) : Rat) = (es.length : Rat) := by
      rw [hlen]
    have hk3 : (((d1 :: rest).length : Nat) : Int) = (es.length : Int) := by
      rw [hlen]
    have hk4 : (d1 :: rest).length - 1 = es.length - 1 := by
      rw [hlen]
    have hT : callText o es =
        (symbol sym).text.toList ++ callArgs ((d1 :: rest).map CallArg.text) := by
      rw [← hDt]
      exact htext
    rw [hopc, hk1] at hcomp
    rw [hk2] at v1 v5 v7 v8
    rw [hk3] at v2
    rw [hk4] at v7
    have hmem : ∀ v, v ∈ (d1 :: rest).map CallArg.out ↔ ∃ d ∈ d1 :: rest, d.out = v := by
      intro v
      simp only [List.mem_map]
    refine ⟨_, (d1 :: rest).map CallArg.out, st, f, out, by rw [hT]; exact hcomp, ?_, ?_, ?_,
      ?_, v2, ?_, ?_, ?_, v6, v7, v8, v9, ?_⟩
    · rw [hflat1]
    · rw [hflat2]
    · rw [← hDc, List.forall₂_map_left_iff, List.forall₂_map_right_iff, List.forall₂_same]
      intro d hd
      exact (hD d hd).2.2.2.2.2.2.2.2.2.1
    · show VirtualMachine_exec L npoint ptr_in _ _ S1 _ = some st
      rw [hflat1]
      exact v1
    · intro i v hi
      rw [List.get?_eq_getElem?, List.getElem?_map] at hi
      cases hdi : (d1 :: rest)[i]? with
      | none => rw [hdi] at hi; cases hi
      | some d =>
        rw [hdi] at hi
        simp only [Option.map_some', Option.some.injEq] at hi
        subst hi
        exact v3 i d (by rw [List.get?_eq_getElem?]; exact hdi)
    · show st.icon + 1 = (((d1 :: rest).flatMap fun d => d.c.con) ++ [(es.length : Rat)]).length
      rw [v4, List.length_append, List.length_singleton]
    · exact v5
    · intro p hp
      obtain ⟨res, r1, r2, r3⟩ := v10 p hp
      refine ⟨res, r1, ?_, ?_⟩
      · intro hnb
        obtain ⟨⟨d, hd, hres⟩, n2, n3⟩ := r2 (fun d hd => hnb _ ((hmem _).2 ⟨d, hd, rfl⟩))
        refine ⟨⟨d.out, (hmem _).2 ⟨d, hd, rfl⟩, hres⟩, ?_, ?_⟩
        · intro hmax v hv
          obtain ⟨d2, hd2, rfl⟩ := (hmem v).1 hv
          exact n2 hmax d2 hd2
        · intro hmin v hv
          obtain ⟨d2, hd2, rfl⟩ := (hmem v).1 hv
          exact n3 hmin d2 hd2
      · rintro ⟨v, hv, hbad⟩
        obtain ⟨d, hd, rfl⟩ := (hmem v).1 hv
        exact r3 ⟨d, hd, hbad⟩

/-- Witness of C14: `max(a,b,c)` from the programs of `a`, `b` and `c`, on three points. -/
theorem C14_max_min_reduce_witness :
    InputsOK 3 3 [[1, 9, 3], [2, 2, 2], [3, 5, 7]] ∧
    List.Forall₂ (fun e c => CompileExpression e 3 ["a".toList, "b".toList, "c".toList] = .ok c)
      ["a".toList, "b".toList, "c".toList]
      [⟨[1, 2], [0], 1⟩, ⟨[1, 2], [1], 1⟩, ⟨[1, 2], [2], 1⟩] ∧
    ∃ c, CompileExpression (callText OP_MAX ["a".toList, "b".toList, "c".toList]) 3
        ["a".toList, "b".toList, "c".toList] = .ok c ∧
      c.con = [0, 1, 2] ++ [3] ∧
      ∃ out, VirtualMachine MathLib.sample 3 3 [[1, 9, 3], [2, 2, 2], [3, 5, 7]]
        c.code c.con c.stacksize = some out ∧ out.length = 3 := by
  have hin : InputsOK 3 3 [[1, 9, 3], [2, 2, 2], [3, 5, 7]] := by
    refine ⟨by decide, ?_⟩
    decide
  have hcs : List.Forall₂
      (fun e c => CompileExpression e 3 ["a".toList, "b".toList, "c".toList] = .ok c)
      ["a".toList, "b".toList, "c".toList]
      [⟨[1, 2], [0], 1⟩, ⟨[1, 2], [1], 1⟩, ⟨[1, 2], [2], 1⟩] :=
    List.Forall₂.cons (by decide!) (List.Forall₂.cons (by decide!)
      (List.Forall₂.cons (by decide!) List.Forall₂.nil))
  obtain ⟨c, outs, st, f, out, h1, _, h3, _, _, _, _, _, _, _, _, h12, h13, _⟩ :=
    C14_max_min_reduce.1 MathLib.sample OP_MAX 3 ["a".toList, "b".toList, "c".toList] 3
      [[1, 9, 3], [2, 2, 2], [3, 5, 7]] ["a".toList, "b".toList, "c".toList]
      [⟨[1, 2], [0], 1⟩, ⟨[1, 2], [1], 1⟩, ⟨[1, 2], [2], 1⟩] (Or.inl rfl) hin (by decide)
      (by decide) hcs
  exact ⟨hin, hcs, c, h1, h3, out, h12, h13⟩

end MathMap
